import Mathlib

/-!
# ULTRA-Trip-Based: contraction hierarchies, ULTRA-RAPTOR and the ULTRA shortcut search

A shallow embedding of the parts of the repository the specification talks about,
followed by the theorems that settle the specification's claims.

Conventions of the embedding.

* C++ `int` values are mathematical integers (`Int`); the sentinels `intMax`, `never` and
  `INFTY` keep the numeric values of `Helpers/Types.h`, so every comparison against a
  sentinel is the comparison the source performs.  Where the source adds, subtracts or
  multiplies `int` values that can leave the range of `int`, the result is taken modulo
  2^32 (`wrapInt32`).
* `std::vector` is `List`; `v[i]` is `List.getD` with the default-constructed element as
  the default, and a write is `List.set`.  Reads and writes outside a vector are undefined
  in the source; theorems that depend on an index being valid carry that as a hypothesis.
* Pointers into an array are indices into it.
* Loops are structural recursions, either over the list iterated or over a fuel that
  bounds the number of iterations.
-/

/-! ## `Helpers/Types.h` -/

/-- `intMax`: the largest value of a 32-bit `int`. -/
def intMax : Int := 2147483647

/-- `never` is `intMax` in `Helpers/Types.h`. -/
def never : Int := intMax

/-- `INFTY` is `std::numeric_limits<int>::max() / 2`. -/
def INFTY : Int := intMax / 2

/-- The value of a 32-bit `int` after an arithmetic operation that may overflow: the
result modulo 2^32 in the range from -2^31 to 2^31 - 1. -/
def wrapInt32 (x : Int) : Int := (x + 2147483648) % 4294967296 - 2147483648

/-- The number is a value of `int`. -/
def FitsInt (x : Int) : Prop := -2147483648 ≤ x ∧ x ≤ 2147483647

/-- `noVertex`: the invalid value `-u_int32_t(1)` of a tagged integer. -/
def noVertex : Nat := 4294967295

/-- `noEdge`: the invalid value of an `Edge`. -/
def noEdge : Nat := 4294967295

/-- `noRouteId`: the invalid value of a `RouteId`. -/
def noRouteId : Nat := 4294967295

/-- `noStop`: the invalid value of a `StopId`. -/
def noStop : Nat := 4294967295

/-! ## Containers -/

/-- Apply `f` to the element at index `i`, when there is one (`v[i] = f(v[i])`). -/
def List.updateAt {α : Type} (l : List α) (i : Nat) (f : α → α) : List α :=
  match l[i]? with
  | some x => l.set i (f x)
  | none => l

/-- Modelled from the spec: `IndexedSet` (DataStructures/Container/Set.h is not among the
sources), the "set of dense integer id" of the spec: the keys in insertion order, each
at most once.  -/
structure IndexedSet where
  keys : List Nat
deriving DecidableEq, Repr

namespace IndexedSet

/-- The empty set. -/
def empty : IndexedSet := ⟨[]⟩

/-- Membership test `contains(key)`. -/
def contains (s : IndexedSet) (k : Nat) : Bool := s.keys.contains k

/-- Insertion `insert(key)`: appends the key unless it is present. -/
def insert (s : IndexedSet) (k : Nat) : IndexedSet :=
  if s.contains k then s else ⟨s.keys ++ [k]⟩

/-- Emptiness test `empty()`. -/
def isEmpty (s : IndexedSet) : Bool := s.keys.isEmpty

end IndexedSet

/-- `IndexedMap<VALUE, false, KEY>` of DataStructures/Container/Map.h: `indices[key]` is the
position of `key` in `keys`/`values`, or `NotContained`. -/
structure IndexedMap (Value : Type) where
  indices : List Nat
  keys : List Nat
  values : List Value
deriving DecidableEq, Repr

namespace IndexedMap

variable {Value : Type}

/-- `NotContained = std::numeric_limits<size_t>::max()`. -/
def NotContained : Nat := 18446744073709551615

/-- `IndexedMap(initialCapacity)`. -/
def init (initialCapacity : Nat) : IndexedMap Value :=
  ⟨List.replicate initialCapacity NotContained, [], []⟩

/-- `contains(key)` for a non-resizeable map. -/
def contains (m : IndexedMap Value) (key : Nat) : Bool :=
  m.indices.getD key NotContained != NotContained

/-- `operator[](key)`: `values[indices[key]]`. -/
def get [Inhabited Value] (m : IndexedMap Value) (key : Nat) : Value :=
  m.values.getD (m.indices.getD key NotContained) default

/-- `operator[](key) = value` on a contained key. -/
def setValue (m : IndexedMap Value) (key : Nat) (value : Value) : IndexedMap Value :=
  { m with values := m.values.set (m.indices.getD key NotContained) value }

/-- `insert(key, value)`. -/
def insert (m : IndexedMap Value) (key : Nat) (value : Value) : IndexedMap Value :=
  if m.contains key then
    m.setValue key value
  else
    { indices := m.indices.set key m.keys.length
      keys := m.keys ++ [key]
      values := m.values ++ [value] }

/-- `clear()`. -/
def clear (m : IndexedMap Value) : IndexedMap Value :=
  { indices := m.keys.foldl (fun ind key => ind.set key NotContained) m.indices
    keys := []
    values := [] }

end IndexedMap

/-- Modelled from the spec: `StaticGraph` (DataStructures/Graph/Classes/StaticGraph.h is
not among the sources), the CSR-like immutable layout of the spec: the edges leaving
vertex `v` are the edge ids `beginOut[v] .. beginOut[v+1] - 1`, and every edge carries
its `ToVertex` and its `TravelTime`. -/
structure StaticGraph where
  beginOut : List Nat
  toVertex : List Nat
  travelTime : List Int
deriving DecidableEq, Repr

namespace StaticGraph

/-- `numVertices()`. -/
def numVertices (g : StaticGraph) : Nat := g.beginOut.length - 1

/-- `beginEdgeFrom(v)`. -/
def beginEdgeFrom (g : StaticGraph) (v : Nat) : Nat := g.beginOut.getD v 0

/-- `edgesFrom(v)`: the edge ids leaving `v`. -/
def edgesFrom (g : StaticGraph) (v : Nat) : List Nat :=
  List.range' (g.beginEdgeFrom v) (g.beginEdgeFrom (v + 1) - g.beginEdgeFrom v)

end StaticGraph

/-! ## `RAPTOR::Data` and the ULTRA-RAPTOR query (Algorithms/RAPTOR/ULTRARAPTOR.h) -/

namespace RAPTOR

/-- One `(arrival, departure)` pair at one stop of one trip. -/
structure StopEvent where
  departureTime : Int
  arrivalTime : Int
deriving DecidableEq, Repr, Inhabited

/-- The pair `(routeId, stopIndex)`. -/
structure RouteSegment where
  routeId : Nat
  stopIndex : Nat
deriving DecidableEq, Repr, Inhabited

/-- `RAPTOR::Stop` of DataStructures/RAPTOR/Entities/Stop.h, without name and coordinates. -/
structure Stop where
  minTransferTime : Int := 0
deriving DecidableEq, Repr, Inhabited

/-- Modelled from the spec: `RAPTOR::Data` (DataStructures/RAPTOR/Data.h is not among the
sources).  Following the spec's timetable, a single global event array `stopEvents`
stores the stop-events grouped by route and then by trip, `firstStopEventOfRoute[r]` and
`firstStopIdOfRoute[r]` index into it and into the stop-sequence array `stopIds`, and
`routeSegments`, indexed through `firstRouteSegmentOfStop`, lists for every stop the
route segments that contain it.  Both index arrays have one entry more than there are
routes. -/
structure Data where
  firstRouteSegmentOfStop : List Nat
  firstStopIdOfRoute : List Nat
  firstStopEventOfRoute : List Nat
  routeSegments : List RouteSegment
  stopIds : List Nat
  stopEvents : List StopEvent
  stopData : List Stop
  transferGraph : StaticGraph
  implicitDepartureBufferTimes : Bool
deriving Repr

namespace Data

/-- `numberOfStops()`. -/
def numberOfStops (d : Data) : Nat := d.stopData.length

/-- `isStop(v)`: stops are a dense prefix of the vertices. -/
def isStop (d : Data) (v : Nat) : Bool := decide (v < d.numberOfStops)

/-- `numberOfRoutes()`. -/
def numberOfRoutes (d : Data) : Nat := d.firstStopIdOfRoute.length - 1

/-- `numberOfStopsInRoute(route)`. -/
def numberOfStopsInRoute (d : Data) (route : Nat) : Nat :=
  d.firstStopIdOfRoute.getD (route + 1) 0 - d.firstStopIdOfRoute.getD route 0

/-- `routesContainingStop(stop)`. -/
def routesContainingStop (d : Data) (stop : Nat) : List RouteSegment :=
  (d.routeSegments.drop (d.firstRouteSegmentOfStop.getD stop 0)).take
    (d.firstRouteSegmentOfStop.getD (stop + 1) 0 - d.firstRouteSegmentOfStop.getD stop 0)

/-- `stopArrayOfRoute(route)`, a pointer into `stopIds`. -/
def stopArrayOfRoute (d : Data) (route : Nat) : Nat := d.firstStopIdOfRoute.getD route 0

/-- `firstTripOfRoute(route)`, a pointer into `stopEvents`. -/
def firstTripOfRoute (d : Data) (route : Nat) : Nat := d.firstStopEventOfRoute.getD route 0

/-- `lastTripOfRoute(route)`, a pointer into `stopEvents`. -/
def lastTripOfRoute (d : Data) (route : Nat) : Nat :=
  d.firstStopEventOfRoute.getD (route + 1) 0 - d.numberOfStopsInRoute route

/-- The stop event a pointer designates. -/
def stopEventAt (d : Data) (i : Nat) : StopEvent := d.stopEvents.getD i default

/-- The stop a pointer into `stopIds` designates. -/
def stopIdAt (d : Data) (i : Nat) : Nat := d.stopIds.getD i noStop

end Data

/-- Modelled from the spec: the initial-transfer oracle (`BucketCHInitialTransfers`,
Algorithms/RAPTOR/InitialTransfers.h, is not among the sources).  After `run(source,
target)` it exposes `getDistance()`, `getForwardDistance(v)`, `getBackwardDistance(v)` and
`getForwardPOIs()`, the stops with finite forward distance; an unreachable vertex has
distance `INFTY`.  The record holds what the oracle answers after `run`. -/
structure InitialTransfers where
  getDistance : Int
  getForwardDistance : Nat → Int
  getBackwardDistance : Nat → Int
  getForwardPOIs : List Nat

/-- The template parameters of `ULTRARAPTOR`. -/
structure Config where
  TargetPruning : Bool
  UseMinTransferTimes : Bool
  PreventDirectWalking : Bool
deriving DecidableEq, Repr

namespace Config

/-- `SeparateRouteAndTransferEntries = UseMinTransferTimes | PreventDirectWalking`. -/
def SeparateRouteAndTransferEntries (c : Config) : Bool :=
  c.UseMinTransferTimes || c.PreventDirectWalking

/-- `RoundFactor = SeparateRouteAndTransferEntries ? 2 : 1`. -/
def RoundFactor (c : Config) : Nat := if c.SeparateRouteAndTransferEntries then 2 else 1

end Config

/-- `SeparatedEarliestArrivalTime` of DataStructures/RAPTOR/Entities/EarliestArrivalTime.h. -/
structure SeparatedEarliestArrivalTime where
  arrivalTimeByRoute : Int := never
  arrivalTimeByTransfer : Int := never
deriving DecidableEq, Repr

/-- `CombinedEarliestArrivalTime` of DataStructures/RAPTOR/Entities/EarliestArrivalTime.h. -/
structure CombinedEarliestArrivalTime where
  arrivalTime : Int := never
deriving DecidableEq, Repr

/-- `EarliestArrivalTime<B> = Meta::IF<B, SeparatedEarliestArrivalTime,
CombinedEarliestArrivalTime>`. -/
def EarliestArrivalTime : Bool → Type
  | true => SeparatedEarliestArrivalTime
  | false => CombinedEarliestArrivalTime

namespace EarliestArrivalTime

/-- The default constructor. -/
def init : (b : Bool) → EarliestArrivalTime b
  | true => ({} : SeparatedEarliestArrivalTime)
  | false => ({} : CombinedEarliestArrivalTime)

/-- `setArrivalTimeByRoute(time)`. -/
def setArrivalTimeByRoute : {b : Bool} → EarliestArrivalTime b → Int → EarliestArrivalTime b
  | true, e, time => ({ (e : SeparatedEarliestArrivalTime) with arrivalTimeByRoute := time } :
      SeparatedEarliestArrivalTime)
  | false, _, time => (⟨time⟩ : CombinedEarliestArrivalTime)

/-- `setArrivalTimeByTransfer(time)`. -/
def setArrivalTimeByTransfer : {b : Bool} → EarliestArrivalTime b → Int → EarliestArrivalTime b
  | true, e, time => ({ (e : SeparatedEarliestArrivalTime) with arrivalTimeByTransfer := time } :
      SeparatedEarliestArrivalTime)
  | false, _, time => (⟨time⟩ : CombinedEarliestArrivalTime)

/-- `getArrivalTimeByRoute()`. -/
def getArrivalTimeByRoute : {b : Bool} → EarliestArrivalTime b → Int
  | true, e => (e : SeparatedEarliestArrivalTime).arrivalTimeByRoute
  | false, e => (e : CombinedEarliestArrivalTime).arrivalTime

/-- `getArrivalTimeByTransfer()`. -/
def getArrivalTimeByTransfer : {b : Bool} → EarliestArrivalTime b → Int
  | true, e => (e : SeparatedEarliestArrivalTime).arrivalTimeByTransfer
  | false, e => (e : CombinedEarliestArrivalTime).arrivalTime

/-- `getArrivalTime()`: `std::min(arrivalTimeByRoute, arrivalTimeByTransfer)` for separate
entries, the one arrival time for combined entries. -/
def getArrivalTime : {b : Bool} → EarliestArrivalTime b → Int
  | true, e => min (e : SeparatedEarliestArrivalTime).arrivalTimeByRoute
      (e : SeparatedEarliestArrivalTime).arrivalTimeByTransfer
  | false, e => (e : CombinedEarliestArrivalTime).arrivalTime

end EarliestArrivalTime

/-- `RAPTOR::ArrivalLabel` of DataStructures/RAPTOR/Entities/ArrivalLabel.h. -/
structure ArrivalLabel where
  arrivalTime : Int
  numberOfTrips : Nat
deriving DecidableEq, Repr

/-- `ULTRARAPTOR::EarliestArrivalLabel`; `routeId` stands for the union of `routeId` and
`transferId`. -/
structure EarliestArrivalLabel where
  arrivalTime : Int := never
  parentDepartureTime : Int := never
  parent : Nat := noVertex
  usesRoute : Bool := false
  routeId : Nat := noRouteId
deriving DecidableEq, Repr

instance : Inhabited EarliestArrivalLabel := ⟨{}⟩

/-- One round: a label per stop, and one more for the target. -/
abbrev Round := List EarliestArrivalLabel

/-- The mutable members of `ULTRARAPTOR`; `separate` is the template constant
`SeparateRouteAndTransferEntries`, which fixes the type of `earliestArrival`. -/
structure ULTRARAPTOR (separate : Bool) where
  rounds : List Round
  earliestArrival : List (EarliestArrivalTime separate)
  stopsUpdatedByRoute : IndexedSet
  stopsUpdatedByTransfer : IndexedSet
  routesServingUpdatedStops : IndexedMap Nat
  sourceVertex : Nat
  targetVertex : Nat
  targetStop : Nat
  sourceDepartureTime : Int

namespace ULTRARAPTOR

/-- The constructor: `earliestArrival` has one entry per stop and one for the target. -/
def init (cfg : Config) (data : Data) : ULTRARAPTOR cfg.SeparateRouteAndTransferEntries :=
  { rounds := []
    earliestArrival := List.replicate (data.numberOfStops + 1)
      (EarliestArrivalTime.init cfg.SeparateRouteAndTransferEntries)
    stopsUpdatedByRoute := IndexedSet.empty
    stopsUpdatedByTransfer := IndexedSet.empty
    routesServingUpdatedStops := IndexedMap.init data.numberOfRoutes
    sourceVertex := noVertex
    targetVertex := noVertex
    targetStop := noStop
    sourceDepartureTime := never }

/-- `clear()` (with `RESET_CAPACITIES = false`). -/
def clear (cfg : Config) (data : Data) (s : ULTRARAPTOR cfg.SeparateRouteAndTransferEntries) : ULTRARAPTOR cfg.SeparateRouteAndTransferEntries :=
  { s with
    stopsUpdatedByRoute := IndexedSet.empty
    stopsUpdatedByTransfer := IndexedSet.empty
    routesServingUpdatedStops := s.routesServingUpdatedStops.clear
    targetStop := data.numberOfStops
    sourceDepartureTime := never
    rounds := []
    earliestArrival := s.earliestArrival.map
      (fun _ => EarliestArrivalTime.init cfg.SeparateRouteAndTransferEntries) }

/-- `startNewRound()`. -/
def startNewRound (data : Data) {sep : Bool} (s : ULTRARAPTOR sep) : ULTRARAPTOR sep :=
  { s with rounds := s.rounds ++ [List.replicate (data.numberOfStops + 1) default] }

/-- The label `rounds[round][stop]`. -/
def label {sep : Bool} (s : ULTRARAPTOR sep) (round stop : Nat) : EarliestArrivalLabel :=
  (s.rounds.getD round []).getD stop default

/-- `currentRound()[stop]`. -/
def currentLabel {sep : Bool} (s : ULTRARAPTOR sep) (stop : Nat) : EarliestArrivalLabel :=
  s.label (s.rounds.length - 1) stop

/-- `previousRound()[stop]`. -/
def previousLabel {sep : Bool} (s : ULTRARAPTOR sep) (stop : Nat) : EarliestArrivalLabel :=
  s.label (s.rounds.length - 2) stop

/-- A write to `currentRound()[stop]`. -/
def modifyCurrent {sep : Bool} (s : ULTRARAPTOR sep) (stop : Nat)
    (f : EarliestArrivalLabel → EarliestArrivalLabel) : ULTRARAPTOR sep :=
  { s with rounds := s.rounds.updateAt (s.rounds.length - 1) (fun r => r.updateAt stop f) }

/-- `earliestArrival[stop]`. -/
def earliest {sep : Bool} (s : ULTRARAPTOR sep) (stop : Nat) : EarliestArrivalTime sep :=
  s.earliestArrival.getD stop (EarliestArrivalTime.init sep)

/-- `arrivalByRoute(stop, time)`. -/
def arrivalByRoute (cfg : Config) (s : ULTRARAPTOR cfg.SeparateRouteAndTransferEntries) (stop : Nat) (time : Int) :
    Bool × ULTRARAPTOR cfg.SeparateRouteAndTransferEntries :=
  if cfg.TargetPruning && decide ((earliest s s.targetStop).getArrivalTimeByRoute ≤ time) then
    (false, s)
  else if (earliest s stop).getArrivalTimeByRoute ≤ time then
    (false, s)
  else
    let s1 := s.modifyCurrent stop (fun l => { l with arrivalTime := time })
    let s2 := { s1 with earliestArrival :=
      s1.earliestArrival.updateAt stop (fun e => e.setArrivalTimeByRoute time) }
    (true, { s2 with stopsUpdatedByRoute := s2.stopsUpdatedByRoute.insert stop })

/-- `arrivalByTransfer(stop, time)`. -/
def arrivalByTransfer (cfg : Config) (data : Data) (s : ULTRARAPTOR cfg.SeparateRouteAndTransferEntries) (stop : Nat) (time : Int) :
    Bool × ULTRARAPTOR cfg.SeparateRouteAndTransferEntries :=
  if cfg.TargetPruning && decide ((earliest s s.targetStop).getArrivalTimeByTransfer ≤ time) then
    (false, s)
  else if (earliest s stop).getArrivalTimeByTransfer ≤ time then
    (false, s)
  else
    let s1 := s.modifyCurrent stop (fun l => { l with arrivalTime := time })
    let s2 := { s1 with earliestArrival :=
      s1.earliestArrival.updateAt stop (fun e => e.setArrivalTimeByTransfer time) }
    (true, if data.isStop stop then
      { s2 with stopsUpdatedByTransfer := s2.stopsUpdatedByTransfer.insert stop } else s2)

/-- `initialize(source, departureTime, target)` (`initialize` is reserved in Lean). -/
def initializeQuery (cfg : Config) (data : Data) (s : ULTRARAPTOR cfg.SeparateRouteAndTransferEntries) (source : Nat)
    (departureTime : Int) (target : Nat) : ULTRARAPTOR cfg.SeparateRouteAndTransferEntries :=
  let s := { s with sourceVertex := source, targetVertex := target }
  let s := if data.isStop target then { s with targetStop := target } else s
  let s := { s with sourceDepartureTime := departureTime }
  let s := s.startNewRound data
  let s :=
    if data.isStop source then
      let s := (arrivalByRoute cfg s source s.sourceDepartureTime).2
      let s := s.modifyCurrent source (fun l =>
        { l with parent := source, parentDepartureTime := s.sourceDepartureTime,
                 usesRoute := false })
      if cfg.SeparateRouteAndTransferEntries then s
      else { s with stopsUpdatedByTransfer := s.stopsUpdatedByTransfer.insert source }
    else s
  if cfg.SeparateRouteAndTransferEntries then s.startNewRound data else s

/-- The body of the inner loop of `collectRoutesServingUpdatedStops` for one route segment
of a stop whose previous-round arrival time is `arrivalTime`. -/
def collectRoute (data : Data) (arrivalTime : Int) (m : IndexedMap Nat)
    (route : RouteSegment) : IndexedMap Nat :=
  if route.stopIndex + 1 = data.numberOfStopsInRoute route.routeId then m
  else if (data.stopEventAt (data.lastTripOfRoute route.routeId + route.stopIndex)).departureTime
      < arrivalTime then m
  else if m.contains route.routeId then
    m.setValue route.routeId (min (m.get route.routeId) route.stopIndex)
  else m.insert route.routeId route.stopIndex

/-- `collectRoutesServingUpdatedStops()`. -/
def collectRoutesServingUpdatedStops (data : Data) {sep : Bool} (s : ULTRARAPTOR sep) : ULTRARAPTOR sep :=
  let m := s.stopsUpdatedByTransfer.keys.foldl
    (fun m stop =>
      (data.routesContainingStop stop).foldl
        (collectRoute data (s.previousLabel stop).arrivalTime) m)
    s.routesServingUpdatedStops
  { s with routesServingUpdatedStops := m }

/-- The loop `while ((trip > firstTrip) && ((trip - tripSize + stopIndex)->departureTime >=
previousRound()[stop].arrivalTime))` of `scanRoutes`; returns the trip and `parentIndex`. -/
def earlierTrip (data : Data) (arrival : Int) (tripSize stopIndex firstTrip : Nat) :
    Nat → Nat → Nat → Nat × Nat
  | 0, trip, parentIndex => (trip, parentIndex)
  | fuel + 1, trip, parentIndex =>
    if firstTrip < trip ∧
        arrival ≤ (data.stopEventAt (trip - tripSize + stopIndex)).departureTime then
      earlierTrip data arrival tripSize stopIndex firstTrip fuel (trip - tripSize) stopIndex
    else (trip, parentIndex)

/-- The loop `while (stopIndex < tripSize - 1)` of `scanRoutes` for one route. -/
def scanRoute (cfg : Config) (data : Data) (route tripSize stops firstTrip : Nat) :
    Nat → ULTRARAPTOR cfg.SeparateRouteAndTransferEntries → Nat → Nat → Nat →
      ULTRARAPTOR cfg.SeparateRouteAndTransferEntries
  | 0, s, _, _, _ => s
  | fuel + 1, s, stopIndex, trip, parentIndex =>
    if stopIndex < tripSize - 1 then
      let stop := data.stopIdAt (stops + stopIndex)
      let (trip, parentIndex) :=
        earlierTrip data (s.previousLabel stop).arrivalTime tripSize stopIndex firstTrip
          (trip + 1) trip parentIndex
      let stopIndex := stopIndex + 1
      let stop := data.stopIdAt (stops + stopIndex)
      let r := arrivalByRoute cfg s stop (data.stopEventAt (trip + stopIndex)).arrivalTime
      let s :=
        if r.1 then
          r.2.modifyCurrent stop (fun l =>
            { l with parent := data.stopIdAt (stops + parentIndex),
                     parentDepartureTime := (data.stopEventAt (trip + parentIndex)).departureTime,
                     usesRoute := true, routeId := route })
        else r.2
      scanRoute cfg data route tripSize stops firstTrip fuel s stopIndex trip parentIndex
    else s

/-- `scanRoutes()`. -/
def scanRoutes (cfg : Config) (data : Data) (s : ULTRARAPTOR cfg.SeparateRouteAndTransferEntries) : ULTRARAPTOR cfg.SeparateRouteAndTransferEntries :=
  let s := { s with stopsUpdatedByRoute := IndexedSet.empty }
  s.routesServingUpdatedStops.keys.foldl
    (fun s route =>
      let stopIndex := s.routesServingUpdatedStops.get route
      let tripSize := data.numberOfStopsInRoute route
      scanRoute cfg data route tripSize (data.stopArrayOfRoute route)
        (data.firstTripOfRoute route) tripSize s stopIndex (data.lastTripOfRoute route) stopIndex)
    s

/-- The four assignments to a label reached by a transfer. -/
def setTransferParent {sep : Bool} (s : ULTRARAPTOR sep) (stop parent : Nat) (parentDepartureTime : Int)
    (transferId : Nat) : ULTRARAPTOR sep :=
  s.modifyCurrent stop (fun l =>
    { l with parent := parent, parentDepartureTime := parentDepartureTime,
             usesRoute := false, routeId := transferId })

/-- `relaxInitialTransfers(sourceDepartureTime)`; `it` is the oracle after
`initialTransfers.run(sourceVertex, targetVertex)`. -/
def relaxInitialTransfers (cfg : Config) (data : Data) (it : InitialTransfers)
    (s : ULTRARAPTOR cfg.SeparateRouteAndTransferEntries) (sourceDepartureTime : Int) : ULTRARAPTOR cfg.SeparateRouteAndTransferEntries :=
  let s := it.getForwardPOIs.foldl
    (fun s stop =>
      if stop = s.targetStop then s
      else
        let r := arrivalByTransfer cfg data s stop (sourceDepartureTime + it.getForwardDistance stop)
        if r.1 then r.2.setTransferParent stop r.2.sourceVertex sourceDepartureTime noEdge
        else r.2)
    s
  if cfg.PreventDirectWalking then s
  else if it.getDistance ≠ INFTY then
    let r := arrivalByTransfer cfg data s s.targetStop (sourceDepartureTime + it.getDistance)
    if r.1 then r.2.setTransferParent r.2.targetStop r.2.sourceVertex sourceDepartureTime noEdge
    else r.2
  else s

/-- `getMinTransferTime(stop)`. -/
def getMinTransferTime (cfg : Config) (data : Data) (stop : Nat) : Int :=
  if cfg.UseMinTransferTimes then (data.stopData.getD stop default).minTransferTime else 0

/-- The body of the outer loop of `relaxIntermediateTransfers` for one stop updated by a
route. -/
def relaxStop (cfg : Config) (data : Data) (it : InitialTransfers) (s : ULTRARAPTOR cfg.SeparateRouteAndTransferEntries)
    (stop : Nat) : ULTRARAPTOR cfg.SeparateRouteAndTransferEntries :=
  let earliestArrivalTime :=
    if cfg.SeparateRouteAndTransferEntries then (s.previousLabel stop).arrivalTime
    else (s.currentLabel stop).arrivalTime
  let s := (data.transferGraph.edgesFrom stop).foldl
    (fun s edge =>
      let toStop := data.transferGraph.toVertex.getD edge noVertex
      if toStop = s.targetStop then s
      else
        let r := arrivalByTransfer cfg data s toStop
          (earliestArrivalTime + data.transferGraph.travelTime.getD edge 0)
        if r.1 then r.2.setTransferParent toStop stop earliestArrivalTime edge else r.2)
    s
  let s :=
    if it.getBackwardDistance stop ≠ INFTY then
      let r := arrivalByTransfer cfg data s s.targetStop
        (earliestArrivalTime + it.getBackwardDistance stop)
      if r.1 then r.2.setTransferParent r.2.targetStop stop earliestArrivalTime noEdge else r.2
    else s
  if cfg.SeparateRouteAndTransferEntries then
    let r := arrivalByTransfer cfg data s stop (earliestArrivalTime + getMinTransferTime cfg data stop)
    if r.1 then
      r.2.modifyCurrent stop (fun l =>
        { l with parent := stop, parentDepartureTime := earliestArrivalTime, usesRoute := false })
    else r.2
  else { s with stopsUpdatedByTransfer := s.stopsUpdatedByTransfer.insert stop }

/-- `relaxIntermediateTransfers()`. -/
def relaxIntermediateTransfers (cfg : Config) (data : Data) (it : InitialTransfers)
    (s : ULTRARAPTOR cfg.SeparateRouteAndTransferEntries) : ULTRARAPTOR cfg.SeparateRouteAndTransferEntries :=
  let s := { s with stopsUpdatedByTransfer := IndexedSet.empty,
                    routesServingUpdatedStops := s.routesServingUpdatedStops.clear }
  s.stopsUpdatedByRoute.keys.foldl (relaxStop cfg data it) s

/-- The loop `for (size_t i = 0; i < maxRounds; i++)` of `run`. -/
def roundLoop (cfg : Config) (data : Data) (it : InitialTransfers) :
    Nat → ULTRARAPTOR cfg.SeparateRouteAndTransferEntries →
      ULTRARAPTOR cfg.SeparateRouteAndTransferEntries
  | 0, s => s
  | rounds + 1, s =>
    let s := s.startNewRound data
    let s := s.collectRoutesServingUpdatedStops data
    let s := s.scanRoutes cfg data
    if s.stopsUpdatedByRoute.isEmpty then s
    else
      let s := if cfg.SeparateRouteAndTransferEntries then s.startNewRound data else s
      roundLoop cfg data it rounds (s.relaxIntermediateTransfers cfg data it)

/-- `run(source, departureTime, target, maxRounds)`; `it source target` is the
initial-transfer oracle after `run(source, target)`. -/
def run (cfg : Config) (data : Data) (it : Nat → Nat → InitialTransfers) (s : ULTRARAPTOR cfg.SeparateRouteAndTransferEntries)
    (source : Nat) (departureTime : Int) (target : Nat) (maxRounds : Nat) : ULTRARAPTOR cfg.SeparateRouteAndTransferEntries :=
  let s := s.clear cfg data
  let s := s.initializeQuery cfg data source departureTime target
  let s := s.relaxInitialTransfers cfg data (it s.sourceVertex s.targetVertex) departureTime
  roundLoop cfg data (it s.sourceVertex s.targetVertex) maxRounds s

/-- The bound `labels.empty() ? never : labels.back().arrivalTime` of `getArrival`. -/
def lastArrival (labels : List ArrivalLabel) : Int :=
  match labels.getLast? with
  | none => never
  | some l => l.arrivalTime

/-- `getArrival(labels, round, stop)`. -/
def getArrival (cfg : Config) (s : ULTRARAPTOR cfg.SeparateRouteAndTransferEntries) (labels : List ArrivalLabel) (round stop : Nat) :
    List ArrivalLabel :=
  let round :=
    if cfg.SeparateRouteAndTransferEntries then
      if round + 1 < s.rounds.length ∧
          (s.label (round + 1) stop).arrivalTime < (s.label round stop).arrivalTime then round + 1
      else round
    else round
  if (s.label round stop).arrivalTime ≥ lastArrival labels then labels
  else labels ++ [⟨(s.label round stop).arrivalTime, round / cfg.RoundFactor⟩]

/-- The index under which a vertex is looked up: `(vertex == targetVertex) ? targetStop :
StopId(vertex)`. -/
def targetOf {sep : Bool} (s : ULTRARAPTOR sep) (vertex : Nat) : Nat :=
  if vertex = s.targetVertex then s.targetStop else vertex

/-- The loop `for (size_t i = 0; i < rounds.size(); i += RoundFactor)` of `getArrivals`,
from round `i` on. -/
def getArrivalsFrom (cfg : Config) (s : ULTRARAPTOR cfg.SeparateRouteAndTransferEntries) (target : Nat) :
    Nat → Nat → List ArrivalLabel → List ArrivalLabel
  | 0, _, labels => labels
  | fuel + 1, i, labels =>
    if i < s.rounds.length then
      getArrivalsFrom cfg s target fuel (i + cfg.RoundFactor) (getArrival cfg s labels i target)
    else labels

/-- `getArrivals(vertex)`. -/
def getArrivals (cfg : Config) (s : ULTRARAPTOR cfg.SeparateRouteAndTransferEntries) (vertex : Nat) : List ArrivalLabel :=
  getArrivalsFrom cfg s (s.targetOf vertex) s.rounds.length 0 []

/-- `reachable(vertex)`. -/
def reachable (cfg : Config) (s : ULTRARAPTOR cfg.SeparateRouteAndTransferEntries) (vertex : Nat) : Bool :=
  decide ((earliest s (s.targetOf vertex)).getArrivalTime < never)

/-- `getEarliestArrivalTime(vertex)`. -/
def getEarliestArrivalTime (cfg : Config) (s : ULTRARAPTOR cfg.SeparateRouteAndTransferEntries) (vertex : Nat) : Int :=
  (earliest s (s.targetOf vertex)).getArrivalTime

/-- The best arrival time recorded at `stop` for `n` trips: the label of round `n`, or,
when route and transfer entries are separate, the better of the route round `2n` and the
transfer round `2n+1` that follows it (if there is one). -/
def bestArrival (cfg : Config) (s : ULTRARAPTOR cfg.SeparateRouteAndTransferEntries) (stop n : Nat) : Int :=
  if cfg.SeparateRouteAndTransferEntries then
    if 2 * n + 1 < s.rounds.length then
      min (s.label (2 * n) stop).arrivalTime (s.label (2 * n + 1) stop).arrivalTime
    else (s.label (2 * n) stop).arrivalTime
  else (s.label n stop).arrivalTime

/-- The running minimum `min(never, best 0, …, best (k-1))`. -/
def prefixBest (cfg : Config) (s : ULTRARAPTOR cfg.SeparateRouteAndTransferEntries) (stop : Nat) : Nat → Int
  | 0 => never
  | k + 1 => min (prefixBest cfg s stop k) (bestArrival cfg s stop k)

/-- The invariant of the loop of `getArrivals` before the iteration for `k` trips. -/
structure ArrivalsInv (cfg : Config) (s : ULTRARAPTOR cfg.SeparateRouteAndTransferEntries) (stop k : Nat)
    (labels : List ArrivalLabel) : Prop where
  sorted : labels.Pairwise
    (fun x y => y.arrivalTime < x.arrivalTime ∧ x.numberOfTrips < y.numberOfTrips)
  last : lastArrival labels = prefixBest cfg s stop k
  mem : ∀ a n, (⟨a, n⟩ : ArrivalLabel) ∈ labels ↔
    n < k ∧ a = bestArrival cfg s stop n ∧ a < prefixBest cfg s stop n

/-- The calls a query makes after `clear()` that do not record an arrival at the stop
index `t`: `earliestArrival` is written by `arrivalByRoute` and `arrivalByTransfer` only,
so a state is reached from `s` without an arrival at `t` when every step is either one of
these two calls, for another stop or rejected, or a step that leaves `earliestArrival`
alone (a new round, parent pointers, the updated-stop sets, the source and the target). -/
inductive NoArrivalAt (cfg : Config) (data : Data) (t : Nat)
    (s : ULTRARAPTOR cfg.SeparateRouteAndTransferEntries) :
    ULTRARAPTOR cfg.SeparateRouteAndTransferEntries → Prop where
  | start : NoArrivalAt cfg data t s s
  | frame {s1 s2 : ULTRARAPTOR cfg.SeparateRouteAndTransferEntries} :
      NoArrivalAt cfg data t s s1 → s2.earliestArrival = s1.earliestArrival →
      NoArrivalAt cfg data t s s2
  | byRoute {s1 : ULTRARAPTOR cfg.SeparateRouteAndTransferEntries} (stop : Nat) (time : Int) :
      NoArrivalAt cfg data t s s1 →
      (stop ≠ t ∨ (arrivalByRoute cfg s1 stop time).1 = false) →
      NoArrivalAt cfg data t s (arrivalByRoute cfg s1 stop time).2
  | byTransfer {s1 : ULTRARAPTOR cfg.SeparateRouteAndTransferEntries} (stop : Nat) (time : Int) :
      NoArrivalAt cfg data t s s1 →
      (stop ≠ t ∨ (arrivalByTransfer cfg data s1 stop time).1 = false) →
      NoArrivalAt cfg data t s (arrivalByTransfer cfg data s1 stop time).2

/-- The network of the scenario "direct walking vs. transit": stops A = 0 and B = 1, one
route A, B with one trip that departs from A at 08:00 (28800 s) and arrives at B at 08:10
(29400 s); no transfer shortcuts. -/
def walkVsTripData : Data :=
  { firstRouteSegmentOfStop := [0, 1, 2]
    firstStopIdOfRoute := [0, 2]
    firstStopEventOfRoute := [0, 2]
    routeSegments := [⟨0, 0⟩, ⟨0, 1⟩]
    stopIds := [0, 1]
    stopEvents := [⟨28800, 28800⟩, ⟨29400, 29400⟩]
    stopData := [{}, {}]
    transferGraph := ⟨[0, 0, 0], [], []⟩
    implicitDepartureBufferTimes := true }

/-- The walking distances of the scenario: walking from A to B takes 300 s, nothing else
is connected. -/
def walkVsTripTransfers (source target : Nat) : InitialTransfers :=
  { getDistance := if source = target then 0 else if source = 0 ∧ target = 1 then 300 else INFTY
    getForwardDistance := fun v =>
      if v = source then 0 else if source = 0 ∧ v = 1 then 300 else INFTY
    getBackwardDistance := fun v =>
      if v = target then 0 else if v = 0 ∧ target = 1 then 300 else INFTY
    getForwardPOIs := if source = 0 then [0, 1] else if source = 1 then [1] else [] }

/-- `ULTRARAPTOR<true>`: target pruning, combined route and transfer entries. -/
def targetPruningConfig : Config := ⟨true, false, false⟩

/-- `ULTRARAPTOR<true, ..., true, false>`: target pruning with minimum transfer times,
hence separate route and transfer entries. -/
def minTransferTimeConfig : Config := ⟨true, true, false⟩

/-- The state of the query (A, 08:00, B) with separate entries at the start of its first
round, when the routes are about to be scanned. -/
def walkVsTripSeparateState :
    ULTRARAPTOR minTransferTimeConfig.SeparateRouteAndTransferEntries :=
  startNewRound walkVsTripData
    (relaxInitialTransfers minTransferTimeConfig walkVsTripData (walkVsTripTransfers 0 1)
      (initializeQuery minTransferTimeConfig walkVsTripData
        (clear minTransferTimeConfig walkVsTripData (init minTransferTimeConfig walkVsTripData))
        0 28800 1)
      28800)

/-- The state of the query (A, 08:00, B) with combined entries at the start of its first
round, when the routes are about to be scanned. -/
def walkVsTripState : ULTRARAPTOR targetPruningConfig.SeparateRouteAndTransferEntries :=
  startNewRound walkVsTripData
    (relaxInitialTransfers targetPruningConfig walkVsTripData (walkVsTripTransfers 0 1)
      (initializeQuery targetPruningConfig walkVsTripData
        (clear targetPruningConfig walkVsTripData (init targetPruningConfig walkVsTripData))
        0 28800 1)
      28800)

end ULTRARAPTOR

end RAPTOR

/-! ## Contraction hierarchies (Algorithms/CH/Preprocessing) -/

namespace CH

/-- An edge of a `CHCoreGraph` with its attributes `FromVertex`, `ToVertex`, `ViaVertex`
and `Weight`. -/
structure CoreEdge where
  fromVertex : Nat
  toVertex : Nat
  viaVertex : Nat
  weight : Int
deriving DecidableEq, Repr, Inhabited

/-- Modelled from the spec: `DynamicGraph` (DataStructures/Graph/Classes/DynamicGraph.h is
not among the sources), the dynamic layout of the spec with `addEdge` and
`isolateVertex`.  The graph is the list of its edges in the order of their insertion;
`edgesFrom` and `edgesTo` enumerate the edges leaving and entering a vertex in that
order. -/
structure DynamicGraph where
  numVertices : Nat
  edges : List CoreEdge
deriving DecidableEq, Repr

namespace DynamicGraph

/-- `edgesFrom(v)`. -/
def edgesFrom (g : DynamicGraph) (v : Nat) : List CoreEdge :=
  g.edges.filter (fun e => e.fromVertex = v)

/-- `edgesTo(v)`. -/
def edgesTo (g : DynamicGraph) (v : Nat) : List CoreEdge :=
  g.edges.filter (fun e => e.toVertex = v)

/-- `outDegree(v)`. -/
def outDegree (g : DynamicGraph) (v : Nat) : Nat := (g.edgesFrom v).length

/-- `inDegree(v)`. -/
def inDegree (g : DynamicGraph) (v : Nat) : Nat := (g.edgesTo v).length

/-- `degree(v)`: the total degree of the spec. -/
def degree (g : DynamicGraph) (v : Nat) : Nat := g.inDegree v + g.outDegree v

/-- `findEdge(from, to)`: the position of the first edge from `from` to `to`. -/
def findEdge (g : DynamicGraph) (fromV toV : Nat) : Option Nat :=
  g.edges.findIdx? (fun e => e.fromVertex = fromV ∧ e.toVertex = toV)

/-- `addEdge(from, to).set(ViaVertex, via).set(Weight, weight)`. -/
def addEdge (g : DynamicGraph) (e : CoreEdge) : DynamicGraph :=
  { g with edges := g.edges ++ [e] }

/-- `isolateVertex(v)`: removes every edge leaving or entering `v`. -/
def isolateVertex (g : DynamicGraph) (v : Nat) : DynamicGraph :=
  { g with edges := g.edges.filter (fun e => e.fromVertex ≠ v ∧ e.toVertex ≠ v) }

end DynamicGraph

/-- Modelled from the spec: the operations of `ExternalKHeap` (DataStructures/Container/
ExternalKHeap.h is not among the sources) on the set of elements that are on the heap.
`heapFront key Q` is `front()`: an element of minimal key, the first one in `Q` when
several are minimal; the theorems use only that its key is minimal. -/
def heapFront (key : Nat → Int) : List Nat → Option Nat
  | [] => none
  | x :: xs =>
    match heapFront key xs with
    | none => some x
    | some y => if key y < key x then some y else some x

/-- `update(element)`: puts the element on the heap unless it is there (its position
follows its key, which the element carries itself). -/
def heapUpdate (Q : List Nat) (x : Nat) : List Nat :=
  if x ∈ Q then Q else Q ++ [x]

/-- The template parameters `Q_POP_LIMIT` and `ADAPTIVE_Q_POP_LIMIT` of the witness search;
`enabled = false` is `NoWitnessSearch`, which answers "necessary" to every question. -/
structure WitnessConfig where
  enabled : Bool
  QPopLimit : Int
  AdaptiveQPopLimit : Bool
deriving DecidableEq, Repr

/-- `WitnessSearch::VertexLabel` (its heap position is the membership in `Q`). -/
structure VertexLabel where
  distance : Int := intMax
  timeStamp : Int := -1
deriving DecidableEq, Repr

instance : Inhabited VertexLabel := ⟨{}⟩

/-- The mutable members of `WitnessSearch`. -/
structure WitnessSearch where
  Q : List Nat
  label : List VertexLabel
  timeStamp : Int
  currentFrom : Nat
  currentVia : Nat
  qPops : Int
  qPopLimit : Int
deriving DecidableEq, Repr

namespace WitnessSearch

/-- The constructor `WitnessSearch()`. -/
def new : WitnessSearch :=
  { Q := [], label := [], timeStamp := 0, currentFrom := noVertex, currentVia := noVertex,
    qPops := 0, qPopLimit := 0 }

/-- `initialize(graph, weight, debugger)` followed by `reset()` (`initialize` is reserved
in Lean). -/
def initializeSearch (ws : WitnessSearch) (graph : DynamicGraph) : WitnessSearch :=
  { ws with label := List.replicate graph.numVertices default,
            currentFrom := noVertex, currentVia := noVertex }

/-- `getLabel(vertex)`, the state afterwards: a label of an older time stamp is reset. -/
def getLabel (ws : WitnessSearch) (vertex : Nat) : WitnessSearch :=
  let reset := fun (l : VertexLabel) =>
    if l.timeStamp ≠ ws.timeStamp then (⟨intMax, ws.timeStamp⟩ : VertexLabel) else l
  { ws with label := ws.label.updateAt vertex reset }

/-- `label[vertex].distance`. -/
def distance (ws : WitnessSearch) (vertex : Nat) : Int :=
  (ws.label.getD vertex default).distance

/-- The first statements of the branch of `shortcutIsNecessary` taken when
`(currentFrom != from) || (currentVia != via)`: a new time stamp, an empty queue and the
source with distance 0 on it. -/
def startSearch (ws : WitnessSearch) (fromV via : Nat) : WitnessSearch :=
  let ws := { ws with currentFrom := fromV, currentVia := via, Q := [],
                      timeStamp := ws.timeStamp + 1 }
  let ws := ws.getLabel fromV
  let ws := { ws with label := ws.label.updateAt fromV (fun l => { l with distance := 0 }) }
  { ws with Q := heapUpdate ws.Q fromV }

/-- The block `if constexpr (QPopLimit > 0)` of that branch. -/
def resetPops (cfg : WitnessConfig) (graph : DynamicGraph) (via : Nat) (ws : WitnessSearch) :
    WitnessSearch :=
  if 0 < cfg.QPopLimit then
    let ws := { ws with qPops := 0 }
    if cfg.AdaptiveQPopLimit then
      { ws with qPopLimit := cfg.QPopLimit * (graph.outDegree via : Int) }
    else ws
  else ws

/-- The branch of `shortcutIsNecessary` taken when `(currentFrom != from) || (currentVia !=
via)`. -/
def restart (cfg : WitnessConfig) (graph : DynamicGraph) (ws : WitnessSearch)
    (fromV via : Nat) : WitnessSearch :=
  resetPops cfg graph via (startSearch ws fromV via)

/-- The body of the loop over the edges of the settled vertex `u`. -/
def relaxEdge (via u : Nat) (ws : WitnessSearch) (edge : CoreEdge) : WitnessSearch :=
  let v := edge.toVertex
  if v = via then ws
  else
    let ws := ws.getLabel v
    let distance := wrapInt32 (ws.distance u + edge.weight)
    if ws.distance v > distance then
      { ws with label := ws.label.updateAt v (fun l => { l with distance := distance }),
                Q := heapUpdate ws.Q v }
    else ws

/-- The settling of the front `u` of the queue: `Q.extractFront()` and the loop over the
edges leaving `u`. -/
def settle (graph : DynamicGraph) (via u : Nat) (ws : WitnessSearch) : WitnessSearch :=
  (graph.edgesFrom u).foldl (relaxEdge via u) { ws with Q := ws.Q.erase u }

/-- The block `if constexpr (QPopLimit > 0)` at the end of an iteration: counts the
settled vertex and tells whether the loop is left. -/
def countPop (cfg : WitnessConfig) (ws : WitnessSearch) : Bool × WitnessSearch :=
  if 0 < cfg.QPopLimit then
    let ws := { ws with qPops := ws.qPops + 1 }
    if cfg.AdaptiveQPopLimit then (decide (ws.qPops > ws.qPopLimit), ws)
    else (decide (ws.qPops > cfg.QPopLimit), ws)
  else (false, ws)

/-- The loop `while (!Q.empty())` of `shortcutIsNecessary`; `none` when the fuel does not
suffice to reach the end of the loop. -/
def searchLoop (cfg : WitnessConfig) (graph : DynamicGraph) (toV via : Nat)
    (shortcutDistance : Int) : Nat → WitnessSearch → Option WitnessSearch
  | 0, _ => none
  | fuel + 1, ws =>
    match heapFront ws.distance ws.Q with
    | none => some ws
    | some u =>
      if ws.distance u > shortcutDistance then some ws
      else if u = toV then some ws
      else
        let r := countPop cfg (settle graph via u ws)
        if r.1 then some r.2
        else searchLoop cfg graph toV via shortcutDistance fuel r.2

/-- `shortcutIsNecessary(from, to, via, shortcutDistance)`: the answer and the state
afterwards.  Every iteration of the loop takes a vertex from the queue, and a relaxation
puts a vertex on it only when it lowers the 32-bit distance of its label, so the loop ends
within `label.size() * 2^32 + Q.size()` iterations; it is given one more, and `none` would
mean that this did not suffice. -/
def shortcutIsNecessary (cfg : WitnessConfig) (graph : DynamicGraph) (ws : WitnessSearch)
    (fromV toV via : Nat) (shortcutDistance : Int) : Option (Bool × WitnessSearch) :=
  if cfg.enabled then
    let ws := if ws.currentFrom ≠ fromV ∨ ws.currentVia ≠ via then
      restart cfg graph ws fromV via else ws
    match searchLoop cfg graph toV via shortcutDistance
        (ws.label.length * 4294967296 + ws.Q.length + 1) ws with
    | none => none
    | some ws =>
      let ws := ws.getLabel toV
      some (decide (ws.distance toV > shortcutDistance), ws)
  else some (true, ws)

end WitnessSearch

end CH

namespace CH

/-- A walk in the edge list `E` from `u` to `v` of total weight `w` that enters only
vertices satisfying `P` (the start vertex is not entered). -/
inductive Walk (E : List CoreEdge) (P : Nat → Prop) : Nat → Nat → Int → Prop where
  | nil (u : Nat) : Walk E P u u 0
  | snoc {u x : Nat} {w : Int} (e : CoreEdge) :
      Walk E P u x w → e ∈ E → e.fromVertex = x → P e.toVertex →
      Walk E P u e.toVertex (w + e.weight)

/-- Every edge joins two vertices of the graph. -/
def DynamicGraph.InRange (g : DynamicGraph) : Prop :=
  ∀ e ∈ g.edges, e.fromVertex < g.numVertices ∧ e.toVertex < g.numVertices

/-- Every weight is at most `intMax / 3`: the sum of three weights fits `int`. -/
def DynamicGraph.Light (g : DynamicGraph) : Prop :=
  ∀ e ∈ g.edges, e.weight ≤ intMax / 3

/-- The inputs the builder and the witness search are written for: `noVertex` is not a
vertex, every edge joins two vertices of the graph, and the weights are non-negative. -/
structure DynamicGraph.WellFormed (g : DynamicGraph) : Prop where
  size : g.numVertices ≤ noVertex
  range : ∀ e ∈ g.edges, e.fromVertex < g.numVertices ∧ e.toVertex < g.numVertices
  nonneg : ∀ e ∈ g.edges, 0 ≤ e.weight

namespace WitnessSearch

/-- `label[vertex].timeStamp`. -/
def stamp (ws : WitnessSearch) (vertex : Nat) : Int :=
  (ws.label.getD vertex default).timeStamp

/-- What `getLabel(x).distance` would return: the distance of a label of the current time
stamp, `intMax` for an older label. -/
def eff (ws : WitnessSearch) (x : Nat) : Int :=
  if ws.stamp x = ws.timeStamp then ws.distance x else intMax

/-- The invariant of the witness search that does not depend on the graph: the queue
holds vertices with a finite current label, each once; labels lie between 0 and `intMax`;
and a settled vertex (finite current label, not on the queue) is no farther than any
vertex on the queue. -/
structure Ordered (n : Nat) (ws : WitnessSearch) : Prop where
  len : ws.label.length = n
  tsNonneg : 0 ≤ ws.timeStamp
  stamps : ∀ x, ws.stamp x ≤ ws.timeStamp
  queue : ∀ x ∈ ws.Q, x < n ∧ ws.eff x < intMax
  nodup : ws.Q.Nodup
  bounds : ∀ x, 0 ≤ ws.eff x ∧ ws.eff x ≤ intMax
  settled : ∀ x y, ws.eff x < intMax → x ∉ ws.Q → y ∈ ws.Q → ws.eff x ≤ ws.eff y

/-- Every finite label is the weight of a walk from `currentFrom` that does not enter
`currentVia`. -/
def Sound (g : DynamicGraph) (ws : WitnessSearch) : Prop :=
  ∀ x, ws.eff x < intMax →
    Walk g.edges (fun v => v ≠ ws.currentVia) ws.currentFrom x (ws.eff x)

/-- The source has distance 0 and every edge out of a settled vertex is relaxed. -/
structure Closed (g : DynamicGraph) (ws : WitnessSearch) : Prop where
  source : ws.eff ws.currentFrom = 0
  relaxed : ∀ x, ws.eff x < intMax → x ∉ ws.Q → ∀ e ∈ g.edges, e.fromVertex = x →
    e.toVertex ≠ ws.currentVia → ws.eff e.toVertex ≤ ws.eff x + e.weight

/-- The number of vertices that are not settled: a bound on the iterations left. -/
def unsettled (n : Nat) (ws : WitnessSearch) : Nat :=
  ((List.range n).filter (fun x => decide (¬ (ws.eff x < intMax ∧ x ∉ ws.Q)))).length

/-- The part of the invariant of the witness search that holds whatever the weights of the
graph are: there is a label for each of the `n` vertices, no label has a time stamp of the
future, and the distances are values of `int`. -/
structure Sized (n : Nat) (ws : WitnessSearch) : Prop where
  len : ws.label.length = n
  stamps : ∀ x, ws.stamp x ≤ ws.timeStamp
  range : ∀ x, -2147483648 ≤ ws.eff x ∧ ws.eff x ≤ intMax

/-- A bound on the iterations of the loop of `shortcutIsNecessary` that are left, whatever
the weights are: every iteration takes a vertex from the queue, and a vertex is put on it
only when its distance gets smaller. -/
def potential (n : Nat) (ws : WitnessSearch) : Nat :=
  ((List.range n).map (fun x => (ws.eff x + 2147483648).toNat)).sum + ws.Q.length

/-- One question to the witness search: `shortcutIsNecessary(from, to, via,
shortcutDistance)`. -/
structure Call where
  fromVertex : Nat
  toVertex : Nat
  viaVertex : Nat
  shortcutDistance : Int
deriving DecidableEq, Repr

/-- A sequence of calls of `shortcutIsNecessary` on a fixed graph: the answers and the
state afterwards. -/
def runCalls (cfg : WitnessConfig) (graph : DynamicGraph) :
    WitnessSearch → List Call → Option (List Bool × WitnessSearch)
  | ws, [] => some ([], ws)
  | ws, c :: cs =>
    match shortcutIsNecessary cfg graph ws c.fromVertex c.toVertex c.viaVertex
        c.shortcutDistance with
    | none => none
    | some (b, ws) =>
      match runCalls cfg graph ws cs with
      | none => none
      | some (bs, ws) => some (b :: bs, ws)

end WitnessSearch

end CH

namespace CH

namespace WitnessSearch

/-- The invariant while the edges of the vertex `u` just taken from the queue are relaxed:
`u` is settled, no settled vertex is farther than `u` and no queued vertex is nearer. -/
structure Mid (n u : Nat) (ws : WitnessSearch) : Prop where
  ordered : Ordered n ws
  finite : ws.eff u < intMax
  notQueued : u ∉ ws.Q
  below : ∀ x, ws.eff x < intMax → x ∉ ws.Q → ws.eff x ≤ ws.eff u
  above : ∀ y ∈ ws.Q, ws.eff u ≤ ws.eff y

end WitnessSearch

end CH

namespace CH

namespace WitnessSearch

/-- Why the loop of `shortcutIsNecessary` has ended: the queue is empty, its front is
farther than the shortcut distance or is the target, or the limit of settled vertices
(which exists only for a positive `QPopLimit`) was reached. -/
def Exit (cfg : WitnessConfig) (toV : Nat) (shortcutDistance : Int) (ws : WitnessSearch) :
    Prop :=
  ws.Q = [] ∨
    (∃ u, heapFront ws.distance ws.Q = some u ∧ (shortcutDistance < ws.eff u ∨ u = toV)) ∨
    0 < cfg.QPopLimit

end WitnessSearch

end CH

namespace CH

/-- `WitnessSearch<Graph, Debugger>` with its default parameters `Q_POP_LIMIT = -1` and
`ADAPTIVE_Q_POP_LIMIT = true`: no limit on the settled vertices. -/
def unlimitedWitnessSearch : WitnessConfig := ⟨true, -1, true⟩

/-- `NoWitnessSearch`. -/
def noWitnessSearch : WitnessConfig := ⟨false, -1, true⟩

/-- The path A, B, C (vertices 0, 1, 2) with the weights `intMax` and 0: the shortcut from A
to C over B has the weight `intMax`. -/
def heavyPath : DynamicGraph :=
  ⟨3, [⟨0, 1, noVertex, 2147483647⟩, ⟨1, 2, noVertex, 0⟩]⟩

/-- The path of the vertices 0, 1, 2, 3 with three edges of weight 10^9, and the vertex 4
without edges: the distance from 0 to 3 is 3 * 10^9, which does not fit `int`. -/
def billionPath : DynamicGraph :=
  ⟨5, [⟨0, 1, noVertex, 1000000000⟩, ⟨1, 2, noVertex, 1000000000⟩,
       ⟨2, 3, noVertex, 1000000000⟩]⟩

/-- Five vertices and five edges of weight 10^9: the path from 0 over 1 to 2 and the
detour from 0 over 3 and 4 to 2, whose weight 3 * 10^9 does not fit `int`. -/
def billionDetour : DynamicGraph :=
  ⟨5, [⟨0, 1, noVertex, 1000000000⟩, ⟨1, 2, noVertex, 1000000000⟩,
       ⟨0, 3, noVertex, 1000000000⟩, ⟨3, 4, noVertex, 1000000000⟩,
       ⟨4, 2, noVertex, 1000000000⟩]⟩

/-- Three vertices and the single edge from 0 to 1 of weight 7: vertex 2 is unreachable. -/
def oneEdgeGraph : DynamicGraph := ⟨3, [⟨0, 1, noVertex, 7⟩]⟩

/-- The triangle A, B, C (vertices 0, 1, 2) with A to B and B to C of weight 1 and the
direct edge A to C of weight 5. -/
def triangle : DynamicGraph :=
  ⟨3, [⟨0, 1, noVertex, 1⟩, ⟨1, 2, noVertex, 1⟩, ⟨0, 2, noVertex, 5⟩]⟩

namespace WitnessSearch

/-- The invariant a sequence of calls keeps: the search is ordered and sound, and closed
once a search has been started. -/
def Inv (g : DynamicGraph) (ws : WitnessSearch) : Prop :=
  Ordered g.numVertices ws ∧ Sound g ws ∧ (ws.currentFrom < g.numVertices → Closed g ws)

end WitnessSearch

end CH

namespace CH

/-- Four questions about the triangle: is the shortcut from A to C over B necessary with
distance 2, 5 and 4, and the shortcut from A to B over C with distance 0. -/
def triangleCalls : List WitnessSearch.Call :=
  [⟨0, 2, 1, 2⟩, ⟨0, 2, 1, 5⟩, ⟨0, 2, 1, 4⟩, ⟨0, 1, 2, 0⟩]

end CH

/-! ### The builder (Algorithms/CH/Preprocessing/CHBuilder.h) -/

namespace CH

/-- Modelled from the spec: `CH::Data` (Algorithms/CH/Preprocessing/CHData.h is not among
the sources), the CH data of the spec: the core graph, the forward and the backward
overlay, the contraction order and the 16-bit level of every vertex. -/
structure Data where
  numVertices : Nat
  core : DynamicGraph
  forwardCH : DynamicGraph
  backwardCH : DynamicGraph
  order : List Nat
  level : List Nat
deriving DecidableEq, Repr

/-- `Data(graph, weight)`: the core is the input graph, the overlays are empty, the levels
are 0. -/
def Data.ofGraph (g : DynamicGraph) : Data :=
  { numVertices := g.numVertices
    core := g
    forwardCH := ⟨g.numVertices, []⟩
    backwardCH := ⟨g.numVertices, []⟩
    order := []
    level := List.replicate g.numVertices 0 }

/-- `Builder::Shortcut`. -/
structure Shortcut where
  fromVertex : Nat
  toVertex : Nat
  weight : Int
deriving DecidableEq, Repr

/-- A key function (the template parameter `KEY_FUNCTION`) with internal state `σ`:
`key` is `operator()(vertex)`, which reads the data and may question the witness search
it was initialized with; `update` is `update(builder)`, modelled by the new internal state
and the vertices for which it calls `builder.reKey`. -/
structure KeyFunction (σ : Type) where
  key : σ → Data → WitnessSearch → Nat → Option (Int × WitnessSearch)
  update : σ → Data → σ × List Nat

/-- The other template parameters of `Builder`: the witness search, `BREAK_KEY_TIES_BY_ID`,
the reordering of the candidate shortcuts (`std::sort` for `SORT_SHORTCUTS`, nothing
otherwise), and the stop criterion (StopCriterion.h is not among the sources: any
predicate of the data and the queue).  `BUILD_Q_LINEAR` only changes how the same queue
is built. -/
structure BuilderConfig where
  witness : WitnessConfig
  BreakKeyTiesById : Bool
  sortShortcuts : List Shortcut → List Shortcut
  stopCriterion : Data → List Nat → Bool

/-- The mutable members of `Builder`; `label` holds the keys. -/
structure Builder (σ : Type) where
  data : Data
  keyState : σ
  witnessSearch : WitnessSearch
  Q : List Nat
  label : List Int

/-- `front()` of the builder's queue: `hasSmallerKey` compares the keys and, for
`BreakKeyTiesById`, the positions of the labels. -/
def queueFront (breakTies : Bool) (key : Nat → Int) : List Nat → Option Nat
  | [] => none
  | x :: xs =>
    match queueFront breakTies key xs with
    | none => some x
    | some y =>
      if key y < key x ∨ (breakTies = true ∧ key y = key x ∧ y < x) then some y else some x

namespace Builder

variable {σ : Type}

/-- The candidate shortcuts of `contract(vertex)`: one for every edge into the vertex and
every edge out of it whose ends differ. -/
def shortcutsOf (core : DynamicGraph) (vertex : Nat) : List Shortcut :=
  (core.edgesTo vertex).foldr
    (fun first acc =>
      (core.edgesFrom vertex).foldr
        (fun second acc2 =>
          if first.fromVertex = second.toVertex then acc2
          else ⟨first.fromVertex, second.toVertex,
            wrapInt32 (first.weight + second.weight)⟩ :: acc2)
        [] ++ acc)
    []

/-- `addShortcut(from, to, via, shortcutWeight)` on the core graph. -/
def addShortcut (core : DynamicGraph) (fromV toV via : Nat) (shortcutWeight : Int) :
    DynamicGraph :=
  match core.findEdge fromV toV with
  | some i =>
    if (core.edges.getD i default).weight > shortcutWeight then
      let edges := core.edges.updateAt i
        (fun e => { e with viaVertex := via, weight := shortcutWeight })
      { core with edges := edges }
    else core
  | none => core.addEdge ⟨fromV, toV, via, shortcutWeight⟩

/-- The loop `for (Shortcut shortcut : shortcuts)` of `contract`. -/
def testShortcuts (cfg : WitnessConfig) (vertex : Nat) :
    List Shortcut → DynamicGraph → WitnessSearch → Option (DynamicGraph × WitnessSearch)
  | [], core, ws => some (core, ws)
  | s :: rest, core, ws =>
    match ws.shortcutIsNecessary cfg core s.fromVertex s.toVertex vertex s.weight with
    | none => none
    | some (necessary, ws) =>
      testShortcuts cfg vertex rest
        (if necessary then addShortcut core s.fromVertex s.toVertex vertex s.weight else core) ws

/-- The edges `contract(vertex)` adds to the forward overlay. -/
def forwardEdges (core : DynamicGraph) (vertex : Nat) : List CoreEdge :=
  ((core.edgesFrom vertex).filter (fun e => vertex ≠ e.toVertex)).map
    (fun e => ⟨vertex, e.toVertex, e.viaVertex, e.weight⟩)

/-- The edges `contract(vertex)` adds to the backward overlay. -/
def backwardEdges (core : DynamicGraph) (vertex : Nat) : List CoreEdge :=
  ((core.edgesTo vertex).filter (fun e => vertex ≠ e.fromVertex)).map
    (fun e => ⟨vertex, e.fromVertex, e.viaVertex, e.weight⟩)

/-- Insertion into the `std::set<Vertex> neighbors`, kept in increasing order. -/
def setInsert (x : Nat) : List Nat → List Nat
  | [] => [x]
  | y :: ys => if x < y then x :: y :: ys else if x = y then y :: ys else y :: setInsert x ys

/-- The `neighbors` of `contract(vertex)`. -/
def neighborsOf (core : DynamicGraph) (vertex : Nat) : List Nat :=
  let outs := ((core.edgesFrom vertex).filter (fun e => vertex ≠ e.toVertex)).map
    (fun e => e.toVertex)
  let ins := ((core.edgesTo vertex).filter (fun e => vertex ≠ e.fromVertex)).map
    (fun e => e.fromVertex)
  (outs ++ ins).foldl (fun acc x => setInsert x acc) []

/-- `label[vertex].key = getKey(vertex); Q.update(&(label[vertex]))`, which is `reKey`. -/
def reKey (kf : KeyFunction σ) (b : Builder σ) (vertex : Nat) : Option (Builder σ) :=
  match kf.key b.keyState b.data b.witnessSearch vertex with
  | none => none
  | some (k, ws) =>
    some { b with witnessSearch := ws, label := b.label.updateAt vertex (fun _ => k),
                  Q := heapUpdate b.Q vertex }

/-- The loop `for (Vertex neighbor : neighbors)` of `contract`. -/
def updateNeighbors (kf : KeyFunction σ) (level : Nat) :
    List Nat → Builder σ → Option (Builder σ)
  | [], b => some b
  | neighbor :: rest, b =>
    let levels := b.data.level.updateAt neighbor (fun l => max l level)
    let data := { b.data with level := levels }
    match reKey kf { b with data := data } neighbor with
    | none => none
    | some b => updateNeighbors kf level rest b

/-- `contract(vertex)`. -/
def contract (cfg : BuilderConfig) (kf : KeyFunction σ) (b : Builder σ) (vertex : Nat) :
    Option (Builder σ) :=
  let shortcuts := cfg.sortShortcuts (shortcutsOf b.data.core vertex)
  match testShortcuts cfg.witness vertex shortcuts b.data.core b.witnessSearch with
  | none => none
  | some (core, ws) =>
    let neighbors := neighborsOf core vertex
    let data : Data :=
      { b.data with
        order := b.data.order ++ [vertex]
        forwardCH := ⟨b.data.forwardCH.numVertices,
          b.data.forwardCH.edges ++ forwardEdges core vertex⟩
        backwardCH := ⟨b.data.backwardCH.numVertices,
          b.data.backwardCH.edges ++ backwardEdges core vertex⟩
        core := core.isolateVertex vertex }
    let level := (b.data.level.getD vertex 0 + 1) % 65536
    updateNeighbors kf level neighbors { b with data := data, witnessSearch := ws }

/-- The calls of `reKey` that `keyFunction.update(*this)` makes. -/
def reKeyAll (kf : KeyFunction σ) : List Nat → Builder σ → Option (Builder σ)
  | [], b => some b
  | v :: rest, b =>
    match reKey kf b v with
    | none => none
    | some b => reKeyAll kf rest b

/-- `contractQVertices()`: the loop `while (!Q.empty())`; `none` when the fuel does not
suffice to reach its end. -/
def contractQVertices (cfg : BuilderConfig) (kf : KeyFunction σ) :
    Nat → Builder σ → Option (Builder σ)
  | 0, _ => none
  | fuel + 1, b =>
    if b.Q.isEmpty then some b
    else
      let u := kf.update b.keyState b.data
      match reKeyAll kf u.2 { b with keyState := u.1 } with
      | none => none
      | some b =>
        if cfg.stopCriterion b.data b.Q then some b
        else
          match queueFront cfg.BreakKeyTiesById (fun v => b.label.getD v 0) b.Q with
          | none => some b
          | some v =>
            match contract cfg kf { b with Q := b.Q.erase v } v with
            | none => none
            | some b => contractQVertices cfg kf fuel b

/-- The loop of `buildQ<true>()` over the vertices. -/
def buildQ (kf : KeyFunction σ) : List Nat → Builder σ → Option (Builder σ)
  | [], b => some b
  | vertex :: rest, b =>
    let data := { b.data with level := b.data.level.updateAt vertex (fun _ => 0) }
    match reKey kf { b with data := data } vertex with
    | none => none
    | some b => buildQ kf rest b

/-- The constructor `Builder(graph, weight, keyFunction, ...)`. -/
def new (g : DynamicGraph) (keyState : σ) : Builder σ :=
  { data := Data.ofGraph g
    keyState := keyState
    witnessSearch := WitnessSearch.new
    Q := []
    label := List.replicate g.numVertices 0 }

/-- `run()`: `initialize<true>()`, `buildQ<true>()` and `contractQVertices()`. -/
def run (cfg : BuilderConfig) (kf : KeyFunction σ) (fuel : Nat) (b : Builder σ) :
    Option (Builder σ) :=
  let b : Builder σ :=
    { b with data := { b.data with order := [] },
             label := List.replicate b.data.numVertices 0,
             witnessSearch := b.witnessSearch.initializeSearch b.data.core,
             Q := [] }
  match buildQ kf (List.range b.data.core.numVertices) b with
  | none => none
  | some b => contractQVertices cfg kf fuel b

/-- The loop of `copyCoreToCH()` over the queue, in the order of extraction. -/
def copyCore (cfg : BuilderConfig) : Nat → Builder σ → Builder σ
  | 0, b => b
  | fuel + 1, b =>
    match queueFront cfg.BreakKeyTiesById (fun v => b.label.getD v 0) b.Q with
    | none => b
    | some v =>
      let edges := b.data.core.edgesFrom v
      let data : Data :=
        { b.data with
          forwardCH := ⟨b.data.forwardCH.numVertices,
            b.data.forwardCH.edges ++
              edges.map (fun e => ⟨v, e.toVertex, e.viaVertex, e.weight⟩)⟩
          backwardCH := ⟨b.data.backwardCH.numVertices,
            b.data.backwardCH.edges ++
              edges.map (fun e => ⟨e.toVertex, v, e.viaVertex, e.weight⟩)⟩ }
      copyCore cfg fuel { b with data := data, Q := b.Q.erase v }

/-- `copyCoreToCH()`. -/
def copyCoreToCH (cfg : BuilderConfig) (b : Builder σ) : Builder σ :=
  copyCore cfg b.Q.length b

end Builder

end CH

/-! ### Key functions (Algorithms/CH/Preprocessing/KeyFunction.h) -/

namespace CH

/-- The loops of `GreedyKey::simulateContract(vertex)` over the pairs of an edge into the
vertex and an edge out of it, which are the candidate shortcuts of `contract`: the number
of candidates the witness search calls necessary, counted in an `int`. -/
def simulateContract (cfg : WitnessConfig) (core : DynamicGraph) (vertex : Nat) :
    List Shortcut → WitnessSearch → Int → Option (Int × WitnessSearch)
  | [], ws, shortcutsAdded => some (shortcutsAdded, ws)
  | s :: rest, ws, shortcutsAdded =>
    match ws.shortcutIsNecessary cfg core s.fromVertex s.toVertex vertex s.weight with
    | none => none
    | some (necessary, ws) =>
      simulateContract cfg core vertex rest ws
        (if necessary then wrapInt32 (shortcutsAdded + 1) else shortcutsAdded)

/-- The expression `((shortcutWeight * shortcutsAdded) / (inDegree + outDegree)) +
((levelWeight * data->level[vertex])) + ((degreeWeight * inDegree * outDegree))` of
`GreedyKey::operator()`: the sums and products are those of `int`, and the division of
`int` rounds toward zero. -/
def greedyKeyValue (shortcutWeight levelWeight degreeWeight shortcutsAdded inDegree outDegree
    level : Int) : Int :=
  wrapInt32 (wrapInt32
    ((wrapInt32 (shortcutWeight * shortcutsAdded)).tdiv (wrapInt32 (inDegree + outDegree))
      + wrapInt32 (levelWeight * level))
    + wrapInt32 (wrapInt32 (degreeWeight * inDegree) * outDegree))

/-- `GreedyKey<WitnessSearch>(shortcutWeight, levelWeight, degreeWeight)`; the degrees are
converted to `int`, and the level of the vertex is a 16-bit value. -/
def greedyKey (cfg : WitnessConfig) (shortcutWeight levelWeight degreeWeight : Int) :
    KeyFunction Unit :=
  { key := fun _ data ws vertex =>
      let inDegree : Int := wrapInt32 (data.core.inDegree vertex)
      let outDegree : Int := wrapInt32 (data.core.outDegree vertex)
      let degree : Int := wrapInt32 (data.core.degree vertex)
      let level : Int := data.level.getD vertex 0
      if inDegree ≤ 2 ∧ outDegree ≤ 2 ∧ degree ≤ 1 then some (level - 1000, ws)
      else if inDegree ≤ 2 ∧ outDegree ≤ 2 ∧ degree = 2 then some (level - 100000, ws)
      else
        match simulateContract cfg data.core vertex (Builder.shortcutsOf data.core vertex)
            ws 0 with
        | none => none
        | some (shortcutsAdded, ws) =>
          some (greedyKeyValue shortcutWeight levelWeight degreeWeight shortcutsAdded
            inDegree outDegree level, ws)
    update := fun st _ => (st, []) }

/-- `PermutationKey<WitnessSearch>(permutation)`. -/
def permutationKey (permutation : List Nat) : KeyFunction Unit :=
  { key := fun _ _ ws vertex => some ((permutation.getD vertex 0 : Nat), ws)
    update := fun st _ => (st, []) }

/-- `GreedyKey` with its default weights 1024, 1024 and 0. -/
def defaultGreedyKey (cfg : WitnessConfig) : KeyFunction Unit := greedyKey cfg 1024 1024 0

/-- A builder with the witness search and otherwise the default template parameters:
`NoStopCriterion`, no breaking of ties, no sorting of the shortcuts. -/
def witnessBuilder : BuilderConfig :=
  { witness := unlimitedWitnessSearch
    BreakKeyTiesById := false
    sortShortcuts := fun l => l
    stopCriterion := fun _ _ => false }

/-- The chain A, B, C, D, E (vertices 0 to 4) with unit weights in both directions. -/
def unitChain : DynamicGraph :=
  ⟨5, [⟨0, 1, noVertex, 1⟩, ⟨1, 0, noVertex, 1⟩, ⟨1, 2, noVertex, 1⟩, ⟨2, 1, noVertex, 1⟩,
       ⟨2, 3, noVertex, 1⟩, ⟨3, 2, noVertex, 1⟩, ⟨3, 4, noVertex, 1⟩, ⟨4, 3, noVertex, 1⟩]⟩

/-! ### Distances and the invariants of the builder -/

/-- The shortest-path distance from `s` to `t` in the edge list `E`: the least weight of a
walk, `none` when there is no walk (an infinite distance). -/
def IsDistance (E : List CoreEdge) (s t : Nat) : Option Int → Prop
  | none => ∀ w, ¬ Walk E (fun _ => True) s t w
  | some d => Walk E (fun _ => True) s t d ∧ ∀ w, Walk E (fun _ => True) s t w → d ≤ w

/-- The minimum over the vertices `m` of the distance from `s` to `m` in `F` plus the
distance from `t` to `m` in `B`: the least sum of the weights of a walk from `s` in `F`
and a walk from `t` in `B` that end at the same vertex, `none` when no two such walks
exist. -/
def IsMeetingDistance (F B : List CoreEdge) (s t : Nat) : Option Int → Prop
  | none => ∀ m w1 w2, Walk F (fun _ => True) s m w1 → ¬ Walk B (fun _ => True) t m w2
  | some d =>
    (∃ m w1 w2, Walk F (fun _ => True) s m w1 ∧ Walk B (fun _ => True) t m w2 ∧
      w1 + w2 = d) ∧
    ∀ m w1 w2, Walk F (fun _ => True) s m w1 → Walk B (fun _ => True) t m w2 → d ≤ w1 + w2

/-- No edge of the graph leaves or enters `x`. -/
def DynamicGraph.Isolated (g : DynamicGraph) (x : Nat) : Prop :=
  ∀ e ∈ g.edges, e.fromVertex ≠ x ∧ e.toVertex ≠ x

namespace WitnessSearch

/-- The search belongs to a pair of source and avoided vertex of which one has no edge
any more: its labels are never looked at again. -/
def Dead (g : DynamicGraph) (ws : WitnessSearch) : Prop :=
  g.Isolated ws.currentFrom ∨ g.Isolated ws.currentVia

/-- Every finite label of a vertex that has an edge is at least the weight of some walk
from `currentFrom` that does not enter `currentVia`. -/
def SoundLe (g : DynamicGraph) (ws : WitnessSearch) : Prop :=
  ∀ x, ws.eff x < intMax → ¬ g.Isolated x →
    ∃ w, Walk g.edges (fun v => v ≠ ws.currentVia) ws.currentFrom x w ∧ w ≤ ws.eff x

/-- The state of a witness search that is shared by the builder and its key function is
consistent with the core graph: it is ordered, and sound unless it is dead. -/
def Consistent (g : DynamicGraph) (ws : WitnessSearch) : Prop :=
  Ordered g.numVertices ws ∧ (Dead g ws ∨ SoundLe g ws)

end WitnessSearch

/-- What the builder needs of a key function.  A key is computed for every vertex of a
core graph whose edges join its vertices, whatever the weights are, and when the witness
search is used the computation leaves it with a label for every vertex and distances that
are values of `int`.  And on a well-formed core graph whose weights are at most
`intMax / 3`, so that the sums of weights a key function forms fit `int`, the computation
leaves the witness search consistent with the core graph, as questions asked through
`shortcutIsNecessary` do. -/
def KeyFunction.Lawful {σ : Type} (cfg : WitnessConfig) (kf : KeyFunction σ) : Prop :=
  (∀ (st : σ) (d : Data) (ws : WitnessSearch) (v : Nat), d.core.InRange →
    (cfg.enabled = true → ws.Sized d.core.numVertices) →
    ∃ k ws', kf.key st d ws v = some (k, ws') ∧
      (cfg.enabled = true → ws'.Sized d.core.numVertices)) ∧
  ∀ (st : σ) (d : Data) (ws : WitnessSearch) (v : Nat) (k : Int) (ws' : WitnessSearch),
    d.core.WellFormed → d.core.Light → (cfg.enabled = true → ws.Consistent d.core) →
    kf.key st d ws v = some (k, ws') → cfg.enabled = true → ws'.Consistent d.core

end CH

namespace CH

/-- Every edge of `K` is still an edge of `K'`, with a weight that is not larger. -/
def DynamicGraph.Persists (K K' : DynamicGraph) : Prop :=
  ∀ e ∈ K.edges, ∃ e' ∈ K'.edges,
    e'.fromVertex = e.fromVertex ∧ e'.toVertex = e.toVertex ∧ e'.weight ≤ e.weight

/-- The candidate shortcuts `L` of the vertex `v` join vertices of the graph that have an
edge to `v` and an edge from `v`, and have non-negative weights. -/
def Builder.Candidates (K : DynamicGraph) (v : Nat) (L : List Shortcut) : Prop :=
  ∀ s ∈ L, 0 ≤ s.weight ∧
    (∃ e ∈ K.edges, e.fromVertex = s.fromVertex ∧ e.toVertex = v) ∧
    (∃ e ∈ K.edges, e.fromVertex = v ∧ e.toVertex = s.toVertex)

end CH

namespace CH

/-- Every weight of the two overlays is at most `intMax / 6`. -/
def Data.Bounded (d : Data) : Prop :=
  ∀ e ∈ d.forwardCH.edges ++ d.backwardCH.edges, e.weight ≤ intMax / 6

namespace Builder

/-- The graphs and results for which no sum of weights that the builder, the witness
search or a key function forms leaves the range of `int`: the input graph has no loop, and
its weights and the weights of the two overlays are at most `intMax / 6`. -/
def Regime (g : DynamicGraph) (d : Data) : Prop :=
  (∀ e ∈ g.edges, e.fromVertex ≠ e.toVertex) ∧ (∀ e ∈ g.edges, e.weight ≤ intMax / 6) ∧
    d.Bounded

/-- What holds of a builder while no sum of weights leaves the range of `int`: the weights
of the core graph are non-negative and at most `intMax / 3`, the core graph has no loop,
and the witness search is consistent with it; every edge of the core graph and of the
overlays stands for a walk of `g` that is not longer; and every walk of `g` has a walk
that is not longer and goes up in the forward overlay, through the core graph, and down
the backward overlay. -/
structure Exact {σ : Type} (cfg : BuilderConfig) (g : DynamicGraph) (b : Builder σ) :
    Prop where
  nonneg : ∀ e ∈ b.data.core.edges, 0 ≤ e.weight
  loops : ∀ e ∈ b.data.core.edges, e.fromVertex ≠ e.toVertex
  light : b.data.core.Light
  search : cfg.witness.enabled = true → b.witnessSearch.Consistent b.data.core
  coreSound : ∀ e ∈ b.data.core.edges,
    ∃ w, Walk g.edges (fun _ => True) e.fromVertex e.toVertex w ∧ w ≤ e.weight
  forwardSound : ∀ e ∈ b.data.forwardCH.edges,
    ∃ w, Walk g.edges (fun _ => True) e.fromVertex e.toVertex w ∧ w ≤ e.weight
  backwardSound : ∀ e ∈ b.data.backwardCH.edges,
    ∃ w, Walk g.edges (fun _ => True) e.toVertex e.fromVertex w ∧ w ≤ e.weight
  complete : ∀ s t w, Walk g.edges (fun _ => True) s t w →
    ∃ a c w1 w2 w3, Walk b.data.forwardCH.edges (fun _ => True) s a w1 ∧
      Walk b.data.core.edges (fun _ => True) a c w2 ∧
      Walk b.data.backwardCH.edges (fun _ => True) t c w3 ∧ w1 + w2 + w3 ≤ w

/-- The invariant of the builder that works on the input graph `g`.  Whatever the weights
are, the core graph has the vertices of `g`, `noVertex` is not among them, every edge of
the core graph joins two of them, and the witness search has a label for each with a
distance that is a value of `int`.  And while no sum of weights leaves the range of `int`
(`Regime`), the facts of `Exact` hold. -/
structure Inv {σ : Type} (cfg : BuilderConfig) (g : DynamicGraph) (b : Builder σ) :
    Prop where
  bound : b.data.core.numVertices ≤ noVertex
  range : b.data.core.InRange
  size : b.data.core.numVertices = g.numVertices
  sized : cfg.witness.enabled = true → b.witnessSearch.Sized b.data.core.numVertices
  exact : Regime g b.data → Exact cfg g b

/-- Both ends of every edge of the core graph are on the queue. -/
def QueueCovers {σ : Type} (b : Builder σ) : Prop :=
  ∀ e ∈ b.data.core.edges, e.fromVertex ∈ b.Q ∧ e.toVertex ∈ b.Q

end Builder

end CH

namespace CH

/-- `run()` followed by `copyCoreToCH()` on a builder constructed for the graph `g`: the
CH data, `none` when the fuel does not suffice for the loop of `run`. -/
def Builder.build {σ : Type} (cfg : BuilderConfig) (kf : KeyFunction σ) (fuel : Nat)
    (g : DynamicGraph) (keyState : σ) : Option Data :=
  (Builder.run cfg kf fuel (Builder.new g keyState)).map
    (fun b => (Builder.copyCoreToCH cfg b).data)

/-- The CH data of `billionDetour` after the contraction of the vertices 1, 0, 2, 3, 4
without a shortcut. -/
def billionDetourCH : Data :=
  ⟨5, ⟨5, []⟩,
    ⟨5, [⟨1, 2, noVertex, 1000000000⟩, ⟨0, 3, noVertex, 1000000000⟩,
         ⟨3, 4, noVertex, 1000000000⟩]⟩,
    ⟨5, [⟨1, 0, noVertex, 1000000000⟩, ⟨2, 4, noVertex, 1000000000⟩]⟩,
    [1, 0, 2, 3, 4], [1, 0, 1, 2, 3]⟩

/-- Two edges into vertex 0 (from 1 of weight 1, from 2 of weight 2) and the edge from 0 to
3 of weight 3. -/
def fork : DynamicGraph :=
  ⟨4, [⟨1, 0, noVertex, 1⟩, ⟨2, 0, noVertex, 2⟩, ⟨0, 3, noVertex, 3⟩]⟩

end CH

namespace CH

/-- The CH data of `fork` after the contraction of the vertices 1, 0, 2, 3 with the
shortcut from 2 to 3 over 0. -/
def forkCH : Data :=
  { numVertices := 4
    core := ⟨4, []⟩
    forwardCH := ⟨4, [⟨1, 0, noVertex, 1⟩, ⟨0, 3, noVertex, 3⟩, ⟨2, 3, 0, 5⟩]⟩
    backwardCH := ⟨4, [⟨0, 2, noVertex, 2⟩]⟩
    order := [1, 0, 2, 3]
    level := [1, 0, 2, 3] }

end CH

/-! ## The ULTRA shortcut search (Algorithms/TripBased/Preprocessing/ShortcutSearch.h) -/

/-- `noStopIndex`: the invalid value of a `StopIndex`. -/
def noStopIndex : Nat := 4294967295

/-- `noStopEvent`: the invalid value of a `StopEventId`. -/
def noStopEvent : Nat := 4294967295

namespace IndexedSet

/-- `clear()`. -/
def clear (_ : IndexedSet) : IndexedSet := ⟨[]⟩

end IndexedSet

namespace IndexedMap

variable {Value : Type}

/-- `empty()`. -/
def isEmpty (m : IndexedMap Value) : Bool := m.values.isEmpty

/-- `remove(key)`: the last key takes the place of the removed one. -/
def remove (m : IndexedMap Value) (key : Nat) : IndexedMap Value :=
  if m.contains key then
    let i := m.indices.getD key NotContained
    match m.keys.getLast?, m.values.getLast? with
    | some lastKey, some lastValue =>
      let keys := m.keys.set i lastKey
      let values := m.values.set i lastValue
      let indices := (m.indices.set lastKey i).set key NotContained
      { indices := indices, keys := keys.dropLast, values := values.dropLast }
    | _, _ => m
  else m

end IndexedMap

namespace RAPTOR

/-- Modelled from the spec: `RAPTOR::TripIterator` (DataStructures/RAPTOR/Entities/
TripIterator.h is not among the sources), the "monotonic backward scan of trips" of the
spec as the shortcut search uses it: a position `stopIndex` in the stop sequence of a
route and a current trip, both as pointers into `stopIds` and `stopEvents`; the iterator
starts at the last trip of the route, and `previousTrip` moves one trip back. -/
structure TripIterator where
  tripSize : Nat
  stops : Nat
  firstTrip : Nat
  lastTrip : Nat
  stopIndex : Nat
  currentTrip : Nat
deriving DecidableEq, Repr

namespace TripIterator

/-- `hasFurtherStops()`. -/
def hasFurtherStops (it : TripIterator) : Bool := decide (it.stopIndex + 1 < it.tripSize)

/-- `nextStop()`. -/
def nextStop (it : TripIterator) : TripIterator := { it with stopIndex := it.stopIndex + 1 }

/-- `hasEarlierTrip()`. -/
def hasEarlierTrip (it : TripIterator) : Bool := decide (it.firstTrip < it.currentTrip)

/-- `previousTrip()`. -/
def previousTrip (it : TripIterator) : TripIterator :=
  { it with currentTrip := it.currentTrip - it.tripSize }

/-- `previousDepartureTime()`: the departure of the previous trip at the current stop. -/
def previousDepartureTime (d : Data) (it : TripIterator) : Int :=
  (d.stopEventAt (it.currentTrip - it.tripSize + it.stopIndex)).departureTime

/-- `arrivalTime()`: the arrival of the current trip at the current stop. -/
def arrivalTime (d : Data) (it : TripIterator) : Int :=
  (d.stopEventAt (it.currentTrip + it.stopIndex)).arrivalTime

/-- `stopEvent(index) - &(data.stopEvents[0])`: the stop event of the current trip at the
stop index `index`. -/
def stopEventAt (it : TripIterator) (index : Nat) : Nat := it.currentTrip + index

/-- `stopEvent() - &(data.stopEvents[0])`. -/
def stopEvent (it : TripIterator) : Nat := it.stopEventAt it.stopIndex

/-- `stop(index)`. -/
def stopAt (d : Data) (it : TripIterator) (index : Nat) : Nat := d.stopIdAt (it.stops + index)

/-- `stop()`. -/
def stop (d : Data) (it : TripIterator) : Nat := it.stopAt d it.stopIndex

end TripIterator

namespace Data

/-- `numberOfStopEvents()`. -/
def numberOfStopEvents (d : Data) : Nat := d.stopEvents.length

/-- `getTripIterator(route, stopIndex)`. -/
def getTripIterator (d : Data) (route stopIndex : Nat) : TripIterator :=
  { tripSize := d.numberOfStopsInRoute route
    stops := d.stopArrayOfRoute route
    firstTrip := d.firstTripOfRoute route
    lastTrip := d.lastTripOfRoute route
    stopIndex := stopIndex
    currentTrip := d.lastTripOfRoute route }

/-- Modelled from the spec: `getMinDepartureTime()`, the earliest departure of the
timetable (`never` for an empty one). -/
def getMinDepartureTime (d : Data) : Int :=
  d.stopEvents.foldl (fun m e => min m e.departureTime) never

end Data

end RAPTOR

namespace TripBased

/-- Modelled from the spec: `TripBased::Shortcut` (DataStructures/TripBased/Shortcut.h is
not among the sources), the event pair with its walking distance that
`shortcuts.emplace_back(origin, destination, walkingDistance)` builds. -/
structure Shortcut where
  origin : Nat
  destination : Nat
  walkingDistance : Int
deriving DecidableEq, Repr

/-- `ShortcutSearch::DepartureLabel`. -/
structure DepartureLabel where
  route : RAPTOR.RouteSegment
  departureTime : Int
deriving DecidableEq, Repr

/-- `DepartureLabel::operator<`. -/
def DepartureLabel.lt (a b : DepartureLabel) : Bool :=
  decide (a.departureTime > b.departureTime) ||
    (decide (a.departureTime = b.departureTime) && decide (a.route.routeId < b.route.routeId))

/-- `ShortcutSearch::ConsolidatedDepartureLabel`. -/
structure ConsolidatedDepartureLabel where
  routes : List RAPTOR.RouteSegment := []
  departureTime : Int := never
deriving DecidableEq, Repr

/-- `ShortcutSearch::Station`. -/
structure Station where
  representative : Nat := noStop
  stops : List Nat := []
deriving DecidableEq, Repr, Inhabited

/-- `Station::add(stop)`. -/
def Station.add (s : Station) (stop : Nat) : Station :=
  { representative := if s.representative > stop then stop else s.representative
    stops := s.stops ++ [stop] }

/-- The members of `ShortcutSearch`; an `ArrivalLabel` is its arrival time, and a queue
is the list of the vertices whose label is on the heap. -/
structure ShortcutSearch where
  stationOfStop : List Station
  sourceStation : Station
  sourceDepartureTime : Int
  directTransferArrivalLabels : List Int
  directTransferQueue : List Nat
  stopsReachedByDirectTransfer : List Nat
  zeroTripsArrivalLabels : List Int
  oneTripArrivalLabels : List Int
  oneTripQueue : List Nat
  twoTripsArrivalLabels : List Int
  twoTripsQueue : List Nat
  oneTripTransferParent : List Nat
  twoTripsRouteParent : List Nat
  twoTripsRouteParentEvent : List Nat
  shortcutCandidatesInQueue : Nat
  shortcutDestinationCandidates : IndexedMap (List Nat)
  shortcuts : List Shortcut
  routesServingUpdatedStops : IndexedMap Nat
  stopsUpdatedByRoute : IndexedSet
  stopsUpdatedByTransfer : IndexedSet
  witnessTransferLimit : Int
  earliestDepartureTime : Int
deriving Repr

end TripBased

namespace TripBased

namespace ShortcutSearch

/-- The 64-bit `size_t` counter `shortcutCandidatesInQueue`: `++`, `--` and `= -1`. -/
def counterInc (c : Nat) : Nat := (c + 1) % 18446744073709551616

/-- The decrement of the `size_t` counter. -/
def counterDec (c : Nat) : Nat := (c + 18446744073709551615) % 18446744073709551616

/-- Modelled from the spec: `Dijkstra::run(stop, noVertex, settle, NoOperation, pruneEdge)`
(Algorithms/Dijkstra/Dijkstra.h is not among the sources) as the constructor uses it, with
`pruneEdge` true for the edges of positive travel time: the vertices reached from `stop`
over the other edges, in the order in which they are settled. -/
def zeroReach (g : StaticGraph) : Nat → List Nat → List Nat → List Nat
  | 0, _, settled => settled
  | _ + 1, [], settled => settled
  | fuel + 1, u :: queue, settled =>
    if u ∈ settled then zeroReach g fuel queue settled
    else
      let next := (g.edgesFrom u).filterMap (fun e =>
        if g.travelTime.getD e 0 > 0 then none else some (g.toVertex.getD e noVertex))
      zeroReach g fuel (queue ++ next) (settled ++ [u])

/-- The station of a stop, as the constructor computes it. -/
def stationOf (d : RAPTOR.Data) (stop : Nat) : Station :=
  ((zeroReach d.transferGraph
      (d.transferGraph.toVertex.length + d.transferGraph.numVertices + 1) [stop] []).filter
    (fun u => d.isStop u)).foldl Station.add {}

/-- `clear()`. -/
def clear (d : RAPTOR.Data) (s : ShortcutSearch) : ShortcutSearch :=
  { s with
    sourceStation := {}
    directTransferArrivalLabels := List.replicate d.transferGraph.numVertices never
    stopsReachedByDirectTransfer := []
    zeroTripsArrivalLabels := List.replicate d.numberOfStops never
    oneTripQueue := []
    oneTripArrivalLabels := List.replicate d.transferGraph.numVertices never
    twoTripsQueue := []
    twoTripsArrivalLabels := List.replicate d.transferGraph.numVertices never
    oneTripTransferParent := List.replicate d.transferGraph.numVertices noStopEvent
    twoTripsRouteParent := List.replicate d.numberOfStops noStop
    shortcutCandidatesInQueue := 0
    shortcutDestinationCandidates := s.shortcutDestinationCandidates.clear
    routesServingUpdatedStops := s.routesServingUpdatedStops.clear
    stopsUpdatedByRoute := s.stopsUpdatedByRoute.clear
    stopsUpdatedByTransfer := s.stopsUpdatedByTransfer.clear }

/-- The constructor `ShortcutSearch(tripData, witnessTransferLimit)`. -/
def new (d : RAPTOR.Data) (witnessTransferLimit : Int) : ShortcutSearch :=
  { stationOfStop := (List.range d.numberOfStops).map (stationOf d)
    sourceStation := {}
    sourceDepartureTime := 0
    directTransferArrivalLabels := []
    directTransferQueue := []
    stopsReachedByDirectTransfer := []
    zeroTripsArrivalLabels := []
    oneTripArrivalLabels := []
    oneTripQueue := []
    twoTripsArrivalLabels := []
    twoTripsQueue := []
    oneTripTransferParent := []
    twoTripsRouteParent := []
    twoTripsRouteParentEvent := List.replicate d.numberOfStopEvents 0
    shortcutCandidatesInQueue := 0
    shortcutDestinationCandidates := IndexedMap.init d.numberOfStopEvents
    shortcuts := []
    routesServingUpdatedStops := IndexedMap.init d.numberOfRoutes
    stopsUpdatedByRoute := IndexedSet.empty
    stopsUpdatedByTransfer := IndexedSet.empty
    witnessTransferLimit := witnessTransferLimit
    earliestDepartureTime := d.getMinDepartureTime }

/-- `stationOfStop[stop].representative`. -/
def representative (s : ShortcutSearch) (stop : Nat) : Nat :=
  (s.stationOfStop.getD stop {}).representative

/-- One relaxation of the loop over the edges in `initialDijkstra`. -/
def relaxDirect (d : RAPTOR.Data) (currentVertex : Nat) (s : ShortcutSearch) (edge : Nat) :
    ShortcutSearch :=
  let neighborVertex := d.transferGraph.toVertex.getD edge noVertex
  let newArrivalTime := s.directTransferArrivalLabels.getD currentVertex never +
    d.transferGraph.travelTime.getD edge 0
  if newArrivalTime < s.directTransferArrivalLabels.getD neighborVertex never then
    { s with
      directTransferArrivalLabels := s.directTransferArrivalLabels.set neighborVertex newArrivalTime
      directTransferQueue := CH.heapUpdate s.directTransferQueue neighborVertex }
  else s

/-- The loop `while (!directTransferQueue.empty())` of `initialDijkstra`; `none` when the
fuel does not suffice. -/
def initialLoop (d : RAPTOR.Data) : Nat → ShortcutSearch → Option ShortcutSearch
  | 0, _ => none
  | fuel + 1, s =>
    match CH.heapFront (fun v => s.directTransferArrivalLabels.getD v never)
        s.directTransferQueue with
    | none => some s
    | some currentVertex =>
      let s := { s with directTransferQueue := s.directTransferQueue.erase currentVertex }
      let s := (d.transferGraph.edgesFrom currentVertex).foldl (relaxDirect d currentVertex) s
      let s :=
        if d.isStop currentVertex ∧
            s.representative currentVertex ≠ s.sourceStation.representative then
          { s with stopsReachedByDirectTransfer := s.stopsReachedByDirectTransfer ++ [currentVertex] }
        else s
      initialLoop d fuel s

/-- `initialDijkstra()`. -/
def initialDijkstra (d : RAPTOR.Data) (fuel : Nat) (s : ShortcutSearch) :
    Option ShortcutSearch :=
  let source := s.sourceStation.representative
  initialLoop d fuel
    { s with
      directTransferArrivalLabels := s.directTransferArrivalLabels.set source 0
      directTransferQueue := CH.heapUpdate s.directTransferQueue source }

/-- `sort(stopsReachedByDirectTransfer)` and `sort(departureLabels)`: insertion into a
sorted list. -/
def insertSorted {α : Type} (lt : α → α → Bool) (x : α) : List α → List α
  | [] => [x]
  | y :: ys => if lt y x then y :: insertSorted lt x ys else x :: y :: ys

/-- Sorting by insertion. -/
def sortBy {α : Type} (lt : α → α → Bool) (l : List α) : List α :=
  l.foldr (insertSorted lt) []

/-- `setSource(sourceStop)`. -/
def setSource (d : RAPTOR.Data) (fuel : Nat) (s : ShortcutSearch) (sourceStop : Nat) :
    Option ShortcutSearch :=
  let s := clear d s
  let s := { s with sourceStation := s.stationOfStop.getD sourceStop {} }
  match initialDijkstra d fuel s with
  | none => none
  | some s =>
    let sorted := sortBy (fun a b => decide (a < b)) s.stopsReachedByDirectTransfer
    some { s with stopsReachedByDirectTransfer := sorted }

/-- The loop over the trips of a route in `collectDepartures`, from the trip that starts
at the stop event `trip`. -/
def departuresOfTrips (d : RAPTOR.Data) (s : ShortcutSearch) (route stopIndex : Nat)
    (minimalTransferTime cutoffTime maxTime : Int) (tripSize : Nat) :
    Nat → Nat → List DepartureLabel → List DepartureLabel
  | 0, _, acc => acc
  | fuel + 1, trip, acc =>
    if trip ≤ d.lastTripOfRoute route then
      let departureTime :=
        wrapInt32 ((d.stopEventAt (trip + stopIndex)).departureTime - minimalTransferTime)
      if departureTime < cutoffTime then
        departuresOfTrips d s route stopIndex minimalTransferTime cutoffTime maxTime tripSize
          fuel (trip + tripSize) acc
      else if departureTime > maxTime then acc
      else
        let label : DepartureLabel :=
          if s.representative (d.stopIdAt (d.stopArrayOfRoute route + stopIndex)) =
              s.sourceStation.representative then
            ⟨⟨noRouteId, noStopIndex⟩, departureTime⟩
          else ⟨⟨route, stopIndex⟩, departureTime⟩
        departuresOfTrips d s route stopIndex minimalTransferTime cutoffTime maxTime tripSize
          fuel (trip + tripSize) (acc ++ [label])
    else acc

/-- The loop over the stop indices of a route in `collectDepartures`. -/
def departuresOfRoute (d : RAPTOR.Data) (s : ShortcutSearch) (route : Nat)
    (cutoffTime maxTime : Int) :
    List Nat → Int → List DepartureLabel → List DepartureLabel
  | [], _, acc => acc
  | stopIndex :: rest, minimalTransferTime, acc =>
    let tripSize := d.numberOfStopsInRoute route
    let direct := s.directTransferArrivalLabels.getD
      (d.stopIdAt (d.stopArrayOfRoute route + stopIndex)) never
    if direct > minimalTransferTime then
      departuresOfRoute d s route cutoffTime maxTime rest minimalTransferTime acc
    else
      let acc := departuresOfTrips d s route stopIndex direct cutoffTime maxTime tripSize
        (d.numberOfStopEvents + 1) (d.firstTripOfRoute route) acc
      departuresOfRoute d s route cutoffTime maxTime rest direct acc

/-- The consolidation of the sorted departure labels in `collectDepartures`; the list
`result` is never empty, its last element is `result.back()`. -/
def consolidate : List DepartureLabel → List ConsolidatedDepartureLabel →
    List ConsolidatedDepartureLabel
  | [], result => result
  | label :: rest, result =>
    match result.getLast? with
    | none => consolidate rest result
    | some back =>
      if label.route.routeId = noRouteId then
        if label.departureTime = back.departureTime then consolidate rest result
        else
          consolidate rest
            (result.dropLast ++ [{ back with departureTime := label.departureTime },
              { departureTime := label.departureTime }])
      else
        consolidate rest
          (result.dropLast ++ [{ back with routes := back.routes ++ [label.route] }])

/-- `collectDepartures(minTime, maxTime)`. -/
def collectDepartures (d : RAPTOR.Data) (s : ShortcutSearch) (minTime maxTime : Int) :
    List ConsolidatedDepartureLabel :=
  let cutoffTime := max minTime s.earliestDepartureTime
  let departureLabels := (List.range d.numberOfRoutes).foldl
    (fun acc route =>
      departuresOfRoute d s route cutoffTime maxTime
        (List.range (d.numberOfStopsInRoute route - 1)) never acc) []
  (consolidate (sortBy DepartureLabel.lt departureLabels) [{}]).dropLast

end ShortcutSearch

end TripBased

namespace TripBased

namespace ShortcutSearch

/-- `arrivalTime<ROUND>(vertex)`. -/
def arrivalTime (s : ShortcutSearch) (round vertex : Nat) : Int :=
  match round with
  | 0 => s.zeroTripsArrivalLabels.getD vertex never
  | 1 => s.oneTripArrivalLabels.getD vertex never
  | _ => s.twoTripsArrivalLabels.getD vertex never

/-- The lowering of the two-trips label that follows an arrival with fewer trips. -/
def lowerTwoTrips (s : ShortcutSearch) (vertex : Nat) (arrivalTime : Int) : ShortcutSearch :=
  if s.twoTripsArrivalLabels.getD vertex never > arrivalTime then
    { s with
      twoTripsArrivalLabels := s.twoTripsArrivalLabels.set vertex arrivalTime
      twoTripsQueue := s.twoTripsQueue.erase vertex }
  else s

/-- `arrivalByRoute1(stop, arrivalTime, parent, arrivalStopEvent)`. -/
def arrivalByRoute1 (s : ShortcutSearch) (stop : Nat) (arrivalTime : Int)
    (parent arrivalStopEvent : Nat) : ShortcutSearch :=
  let transferParent :=
    if s.representative parent = s.sourceStation.representative then arrivalStopEvent
    else noStopEvent
  let s := { s with
    oneTripTransferParent := s.oneTripTransferParent.set stop transferParent
    oneTripArrivalLabels := s.oneTripArrivalLabels.set stop arrivalTime
    oneTripQueue := s.oneTripQueue.erase stop }
  let s := lowerTwoTrips s stop arrivalTime
  { s with stopsUpdatedByRoute := s.stopsUpdatedByRoute.insert stop }

/-- `arrivalByRoute2(stop, arrivalTime, parent, parentStopEvent)`. -/
def arrivalByRoute2 (s : ShortcutSearch) (stop : Nat) (arrivalTime : Int)
    (parent parentStopEvent : Nat) : ShortcutSearch :=
  let s :=
    if s.oneTripTransferParent.getD parent noStopEvent ≠ noStopEvent then
      { s with
        twoTripsRouteParent := s.twoTripsRouteParent.set stop parent
        twoTripsRouteParentEvent := s.twoTripsRouteParentEvent.set stop parentStopEvent }
    else { s with twoTripsRouteParent := s.twoTripsRouteParent.set stop noStop }
  { s with
    twoTripsArrivalLabels := s.twoTripsArrivalLabels.set stop arrivalTime
    twoTripsQueue := s.twoTripsQueue.erase stop
    stopsUpdatedByRoute := s.stopsUpdatedByRoute.insert stop }

/-- `arrivalByEdge0(vertex, arrivalTime)`. -/
def arrivalByEdge0 (s : ShortcutSearch) (vertex : Nat) (arrivalTime : Int) : ShortcutSearch :=
  let s := { s with zeroTripsArrivalLabels := s.zeroTripsArrivalLabels.set vertex arrivalTime }
  if s.oneTripArrivalLabels.getD vertex never > arrivalTime then
    let s := { s with
      oneTripArrivalLabels := s.oneTripArrivalLabels.set vertex arrivalTime
      oneTripQueue := s.oneTripQueue.erase vertex }
    lowerTwoTrips s vertex arrivalTime
  else s

/-- `isShortcutCandidate(vertex)`. -/
def isShortcutCandidate (s : ShortcutSearch) (vertex : Nat) : Bool :=
  decide (vertex ∈ s.oneTripQueue) &&
    decide (s.oneTripTransferParent.getD vertex noStopEvent ≠ noStopEvent)

/-- `arrivalByEdge1(vertex, arrivalTime, parent)`. -/
def arrivalByEdge1 (s : ShortcutSearch) (vertex : Nat) (arrivalTime : Int) (parent : Nat) :
    ShortcutSearch :=
  let c := if s.isShortcutCandidate vertex then counterDec s.shortcutCandidatesInQueue
    else s.shortcutCandidatesInQueue
  let c := if s.oneTripTransferParent.getD parent noStopEvent ≠ noStopEvent then counterInc c
    else c
  let s := { s with
    shortcutCandidatesInQueue := c
    oneTripTransferParent :=
      s.oneTripTransferParent.set vertex (s.oneTripTransferParent.getD parent noStopEvent)
    oneTripArrivalLabels := s.oneTripArrivalLabels.set vertex arrivalTime }
  let s := lowerTwoTrips s vertex arrivalTime
  { s with oneTripQueue := CH.heapUpdate s.oneTripQueue vertex }

/-- The removal of a stop from the candidate set of a route parent event, with the removal
of the event once its set is empty. -/
def eraseCandidate (m : IndexedMap (List Nat)) (routeParentEvent vertex : Nat) :
    IndexedMap (List Nat) :=
  let m := m.setValue routeParentEvent ((m.get routeParentEvent).erase vertex)
  if (m.get routeParentEvent).isEmpty then m.remove routeParentEvent else m

/-- `arrivalByEdge2(vertex, arrivalTime)`. -/
def arrivalByEdge2 (d : RAPTOR.Data) (s : ShortcutSearch) (vertex : Nat) (arrivalTime : Int) :
    ShortcutSearch :=
  let s := { s with
    twoTripsArrivalLabels := s.twoTripsArrivalLabels.set vertex arrivalTime
    twoTripsQueue := CH.heapUpdate s.twoTripsQueue vertex }
  if d.isStop vertex then
    let s :=
      if d.isStop (s.twoTripsRouteParent.getD vertex noStop) then
        let candidates := eraseCandidate s.shortcutDestinationCandidates
          (s.twoTripsRouteParentEvent.getD vertex 0) vertex
        { s with shortcutDestinationCandidates := candidates }
      else s
    { s with twoTripsRouteParent := s.twoTripsRouteParent.set vertex noStop }
  else s

/-- The insertion of a route into `routesServingUpdatedStops` with the smallest stop
index seen. -/
def insertRoute (m : IndexedMap Nat) (route : RAPTOR.RouteSegment) : IndexedMap Nat :=
  if m.contains route.routeId then
    m.setValue route.routeId (min (m.get route.routeId) route.stopIndex)
  else m.insert route.routeId route.stopIndex

/-- `collectRoutesServingUpdatedStops<CURRENT>()`. -/
def collectRoutesServingUpdatedStops (d : RAPTOR.Data) (current : Nat) (s : ShortcutSearch) :
    ShortcutSearch :=
  let routes := s.stopsUpdatedByTransfer.keys.foldl
    (fun m stop =>
      (d.routesContainingStop stop).foldl
        (fun m route =>
          if route.stopIndex + 1 = d.numberOfStopsInRoute route.routeId then m
          else if (d.stopEventAt (d.lastTripOfRoute route.routeId + route.stopIndex)).departureTime
              < s.arrivalTime (current - 1) stop then m
          else insertRoute m route)
        m)
    s.routesServingUpdatedStops
  { s with routesServingUpdatedStops := routes }

/-- `collectRoutesServingUpdatedStops(routes)`. -/
def collectRoutes (s : ShortcutSearch) (routes : List RAPTOR.RouteSegment) : ShortcutSearch :=
  { s with routesServingUpdatedStops := routes.foldl insertRoute s.routesServingUpdatedStops }

/-- The loop `do previousTrip() while (hasEarlierTrip() && previousDepartureTime() >=
arrivalTime<CURRENT - 1>(stop()))` of `scanRoutes`. -/
def earlierTrips (d : RAPTOR.Data) (s : ShortcutSearch) (previous : Nat) :
    Nat → RAPTOR.TripIterator → Option RAPTOR.TripIterator
  | 0, _ => none
  | fuel + 1, it =>
    let it := it.previousTrip
    if it.hasEarlierTrip ∧ it.previousDepartureTime d ≥ s.arrivalTime previous (it.stop d) then
      earlierTrips d s previous fuel it
    else some it

/-- The loop `do nextStop() while (...)` of `scanRoutes` that looks for the next stop
updated in the current iteration. -/
def fastForward (d : RAPTOR.Data) (s : ShortcutSearch) (previous : Nat) :
    Nat → RAPTOR.TripIterator → Option RAPTOR.TripIterator
  | 0, _ => none
  | fuel + 1, it =>
    let it := it.nextStop
    if it.hasFurtherStops ∧ (¬ s.stopsUpdatedByTransfer.contains (it.stop d) ∨
        it.previousDepartureTime d < s.arrivalTime previous (it.stop d)) then
      fastForward d s previous fuel it
    else some it

/-- What the first part of an iteration of the loop over the stops of a route decides:
to leave the loop, to go on from another stop, or to ride the trip to the next stop. -/
inductive Boarding where
  | leave : Boarding
  | skip : RAPTOR.TripIterator → Boarding
  | ride : RAPTOR.TripIterator → Nat → Boarding
deriving Repr

/-- The search for the earliest trip that can be entered at the current stop. -/
def board (d : RAPTOR.Data) (s : ShortcutSearch) (previous : Nat) (it : RAPTOR.TripIterator)
    (parentIndex : Nat) : Option Boarding :=
  if it.hasEarlierTrip ∧ it.previousDepartureTime d ≥ s.arrivalTime previous (it.stop d) then
    match earlierTrips d s previous (it.currentTrip + 1) it with
    | none => none
    | some it =>
      if ¬ s.stopsUpdatedByTransfer.contains (it.stop d) then
        if ¬ it.hasEarlierTrip then some Boarding.leave
        else (fastForward d s previous (it.tripSize + 1) it).map Boarding.skip
      else some (Boarding.ride it it.stopIndex)
  else some (Boarding.ride it parentIndex)

/-- The arrival of the current trip at the current stop in `scanRoutes<CURRENT>`. -/
def arrive (d : RAPTOR.Data) (current : Nat) (it : RAPTOR.TripIterator) (parentIndex : Nat)
    (s : ShortcutSearch) : ShortcutSearch :=
  let stop := it.stop d
  let newArrivalTime := it.arrivalTime d
  let parent := it.stopAt d parentIndex
  if newArrivalTime < s.arrivalTime current stop then
    if current = 1 then arrivalByRoute1 s stop newArrivalTime parent it.stopEvent
    else arrivalByRoute2 s stop newArrivalTime parent (it.stopEventAt parentIndex)
  else if newArrivalTime = s.arrivalTime current stop then
    if current = 1 then
      if s.representative parent = s.sourceStation.representative then
        arrivalByRoute1 s stop newArrivalTime parent it.stopEvent
      else s
    else
      if s.oneTripTransferParent.getD parent noStopEvent ≠ noStopEvent then
        arrivalByRoute2 s stop newArrivalTime parent (it.stopEventAt parentIndex)
      else s
  else s

/-- The loop `while (tripIterator.hasFurtherStops())` of `scanRoutes<CURRENT>`. -/
def scanRoute (d : RAPTOR.Data) (current : Nat) :
    Nat → RAPTOR.TripIterator → Nat → ShortcutSearch → Option ShortcutSearch
  | 0, _, _, _ => none
  | fuel + 1, it, parentIndex, s =>
    if it.hasFurtherStops then
      match board d s (current - 1) it parentIndex with
      | none => none
      | some Boarding.leave => some s
      | some (Boarding.skip it) => scanRoute d current fuel it parentIndex s
      | some (Boarding.ride it parentIndex) =>
        let it := it.nextStop
        scanRoute d current fuel it parentIndex (arrive d current it parentIndex s)
    else some s

/-- The loop over the routes of `scanRoutes<CURRENT>`. -/
def scanRouteList (d : RAPTOR.Data) (current : Nat) :
    List Nat → ShortcutSearch → Option ShortcutSearch
  | [], s => some s
  | route :: rest, s =>
    let stopIndex := s.routesServingUpdatedStops.get route
    match scanRoute d current (d.numberOfStopsInRoute route + 1)
        (d.getTripIterator route stopIndex) stopIndex s with
    | none => none
    | some s => scanRouteList d current rest s

/-- `scanRoutes<CURRENT>()`. -/
def scanRoutes (d : RAPTOR.Data) (current : Nat) (s : ShortcutSearch) : Option ShortcutSearch :=
  match scanRouteList d current s.routesServingUpdatedStops.keys s with
  | none => none
  | some s =>
    some { s with
      stopsUpdatedByTransfer := s.stopsUpdatedByTransfer.clear
      routesServingUpdatedStops := s.routesServingUpdatedStops.clear }

/-- `relaxInitialTransfers()`. -/
def relaxInitialTransfers (s : ShortcutSearch) : ShortcutSearch :=
  s.stopsReachedByDirectTransfer.foldl
    (fun s stop =>
      let s := arrivalByEdge0 s stop
        (s.sourceDepartureTime + s.directTransferArrivalLabels.getD stop never)
      { s with stopsUpdatedByTransfer := s.stopsUpdatedByTransfer.insert stop })
    s

end ShortcutSearch

end TripBased

namespace TripBased

namespace ShortcutSearch

/-- One relaxation of the loop over the edges in `intermediateDijkstra`. -/
def relaxOneTrip (d : RAPTOR.Data) (currentVertex : Nat) (s : ShortcutSearch) (edge : Nat) :
    ShortcutSearch :=
  let neighborVertex := d.transferGraph.toVertex.getD edge noVertex
  let newArrivalTime := s.oneTripArrivalLabels.getD currentVertex never +
    d.transferGraph.travelTime.getD edge 0
  if newArrivalTime < s.oneTripArrivalLabels.getD neighborVertex never then
    arrivalByEdge1 s neighborVertex newArrivalTime currentVertex
  else if newArrivalTime = s.oneTripArrivalLabels.getD neighborVertex never then
    if s.oneTripTransferParent.getD currentVertex noStopEvent ≠ noStopEvent ∧
        s.oneTripTransferParent.getD neighborVertex noStopEvent = noStopEvent then
      arrivalByEdge1 s neighborVertex newArrivalTime currentVertex
    else s
  else s

/-- The loop `while (!oneTripQueue.empty())` of `intermediateDijkstra` with its local
variable `transferLimit`; `none` when the fuel does not suffice. -/
def intermediateLoop (d : RAPTOR.Data) : Nat → Int → ShortcutSearch → Option ShortcutSearch
  | 0, _, _ => none
  | fuel + 1, transferLimit, s =>
    match CH.heapFront (fun v => s.oneTripArrivalLabels.getD v never) s.oneTripQueue with
    | none => some s
    | some currentVertex =>
      let s := { s with oneTripQueue := s.oneTripQueue.erase currentVertex }
      let s := (d.transferGraph.edgesFrom currentVertex).foldl (relaxOneTrip d currentVertex) s
      let s :=
        if s.oneTripTransferParent.getD currentVertex noStopEvent ≠ noStopEvent then
          { s with shortcutCandidatesInQueue := counterDec s.shortcutCandidatesInQueue }
        else s
      let label := s.oneTripArrivalLabels.getD currentVertex never
      let limited := s.shortcutCandidatesInQueue = 0
      let s := if limited then { s with shortcutCandidatesInQueue := 18446744073709551615 }
        else s
      let transferLimit :=
        if limited then
          if wrapInt32 (label + s.witnessTransferLimit) < label then intMax
          else wrapInt32 (label + s.witnessTransferLimit)
        else transferLimit
      let s :=
        if d.isStop currentVertex then
          { s with stopsUpdatedByTransfer := s.stopsUpdatedByTransfer.insert currentVertex }
        else s
      if label > transferLimit then some s
      else intermediateLoop d fuel transferLimit s

/-- `intermediateDijkstra()`. -/
def intermediateDijkstra (d : RAPTOR.Data) (fuel : Nat) (s : ShortcutSearch) :
    Option ShortcutSearch :=
  let s := s.stopsUpdatedByRoute.keys.foldl
    (fun s stop =>
      let c := if s.oneTripTransferParent.getD stop noStopEvent ≠ noStopEvent then
        counterInc s.shortcutCandidatesInQueue else s.shortcutCandidatesInQueue
      { s with oneTripQueue := CH.heapUpdate s.oneTripQueue stop, shortcutCandidatesInQueue := c })
    { s with shortcutCandidatesInQueue := 0 }
  if s.shortcutCandidatesInQueue = 0 then
    some { s with stopsUpdatedByRoute := s.stopsUpdatedByRoute.clear }
  else
    match intermediateLoop d fuel intMax s with
    | none => none
    | some s => some { s with stopsUpdatedByRoute := s.stopsUpdatedByRoute.clear }

/-- The first loop of `finalDijkstra`: the stops updated by a route are put on the queue,
and those with a route parent are entered as destination candidates of its event. -/
def seedFinal (d : RAPTOR.Data) (s : ShortcutSearch) (stop : Nat) : ShortcutSearch :=
  let s := { s with twoTripsQueue := CH.heapUpdate s.twoTripsQueue stop }
  if d.isStop (s.twoTripsRouteParent.getD stop noStop) then
    let routeParentEvent := s.twoTripsRouteParentEvent.getD stop 0
    let m := s.shortcutDestinationCandidates
    let m := if m.contains routeParentEvent then m else m.insert routeParentEvent []
    let set := m.get routeParentEvent
    let m := m.setValue routeParentEvent (if stop ∈ set then set else set ++ [stop])
    { s with shortcutDestinationCandidates := m }
  else s

/-- One relaxation of the loop over the edges in `finalDijkstra`. -/
def relaxTwoTrips (d : RAPTOR.Data) (currentVertex : Nat) (s : ShortcutSearch) (edge : Nat) :
    ShortcutSearch :=
  let neighborVertex := d.transferGraph.toVertex.getD edge noVertex
  let newArrivalTime := s.twoTripsArrivalLabels.getD currentVertex never +
    d.transferGraph.travelTime.getD edge 0
  if newArrivalTime < s.twoTripsArrivalLabels.getD neighborVertex never then
    arrivalByEdge2 d s neighborVertex newArrivalTime
  else s

/-- The insertion of the shortcut for the settled stop `currentVertex` whose route parent
is a stop, with the unmarking of the candidates that use the same shortcut. -/
def insertShortcut (d : RAPTOR.Data) (s : ShortcutSearch) (currentVertex : Nat) :
    ShortcutSearch :=
  let routeParent := s.twoTripsRouteParent.getD currentVertex noStop
  let routeParentEvent := s.twoTripsRouteParentEvent.getD currentVertex 0
  let transferParentEvent := s.oneTripTransferParent.getD routeParent noStopEvent
  let walkingDistance := s.oneTripArrivalLabels.getD routeParent never -
    (d.stopEventAt transferParentEvent).arrivalTime
  let parents := (s.shortcutDestinationCandidates.get routeParentEvent).foldl
    (fun parents obsoleteCandidate => parents.set obsoleteCandidate noStop) s.twoTripsRouteParent
  { s with
    shortcuts := s.shortcuts ++ [⟨transferParentEvent, routeParentEvent, walkingDistance⟩]
    twoTripsRouteParent := parents
    shortcutDestinationCandidates := s.shortcutDestinationCandidates.remove routeParentEvent }

/-- The loop `while (!twoTripsQueue.empty())` of `finalDijkstra`; `none` when the fuel does
not suffice. -/
def finalLoop (d : RAPTOR.Data) : Nat → ShortcutSearch → Option ShortcutSearch
  | 0, _ => none
  | fuel + 1, s =>
    match CH.heapFront (fun v => s.twoTripsArrivalLabels.getD v never) s.twoTripsQueue with
    | none => some s
    | some currentVertex =>
      let s := { s with twoTripsQueue := s.twoTripsQueue.erase currentVertex }
      let s := (d.transferGraph.edgesFrom currentVertex).foldl (relaxTwoTrips d currentVertex) s
      let s :=
        if d.isStop currentVertex ∧ d.isStop (s.twoTripsRouteParent.getD currentVertex noStop)
        then insertShortcut d s currentVertex
        else s
      if s.shortcutDestinationCandidates.isEmpty then some s
      else finalLoop d fuel s

/-- `finalDijkstra()`. -/
def finalDijkstra (d : RAPTOR.Data) (fuel : Nat) (s : ShortcutSearch) : Option ShortcutSearch :=
  match finalLoop d fuel (s.stopsUpdatedByRoute.keys.foldl (seedFinal d) s) with
  | none => none
  | some s => some { s with stopsUpdatedByRoute := s.stopsUpdatedByRoute.clear }

/-- The first part of `runForDepartureTime(label)`: the rounds 0 and 1, up to the
collection of the routes for the second route scan. -/
def firstRounds (d : RAPTOR.Data) (fuel : Nat) (s : ShortcutSearch)
    (label : ConsolidatedDepartureLabel) : Option ShortcutSearch :=
  let s := { s with
    shortcutCandidatesInQueue := 0
    shortcutDestinationCandidates := s.shortcutDestinationCandidates.clear
    routesServingUpdatedStops := s.routesServingUpdatedStops.clear
    stopsUpdatedByRoute := s.stopsUpdatedByRoute.clear
    stopsUpdatedByTransfer := s.stopsUpdatedByTransfer.clear
    sourceDepartureTime := label.departureTime }
  let s := s.sourceStation.stops.foldl
    (fun s stop => { s with
      zeroTripsArrivalLabels := s.zeroTripsArrivalLabels.set stop label.departureTime
      oneTripArrivalLabels := s.oneTripArrivalLabels.set stop label.departureTime
      twoTripsArrivalLabels := s.twoTripsArrivalLabels.set stop label.departureTime }) s
  let s := relaxInitialTransfers s
  let s := collectRoutes s label.routes
  (scanRoutes d 1 s).bind fun s =>
  let s := s.sourceStation.stops.foldl
    (fun s stop => { s with stopsUpdatedByTransfer := s.stopsUpdatedByTransfer.insert stop }) s
  let s := collectRoutesServingUpdatedStops d 1 s
  (scanRoutes d 1 s).bind fun s =>
  (intermediateDijkstra d fuel s).bind fun s =>
  some (collectRoutesServingUpdatedStops d 2 s)

/-- The second part of `runForDepartureTime(label)`: `scanRoutes<2>()` and
`finalDijkstra()`. -/
def secondRound (d : RAPTOR.Data) (fuel : Nat) (s : ShortcutSearch) : Option ShortcutSearch :=
  (scanRoutes d 2 s).bind fun s => finalDijkstra d fuel s

/-- `runForDepartureTime(label)`. -/
def runForDepartureTime (d : RAPTOR.Data) (fuel : Nat) (s : ShortcutSearch)
    (label : ConsolidatedDepartureLabel) : Option ShortcutSearch :=
  (firstRounds d fuel s label).bind (secondRound d fuel)

/-- The loop over the departure times of `run`. -/
def runLabels (d : RAPTOR.Data) (fuel : Nat) :
    List ConsolidatedDepartureLabel → ShortcutSearch → Option ShortcutSearch
  | [], s => some s
  | label :: rest, s =>
    match runForDepartureTime d fuel s label with
    | none => none
    | some s => runLabels d fuel rest s

/-- `run(source, minTime, maxTime)`; the fuel bounds the iterations of each Dijkstra
loop. -/
def run (d : RAPTOR.Data) (fuel : Nat) (s : ShortcutSearch) (source : Nat)
    (minTime maxTime : Int) : Option ShortcutSearch :=
  if s.representative source ≠ source then some s
  else
    match setSource d fuel s source with
    | none => none
    | some s => runLabels d fuel (collectDepartures d s minTime maxTime) s

end ShortcutSearch

end TripBased

namespace TripBased

namespace ShortcutSearch

/-- The timetables the second round is written for: the stops are vertices of the
transfer graph, its edges lead to vertices and take non-negative time, and every route
lists stops. -/
structure WellFormed (d : RAPTOR.Data) : Prop where
  size : d.transferGraph.numVertices ≤ noStop
  stops : d.numberOfStops ≤ d.transferGraph.numVertices
  edgeIds : ∀ x ∈ d.transferGraph.beginOut, x ≤ d.transferGraph.toVertex.length
  times : d.transferGraph.travelTime.length = d.transferGraph.toVertex.length
  heads : ∀ x ∈ d.transferGraph.toVertex, x < d.transferGraph.numVertices
  nonneg : ∀ t ∈ d.transferGraph.travelTime, 0 ≤ t
  stopIds : ∀ x ∈ d.stopIds, x < d.numberOfStops
  routes : ∀ x ∈ d.firstStopIdOfRoute, x ≤ d.stopIds.length

/-- The trip that is boarded with the stop event `event` reaches the stop `stop` at the
time `time`: for some route, some trip of it (counted back from its last trip) and two
stop indices `p < i` of the route, `event` is the stop event of the trip at `p`, `stop` is
the stop at `i`, and `time` is the arrival of the trip there. -/
def Reaches (d : RAPTOR.Data) (event stop : Nat) (time : Int) : Prop :=
  ∃ route k p i, p < i ∧ i < d.numberOfStopsInRoute route ∧
    event = d.lastTripOfRoute route - k * d.numberOfStopsInRoute route + p ∧
    stop = d.stopIdAt (d.stopArrayOfRoute route + i) ∧
    time = (d.stopEventAt
      (d.lastTripOfRoute route - k * d.numberOfStopsInRoute route + i)).arrivalTime

/-- The states in which the second round starts: the arrays have their sizes, the queue
holds vertices, and no stop is marked as the destination of a candidate. -/
structure Ready (d : RAPTOR.Data) (s : ShortcutSearch) : Prop where
  labels : s.twoTripsArrivalLabels.length = d.transferGraph.numVertices
  parents : s.twoTripsRouteParent.length = d.numberOfStops
  events : d.numberOfStops ≤ s.twoTripsRouteParentEvent.length
  queue : ∀ x ∈ s.twoTripsQueue, x < d.transferGraph.numVertices
  updated : ∀ x ∈ s.stopsUpdatedByRoute.keys, x < d.transferGraph.numVertices
  noMarks : ∀ p ∈ s.twoTripsRouteParent, d.isStop p = false
  nodupQ : s.twoTripsQueue.Nodup

/-- Every stop that is marked as the destination of a candidate holds the arrival time of
the trip boarded with its route parent event. -/
def Marked (d : RAPTOR.Data) (s : ShortcutSearch) : Prop :=
  ∀ stop, d.isStop (s.twoTripsRouteParent.getD stop noStop) = true →
    Reaches d (s.twoTripsRouteParentEvent.getD stop 0) stop
      (s.twoTripsArrivalLabels.getD stop never)

/-- The invariant of the second round relative to the two-trips labels `base` at its
start: the sizes of the arrays, the queue and the updated stops are vertices, the marked
stops hold the arrival of their candidate, and no label has grown. -/
structure Round2 (d : RAPTOR.Data) (base : Nat → Int) (s : ShortcutSearch) : Prop where
  labels : s.twoTripsArrivalLabels.length = d.transferGraph.numVertices
  parents : s.twoTripsRouteParent.length = d.numberOfStops
  events : d.numberOfStops ≤ s.twoTripsRouteParentEvent.length
  queue : ∀ x ∈ s.twoTripsQueue, x < d.transferGraph.numVertices
  updated : ∀ x ∈ s.stopsUpdatedByRoute.keys, x < d.transferGraph.numVertices
  marked : Marked d s
  below : ∀ x, s.twoTripsArrivalLabels.getD x never ≤ base x
  nodupQ : s.twoTripsQueue.Nodup

/-- The position of a trip iterator on a route: its stop sequence is the route's, and its
current trip is a trip of the route, counted back from the last one. -/
def OnRoute (d : RAPTOR.Data) (route : Nat) (it : RAPTOR.TripIterator) : Prop :=
  it.tripSize = d.numberOfStopsInRoute route ∧ it.stops = d.stopArrayOfRoute route ∧
    ∃ k, it.currentTrip = d.lastTripOfRoute route - k * d.numberOfStopsInRoute route

end ShortcutSearch

end TripBased

namespace TripBased

namespace ShortcutSearch

/-- The invariant of the loop of `finalDijkstra`; `done` lists the vertices taken from the
queue so far and `shortcuts` the shortcuts present before the loop.  A vertex that was
taken from the queue is not on it and is no later than the vertices on it, and every
shortcut inserted since belongs to such a stop, which holds the arrival of the trip that
is boarded with the destination of the shortcut. -/
structure Final (d : RAPTOR.Data) (base : Nat → Int) (shortcuts : List Shortcut)
    (done : List Nat) (s : ShortcutSearch) : Prop where
  round : Round2 d base s
  settled : ∀ x ∈ done, x < d.transferGraph.numVertices ∧ x ∉ s.twoTripsQueue ∧
    ∀ q ∈ s.twoTripsQueue,
      s.twoTripsArrivalLabels.getD x never ≤ s.twoTripsArrivalLabels.getD q never
  nodup : done.Nodup
  emitted : ∃ new, s.shortcuts = shortcuts ++ new ∧ ∀ sc ∈ new, ∃ D ∈ done,
    d.isStop D = true ∧ Reaches d sc.destination D (s.twoTripsArrivalLabels.getD D never)

/-- The invariant while the edges of the vertex `current` just taken from the queue are
relaxed; `L` is its label. -/
structure FinalMid (d : RAPTOR.Data) (base : Nat → Int) (shortcuts : List Shortcut)
    (done : List Nat) (current : Nat) (L : Int) (s : ShortcutSearch) : Prop where
  round : Round2 d base s
  settled : ∀ x ∈ done, x < d.transferGraph.numVertices ∧ x ∉ s.twoTripsQueue ∧
    s.twoTripsArrivalLabels.getD x never ≤ L
  above : ∀ q ∈ s.twoTripsQueue, L ≤ s.twoTripsArrivalLabels.getD q never
  nodup : done.Nodup
  here : current ∈ done ∧ s.twoTripsArrivalLabels.getD current never = L
  emitted : ∃ new, s.shortcuts = shortcuts ++ new ∧ ∀ sc ∈ new, ∃ D ∈ done,
    d.isStop D = true ∧ Reaches d sc.destination D (s.twoTripsArrivalLabels.getD D never)

end ShortcutSearch

end TripBased

namespace TripBased

namespace ShortcutSearch

/-! ### Journeys, and the timetables of the examples -/

/-- Walking from `u` to `v` takes the time `t`: staying at the vertex, or an edge of the
transfer graph. -/
def Transfer (d : RAPTOR.Data) (u v : Nat) (t : Int) : Prop :=
  (u = v ∧ t = 0) ∨ ∃ e ∈ d.transferGraph.edgesFrom u,
    d.transferGraph.toVertex.getD e noVertex = v ∧ d.transferGraph.travelTime.getD e 0 = t

/-- A trip that leaves the stop `u` not before `t` reaches the stop `v` at `t'`. -/
def Ride (d : RAPTOR.Data) (u : Nat) (t : Int) (v : Nat) (t' : Int) : Prop :=
  ∃ route k p i, p < i ∧ i < d.numberOfStopsInRoute route ∧
    u = d.stopIdAt (d.stopArrayOfRoute route + p) ∧
    t ≤ (d.stopEventAt
      (d.lastTripOfRoute route - k * d.numberOfStopsInRoute route + p)).departureTime ∧
    v = d.stopIdAt (d.stopArrayOfRoute route + i) ∧
    t' = (d.stopEventAt
      (d.lastTripOfRoute route - k * d.numberOfStopsInRoute route + i)).arrivalTime

/-- A witness journey of at most two trips that leaves `source` at `τ` reaches the stop `D`
at `T`: it walks to `D`, or it walks some way to another stop, boards a trip there, and
after this trip walks to `D` or to a second trip, which it leaves for a walk to `D`. -/
def WitnessArrival (d : RAPTOR.Data) (source : Nat) (τ : Int) (D : Nat) (T : Int) : Prop :=
  (∃ w, Transfer d source D w ∧ T = τ + w) ∨
  ∃ a w, a ≠ source ∧ 0 < w ∧ Transfer d source a w ∧ ∃ b tb, Ride d a (τ + w) b tb ∧
    ((∃ w1, Transfer d b D w1 ∧ T = tb + w1) ∨
      ∃ c w1 e te, Transfer d b c w1 ∧ Ride d c (tb + w1) e te ∧
        ∃ w2, Transfer d e D w2 ∧ T = te + w2)

/-- The candidate journey of the shortcut `sc` leaves `source` at `τ` and reaches the stop
`D` at `T`: it boards its first trip at the source at its departure `τ`, leaves it with the
stop event `sc.origin`, walks for `sc.walkingDistance` to the stop of the stop event
`sc.destination`, which it is in time for, and the trip boarded there reaches `D` at `T`. -/
def CandidateArrival (d : RAPTOR.Data) (source : Nat) (τ : Int) (sc : Shortcut) (D : Nat)
    (T : Int) : Prop :=
  ∃ route k p i, p < i ∧ i < d.numberOfStopsInRoute route ∧
    source = d.stopIdAt (d.stopArrayOfRoute route + p) ∧
    τ = (d.stopEventAt
      (d.lastTripOfRoute route - k * d.numberOfStopsInRoute route + p)).departureTime ∧
    sc.origin = d.lastTripOfRoute route - k * d.numberOfStopsInRoute route + i ∧
    ∃ route2 k2 p2 i2, p2 < i2 ∧ i2 < d.numberOfStopsInRoute route2 ∧
      sc.destination = d.lastTripOfRoute route2 - k2 * d.numberOfStopsInRoute route2 + p2 ∧
      Transfer d (d.stopIdAt (d.stopArrayOfRoute route + i))
        (d.stopIdAt (d.stopArrayOfRoute route2 + p2)) sc.walkingDistance ∧
      (d.stopEventAt sc.origin).arrivalTime + sc.walkingDistance ≤
        (d.stopEventAt sc.destination).departureTime ∧
      D = d.stopIdAt (d.stopArrayOfRoute route2 + i2) ∧
      T = (d.stopEventAt
        (d.lastTripOfRoute route2 - k2 * d.numberOfStopsInRoute route2 + i2)).arrivalTime

/-- Witness dominance for one run of the search: no shortcut in the result has a candidate
journey to a stop that a witness journey reaches at a time `T'` with `dominates T' T`,
where `T` is the arrival of the candidate. -/
def WitnessDominance (dominates : Int → Int → Prop) (d : RAPTOR.Data)
    (witnessTransferLimit : Int) (fuel source : Nat) (minTime maxTime : Int) : Prop :=
  ∀ s', run d fuel (new d witnessTransferLimit) source minTime maxTime = some s' →
    ∀ sc ∈ s'.shortcuts, ∀ τ D T, CandidateArrival d source τ sc D T →
      ¬ ∃ T', dominates T' T ∧ WitnessArrival d source τ D T'

/-- Two routes with one trip each, A to B (stops 0 and 1, from 100 to 200) and C to D
(stops 2 and 3, from 300 to 400), the footpath from B to C of 60 seconds, and the footpath
from A to D of `walk` seconds. -/
def twoRoutes (walk : Int) : RAPTOR.Data :=
  { firstRouteSegmentOfStop := [0, 1, 2, 3, 4]
    firstStopIdOfRoute := [0, 2, 4]
    firstStopEventOfRoute := [0, 2, 4]
    routeSegments := [⟨0, 0⟩, ⟨0, 1⟩, ⟨1, 0⟩, ⟨1, 1⟩]
    stopIds := [0, 1, 2, 3]
    stopEvents := [⟨100, 100⟩, ⟨200, 200⟩, ⟨300, 300⟩, ⟨400, 400⟩]
    stopData := [{}, {}, {}, {}]
    transferGraph := ⟨[0, 1, 2, 2, 2], [3, 2], [walk, 60]⟩
    implicitDepartureBufferTimes := true }

/-- Four routes with one trip each: A to B (stops 0 and 1, from 100 to 200), C to D (stops
2 and 3, from 1300 to 1400), E to F (stops 4 and 5, from 150 to 250) and G to D (stops 6
and 3, from 1290 to 1399); the footpaths from A to E (10 seconds), from B to C (60), from F
to the stop 7 (950) and from F to G (1000). -/
def farWitness : RAPTOR.Data :=
  { firstRouteSegmentOfStop := [0, 1, 2, 3, 5, 6, 7, 8, 8]
    firstStopIdOfRoute := [0, 2, 4, 6, 8]
    firstStopEventOfRoute := [0, 2, 4, 6, 8]
    routeSegments := [⟨0, 0⟩, ⟨0, 1⟩, ⟨1, 0⟩, ⟨1, 1⟩, ⟨3, 1⟩, ⟨2, 0⟩, ⟨2, 1⟩, ⟨3, 0⟩]
    stopIds := [0, 1, 2, 3, 4, 5, 6, 3]
    stopEvents := [⟨100, 100⟩, ⟨200, 200⟩, ⟨1300, 1300⟩, ⟨1400, 1400⟩, ⟨150, 150⟩,
      ⟨250, 250⟩, ⟨1290, 1290⟩, ⟨1399, 1399⟩]
    stopData := [{}, {}, {}, {}, {}, {}, {}, {}]
    transferGraph := ⟨[0, 1, 2, 2, 2, 2, 4, 4, 4], [4, 2, 7, 6], [10, 60, 950, 1000]⟩
    implicitDepartureBufferTimes := true }

/-- The state in which the second round of the first departure time of a run starts (the
state after `clear` when the run does not get there). -/
def secondRoundStart (d : RAPTOR.Data) (fuel : Nat) (witnessTransferLimit : Int)
    (source : Nat) (minTime maxTime : Int) : ShortcutSearch :=
  match setSource d fuel (new d witnessTransferLimit) source with
  | none => clear d (new d witnessTransferLimit)
  | some s =>
    match collectDepartures d s minTime maxTime with
    | [] => clear d (new d witnessTransferLimit)
    | label :: _ =>
      match firstRounds d fuel s label with
      | none => clear d (new d witnessTransferLimit)
      | some s => s

end ShortcutSearch

end TripBased

namespace TripBased

namespace ShortcutSearch

/-- Three routes with one trip each: A to B (stops 0 and 1, from 100 to 200), C to E (stops
2 and 4, from 300 to 400) and D to E (stops 3 and 4, from 300 to 400), and the footpaths of
50 seconds from B to C and from B to D: two journeys from A reach E at 400 with two trips. -/
def equalCandidates : RAPTOR.Data :=
  { firstRouteSegmentOfStop := [0, 1, 2, 3, 4, 6]
    firstStopIdOfRoute := [0, 2, 4, 6]
    firstStopEventOfRoute := [0, 2, 4, 6]
    routeSegments := [⟨0, 0⟩, ⟨0, 1⟩, ⟨1, 0⟩, ⟨2, 0⟩, ⟨1, 1⟩, ⟨2, 1⟩]
    stopIds := [0, 1, 2, 4, 3, 4]
    stopEvents := [⟨100, 100⟩, ⟨200, 200⟩, ⟨300, 300⟩, ⟨400, 400⟩, ⟨300, 300⟩, ⟨400, 400⟩]
    stopData := [{}, {}, {}, {}, {}]
    transferGraph := ⟨[0, 0, 2, 2, 2, 2], [2, 3], [50, 50]⟩
    implicitDepartureBufferTimes := true }

/-- A timetable with the stops S, V, X, A, D, T (0 to 5): the route 0 over S, T, A with one
trip (from S at 100, at T at 150, which it leaves at 140 with the buffer time taken off, at
A at 200) and the route 1 over V, D with one trip (from V at 300 to D at 400); the
footpaths from S to X (10 seconds), from X to V (10), from A to X (5) and from A to V (50),
and the footpath from V to S of 0 seconds, which has no counterpart from S to V. -/
def oneWayFootpath : RAPTOR.Data :=
  { firstRouteSegmentOfStop := [0, 1, 2, 2, 3, 4, 5]
    firstStopIdOfRoute := [0, 3, 5]
    firstStopEventOfRoute := [0, 3, 5]
    routeSegments := [⟨0, 0⟩, ⟨1, 0⟩, ⟨0, 2⟩, ⟨1, 1⟩, ⟨0, 1⟩]
    stopIds := [0, 5, 3, 1, 4]
    stopEvents := [⟨100, 100⟩, ⟨140, 150⟩, ⟨200, 200⟩, ⟨300, 300⟩, ⟨400, 400⟩]
    stopData := [{}, {}, {}, {}, {}, {}]
    transferGraph := ⟨[0, 1, 2, 3, 5, 5, 5], [2, 0, 1, 2, 1], [10, 0, 10, 5, 50]⟩
    implicitDepartureBufferTimes := true }

end ShortcutSearch

end TripBased

/-! ## Trip-Based data (DataStructures/TripBased/Data.h) -/

/-- `noTripId`: the invalid value of a `TripId`. -/
def noTripId : Nat := 4294967295

namespace RAPTOR

namespace Data

/-- Modelled from the spec: `numberOfTripsInRoute(route)` (DataStructures/RAPTOR/Data.h is
not among the sources), the number of stop events of the route over its number of stops. -/
def numberOfTripsInRoute (d : Data) (route : Nat) : Nat :=
  (d.firstStopEventOfRoute.getD (route + 1) 0 - d.firstStopEventOfRoute.getD route 0) /
    d.numberOfStopsInRoute route

/-- Modelled from the spec: `useImplicitDepartureBufferTimes()` (DataStructures/RAPTOR/
Data.h is not among the sources).  The spec's implicit buffer times mean that every
departure time already includes the minimum transfer time of its stop: the departure time
of every stop event of every trip of every route is lowered by the minimum transfer time
of the stop it belongs to, and the flag is set. -/
def useImplicitDepartureBufferTimes (d : Data) : Data :=
  if d.implicitDepartureBufferTimes then d
  else
    let stopEvents := (List.range d.numberOfRoutes).foldl
      (fun events route =>
        (List.range (d.numberOfTripsInRoute route)).foldl
          (fun events trip =>
            (List.range (d.numberOfStopsInRoute route)).foldl
              (fun events stopIndex =>
                events.updateAt
                  (d.firstTripOfRoute route + trip * d.numberOfStopsInRoute route + stopIndex)
                  (fun e => { e with departureTime := e.departureTime -
                    (d.stopData.getD (d.stopIdAt (d.stopArrayOfRoute route + stopIndex))
                      {}).minTransferTime }))
              events)
          events)
      d.stopEvents
    { d with stopEvents := stopEvents, implicitDepartureBufferTimes := true }

end Data

end RAPTOR

namespace TripBased

/-- `ArrivalEvent`. -/
structure ArrivalEvent where
  arrivalTime : Int := INFTY
  stop : Nat := noStop
deriving DecidableEq, Repr, Inhabited

/-- The members of `TripBased::Data`. -/
structure Data where
  raptorData : RAPTOR.Data
  firstTripOfRoute : List Nat
  routeOfTrip : List Nat
  firstStopIdOfTrip : List Nat
  firstStopEventOfTrip : List Nat
  tripOfStopEvent : List Nat
  indexOfStopEvent : List Nat
  stopEventGraph : StaticGraph
  arrivalEvents : List ArrivalEvent
deriving Repr

namespace Data

/-- The inner loop body of the constructor: the stop event of `trip` at the stop index
`i`. -/
def addStopEvent (trip firstStopId : Nat) (td : Data) (i : Nat) : Data :=
  { td with
    tripOfStopEvent := td.tripOfStopEvent ++ [trip]
    indexOfStopEvent := td.indexOfStopEvent ++ [i]
    arrivalEvents := td.arrivalEvents ++
      [⟨(td.raptorData.stopEventAt td.arrivalEvents.length).arrivalTime,
        td.raptorData.stopIdAt (firstStopId + i)⟩] }

/-- The body of the loop over the trips of a route in the constructor: the trip that
starts with the stop event `firstStopEvent`. -/
def addTrip (route tripLength firstStopId : Nat) (td : Data) (firstStopEvent : Nat) : Data :=
  let trip := td.routeOfTrip.length
  let td := { td with
    routeOfTrip := td.routeOfTrip ++ [route]
    firstStopIdOfTrip := td.firstStopIdOfTrip ++ [firstStopId]
    firstStopEventOfTrip := td.firstStopEventOfTrip ++ [firstStopEvent] }
  (List.range tripLength).foldl (addStopEvent trip firstStopId) td

/-- The loop `for (firstStopEvent = firstStopEventOfRoute[route]; firstStopEvent <
firstStopEventOfRoute[route + 1]; firstStopEvent += tripLength)` of the constructor;
`none` when the fuel does not suffice. -/
def addTrips (route tripLength firstStopId lastEvent : Nat) : Nat → Nat → Data → Option Data
  | 0, _, _ => none
  | fuel + 1, firstStopEvent, td =>
    if firstStopEvent < lastEvent then
      addTrips route tripLength firstStopId lastEvent fuel (firstStopEvent + tripLength)
        (addTrip route tripLength firstStopId td firstStopEvent)
    else some td

/-- The body of the loop over the routes in the constructor.  The loop over the trips
makes at most one iteration per stop event of the route unless the route has no stops, in
which case it does not end; the fuel is this bound. -/
def addRoute (td : Data) (route : Nat) : Option Data :=
  let td := { td with firstTripOfRoute := td.firstTripOfRoute ++ [td.routeOfTrip.length] }
  let firstEvent := td.raptorData.firstStopEventOfRoute.getD route 0
  let lastEvent := td.raptorData.firstStopEventOfRoute.getD (route + 1) 0
  addTrips route (td.raptorData.numberOfStopsInRoute route)
    (td.raptorData.firstStopIdOfRoute.getD route 0) lastEvent
    (lastEvent - firstEvent + 1) firstEvent td

/-- The loop over the routes in the constructor. -/
def addRoutes : List Nat → Data → Option Data
  | [], td => some td
  | route :: routes, td =>
    match addRoute td route with
    | none => none
    | some td => addRoutes routes td

/-- The constructor `Data(const RAPTOR::Data& data)`; `none` when it does not return.  The
stop-event graph is empty until a builder fills it. -/
def ofRaptor (d : RAPTOR.Data) : Option Data :=
  match addRoutes (List.range d.numberOfRoutes) ⟨d, [], [], [], [], [], [], ⟨[0], [], []⟩, []⟩ with
  | none => none
  | some td =>
    some { td with
      firstTripOfRoute := td.firstTripOfRoute ++ [td.routeOfTrip.length]
      firstStopIdOfTrip := td.firstStopIdOfTrip ++ [td.raptorData.stopIds.length]
      firstStopEventOfTrip := td.firstStopEventOfTrip ++ [td.raptorData.stopEvents.length]
      raptorData :=
        if td.raptorData.implicitDepartureBufferTimes then td.raptorData
        else td.raptorData.useImplicitDepartureBufferTimes }

/-- `numberOfTrips()`. -/
def numberOfTrips (td : Data) : Nat := td.routeOfTrip.length

/-- `isTrip(trip)`. -/
def isTrip (td : Data) (trip : Nat) : Bool := decide (trip < td.numberOfTrips)

/-- `numberOfStopEvents()`. -/
def numberOfStopEvents (td : Data) : Nat := td.raptorData.numberOfStopEvents

/-- `numberOfStopsInRoute(route)`. -/
def numberOfStopsInRoute (td : Data) (route : Nat) : Nat :=
  td.raptorData.numberOfStopsInRoute route

/-- `numberOfStopsInTrip(trip)`. -/
def numberOfStopsInTrip (td : Data) (trip : Nat) : Nat :=
  td.firstStopEventOfTrip.getD (trip + 1) 0 - td.firstStopEventOfTrip.getD trip 0

/-- `getStop(trip, index)`. -/
def getStop (td : Data) (trip index : Nat) : Nat :=
  td.raptorData.stopIdAt
    (td.raptorData.firstStopIdOfRoute.getD (td.routeOfTrip.getD trip 0) 0 + index)

/-- `getStopOfStopEvent(stopEvent)`. -/
def getStopOfStopEvent (td : Data) (stopEvent : Nat) : Nat :=
  td.raptorData.stopIdAt
    (td.firstStopIdOfTrip.getD (td.tripOfStopEvent.getD stopEvent 0) 0 +
      td.indexOfStopEvent.getD stopEvent 0)

/-- `getStopEventId(trip, index)`. -/
def getStopEventId (td : Data) (trip index : Nat) : Nat :=
  td.firstStopEventOfTrip.getD trip 0 + index

/-- `getStopEvent(trip, index)`. -/
def getStopEvent (td : Data) (trip index : Nat) : RAPTOR.StopEvent :=
  td.raptorData.stopEventAt (td.firstStopEventOfTrip.getD trip 0 + index)

/-- `stopArrayOfTrip(trip)`, a pointer into `stopIds`. -/
def stopArrayOfTrip (td : Data) (trip : Nat) : Nat :=
  td.raptorData.stopArrayOfRoute (td.routeOfTrip.getD trip 0)

/-- `std::lower_bound(first, first + len, value, comp)` over trip ids, as the bisection of
libstdc++: `less trip` is `comp(trip, value)`.  The length at least halves with every
iteration, so `len` iterations suffice. -/
def lowerBound (less : Nat → Bool) : Nat → Nat → Nat → Nat
  | 0, first, _ => first
  | fuel + 1, first, len =>
    if 0 < len then
      if less (first + len / 2) then lowerBound less fuel (first + len / 2 + 1) (len - len / 2 - 1)
      else lowerBound less fuel first (len / 2)
    else first

/-- `getEarliestTripBinary(route, time)`. -/
def getEarliestTripBinary (td : Data) (route : RAPTOR.RouteSegment) (time : Int) : Nat :=
  if route.stopIndex + 1 = td.raptorData.numberOfStopsInRoute route.routeId then noTripId
  else
    let first := td.firstTripOfRoute.getD route.routeId 0
    let last := td.firstTripOfRoute.getD (route.routeId + 1) 0
    let trip := lowerBound
      (fun trip => decide ((td.getStopEvent trip route.stopIndex).departureTime < time))
      (last - first) first (last - first)
    if trip < last then trip else noTripId

/-- `getEarliestTrip(route, time)`. -/
def getEarliestTripOfSegment (td : Data) (route : RAPTOR.RouteSegment) (time : Int) : Nat :=
  td.getEarliestTripBinary route time

/-- `getEarliestTrip(route, stopIndex, time)`. -/
def getEarliestTrip (td : Data) (route stopIndex : Nat) (time : Int) : Nat :=
  td.getEarliestTripBinary ⟨route, stopIndex⟩ time

end Data

end TripBased

/-! ## The reached index (Algorithms/TripBased/Query/ReachedIndexSmall.h) -/

namespace TripBased

/-- The members of `ReachedIndexSmall`; a `u_int8_t` is its value below 256. -/
structure ReachedIndexSmall where
  labels : List Nat
  defaultLabels : List Nat
deriving DecidableEq, Repr

namespace ReachedIndexSmall

/-- The constructor: both vectors hold `u_int8_t(-1)` for every trip, and the loop then
stores the number of stops of every trip, converted to `u_int8_t`, as its default. -/
def new (td : Data) : ReachedIndexSmall :=
  { labels := List.replicate td.numberOfTrips 255
    defaultLabels := (List.range td.numberOfTrips).foldl
      (fun defaultLabels trip => defaultLabels.set trip (td.numberOfStopsInTrip trip % 256))
      (List.replicate td.numberOfTrips 255) }

/-- `clear()`. -/
def clear (r : ReachedIndexSmall) : ReachedIndexSmall := { r with labels := r.defaultLabels }

/-- `operator()(trip)`. -/
def get (r : ReachedIndexSmall) (trip : Nat) : Nat := r.labels.getD trip 0

/-- `alreadyReached(trip, index)`; the parameter `index` is a `u_int8_t`. -/
def alreadyReached (r : ReachedIndexSmall) (trip index : Nat) : Bool :=
  decide (r.labels.getD trip 0 ≤ index % 256)

/-- The loop `for (TripId i = trip; i < routeEnd; i++)` of `update`, from the trip `i`
on; it makes at most `routeEnd - trip` iterations. -/
def updateLoop (index routeEnd : Nat) : Nat → Nat → List Nat → List Nat
  | 0, _, labels => labels
  | fuel + 1, i, labels =>
    if i < routeEnd then
      if labels.getD i 0 ≤ index then labels
      else updateLoop index routeEnd fuel (i + 1) (labels.set i (index % 256))
    else labels

/-- `update(trip, index)`. -/
def update (td : Data) (r : ReachedIndexSmall) (trip index : Nat) : ReachedIndexSmall :=
  let routeEnd := td.firstTripOfRoute.getD (td.routeOfTrip.getD trip 0 + 1) 0
  { r with labels := updateLoop index routeEnd (routeEnd - trip) trip r.labels }

/-- The state after `clear()` and the calls `update(trip, index)` of the list. -/
def afterUpdates (td : Data) (updates : List (Nat × Nat)) : ReachedIndexSmall :=
  updates.foldl (fun r u => update td r u.1 u.2) (new td).clear

end ReachedIndexSmall

namespace Data

/-- The timetables of the spec as `RAPTOR::Data`: the two index arrays of the routes have
one entry more than there are routes, the stop events of the routes follow each other from
the first stop event to the last, every route has a stop, and the stop events of a route
are those of whole trips. -/
structure Timetable (d : RAPTOR.Data) : Prop where
  routes : d.firstStopEventOfRoute.length = d.numberOfRoutes + 1
  stops : d.firstStopIdOfRoute.length = d.numberOfRoutes + 1
  first : d.firstStopEventOfRoute.getD 0 0 = 0
  last : d.firstStopEventOfRoute.getD d.numberOfRoutes 0 = d.stopEvents.length
  trips : ∀ route, route < d.numberOfRoutes →
    0 < d.numberOfStopsInRoute route ∧
    d.firstStopEventOfRoute.getD route 0 ≤ d.firstStopEventOfRoute.getD (route + 1) 0 ∧
    d.numberOfStopsInRoute route ∣
      d.firstStopEventOfRoute.getD (route + 1) 0 - d.firstStopEventOfRoute.getD route 0

/-- The stop events are the pairs of a trip and a stop index of it: what the constructor
establishes for a timetable. -/
structure StopEventsOfTrips (td : Data) : Prop where
  routes : td.firstTripOfRoute.length = td.raptorData.numberOfRoutes + 1
  trips : td.firstStopEventOfTrip.length = td.numberOfTrips + 1 ∧
    td.firstStopIdOfTrip.length = td.numberOfTrips + 1
  events : td.tripOfStopEvent.length = td.numberOfStopEvents ∧
    td.indexOfStopEvent.length = td.numberOfStopEvents ∧
    td.arrivalEvents.length = td.numberOfStopEvents
  route : ∀ trip, trip < td.numberOfTrips →
    td.routeOfTrip.getD trip 0 < td.raptorData.numberOfRoutes ∧
    td.firstTripOfRoute.getD (td.routeOfTrip.getD trip 0) 0 ≤ trip ∧
    trip < td.firstTripOfRoute.getD (td.routeOfTrip.getD trip 0 + 1) 0
  tripsOfRoute : ∀ route, route < td.raptorData.numberOfRoutes →
    td.firstTripOfRoute.getD route 0 ≤ td.firstTripOfRoute.getD (route + 1) 0 ∧
    td.firstTripOfRoute.getD (route + 1) 0 ≤ td.numberOfTrips ∧
    ∀ trip, td.firstTripOfRoute.getD route 0 ≤ trip →
      trip < td.firstTripOfRoute.getD (route + 1) 0 → td.routeOfTrip.getD trip 0 = route
  stopsInTrip : ∀ trip, trip < td.numberOfTrips →
    td.numberOfStopsInTrip trip = td.numberOfStopsInRoute (td.routeOfTrip.getD trip 0) ∧
    0 < td.numberOfStopsInTrip trip ∧
    td.firstStopIdOfTrip.getD trip 0 =
      td.raptorData.firstStopIdOfRoute.getD (td.routeOfTrip.getD trip 0) 0 ∧
    td.firstStopEventOfTrip.getD (trip + 1) 0 ≤ td.numberOfStopEvents
  ofEvent : ∀ e, e < td.numberOfStopEvents →
    td.tripOfStopEvent.getD e 0 < td.numberOfTrips ∧
    td.indexOfStopEvent.getD e 0 < td.numberOfStopsInTrip (td.tripOfStopEvent.getD e 0) ∧
    td.firstStopEventOfTrip.getD (td.tripOfStopEvent.getD e 0) 0 +
      td.indexOfStopEvent.getD e 0 = e ∧
    td.arrivalEvents.getD e {} =
      ⟨(td.raptorData.stopEventAt e).arrivalTime, td.getStopOfStopEvent e⟩
  ofTrip : ∀ trip index, trip < td.numberOfTrips → index < td.numberOfStopsInTrip trip →
    td.getStopEventId trip index < td.numberOfStopEvents ∧
    td.tripOfStopEvent.getD (td.getStopEventId trip index) 0 = trip ∧
    td.indexOfStopEvent.getD (td.getStopEventId trip index) 0 = index

end Data

end TripBased

/-! ## The Trip-Based query (Algorithms/TripBased/Query/Query.h): the journeys -/

namespace TripBased

/-- `TripBased::Journey`. -/
structure Journey where
  arrivalTime : Int
  numberOfUsedVehicles : Nat
deriving DecidableEq, Repr

/-- The members of `Query` that `addJourney` writes and `getJourneys` reads. -/
structure Query where
  minArrivalTime : Int
  numberOfUsedVehicles : Nat
  minArrivalTimeByMaxNumberOfUsedVehicles : List Int
deriving DecidableEq, Repr

namespace Query

/-- What `clear()` does to these members. -/
def clear (q : Query) : Query :=
  { q with
    numberOfUsedVehicles := 0
    minArrivalTime := INFTY
    minArrivalTimeByMaxNumberOfUsedVehicles := [INFTY] }

/-- `resize(count, value)` of a vector. -/
def resize (v : List Int) (count : Nat) (value : Int) : List Int :=
  v.take count ++ List.replicate (count - v.length) value

/-- `addJourney(newArrivalTime)`. -/
def addJourney (q : Query) (newArrivalTime : Int) : Query :=
  let v := q.minArrivalTimeByMaxNumberOfUsedVehicles
  let v :=
    if v.length ≤ q.numberOfUsedVehicles then
      resize v (q.numberOfUsedVehicles + 1) (v.getLastD 0)
    else v
  let v := v.set q.numberOfUsedVehicles (min (v.getD q.numberOfUsedVehicles 0) newArrivalTime)
  { q with
    minArrivalTimeByMaxNumberOfUsedVehicles := v
    minArrivalTime := v.getD q.numberOfUsedVehicles 0 }

/-- The statement `numberOfUsedVehicles++` that starts a round of `scanTrips`. -/
def nextRound (q : Query) : Query :=
  { q with numberOfUsedVehicles := q.numberOfUsedVehicles + 1 }

/-- The writes of `run` to these members: `clear()` first; then `addJourney` for the
direct walk, if the bucket query finds one; then, for every round of `scanTrips`,
`numberOfUsedVehicles++` and `addJourney` for every final transfer that is evaluated.
`direct` and `rounds` hold the arrival times that the run passes to `addJourney`, which it
computes from the bucket query and the scanned stop events. -/
def run (q : Query) (direct : Option Int) (rounds : List (List Int)) : Query :=
  let q := q.clear
  let q := match direct with
    | none => q
    | some arrivalTime => q.addJourney arrivalTime
  rounds.foldl (fun q arrivals => arrivals.foldl addJourney q.nextRound) q

/-- The body of the loop of `getJourneys` for the index `i`. -/
def getJourney (q : Query) (result : List Journey) (i : Nat) : List Journey :=
  if q.minArrivalTimeByMaxNumberOfUsedVehicles.getD i 0 ≥ INFTY then result
  else if 1 ≤ result.length ∧
      (result.getLast?.map fun j => j.arrivalTime) =
        some (q.minArrivalTimeByMaxNumberOfUsedVehicles.getD i 0) then result
  else result ++ [⟨q.minArrivalTimeByMaxNumberOfUsedVehicles.getD i 0, i⟩]

/-- `getJourneys()`. -/
def getJourneys (q : Query) : List Journey :=
  (List.range q.minArrivalTimeByMaxNumberOfUsedVehicles.length).foldl q.getJourney []

/-- The best arrival time with at most `n` vehicles: the entry for `n`, or the last entry
when no journey with so many vehicles was added. -/
def best (q : Query) (n : Nat) : Int :=
  q.minArrivalTimeByMaxNumberOfUsedVehicles.getD n
    (q.minArrivalTimeByMaxNumberOfUsedVehicles.getLastD INFTY)

/-- The best arrival time with at most `n` vehicles among the arrival times that the run
passes to `addJourney`: the least of `INFTY`, the arrival time of the direct walk, if
there is one, and the arrival times of the first `n` rounds. -/
def bestAdded (direct : Option Int) (rounds : List (List Int)) (n : Nat) : Int :=
  (direct.toList ++ (rounds.take n).flatten).foldl min INFTY

/-- The invariant of the writes of a run: there is an entry for every number of vehicles
up to an index not above `numberOfUsedVehicles`, no entry is above `INFTY`, and the
entries do not increase. -/
structure Inv (q : Query) : Prop where
  size : 1 ≤ q.minArrivalTimeByMaxNumberOfUsedVehicles.length ∧
    q.minArrivalTimeByMaxNumberOfUsedVehicles.length ≤ q.numberOfUsedVehicles + 1
  finite : ∀ x ∈ q.minArrivalTimeByMaxNumberOfUsedVehicles, x ≤ INFTY
  sorted : q.minArrivalTimeByMaxNumberOfUsedVehicles.Pairwise (fun a b => b ≤ a)

end Query

end TripBased

namespace TripBased

namespace Data

/-- The first stop events of the trips built so far, followed by the number `E` of stop
events built so far: the entry after the last trip is where the next trip starts. -/
def tripEnds (td : Data) (E : Nat) : List Nat := td.firstStopEventOfTrip ++ [E]

/-- The first trips of the routes built so far, followed by the number of trips built so
far. -/
def routeEnds (td : Data) : List Nat := td.firstTripOfRoute ++ [td.routeOfTrip.length]

/-- The invariant of the constructor for the trips and the stop events built so far, `E`
being the number of these stop events. -/
structure TripsBuilt (d : RAPTOR.Data) (td : Data) (E : Nat) : Prop where
  raptor : td.raptorData = d
  lens : td.firstStopIdOfTrip.length = td.routeOfTrip.length ∧
    td.firstStopEventOfTrip.length = td.routeOfTrip.length
  events : td.tripOfStopEvent.length = E ∧ td.indexOfStopEvent.length = E ∧
    td.arrivalEvents.length = E
  trip : ∀ t, t < td.routeOfTrip.length →
    td.routeOfTrip.getD t 0 < d.numberOfRoutes ∧
    td.firstStopIdOfTrip.getD t 0 = d.firstStopIdOfRoute.getD (td.routeOfTrip.getD t 0) 0 ∧
    0 < d.numberOfStopsInRoute (td.routeOfTrip.getD t 0) ∧
    (td.tripEnds E).getD t 0 + d.numberOfStopsInRoute (td.routeOfTrip.getD t 0) =
      (td.tripEnds E).getD (t + 1) 0 ∧
    (td.tripEnds E).getD (t + 1) 0 ≤ E ∧
    ∀ i, i < d.numberOfStopsInRoute (td.routeOfTrip.getD t 0) →
      td.tripOfStopEvent.getD ((td.tripEnds E).getD t 0 + i) 0 = t ∧
      td.indexOfStopEvent.getD ((td.tripEnds E).getD t 0 + i) 0 = i
  event : ∀ e, e < E →
    td.tripOfStopEvent.getD e 0 < td.routeOfTrip.length ∧
    td.indexOfStopEvent.getD e 0 <
      d.numberOfStopsInRoute (td.routeOfTrip.getD (td.tripOfStopEvent.getD e 0) 0) ∧
    (td.tripEnds E).getD (td.tripOfStopEvent.getD e 0) 0 + td.indexOfStopEvent.getD e 0 = e ∧
    td.arrivalEvents.getD e {} =
      ⟨(d.stopEventAt e).arrivalTime,
        d.stopIdAt (td.firstStopIdOfTrip.getD (td.tripOfStopEvent.getD e 0) 0 +
          td.indexOfStopEvent.getD e 0)⟩

/-- The invariant of the constructor for the routes: `k` routes are started, and the
trips of every one of them are the trips between its first trip and the first trip of the
next route. -/
structure RoutesBuilt (k : Nat) (td : Data) : Prop where
  length : td.firstTripOfRoute.length = k
  route : ∀ t, t < td.routeOfTrip.length →
    td.routeOfTrip.getD t 0 < k ∧
    td.routeEnds.getD (td.routeOfTrip.getD t 0) 0 ≤ t ∧
    t < td.routeEnds.getD (td.routeOfTrip.getD t 0 + 1) 0
  trips : ∀ r, r < k →
    td.routeEnds.getD r 0 ≤ td.routeEnds.getD (r + 1) 0 ∧
    td.routeEnds.getD (r + 1) 0 ≤ td.routeOfTrip.length ∧
    ∀ t, td.routeEnds.getD r 0 ≤ t → t < td.routeEnds.getD (r + 1) 0 →
      td.routeOfTrip.getD t 0 = r

end Data

end TripBased

namespace TripBased

namespace Data

/-- The stop events `events` are those of `base` up to their departure times. -/
def SameArrivals (base events : List RAPTOR.StopEvent) : Prop :=
  events.length = base.length ∧
    ∀ e, (events.getD e default).arrivalTime = (base.getD e default).arrivalTime

end Data

end TripBased

namespace TripBased

namespace Data

/-- A timetable with three stops and two routes: the route 0 over the stops 0, 1, 2 with
two trips (leaving the stop 0 at 100 and at 400), and the route 1 over the stops 2, 0 with
one trip (leaving the stop 2 at 250); there are no footpaths. -/
def smallTimetable : RAPTOR.Data :=
  { firstRouteSegmentOfStop := [0, 2, 3, 5]
    firstStopIdOfRoute := [0, 3, 5]
    firstStopEventOfRoute := [0, 6, 8]
    routeSegments := [⟨0, 0⟩, ⟨1, 1⟩, ⟨0, 1⟩, ⟨0, 2⟩, ⟨1, 0⟩]
    stopIds := [0, 1, 2, 2, 0]
    stopEvents := [⟨100, 100⟩, ⟨200, 190⟩, ⟨300, 290⟩, ⟨400, 400⟩, ⟨500, 490⟩, ⟨600, 590⟩,
      ⟨250, 250⟩, ⟨350, 340⟩]
    stopData := [{}, {}, {}]
    transferGraph := ⟨[0, 0, 0, 0], [], []⟩
    implicitDepartureBufferTimes := true }

/-- The Trip-Based data of `smallTimetable`, as the constructor builds it. -/
def smallData : Data :=
  { raptorData := smallTimetable
    firstTripOfRoute := [0, 2, 3]
    routeOfTrip := [0, 0, 1]
    firstStopIdOfTrip := [0, 0, 3, 5]
    firstStopEventOfTrip := [0, 3, 6, 8]
    tripOfStopEvent := [0, 0, 0, 1, 1, 1, 2, 2]
    indexOfStopEvent := [0, 1, 2, 0, 1, 2, 0, 1]
    stopEventGraph := ⟨[0], [], []⟩
    arrivalEvents := [⟨100, 0⟩, ⟨190, 1⟩, ⟨290, 2⟩, ⟨400, 0⟩, ⟨490, 1⟩, ⟨590, 2⟩, ⟨250, 2⟩,
      ⟨340, 0⟩] }

end Data

end TripBased

namespace TripBased

namespace ReachedIndexSmall

/-- The invariant of the reached index between the calls of `update`: there is a label
for every trip, the labels are bytes, and along the trips of a route they do not
increase. -/
structure Inv (td : Data) (r : ReachedIndexSmall) : Prop where
  length : r.labels.length = td.numberOfTrips
  small : ∀ t, t < td.numberOfTrips → r.labels.getD t 0 ≤ 255
  sorted : ∀ t t', t ≤ t' → t' < td.numberOfTrips →
    td.routeOfTrip.getD t 0 = td.routeOfTrip.getD t' 0 →
    r.labels.getD t' 0 ≤ r.labels.getD t 0

end ReachedIndexSmall

namespace Data

/-- A timetable with one route of 256 stops (the stops 0 to 255 in this order) and one
trip, which reaches the stop `i` at the time `i`. -/
def longRoute : RAPTOR.Data :=
  { firstRouteSegmentOfStop := List.range 257
    firstStopIdOfRoute := [0, 256]
    firstStopEventOfRoute := [0, 256]
    routeSegments := (List.range 256).map (fun i => ⟨0, i⟩)
    stopIds := List.range 256
    stopEvents := (List.range 256).map (fun i => ⟨i, i⟩)
    stopData := List.replicate 256 {}
    transferGraph := ⟨List.replicate 257 0, [], []⟩
    implicitDepartureBufferTimes := true }

end Data

end TripBased

/-! ## The ULTRA builders (Algorithms/TripBased/Preprocessing/ULTRABuilder.h and
StopEventGraphBuilderUsingULTRA.h) -/

/-- The contract of `std::sort(first, last, comp)`: the elements are reordered so that no
element is less than an element before it.  The order of equivalent elements is not
determined. -/
def StdSort {α : Type} (less : α → α → Bool) (sort : List α → List α) : Prop :=
  ∀ l, (sort l).Perm l ∧ (sort l).Pairwise (fun a b => less b a = false)

namespace TripBased

/-- An edge of a `DynamicTransferGraph` with its attribute `TravelTime`. -/
structure TransferEdge where
  fromVertex : Nat
  toVertex : Nat
  travelTime : Int
deriving DecidableEq, Repr

/-- Modelled from the spec: `DynamicTransferGraph`, a `DynamicGraph` with travel times
(DataStructures/Graph/Classes/DynamicGraph.h is not among the sources).  As for the core
graph of the contraction hierarchy, the graph is the list of its edges, and the edges of a
vertex are those of the list that leave it, in the order of the list. -/
structure DynamicTransferGraph where
  numVertices : Nat
  edges : List TransferEdge
deriving DecidableEq, Repr

namespace DynamicTransferGraph

/-- `addEdge(from, to).set(TravelTime, travelTime)`. -/
def addEdge (g : DynamicTransferGraph) (fromVertex toVertex : Nat) (travelTime : Int) :
    DynamicTransferGraph :=
  { g with edges := g.edges ++ [⟨fromVertex, toVertex, travelTime⟩] }

/-- The order of the edges after `sortEdges(ToVertex)`: by tail, and for one tail by
head. -/
def edgeLess (a b : TransferEdge) : Bool :=
  decide (a.fromVertex < b.fromVertex) ||
    (decide (a.fromVertex = b.fromVertex) && decide (a.toVertex < b.toVertex))

/-- Modelled from the spec: `sortEdges(ToVertex)`, which orders the edges of every vertex
by their head. -/
def sortEdges (g : DynamicTransferGraph) : DynamicTransferGraph :=
  { g with edges := ShortcutSearch.sortBy edgeLess g.edges }

end DynamicTransferGraph

/-- Modelled from the spec: `SimpleDynamicGraph`, a `DynamicGraph` without attributes: the
list of its edges as pairs of tail and head. -/
structure SimpleDynamicGraph where
  numVertices : Nat
  edges : List (Nat × Nat)
deriving DecidableEq, Repr

namespace SimpleDynamicGraph

/-- `addEdge(from, to)`. -/
def addEdge (g : SimpleDynamicGraph) (fromVertex toVertex : Nat) : SimpleDynamicGraph :=
  { g with edges := g.edges ++ [(fromVertex, toVertex)] }

/-- The order of the edges after `sortEdges(ToVertex)`. -/
def edgeLess (a b : Nat × Nat) : Bool :=
  decide (a.1 < b.1) || (decide (a.1 = b.1) && decide (a.2 < b.2))

/-- Modelled from the spec: `sortEdges(ToVertex)`. -/
def sortEdges (g : SimpleDynamicGraph) : SimpleDynamicGraph :=
  { g with edges := ShortcutSearch.sortBy edgeLess g.edges }

end SimpleDynamicGraph

/-- The comparison of the `std::sort` in `computeShortcuts`: by origin, then by
destination; the walking distance is not compared. -/
def shortcutLess (a b : Shortcut) : Bool :=
  decide (a.origin < b.origin) ||
    (decide (a.origin = b.origin) && decide (a.destination < b.destination))

namespace ULTRABuilder

/-- The loop `for (size_t i = 1; i < shortcuts.size(); i++)` of `computeShortcuts`;
`previous` is `shortcuts[i - 1]`. -/
def addShortcuts (g : DynamicTransferGraph) : Shortcut → List Shortcut → DynamicTransferGraph
  | _, [] => g
  | previous, shortcut :: rest =>
    if shortcut.origin = previous.origin ∧ shortcut.destination = previous.destination then
      addShortcuts g shortcut rest
    else
      addShortcuts (g.addEdge shortcut.origin shortcut.destination shortcut.walkingDistance)
        shortcut rest

/-- The part of `computeShortcuts` that follows the collection of the shortcuts of all
threads in the vector `shortcuts`: the vector is sorted by `sort`, the edge of
`shortcuts[0]` is added, then the edges of the loop, and the edges are sorted.  The graph
has the `numberOfStopEvents` vertices that the constructor added.  `none` stands for the
undefined result of reading `shortcuts[0]` in an empty vector. -/
def computeShortcuts (sort : List Shortcut → List Shortcut) (numberOfStopEvents : Nat)
    (shortcuts : List Shortcut) : Option DynamicTransferGraph :=
  match sort shortcuts with
  | [] => none
  | first :: rest =>
    let g : DynamicTransferGraph := ⟨numberOfStopEvents, []⟩
    let g := g.addEdge first.origin first.destination first.walkingDistance
    some (addShortcuts g first rest).sortEdges

/-- The loop `for (size_t i = 0; i < data.numberOfStops(); i++)` of `computeShortcuts` as
one thread sees it: `shortcutSearch.run(StopId(i), minDepartureTime, maxDepartureTime)` for
the stops that the dynamic schedule hands to the thread, one after the other on the
search of the thread; `none` when the fuel of a search does not suffice. -/
def runStops (d : RAPTOR.Data) (fuel : Nat) (minDepartureTime maxDepartureTime : Int) :
    List Nat → ShortcutSearch → Option ShortcutSearch
  | [], s => some s
  | stop :: rest, s =>
    match ShortcutSearch.run d fuel s stop minDepartureTime maxDepartureTime with
    | none => none
    | some s => runStops d fuel minDepartureTime maxDepartureTime rest s

/-- The collection of the shortcuts in `computeShortcuts`: every thread constructs a
search of its own, runs it from its stops, and appends the shortcuts of its search to the
shared vector in the critical section.  `threads` lists the threads in the order in which
they enter the critical section, each with its stops in the order of its runs. -/
def collectShortcuts (d : RAPTOR.Data) (fuel : Nat) (witnessTransferLimit : Int)
    (minDepartureTime maxDepartureTime : Int) : List (List Nat) → Option (List Shortcut)
  | [] => some []
  | stops :: rest =>
    match runStops d fuel minDepartureTime maxDepartureTime stops
        (ShortcutSearch.new d witnessTransferLimit),
      collectShortcuts d fuel witnessTransferLimit minDepartureTime maxDepartureTime rest with
    | some s, some shortcuts => some (s.shortcuts ++ shortcuts)
    | _, _ => none

end ULTRABuilder

namespace StopEventGraphBuilderUsingULTRA

/-- The loop `for (size_t i = 1; i < shortcuts.size(); i++)` of `computeShortcuts`. -/
def addShortcuts (g : SimpleDynamicGraph) : Shortcut → List Shortcut → SimpleDynamicGraph
  | _, [] => g
  | previous, shortcut :: rest =>
    if shortcut.origin = previous.origin ∧ shortcut.destination = previous.destination then
      addShortcuts g shortcut rest
    else addShortcuts (g.addEdge shortcut.origin shortcut.destination) shortcut rest

/-- The part of `computeShortcuts` that follows the collection of the shortcuts; `none`
stands for the undefined result of reading `shortcuts[0]` in an empty vector. -/
def computeShortcuts (sort : List Shortcut → List Shortcut) (numberOfStopEvents : Nat)
    (shortcuts : List Shortcut) : Option SimpleDynamicGraph :=
  match sort shortcuts with
  | [] => none
  | first :: rest =>
    let g : SimpleDynamicGraph := ⟨numberOfStopEvents, []⟩
    let g := g.addEdge first.origin first.destination
    some (addShortcuts g first rest).sortEdges

end StopEventGraphBuilderUsingULTRA

/-- The edges that the loop of `computeShortcuts` adds after the edge of `previous`. -/
def ULTRABuilder.emitted : Shortcut → List Shortcut → List TransferEdge
  | _, [] => []
  | previous, shortcut :: rest =>
    if shortcut.origin = previous.origin ∧ shortcut.destination = previous.destination then
      emitted shortcut rest
    else
      ⟨shortcut.origin, shortcut.destination, shortcut.walkingDistance⟩ :: emitted shortcut rest

/-- The order of the pairs of origin and destination: by origin, then by destination. -/
def pairLess (a b : Nat × Nat) : Prop := a.1 < b.1 ∨ (a.1 = b.1 ∧ a.2 < b.2)

end TripBased

namespace TripBased

/-- The edges that `computeShortcuts` adds for the sorted vector `shortcuts`: the edge of
the first shortcut and the edges of the loop. -/
def ULTRABuilder.edgesOf : List Shortcut → List TransferEdge
  | [] => []
  | first :: rest =>
    ⟨first.origin, first.destination, first.walkingDistance⟩ :: ULTRABuilder.emitted first rest

/-- The shortcuts with the same origin and destination have the same walking distance. -/
def ULTRABuilder.SameDistances (shortcuts : List Shortcut) : Prop :=
  ∀ a ∈ shortcuts, ∀ b ∈ shortcuts, a.origin = b.origin → a.destination = b.destination →
    a.walkingDistance = b.walkingDistance

end TripBased

/-! ## The exhaustive stop-event graph builder
(Algorithms/TripBased/Preprocessing/StopEventGraphBuilder.h) -/

namespace TripBased

/-- `StopEventGraphBuilder::StopLabel`. -/
structure StopLabel where
  arrivalTime : Int := INFTY
  timeStamp : Int := 0
deriving DecidableEq, Repr, Inhabited

namespace StopLabel

/-- `checkTimeStamp(newTimeStamp)`. -/
def checkTimeStamp (l : StopLabel) (newTimeStamp : Int) : StopLabel :=
  { arrivalTime := if l.timeStamp ≠ newTimeStamp then INFTY else l.arrivalTime
    timeStamp := newTimeStamp }

/-- `update(newTimeStamp, newArrivalTime)`. -/
def update (l : StopLabel) (newTimeStamp newArrivalTime : Int) : StopLabel :=
  let l := l.checkTimeStamp newTimeStamp
  { l with arrivalTime := min l.arrivalTime newArrivalTime }

end StopLabel

/-- The members of `StopEventGraphBuilder`: the transfers found for every stop event, the
label of every stop, and the time stamp. -/
structure StopEventGraphBuilder where
  edges : List (List Nat)
  labels : List StopLabel
  timeStamp : Int
deriving DecidableEq, Repr

namespace StopEventGraphBuilder

/-- The constructor. -/
def new (td : Data) : StopEventGraphBuilder :=
  { edges := List.replicate td.numberOfStopEvents []
    labels := List.replicate td.raptorData.numberOfStops {}
    timeStamp := 0 }

/-- `isUTransfer(fromTrip, fromIndex, toTrip, toIndex)`. -/
def isUTransfer (td : Data) (fromTrip fromIndex toTrip toIndex : Nat) : Bool :=
  if fromIndex < 2 then false
  else if toIndex + 1 ≥ td.numberOfStopsInTrip toTrip then false
  else if td.getStop fromTrip (fromIndex - 1) ≠ td.getStop toTrip (toIndex + 1) then false
  else if (td.getStopEvent fromTrip (fromIndex - 1)).arrivalTime >
      (td.getStopEvent toTrip (toIndex + 1)).departureTime then false
  else true

/-- The body of the loop of `scanRoutes(trip, i, stop, arrivalTime)` for one route
segment of the stop. -/
def scanRoute (td : Data) (trip i : Nat) (arrivalTime : Int) (b : StopEventGraphBuilder)
    (route : RAPTOR.RouteSegment) : StopEventGraphBuilder :=
  let other := td.getEarliestTripOfSegment route arrivalTime
  if other = noTripId then b
  else if route.routeId = td.routeOfTrip.getD trip 0 ∧ other ≥ trip ∧ route.stopIndex ≥ i then b
  else if isUTransfer td trip i other route.stopIndex then b
  else
    { b with
      edges := b.edges.updateAt (td.firstStopEventOfTrip.getD trip 0 + i)
        (fun transfers => transfers ++ [td.firstStopEventOfTrip.getD other 0 + route.stopIndex]) }

/-- `scanRoutes(trip, i, stop, arrivalTime)`. -/
def scanRoutes (td : Data) (b : StopEventGraphBuilder) (trip i stop : Nat) (arrivalTime : Int) :
    StopEventGraphBuilder :=
  (td.raptorData.routesContainingStop stop).foldl (scanRoute td trip i arrivalTime) b

/-- The body of the loop of `scanTrip(trip)` for the stop index `i`. -/
def scanStop (td : Data) (trip : Nat) (b : StopEventGraphBuilder) (i : Nat) :
    StopEventGraphBuilder :=
  let stop := td.raptorData.stopIdAt (td.stopArrayOfTrip trip + i)
  let arrivalTime :=
    (td.raptorData.stopEventAt (td.firstStopEventOfTrip.getD trip 0 + i)).arrivalTime
  let b := scanRoutes td b trip i stop arrivalTime
  (td.raptorData.transferGraph.edgesFrom stop).foldl
    (fun b edge => scanRoutes td b trip i (td.raptorData.transferGraph.toVertex.getD edge noVertex)
      (arrivalTime + td.raptorData.transferGraph.travelTime.getD edge 0)) b

/-- `scanTrip(trip)`. -/
def scanTrip (td : Data) (b : StopEventGraphBuilder) (trip : Nat) : StopEventGraphBuilder :=
  (List.range' 1 (td.numberOfStopsInTrip trip - 1)).foldl (scanStop td trip) b

/-- The test of `reduceTransfers` whether an arrival improves the label of a stop, with
its effect on the label and on the flag `keep`. -/
def improve (timeStamp : Int) (state : List StopLabel × Bool) (stop : Nat) (time : Int) :
    List StopLabel × Bool :=
  let labels := state.1.updateAt stop (fun l => l.checkTimeStamp timeStamp)
  if (labels.getD stop {}).arrivalTime > time then
    (labels.updateAt stop (fun l => { l with arrivalTime := time }), true)
  else (labels, state.2)

/-- The loop `for (size_t j = ...; j > 0; j--)` of `reduceTransfers` over the stops that
the trip of `transferTarget` visits after it, and over the footpaths from them. -/
def scanTarget (td : Data) (timeStamp : Int) (labels : List StopLabel) (transferTarget : Nat) :
    List StopLabel × Bool :=
  let transferTargetIndex := td.indexOfStopEvent.getD transferTarget 0
  let transferTargetTrip := td.tripOfStopEvent.getD transferTarget 0
  let transferTargetStops := td.stopArrayOfTrip transferTargetTrip + transferTargetIndex
  (List.range' 1
      (td.numberOfStopsInTrip transferTargetTrip - transferTargetIndex - 1)).reverse.foldl
    (fun state j =>
      let transferTargetStop := td.raptorData.stopIdAt (transferTargetStops + j)
      let transferTargetTime := (td.raptorData.stopEventAt (transferTarget + j)).arrivalTime
      let state := improve timeStamp state transferTargetStop transferTargetTime
      (td.raptorData.transferGraph.edgesFrom transferTargetStop).foldl
        (fun state edge =>
          improve timeStamp state (td.raptorData.transferGraph.toVertex.getD edge noVertex)
            (transferTargetTime + td.raptorData.transferGraph.travelTime.getD edge 0))
        state)
    (labels, false)

/-- The removal of repeated neighbours from the sorted transfers in `reduceTransfers`:
the vector starts with the first transfer, and every transfer that differs from the last
one of the vector is appended. -/
def uniqueTransfers (sorted : List Nat) : List Nat :=
  match sorted with
  | [] => []
  | first :: _ =>
    sorted.foldl
      (fun transfers x => if transfers.getLast? ≠ some x then transfers ++ [x] else transfers)
      [first]

/-- The body of the loop of `reduceTransfers(trip)` for the stop index `i`; `sort` is the
`std::sort` of the transfers by the arrival time of their target. -/
def reduceStop (sort : (Nat → Nat → Bool) → List Nat → List Nat) (td : Data) (trip : Nat)
    (b : StopEventGraphBuilder) (i : Nat) : StopEventGraphBuilder :=
  let stop := td.raptorData.stopIdAt (td.stopArrayOfTrip trip + i)
  let arrivalTime :=
    (td.raptorData.stopEventAt (td.firstStopEventOfTrip.getD trip 0 + i)).arrivalTime
  let labels := b.labels.updateAt stop (fun l => l.update b.timeStamp arrivalTime)
  let labels := (td.raptorData.transferGraph.edgesFrom stop).foldl
    (fun labels edge =>
      labels.updateAt (td.raptorData.transferGraph.toVertex.getD edge noVertex)
        (fun l => l.update b.timeStamp
          (arrivalTime + td.raptorData.transferGraph.travelTime.getD edge 0)))
    labels
  let stopEventVertex := td.firstStopEventOfTrip.getD trip 0 + i
  if (b.edges.getD stopEventVertex []).isEmpty then { b with labels := labels }
  else
    let sorted := sort
      (fun x y => decide ((td.raptorData.stopEventAt x).arrivalTime <
        (td.raptorData.stopEventAt y).arrivalTime))
      (b.edges.getD stopEventVertex [])
    let result := (uniqueTransfers sorted).foldl
      (fun (state : List StopLabel × List Nat) transferTarget =>
        let scanned := scanTarget td b.timeStamp state.1 transferTarget
        (scanned.1, if scanned.2 then state.2 ++ [transferTarget] else state.2))
      (labels, [])
    { b with labels := result.1, edges := b.edges.set stopEventVertex result.2 }

/-- `reduceTransfers(trip)`. -/
def reduceTransfers (sort : (Nat → Nat → Bool) → List Nat → List Nat) (td : Data)
    (b : StopEventGraphBuilder) (trip : Nat) : StopEventGraphBuilder :=
  (List.range' 1 (td.numberOfStopsInTrip trip - 1)).reverse.foldl (reduceStop sort td trip)
    { b with timeStamp := b.timeStamp + 1 }

/-- The loop of `ComputeStopEventGraph` over the trips of the list: `scanTrip` and
`reduceTransfers` for every one of them. -/
def build (sort : (Nat → Nat → Bool) → List Nat → List Nat) (td : Data) (trips : List Nat) :
    StopEventGraphBuilder :=
  trips.foldl (fun b trip => reduceTransfers sort td (scanTrip td b trip) trip) (new td)

/-- No transfer of the builder is a U-turn: `isUTransfer` is false for the trips and stop
indices of its two stop events. -/
def NoUTransfer (td : Data) (b : StopEventGraphBuilder) : Prop :=
  ∀ v w, w ∈ b.edges.getD v [] →
    isUTransfer td (td.tripOfStopEvent.getD v 0) (td.indexOfStopEvent.getD v 0)
      (td.tripOfStopEvent.getD w 0) (td.indexOfStopEvent.getD w 0) = false

end StopEventGraphBuilder

namespace Data

/-- A timetable with the stops A, B, C (0, 1, 2): the route 0 over A, B, A with one trip
(at A at 100, at B at 200, back at A at 205), the route 1 over A, B, C with one trip (at A
at 250, at B at 260, at C at 270), and a footpath of 10 seconds from B to A. -/
def uTurn : RAPTOR.Data :=
  { firstRouteSegmentOfStop := [0, 3, 5, 6]
    firstStopIdOfRoute := [0, 3, 6]
    firstStopEventOfRoute := [0, 3, 6]
    routeSegments := [⟨0, 0⟩, ⟨0, 2⟩, ⟨1, 0⟩, ⟨0, 1⟩, ⟨1, 1⟩, ⟨1, 2⟩]
    stopIds := [0, 1, 0, 0, 1, 2]
    stopEvents := [⟨100, 100⟩, ⟨200, 200⟩, ⟨205, 205⟩, ⟨250, 250⟩, ⟨260, 260⟩, ⟨270, 270⟩]
    stopData := [{}, {}, {}]
    transferGraph := ⟨[0, 0, 1, 1], [0], [10]⟩
    implicitDepartureBufferTimes := true }

/-- The Trip-Based data that the constructor builds for `uTurn`. -/
def uTurnData : Data :=
  { raptorData := uTurn
    firstTripOfRoute := [0, 1, 2]
    routeOfTrip := [0, 1]
    firstStopIdOfTrip := [0, 3, 6]
    firstStopEventOfTrip := [0, 3, 6]
    tripOfStopEvent := [0, 0, 0, 1, 1, 1]
    indexOfStopEvent := [0, 1, 2, 0, 1, 2]
    stopEventGraph := ⟨[0], [], []⟩
    arrivalEvents := [⟨100, 0⟩, ⟨200, 1⟩, ⟨205, 0⟩, ⟨250, 0⟩, ⟨260, 1⟩, ⟨270, 2⟩] }

end Data

end TripBased

/-! ## Contraction hierarchies: the keys, the phases and the levels -/

namespace CH

/-- The questions of `GreedyKey::simulateContract(vertex)` to the witness search, one for
every pair of an edge into the vertex and an edge out of it whose other ends differ: is
the shortcut between these ends over the vertex, of the sum of the two weights as `int`
computes it, necessary. -/
def greedyQuestions (core : DynamicGraph) (vertex : Nat) : List WitnessSearch.Call :=
  (core.edgesTo vertex).flatMap (fun first =>
    ((core.edgesFrom vertex).filter (fun second => first.fromVertex ≠ second.toVertex)).map
      (fun second =>
        ⟨first.fromVertex, second.toVertex, vertex,
          wrapInt32 (first.weight + second.weight)⟩))

end CH

namespace TripBased

namespace Data

/-- A timetable with the stops A, B, C, D (0, 1, 2, 3) and without footpaths: the route 0
over A, B, D with one trip (at A at 100, at B at 200, at D at 300) and the route 1 over
B, A, C with one trip (at B at 250, at A at 300, at C at 400). -/
def thereAndBack : RAPTOR.Data :=
  { firstRouteSegmentOfStop := [0, 2, 4, 5, 6]
    firstStopIdOfRoute := [0, 3, 6]
    firstStopEventOfRoute := [0, 3, 6]
    routeSegments := [⟨0, 0⟩, ⟨1, 1⟩, ⟨0, 1⟩, ⟨1, 0⟩, ⟨1, 2⟩, ⟨0, 2⟩]
    stopIds := [0, 1, 3, 1, 0, 2]
    stopEvents := [⟨100, 100⟩, ⟨200, 200⟩, ⟨300, 300⟩, ⟨250, 250⟩, ⟨300, 300⟩, ⟨400, 400⟩]
    stopData := [{}, {}, {}, {}]
    transferGraph := ⟨[0, 0, 0, 0, 0], [], []⟩
    implicitDepartureBufferTimes := true }

/-- The Trip-Based data that the constructor builds for `thereAndBack`. -/
def thereAndBackData : Data :=
  { raptorData := thereAndBack
    firstTripOfRoute := [0, 1, 2]
    routeOfTrip := [0, 1]
    firstStopIdOfTrip := [0, 3, 6]
    firstStopEventOfTrip := [0, 3, 6]
    tripOfStopEvent := [0, 0, 0, 1, 1, 1]
    indexOfStopEvent := [0, 1, 2, 0, 1, 2]
    stopEventGraph := ⟨[0], [], []⟩
    arrivalEvents := [⟨100, 0⟩, ⟨200, 1⟩, ⟨300, 3⟩, ⟨250, 1⟩, ⟨300, 0⟩, ⟨400, 2⟩] }

end Data

end TripBased

namespace TripBased

namespace Data

/-- The invariant of the constructor for the first stop events of the routes: the first
trip of every route started so far begins with the first stop event of the route. -/
def RouteStarts (d : RAPTOR.Data) (k : Nat) (td : Data) (E : Nat) : Prop :=
  ∀ r, r < k → (td.tripEnds E).getD (td.routeEnds.getD r 0) 0 = d.firstStopEventOfRoute.getD r 0

end Data

end TripBased

namespace TripBased

namespace Data

/-- `getEarliestTripLinear(route, time)`. -/
def getEarliestTripLinear (td : Data) (route : RAPTOR.RouteSegment) (time : Int) : Nat :=
  if route.stopIndex + 1 = td.raptorData.numberOfStopsInRoute route.routeId then noTripId
  else if (td.raptorData.stopEventAt
      (td.raptorData.lastTripOfRoute route.routeId + route.stopIndex)).departureTime < time then
    noTripId
  else
    match (List.range' (td.firstTripOfRoute.getD route.routeId 0)
        (td.firstTripOfRoute.getD (route.routeId + 1) 0 -
          td.firstTripOfRoute.getD route.routeId 0)).find?
        (fun trip => decide ((td.getStopEvent trip route.stopIndex).departureTime ≥ time)) with
    | some trip => trip
    | none => noTripId

/-- The value of an `int` after its conversion to `u_int32_t`, the value type of `TripId`. -/
def toU32 (x : Int) : Nat := (x % 4294967296).toNat

/-- The loop `while (getStopEvent(trip, route.stopIndex).departureTime < time) trip++` of
`getEarliestTripPeek`: the trip at which it ends, `none` when the iterations do not
suffice. -/
def peekUp (td : Data) (stopIndex : Nat) (time : Int) : Nat → Nat → Option Nat
  | 0, _ => none
  | fuel + 1, trip =>
    if (td.getStopEvent trip stopIndex).departureTime < time then
      peekUp td stopIndex time fuel ((trip + 1) % 4294967296)
    else some trip

/-- The loop `while (getStopEvent(trip, route.stopIndex).departureTime >= time) trip--` of
`getEarliestTripPeek`: the trip at which it ends, `none` when the iterations do not
suffice. -/
def peekDown (td : Data) (stopIndex : Nat) (time : Int) : Nat → Nat → Option Nat
  | 0, _ => none
  | fuel + 1, trip =>
    if (td.getStopEvent trip stopIndex).departureTime ≥ time then
      peekDown td stopIndex time fuel ((trip + 4294967295) % 4294967296)
    else some trip

/-- `getEarliestTripPeek(route, time)`; the arithmetic of `TripId` is that of its value
type `u_int32_t`, to which the `int` operands of the interpolation are converted.  The
result is `none` when the interpolation divides by zero or when a correction loop has not
ended after one iteration more than the route has trips. -/
def getEarliestTripPeek (td : Data) (route : RAPTOR.RouteSegment) (time : Int) : Option Nat :=
  if route.stopIndex + 1 = td.raptorData.numberOfStopsInRoute route.routeId then some noTripId
  else
    let tripsBegin := td.firstTripOfRoute.getD route.routeId 0
    let tripsEnd := td.firstTripOfRoute.getD (route.routeId + 1) 0
    if tripsBegin = tripsEnd then some noTripId
    else
      let firstDeparture := (td.getStopEvent tripsBegin route.stopIndex).departureTime
      let lastDeparture :=
        (td.getStopEvent ((tripsEnd + 4294967295) % 4294967296) route.stopIndex).departureTime
      if firstDeparture ≥ time then some tripsBegin
      else if lastDeparture < time then some noTripId
      else if toU32 (lastDeparture - firstDeparture) = 0 then none
      else
        let trip := (tripsBegin +
          (toU32 (time - firstDeparture) *
              ((tripsEnd + 4294967296 - tripsBegin + 4294967295) % 4294967296)) % 4294967296 /
            toU32 (lastDeparture - firstDeparture)) % 4294967296
        if (td.getStopEvent trip route.stopIndex).departureTime < time then
          peekUp td route.stopIndex time (tripsEnd - tripsBegin + 1) trip
        else
          (peekDown td route.stopIndex time (tripsEnd - tripsBegin + 1) trip).map
            (fun trip => (trip + 1) % 4294967296)

end Data

end TripBased

namespace CH

/-- `Permutation(Construct::Invert, order)` for a constant `order` (Helpers/Vector/
Permutation.h): a vector of the size of `order`, in which the entry `order[i]` is set to
`i` for every index `i`. -/
def invert (original : List Nat) : List Nat :=
  (List.range original.length).foldl (fun p i => p.set (original.getD i 0) i)
    (List.replicate original.length 0)

/-- `OrderKey<WitnessSearch>(order)`: the `PermutationKey` of the inverted order. -/
def orderKey (order : List Nat) : KeyFunction Unit := permutationKey (invert order)

/-- The members of `PartialKey` besides the data: the flags `contractable`, the index
`minOrderIndex`, and the state of the inner key function. -/
structure PartialKeyState (σ : Type) where
  contractable : List Bool
  minOrderIndex : Nat
  inner : σ

/-- `PartialKey<WitnessSearch, KeyFunction>`: a vertex that is not contractable has the key
`intMax`; once the order has `minOrderIndex` vertices, `update` makes every vertex
contractable and calls `reKey` for those that were not, from the last vertex to the
first. -/
def partialKey {σ : Type} (kf : KeyFunction σ) : KeyFunction (PartialKeyState σ) :=
  { key := fun st data ws vertex =>
      if st.contractable.getD vertex false then kf.key st.inner data ws vertex
      else some (intMax, ws)
    update := fun st data =>
      if data.order.length ≥ st.minOrderIndex then
        ({ st with contractable := st.contractable.map (fun _ => true),
                   minOrderIndex := st.contractable.length + 1 },
          (List.range st.contractable.length).reverse.filter
            (fun v => !(st.contractable.getD v true)))
      else (st, []) }

/-- Modelled from the spec: `CoreCriterion(minCoreSize, maxCoreDegree)` (StopCriterion.h is
not among the sources) stops when the uncontracted count is at most `minCoreSize` and the
average core-graph degree is at most `maxCoreDegree`. -/
def coreCriterion (minCoreSize maxCoreDegree : Nat) : Data → List Nat → Bool :=
  fun data Q => decide (Q.length ≤ minCoreSize ∧ data.core.edges.length ≤ maxCoreDegree * Q.length)

namespace Builder

variable {σ : Type}

/-- The loop of `buildQ<false>()` over the vertices: the vertices of the order, which are
`alreadyContracted`, are skipped, and the levels are kept. -/
def buildQResume (kf : KeyFunction σ) (alreadyContracted : List Nat) :
    List Nat → Builder σ → Option (Builder σ)
  | [], b => some b
  | vertex :: rest, b =>
    if vertex ∈ alreadyContracted then buildQResume kf alreadyContracted rest b
    else
      match reKey kf b vertex with
      | none => none
      | some b => buildQResume kf alreadyContracted rest b

/-- `resume()`: `initialize<false>()`, `buildQ<false>()` and `contractQVertices()`. -/
def resume (cfg : BuilderConfig) (kf : KeyFunction σ) (fuel : Nat) (b : Builder σ) :
    Option (Builder σ) :=
  let b : Builder σ :=
    { b with witnessSearch := b.witnessSearch.initializeSearch b.data.core, Q := [] }
  match buildQResume kf b.data.order (List.range b.data.core.numVertices) b with
  | none => none
  | some b => contractQVertices cfg kf fuel b

/-- A sequence of calls of `resume()`, each with its own stop criterion, key function and
fuel. -/
def resumeAll : List (BuilderConfig × KeyFunction σ × Nat) → Builder σ → Option (Builder σ)
  | [], b => some b
  | phase :: phases, b =>
    match resume phase.1 phase.2.1 phase.2.2 b with
    | none => none
    | some b => resumeAll phases b

/-- What contraction leaves behind: the vertices of the order have no edge in the core
graph; the ends of the edges of the core graph have levels; the levels are 16-bit values;
and every edge of the two overlays starts at a vertex of the order that its end does not
precede, with a smaller level than its end unless its level is 65535. -/
structure Contracted (b : Builder σ) : Prop where
  isolated : ∀ v ∈ b.data.order, b.data.core.Isolated v
  range : ∀ e ∈ b.data.core.edges,
    e.fromVertex < b.data.level.length ∧ e.toVertex < b.data.level.length
  levels : ∀ x, b.data.level.getD x 0 ≤ 65535
  overlay : ∀ e ∈ b.data.forwardCH.edges ++ b.data.backwardCH.edges,
    (∃ l1 l2, b.data.order = l1 ++ e.fromVertex :: l2 ∧ e.toVertex ∉ l1 ∧
      e.toVertex ≠ e.fromVertex) ∧
    (b.data.level.getD e.fromVertex 0 < b.data.level.getD e.toVertex 0 ∨
      b.data.level.getD e.fromVertex 0 = 65535)

/-- The queue and the order have no vertex twice and no vertex in common. -/
structure QueueInv (b : Builder σ) : Prop where
  queue : b.Q.Nodup
  order : b.data.order.Nodup
  disjoint : ∀ v ∈ b.Q, v ∉ b.data.order

end Builder

/-- The edge from 0 to 1 and the complete graph on the vertices 2, 3, 4, 5, all of weight
1. -/
def edgeAndClique : DynamicGraph :=
  ⟨6, [⟨0, 1, noVertex, 1⟩,
       ⟨2, 3, noVertex, 1⟩, ⟨2, 4, noVertex, 1⟩, ⟨2, 5, noVertex, 1⟩,
       ⟨3, 2, noVertex, 1⟩, ⟨3, 4, noVertex, 1⟩, ⟨3, 5, noVertex, 1⟩,
       ⟨4, 2, noVertex, 1⟩, ⟨4, 3, noVertex, 1⟩, ⟨4, 5, noVertex, 1⟩,
       ⟨5, 2, noVertex, 1⟩, ⟨5, 3, noVertex, 1⟩, ⟨5, 4, noVertex, 1⟩]⟩

/-- A builder without witness search and with the default template parameters. -/
def plainBuilder : BuilderConfig :=
  { witness := noWitnessSearch
    BreakKeyTiesById := false
    sortShortcuts := fun l => l
    stopCriterion := fun _ _ => false }

/-- The builder of a core CH: the witness search, and `CoreCriterion(3, 4)` as the stop
criterion. -/
def coreBuilder : BuilderConfig :=
  { witnessBuilder with stopCriterion := coreCriterion 3 4 }

/-- A builder without witness search that breaks ties of the keys by the vertex id. -/
def tieBuilder : BuilderConfig :=
  { plainBuilder with BreakKeyTiesById := true }

/-- The graph of the single edge from 0 to 1 of weight 1. -/
def arc : DynamicGraph := ⟨2, [⟨0, 1, noVertex, 1⟩]⟩

/-- A builder for `arc` before the contraction of the vertex 0, whose level is 65535, the
largest 16-bit value. -/
def topLevelBuilder : Builder Unit :=
  { data := { Data.ofGraph arc with level := [65535, 0] }
    keyState := ()
    witnessSearch := WitnessSearch.new.initializeSearch arc
    Q := [0, 1]
    label := [0, 1] }

/-- The labels of the builder hold the keys of `PermutationKey(permutation)`. -/
def Builder.Keyed (permutation : List Nat) (label : List Int) : Prop :=
  ∀ x, x < label.length → label.getD x 0 = ((permutation.getD x 0 : Nat) : Int)

end CH

/-! ## `IndexedMap`: its invariant (DataStructures/Container/Map.h) -/

namespace IndexedMap

variable {Value : Type}

/-- `size()`. -/
def size (m : IndexedMap Value) : Nat := m.values.length

/-- `capacity()`. -/
def capacity (m : IndexedMap Value) : Nat := m.indices.length

/-- The value `remove(key)` returns: `false` when the key is not contained, `true` after a
removal. -/
def removeReturns (m : IndexedMap Value) (key : Nat) : Bool := m.contains key

/-- What `contains(key)` of a resizeable map does before it looks at `indices[key]`:
`if (key >= capacity()) indices.resize(key + 1, NotContained)`. -/
def resize (m : IndexedMap Value) (key : Nat) : IndexedMap Value :=
  if key ≥ m.capacity then
    { m with indices := m.indices ++ List.replicate (key + 1 - m.capacity) NotContained }
  else m

/-- The states of an `IndexedMap`: the constructed map (a vector has fewer than
`NotContained` entries), and what `insert`, `operator[] =`, `remove` and `clear` make of a
state, for keys below the capacity (the map asserts this when it is not resizeable, and
resizes before when it is). -/
inductive Reachable : IndexedMap Value → Prop
  | init (initialCapacity : Nat) (h : initialCapacity ≤ NotContained) :
      Reachable (init initialCapacity)
  | resize (m : IndexedMap Value) (key : Nat) (h : Reachable m) (hk : key < NotContained) :
      Reachable (m.resize key)
  | insert (m : IndexedMap Value) (key : Nat) (value : Value) (h : Reachable m)
      (hk : key < m.capacity) : Reachable (m.insert key value)
  | setValue (m : IndexedMap Value) (key : Nat) (value : Value) (h : Reachable m)
      (hk : key < m.capacity) (hc : m.contains key = true) : Reachable (m.setValue key value)
  | remove (m : IndexedMap Value) (key : Nat) (h : Reachable m) (hk : key < m.capacity) :
      Reachable (m.remove key)
  | clear (m : IndexedMap Value) (h : Reachable m) : Reachable m.clear

/-- The invariant of an `IndexedMap`: as many keys as values; fewer than `NotContained`
indices; the index of the key at position `i` is `i`; and an index other than
`NotContained` is the position of its key. -/
structure Inv (m : IndexedMap Value) : Prop where
  len : m.keys.length = m.values.length
  cap : m.indices.length ≤ NotContained
  back : ∀ i, i < m.keys.length →
    m.keys.getD i 0 < m.indices.length ∧ m.indices.getD (m.keys.getD i 0) NotContained = i
  fwd : ∀ k, k < m.indices.length → m.indices.getD k NotContained ≠ NotContained →
    m.indices.getD k NotContained < m.keys.length ∧
      m.keys.getD (m.indices.getD k NotContained) 0 = k

end IndexedMap

/-! ## The inversion of a mapping in place (Helpers/Vector/Permutation.h) -/

namespace CH

/-- `IdMapping::isValid()`: every entry is below the size and no entry occurs twice; the
state of the loop is the vector `seen`, or `none` once `false` has been returned. -/
def isValid (mapping : List Nat) : Bool :=
  (mapping.foldl
    (fun (state : Option (List Bool)) entry =>
      match state with
      | none => none
      | some seen =>
        if entry ≥ mapping.length then none
        else if seen.getD entry false then none
        else some (seen.set entry true))
    (some (List.replicate mapping.length false))).isSome

/-- The loop `while (!seen[index])` of `IdMapping(Construct::Invert, T&& original)` for the
index `i` of the outer loop, with the local variables `value` and `index`; `none` when the
fuel does not suffice. -/
def invertCycle (i : Nat) :
    Nat → List Nat → List Bool → Nat → Nat → Option (List Nat × List Bool)
  | 0, _, _, _, _ => none
  | fuel + 1, mapping, seen, value, index =>
    if seen.getD index false then some (mapping, seen)
    else
      let seen := seen.set index true
      let mapping := mapping.set i (mapping.getD index 0)
      let mapping := mapping.set index value
      invertCycle i fuel mapping seen index (mapping.getD i 0)

/-- The loop `for (size_t i = 0; i < size(); i++)` of the moving constructor over the
indices that are left. -/
def invertFrom (fuel : Nat) : List Nat → List Nat → List Bool → Option (List Nat)
  | [], mapping, _ => some mapping
  | i :: rest, mapping, seen =>
    if seen.getD i false then invertFrom fuel rest mapping seen
    else
      match invertCycle i fuel mapping seen i (mapping.getD i 0) with
      | none => none
      | some (mapping, seen) => invertFrom fuel rest mapping seen

/-- `IdMapping(Construct::Invert, T&& original)`: the inversion in place, cycle by cycle;
`none` when a loop does not end within `size() + 1` iterations. -/
def invertInPlace (original : List Nat) : Option (List Nat) :=
  invertFrom (original.length + 1) (List.range original.length) original
    (List.replicate original.length false)

end CH

namespace CH

/-- The two mappings are inverse to each other: they have the same size, their entries
are below it, and each leads back from the entries of the other. -/
structure Inverse (p q : List Nat) : Prop where
  length : q.length = p.length
  boundP : ∀ x, x < p.length → p.getD x 0 < p.length
  boundQ : ∀ x, x < p.length → q.getD x 0 < p.length
  left : ∀ x, x < p.length → q.getD (p.getD x 0) 0 = x
  right : ∀ x, x < p.length → p.getD (q.getD x 0) 0 = x

/-- The state of the moving constructor between two iterations of its outer loop, for the
original mapping `p0` and its inverse `q0`: the entries of the indices seen are inverted,
the others are untouched, and the indices seen are whole cycles. -/
structure InvertOuter (p0 q0 p : List Nat) (seen : List Bool) : Prop where
  lenP : p.length = p0.length
  lenS : seen.length = p0.length
  inverted : ∀ x, x < p0.length → seen.getD x false = true → p.getD x 0 = q0.getD x 0
  untouched : ∀ x, x < p0.length → seen.getD x false = false → p.getD x 0 = p0.getD x 0
  closed : ∀ x, x < p0.length → seen.getD x false = true →
    seen.getD (q0.getD x 0) false = true

/-- The state of the moving constructor at the head of its inner loop for the index `i`,
before `i` itself is marked; `seen0` are the indices seen when the inner loop started. -/
structure InvertInner (p0 q0 : List Nat) (seen0 : List Bool) (i : Nat) (p : List Nat)
    (seen : List Bool) (value index : Nat) : Prop where
  lenP : p.length = p0.length
  lenS : seen.length = p0.length
  start : i < p0.length
  unseen : seen.getD i false = false
  mono : ∀ x, seen0.getD x false = true → seen.getD x false = true
  inverted : ∀ x, x < p0.length → seen.getD x false = true → p.getD x 0 = q0.getD x 0
  untouched : ∀ x, x < p0.length → seen.getD x false = false → x ≠ i →
    p.getD x 0 = p0.getD x 0
  head : p.getD i 0 = index
  next : index = p0.getD value 0
  valueLt : value < p0.length
  tip : value = i ∨ (seen.getD value false = true ∧ seen0.getD value false = false)
  pred : ∀ x, x < p0.length → seen.getD x false = true → seen0.getD x false = false →
    q0.getD x 0 = i ∨
      (seen.getD (q0.getD x 0) false = true ∧ seen0.getD (q0.getD x 0) false = false)
  used : ∀ x, x < p0.length → seen.getD x false = true → seen0.getD x false = false →
    q0.getD x 0 ≠ value

end CH

/-! ## The labels of `reduceTransfers` and what they stand for -/

namespace TripBased

namespace StopEventGraphBuilder

/-- The arrival time that the label of a stop stands for under the time stamp: what
`checkTimeStamp(timeStamp)` makes its `arrivalTime`. -/
def effective (timeStamp : Int) (labels : List StopLabel) (stop : Nat) : Int :=
  ((labels.getD stop {}).checkTimeStamp timeStamp).arrivalTime

/-- The arrivals that `reduceTransfers` reads off a transfer target, in the order of its
loops: for every stop index `j` after the target, from the last one down, the arrival of
the trip of the target at the stop, and the arrivals over the edges of the transfer graph
that leave the stop. -/
def targetArrivals (td : Data) (transferTarget : Nat) : List (Nat × Int) :=
  let transferTargetIndex := td.indexOfStopEvent.getD transferTarget 0
  let transferTargetTrip := td.tripOfStopEvent.getD transferTarget 0
  let transferTargetStops := td.stopArrayOfTrip transferTargetTrip + transferTargetIndex
  (List.range' 1
      (td.numberOfStopsInTrip transferTargetTrip - transferTargetIndex - 1)).reverse.flatMap
    (fun j =>
      let transferTargetStop := td.raptorData.stopIdAt (transferTargetStops + j)
      let transferTargetTime := (td.raptorData.stopEventAt (transferTarget + j)).arrivalTime
      (transferTargetStop, transferTargetTime) ::
        (td.raptorData.transferGraph.edgesFrom transferTargetStop).map
          (fun edge => (td.raptorData.transferGraph.toVertex.getD edge noVertex,
            transferTargetTime + td.raptorData.transferGraph.travelTime.getD edge 0)))

/-- The arrivals that `reduceTransfers(trip)` enters for the stop index `i` of the trip
itself: its arrival at the stop, and the arrivals over the edges that leave the stop. -/
def ownArrivals (td : Data) (trip i : Nat) : List (Nat × Int) :=
  let stop := td.raptorData.stopIdAt (td.stopArrayOfTrip trip + i)
  let arrivalTime :=
    (td.raptorData.stopEventAt (td.firstStopEventOfTrip.getD trip 0 + i)).arrivalTime
  (stop, arrivalTime) ::
    (td.raptorData.transferGraph.edgesFrom stop).map
      (fun edge => (td.raptorData.transferGraph.toVertex.getD edge noVertex,
        arrivalTime + td.raptorData.transferGraph.travelTime.getD edge 0))

/-- The time `m` lowered by the arrivals of the list at the stop. -/
def lower (arrivals : List (Nat × Int)) (stop : Nat) (m : Int) : Int :=
  arrivals.foldl (fun m p => if p.1 = stop then min m p.2 else m) m

/-- The earliest arrival at the stop among the known arrivals, `INFTY` when there is
none below it. -/
def best (known : List (Nat × Int)) (stop : Nat) : Int := lower known stop INFTY

/-- The transfer to the target is an improvement over the known arrivals: at some stop the
trip of the target, directly or over one edge, arrives strictly earlier than every known
arrival, and before `INFTY`. -/
def improves (td : Data) (known : List (Nat × Int)) (transferTarget : Nat) : Bool :=
  (targetArrivals td transferTarget).any (fun p => decide (p.2 < best known p.1))

/-- The transfers of the list that are improvements over what is known when their turn
comes: the arrivals known before, and those of the targets that precede them in the list. -/
def keptBySpec (td : Data) : List (Nat × Int) → List Nat → List Nat
  | _, [] => []
  | known, transferTarget :: rest =>
    (if improves td known transferTarget then [transferTarget] else []) ++
      keptBySpec td (known ++ targetArrivals td transferTarget) rest

/-- What the specification lets `reduceTransfers(trip)` do for the stop index `i`, on the
arrivals known so far and the transfers of the stop events. -/
def specStop (sort : (Nat → Nat → Bool) → List Nat → List Nat) (td : Data) (trip : Nat)
    (state : List (Nat × Int) × List (List Nat)) (i : Nat) :
    List (Nat × Int) × List (List Nat) :=
  let known := state.1 ++ ownArrivals td trip i
  let stopEventVertex := td.firstStopEventOfTrip.getD trip 0 + i
  if (state.2.getD stopEventVertex []).isEmpty then (known, state.2)
  else
    let transfers := uniqueTransfers (sort
      (fun x y => decide ((td.raptorData.stopEventAt x).arrivalTime <
        (td.raptorData.stopEventAt y).arrivalTime))
      (state.2.getD stopEventVertex []))
    (known ++ transfers.flatMap (targetArrivals td),
      state.2.set stopEventVertex (keptBySpec td known transfers))

/-- What the specification lets `reduceTransfers(trip)` make of the transfers: the stop
indices are visited from the last one down to 1, and nothing is known at the start. -/
def specTransfers (sort : (Nat → Nat → Bool) → List Nat → List Nat) (td : Data)
    (edges : List (List Nat)) (trip : Nat) : List (List Nat) :=
  ((List.range' 1 (td.numberOfStopsInTrip trip - 1)).reverse.foldl (specStop sort td trip)
    ([], edges)).2

/-- The labels stand for the earliest known arrivals. -/
def Represents (timeStamp : Int) (labels : List StopLabel) (known : List (Nat × Int)) : Prop :=
  ∀ x, x < labels.length → effective timeStamp labels x = best known x

end StopEventGraphBuilder

end TripBased

namespace TripBased

namespace Data

/-- A timetable with the stops A, S, X (0, 1, 2) and without footpaths: the route 0 over
A, S with one trip (at A at 100, at S at 200), and the routes 1 and 2 over S, X with one
trip each, both with the arrival time 300 at S and 500 at X (the trip of the route 2
leaves S at 310). -/
def tiedTargets : RAPTOR.Data :=
  { firstRouteSegmentOfStop := [0, 1, 4, 6]
    firstStopIdOfRoute := [0, 2, 4, 6]
    firstStopEventOfRoute := [0, 2, 4, 6]
    routeSegments := [⟨0, 0⟩, ⟨0, 1⟩, ⟨1, 0⟩, ⟨2, 0⟩, ⟨1, 1⟩, ⟨2, 1⟩]
    stopIds := [0, 1, 1, 2, 1, 2]
    stopEvents := [⟨100, 100⟩, ⟨200, 200⟩, ⟨300, 300⟩, ⟨500, 500⟩, ⟨310, 300⟩, ⟨500, 500⟩]
    stopData := [{}, {}, {}]
    transferGraph := ⟨[0, 0, 0, 0], [], []⟩
    implicitDepartureBufferTimes := true }

/-- The Trip-Based data that the constructor builds for `tiedTargets`. -/
def tiedTargetsData : Data :=
  { raptorData := tiedTargets
    firstTripOfRoute := [0, 1, 2, 3]
    routeOfTrip := [0, 1, 2]
    firstStopIdOfTrip := [0, 2, 4, 6]
    firstStopEventOfTrip := [0, 2, 4, 6]
    tripOfStopEvent := [0, 0, 1, 1, 2, 2]
    indexOfStopEvent := [0, 1, 0, 1, 0, 1]
    stopEventGraph := ⟨[0], [], []⟩
    arrivalEvents := [⟨100, 0⟩, ⟨200, 1⟩, ⟨300, 1⟩, ⟨500, 2⟩, ⟨300, 1⟩, ⟨500, 2⟩] }

end Data

end TripBased

/-! ## Stations of the shortcut search -/

namespace TripBased

namespace ShortcutSearch

/-- The vertex is reachable from `s` over edges of the graph with travel time 0. -/
inductive ZeroReachable (g : StaticGraph) (s : Nat) : Nat → Prop
  | refl : ZeroReachable g s s
  | step (u e : Nat) : ZeroReachable g s u → e ∈ g.edgesFrom u → g.travelTime.getD e 0 = 0 →
      ZeroReachable g s (g.toVertex.getD e noVertex)

/-- The first edge of a vertex is not behind the first edge of the next vertex. -/
def SortedEdges (g : StaticGraph) : Prop :=
  ∀ v, v < g.numVertices → g.beginEdgeFrom v ≤ g.beginEdgeFrom (v + 1)

/-- What the loop of `zeroReach` has left to do at most: one step for every vertex on the
queue, and for every vertex below `n` that is not settled one step and one for each of its
edges. -/
def zeroWork (g : StaticGraph) (n : Nat) (queue settled : List Nat) : Nat :=
  queue.length +
    (((List.range n).filter (fun u => decide (u ∉ settled))).map
      (fun u => 1 + (g.edgesFrom u).length)).sum

/-- A timetable with the stops A, B, C (0, 1, 2): the route 0 over B, C with one trip (from
B at 100 to C at 200), the route 1 over C, A with one trip (from C at 50 to A at 60), the
footpath from A to B of 5 seconds and the footpath from B to A of 0 seconds. -/
def oneWayStation : RAPTOR.Data :=
  { firstRouteSegmentOfStop := [0, 1, 2, 4]
    firstStopIdOfRoute := [0, 2, 4]
    firstStopEventOfRoute := [0, 2, 4]
    routeSegments := [⟨1, 1⟩, ⟨0, 0⟩, ⟨0, 1⟩, ⟨1, 0⟩]
    stopIds := [1, 2, 2, 0]
    stopEvents := [⟨100, 100⟩, ⟨200, 200⟩, ⟨50, 50⟩, ⟨60, 60⟩]
    stopData := [{}, {}, {}]
    transferGraph := ⟨[0, 1, 2, 2], [1, 0], [5, 0]⟩
    implicitDepartureBufferTimes := true }

/-- A timetable with the stops A, B, C (0, 1, 2) and no footpath: the route 0 over A, C
with one trip (from A at 100 to C at 200) and the route 1 over B, C with one trip (from B
at -2 to C at 10). -/
def earlyTrip : RAPTOR.Data :=
  { firstRouteSegmentOfStop := [0, 1, 2, 4]
    firstStopIdOfRoute := [0, 2, 4]
    firstStopEventOfRoute := [0, 2, 4]
    routeSegments := [⟨0, 0⟩, ⟨1, 0⟩, ⟨0, 1⟩, ⟨1, 1⟩]
    stopIds := [0, 2, 1, 2]
    stopEvents := [⟨100, 100⟩, ⟨200, 200⟩, ⟨-2, -2⟩, ⟨10, 10⟩]
    stopData := [{}, {}, {}]
    transferGraph := ⟨[0, 0, 0, 0], [], []⟩
    implicitDepartureBufferTimes := true }

/-- A trip of the route leaves the stop at `stopIndex`, which is not the last stop of the
route, such that the source is left at `time`: `time` is the departure time of the trip
there less the direct walking time to the stop, as `collectDepartures` computes it. -/
structure Departs (d : RAPTOR.Data) (s : ShortcutSearch) (route stopIndex : Nat) (time : Int) :
    Prop where
  isRoute : route < d.numberOfRoutes
  index : stopIndex + 1 < d.numberOfStopsInRoute route
  trip : ∃ k, d.firstTripOfRoute route + k * d.numberOfStopsInRoute route ≤
      d.lastTripOfRoute route ∧
    time = (d.stopEventAt
        (d.firstTripOfRoute route + k * d.numberOfStopsInRoute route + stopIndex)).departureTime -
      s.directTransferArrivalLabels.getD (d.stopIdAt (d.stopArrayOfRoute route + stopIndex)) never

/-- The differences `collectDepartures` forms are values of `int`: for every trip of a
route and every stop index but the last, the departure time less the label of the direct
walk to the stop. -/
def DeparturesFit (d : RAPTOR.Data) (s : ShortcutSearch) : Prop :=
  ∀ route stopIndex k, route < d.numberOfRoutes →
    stopIndex + 1 < d.numberOfStopsInRoute route →
    d.firstTripOfRoute route + k * d.numberOfStopsInRoute route ≤ d.lastTripOfRoute route →
    FitsInt ((d.stopEventAt
        (d.firstTripOfRoute route + k * d.numberOfStopsInRoute route + stopIndex)).departureTime -
      s.directTransferArrivalLabels.getD (d.stopIdAt (d.stopArrayOfRoute route + stopIndex))
        never)

/-- A departure label as the loops of `collectDepartures` create them. -/
def Collected (d : RAPTOR.Data) (s : ShortcutSearch) (cutoffTime maxTime : Int)
    (label : DepartureLabel) : Prop :=
  ∃ route stopIndex, Departs d s route stopIndex label.departureTime ∧
    cutoffTime ≤ label.departureTime ∧ label.departureTime ≤ maxTime ∧
    label.route =
      if s.representative (d.stopIdAt (d.stopArrayOfRoute route + stopIndex)) =
          s.sourceStation.representative then
        ⟨noRouteId, noStopIndex⟩
      else ⟨route, stopIndex⟩

/-- A consolidated label that is closed: its departure time is that of a label without a
route, and each of its routes is the route of a label that is not earlier. -/
def Consolidated (Q : DepartureLabel → Prop) (c : ConsolidatedDepartureLabel) : Prop :=
  (∃ l, Q l ∧ l.route.routeId = noRouteId ∧ l.departureTime = c.departureTime) ∧
  ∀ seg ∈ c.routes, ∃ l, Q l ∧ l.route = seg ∧ l.route.routeId ≠ noRouteId ∧
    c.departureTime ≤ l.departureTime

/-! ## The states of `intermediateDijkstra` -/

/-- The number of vertices on `oneTripQueue` whose `oneTripTransferParent` is a stop
event. -/
def candidatesInQueue (s : ShortcutSearch) : Nat :=
  s.oneTripQueue.countP
    (fun v => decide (s.oneTripTransferParent.getD v noStopEvent ≠ noStopEvent))

/-- One for the vertex that has been taken from the queue and whose edges are relaxed, when
its `oneTripTransferParent` is a stop event: the counter is lowered for it at the end of the
iteration. -/
def pendingCandidate (s : ShortcutSearch) : Option Nat → Nat
  | none => 0
  | some v => if s.oneTripTransferParent.getD v noStopEvent ≠ noStopEvent then 1 else 0

/-- One iteration of the first loop of `intermediateDijkstra`. -/
def seedIntermediate (s : ShortcutSearch) (stop : Nat) : ShortcutSearch :=
  let c := if s.oneTripTransferParent.getD stop noStopEvent ≠ noStopEvent then
    counterInc s.shortcutCandidatesInQueue else s.shortcutCandidatesInQueue
  { s with oneTripQueue := CH.heapUpdate s.oneTripQueue stop, shortcutCandidatesInQueue := c }

/-- The states of the first loop of `intermediateDijkstra`: before its first iteration and
after each iteration. -/
def seedStates : ShortcutSearch → List Nat → List ShortcutSearch
  | s, [] => [s]
  | s, stop :: rest => s :: seedStates (seedIntermediate s stop) rest

/-- The states of the loop over the edges of the current vertex in `intermediateDijkstra`:
before the first edge and after each edge. -/
def relaxStates (d : RAPTOR.Data) (currentVertex : Nat) :
    ShortcutSearch → List Nat → List ShortcutSearch
  | s, [] => [s]
  | s, edge :: rest => s :: relaxStates d currentVertex (relaxOneTrip d currentVertex s edge) rest

/-- The rest of an iteration of the loop of `intermediateDijkstra` after the edges of the
current vertex: the new `transferLimit` and the new state. -/
def settleOneTrip (d : RAPTOR.Data) (currentVertex : Nat) (transferLimit : Int)
    (s : ShortcutSearch) : Int × ShortcutSearch :=
  let s :=
    if s.oneTripTransferParent.getD currentVertex noStopEvent ≠ noStopEvent then
      { s with shortcutCandidatesInQueue := counterDec s.shortcutCandidatesInQueue }
    else s
  let label := s.oneTripArrivalLabels.getD currentVertex never
  let limited := s.shortcutCandidatesInQueue = 0
  let s := if limited then { s with shortcutCandidatesInQueue := 18446744073709551615 }
    else s
  let transferLimit :=
    if limited then
      if wrapInt32 (label + s.witnessTransferLimit) < label then intMax
      else wrapInt32 (label + s.witnessTransferLimit)
    else transferLimit
  let s :=
    if d.isStop currentVertex then
      { s with stopsUpdatedByTransfer := s.stopsUpdatedByTransfer.insert currentVertex }
    else s
  (transferLimit, s)

/-- The states of the loop `while (!oneTripQueue.empty())` of `intermediateDijkstra`, each
with the vertex whose edges are relaxed: at the head of every iteration and after the loop
(no vertex), and within an iteration before the first edge of the current vertex and after
each of its edges. -/
def loopStates (d : RAPTOR.Data) : Nat → Int → ShortcutSearch →
    List (Option Nat × ShortcutSearch)
  | 0, _, s => [(none, s)]
  | fuel + 1, transferLimit, s =>
    match CH.heapFront (fun v => s.oneTripArrivalLabels.getD v never) s.oneTripQueue with
    | none => [(none, s)]
    | some currentVertex =>
      let s1 := { s with oneTripQueue := s.oneTripQueue.erase currentVertex }
      let s2 := (d.transferGraph.edgesFrom currentVertex).foldl (relaxOneTrip d currentVertex) s1
      let t := settleOneTrip d currentVertex transferLimit s2
      (none, s) ::
        ((relaxStates d currentVertex s1 (d.transferGraph.edgesFrom currentVertex)).map
            (fun m => (some currentVertex, m)) ++
          (if s2.oneTripArrivalLabels.getD currentVertex never > t.1 then [(none, t.2)]
            else loopStates d fuel t.1 t.2))

/-- The states of `intermediateDijkstra()` up to the clearing of `stopsUpdatedByRoute`. -/
def intermediateStates (d : RAPTOR.Data) (fuel : Nat) (s : ShortcutSearch) :
    List (Option Nat × ShortcutSearch) :=
  let seeded := s.stopsUpdatedByRoute.keys.foldl seedIntermediate
    { s with shortcutCandidatesInQueue := 0 }
  (seedStates { s with shortcutCandidatesInQueue := 0 } s.stopsUpdatedByRoute.keys).map
      (fun m => (none, m)) ++
    (if seeded.shortcutCandidatesInQueue = 0 then [] else loopStates d fuel intMax seeded)

/-- The counter is the number of the vertices on the queue with a stop event as transfer
parent, the vertex that is being settled included. -/
def CountsCandidates (o : Option Nat × ShortcutSearch) : Prop :=
  o.2.shortcutCandidatesInQueue = candidatesInQueue o.2 + pendingCandidate o.2 o.1

/-- The counter has been set to -1, and no vertex on the queue and not the vertex that is
being settled has a stop event as transfer parent. -/
def NoCandidates (o : Option Nat × ShortcutSearch) : Prop :=
  o.2.shortcutCandidatesInQueue = 18446744073709551615 ∧ candidatesInQueue o.2 = 0 ∧
    pendingCandidate o.2 o.1 = 0

/-- The queue of the second Dijkstra search holds every vertex once, the vertices on it are
vertices of the transfer graph, and every vertex has a transfer parent. -/
structure QueueFrame (d : RAPTOR.Data) (s : ShortcutSearch) : Prop where
  nodup : s.oneTripQueue.Nodup
  below : ∀ v ∈ s.oneTripQueue, v < d.transferGraph.numVertices
  parents : s.oneTripTransferParent.length = d.transferGraph.numVertices

/-- The part of `runForDepartureTime(label)` before `intermediateDijkstra()`. -/
def beforeIntermediate (d : RAPTOR.Data) (s : ShortcutSearch)
    (label : ConsolidatedDepartureLabel) : Option ShortcutSearch :=
  let s := { s with
    shortcutCandidatesInQueue := 0
    shortcutDestinationCandidates := s.shortcutDestinationCandidates.clear
    routesServingUpdatedStops := s.routesServingUpdatedStops.clear
    stopsUpdatedByRoute := s.stopsUpdatedByRoute.clear
    stopsUpdatedByTransfer := s.stopsUpdatedByTransfer.clear
    sourceDepartureTime := label.departureTime }
  let s := s.sourceStation.stops.foldl
    (fun s stop => { s with
      zeroTripsArrivalLabels := s.zeroTripsArrivalLabels.set stop label.departureTime
      oneTripArrivalLabels := s.oneTripArrivalLabels.set stop label.departureTime
      twoTripsArrivalLabels := s.twoTripsArrivalLabels.set stop label.departureTime }) s
  let s := relaxInitialTransfers s
  let s := collectRoutes s label.routes
  (scanRoutes d 1 s).bind fun s =>
  let s := s.sourceStation.stops.foldl
    (fun s stop => { s with stopsUpdatedByTransfer := s.stopsUpdatedByTransfer.insert stop }) s
  let s := collectRoutesServingUpdatedStops d 1 s
  scanRoutes d 1 s

/-- The state in which `intermediateDijkstra()` starts for the first departure time of a
run (the state after `clear` when the run does not get there). -/
def intermediateStart (d : RAPTOR.Data) (fuel : Nat) (witnessTransferLimit : Int)
    (source : Nat) (minTime maxTime : Int) : ShortcutSearch :=
  match setSource d fuel (new d witnessTransferLimit) source with
  | none => clear d (new d witnessTransferLimit)
  | some s =>
    match collectDepartures d s minTime maxTime with
    | [] => clear d (new d witnessTransferLimit)
    | label :: _ =>
      match beforeIntermediate d s label with
      | none => clear d (new d witnessTransferLimit)
      | some s => s

/-! ## The states of `finalDijkstra` -/

/-- The stop is marked as the destination of a candidate: its `twoTripsRouteParent` is a
stop. -/
def isMarked (d : RAPTOR.Data) (s : ShortcutSearch) (stop : Nat) : Bool :=
  d.isStop (s.twoTripsRouteParent.getD stop noStop)

/-- The stop is a member of the candidate set that `shortcutDestinationCandidates` stores
under its `twoTripsRouteParentEvent`. -/
def isCandidateMember (s : ShortcutSearch) (stop : Nat) : Bool :=
  s.shortcutDestinationCandidates.contains (s.twoTripsRouteParentEvent.getD stop 0) &&
    decide (stop ∈ s.shortcutDestinationCandidates.get (s.twoTripsRouteParentEvent.getD stop 0))

/-- The states of the first loop of `finalDijkstra`, each with the stops it has entered:
before its first iteration and after each iteration. -/
def seedFinalStates (d : RAPTOR.Data) :
    List Nat → ShortcutSearch → List Nat → List (List Nat × ShortcutSearch)
  | entered, s, [] => [(entered, s)]
  | entered, s, stop :: rest =>
    (entered, s) :: seedFinalStates d (entered ++ [stop]) (seedFinal d s stop) rest

/-- The states of the loop over the edges of the current vertex in `finalDijkstra`: before
the first edge and after each edge. -/
def relaxTwoStates (d : RAPTOR.Data) (currentVertex : Nat) :
    ShortcutSearch → List Nat → List ShortcutSearch
  | s, [] => [s]
  | s, edge :: rest =>
    s :: relaxTwoStates d currentVertex (relaxTwoTrips d currentVertex s edge) rest

/-- The rest of an iteration of the loop of `finalDijkstra` after the edges of the current
vertex. -/
def settleTwoTrips (d : RAPTOR.Data) (currentVertex : Nat) (s : ShortcutSearch) :
    ShortcutSearch :=
  if d.isStop currentVertex ∧ d.isStop (s.twoTripsRouteParent.getD currentVertex noStop)
  then insertShortcut d s currentVertex
  else s

/-- The states of the loop `while (!twoTripsQueue.empty())` of `finalDijkstra`, each with
the vertex whose edges are relaxed: at the head of every iteration and after the loop (no
vertex), and within an iteration before the first edge of the current vertex and after each
of its edges. -/
def finalLoopStates (d : RAPTOR.Data) : Nat → ShortcutSearch →
    List (Option Nat × ShortcutSearch)
  | 0, s => [(none, s)]
  | fuel + 1, s =>
    match CH.heapFront (fun v => s.twoTripsArrivalLabels.getD v never) s.twoTripsQueue with
    | none => [(none, s)]
    | some currentVertex =>
      let s1 := { s with twoTripsQueue := s.twoTripsQueue.erase currentVertex }
      let s2 := (d.transferGraph.edgesFrom currentVertex).foldl (relaxTwoTrips d currentVertex) s1
      let s3 := settleTwoTrips d currentVertex s2
      (none, s) ::
        ((relaxTwoStates d currentVertex s1 (d.transferGraph.edgesFrom currentVertex)).map
            (fun m => (some currentVertex, m)) ++
          (if s3.shortcutDestinationCandidates.isEmpty then [(none, s3)]
            else finalLoopStates d fuel s3))

/-- The candidate sets of `finalDijkstra`: the map is an `IndexedMap`, every stop has a
route parent, which is a stop or `noStop`, and every set that the map contains is not empty,
lists no stop twice, and lists marked stops whose route parent event is its key. -/
structure CandidateSets (d : RAPTOR.Data) (s : ShortcutSearch) : Prop where
  map : IndexedMap.Inv s.shortcutDestinationCandidates
  parents : s.twoTripsRouteParent.length = d.numberOfStops
  values : ∀ stop, s.twoTripsRouteParent.getD stop noStop = noStop ∨
    d.isStop (s.twoTripsRouteParent.getD stop noStop) = true
  members : ∀ key, s.shortcutDestinationCandidates.contains key = true →
    s.shortcutDestinationCandidates.get key ≠ [] ∧
    (s.shortcutDestinationCandidates.get key).Nodup ∧
    ∀ stop ∈ s.shortcutDestinationCandidates.get key,
      s.twoTripsRouteParentEvent.getD stop 0 = key ∧ isMarked d s stop = true

/-- The invariant of the first loop of `finalDijkstra`: the stops that it has entered are on
the queue and, when marked, members of their candidate set, and the route parent event of a
marked stop is below the capacity of the map. -/
structure Seeded (d : RAPTOR.Data) (s : ShortcutSearch) (entered : List Nat) : Prop where
  sets : CandidateSets d s
  members : ∀ stop ∈ entered, isMarked d s stop = true → isCandidateMember s stop = true
  queued : ∀ stop ∈ entered, stop ∈ s.twoTripsQueue
  room : ∀ stop, isMarked d s stop = true →
    s.twoTripsRouteParentEvent.getD stop 0 < s.shortcutDestinationCandidates.capacity

/-- The invariant of the second loop of `finalDijkstra`: every marked stop is a member of
its candidate set and is on the queue, unless it is the vertex that is being settled; and
the shortcuts inserted by the loop have different destinations, none of which is a key of
the map any more. -/
structure Tracked (d : RAPTOR.Data) (shortcuts : List Shortcut) (s : ShortcutSearch)
    (current : Option Nat) : Prop where
  sets : CandidateSets d s
  members : ∀ stop, isMarked d s stop = true → isCandidateMember s stop = true
  queued : ∀ stop, isMarked d s stop = true → stop ∈ s.twoTripsQueue ∨ current = some stop
  emitted : ∃ new, s.shortcuts = shortcuts ++ new ∧
    (new.map (fun sc => sc.destination)).Nodup ∧
    ∀ sc ∈ new, s.shortcutDestinationCandidates.contains sc.destination = false

/-- The state in which `finalDijkstra()` starts for the first departure time of a run (the
state after `clear` when the run does not get there). -/
def finalStart (d : RAPTOR.Data) (fuel : Nat) (witnessTransferLimit : Int)
    (source : Nat) (minTime maxTime : Int) : ShortcutSearch :=
  match scanRoutes d 2 (secondRoundStart d fuel witnessTransferLimit source minTime maxTime) with
  | none => clear d (new d witnessTransferLimit)
  | some s => s

end ShortcutSearch

end TripBased

/-! ## The Trip-Based query (Algorithms/TripBased/Query/Query.h): the queue of trip labels -/

namespace TripBased

namespace Query

/-- `Query::TripLabel`: the stop events `begin`, ..., `end - 1` (the fields `begin` and
`end`). -/
structure TripLabel where
  beginEvent : Nat
  endEvent : Nat
deriving DecidableEq, Repr

/-- `Query::EdgeLabel`. -/
structure EdgeLabel where
  stopEvent : Nat
  trip : Nat
  firstEvent : Nat
deriving DecidableEq, Repr

/-- The entry `edgeLabels[edge]` that the constructor of `Query` computes. -/
def edgeLabel (td : Data) (edge : Nat) : EdgeLabel :=
  let toVertex := td.stopEventGraph.toVertex.getD edge noVertex
  let trip := td.tripOfStopEvent.getD toVertex 0
  { stopEvent := toVertex + 1
    trip := trip
    firstEvent := td.firstStopEventOfTrip.getD trip 0 }

/-- The members of `Query` that `enqueue` reads and writes. -/
structure TripQueue where
  nextQueue : List TripLabel
  reachedIndex : ReachedIndexSmall
deriving DecidableEq, Repr

/-- `enqueue(trip, index)`. -/
def enqueueTrip (td : Data) (q : TripQueue) (trip index : Nat) : TripQueue :=
  if q.reachedIndex.alreadyReached trip (index + 1) then q
  else
    let firstEvent := td.firstStopEventOfTrip.getD trip 0
    { nextQueue := q.nextQueue ++ [⟨firstEvent + index + 1, firstEvent + q.reachedIndex.get trip⟩]
      reachedIndex := q.reachedIndex.update td trip index }

/-- `enqueue(edge)`. -/
def enqueueEdge (td : Data) (q : TripQueue) (edge : Nat) : TripQueue :=
  let label := edgeLabel td edge
  if q.reachedIndex.alreadyReached label.trip (label.stopEvent - label.firstEvent) then q
  else
    { nextQueue := q.nextQueue ++
        [⟨label.stopEvent, label.firstEvent + q.reachedIndex.get label.trip⟩]
      reachedIndex := q.reachedIndex.update td label.trip (label.stopEvent - label.firstEvent) }

/-- A call of `enqueue`: with a trip and a stop index, as `evaluateInitialTransfers` makes
it, or with an edge of the stop event graph, as `scanTrips` makes it. -/
inductive EnqueueCall where
  | trip (trip index : Nat)
  | edge (edge : Nat)
deriving DecidableEq, Repr

/-- The call is one that `run` makes: the stop index is not the last of its trip, and the
edge leads to a stop event. -/
def EnqueueCall.Valid (td : Data) : EnqueueCall → Prop
  | .trip t index => t < td.numberOfTrips ∧ index + 1 < td.numberOfStopsInTrip t
  | .edge e => td.stopEventGraph.toVertex.getD e noVertex < td.numberOfStopEvents

/-- Whether a call is valid can be computed. -/
instance EnqueueCall.decidableValid (td : Data) : (c : EnqueueCall) → Decidable (c.Valid td)
  | .trip t index =>
    inferInstanceAs (Decidable (t < td.numberOfTrips ∧ index + 1 < td.numberOfStopsInTrip t))
  | .edge e =>
    inferInstanceAs
      (Decidable (td.stopEventGraph.toVertex.getD e noVertex < td.numberOfStopEvents))

/-- One call of `enqueue`. -/
def enqueue (td : Data) (q : TripQueue) : EnqueueCall → TripQueue
  | .trip t index => enqueueTrip td q t index
  | .edge e => enqueueEdge td q e

/-- The rounds of `scanTrips`, as far as the queue goes: every round takes the labels of
`nextQueue` (`currentQueue.swap(nextQueue)`, with `currentQueue` empty), and its calls of
`enqueue` fill `nextQueue` again; `labels` collects what has been taken. The result lists
all labels that have been enqueued. -/
def scanRounds (td : Data) : List (List EnqueueCall) → List TripLabel → TripQueue →
    List TripLabel
  | [], labels, q => labels ++ q.nextQueue
  | round :: rest, labels, q =>
    scanRounds td rest (labels ++ q.nextQueue)
      (round.foldl (enqueue td) { q with nextQueue := [] })

/-- The labels that a run of the query enqueues: `clear()`, the calls of
`evaluateInitialTransfers`, and the calls of the rounds of `scanTrips`. -/
def enqueuedLabels (td : Data) (initial : List EnqueueCall) (rounds : List (List EnqueueCall)) :
    List TripLabel :=
  scanRounds td rounds [] (initial.foldl (enqueue td) ⟨[], (ReachedIndexSmall.new td).clear⟩)

/-- The label lies in the stop events of the trip behind its first one, and is not empty. -/
def TripLabel.Within (td : Data) (l : TripLabel) (trip : Nat) : Prop :=
  trip < td.numberOfTrips ∧ l.beginEvent < l.endEvent ∧
    td.firstStopEventOfTrip.getD trip 0 < l.beginEvent ∧
    l.endEvent ≤ td.firstStopEventOfTrip.getD trip 0 + td.numberOfStopsInTrip trip

/-- The invariant of the queue during a run: the reached index satisfies its invariant and
is at most the number of stops of the trip; every enqueued label lies within a trip, at or
behind its reached index; and no two enqueued labels overlap. -/
structure Enqueued (td : Data) (labels : List TripLabel) (r : ReachedIndexSmall) : Prop where
  index : ReachedIndexSmall.Inv td r
  reached : ∀ t, t < td.numberOfTrips → r.labels.getD t 0 ≤ td.numberOfStopsInTrip t
  within : ∀ l ∈ labels, ∃ t, l.Within td t ∧
    td.firstStopEventOfTrip.getD t 0 + r.labels.getD t 0 ≤ l.beginEvent
  disjoint : labels.Pairwise
    (fun a b => a.endEvent ≤ b.beginEvent ∨ b.endEvent ≤ a.beginEvent)

end Query

namespace Data

/-- The data of `smallTimetable` with a stop event graph: an edge from the stop event 1
of the first trip to the stop event 6 of the trip of the second route, and an edge from the
stop event 7 to the stop event 3 of the second trip of the first route. -/
def smallGraphData : Data :=
  { smallData with stopEventGraph := ⟨[0, 0, 1, 1, 1, 1, 1, 1, 2], [6, 3], [0, 0]⟩ }

end Data

end TripBased

/-! ## ULTRA-RAPTOR with combined entries: the earliest arrivals and the rounds -/

namespace RAPTOR

namespace ULTRARAPTOR

/-- The minimum of `rounds[i][stop].arrivalTime` over the rounds started so far (`never`
when there is none). -/
def roundsMin {sep : Bool} (s : ULTRARAPTOR sep) (stop : Nat) : Int :=
  s.rounds.foldl (fun m r => min m (r.getD stop default).arrivalTime) never

/-- The states that a query passes after `clear()`: `earliestArrival` has an entry for
every stop and one for the target; a round is started; an arrival is recorded by
`arrivalByRoute` or `arrivalByTransfer` once a round has been started; the other fields of
a label of the current round are written; or members other than `rounds` and
`earliestArrival` are written. -/
inductive QueryState (cfg : Config) (data : Data) :
    ULTRARAPTOR cfg.SeparateRouteAndTransferEntries → Prop where
  | clear (s : ULTRARAPTOR cfg.SeparateRouteAndTransferEntries) :
      s.earliestArrival.length = data.numberOfStops + 1 → QueryState cfg data (clear cfg data s)
  | newRound {s : ULTRARAPTOR cfg.SeparateRouteAndTransferEntries} :
      QueryState cfg data s → QueryState cfg data (s.startNewRound data)
  | byRoute {s : ULTRARAPTOR cfg.SeparateRouteAndTransferEntries} (stop : Nat) (time : Int) :
      QueryState cfg data s → s.rounds ≠ [] →
      QueryState cfg data (arrivalByRoute cfg s stop time).2
  | byTransfer {s : ULTRARAPTOR cfg.SeparateRouteAndTransferEntries} (stop : Nat) (time : Int) :
      QueryState cfg data s → s.rounds ≠ [] →
      QueryState cfg data (arrivalByTransfer cfg data s stop time).2
  | write {s : ULTRARAPTOR cfg.SeparateRouteAndTransferEntries} (stop : Nat)
      (f : EarliestArrivalLabel → EarliestArrivalLabel) :
      QueryState cfg data s → (∀ l, (f l).arrivalTime = l.arrivalTime) →
      QueryState cfg data (s.modifyCurrent stop f)
  | frame {s s2 : ULTRARAPTOR cfg.SeparateRouteAndTransferEntries} :
      QueryState cfg data s → s2.rounds = s.rounds → s2.earliestArrival = s.earliestArrival →
      QueryState cfg data s2

/-- The invariant of the combined entries: the vectors have an entry for every stop and
one for the target; `earliestArrival[stop]` is below every label of the stop, is at most
`never`, and is `never` or a label of the stop; and a label of the stop is `never` or below
the labels of the stop in the rounds before. -/
structure Combined (cfg : Config) (data : Data)
    (s : ULTRARAPTOR cfg.SeparateRouteAndTransferEntries) : Prop where
  size : s.earliestArrival.length = data.numberOfStops + 1
  sizes : ∀ r ∈ s.rounds, r.length = data.numberOfStops + 1
  below : ∀ stop i, i < s.rounds.length →
    (earliest s stop).getArrivalTime ≤ (s.label i stop).arrivalTime
  finite : ∀ stop, (earliest s stop).getArrivalTime ≤ never
  attained : ∀ stop, (earliest s stop).getArrivalTime = never ∨
    ∃ i, i < s.rounds.length ∧ (earliest s stop).getArrivalTime = (s.label i stop).arrivalTime
  falling : ∀ stop i j, i < j → j < s.rounds.length →
    (s.label j stop).arrivalTime = never ∨
      (s.label j stop).arrivalTime < (s.label i stop).arrivalTime

/-- The walking distances of a slow walk: walking from A to B takes 900 s, nothing else is
connected. -/
def slowWalkTransfers (source target : Nat) : InitialTransfers :=
  { getDistance := if source = target then 0 else if source = 0 ∧ target = 1 then 900 else INFTY
    getForwardDistance := fun v =>
      if v = source then 0 else if source = 0 ∧ v = 1 then 900 else INFTY
    getBackwardDistance := fun v =>
      if v = target then 0 else if v = 0 ∧ target = 1 then 900 else INFTY
    getForwardPOIs := if source = 0 then [0, 1] else if source = 1 then [1] else [] }

/-- The state after the query (A, 08:00, B) with combined entries in the scenario "direct
walking vs. transit", where walking takes 300 s. -/
def walkVsTripFinal : ULTRARAPTOR targetPruningConfig.SeparateRouteAndTransferEntries :=
  run targetPruningConfig walkVsTripData walkVsTripTransfers
    (init targetPruningConfig walkVsTripData) 0 28800 1 50

/-- The state after the query (A, 08:00, B) with combined entries in the same network when
walking takes 900 s. -/
def slowWalkFinal : ULTRARAPTOR targetPruningConfig.SeparateRouteAndTransferEntries :=
  run targetPruningConfig walkVsTripData slowWalkTransfers
    (init targetPruningConfig walkVsTripData) 0 28800 1 50

end ULTRARAPTOR

end RAPTOR
/-! # Theorems -/

namespace RAPTOR.ULTRARAPTOR

theorem getArrival_eq (cfg : Config) (s : ULTRARAPTOR cfg.SeparateRouteAndTransferEntries) (labels : List ArrivalLabel) (k stop : Nat) :
    getArrival cfg s labels (k * cfg.RoundFactor) stop =
      if lastArrival labels ≤ bestArrival cfg s stop k then labels
      else labels ++ [⟨bestArrival cfg s stop k, k⟩] := by
  unfold getArrival bestArrival Config.RoundFactor
  by_cases hsep : cfg.SeparateRouteAndTransferEntries = true
  · simp only [hsep, if_true]
    have e1 : k * 2 = 2 * k := by omega
    rw [e1]
    by_cases h1 : 2 * k + 1 < s.rounds.length
    · by_cases h2 : (s.label (2 * k + 1) stop).arrivalTime < (s.label (2 * k) stop).arrivalTime
      · have hdiv : (2 * k + 1) / 2 = k := by omega
        simp only [h1, h2, and_self, if_true, hdiv, ge_iff_le, min_eq_right (le_of_lt h2)]
      · have hdiv : (2 * k) / 2 = k := by omega
        simp only [h1, h2, and_false, if_false, true_and, hdiv, ge_iff_le,
          min_eq_left (not_lt.mp h2)]
        simp
    · have hdiv : (2 * k) / 2 = k := by omega
      simp only [h1, false_and, if_false, hdiv, ge_iff_le]
  · simp only [hsep, if_false, Nat.mul_one, Nat.div_one, ge_iff_le]
    simp

theorem lt_prefixBest_iff (cfg : Config) (s : ULTRARAPTOR cfg.SeparateRouteAndTransferEntries) (stop : Nat) (a : Int) (k : Nat) :
    a < prefixBest cfg s stop k ↔ a < never ∧ ∀ m, m < k → a < bestArrival cfg s stop m := by
  induction k with
  | zero => simp [prefixBest]
  | succ k ih =>
    simp only [prefixBest, lt_min_iff, ih]
    constructor
    · rintro ⟨⟨h1, h2⟩, h3⟩
      refine ⟨h1, fun m hm => ?_⟩
      rcases Nat.lt_succ_iff_lt_or_eq.mp hm with h | h
      · exact h2 m h
      · exact h ▸ h3
    · rintro ⟨h1, h2⟩
      exact ⟨⟨h1, fun m hm => h2 m (Nat.lt_succ_of_lt hm)⟩, h2 k (Nat.lt_succ_self k)⟩

theorem lastArrival_append (labels : List ArrivalLabel) (l : ArrivalLabel) :
    lastArrival (labels ++ [l]) = l.arrivalTime := by
  simp [lastArrival]

theorem prefixBest_anti (cfg : Config) (s : ULTRARAPTOR cfg.SeparateRouteAndTransferEntries) (stop : Nat) {m k : Nat} (h : m ≤ k) :
    prefixBest cfg s stop k ≤ prefixBest cfg s stop m := by
  induction h with
  | refl => exact le_refl _
  | step _ ih => exact le_trans (min_le_left _ _) ih

theorem ArrivalsInv.getArrival_step {cfg : Config} {s : ULTRARAPTOR cfg.SeparateRouteAndTransferEntries} {stop k : Nat}
    {labels : List ArrivalLabel} (h : ArrivalsInv cfg s stop k labels) :
    ArrivalsInv cfg s stop (k + 1) (getArrival cfg s labels (k * cfg.RoundFactor) stop) := by
  rw [getArrival_eq]
  by_cases hle : lastArrival labels ≤ bestArrival cfg s stop k
  · rw [if_pos hle]
    refine ⟨h.sorted, ?_, ?_⟩
    · rw [prefixBest, h.last, min_eq_left]
      rw [← h.last]; exact hle
    · intro a n
      rw [h.mem]
      constructor
      · rintro ⟨h1, h2⟩
        exact ⟨Nat.lt_succ_of_lt h1, h2⟩
      · rintro ⟨h1, h2, h3⟩
        rcases Nat.lt_succ_iff_lt_or_eq.mp h1 with h4 | h4
        · exact ⟨h4, h2, h3⟩
        · subst h4
          rw [← h.last] at h3
          rw [h2] at h3
          exact absurd hle (not_le.mpr h3)
  · rw [if_neg hle]
    have hlt : bestArrival cfg s stop k < prefixBest cfg s stop k := by
      rw [← h.last]; exact not_le.mp hle
    refine ⟨?_, ?_, ?_⟩
    · rw [List.pairwise_append]
      refine ⟨h.sorted, List.pairwise_singleton _ _, ?_⟩
      intro x hx y hy
      rw [List.mem_singleton] at hy
      subst hy
      obtain ⟨a, n⟩ := x
      obtain ⟨h1, h2, h3⟩ := (h.mem a n).mp hx
      refine ⟨?_, h1⟩
      show bestArrival cfg s stop k < a
      have h5 : prefixBest cfg s stop k ≤ bestArrival cfg s stop n := by
        calc prefixBest cfg s stop k ≤ prefixBest cfg s stop (n + 1) := prefixBest_anti cfg s stop h1
          _ ≤ bestArrival cfg s stop n := min_le_right _ _
      rw [h2]
      exact lt_of_lt_of_le hlt h5
    · rw [lastArrival_append, prefixBest, min_eq_right (le_of_lt hlt)]
    · intro a n
      rw [List.mem_append, h.mem, List.mem_singleton]
      constructor
      · rintro (⟨h1, h2⟩ | h1)
        · exact ⟨Nat.lt_succ_of_lt h1, h2⟩
        · injection h1 with h1 h2
          subst h1 h2
          exact ⟨Nat.lt_succ_self _, rfl, hlt⟩
      · rintro ⟨h1, h2, h3⟩
        rcases Nat.lt_succ_iff_lt_or_eq.mp h1 with h4 | h4
        · exact Or.inl ⟨h4, h2, h3⟩
        · subst h4
          exact Or.inr (by rw [h2])

theorem getArrivalsFrom_inv (cfg : Config) (s : ULTRARAPTOR cfg.SeparateRouteAndTransferEntries) (stop : Nat) :
    ∀ (fuel k : Nat) (labels : List ArrivalLabel),
      s.rounds.length ≤ k * cfg.RoundFactor + fuel →
      (∀ n, n < k → n * cfg.RoundFactor < s.rounds.length) →
      ArrivalsInv cfg s stop k labels →
      ∃ K, s.rounds.length ≤ K * cfg.RoundFactor ∧
        (∀ n, n < K → n * cfg.RoundFactor < s.rounds.length) ∧
        ArrivalsInv cfg s stop K
          (getArrivalsFrom cfg s stop fuel (k * cfg.RoundFactor) labels) := by
  have hRF : 1 ≤ cfg.RoundFactor := by
    unfold Config.RoundFactor; split <;> omega
  intro fuel
  induction fuel with
  | zero =>
    intro k labels hk hlt hinv
    exact ⟨k, by simpa using hk, hlt, hinv⟩
  | succ fuel ih =>
    intro k labels hk hlt hinv
    unfold getArrivalsFrom
    by_cases hc : k * cfg.RoundFactor < s.rounds.length
    · rw [if_pos hc]
      have e : k * cfg.RoundFactor + cfg.RoundFactor = (k + 1) * cfg.RoundFactor := by
        rw [Nat.add_mul, Nat.one_mul]
      rw [e]
      apply ih (k + 1) _ _ _ hinv.getArrival_step
      · rw [← e]; omega
      · intro n hn
        rcases Nat.lt_succ_iff_lt_or_eq.mp hn with h | h
        · exact hlt n h
        · exact h ▸ hc
    · rw [if_neg hc]
      exact ⟨k, not_lt.mp hc, hlt, hinv⟩

/-- Claim C7.  For every state of the query (in particular after any `run`) and every
vertex, the labels `getArrivals` returns have strictly decreasing arrival times and
strictly increasing numbers of trips along the list, every arrival time is below `never`,
and a label `(a, n)` is in the list exactly when round `n` exists, `a` is the best arrival
time recorded for `n` trips at the target, `a < never`, and `a` is strictly smaller than
the best arrival time of every smaller number of trips; equivalently, strictly smaller
than the arrival time of every returned label with fewer trips. -/
theorem getArrivals_pareto (cfg : Config) (s : ULTRARAPTOR cfg.SeparateRouteAndTransferEntries) (vertex : Nat) :
    (s.getArrivals cfg vertex).Pairwise
        (fun x y => y.arrivalTime < x.arrivalTime ∧ x.numberOfTrips < y.numberOfTrips) ∧
      (∀ l ∈ s.getArrivals cfg vertex, l.arrivalTime < never) ∧
      (∀ a n, (⟨a, n⟩ : ArrivalLabel) ∈ s.getArrivals cfg vertex ↔
        (n * cfg.RoundFactor < s.rounds.length ∧ a = bestArrival cfg s (s.targetOf vertex) n ∧
          a < never ∧ ∀ m, m < n → a < bestArrival cfg s (s.targetOf vertex) m)) ∧
      (∀ a n, (⟨a, n⟩ : ArrivalLabel) ∈ s.getArrivals cfg vertex ↔
        (n * cfg.RoundFactor < s.rounds.length ∧ a = bestArrival cfg s (s.targetOf vertex) n ∧
          a < never ∧
          ∀ l ∈ s.getArrivals cfg vertex, l.numberOfTrips < n → a < l.arrivalTime)) := by
  have hRF : 1 ≤ cfg.RoundFactor := by
    unfold Config.RoundFactor; split <;> omega
  have h0 : ArrivalsInv cfg s (s.targetOf vertex) 0 [] :=
    ⟨List.Pairwise.nil, rfl, fun a n => by simp⟩
  obtain ⟨K, hK1, hK2, hinv⟩ := getArrivalsFrom_inv cfg s (s.targetOf vertex) s.rounds.length 0 []
    (by omega) (fun n hn => absurd hn (Nat.not_lt_zero n)) h0
  rw [Nat.zero_mul] at hinv
  have hrange : ∀ n, n < K ↔ n * cfg.RoundFactor < s.rounds.length := by
    intro n
    refine ⟨hK2 n, fun h => ?_⟩
    by_contra hc
    have : K * cfg.RoundFactor ≤ n * cfg.RoundFactor := Nat.mul_le_mul_right _ (not_lt.mp hc)
    omega
  have hmem : ∀ a n, (⟨a, n⟩ : ArrivalLabel) ∈ s.getArrivals cfg vertex ↔
        (n * cfg.RoundFactor < s.rounds.length ∧ a = bestArrival cfg s (s.targetOf vertex) n ∧
          a < never ∧ ∀ m, m < n → a < bestArrival cfg s (s.targetOf vertex) m) := by
    intro a n
    unfold getArrivals
    rw [hinv.mem, hrange, lt_prefixBest_iff]
  refine ⟨hinv.sorted, ?_, hmem, ?_⟩
  · rintro ⟨a, n⟩ hl
    exact ((hmem a n).mp hl).2.2.1
  · intro a n
    rw [hmem]
    constructor
    · rintro ⟨h1, h2, h3, h4⟩
      refine ⟨h1, h2, h3, ?_⟩
      rintro ⟨b, m⟩ hl hm
      obtain ⟨_, h6, _, _⟩ := (hmem b m).mp hl
      show a < b
      rw [h6]; exact h4 m hm
    · rintro ⟨h1, h2, h3, h4⟩
      refine ⟨h1, h2, h3, ?_⟩
      -- every round with fewer trips is dominated by a label that was emitted
      intro m
      induction m using Nat.strong_induction_on with
      | _ m ihm =>
        intro hm
        by_contra hc
        have hc : bestArrival cfg s (s.targetOf vertex) m ≤ a := not_lt.mp hc
        -- the first round attaining a value at most `a` among 0..m is emitted
        by_cases hex : ∀ j, j < m → bestArrival cfg s (s.targetOf vertex) m
            < bestArrival cfg s (s.targetOf vertex) j
        · have hin : (⟨bestArrival cfg s (s.targetOf vertex) m, m⟩ : ArrivalLabel) ∈
              s.getArrivals cfg vertex := by
            rw [hmem]
            exact ⟨by
              have : m * cfg.RoundFactor ≤ n * cfg.RoundFactor :=
                Nat.mul_le_mul_right _ (le_of_lt hm)
              omega, rfl, lt_of_le_of_lt hc h3, hex⟩
          exact absurd (h4 _ hin hm) (not_lt.mpr hc)
        · push_neg at hex
          obtain ⟨j, hj, hle⟩ := hex
          exact absurd (ihm j hj (lt_trans hj hm)) (not_lt.mpr (le_trans hle hc))

theorem getD_updateAt_ne {α : Type} (l : List α) (i j : Nat) (f : α → α) (d : α)
    (h : i ≠ j) : (l.updateAt i f).getD j d = l.getD j d := by
  unfold List.updateAt
  split
  · simp [List.getD, List.getElem?_set, h]
  · rfl

theorem earliest_init_getArrivalTime (b : Bool) :
    (EarliestArrivalTime.init b).getArrivalTime = never := by
  cases b <;> simp [EarliestArrivalTime.init, EarliestArrivalTime.getArrivalTime]

theorem earliest_clear (cfg : Config) (data : Data)
    (s : ULTRARAPTOR cfg.SeparateRouteAndTransferEntries) (t : Nat) :
    earliest (clear cfg data s) t = EarliestArrivalTime.init cfg.SeparateRouteAndTransferEntries := by
  unfold earliest clear
  simp only [List.getD, List.getElem?_map]
  cases h : s.earliestArrival[t]? <;> simp

theorem earliest_arrivalByRoute_ne (cfg : Config)
    (s : ULTRARAPTOR cfg.SeparateRouteAndTransferEntries) (stop t : Nat) (time : Int)
    (h : stop ≠ t ∨ (arrivalByRoute cfg s stop time).1 = false) :
    earliest (arrivalByRoute cfg s stop time).2 t = earliest s t := by
  unfold arrivalByRoute at h ⊢
  split
  · rfl
  · split
    · rfl
    · rename_i h1 h2
      rcases h with h | h
      · simp only [earliest, modifyCurrent]
        exact getD_updateAt_ne _ _ _ _ _ h
      · simp [h1, h2] at h

theorem earliest_arrivalByTransfer_ne (cfg : Config) (data : Data)
    (s : ULTRARAPTOR cfg.SeparateRouteAndTransferEntries) (stop t : Nat) (time : Int)
    (h : stop ≠ t ∨ (arrivalByTransfer cfg data s stop time).1 = false) :
    earliest (arrivalByTransfer cfg data s stop time).2 t = earliest s t := by
  unfold arrivalByTransfer at h ⊢
  split
  · rfl
  · split
    · rfl
    · rename_i h1 h2
      rcases h with h | h
      · simp only [earliest, modifyCurrent]
        split <;> exact getD_updateAt_ne _ _ _ _ _ h
      · simp [h1, h2] at h

theorem NoArrivalAt.earliest_eq {cfg : Config} {data : Data} {t : Nat}
    {s s1 : ULTRARAPTOR cfg.SeparateRouteAndTransferEntries}
    (h : NoArrivalAt cfg data t s s1) : earliest s1 t = earliest s t := by
  induction h with
  | start => rfl
  | frame _ he ih => rw [← ih]; unfold earliest; rw [he]
  | byRoute stop time _ hc ih => rw [earliest_arrivalByRoute_ne cfg _ stop t time hc, ih]
  | byTransfer stop time _ hc ih => rw [earliest_arrivalByTransfer_ne cfg data _ stop t time hc, ih]

/-- Claim C9.  In every state a query reaches after `clear()` without recording an
arrival at the vertex `v` (no accepted `arrivalByRoute` or `arrivalByTransfer` for the
index under which `v` is looked up), `reachable(v)` is false and
`getEarliestArrivalTime(v)` is `never`; in particular directly after `clear()`. -/
theorem unreached_vertex_not_reachable (cfg : Config) (data : Data)
    (s0 s : ULTRARAPTOR cfg.SeparateRouteAndTransferEntries) (v : Nat)
    (h : NoArrivalAt cfg data (s.targetOf v) (clear cfg data s0) s) :
    (reachable cfg s v = false ∧ getEarliestArrivalTime cfg s v = never) ∧
      (reachable cfg (clear cfg data s0) v = false ∧
        getEarliestArrivalTime cfg (clear cfg data s0) v = never) := by
  have key : ∀ (s1 : ULTRARAPTOR cfg.SeparateRouteAndTransferEntries),
      NoArrivalAt cfg data (s1.targetOf v) (clear cfg data s0) s1 →
      reachable cfg s1 v = false ∧ getEarliestArrivalTime cfg s1 v = never := by
    intro s1 h1
    have e : (earliest s1 (s1.targetOf v)).getArrivalTime = never := by
      rw [h1.earliest_eq, earliest_clear, earliest_init_getArrivalTime]
    unfold reachable getEarliestArrivalTime
    rw [e]
    simp
  exact ⟨key s h, key _ NoArrivalAt.start⟩


/-- Claim C9 at the query (B, 08:00, A) of the walking-versus-trip network, in which only
the source B records an arrival: A is not reachable. -/
theorem unreached_vertex_not_reachable_witness :
    NoArrivalAt targetPruningConfig walkVsTripData
        ((run targetPruningConfig walkVsTripData walkVsTripTransfers
          (init targetPruningConfig walkVsTripData) 1 28800 0 50).targetOf 0)
        (clear targetPruningConfig walkVsTripData (init targetPruningConfig walkVsTripData))
        (run targetPruningConfig walkVsTripData walkVsTripTransfers
          (init targetPruningConfig walkVsTripData) 1 28800 0 50) ∧
      reachable targetPruningConfig (run targetPruningConfig walkVsTripData walkVsTripTransfers
          (init targetPruningConfig walkVsTripData) 1 28800 0 50) 0 = false :=
  have h : NoArrivalAt targetPruningConfig walkVsTripData
        ((run targetPruningConfig walkVsTripData walkVsTripTransfers
          (init targetPruningConfig walkVsTripData) 1 28800 0 50).targetOf 0)
        (clear targetPruningConfig walkVsTripData (init targetPruningConfig walkVsTripData))
        (run targetPruningConfig walkVsTripData walkVsTripTransfers
          (init targetPruningConfig walkVsTripData) 1 28800 0 50) :=
    have h1 : NoArrivalAt targetPruningConfig walkVsTripData
        ((run targetPruningConfig walkVsTripData walkVsTripTransfers
          (init targetPruningConfig walkVsTripData) 1 28800 0 50).targetOf 0)
        (clear targetPruningConfig walkVsTripData (init targetPruningConfig walkVsTripData))
        (startNewRound walkVsTripData
          (clear targetPruningConfig walkVsTripData (init targetPruningConfig walkVsTripData))) :=
      NoArrivalAt.frame NoArrivalAt.start rfl
    NoArrivalAt.frame (NoArrivalAt.byRoute 1 28800 h1 (Or.inl (by decide))) rfl
  ⟨h, (unreached_vertex_not_reachable targetPruningConfig walkVsTripData _ _ 0 h).1.1⟩

theorem EarliestArrivalTime.combined_getters {b : Bool} (e : EarliestArrivalTime b) (hb : b = false) :
    e.getArrivalTimeByRoute = e.getArrivalTime ∧ e.getArrivalTimeByTransfer = e.getArrivalTime := by
  subst hb
  exact ⟨rfl, rfl⟩

/-- Claim C8, counterexample.  With target pruning and separate route and transfer
entries, in the query (A, 08:00, B) of the walking-versus-trip network the target B has
the best arrival time 08:05 (29100, by walking) when the route is scanned, and
`arrivalByRoute(B, 08:10)` is accepted although 08:10 is not smaller than it. -/
theorem arrivalByRoute_accepts_above_target_best :
    (earliest walkVsTripSeparateState walkVsTripSeparateState.targetStop).getArrivalTime = 29100 ∧
      minTransferTimeConfig.TargetPruning = true ∧
      (arrivalByRoute minTransferTimeConfig walkVsTripSeparateState 1 29400).1 = true := by
  decide

/-- Claim C8, amended.  With target pruning, `arrivalByRoute(stop, time)` returns false
and leaves the whole state unchanged whenever `time` is not strictly smaller than the
by-route arrival time of the target, and returns true only if `time` is strictly smaller
than the by-route arrival times of the target and of the stop; `arrivalByTransfer` does
the same with the by-transfer arrival times.  When route and transfer entries are combined,
both components are the best arrival time `getArrivalTime()`. -/
theorem arrival_target_pruning (cfg : Config) (data : Data)
    (s : ULTRARAPTOR cfg.SeparateRouteAndTransferEntries)
    (stop : Nat) (time : Int) (htp : cfg.TargetPruning = true) :
    ((earliest s s.targetStop).getArrivalTimeByRoute ≤ time →
        arrivalByRoute cfg s stop time = (false, s)) ∧
      ((arrivalByRoute cfg s stop time).1 = true →
        time < (earliest s s.targetStop).getArrivalTimeByRoute ∧
        time < (earliest s stop).getArrivalTimeByRoute) ∧
      ((earliest s s.targetStop).getArrivalTimeByTransfer ≤ time →
        arrivalByTransfer cfg data s stop time = (false, s)) ∧
      ((arrivalByTransfer cfg data s stop time).1 = true →
        time < (earliest s s.targetStop).getArrivalTimeByTransfer ∧
        time < (earliest s stop).getArrivalTimeByTransfer) ∧
      (cfg.SeparateRouteAndTransferEntries = false → ∀ i,
        (earliest s i).getArrivalTimeByRoute = (earliest s i).getArrivalTime ∧
        (earliest s i).getArrivalTimeByTransfer = (earliest s i).getArrivalTime) := by
  refine ⟨?_, ?_, ?_, ?_, fun h i => EarliestArrivalTime.combined_getters _ h⟩
  · intro h
    simp [arrivalByRoute, htp, h]
  · intro h
    unfold arrivalByRoute at h
    by_cases h1 : (earliest s s.targetStop).getArrivalTimeByRoute ≤ time
    · simp [htp, h1] at h
    · by_cases h2 : (earliest s stop).getArrivalTimeByRoute ≤ time
      · simp [htp, h1, h2] at h
      · exact ⟨not_le.mp h1, not_le.mp h2⟩
  · intro h
    simp [arrivalByTransfer, htp, h]
  · intro h
    unfold arrivalByTransfer at h
    by_cases h1 : (earliest s s.targetStop).getArrivalTimeByTransfer ≤ time
    · simp [htp, h1] at h
    · by_cases h2 : (earliest s stop).getArrivalTimeByTransfer ≤ time
      · simp [htp, h1, h2] at h
      · exact ⟨not_le.mp h1, not_le.mp h2⟩

/-- The amended claim C8 at the query (A, 08:00, B) with target pruning: the trip arrival
08:10 at B is rejected and the state is unchanged. -/
theorem arrival_target_pruning_witness :
    targetPruningConfig.TargetPruning = true ∧
      (earliest walkVsTripState walkVsTripState.targetStop).getArrivalTimeByRoute ≤ 29400 ∧
      arrivalByRoute targetPruningConfig walkVsTripState 1 29400 = (false, walkVsTripState) :=
  ⟨by decide, by decide,
    (arrival_target_pruning targetPruningConfig walkVsTripData walkVsTripState 1 29400
      (by decide)).1 (by decide)⟩

/-- Claim C10.  On the network with stops A and B, walking A to B of 300 s and one trip
from A (08:00) to B (08:10), the query (A, 08:00, B) with target pruning returns exactly
the label (08:05, 0 trips); the trip arrival 08:10 at B is rejected by `arrivalByRoute`,
so the labels of B are 08:05 in round 0 and `never` in round 1. -/
theorem walk_beats_trip :
    (run targetPruningConfig walkVsTripData walkVsTripTransfers
        (init targetPruningConfig walkVsTripData) 0 28800 1 50).getArrivals
        targetPruningConfig 1 = [⟨29100, 0⟩] ∧
      (arrivalByRoute targetPruningConfig walkVsTripState 1 29400).1 = false ∧
      (run targetPruningConfig walkVsTripData walkVsTripTransfers
        (init targetPruningConfig walkVsTripData) 0 28800 1 50).rounds.map
        (fun r => (r.getD 1 default).arrivalTime) = [29100, never] := by
  decide

end RAPTOR.ULTRARAPTOR

namespace CH

theorem length_updateAt {α : Type} (l : List α) (i : Nat) (f : α → α) :
    (l.updateAt i f).length = l.length := by
  unfold List.updateAt
  split <;> simp

theorem getD_updateAt_self {α : Type} (l : List α) (i : Nat) (f : α → α) (d : α)
    (h : i < l.length) : (l.updateAt i f).getD i d = f (l.getD i d) := by
  unfold List.updateAt
  have e : l[i]? = some l[i] := List.getElem?_eq_getElem h
  rw [e]
  simp [List.getD, List.getElem?_set, h, e]

theorem getD_updateAt_other {α : Type} (l : List α) (i j : Nat) (f : α → α) (d : α)
    (h : i ≠ j) : (l.updateAt i f).getD j d = l.getD j d := by
  unfold List.updateAt
  split
  · simp [List.getD, List.getElem?_set, h]
  · rfl

theorem getD_updateAt_out {α : Type} (l : List α) (i : Nat) (f : α → α)
    (h : l.length ≤ i) : l.updateAt i f = l := by
  unfold List.updateAt
  rw [List.getElem?_eq_none h]

namespace WitnessSearch

theorem getLabel_label (ws : WitnessSearch) (v : Nat) :
    (ws.getLabel v).label = ws.label.updateAt v
      (fun l => if l.timeStamp ≠ ws.timeStamp then (⟨intMax, ws.timeStamp⟩ : VertexLabel) else l) :=
  rfl

theorem getLabel_fields (ws : WitnessSearch) (v : Nat) :
    (ws.getLabel v).Q = ws.Q ∧ (ws.getLabel v).timeStamp = ws.timeStamp ∧
    (ws.getLabel v).currentFrom = ws.currentFrom ∧ (ws.getLabel v).currentVia = ws.currentVia ∧
    (ws.getLabel v).label.length = ws.label.length ∧
    (ws.getLabel v).qPops = ws.qPops ∧ (ws.getLabel v).qPopLimit = ws.qPopLimit :=
  ⟨rfl, rfl, rfl, rfl, by rw [getLabel_label, length_updateAt], rfl, rfl⟩

theorem getD_getLabel (ws : WitnessSearch) (v x : Nat) :
    (ws.getLabel v).label.getD x default =
      if x = v ∧ v < ws.label.length ∧ ws.stamp v ≠ ws.timeStamp
      then (⟨intMax, ws.timeStamp⟩ : VertexLabel) else ws.label.getD x default := by
  rw [getLabel_label]
  by_cases hx : v = x
  · subst hx
    by_cases hl : v < ws.label.length
    · rw [getD_updateAt_self _ _ _ _ hl]
      by_cases ht : ws.stamp v = ws.timeStamp
      · have ht2 : (ws.label.getD v default).timeStamp = ws.timeStamp := ht
        rw [if_neg (fun h => h ht2), if_neg (fun h => h.2.2 ht)]
      · have ht2 : (ws.label.getD v default).timeStamp ≠ ws.timeStamp := ht
        rw [if_pos ht2, if_pos ⟨rfl, hl, ht⟩]
    · rw [getD_updateAt_out _ _ _ (not_lt.mp hl), if_neg (fun h => hl h.2.1)]
  · rw [getD_updateAt_other _ _ _ _ _ hx, if_neg (fun h => hx h.1.symm)]

theorem stamp_getLabel (ws : WitnessSearch) (v x : Nat) :
    (ws.getLabel v).stamp x = if x = v ∧ v < ws.label.length then ws.timeStamp else ws.stamp x := by
  unfold stamp
  rw [getD_getLabel]
  by_cases h1 : x = v ∧ v < ws.label.length
  · rw [if_pos h1]
    by_cases h2 : ws.stamp v ≠ ws.timeStamp
    · rw [if_pos ⟨h1.1, h1.2, h2⟩]
    · rw [if_neg (fun h => h2 h.2.2)]
      rw [h1.1]
      exact not_not.mp h2
  · rw [if_neg h1, if_neg (fun h => h1 ⟨h.1, h.2.1⟩)]

theorem distance_getLabel (ws : WitnessSearch) (v x : Nat) :
    (ws.getLabel v).distance x =
      if x = v ∧ v < ws.label.length ∧ ws.stamp v ≠ ws.timeStamp then intMax
      else ws.distance x := by
  unfold distance
  rw [getD_getLabel]
  split_ifs <;> rfl

theorem eff_getLabel (ws : WitnessSearch) (v x : Nat) : (ws.getLabel v).eff x = ws.eff x := by
  unfold eff
  rw [stamp_getLabel, distance_getLabel, (getLabel_fields ws v).2.1]
  by_cases h1 : x = v ∧ v < ws.label.length
  · rw [if_pos h1, if_pos rfl]
    by_cases h2 : ws.stamp v = ws.timeStamp
    · rw [if_neg (fun h => h.2.2 h2), h1.1, if_pos h2]
    · rw [if_pos ⟨h1.1, h1.2, h2⟩, h1.1, if_neg h2]
  · have h3 : ¬ (x = v ∧ v < ws.label.length ∧ ws.stamp v ≠ ws.timeStamp) :=
      fun h => h1 ⟨h.1, h.2.1⟩
    rw [if_neg h1, if_neg h3]

/-- after `getLabel(v)` the label of an in-range `v` is current and holds `eff v` -/
theorem distance_getLabel_self (ws : WitnessSearch) (v : Nat) (hl : v < ws.label.length) :
    (ws.getLabel v).stamp v = ws.timeStamp ∧ (ws.getLabel v).distance v = ws.eff v := by
  have h1 : (ws.getLabel v).stamp v = ws.timeStamp := by
    rw [stamp_getLabel, if_pos ⟨rfl, hl⟩]
  refine ⟨h1, ?_⟩
  rw [← eff_getLabel ws v v]
  unfold eff
  rw [h1, (getLabel_fields ws v).2.1, if_pos rfl]

theorem distance_eq_eff (ws : WitnessSearch) (x : Nat)
    (h : ws.stamp x = ws.timeStamp) : ws.distance x = ws.eff x := by
  unfold eff; rw [if_pos h]

theorem cur_of_eff_lt (ws : WitnessSearch) (x : Nat) (h : ws.eff x < intMax) :
    ws.stamp x = ws.timeStamp := by
  unfold eff at h
  by_contra hc
  rw [if_neg hc] at h
  exact lt_irrefl _ h

theorem distance_of_eff_lt (ws : WitnessSearch) (x : Nat) (h : ws.eff x < intMax) :
    ws.distance x = ws.eff x :=
  distance_eq_eff ws x (cur_of_eff_lt ws x h)

/-- The facts about an update of the label of `v` to distance `d`. -/
theorem setDistance_view (ws : WitnessSearch) (v : Nat) (d : Int) (Q : List Nat)
    (hv : v < ws.label.length) (hcur : ws.stamp v = ws.timeStamp) :
    let ws2 : WitnessSearch :=
      { ws with label := ws.label.updateAt v (fun l => { l with distance := d }), Q := Q }
    (∀ x, ws2.eff x = if x = v then d else ws.eff x) ∧
      (∀ x, ws2.stamp x = ws.stamp x) ∧ ws2.label.length = ws.label.length := by
  intro ws2
  have hst : ∀ x, ws2.stamp x = ws.stamp x := by
    intro x
    show (((ws.label.updateAt v (fun l => { l with distance := d })).getD x default).timeStamp)
      = (ws.label.getD x default).timeStamp
    by_cases hx : v = x
    · subst hx
      rw [getD_updateAt_self _ _ _ _ hv]
    · rw [getD_updateAt_other _ _ _ _ _ hx]
  refine ⟨?_, hst, length_updateAt _ _ _⟩
  intro x
  unfold eff
  rw [hst x]
  show (if ws.stamp x = ws.timeStamp then
      ((ws.label.updateAt v (fun l => { l with distance := d })).getD x default).distance
    else intMax) = _
  by_cases hx : x = v
  · subst hx
    rw [if_pos hcur, getD_updateAt_self _ _ _ _ hv, if_pos rfl]
  · rw [getD_updateAt_other _ _ _ _ _ (fun h => hx h.symm), if_neg hx]
    rfl

/-- A value in the range of `int` is not changed by the wrap. -/
theorem wrapInt32_of_fits (x : Int) (h1 : -2147483648 ≤ x) (h2 : x ≤ intMax) :
    wrapInt32 x = x := by
  unfold wrapInt32
  unfold intMax at h2
  omega

/-- The wrap yields a value in the range of `int`. -/
theorem wrapInt32_range (x : Int) : -2147483648 ≤ wrapInt32 x ∧ wrapInt32 x ≤ intMax := by
  unfold wrapInt32 intMax
  omega

/-- What `relaxEdge` does to the labels and the queue. -/
theorem relaxEdge_view (ws : WitnessSearch) (via u : Nat) (e : CoreEdge)
    (hu : ws.stamp u = ws.timeStamp) (hv : e.toVertex < ws.label.length) :
    (∀ x, (relaxEdge via u ws e).eff x =
        if (e.toVertex ≠ via ∧ wrapInt32 (ws.eff u + e.weight) < ws.eff e.toVertex) ∧
          x = e.toVertex
        then wrapInt32 (ws.eff u + e.weight) else ws.eff x) ∧
      (relaxEdge via u ws e).Q =
        (if e.toVertex ≠ via ∧ wrapInt32 (ws.eff u + e.weight) < ws.eff e.toVertex
         then heapUpdate ws.Q e.toVertex else ws.Q) ∧
      (relaxEdge via u ws e).timeStamp = ws.timeStamp ∧
      (relaxEdge via u ws e).currentFrom = ws.currentFrom ∧
      (relaxEdge via u ws e).currentVia = ws.currentVia ∧
      (relaxEdge via u ws e).label.length = ws.label.length ∧
      (relaxEdge via u ws e).qPops = ws.qPops ∧
      (relaxEdge via u ws e).qPopLimit = ws.qPopLimit ∧
      (∀ x, (relaxEdge via u ws e).stamp x =
        if x = e.toVertex ∧ e.toVertex ≠ via then ws.timeStamp else ws.stamp x) := by
  unfold relaxEdge
  by_cases hvia : e.toVertex = via
  · rw [if_pos hvia]
    have hn : ¬ (e.toVertex ≠ via ∧ wrapInt32 (ws.eff u + e.weight) < ws.eff e.toVertex) :=
      fun h => h.1 hvia
    refine ⟨fun x => ?_, ?_, rfl, rfl, rfl, rfl, rfl, rfl, fun x => ?_⟩
    · rw [if_neg (fun h => hn h.1)]
    · rw [if_neg hn]
    · rw [if_neg (fun h => h.2 hvia)]
  · simp only [if_neg hvia]
    obtain ⟨f1, f2, f3, f4, f5, f6, f7⟩ := getLabel_fields ws e.toVertex
    obtain ⟨hcur, hdv⟩ := distance_getLabel_self ws e.toVertex hv
    have hdu : (ws.getLabel e.toVertex).distance u = ws.eff u := by
      rw [distance_getLabel]
      by_cases h : u = e.toVertex ∧ e.toVertex < ws.label.length ∧
          ws.stamp e.toVertex ≠ ws.timeStamp
      · exfalso; exact h.2.2 (h.1 ▸ hu)
      · rw [if_neg h]; exact distance_eq_eff ws u hu
    have hst1 : ∀ x, (ws.getLabel e.toVertex).stamp x =
        if x = e.toVertex ∧ e.toVertex ≠ via then ws.timeStamp else ws.stamp x := by
      intro x
      rw [stamp_getLabel]
      by_cases hx : x = e.toVertex
      · rw [if_pos ⟨hx, hv⟩, if_pos ⟨hx, hvia⟩]
      · rw [if_neg (fun h => hx h.1), if_neg (fun h => hx h.1)]
    rw [hdu, hdv]
    by_cases hc : ws.eff e.toVertex > wrapInt32 (ws.eff u + e.weight)
    · rw [if_pos hc]
      have hc2 : e.toVertex ≠ via ∧ wrapInt32 (ws.eff u + e.weight) < ws.eff e.toVertex :=
        ⟨hvia, hc⟩
      obtain ⟨v1, v2, v3⟩ := setDistance_view (ws.getLabel e.toVertex) e.toVertex
        (wrapInt32 (ws.eff u + e.weight)) (heapUpdate (ws.getLabel e.toVertex).Q e.toVertex)
        (by rw [f5]; exact hv) (by rw [hcur, f2])
      refine ⟨?_, ?_, f2, f3, f4, ?_, f6, f7, ?_⟩
      · intro x
        rw [v1 x]
        by_cases hx : x = e.toVertex
        · rw [if_pos hx, if_pos ⟨hc2, hx⟩]
        · rw [if_neg hx, if_neg (fun h => hx h.2), eff_getLabel]
      · rw [if_pos hc2]; show heapUpdate (ws.getLabel e.toVertex).Q e.toVertex = _; rw [f1]
      · rw [v3, f5]
      · intro x; rw [v2 x, hst1 x]
    · rw [if_neg hc]
      have hc2 : ¬ (e.toVertex ≠ via ∧ wrapInt32 (ws.eff u + e.weight) < ws.eff e.toVertex) :=
        fun h => hc h.2
      refine ⟨?_, ?_, f2, f3, f4, f5, f6, f7, hst1⟩
      · intro x; rw [if_neg (fun h => hc2 h.1), eff_getLabel]
      · rw [if_neg hc2, f1]

end WitnessSearch

end CH

namespace CH

theorem heapUpdate_mem (Q : List Nat) (v x : Nat) : x ∈ heapUpdate Q v ↔ x ∈ Q ∨ x = v := by
  unfold heapUpdate
  by_cases h : v ∈ Q
  · rw [if_pos h]
    constructor
    · exact Or.inl
    · rintro (h1 | h1)
      · exact h1
      · exact h1 ▸ h
  · rw [if_neg h, List.mem_append, List.mem_singleton]

theorem heapUpdate_nodup (Q : List Nat) (v : Nat) (h : Q.Nodup) : (heapUpdate Q v).Nodup := by
  unfold heapUpdate
  by_cases hv : v ∈ Q
  · rw [if_pos hv]; exact h
  · rw [if_neg hv]
    rw [List.nodup_append]
    refine ⟨h, List.nodup_singleton v, ?_⟩
    intro a ha hb
    rw [List.mem_singleton] at hb
    exact hv (hb ▸ ha)

theorem heapFront_none (key : Nat → Int) (Q : List Nat) : heapFront key Q = none ↔ Q = [] := by
  cases Q with
  | nil => simp [heapFront]
  | cons x xs =>
    simp only [heapFront]
    constructor
    · intro h
      split at h
      · exact absurd h (by simp)
      · split at h <;> exact absurd h (by simp)
    · intro h; exact absurd h (by simp)

theorem heapFront_some (key : Nat → Int) : ∀ (Q : List Nat) (u : Nat),
    heapFront key Q = some u → u ∈ Q ∧ ∀ y ∈ Q, key u ≤ key y := by
  intro Q
  induction Q with
  | nil => intro u h; simp [heapFront] at h
  | cons x xs ih =>
    intro u h
    simp only [heapFront] at h
    cases hxs : heapFront key xs with
    | none =>
      rw [hxs] at h
      have hnil := (heapFront_none key xs).mp hxs
      injection h with h
      subst h hnil
      exact ⟨List.mem_singleton.mpr rfl, fun y hy => by
        rw [List.mem_singleton] at hy; rw [hy]⟩
    | some y =>
      rw [hxs] at h
      obtain ⟨hy1, hy2⟩ := ih y hxs
      by_cases hlt : key y < key x
      · simp only [if_pos hlt] at h
        injection h with h
        subst h
        refine ⟨List.mem_cons_of_mem _ hy1, fun z hz => ?_⟩
        rcases List.mem_cons.mp hz with hz | hz
        · rw [hz]; exact le_of_lt hlt
        · exact hy2 z hz
      · simp only [if_neg hlt] at h
        injection h with h
        subst h
        refine ⟨List.mem_cons_self _ _, fun z hz => ?_⟩
        rcases List.mem_cons.mp hz with hz | hz
        · rw [hz]
        · exact le_trans (not_lt.mp hlt) (hy2 z hz)

namespace WitnessSearch

/-- `relaxEdge` keeps the invariant of the relaxation of `u`. -/
theorem Mid.relaxEdge_mid {n u : Nat} {ws : WitnessSearch} (h : Mid n u ws) (via : Nat)
    (e : CoreEdge) (hv : e.toVertex < n) (hw : 0 ≤ e.weight)
    (hfit : ws.eff u + e.weight ≤ intMax) :
    Mid n u (relaxEdge via u ws e) := by
  have hu : ws.stamp u = ws.timeStamp := cur_of_eff_lt ws u h.finite
  obtain ⟨veff, vq, vts, vfrom, vvia, vlen, vpops, vlim, vst⟩ :=
    relaxEdge_view ws via u e hu (by rw [h.ordered.len]; exact hv)
  rw [wrapInt32_of_fits _ (by have := (h.ordered.bounds u).1; omega) hfit] at veff vq
  by_cases hc : e.toVertex ≠ via ∧ ws.eff u + e.weight < ws.eff e.toVertex
  · -- the label of `e.toVertex` is lowered
    rw [if_pos hc] at vq
    have hd0 : ws.eff u ≤ ws.eff u + e.weight := by omega
    have hvu : e.toVertex ≠ u := by
      intro heq; rw [heq] at hc; omega
    have hnotSettled : ¬ (ws.eff e.toVertex < intMax ∧ e.toVertex ∉ ws.Q) := by
      rintro ⟨h1, h2⟩
      have := h.below _ h1 h2
      omega
    have heff : ∀ x, (relaxEdge via u ws e).eff x =
        if x = e.toVertex then ws.eff u + e.weight else ws.eff x := by
      intro x; rw [veff x]
      by_cases hx : x = e.toVertex
      · rw [if_pos ⟨hc, hx⟩, if_pos hx]
      · rw [if_neg (fun hh => hx hh.2), if_neg hx]
    have hnew : (relaxEdge via u ws e).eff e.toVertex = ws.eff u + e.weight := by
      rw [heff, if_pos rfl]
    have hold : ∀ x, x ≠ e.toVertex → (relaxEdge via u ws e).eff x = ws.eff x := by
      intro x hx; rw [heff, if_neg hx]
    have hub := (h.ordered.bounds e.toVertex).2
    have hlb := (h.ordered.bounds u).1
    refine ⟨⟨?_, ?_, ?_, ?_, ?_, ?_, ?_⟩, ?_, ?_, ?_, ?_⟩
    · rw [vlen]; exact h.ordered.len
    · rw [vts]; exact h.ordered.tsNonneg
    · intro x; rw [vst x, vts]
      split
      · exact le_refl _
      · exact h.ordered.stamps x
    · intro x hx
      rw [vq, heapUpdate_mem] at hx
      by_cases hxv : x = e.toVertex
      · subst hxv
        exact ⟨hv, by rw [hnew]; omega⟩
      · rcases hx with hx | hx
        · rw [hold x hxv]; exact h.ordered.queue x hx
        · exact absurd hx hxv
    · rw [vq]; exact heapUpdate_nodup _ _ h.ordered.nodup
    · intro x
      by_cases hxv : x = e.toVertex
      · subst hxv; rw [hnew]; omega
      · rw [hold x hxv]; exact h.ordered.bounds x
    · intro x y hx hxq hyq
      rw [vq, heapUpdate_mem] at hxq hyq
      have hxv : x ≠ e.toVertex := fun hh => hxq (Or.inr hh)
      rw [hold x hxv] at hx ⊢
      have hxs := h.below x hx (fun hh => hxq (Or.inl hh))
      by_cases hyv : y = e.toVertex
      · subst hyv; rw [hnew]; omega
      · rw [hold y hyv]
        rcases hyq with hyq | hyq
        · exact h.ordered.settled x y hx (fun hh => hxq (Or.inl hh)) hyq
        · exact absurd hyq hyv
    · rw [hold u (Ne.symm hvu)]; exact h.finite
    · rw [vq, heapUpdate_mem]
      rintro (hq | hq)
      · exact h.notQueued hq
      · exact hvu hq.symm
    · intro x hx hxq
      rw [vq, heapUpdate_mem] at hxq
      have hxv : x ≠ e.toVertex := fun hh => hxq (Or.inr hh)
      rw [hold x hxv] at hx ⊢
      rw [hold u (Ne.symm hvu)]
      exact h.below x hx (fun hh => hxq (Or.inl hh))
    · intro y hy
      rw [vq, heapUpdate_mem] at hy
      rw [hold u (Ne.symm hvu)]
      by_cases hyv : y = e.toVertex
      · subst hyv; rw [hnew]; exact hd0
      · rw [hold y hyv]
        rcases hy with hy | hy
        · exact h.above y hy
        · exact absurd hy hyv
  · -- nothing changes but, possibly, the time stamp of a stale label
    rw [if_neg hc] at vq
    have heff : ∀ x, (relaxEdge via u ws e).eff x = ws.eff x := by
      intro x; rw [veff x, if_neg (fun hh => hc hh.1)]
    refine ⟨⟨?_, ?_, ?_, ?_, ?_, ?_, ?_⟩, ?_, ?_, ?_, ?_⟩
    · rw [vlen]; exact h.ordered.len
    · rw [vts]; exact h.ordered.tsNonneg
    · intro x; rw [vst x, vts]
      split
      · exact le_refl _
      · exact h.ordered.stamps x
    · intro x hx; rw [vq] at hx; rw [heff]; exact h.ordered.queue x hx
    · rw [vq]; exact h.ordered.nodup
    · intro x; rw [heff]; exact h.ordered.bounds x
    · intro x y hx hxq hyq
      rw [vq] at hxq hyq; rw [heff] at hx ⊢; rw [heff]
      exact h.ordered.settled x y hx hxq hyq
    · rw [heff]; exact h.finite
    · rw [vq]; exact h.notQueued
    · intro x hx hxq
      rw [vq] at hxq; rw [heff] at hx ⊢; rw [heff]
      exact h.below x hx hxq
    · intro y hy
      rw [vq] at hy; rw [heff, heff]
      exact h.above y hy

/-- The two things `relaxEdge` can do while the edges of `u` are relaxed: nothing (to the
labels and the queue), or lower the label of the unsettled head of the edge and queue it. -/
theorem Mid.relaxEdge_cases {n u : Nat} {ws : WitnessSearch} (h : Mid n u ws) (via : Nat)
    (e : CoreEdge) (hv : e.toVertex < n) (hw : 0 ≤ e.weight)
    (hfit : ws.eff u + e.weight ≤ intMax) :
    ((relaxEdge via u ws e).currentFrom = ws.currentFrom ∧
      (relaxEdge via u ws e).currentVia = ws.currentVia ∧
      (relaxEdge via u ws e).qPops = ws.qPops ∧
      (relaxEdge via u ws e).qPopLimit = ws.qPopLimit) ∧
    ((¬ (e.toVertex ≠ via ∧ ws.eff u + e.weight < ws.eff e.toVertex) ∧
        (∀ x, (relaxEdge via u ws e).eff x = ws.eff x) ∧ (relaxEdge via u ws e).Q = ws.Q) ∨
      ((e.toVertex ≠ via ∧ ws.eff u + e.weight < ws.eff e.toVertex) ∧
        ¬ (ws.eff e.toVertex < intMax ∧ e.toVertex ∉ ws.Q) ∧ e.toVertex ≠ u ∧
        (∀ x, (relaxEdge via u ws e).eff x =
          if x = e.toVertex then ws.eff u + e.weight else ws.eff x) ∧
        (∀ x, x ∈ (relaxEdge via u ws e).Q ↔ x ∈ ws.Q ∨ x = e.toVertex))) := by
  have hu : ws.stamp u = ws.timeStamp := cur_of_eff_lt ws u h.finite
  obtain ⟨veff, vq, vts, vfrom, vvia, vlen, vpops, vlim, vst⟩ :=
    relaxEdge_view ws via u e hu (by rw [h.ordered.len]; exact hv)
  rw [wrapInt32_of_fits _ (by have := (h.ordered.bounds u).1; omega) hfit] at veff vq
  refine ⟨⟨vfrom, vvia, vpops, vlim⟩, ?_⟩
  by_cases hc : e.toVertex ≠ via ∧ ws.eff u + e.weight < ws.eff e.toVertex
  · right
    rw [if_pos hc] at vq
    refine ⟨hc, ?_, ?_, ?_, ?_⟩
    · rintro ⟨h1, h2⟩
      have := h.below _ h1 h2
      omega
    · intro heq; rw [heq] at hc; omega
    · intro x; rw [veff x]
      by_cases hx : x = e.toVertex
      · rw [if_pos ⟨hc, hx⟩, if_pos hx]
      · rw [if_neg (fun hh => hx hh.2), if_neg hx]
    · intro x; rw [vq, heapUpdate_mem]
  · left
    rw [if_neg hc] at vq
    exact ⟨hc, fun x => by rw [veff x, if_neg (fun hh => hc hh.1)], vq⟩

/-- The relaxation of an edge of `u` leaves the label of `u` as it is. -/
theorem Mid.relaxEdge_self {n u : Nat} {ws : WitnessSearch} (h : Mid n u ws) (via : Nat)
    (e : CoreEdge) (hv : e.toVertex < n) (hw : 0 ≤ e.weight)
    (hfit : ws.eff u + e.weight ≤ intMax) :
    (relaxEdge via u ws e).eff u = ws.eff u := by
  rcases (h.relaxEdge_cases via e hv hw hfit).2 with ⟨_, heff, _⟩ | ⟨_, _, hvu, heff, _⟩
  · exact heff u
  · rw [heff, if_neg (Ne.symm hvu)]

/-- A property of the search that every relaxation of an edge of `u` keeps is kept by the
loop over the edges of `u`, when the label of `u` is at most `d` and `d` plus the weight of
an edge fits `int`; the property may mention the edges relaxed so far. -/
theorem Mid.foldl_relaxEdge {n u : Nat} (via : Nat) (d : Int)
    (J : List CoreEdge → WitnessSearch → Prop)
    (hJ : ∀ done e ws, Mid n u ws → J done ws → e.toVertex < n → 0 ≤ e.weight →
      ws.eff u + e.weight ≤ intMax → J (done ++ [e]) (relaxEdge via u ws e)) :
    ∀ (rest done : List CoreEdge) (ws : WitnessSearch),
      (∀ e ∈ rest, e.toVertex < n ∧ 0 ≤ e.weight ∧ d + e.weight ≤ intMax) → Mid n u ws →
      ws.eff u ≤ d → J done ws →
      Mid n u (rest.foldl (relaxEdge via u) ws) ∧
        J (done ++ rest) (rest.foldl (relaxEdge via u) ws) := by
  intro rest
  induction rest with
  | nil => intro done ws _ hm _ hj; simpa using ⟨hm, hj⟩
  | cons e rest ih =>
    intro done ws hr hm hd hj
    have he := hr e (List.mem_cons_self _ _)
    have hfit : ws.eff u + e.weight ≤ intMax := by have := he.2.2; omega
    have hd2 : (relaxEdge via u ws e).eff u ≤ d := by
      rw [hm.relaxEdge_self via e he.1 he.2.1 hfit]; exact hd
    have := ih (done ++ [e]) (relaxEdge via u ws e)
      (fun e' he' => hr e' (List.mem_cons_of_mem _ he'))
      (hm.relaxEdge_mid via e he.1 he.2.1 hfit) hd2 (hJ done e ws hm hj he.1 he.2.1 hfit)
    simpa using this

/-- Taking the front of the queue off starts the relaxation of its edges. -/
theorem Ordered.pop_mid {n u : Nat} {ws : WitnessSearch} (h : Ordered n ws)
    (hf : heapFront ws.distance ws.Q = some u) :
    Mid n u { ws with Q := ws.Q.erase u } := by
  obtain ⟨hu, hmin⟩ := heapFront_some ws.distance ws.Q u hf
  have hdist : ∀ y ∈ ws.Q, ws.distance y = ws.eff y :=
    fun y hy => distance_of_eff_lt ws y (h.queue y hy).2
  have heff : ∀ x, ({ ws with Q := ws.Q.erase u } : WitnessSearch).eff x = ws.eff x :=
    fun _ => rfl
  have hmin2 : ∀ y ∈ ws.Q, ws.eff u ≤ ws.eff y := by
    intro y hy; rw [← hdist y hy, ← hdist u hu]; exact hmin y hy
  have hmemErase : ∀ y, y ∈ ws.Q.erase u ↔ y ∈ ws.Q ∧ y ≠ u := by
    intro y
    rw [h.nodup.mem_erase_iff]
    tauto
  refine ⟨⟨h.len, h.tsNonneg, h.stamps, ?_, h.nodup.erase u, h.bounds, ?_⟩, ?_, ?_, ?_, ?_⟩
  · intro x hx
    exact h.queue x ((hmemErase x).mp hx).1
  · intro x y hx hxq hyq
    have hy := (hmemErase y).mp hyq
    show ws.eff x ≤ ws.eff y
    by_cases hxu : x = u
    · rw [hxu]; exact hmin2 y hy.1
    · exact h.settled x y hx (fun hh => hxq ((hmemErase x).mpr ⟨hh, hxu⟩)) hy.1
  · exact (h.queue u hu).2
  · exact fun hh => ((hmemErase u).mp hh).2 rfl
  · intro x hx hxq
    show ws.eff x ≤ ws.eff u
    by_cases hxu : x = u
    · rw [hxu]
    · exact h.settled x u hx (fun hh => hxq ((hmemErase x).mpr ⟨hh, hxu⟩)) hu
  · intro y hy
    exact hmin2 y ((hmemErase y).mp hy).1

end WitnessSearch

end CH

namespace CH

theorem count_range_succ (P : Nat → Bool) (n : Nat) :
    ((List.range (n + 1)).filter P).length =
      ((List.range n).filter P).length + (if P n then 1 else 0) := by
  rw [List.range_succ, List.filter_append, List.length_append]
  by_cases h : P n = true
  · simp [h]
  · simp [h]

theorem count_range_mono (P P' : Nat → Bool) :
    ∀ n, (∀ x, x < n → P' x = true → P x = true) →
      ((List.range n).filter P').length ≤ ((List.range n).filter P).length := by
  intro n
  induction n with
  | zero => intro _; simp
  | succ n ih =>
    intro h
    rw [count_range_succ, count_range_succ]
    have h1 := ih (fun x hx => h x (Nat.lt_succ_of_lt hx))
    have h2 := h n (Nat.lt_succ_self n)
    by_cases hp' : P' n = true
    · rw [if_pos hp', if_pos (h2 hp')]; omega
    · rw [if_neg hp']; split <;> omega

theorem count_range_lt (P P' : Nat → Bool) :
    ∀ n, (∀ x, x < n → P' x = true → P x = true) →
      ∀ u, u < n → P u = true → P' u = false →
      ((List.range n).filter P').length < ((List.range n).filter P).length := by
  intro n
  induction n with
  | zero => intro _ u hu; exact absurd hu (Nat.not_lt_zero u)
  | succ n ih =>
    intro h u hu hpu hpu'
    rw [count_range_succ, count_range_succ]
    have hmono := count_range_mono P P' n (fun x hx => h x (Nat.lt_succ_of_lt hx))
    rcases Nat.lt_succ_iff_lt_or_eq.mp hu with hlt | heq
    · have h1 := ih (fun x hx => h x (Nat.lt_succ_of_lt hx)) u hlt hpu hpu'
      have h2 := h n (Nat.lt_succ_self n)
      by_cases hp' : P' n = true
      · rw [if_pos hp', if_pos (h2 hp')]; omega
      · rw [if_neg hp']; split <;> omega
    · subst heq
      rw [if_pos hpu, if_neg (by rw [hpu']; simp)]
      omega

namespace WitnessSearch

theorem unsettled_lt {n : Nat} {ws ws' : WitnessSearch}
    (hmono : ∀ x, (ws.eff x < intMax ∧ x ∉ ws.Q) → (ws'.eff x < intMax ∧ x ∉ ws'.Q))
    (u : Nat) (hu : u < n) (h1 : ¬ (ws.eff u < intMax ∧ u ∉ ws.Q))
    (h2 : ws'.eff u < intMax ∧ u ∉ ws'.Q) : unsettled n ws' < unsettled n ws := by
  unfold unsettled
  apply count_range_lt _ _ n _ u hu
  · exact decide_eq_true h1
  · exact decide_eq_false (not_not.mpr h2)
  · intro x _ hx
    have hx' := of_decide_eq_true hx
    exact decide_eq_true (fun hh => hx' (hmono x hh))

/-- The vertices that are settled when the relaxation of `u` starts stay settled. -/
theorem Mid.foldl_settled {n u : Nat} (via : Nat) (d : Int) (edges : List CoreEdge)
    (ws : WitnessSearch)
    (hr : ∀ e ∈ edges, e.toVertex < n ∧ 0 ≤ e.weight ∧ d + e.weight ≤ intMax)
    (hm : Mid n u ws) (hd : ws.eff u ≤ d) :
    ∀ x, (ws.eff x < intMax ∧ x ∉ ws.Q) →
      ((edges.foldl (relaxEdge via u) ws).eff x < intMax ∧
        x ∉ (edges.foldl (relaxEdge via u) ws).Q) := by
  have := (Mid.foldl_relaxEdge via d
    (fun _ ws' => ∀ x, (ws.eff x < intMax ∧ x ∉ ws.Q) → (ws'.eff x < intMax ∧ x ∉ ws'.Q))
    (by
      intro done e ws1 hm1 hj hv hw hfit x hx
      have hx1 := hj x hx
      rcases (hm1.relaxEdge_cases via e hv hw hfit).2 with
        ⟨_, heff, hq⟩ | ⟨_, hns, _, heff, hq⟩
      · rw [heff, hq]; exact hx1
      · have hxv : x ≠ e.toVertex := fun hh => hns (hh ▸ hx1)
        rw [heff, if_neg hxv, hq]
        exact ⟨hx1.1, fun hh => hh.elim hx1.2 hxv⟩)
    edges [] ws hr hm hd (fun x hx => hx)).2
  exact this

end WitnessSearch

end CH

namespace CH

namespace WitnessSearch

theorem Ordered.setPops {n : Nat} {ws : WitnessSearch} (h : Ordered n ws) (k : Int) :
    Ordered n { ws with qPops := k } :=
  ⟨h.len, h.tsNonneg, h.stamps, h.queue, h.nodup, h.bounds, h.settled⟩

theorem edgesFrom_wf {g : DynamicGraph} (hg : g.WellFormed) (S : Int)
    (hfit : ∀ e ∈ g.edges, S + e.weight ≤ intMax) (u : Nat) :
    ∀ e ∈ g.edgesFrom u, e.toVertex < g.numVertices ∧ 0 ≤ e.weight ∧
      S + e.weight ≤ intMax := by
  intro e he
  have hmem : e ∈ g.edges := (List.mem_filter.mp he).1
  exact ⟨(hg.range e hmem).2, hg.nonneg e hmem, hfit e hmem⟩

theorem countPop_cases (cfg : WitnessConfig) (ws : WitnessSearch) :
    (∃ k, (countPop cfg ws).2 = { ws with qPops := k }) ∧
      ((countPop cfg ws).1 = true → 0 < cfg.QPopLimit) := by
  unfold countPop
  by_cases h : 0 < cfg.QPopLimit
  · rw [if_pos h]
    by_cases h2 : cfg.AdaptiveQPopLimit = true
    · simp only [h2, if_true]
      exact ⟨⟨_, rfl⟩, fun _ => h⟩
    · simp only [h2]
      exact ⟨⟨_, rfl⟩, fun _ => h⟩
  · rw [if_neg h]
    exact ⟨⟨ws.qPops, rfl⟩, fun hh => absurd hh (by simp)⟩

/-- The loop of `shortcutIsNecessary` ends within as many iterations as there are unsettled
vertices, and keeps every property `I` that settling one vertex keeps. -/
theorem searchLoop_inv (cfg : WitnessConfig) (g : DynamicGraph) (hg : g.WellFormed)
    (toV via : Nat) (S : Int) (hfit : ∀ e ∈ g.edges, S + e.weight ≤ intMax)
    (I : WitnessSearch → Prop)
    (hI : ∀ ws u, Ordered g.numVertices ws → I ws → heapFront ws.distance ws.Q = some u →
      ws.eff u ≤ S → u ≠ toV → I (settle g via u ws))
    (hIq : ∀ ws k, I ws → I { ws with qPops := k }) :
    ∀ (fuel : Nat) (ws : WitnessSearch), unsettled g.numVertices ws < fuel →
      Ordered g.numVertices ws → I ws →
      ∃ ws', searchLoop cfg g toV via S fuel ws = some ws' ∧ Ordered g.numVertices ws' ∧
        I ws' ∧ Exit cfg toV S ws' := by
  intro fuel
  induction fuel with
  | zero => intro ws h; exact absurd h (Nat.not_lt_zero _)
  | succ fuel ih =>
    intro ws hfuel hord hi
    unfold searchLoop
    cases hf : heapFront ws.distance ws.Q with
    | none =>
      exact ⟨ws, rfl, hord, hi, Or.inl ((heapFront_none _ _).mp hf)⟩
    | some u =>
      obtain ⟨huQ, _⟩ := heapFront_some ws.distance ws.Q u hf
      have hdu : ws.distance u = ws.eff u := distance_of_eff_lt ws u (hord.queue u huQ).2
      simp only []
      by_cases h1 : ws.distance u > S
      · rw [if_pos h1]
        exact ⟨ws, rfl, hord, hi, Or.inr (Or.inl ⟨u, hf, Or.inl (hdu ▸ h1)⟩)⟩
      · rw [if_neg h1]
        by_cases h2 : u = toV
        · rw [if_pos h2]
          exact ⟨ws, rfl, hord, hi, Or.inr (Or.inl ⟨u, hf, Or.inr h2⟩)⟩
        · rw [if_neg h2]
          have hmid := hord.pop_mid hf
          have hedges := edgesFrom_wf hg S hfit u
          have huS : ws.eff u ≤ S := by rw [← hdu]; exact not_lt.mp h1
          have hfold := Mid.foldl_relaxEdge via S (fun _ _ => True)
            (fun _ _ _ _ _ _ _ _ => trivial) (g.edgesFrom u) [] _ hedges hmid huS trivial
          have hmid2 : Mid g.numVertices u (settle g via u ws) := hfold.1
          have hi2 := hI ws u hord hi hf huS h2
          have hset := Mid.foldl_settled via S (g.edgesFrom u) _ hedges hmid huS
          have hlt : unsettled g.numVertices (settle g via u ws) <
              unsettled g.numVertices ws := by
            apply unsettled_lt _ u (hord.queue u huQ).1 (fun hh => hh.2 huQ)
              ⟨hmid2.finite, hmid2.notQueued⟩
            intro x hx
            apply hset x
            refine ⟨hx.1, fun hh => hx.2 ?_⟩
            exact List.mem_of_mem_erase hh
          obtain ⟨⟨k, hk⟩, hlim⟩ := countPop_cases cfg (settle g via u ws)
          have hord3 : Ordered g.numVertices (countPop cfg (settle g via u ws)).2 := by
            rw [hk]; exact hmid2.ordered.setPops k
          have hi3 : I (countPop cfg (settle g via u ws)).2 := by
            rw [hk]; exact hIq _ k hi2
          have hun : unsettled g.numVertices (countPop cfg (settle g via u ws)).2 =
              unsettled g.numVertices (settle g via u ws) := by
            rw [hk]; rfl
          by_cases h3 : (countPop cfg (settle g via u ws)).1 = true
          · rw [if_pos h3]
            exact ⟨_, rfl, hord3, hi3, Or.inr (Or.inr (hlim h3))⟩
          · rw [if_neg h3]
            exact ih _ (by omega) hord3 hi3

end WitnessSearch

end CH

namespace CH

namespace WitnessSearch

/-- The loop over the edges of `u`, for a property that may use that the edges relaxed
belong to a given list. -/
theorem Mid.foldl_relaxEdge_mem {n u : Nat} (via : Nat) (d : Int) (all : List CoreEdge)
    (hall : ∀ e ∈ all, e.toVertex < n ∧ 0 ≤ e.weight ∧ d + e.weight ≤ intMax)
    (J : List CoreEdge → WitnessSearch → Prop)
    (hJ : ∀ done e ws, e ∈ all → Mid n u ws → ws.eff u + e.weight ≤ intMax → J done ws →
      J (done ++ [e]) (relaxEdge via u ws e)) :
    ∀ (rest done : List CoreEdge) (ws : WitnessSearch),
      (∀ e ∈ rest, e ∈ all) → Mid n u ws → ws.eff u ≤ d → J done ws →
      J (done ++ rest) (rest.foldl (relaxEdge via u) ws) := by
  intro rest
  induction rest with
  | nil => intro done ws _ _ _ hj; simpa using hj
  | cons e rest ih =>
    intro done ws hr hm hd hj
    have he := hr e (List.mem_cons_self _ _)
    have hfit : ws.eff u + e.weight ≤ intMax := by have := (hall e he).2.2; omega
    have hd2 : (relaxEdge via u ws e).eff u ≤ d := by
      rw [hm.relaxEdge_self via e (hall e he).1 (hall e he).2.1 hfit]; exact hd
    have := ih (done ++ [e]) (relaxEdge via u ws e)
      (fun e' he' => hr e' (List.mem_cons_of_mem _ he'))
      (hm.relaxEdge_mid via e (hall e he).1 (hall e he).2.1 hfit) hd2
      (hJ done e ws he hm hfit hj)
    simpa using this

/-- Settling a vertex keeps the labels sound. -/
theorem Sound.settle_sound {g : DynamicGraph} (hg : g.WellFormed) {ws : WitnessSearch}
    {u : Nat} (hord : Ordered g.numVertices ws) (hs : Sound g ws)
    (hf : heapFront ws.distance ws.Q = some u) (S : Int)
    (hfit : ∀ e ∈ g.edges, S + e.weight ≤ intMax) (hS : ws.eff u ≤ S) :
    (settle g ws.currentVia u ws).currentFrom = ws.currentFrom ∧
      (settle g ws.currentVia u ws).currentVia = ws.currentVia ∧
      Sound g (settle g ws.currentVia u ws) := by
  have hmid := hord.pop_mid hf
  have hedges := edgesFrom_wf hg S hfit u
  have := Mid.foldl_relaxEdge_mem ws.currentVia S (g.edgesFrom u) hedges
    (fun _ ws' => ws'.currentFrom = ws.currentFrom ∧ ws'.currentVia = ws.currentVia ∧
      Sound g ws')
    (by
      intro done e ws1 he hm1 hfit1 ⟨hj1, hj2, hj3⟩
      obtain ⟨⟨c1, c2, _, _⟩, hcase⟩ := hm1.relaxEdge_cases ws.currentVia e (hedges e he).1
        (hedges e he).2.1 hfit1
      refine ⟨c1.trans hj1, c2.trans hj2, ?_⟩
      intro x hx
      rw [c1, c2]
      rcases hcase with ⟨_, heff, _⟩ | ⟨hc, _, _, heff, _⟩
      · rw [heff] at hx ⊢; exact hj3 x hx
      · rw [heff] at hx ⊢
        by_cases hxv : x = e.toVertex
        · rw [if_pos hxv]
          subst hxv
          have hmem := List.mem_filter.mp he
          have hfrom : e.fromVertex = u := of_decide_eq_true hmem.2
          exact Walk.snoc e (hj3 u hm1.finite) hmem.1 hfrom (by rw [hj2]; exact hc.1)
        · rw [if_neg hxv] at hx ⊢; exact hj3 x hx)
    (g.edgesFrom u) [] _ (fun e he => he) hmid hS ⟨rfl, rfl, hs⟩
  exact this

/-- Settling a vertex keeps the search closed: afterwards the edges of the settled vertex
are relaxed as well. -/
theorem Closed.settle_closed {g : DynamicGraph} (hg : g.WellFormed) {ws : WitnessSearch}
    {u : Nat} (hord : Ordered g.numVertices ws) (hc : Closed g ws)
    (hf : heapFront ws.distance ws.Q = some u) (S : Int)
    (hfit : ∀ e ∈ g.edges, S + e.weight ≤ intMax) (hS : ws.eff u ≤ S) :
    Closed g (settle g ws.currentVia u ws) := by
  have hmid := hord.pop_mid hf
  have hedges := edgesFrom_wf hg S hfit u
  obtain ⟨huQ, _⟩ := heapFront_some ws.distance ws.Q u hf
  have hmemErase : ∀ y, y ∈ ws.Q.erase u ↔ y ∈ ws.Q ∧ y ≠ u := by
    intro y
    rw [hord.nodup.mem_erase_iff]
    tauto
  have key := Mid.foldl_relaxEdge_mem ws.currentVia S (g.edgesFrom u) hedges
    (fun done ws' => ws'.currentFrom = ws.currentFrom ∧ ws'.currentVia = ws.currentVia ∧
      ws'.eff ws.currentFrom = 0 ∧
      (∀ x, ws'.eff x < intMax → x ∉ ws'.Q → x ≠ u → ∀ e ∈ g.edges, e.fromVertex = x →
        e.toVertex ≠ ws.currentVia → ws'.eff e.toVertex ≤ ws'.eff x + e.weight) ∧
      (∀ e ∈ done, e.toVertex ≠ ws.currentVia → ws'.eff e.toVertex ≤ ws'.eff u + e.weight))
    (by
      intro done e ws1 he hm1 hfit1 ⟨hj1, hj2, hj3, hj4, hj5⟩
      obtain ⟨⟨c1, c2, _, _⟩, hcase⟩ := hm1.relaxEdge_cases ws.currentVia e (hedges e he).1
        (hedges e he).2.1 hfit1
      refine ⟨c1.trans hj1, c2.trans hj2, ?_⟩
      rcases hcase with ⟨hnc, heff, hq⟩ | ⟨hcnd, hns, hvu, heff, hq⟩
      · refine ⟨by rw [heff]; exact hj3, ?_, ?_⟩
        · intro x hx hxq hxu e' he' hfrom hto
          rw [heff] at hx ⊢; rw [heff]; rw [hq] at hxq
          exact hj4 x hx hxq hxu e' he' hfrom hto
        · intro e' he' hto
          rw [heff, heff]
          rcases List.mem_append.mp he' with h1 | h1
          · exact hj5 e' h1 hto
          · rw [List.mem_singleton] at h1
            subst h1
            by_contra hlt
            exact hnc ⟨hto, not_le.mp hlt⟩
      · have hlow : ∀ x, (relaxEdge ws.currentVia u ws1 e).eff x ≤ ws1.eff x := by
          intro x; rw [heff]
          by_cases hx : x = e.toVertex
          · rw [if_pos hx, hx]; exact le_of_lt hcnd.2
          · rw [if_neg hx]
        have hu' : (relaxEdge ws.currentVia u ws1 e).eff u = ws1.eff u := by
          rw [heff, if_neg (Ne.symm hvu)]
        refine ⟨?_, ?_, ?_⟩
        · rw [heff]
          by_cases hx : ws.currentFrom = e.toVertex
          · exfalso
            have h0 := (hm1.ordered.bounds u).1
            have hw := (hedges e he).2.1
            rw [← hx, hj3] at hcnd
            omega
          · rw [if_neg hx]; exact hj3
        · intro x hx hxq hxu e' he' hfrom hto
          have hxv : x ≠ e.toVertex := fun hh => hxq ((hq x).mpr (Or.inr hh))
          have hx1 : (relaxEdge ws.currentVia u ws1 e).eff x = ws1.eff x := by
            rw [heff, if_neg hxv]
          rw [hx1] at hx ⊢
          have := hj4 x hx (fun hh => hxq ((hq x).mpr (Or.inl hh))) hxu e' he' hfrom hto
          exact le_trans (hlow _) this
        · intro e' he' hto
          rw [hu']
          rcases List.mem_append.mp he' with h1 | h1
          · exact le_trans (hlow _) (hj5 e' h1 hto)
          · rw [List.mem_singleton] at h1
            subst h1
            rw [heff, if_pos rfl])
    (g.edgesFrom u) [] _ (fun e he => he) hmid hS
    ⟨rfl, rfl, hc.source, (by
      intro x hx hxq hxu e he hfrom hto
      exact hc.relaxed x hx (fun hh => hxq ((hmemErase x).mpr ⟨hh, hxu⟩)) e he hfrom hto),
      (by intro e he; exact absurd he (List.not_mem_nil e))⟩
  obtain ⟨k1, k2, k3, k4, k5⟩ := key
  refine ⟨?_, ?_⟩
  · show (settle g ws.currentVia u ws).eff (settle g ws.currentVia u ws).currentFrom = 0
    have : (settle g ws.currentVia u ws).currentFrom = ws.currentFrom := k1
    rw [this]; exact k3
  · intro x hx hxq e he hfrom hto
    have hv : (settle g ws.currentVia u ws).currentVia = ws.currentVia := k2
    rw [hv] at hto
    by_cases hxu : x = u
    · subst hxu
      have hmem : e ∈ g.edgesFrom x := List.mem_filter.mpr ⟨he, decide_eq_true hfrom⟩
      exact k5 e (by simpa using hmem) hto
    · exact k4 x hx hxq hxu e he hfrom hto

end WitnessSearch

end CH

namespace CH

namespace WitnessSearch

theorem resetPops_cases (cfg : WitnessConfig) (g : DynamicGraph) (via : Nat)
    (ws : WitnessSearch) :
    ∃ a b, resetPops cfg g via ws = { ws with qPops := a, qPopLimit := b } := by
  unfold resetPops
  by_cases h : 0 < cfg.QPopLimit
  · rw [if_pos h]
    by_cases h2 : cfg.AdaptiveQPopLimit = true
    · simp only [h2, if_true]; exact ⟨_, _, rfl⟩
    · simp only [h2]; exact ⟨_, _, rfl⟩
  · rw [if_neg h]; exact ⟨_, _, rfl⟩

/-- The state in which a new search starts. -/
theorem startSearch_view (ws : WitnessSearch) (fromV via : Nat)
    (hlen : fromV < ws.label.length) (hst : ∀ x, ws.stamp x ≤ ws.timeStamp) :
    (∀ x, (startSearch ws fromV via).eff x = if x = fromV then 0 else intMax) ∧
      (startSearch ws fromV via).Q = [fromV] ∧
      (startSearch ws fromV via).timeStamp = ws.timeStamp + 1 ∧
      (startSearch ws fromV via).currentFrom = fromV ∧
      (startSearch ws fromV via).currentVia = via ∧
      (startSearch ws fromV via).label.length = ws.label.length ∧
      (∀ x, (startSearch ws fromV via).stamp x ≤ ws.timeStamp + 1) := by
  let ws1 : WitnessSearch :=
    { ws with currentFrom := fromV, currentVia := via, Q := [], timeStamp := ws.timeStamp + 1 }
  have hst1 : ∀ x, ws1.stamp x = ws.stamp x := fun _ => rfl
  obtain ⟨f1, f2, f3, f4, f5, f6, f7⟩ := getLabel_fields ws1 fromV
  have hcur : (ws1.getLabel fromV).stamp fromV = (ws1.getLabel fromV).timeStamp := by
    rw [stamp_getLabel, if_pos ⟨rfl, hlen⟩, f2]
  obtain ⟨v1, v2, v3⟩ := setDistance_view (ws1.getLabel fromV) fromV 0
    (heapUpdate (ws1.getLabel fromV).Q fromV) (by rw [f5]; exact hlen) hcur
  have hstale : ∀ x, x ≠ fromV → ws1.eff x = intMax := by
    intro x _
    unfold eff
    rw [if_neg]
    have := hst x
    rw [hst1]
    show ¬ ws.stamp x = ws.timeStamp + 1
    omega
  refine ⟨?_, ?_, rfl, rfl, rfl, ?_, ?_⟩
  · intro x
    show _ = _
    have := v1 x
    rw [eff_getLabel] at this
    unfold startSearch
    rw [this]
    by_cases hx : x = fromV
    · rw [if_pos hx, if_pos hx]
    · rw [if_neg hx, if_neg hx]; exact hstale x hx
  · show heapUpdate (ws1.getLabel fromV).Q fromV = [fromV]
    rw [f1]
    rfl
  · exact v3.trans f5
  · intro x
    have := v2 x
    unfold startSearch
    rw [this, stamp_getLabel]
    split
    · exact le_refl _
    · rw [hst1]; have := hst x; omega

theorem Ordered.setLimits {n : Nat} {ws : WitnessSearch} (h : Ordered n ws) (a b : Int) :
    Ordered n { ws with qPops := a, qPopLimit := b } :=
  ⟨h.len, h.tsNonneg, h.stamps, h.queue, h.nodup, h.bounds, h.settled⟩

/-- A new search starts in a state that satisfies all invariants. -/
theorem restart_inv (cfg : WitnessConfig) (g : DynamicGraph) (ws : WitnessSearch)
    (fromV via : Nat) (hord : Ordered g.numVertices ws) (hfrom : fromV < g.numVertices) :
    Ordered g.numVertices (restart cfg g ws fromV via) ∧
      Sound g (restart cfg g ws fromV via) ∧ Closed g (restart cfg g ws fromV via) ∧
      (restart cfg g ws fromV via).currentFrom = fromV ∧
      (restart cfg g ws fromV via).currentVia = via := by
  obtain ⟨v1, v2, v3, v4, v5, v6, v7⟩ := startSearch_view ws fromV via
    (by rw [hord.len]; exact hfrom) hord.stamps
  have hord1 : Ordered g.numVertices (startSearch ws fromV via) := by
    refine ⟨v6.trans hord.len, ?_, ?_, ?_, ?_, ?_, ?_⟩
    · rw [v3]; have := hord.tsNonneg; omega
    · intro x; rw [v3]; exact v7 x
    · intro x hx
      rw [v2, List.mem_singleton] at hx
      subst hx
      refine ⟨hfrom, ?_⟩
      rw [v1, if_pos rfl]; unfold intMax; omega
    · rw [v2]; exact List.nodup_singleton _
    · intro x; rw [v1]
      split
      · unfold intMax; omega
      · unfold intMax; omega
    · intro x y hx hxq _
      rw [v1] at hx
      by_cases hxf : x = fromV
      · exact absurd (by rw [v2, hxf]; exact List.mem_singleton.mpr rfl) hxq
      · rw [if_neg hxf] at hx; exact absurd hx (lt_irrefl _)
  have hs1 : Sound g (startSearch ws fromV via) := by
    intro x hx
    rw [v1] at hx ⊢
    by_cases hxf : x = fromV
    · rw [if_pos hxf, v4, hxf]; exact Walk.nil fromV
    · rw [if_neg hxf] at hx; exact absurd hx (lt_irrefl _)
  have hc1 : Closed g (startSearch ws fromV via) := by
    refine ⟨by rw [v4, v1, if_pos rfl], ?_⟩
    intro x hx hxq
    rw [v1] at hx
    by_cases hxf : x = fromV
    · exact absurd (by rw [v2, hxf]; exact List.mem_singleton.mpr rfl) hxq
    · rw [if_neg hxf] at hx; exact absurd hx (lt_irrefl _)
  obtain ⟨a, b, hab⟩ := resetPops_cases cfg g via (startSearch ws fromV via)
  unfold restart
  rw [hab]
  exact ⟨hord1.setLimits a b, hs1, ⟨hc1.source, hc1.relaxed⟩, v4, v5⟩

/-- `getLabel` changes no invariant. -/
theorem getLabel_inv (g : DynamicGraph) (ws : WitnessSearch) (v : Nat)
    (hord : Ordered g.numVertices ws) :
    Ordered g.numVertices (ws.getLabel v) ∧ (Sound g ws → Sound g (ws.getLabel v)) ∧
      (Closed g ws → Closed g (ws.getLabel v)) := by
  obtain ⟨f1, f2, f3, f4, f5, f6, f7⟩ := getLabel_fields ws v
  refine ⟨⟨f5.trans hord.len, by rw [f2]; exact hord.tsNonneg, ?_, ?_, by rw [f1]; exact hord.nodup,
    ?_, ?_⟩, ?_, ?_⟩
  · intro x; rw [stamp_getLabel, f2]
    split
    · exact le_refl _
    · exact hord.stamps x
  · intro x hx; rw [f1] at hx; rw [eff_getLabel]; exact hord.queue x hx
  · intro x; rw [eff_getLabel]; exact hord.bounds x
  · intro x y hx hxq hyq
    rw [f1] at hxq hyq; rw [eff_getLabel] at hx ⊢; rw [eff_getLabel]
    exact hord.settled x y hx hxq hyq
  · intro hs x hx
    rw [eff_getLabel] at hx ⊢; rw [f3, f4]
    exact hs x hx
  · intro hc
    refine ⟨by rw [f3, eff_getLabel]; exact hc.source, ?_⟩
    intro x hx hxq e he hfrom hto
    rw [f1] at hxq; rw [f4] at hto; rw [eff_getLabel] at hx ⊢; rw [eff_getLabel]
    exact hc.relaxed x hx hxq e he hfrom hto

end WitnessSearch

end CH

namespace CH

namespace WitnessSearch

theorem unsettled_le (n : Nat) (ws : WitnessSearch) : unsettled n ws ≤ n := by
  unfold unsettled
  calc _ ≤ (List.range n).length := List.length_filter_le _ _
    _ = n := List.length_range n

/-- In a closed search every walk from the source ends at a label that is at most its
weight, or is at least as long as the label of a queued vertex. -/
theorem Closed.walk_bound {g : DynamicGraph} (hg : g.WellFormed) {ws : WitnessSearch}
    (hord : Ordered g.numVertices ws) (hc : Closed g ws) {y : Nat} {w : Int}
    (hw : Walk g.edges (fun v => v ≠ ws.currentVia) ws.currentFrom y w) :
    ws.eff y ≤ w ∨ ∃ q ∈ ws.Q, ws.eff q ≤ w := by
  induction hw with
  | nil => left; rw [hc.source]
  | snoc e _ he hfrom hto ih =>
    rename_i x w' _
    have hwe := hg.nonneg e he
    rcases ih with h | ⟨q, hq, h⟩
    · by_cases hxq : x ∈ ws.Q
      · right; exact ⟨x, hxq, by omega⟩
      · by_cases hfin : ws.eff x < intMax
        · left
          have := hc.relaxed x hfin hxq e he hfrom hto
          omega
        · left
          have := (hord.bounds e.toVertex).2
          omega
    · right; exact ⟨q, hq, by omega⟩

/-- One call of `shortcutIsNecessary` on a state that satisfies the invariants: it
returns, keeps the invariants, answers "not necessary" only when a walk that avoids `via`
and is no longer than the shortcut exists, and, without a limit of settled vertices,
answers "necessary" only when there is no such walk. -/
theorem shortcutIsNecessary_spec (cfg : WitnessConfig) (hen : cfg.enabled = true)
    (g : DynamicGraph) (hg : g.WellFormed) (ws : WitnessSearch)
    (hord : Ordered g.numVertices ws) (hs : Sound g ws)
    (hcl : ws.currentFrom < g.numVertices → Closed g ws)
    (fromV toV via : Nat) (S : Int) (hfrom : fromV < g.numVertices)
    (hto : toV < g.numVertices) (hfit : ∀ e ∈ g.edges, S + e.weight ≤ intMax) :
    ∃ b ws', shortcutIsNecessary cfg g ws fromV toV via S = some (b, ws') ∧
      Ordered g.numVertices ws' ∧ Sound g ws' ∧ Closed g ws' ∧
      ws'.currentFrom = fromV ∧ ws'.currentVia = via ∧
      (S < intMax → b = false →
        ∃ w, Walk g.edges (fun v => v ≠ via) fromV toV w ∧ w ≤ S) ∧
      (cfg.QPopLimit ≤ 0 → b = true →
        ∀ w, Walk g.edges (fun v => v ≠ via) fromV toV w → S < w) := by
  unfold shortcutIsNecessary
  rw [if_pos hen]
  -- the state in which the loop starts
  obtain ⟨ws0, hws0, hord0, hs0, hc0, hf0, hv0⟩ :
      ∃ ws0, (if ws.currentFrom ≠ fromV ∨ ws.currentVia ≠ via then
          restart cfg g ws fromV via else ws) = ws0 ∧
        Ordered g.numVertices ws0 ∧ Sound g ws0 ∧ Closed g ws0 ∧
        ws0.currentFrom = fromV ∧ ws0.currentVia = via := by
    by_cases hr : ws.currentFrom ≠ fromV ∨ ws.currentVia ≠ via
    · rw [if_pos hr]
      obtain ⟨r1, r2, r3, r4, r5⟩ := restart_inv cfg g ws fromV via hord hfrom
      exact ⟨_, rfl, r1, r2, r3, r4, r5⟩
    · rw [if_neg hr]
      have h1 : ws.currentFrom = fromV := by
        by_contra hh; exact hr (Or.inl hh)
      have h2 : ws.currentVia = via := by
        by_contra hh; exact hr (Or.inr hh)
      exact ⟨_, rfl, hord, hs, hcl (by rw [h1]; exact hfrom), h1, h2⟩
  simp only [hws0]
  obtain ⟨ws1, hloop, hord1, ⟨hf1, hv1, hs1, hc1⟩, hexit⟩ :=
    searchLoop_inv cfg g hg toV via S hfit
      (fun ws => ws.currentFrom = fromV ∧ ws.currentVia = via ∧ Sound g ws ∧ Closed g ws)
      (by
        rintro ws' u ho ⟨i1, i2, i3, i4⟩ hfr huS _
        have s := Sound.settle_sound hg ho i3 hfr S hfit huS
        have c := Closed.settle_closed hg ho i4 hfr S hfit huS
        rw [i2] at s c
        exact ⟨s.1.trans i1, s.2.1, s.2.2, c⟩)
      (by
        rintro ws' k ⟨i1, i2, i3, i4⟩
        exact ⟨i1, i2, i3, ⟨i4.source, i4.relaxed⟩⟩)
      (ws0.label.length * 4294967296 + ws0.Q.length + 1) ws0
      (by
        rw [hord0.len]
        have := unsettled_le g.numVertices ws0
        omega) hord0
      ⟨hf0, hv0, hs0, hc0⟩
  rw [hloop]
  obtain ⟨g1, g2, g3⟩ := getLabel_inv g ws1 toV hord1
  obtain ⟨f1, f2, f3, f4, f5, f6, f7⟩ := getLabel_fields ws1 toV
  have hd : (ws1.getLabel toV).distance toV = ws1.eff toV :=
    (distance_getLabel_self ws1 toV (by rw [hord1.len]; exact hto)).2
  refine ⟨_, _, rfl, g1, g2 hs1, g3 hc1, f3.trans hf1, f4.trans hv1, ?_, ?_⟩
  · intro hS hb
    rw [hd] at hb
    have hle : ws1.eff toV ≤ S := not_lt.mp (of_decide_eq_false hb)
    have := hs1 toV (by omega)
    rw [hf1, hv1] at this
    exact ⟨_, this, hle⟩
  · intro hlim hb w hw
    rw [hd] at hb
    have hgt : S < ws1.eff toV := of_decide_eq_true hb
    rw [← hf1, ← hv1] at hw
    have hdist : ∀ y ∈ ws1.Q, ws1.distance y = ws1.eff y :=
      fun y hy => distance_of_eff_lt ws1 y (hord1.queue y hy).2
    rcases hc1.walk_bound hg hord1 hw with h | ⟨q, hq, h⟩
    · omega
    · rcases hexit with he | ⟨u, hu, he⟩ | he
      · rw [he] at hq; exact absurd hq (List.not_mem_nil q)
      · obtain ⟨huQ, hmin⟩ := heapFront_some _ _ u hu
        have hmin2 : ws1.eff u ≤ ws1.eff q := by
          rw [← hdist u huQ, ← hdist q hq]; exact hmin q hq
        rcases he with he | he
        · omega
        · rw [he] at hmin2; omega
      · omega

end WitnessSearch

end CH

namespace CH

namespace WitnessSearch


theorem fresh_inv (g : DynamicGraph) (hg : g.WellFormed) :
    Inv g (WitnessSearch.new.initializeSearch g) := by
  have hst : ∀ x, (WitnessSearch.new.initializeSearch g).stamp x = -1 := by
    intro x
    show ((List.replicate g.numVertices (default : VertexLabel)).getD x default).timeStamp = -1
    rw [List.getD_eq_getElem?_getD, List.getElem?_replicate]
    split <;> rfl
  have heff : ∀ x, (WitnessSearch.new.initializeSearch g).eff x = intMax := by
    intro x
    unfold eff
    rw [hst x, if_neg]
    show ¬ ((-1 : Int) = 0)
    omega
  refine ⟨⟨?_, ?_, ?_, ?_, ?_, ?_, ?_⟩, ?_, ?_⟩
  · show (List.replicate g.numVertices (default : VertexLabel)).length = _
    exact List.length_replicate _ _
  · show (0 : Int) ≤ 0
    exact le_refl _
  · intro x; rw [hst x]; show (-1 : Int) ≤ 0; omega
  · intro x hx; exact absurd hx (List.not_mem_nil x)
  · exact List.nodup_nil
  · intro x; rw [heff]; unfold intMax; omega
  · intro x y _ _ hy; exact absurd hy (List.not_mem_nil y)
  · intro x hx; rw [heff] at hx; exact absurd hx (lt_irrefl _)
  · intro h
    have : (WitnessSearch.new.initializeSearch g).currentFrom = noVertex := rfl
    rw [this] at h
    have := hg.size
    omega

/-- What a sequence of calls on a fixed graph returns. -/
theorem runCalls_spec (cfg : WitnessConfig) (g : DynamicGraph) (hg : g.WellFormed) :
    ∀ (calls : List Call) (ws : WitnessSearch), Inv g ws →
      (∀ c ∈ calls, c.fromVertex < g.numVertices ∧ c.toVertex < g.numVertices ∧
        ∀ e ∈ g.edges, c.shortcutDistance + e.weight ≤ intMax) →
      ∃ answers ws', runCalls cfg g ws calls = some (answers, ws') ∧ Inv g ws' ∧
        List.Forall₂ (fun c b =>
          (c.shortcutDistance < intMax → b = false →
            ∃ w, Walk g.edges (fun v => v ≠ c.viaVertex) c.fromVertex c.toVertex w ∧
              w ≤ c.shortcutDistance) ∧
          (cfg.enabled = true → cfg.QPopLimit ≤ 0 → b = true →
            ∀ w, Walk g.edges (fun v => v ≠ c.viaVertex) c.fromVertex c.toVertex w →
              c.shortcutDistance < w)) calls answers := by
  intro calls
  induction calls with
  | nil => intro ws hinv _; exact ⟨[], ws, rfl, hinv, List.Forall₂.nil⟩
  | cons c cs ih =>
    intro ws hinv hr
    have hc := hr c (List.mem_cons_self _ _)
    obtain ⟨b, ws1, hcall, hinv1, hb⟩ :
        ∃ b ws1, shortcutIsNecessary cfg g ws c.fromVertex c.toVertex c.viaVertex
            c.shortcutDistance = some (b, ws1) ∧ Inv g ws1 ∧
          ((c.shortcutDistance < intMax → b = false →
            ∃ w, Walk g.edges (fun v => v ≠ c.viaVertex) c.fromVertex c.toVertex w ∧
              w ≤ c.shortcutDistance) ∧
          (cfg.enabled = true → cfg.QPopLimit ≤ 0 → b = true →
            ∀ w, Walk g.edges (fun v => v ≠ c.viaVertex) c.fromVertex c.toVertex w →
              c.shortcutDistance < w)) := by
      by_cases hen : cfg.enabled = true
      · obtain ⟨b, ws1, h1, h2, h3, h4, _, _, h5, h6⟩ :=
          shortcutIsNecessary_spec cfg hen g hg ws hinv.1 hinv.2.1 hinv.2.2
            c.fromVertex c.toVertex c.viaVertex c.shortcutDistance hc.1 hc.2.1 hc.2.2
        exact ⟨b, ws1, h1, ⟨h2, h3, fun _ => h4⟩, h5, fun _ => h6⟩
      · refine ⟨true, ws, ?_, hinv, ?_, ?_⟩
        · unfold shortcutIsNecessary; rw [if_neg hen]
        · intro _ h; exact absurd h (by simp)
        · intro h; exact absurd h hen
    obtain ⟨bs, ws2, hrest, hinv2, hbs⟩ := ih ws1 hinv1
      (fun c' hc' => hr c' (List.mem_cons_of_mem _ hc'))
    refine ⟨b :: bs, ws2, ?_, hinv2, List.Forall₂.cons hb hbs⟩
    unfold runCalls
    rw [hcall]
    simp only []
    rw [hrest]

/-- No walk of `heavyPath` leads from A to C without entering B. -/
theorem heavyPath_no_walk (w : Int) :
    ¬ Walk heavyPath.edges (fun v => v ≠ 1) 0 2 w := by
  intro h
  generalize hs : (0 : Nat) = s at h
  generalize ht : (2 : Nat) = t at h
  cases h with
  | nil => omega
  | snoc e h1 he hfrom hto =>
    simp only [heavyPath, List.mem_cons, List.mem_singleton, List.not_mem_nil, or_false] at he
    rcases he with he | he
    · subst he; simp at ht
    · subst he
      cases h1 with
      | nil => simp at hfrom; omega
      | snoc e' _ he' hfrom' hto' =>
        simp only [heavyPath, List.mem_cons, List.mem_singleton, List.not_mem_nil,
          or_false] at he'
        rcases he' with he' | he'
        · subst he'; simp at hto'
        · subst he'; simp at hfrom

/-- No walk of `oneEdgeGraph` leads from 0 to 2. -/
theorem oneEdgeGraph_no_walk (w : Int) :
    ¬ Walk oneEdgeGraph.edges (fun v => v ≠ 1) 0 2 w := by
  intro h
  generalize hs : (0 : Nat) = s at h
  generalize ht : (2 : Nat) = t at h
  cases h with
  | nil => omega
  | snoc e h1 he hfrom hto =>
    simp only [oneEdgeGraph, List.mem_cons, List.mem_singleton, List.not_mem_nil,
      or_false] at he
    subst he; simp at ht

/-- The walks of `billionPath` from its first vertex follow the path. -/
theorem billionPath_walks_from {s t : Nat} {w : Int}
    (h : Walk billionPath.edges (fun v => v ≠ 4) s t w) (hs : s = 0) :
    (t = 0 ∧ w = 0) ∨ (t = 1 ∧ w = 1000000000) ∨ (t = 2 ∧ w = 2000000000) ∨
      (t = 3 ∧ w = 3000000000) := by
  induction h with
  | nil => exact Or.inl ⟨hs, rfl⟩
  | snoc e _ he hfrom _ ih =>
    simp only [billionPath, List.mem_cons, List.mem_singleton, List.not_mem_nil, or_false]
      at he
    rcases he with he | he | he
    · subst he
      rcases ih with ⟨h1, h2⟩ | ⟨h1, h2⟩ | ⟨h1, h2⟩ | ⟨h1, h2⟩
      · subst h2; exact Or.inr (Or.inl ⟨rfl, rfl⟩)
      all_goals (simp at hfrom; omega)
    · subst he
      rcases ih with ⟨h1, h2⟩ | ⟨h1, h2⟩ | ⟨h1, h2⟩ | ⟨h1, h2⟩
      · simp at hfrom; omega
      · subst h2; exact Or.inr (Or.inr (Or.inl ⟨rfl, rfl⟩))
      all_goals (simp at hfrom; omega)
    · subst he
      rcases ih with ⟨h1, h2⟩ | ⟨h1, h2⟩ | ⟨h1, h2⟩ | ⟨h1, h2⟩
      · simp at hfrom; omega
      · simp at hfrom; omega
      · subst h2; exact Or.inr (Or.inr (Or.inr ⟨rfl, rfl⟩))
      · simp at hfrom; omega

/-- The walks of `billionPath` from its first vertex follow the path. -/
theorem billionPath_walks {t : Nat} {w : Int}
    (h : Walk billionPath.edges (fun v => v ≠ 4) 0 t w) :
    (t = 0 ∧ w = 0) ∨ (t = 1 ∧ w = 1000000000) ∨ (t = 2 ∧ w = 2000000000) ∨
      (t = 3 ∧ w = 3000000000) :=
  billionPath_walks_from h rfl

/-- Claim C6, counterexample.  On the path A, B, C with weights `intMax` and 0 every walk
from A to C enters B, so the distance from A to C avoiding B is infinite and greater than
the shortcut distance `intMax`; yet the freshly initialized witness search answers
"not necessary" to `shortcutIsNecessary(A, C, B, intMax)`.  And on the path of three edges
of weight 10^9 the only walk from the first to the last vertex has the weight 3 * 10^9,
which is greater than the shortcut distance 2 * 10^9 (below `intMax`); the sum of the label
2 * 10^9 and the weight 10^9 does not fit `int`, the label of the last vertex becomes
negative, and the answer is "not necessary". -/
theorem shortcutIsNecessary_misses_at_intMax :
    heavyPath.WellFormed ∧
      (∀ w, Walk heavyPath.edges (fun v => v ≠ 1) 0 2 w → (2147483647 : Int) < w) ∧
      (runCalls unlimitedWitnessSearch heavyPath (WitnessSearch.new.initializeSearch heavyPath)
        [⟨0, 2, 1, 2147483647⟩]).map Prod.fst = some [false] ∧
      billionPath.WellFormed ∧ (2000000000 : Int) < intMax ∧
      (∀ w, Walk billionPath.edges (fun v => v ≠ 4) 0 3 w → (2000000000 : Int) < w) ∧
      (runCalls unlimitedWitnessSearch billionPath
        (WitnessSearch.new.initializeSearch billionPath)
        [⟨0, 3, 4, 2000000000⟩]).map Prod.fst = some [false] :=
  ⟨⟨by decide, by decide, by decide⟩, fun w h => absurd h (heavyPath_no_walk w), by decide,
    ⟨by decide, by decide, by decide⟩, by decide,
    fun w h => by
      rcases billionPath_walks h with ⟨h1, _⟩ | ⟨h1, _⟩ | ⟨h1, _⟩ | ⟨_, h2⟩
      · omega
      · omega
      · omega
      · omega,
    by decide⟩

/-- Claim C6, amended.  For every configuration of the witness search (with or without a
limit of settled vertices, adaptive or not, and for `NoWitnessSearch`), on a fixed graph
with non-negative weights every sequence of calls starting from a freshly initialized
search, each with a shortcut distance whose sum with every edge weight fits `int`,
returns, and a call with a shortcut distance below `intMax` answers "necessary" whenever
every walk from `from` to `to` that does not enter `via` is longer than the shortcut
distance. -/
theorem shortcutIsNecessary_over_approximates (cfg : WitnessConfig) (g : DynamicGraph)
    (hg : g.WellFormed) (calls : List Call)
    (hcalls : ∀ c ∈ calls, c.fromVertex < g.numVertices ∧ c.toVertex < g.numVertices)
    (hfit : ∀ c ∈ calls, ∀ e ∈ g.edges, c.shortcutDistance + e.weight ≤ intMax) :
    ∃ answers ws', runCalls cfg g (WitnessSearch.new.initializeSearch g) calls =
        some (answers, ws') ∧
      List.Forall₂ (fun (c : Call) (b : Bool) => c.shortcutDistance < intMax →
        (∀ w, Walk g.edges (fun v => v ≠ c.viaVertex) c.fromVertex c.toVertex w →
          c.shortcutDistance < w) → b = true) calls answers := by
  obtain ⟨answers, ws', h1, _, h3⟩ := runCalls_spec cfg g hg calls _ (fresh_inv g hg)
    (fun c hc => ⟨(hcalls c hc).1, (hcalls c hc).2, hfit c hc⟩)
  refine ⟨answers, ws', h1, h3.imp ?_⟩
  rintro c b ⟨hb, _⟩ hS hall
  by_contra hne
  have hbf : b = false := by simpa using hne
  obtain ⟨w, hw, hle⟩ := hb hS hbf
  have := hall w hw
  omega

/-- The amended claim C6 on the triangle with a limit of one settled vertex: the four
calls return. -/
theorem shortcutIsNecessary_over_approximates_witness :
    triangle.WellFormed ∧
      (∀ c ∈ triangleCalls,
        c.fromVertex < triangle.numVertices ∧ c.toVertex < triangle.numVertices) ∧
      (∀ c ∈ triangleCalls, ∀ e ∈ triangle.edges, c.shortcutDistance + e.weight ≤ intMax) ∧
      ∃ answers ws', runCalls ⟨true, 1, false⟩ triangle
          (WitnessSearch.new.initializeSearch triangle)
          triangleCalls = some (answers, ws') ∧
        List.Forall₂ (fun (c : Call) (b : Bool) => c.shortcutDistance < intMax →
          (∀ w, Walk triangle.edges (fun v => v ≠ c.viaVertex) c.fromVertex c.toVertex w →
            c.shortcutDistance < w) → b = true)
          triangleCalls answers :=
  ⟨⟨by decide, by decide, by decide⟩, by decide, by decide,
    shortcutIsNecessary_over_approximates ⟨true, 1, false⟩ triangle
      ⟨by decide, by decide, by decide⟩ _ (by decide) (by decide)⟩

/-- Claim C5, counterexample.  In the graph with the single edge from 0 to 1, vertex 2 is
unreachable from 0, which counts as farther than any shortcut distance; yet the freshly
initialized witness search without a limit answers "not necessary" to
`shortcutIsNecessary(0, 2, 1, intMax)`.  And on the path of three edges of weight 10^9 the
distance from the first to the last vertex is 3 * 10^9, greater than the shortcut distance
2 * 10^9; the sum of the label 2 * 10^9 and the weight 10^9 does not fit `int`, and the
answer is "not necessary". -/
theorem shortcutIsNecessary_unreachable_at_intMax :
    oneEdgeGraph.WellFormed ∧ unlimitedWitnessSearch.QPopLimit ≤ 0 ∧
      (∀ w, Walk oneEdgeGraph.edges (fun v => v ≠ 1) 0 2 w → (2147483647 : Int) < w) ∧
      (runCalls unlimitedWitnessSearch oneEdgeGraph
        (WitnessSearch.new.initializeSearch oneEdgeGraph)
        [⟨0, 2, 1, 2147483647⟩]).map Prod.fst = some [false] ∧
      billionPath.WellFormed ∧ (2000000000 : Int) < intMax ∧
      Walk billionPath.edges (fun v => v ≠ 4) 0 3 3000000000 ∧
      (∀ w, Walk billionPath.edges (fun v => v ≠ 4) 0 3 w → w = 3000000000) ∧
      (runCalls unlimitedWitnessSearch billionPath
        (WitnessSearch.new.initializeSearch billionPath)
        [⟨0, 3, 4, 2000000000⟩]).map Prod.fst = some [false] :=
  ⟨⟨by decide, by decide, by decide⟩, by decide,
    fun w h => absurd h (oneEdgeGraph_no_walk w), by decide,
    ⟨by decide, by decide, by decide⟩, by decide,
    Walk.snoc (⟨2, 3, noVertex, 1000000000⟩ : CoreEdge)
      (Walk.snoc (⟨1, 2, noVertex, 1000000000⟩ : CoreEdge)
        (Walk.snoc (⟨0, 1, noVertex, 1000000000⟩ : CoreEdge) (Walk.nil 0)
          (by decide) rfl (by decide))
        (by decide) rfl (by decide))
      (by decide) rfl (by decide),
    fun w h => by
      rcases billionPath_walks h with ⟨h1, _⟩ | ⟨h1, _⟩ | ⟨h1, _⟩ | ⟨_, h2⟩
      · omega
      · omega
      · omega
      · exact h2,
    by decide⟩

/-- Claim C5, amended.  On a fixed graph with non-negative weights and a witness search
without a limit of settled vertices (`QPopLimit <= 0`), every sequence of calls starting
from a freshly initialized search, each with a shortcut distance whose sum with every edge
weight fits `int`, returns, and a call with a shortcut distance below `intMax` answers
"necessary" if and only if every walk from `from` to `to` that does not enter `via` (for
`from` other than `via`: every walk of the graph without `via`) is longer than the
shortcut distance. -/
theorem shortcutIsNecessary_exact (cfg : WitnessConfig) (hen : cfg.enabled = true)
    (hlim : cfg.QPopLimit ≤ 0) (g : DynamicGraph)
    (hg : g.WellFormed) (calls : List Call)
    (hcalls : ∀ c ∈ calls, c.fromVertex < g.numVertices ∧ c.toVertex < g.numVertices)
    (hfit : ∀ c ∈ calls, ∀ e ∈ g.edges, c.shortcutDistance + e.weight ≤ intMax) :
    ∃ answers ws', runCalls cfg g (WitnessSearch.new.initializeSearch g) calls =
        some (answers, ws') ∧
      List.Forall₂ (fun (c : Call) (b : Bool) => c.shortcutDistance < intMax →
        (b = true ↔ ∀ w, Walk g.edges (fun v => v ≠ c.viaVertex) c.fromVertex c.toVertex w →
          c.shortcutDistance < w)) calls answers := by
  obtain ⟨answers, ws', h1, _, h3⟩ := runCalls_spec cfg g hg calls _ (fresh_inv g hg)
    (fun c hc => ⟨(hcalls c hc).1, (hcalls c hc).2, hfit c hc⟩)
  refine ⟨answers, ws', h1, h3.imp ?_⟩
  rintro c b ⟨hb1, hb2⟩ hS
  refine ⟨hb2 hen hlim, fun hall => ?_⟩
  by_contra hne
  have hbf : b = false := by simpa using hne
  obtain ⟨w, hw, hle⟩ := hb1 hS hbf
  have := hall w hw
  omega

/-- The amended claim C5 on the triangle: the four calls return. -/
theorem shortcutIsNecessary_exact_witness :
    unlimitedWitnessSearch.enabled = true ∧ unlimitedWitnessSearch.QPopLimit ≤ 0 ∧
      triangle.WellFormed ∧
      (∀ c ∈ triangleCalls,
        c.fromVertex < triangle.numVertices ∧ c.toVertex < triangle.numVertices) ∧
      (∀ c ∈ triangleCalls, ∀ e ∈ triangle.edges, c.shortcutDistance + e.weight ≤ intMax) ∧
      ∃ answers ws', runCalls unlimitedWitnessSearch triangle
          (WitnessSearch.new.initializeSearch triangle)
          triangleCalls = some (answers, ws') ∧
        List.Forall₂ (fun (c : Call) (b : Bool) => c.shortcutDistance < intMax →
          (b = true ↔
            ∀ w, Walk triangle.edges (fun v => v ≠ c.viaVertex) c.fromVertex c.toVertex w →
              c.shortcutDistance < w))
          triangleCalls answers :=
  ⟨by decide, by decide, ⟨by decide, by decide, by decide⟩, by decide, by decide,
    shortcutIsNecessary_exact unlimitedWitnessSearch (by decide) (by decide) triangle
      ⟨by decide, by decide, by decide⟩ _ (by decide) (by decide)⟩

end WitnessSearch

end CH

namespace CH

/-- A walk stays a walk in a larger edge list and under a weaker condition. -/
theorem Walk.mono_walk {E E' : List CoreEdge} {P P' : Nat → Prop} (hE : ∀ e ∈ E, e ∈ E')
    (hP : ∀ x, P x → P' x) {s t : Nat} {w : Int} (h : Walk E P s t w) : Walk E' P' s t w := by
  induction h with
  | nil => exact Walk.nil _
  | snoc e _ he hfrom hto ih => exact Walk.snoc e ih (hE e he) hfrom (hP _ hto)

/-- Walks can be joined. -/
theorem Walk.append_walk {E : List CoreEdge} {P : Nat → Prop} {a b c : Nat} {w1 w2 : Int}
    (h1 : Walk E P a b w1) (h2 : Walk E P b c w2) : Walk E P a c (w1 + w2) := by
  induction h2 with
  | nil => simpa using h1
  | snoc e _ he hfrom hto ih =>
    rename_i x w' _
    have := Walk.snoc e ih he hfrom hto
    rwa [add_assoc] at this

/-- The weight of a walk over non-negative edges is non-negative. -/
theorem Walk.weight_nonneg {E : List CoreEdge} {P : Nat → Prop} (hE : ∀ e ∈ E, 0 ≤ e.weight)
    {s t : Nat} {w : Int} (h : Walk E P s t w) : 0 ≤ w := by
  induction h with
  | nil => exact le_refl _
  | snoc e _ he _ _ ih => have := hE e he; omega

/-- The walk that consists of one edge. -/
theorem Walk.single_edge {E : List CoreEdge} {P : Nat → Prop} {e : CoreEdge} (he : e ∈ E)
    (hP : P e.toVertex) : Walk E P e.fromVertex e.toVertex e.weight := by
  have := Walk.snoc e (Walk.nil e.fromVertex) he rfl hP
  simpa using this

/-- When every edge of a walk can be replaced by a walk that is not longer, so can the
walk. -/
theorem Walk.replace_edges {E E' : List CoreEdge} {P P' : Nat → Prop}
    (hE : ∀ e ∈ E, P e.toVertex →
      ∃ w, Walk E' P' e.fromVertex e.toVertex w ∧ w ≤ e.weight)
    {s t : Nat} {w : Int} (h : Walk E P s t w) : ∃ w', Walk E' P' s t w' ∧ w' ≤ w := by
  induction h with
  | nil => exact ⟨0, Walk.nil _, le_refl _⟩
  | snoc e _ he hfrom hto ih =>
    obtain ⟨w1, h1, hle1⟩ := ih
    obtain ⟨w2, h2, hle2⟩ := hE e he hto
    rw [hfrom] at h2
    exact ⟨w1 + w2, h1.append_walk h2, by omega⟩

/-- When every edge of a walk stands for a walk in the opposite direction that is not
longer, the walk stands for such a walk from its end to its start. -/
theorem Walk.reverse_edges {E E' : List CoreEdge} {P P' : Nat → Prop}
    (hE : ∀ e ∈ E, ∃ w, Walk E' P' e.toVertex e.fromVertex w ∧ w ≤ e.weight)
    {s t : Nat} {w : Int} (h : Walk E P s t w) : ∃ w', Walk E' P' t s w' ∧ w' ≤ w := by
  induction h with
  | nil => exact ⟨0, Walk.nil _, le_refl _⟩
  | snoc e _ he hfrom hto ih =>
    obtain ⟨w1, h1, hle1⟩ := ih
    obtain ⟨w2, h2, hle2⟩ := hE e he
    rw [hfrom] at h2
    exact ⟨w2 + w1, h2.append_walk h1, by omega⟩

/-- The two distances agree when every walk of the graph has a pair of overlay walks that
is not longer, and every pair of overlay walks has a walk of the graph that is not
longer. -/
theorem isDistance_iff_isMeetingDistance {G F B : List CoreEdge}
    (hdown : ∀ s t w, Walk G (fun _ => True) s t w →
      ∃ m w1 w2, Walk F (fun _ => True) s m w1 ∧ Walk B (fun _ => True) t m w2 ∧
        w1 + w2 ≤ w)
    (hup : ∀ s t m w1 w2, Walk F (fun _ => True) s m w1 → Walk B (fun _ => True) t m w2 →
      ∃ w, Walk G (fun _ => True) s t w ∧ w ≤ w1 + w2)
    (s t : Nat) (d : Option Int) : IsDistance G s t d ↔ IsMeetingDistance F B s t d := by
  cases d with
  | none =>
    constructor
    · intro h m w1 w2 h1 h2
      obtain ⟨w, hw, _⟩ := hup s t m w1 w2 h1 h2
      exact h w hw
    · intro h w hw
      obtain ⟨m, w1, w2, h1, h2, _⟩ := hdown s t w hw
      exact h m w1 w2 h1 h2
  | some d =>
    constructor
    · rintro ⟨hd, hmin⟩
      obtain ⟨m, w1, w2, h1, h2, hle⟩ := hdown s t d hd
      obtain ⟨w, hw, hle2⟩ := hup s t m w1 w2 h1 h2
      have := hmin w hw
      refine ⟨⟨m, w1, w2, h1, h2, by omega⟩, ?_⟩
      intro m' w1' w2' h1' h2'
      obtain ⟨w', hw', hle'⟩ := hup s t m' w1' w2' h1' h2'
      have := hmin w' hw'
      omega
    · rintro ⟨⟨m, w1, w2, h1, h2, hsum⟩, hmin⟩
      obtain ⟨w, hw, hle⟩ := hup s t m w1 w2 h1 h2
      obtain ⟨m', w1', w2', h1', h2', hle'⟩ := hdown s t w hw
      have := hmin m' w1' w2' h1' h2'
      have hwd : w = d := by omega
      subst hwd
      refine ⟨hw, ?_⟩
      intro w' hw'
      obtain ⟨m'', w1'', w2'', h1'', h2'', hle''⟩ := hdown s t w' hw'
      have := hmin m'' w1'' w2'' h1'' h2''
      omega

end CH

namespace CH
namespace WitnessSearch

/-- Exact labels are sound. -/
theorem Sound.soundLe {g : DynamicGraph} {ws : WitnessSearch} (h : Sound g ws) :
    SoundLe g ws := fun x hx _ => ⟨_, h x hx, le_refl _⟩

/-- Settling a vertex keeps a search dead or sound. -/
theorem settle_deadOrSound {g : DynamicGraph} (hg : g.WellFormed) {ws : WitnessSearch}
    {u : Nat} (hord : Ordered g.numVertices ws) (hs : Dead g ws ∨ SoundLe g ws)
    (hf : heapFront ws.distance ws.Q = some u) (S : Int)
    (hfit : ∀ e ∈ g.edges, S + e.weight ≤ intMax) (hS : ws.eff u ≤ S) :
    (settle g ws.currentVia u ws).currentFrom = ws.currentFrom ∧
      (settle g ws.currentVia u ws).currentVia = ws.currentVia ∧
      (Dead g (settle g ws.currentVia u ws) ∨ SoundLe g (settle g ws.currentVia u ws)) := by
  have hmid := hord.pop_mid hf
  have hedges := edgesFrom_wf hg S hfit u
  have := Mid.foldl_relaxEdge_mem ws.currentVia S (g.edgesFrom u) hedges
    (fun _ ws' => ws'.currentFrom = ws.currentFrom ∧ ws'.currentVia = ws.currentVia ∧
      (Dead g ws ∨ SoundLe g ws'))
    (by
      intro done e ws1 he hm1 hfit1 ⟨hj1, hj2, hj3⟩
      obtain ⟨⟨c1, c2, _, _⟩, hcase⟩ := hm1.relaxEdge_cases ws.currentVia e (hedges e he).1
        (hedges e he).2.1 hfit1
      refine ⟨c1.trans hj1, c2.trans hj2, ?_⟩
      rcases hj3 with hd | hj3
      · exact Or.inl hd
      right
      intro x hx hlive
      rw [c1, c2]
      rcases hcase with ⟨_, heff, _⟩ | ⟨hc, _, _, heff, _⟩
      · rw [heff] at hx ⊢; exact hj3 x hx hlive
      · rw [heff] at hx ⊢
        by_cases hxv : x = e.toVertex
        · rw [if_pos hxv]
          subst hxv
          have hmem := List.mem_filter.mp he
          have hfrom : e.fromVertex = u := of_decide_eq_true hmem.2
          have hu : ¬ g.Isolated u := fun hiso => (hiso e hmem.1).1 hfrom
          obtain ⟨w, hw, hle⟩ := hj3 u hm1.finite hu
          exact ⟨w + e.weight,
            Walk.snoc e hw hmem.1 hfrom (by rw [hj2]; exact hc.1), by omega⟩
        · rw [if_neg hxv] at hx ⊢; exact hj3 x hx hlive)
    (g.edgesFrom u) [] _ (fun e he => he) hmid hS ⟨rfl, rfl, hs⟩
  obtain ⟨t1, t2, t3⟩ := this
  refine ⟨t1, t2, ?_⟩
  rcases t3 with hd | h
  · left
    unfold Dead at hd ⊢
    have e1 : (settle g ws.currentVia u ws).currentFrom = ws.currentFrom := t1
    have e2 : (settle g ws.currentVia u ws).currentVia = ws.currentVia := t2
    rw [e1, e2]; exact hd
  · exact Or.inr h

/-- One call of `shortcutIsNecessary` on a consistent state: it returns, the state stays
consistent, and when the three vertices have edges and the shortcut distance is below
`intMax`, the answer "not necessary" comes with a walk that avoids `via` and is no longer
than the shortcut. -/
theorem shortcutIsNecessary_consistent (cfg : WitnessConfig) (hen : cfg.enabled = true)
    (g : DynamicGraph) (hg : g.WellFormed) (ws : WitnessSearch) (hc : Consistent g ws)
    (fromV toV via : Nat) (S : Int) (hfrom : fromV < g.numVertices)
    (hto : toV < g.numVertices) (hfit : ∀ e ∈ g.edges, S + e.weight ≤ intMax) :
    ∃ b ws', shortcutIsNecessary cfg g ws fromV toV via S = some (b, ws') ∧
      Consistent g ws' ∧ ws'.currentFrom = fromV ∧ ws'.currentVia = via ∧
      (¬ g.Isolated fromV → ¬ g.Isolated via → ¬ g.Isolated toV → S < intMax → b = false →
        ∃ w, Walk g.edges (fun v => v ≠ via) fromV toV w ∧ w ≤ S) := by
  obtain ⟨hord, hs⟩ := hc
  unfold shortcutIsNecessary
  rw [if_pos hen]
  obtain ⟨ws0, hws0, hord0, hs0, hf0, hv0⟩ :
      ∃ ws0, (if ws.currentFrom ≠ fromV ∨ ws.currentVia ≠ via then
          restart cfg g ws fromV via else ws) = ws0 ∧
        Ordered g.numVertices ws0 ∧ (Dead g ws0 ∨ SoundLe g ws0) ∧
        ws0.currentFrom = fromV ∧ ws0.currentVia = via := by
    by_cases hr : ws.currentFrom ≠ fromV ∨ ws.currentVia ≠ via
    · rw [if_pos hr]
      obtain ⟨r1, r2, _, r4, r5⟩ := restart_inv cfg g ws fromV via hord hfrom
      exact ⟨_, rfl, r1, Or.inr r2.soundLe, r4, r5⟩
    · rw [if_neg hr]
      have h1 : ws.currentFrom = fromV := by
        by_contra hh; exact hr (Or.inl hh)
      have h2 : ws.currentVia = via := by
        by_contra hh; exact hr (Or.inr hh)
      exact ⟨_, rfl, hord, hs, h1, h2⟩
  simp only [hws0]
  obtain ⟨ws1, hloop, hord1, ⟨hf1, hv1, hs1⟩, _⟩ :=
    searchLoop_inv cfg g hg toV via S hfit
      (fun ws => ws.currentFrom = fromV ∧ ws.currentVia = via ∧ (Dead g ws ∨ SoundLe g ws))
      (by
        rintro ws' u ho ⟨i1, i2, i3⟩ hfr huS _
        have s := settle_deadOrSound hg ho i3 hfr S hfit huS
        rw [i2] at s
        exact ⟨s.1.trans i1, s.2.1, s.2.2⟩)
      (by
        rintro ws' k ⟨i1, i2, i3⟩
        exact ⟨i1, i2, i3⟩)
      (ws0.label.length * 4294967296 + ws0.Q.length + 1) ws0
      (by
        rw [hord0.len]
        have := unsettled_le g.numVertices ws0
        omega) hord0
      ⟨hf0, hv0, hs0⟩
  rw [hloop]
  obtain ⟨g1, _, _⟩ := getLabel_inv g ws1 toV hord1
  obtain ⟨f1, f2, f3, f4, f5, f6, f7⟩ := getLabel_fields ws1 toV
  have hd : (ws1.getLabel toV).distance toV = ws1.eff toV :=
    (distance_getLabel_self ws1 toV (by rw [hord1.len]; exact hto)).2
  have hfrom2 : (ws1.getLabel toV).currentFrom = fromV := f3.trans hf1
  have hvia2 : (ws1.getLabel toV).currentVia = via := f4.trans hv1
  have hs2 : Dead g (ws1.getLabel toV) ∨ SoundLe g (ws1.getLabel toV) := by
    rcases hs1 with h | h
    · left; unfold Dead at h ⊢; rw [hfrom2, hvia2]; rw [hf1, hv1] at h; exact h
    · right
      intro x hx hlive
      rw [eff_getLabel] at hx ⊢; rw [hfrom2, hvia2]
      have := h x hx hlive
      rw [hf1, hv1] at this
      exact this
  refine ⟨_, _, rfl, ⟨g1, hs2⟩, hfrom2, hvia2, ?_⟩
  intro hlf hlv hlt hS hb
  rw [hd] at hb
  have hle : ws1.eff toV ≤ S := not_lt.mp (of_decide_eq_false hb)
  rcases hs1 with h | h
  · unfold Dead at h; rw [hf1, hv1] at h
    rcases h with h | h
    · exact absurd h hlf
    · exact absurd h hlv
  · obtain ⟨w, hw, hle2⟩ := h toV (by omega) hlt
    rw [hf1, hv1] at hw
    exact ⟨w, hw, by omega⟩

end WitnessSearch
end CH

namespace CH
namespace WitnessSearch

theorem sum_range_le (f g : Nat → Nat) (h : ∀ x, f x ≤ g x) :
    ∀ n, ((List.range n).map f).sum ≤ ((List.range n).map g).sum := by
  intro n
  induction n with
  | zero => simp
  | succ n ih =>
    rw [List.range_succ, List.map_append, List.map_append, List.sum_append, List.sum_append]
    have := h n
    simp only [List.map_cons, List.map_nil, List.sum_cons, List.sum_nil]
    omega

theorem sum_range_lt (f g : Nat → Nat) (h : ∀ x, f x ≤ g x) (v : Nat) (hv : f v < g v) :
    ∀ n, v < n → ((List.range n).map f).sum < ((List.range n).map g).sum := by
  intro n
  induction n with
  | zero => intro h0; exact absurd h0 (Nat.not_lt_zero _)
  | succ n ih =>
    intro hvn
    rw [List.range_succ, List.map_append, List.map_append, List.sum_append, List.sum_append]
    simp only [List.map_cons, List.map_nil, List.sum_cons, List.sum_nil]
    by_cases hvn2 : v < n
    · have := ih hvn2
      have := h n
      omega
    · have hvn3 : v = n := by omega
      subst hvn3
      have := sum_range_le f g h v
      omega

theorem sum_range_bound (f : Nat → Nat) (c : Nat) (h : ∀ x, f x ≤ c) :
    ∀ n, ((List.range n).map f).sum ≤ n * c := by
  intro n
  induction n with
  | zero => simp
  | succ n ih =>
    rw [List.range_succ, List.map_append, List.sum_append]
    simp only [List.map_cons, List.map_nil, List.sum_cons, List.sum_nil]
    have := h n
    have e : (n + 1) * c = n * c + c := by ring
    omega

/-- What `relaxEdge` does to the labels and the queue, whatever the label of `u` is. -/
theorem relaxEdge_any (ws : WitnessSearch) (via u : Nat) (e : CoreEdge)
    (hv : e.toVertex < ws.label.length) :
    ∃ d : Int, -2147483648 ≤ d ∧ d ≤ intMax ∧
      (∀ x, (relaxEdge via u ws e).eff x =
        if (e.toVertex ≠ via ∧ d < ws.eff e.toVertex) ∧ x = e.toVertex
        then d else ws.eff x) ∧
      (relaxEdge via u ws e).Q =
        (if e.toVertex ≠ via ∧ d < ws.eff e.toVertex
         then heapUpdate ws.Q e.toVertex else ws.Q) ∧
      (relaxEdge via u ws e).timeStamp = ws.timeStamp ∧
      (relaxEdge via u ws e).label.length = ws.label.length ∧
      (∀ x, (relaxEdge via u ws e).stamp x =
        if x = e.toVertex ∧ e.toVertex ≠ via then ws.timeStamp else ws.stamp x) := by
  refine ⟨wrapInt32 ((ws.getLabel e.toVertex).distance u + e.weight),
    (wrapInt32_range _).1, (wrapInt32_range _).2, ?_⟩
  generalize hd : wrapInt32 ((ws.getLabel e.toVertex).distance u + e.weight) = d
  unfold relaxEdge
  by_cases hvia : e.toVertex = via
  · rw [if_pos hvia]
    have hn : ¬ (e.toVertex ≠ via ∧ d < ws.eff e.toVertex) := fun h => h.1 hvia
    refine ⟨fun x => ?_, ?_, rfl, rfl, fun x => ?_⟩
    · rw [if_neg (fun h => hn h.1)]
    · rw [if_neg hn]
    · rw [if_neg (fun h => h.2 hvia)]
  · simp only [if_neg hvia]
    obtain ⟨f1, f2, f3, f4, f5, f6, f7⟩ := getLabel_fields ws e.toVertex
    obtain ⟨hcur, hdv⟩ := distance_getLabel_self ws e.toVertex hv
    have hst1 : ∀ x, (ws.getLabel e.toVertex).stamp x =
        if x = e.toVertex ∧ e.toVertex ≠ via then ws.timeStamp else ws.stamp x := by
      intro x
      rw [stamp_getLabel]
      by_cases hx : x = e.toVertex
      · rw [if_pos ⟨hx, hv⟩, if_pos ⟨hx, hvia⟩]
      · rw [if_neg (fun h => hx h.1), if_neg (fun h => hx h.1)]
    rw [hd, hdv]
    by_cases hc : ws.eff e.toVertex > d
    · rw [if_pos hc]
      have hc2 : e.toVertex ≠ via ∧ d < ws.eff e.toVertex := ⟨hvia, hc⟩
      obtain ⟨v1, v2, v3⟩ := setDistance_view (ws.getLabel e.toVertex) e.toVertex
        d (heapUpdate (ws.getLabel e.toVertex).Q e.toVertex)
        (by rw [f5]; exact hv) (by rw [hcur, f2])
      refine ⟨?_, ?_, f2, ?_, ?_⟩
      · intro x
        rw [v1 x]
        by_cases hx : x = e.toVertex
        · rw [if_pos hx, if_pos ⟨hc2, hx⟩]
        · rw [if_neg hx, if_neg (fun h => hx h.2), eff_getLabel]
      · rw [if_pos hc2]; show heapUpdate (ws.getLabel e.toVertex).Q e.toVertex = _; rw [f1]
      · rw [v3, f5]
      · intro x; rw [v2 x, hst1 x]
    · rw [if_neg hc]
      have hc2 : ¬ (e.toVertex ≠ via ∧ d < ws.eff e.toVertex) := fun h => hc h.2
      refine ⟨?_, ?_, f2, f5, hst1⟩
      · intro x; rw [if_neg (fun h => hc2 h.1), eff_getLabel]
      · rw [if_neg hc2, f1]

theorem heapUpdate_length (Q : List Nat) (v : Nat) : (heapUpdate Q v).length ≤ Q.length + 1 := by
  unfold heapUpdate
  split
  · omega
  · simp

/-- A relaxation keeps the shape of the search and does not raise the bound on the
iterations left. -/
theorem Sized.relaxEdge_sized {n : Nat} {ws : WitnessSearch} (h : Sized n ws) (via u : Nat)
    (e : CoreEdge) (hv : e.toVertex < n) :
    Sized n (relaxEdge via u ws e) ∧ potential n (relaxEdge via u ws e) ≤ potential n ws := by
  obtain ⟨d, hd1, hd2, veff, vq, vts, vlen, vst⟩ := relaxEdge_any ws via u e
    (by rw [h.len]; exact hv)
  refine ⟨⟨vlen.trans h.len, ?_, ?_⟩, ?_⟩
  · intro x
    rw [vst, vts]
    split
    · exact le_refl _
    · exact h.stamps x
  · intro x
    rw [veff]
    split
    · exact ⟨hd1, hd2⟩
    · exact h.range x
  · unfold potential
    by_cases hc : e.toVertex ≠ via ∧ d < ws.eff e.toVertex
    · rw [vq, if_pos hc]
      have hlt := sum_range_lt (fun x => ((relaxEdge via u ws e).eff x + 2147483648).toNat)
        (fun x => (ws.eff x + 2147483648).toNat)
        (by
          intro x
          show ((relaxEdge via u ws e).eff x + 2147483648).toNat ≤ (ws.eff x + 2147483648).toNat
          rw [veff]
          by_cases hx : x = e.toVertex
          · rw [if_pos ⟨hc, hx⟩, hx]
            have := hc.2
            omega
          · rw [if_neg (fun hh => hx hh.2)])
        e.toVertex
        (by
          show ((relaxEdge via u ws e).eff e.toVertex + 2147483648).toNat <
            (ws.eff e.toVertex + 2147483648).toNat
          rw [veff, if_pos ⟨hc, rfl⟩]
          have := hc.2
          omega)
        n hv
      have := heapUpdate_length ws.Q e.toVertex
      omega
    · rw [vq, if_neg hc]
      have hle := sum_range_le (fun x => ((relaxEdge via u ws e).eff x + 2147483648).toNat)
        (fun x => (ws.eff x + 2147483648).toNat)
        (by
          intro x
          show ((relaxEdge via u ws e).eff x + 2147483648).toNat ≤ (ws.eff x + 2147483648).toNat
          rw [veff, if_neg (fun hh => hc hh.1)])
        n
      omega

/-- The loop over the edges of a vertex keeps the shape of the search and does not raise
the bound on the iterations left. -/
theorem Sized.foldl_sized {n : Nat} (via u : Nat) :
    ∀ (edges : List CoreEdge) (ws : WitnessSearch), (∀ e ∈ edges, e.toVertex < n) →
      Sized n ws →
      Sized n (edges.foldl (relaxEdge via u) ws) ∧
        potential n (edges.foldl (relaxEdge via u) ws) ≤ potential n ws := by
  intro edges
  induction edges with
  | nil => intro ws _ h; exact ⟨h, le_refl _⟩
  | cons e rest ih =>
    intro ws hr h
    obtain ⟨h1, p1⟩ := h.relaxEdge_sized via u e (hr e (List.mem_cons_self _ _))
    obtain ⟨h2, p2⟩ := ih (relaxEdge via u ws e) (fun e' he' => hr e' (List.mem_cons_of_mem _ he')) h1
    exact ⟨h2, le_trans p2 p1⟩

/-- Settling a vertex of the queue keeps the shape of the search and lowers the bound on
the iterations left. -/
theorem Sized.settle_sized {g : DynamicGraph} (hg : g.InRange) {ws : WitnessSearch}
    (h : Sized g.numVertices ws) (via u : Nat) (hu : u ∈ ws.Q) :
    Sized g.numVertices (settle g via u ws) ∧
      potential g.numVertices (settle g via u ws) < potential g.numVertices ws := by
  have h0 : Sized g.numVertices { ws with Q := ws.Q.erase u } := ⟨h.len, h.stamps, h.range⟩
  obtain ⟨h1, p1⟩ := Sized.foldl_sized via u (g.edgesFrom u) _
    (fun e he => (hg e (List.mem_filter.mp he).1).2) h0
  refine ⟨h1, lt_of_le_of_lt p1 ?_⟩
  unfold potential
  show _ + (ws.Q.erase u).length < _ + ws.Q.length
  have hpos : 0 < ws.Q.length := List.length_pos_of_mem hu
  have : ((List.range g.numVertices).map
      (fun x => (({ ws with Q := ws.Q.erase u } : WitnessSearch).eff x + 2147483648).toNat)).sum =
      ((List.range g.numVertices).map (fun x => (ws.eff x + 2147483648).toNat)).sum := rfl
  rw [this, List.length_erase_of_mem hu]
  omega

/-- The loop of `shortcutIsNecessary` ends, whatever the weights are: within as many
iterations as the bound `potential` tells. -/
theorem searchLoop_returns (cfg : WitnessConfig) (g : DynamicGraph) (hg : g.InRange)
    (toV via : Nat) (S : Int) :
    ∀ (fuel : Nat) (ws : WitnessSearch), potential g.numVertices ws < fuel →
      Sized g.numVertices ws →
      ∃ ws', searchLoop cfg g toV via S fuel ws = some ws' ∧ Sized g.numVertices ws' := by
  intro fuel
  induction fuel with
  | zero => intro ws h; exact absurd h (Nat.not_lt_zero _)
  | succ fuel ih =>
    intro ws hfuel hs
    unfold searchLoop
    cases hf : heapFront ws.distance ws.Q with
    | none => exact ⟨ws, rfl, hs⟩
    | some u =>
      obtain ⟨huQ, _⟩ := heapFront_some ws.distance ws.Q u hf
      simp only []
      by_cases h1 : ws.distance u > S
      · rw [if_pos h1]; exact ⟨ws, rfl, hs⟩
      · rw [if_neg h1]
        by_cases h2 : u = toV
        · rw [if_pos h2]; exact ⟨ws, rfl, hs⟩
        · rw [if_neg h2]
          obtain ⟨hs2, hp2⟩ := hs.settle_sized hg via u huQ
          obtain ⟨⟨k, hk⟩, _⟩ := countPop_cases cfg (settle g via u ws)
          have hs3 : Sized g.numVertices (countPop cfg (settle g via u ws)).2 := by
            rw [hk]; exact ⟨hs2.len, hs2.stamps, hs2.range⟩
          have hp3 : potential g.numVertices (countPop cfg (settle g via u ws)).2 =
              potential g.numVertices (settle g via u ws) := by
            rw [hk]; rfl
          by_cases h3 : (countPop cfg (settle g via u ws)).1 = true
          · rw [if_pos h3]; exact ⟨_, rfl, hs3⟩
          · rw [if_neg h3]
            exact ih _ (by omega) hs3

theorem potential_lt (n : Nat) (ws : WitnessSearch) (h : Sized n ws) :
    potential n ws < ws.label.length * 4294967296 + ws.Q.length + 1 := by
  unfold potential
  have := sum_range_bound (fun x => (ws.eff x + 2147483648).toNat) 4294967295
    (by
      intro x
      have := h.range x
      unfold intMax at this
      show (ws.eff x + 2147483648).toNat ≤ 4294967295
      omega) n
  rw [h.len]
  omega

/-- A look at a label keeps the shape of the search. -/
theorem Sized.getLabel_sized {n : Nat} {ws : WitnessSearch} (h : Sized n ws) (v : Nat) :
    Sized n (ws.getLabel v) := by
  obtain ⟨f1, f2, f3, f4, f5, f6, f7⟩ := getLabel_fields ws v
  refine ⟨f5.trans h.len, ?_, ?_⟩
  · intro x; rw [stamp_getLabel, f2]
    split
    · exact le_refl _
    · exact h.stamps x
  · intro x; rw [eff_getLabel]; exact h.range x

/-- A new search starts in a state of the right shape. -/
theorem Sized.restart_sized {n : Nat} {ws : WitnessSearch} (h : Sized n ws)
    (cfg : WitnessConfig) (g : DynamicGraph) (fromV via : Nat) (hfrom : fromV < n) :
    Sized n (restart cfg g ws fromV via) := by
  obtain ⟨v1, v2, v3, v4, v5, v6, v7⟩ := startSearch_view ws fromV via
    (by rw [h.len]; exact hfrom) h.stamps
  obtain ⟨a, b, hab⟩ := resetPops_cases cfg g via (startSearch ws fromV via)
  unfold restart
  rw [hab]
  refine ⟨v6.trans h.len, ?_, ?_⟩
  · intro x; show (startSearch ws fromV via).stamp x ≤ (startSearch ws fromV via).timeStamp
    rw [v3]; exact v7 x
  · intro x
    show -2147483648 ≤ (startSearch ws fromV via).eff x ∧ (startSearch ws fromV via).eff x ≤ intMax
    rw [v1]
    split
    · unfold intMax; omega
    · unfold intMax; omega

/-- A consistent search has the right shape. -/
theorem Ordered.sized {n : Nat} {ws : WitnessSearch} (h : Ordered n ws) : Sized n ws :=
  ⟨h.len, h.stamps, fun x => ⟨by have := (h.bounds x).1; omega, (h.bounds x).2⟩⟩

/-- One call of `shortcutIsNecessary` returns, whatever the weights of the graph are, and
keeps the shape of the search. -/
theorem shortcutIsNecessary_returns (cfg : WitnessConfig) (g : DynamicGraph) (hg : g.InRange)
    (ws : WitnessSearch) (hs : cfg.enabled = true → Sized g.numVertices ws)
    (fromV toV via : Nat) (S : Int) (hfrom : fromV < g.numVertices) :
    ∃ b ws', shortcutIsNecessary cfg g ws fromV toV via S = some (b, ws') ∧
      (cfg.enabled = true → Sized g.numVertices ws') := by
  unfold shortcutIsNecessary
  by_cases hen : cfg.enabled = true
  · rw [if_pos hen]
    have hs := hs hen
    obtain ⟨ws0, hws0, hs0⟩ :
        ∃ ws0, (if ws.currentFrom ≠ fromV ∨ ws.currentVia ≠ via then
            restart cfg g ws fromV via else ws) = ws0 ∧ Sized g.numVertices ws0 := by
      by_cases hr : ws.currentFrom ≠ fromV ∨ ws.currentVia ≠ via
      · rw [if_pos hr]; exact ⟨_, rfl, hs.restart_sized cfg g fromV via hfrom⟩
      · rw [if_neg hr]; exact ⟨_, rfl, hs⟩
    simp only [hws0]
    obtain ⟨ws1, hloop, hs1⟩ := searchLoop_returns cfg g hg toV via S
      (ws0.label.length * 4294967296 + ws0.Q.length + 1) ws0 (potential_lt _ ws0 hs0) hs0
    rw [hloop]
    exact ⟨_, _, rfl, fun _ => hs1.getLabel_sized toV⟩
  · rw [if_neg hen]
    exact ⟨true, ws, rfl, fun h => absurd h hen⟩

end WitnessSearch
end CH


namespace CH

theorem mem_updateAt_cases {α : Type} (f : α → α) :
    ∀ (l : List α) (i : Nat) (y : α), y ∈ l.updateAt i f →
      y ∈ l ∨ ∃ x, l[i]? = some x ∧ y = f x := by
  intro l i y hy
  unfold List.updateAt at hy
  cases h : l[i]? with
  | none => rw [h] at hy; exact Or.inl hy
  | some x =>
    rw [h] at hy
    rcases List.mem_or_eq_of_mem_set hy with h1 | h1
    · exact Or.inl h1
    · exact Or.inr ⟨x, rfl, h1⟩

theorem updateAt_mem_image {α : Type} (f : α → α) (l : List α) (i : Nat) (x : α)
    (h : l[i]? = some x) : f x ∈ l.updateAt i f := by
  unfold List.updateAt
  rw [h]
  have hi : i < l.length := by
    by_contra hh
    rw [List.getElem?_eq_none (by omega)] at h
    exact Option.noConfusion h
  exact List.mem_set l i hi (f x)

theorem mem_updateAt_of_mem {α : Type} (f : α → α) (l : List α) (i : Nat) (y : α)
    (hy : y ∈ l) : y ∈ l.updateAt i f ∨ (l[i]? = some y ∧ f y ∈ l.updateAt i f) := by
  unfold List.updateAt
  cases h : l[i]? with
  | none => exact Or.inl hy
  | some x =>
    simp only []
    obtain ⟨j, hj, hjy⟩ := List.mem_iff_getElem.mp hy
    by_cases hij : j = i
    · subst hij
      have hx : x = y := by
        rw [List.getElem?_eq_getElem hj] at h
        rw [← hjy]; exact (Option.some.inj h).symm
      subst hx
      exact Or.inr ⟨rfl, List.mem_set l j hj (f x)⟩
    · left
      refine List.mem_iff_getElem.mpr ⟨j, by simpa using hj, ?_⟩
      rw [List.getElem_set_ne (fun hh => hij hh.symm)]
      exact hjy

namespace Builder

/-- The effect of `addShortcut` on the core graph: no edge is lost or gets heavier, a changed
or new edge is the shortcut, and afterwards an edge from `from` to `to` of at most the
weight of the shortcut exists. -/
theorem addShortcut_spec (K : DynamicGraph) (fromV toV via : Nat) (S : Int) :
    (addShortcut K fromV toV via S).numVertices = K.numVertices ∧
      K.Persists (addShortcut K fromV toV via S) ∧
      (∀ e ∈ (addShortcut K fromV toV via S).edges, e ∈ K.edges ∨
        (e.fromVertex = fromV ∧ e.toVertex = toV ∧ e.weight = S)) ∧
      (∃ e ∈ (addShortcut K fromV toV via S).edges,
        e.fromVertex = fromV ∧ e.toVertex = toV ∧ e.weight ≤ S) := by
  unfold addShortcut
  cases hfind : K.findEdge fromV toV with
  | none =>
    simp only [DynamicGraph.addEdge]
    refine ⟨trivial, ?_, ?_, ?_⟩
    · intro e he
      exact ⟨e, List.mem_append_left _ he, rfl, rfl, le_refl _⟩
    · intro e he
      rcases List.mem_append.mp he with h | h
      · exact Or.inl h
      · rw [List.mem_singleton] at h; subst h; exact Or.inr ⟨rfl, rfl, rfl⟩
    · exact ⟨_, List.mem_append_right _ (List.mem_singleton.mpr rfl), rfl, rfl, le_refl _⟩
  | some i =>
    unfold DynamicGraph.findEdge at hfind
    obtain ⟨hi, hp, _⟩ := List.findIdx?_eq_some_iff_getElem.mp hfind
    have hget : K.edges[i]? = some K.edges[i] := List.getElem?_eq_getElem hi
    have hgetD : K.edges.getD i default = K.edges[i] := by
      rw [List.getD_eq_getElem?_getD, hget]; rfl
    have hp2 : K.edges[i].fromVertex = fromV ∧ K.edges[i].toVertex = toV := by
      simpa using hp
    simp only []
    rw [hgetD]
    by_cases hgt : K.edges[i].weight > S
    · rw [if_pos hgt]
      simp only []
      refine ⟨trivial, ?_, ?_, ?_⟩
      · intro e he
        rcases mem_updateAt_of_mem
          (fun e : CoreEdge => { e with viaVertex := via, weight := S }) K.edges i e he
          with h | ⟨h1, h2⟩
        · exact ⟨e, h, rfl, rfl, le_refl _⟩
        · refine ⟨_, h2, rfl, rfl, ?_⟩
          rw [hget] at h1
          have : K.edges[i] = e := Option.some.inj h1
          rw [← this]
          exact le_of_lt hgt
      · intro e he
        rcases mem_updateAt_cases _ K.edges i e he with h | ⟨x, h1, h2⟩
        · exact Or.inl h
        · rw [hget] at h1
          have : K.edges[i] = x := Option.some.inj h1
          subst this
          right; rw [h2]; exact ⟨hp2.1, hp2.2, rfl⟩
      · exact ⟨_, updateAt_mem_image _ K.edges i _ hget, hp2.1, hp2.2, le_refl _⟩
    · rw [if_neg hgt]
      refine ⟨rfl, ?_, ?_, ?_⟩
      · intro e he; exact ⟨e, he, rfl, rfl, le_refl _⟩
      · intro e he; exact Or.inl he
      · exact ⟨_, List.getElem_mem hi, hp2.1, hp2.2, not_lt.mp hgt⟩

/-- `addShortcut` keeps every edge that does not join the ends of the shortcut. -/
theorem addShortcut_keeps (K : DynamicGraph) (fromV toV via : Nat) (S : Int) (e : CoreEdge)
    (he : e ∈ K.edges) (hne : ¬ (e.fromVertex = fromV ∧ e.toVertex = toV)) :
    e ∈ (addShortcut K fromV toV via S).edges := by
  unfold addShortcut
  cases hfind : K.findEdge fromV toV with
  | none =>
    simp only [DynamicGraph.addEdge]
    exact List.mem_append_left _ he
  | some i =>
    unfold DynamicGraph.findEdge at hfind
    obtain ⟨hi, hp, _⟩ := List.findIdx?_eq_some_iff_getElem.mp hfind
    have hget : K.edges[i]? = some K.edges[i] := List.getElem?_eq_getElem hi
    have hp2 : K.edges[i].fromVertex = fromV ∧ K.edges[i].toVertex = toV := by
      simpa using hp
    simp only []
    split
    · simp only []
      rcases mem_updateAt_of_mem
        (fun e : CoreEdge => { e with viaVertex := via, weight := S }) K.edges i e he
        with h | ⟨h1, _⟩
      · exact h
      · rw [hget] at h1
        have : K.edges[i] = e := Option.some.inj h1
        rw [← this] at hne
        exact absurd hp2 hne
    · exact he

end Builder
end CH

namespace CH

theorem DynamicGraph.Persists.refl_persists (K : DynamicGraph) : K.Persists K :=
  fun e he => ⟨e, he, rfl, rfl, le_refl _⟩

theorem DynamicGraph.Persists.trans_persists {K1 K2 K3 : DynamicGraph}
    (h1 : K1.Persists K2) (h2 : K2.Persists K3) : K1.Persists K3 := by
  intro e he
  obtain ⟨e1, he1, a1, b1, c1⟩ := h1 e he
  obtain ⟨e2, he2, a2, b2, c2⟩ := h2 e1 he1
  exact ⟨e2, he2, a2.trans a1, b2.trans b1, le_trans c2 c1⟩

/-- A walk survives when its edges persist. -/
theorem DynamicGraph.Persists.walk {K K' : DynamicGraph} (hp : K.Persists K')
    {P : Nat → Prop} {s t : Nat} {w : Int} (h : Walk K.edges P s t w) :
    ∃ w', Walk K'.edges P s t w' ∧ w' ≤ w := by
  refine Walk.replace_edges ?_ h
  intro e he hP
  obtain ⟨e', he', a, b, c⟩ := hp e he
  have := Walk.single_edge (P := P) he' (by rw [b]; exact hP)
  rw [a, b] at this
  exact ⟨_, this, c⟩

namespace WitnessSearch

/-- A consistent search stays consistent when the edges of the graph persist and no
vertex without edges gets one. -/
theorem Consistent.of_persists {K K' : DynamicGraph} {ws : WitnessSearch}
    (hn : K'.numVertices = K.numVertices) (hp : K.Persists K')
    (hiso : ∀ x, K.Isolated x → K'.Isolated x) (h : ws.Consistent K) : ws.Consistent K' := by
  obtain ⟨hord, hs⟩ := h
  refine ⟨by rw [hn]; exact hord, ?_⟩
  rcases hs with hd | hs
  · left
    rcases hd with hd | hd
    · exact Or.inl (hiso _ hd)
    · exact Or.inr (hiso _ hd)
  · right
    intro x hx hlive
    obtain ⟨w, hw, hle⟩ := hs x hx (fun h => hlive (hiso x h))
    obtain ⟨w', hw', hle'⟩ := hp.walk hw
    exact ⟨w', hw', by omega⟩

end WitnessSearch

namespace Builder

theorem addShortcut_wellFormed {K : DynamicGraph} (hK : K.WellFormed) {fromV toV : Nat}
    (via : Nat) {S : Int} (hfrom : fromV < K.numVertices) (hto : toV < K.numVertices)
    (hS : 0 ≤ S) : (addShortcut K fromV toV via S).WellFormed := by
  obtain ⟨hn, _, horigin, _⟩ := addShortcut_spec K fromV toV via S
  refine ⟨by rw [hn]; exact hK.size, ?_, ?_⟩
  · intro e he
    rw [hn]
    rcases horigin e he with h | ⟨h1, h2, _⟩
    · exact hK.range e h
    · rw [h1, h2]; exact ⟨hfrom, hto⟩
  · intro e he
    rcases horigin e he with h | ⟨_, _, h3⟩
    · exact hK.nonneg e h
    · rw [h3]; exact hS

theorem addShortcut_inRange {K : DynamicGraph} (hK : K.InRange) {fromV toV : Nat}
    (via : Nat) (S : Int) (hfrom : fromV < K.numVertices) (hto : toV < K.numVertices) :
    (addShortcut K fromV toV via S).InRange := by
  obtain ⟨hn, _, horigin, _⟩ := addShortcut_spec K fromV toV via S
  intro e he
  rw [hn]
  rcases horigin e he with h | ⟨h1, h2, _⟩
  · exact hK e h
  · rw [h1, h2]; exact ⟨hfrom, hto⟩

theorem addShortcut_light {K : DynamicGraph} (hK : K.Light) (fromV toV via : Nat) {S : Int}
    (hS : S ≤ intMax / 3) : (addShortcut K fromV toV via S).Light := by
  obtain ⟨_, _, horigin, _⟩ := addShortcut_spec K fromV toV via S
  intro e he
  rcases horigin e he with h | ⟨_, _, h3⟩
  · exact hK e h
  · rw [h3]; exact hS

/-- The loop over the candidate shortcuts of `contract(v)` ends, whatever the weights are:
the core graph keeps its vertices, an edge that is new or changed is one of the candidates,
and an edge that joins the ends of no candidate is kept as it is. -/
theorem testShortcuts_returns (cfg : WitnessConfig) (v : Nat) :
    ∀ (L : List Shortcut) (K : DynamicGraph) (ws : WitnessSearch), K.InRange →
      (cfg.enabled = true → ws.Sized K.numVertices) →
      (∀ s ∈ L, s.fromVertex < K.numVertices ∧ s.toVertex < K.numVertices) →
      ∃ K' ws', testShortcuts cfg v L K ws = some (K', ws') ∧ K'.InRange ∧
        K'.numVertices = K.numVertices ∧ (cfg.enabled = true → ws'.Sized K.numVertices) ∧
        (∀ e ∈ K'.edges, e ∈ K.edges ∨ ∃ s ∈ L, e.fromVertex = s.fromVertex ∧
          e.toVertex = s.toVertex ∧ e.weight = s.weight) ∧
        (∀ e ∈ K.edges,
          (∀ s ∈ L, ¬ (e.fromVertex = s.fromVertex ∧ e.toVertex = s.toVertex)) →
          e ∈ K'.edges) := by
  intro L
  induction L with
  | nil =>
    intro K ws hK hws _
    exact ⟨K, ws, rfl, hK, rfl, hws, fun e he => Or.inl he, fun e he _ => he⟩
  | cons s rest ih =>
    intro K ws hK hws hL
    obtain ⟨hfrom, hto⟩ := hL s (List.mem_cons_self _ _)
    obtain ⟨b, ws1, hcall, hws1⟩ := WitnessSearch.shortcutIsNecessary_returns cfg K hK ws hws
      s.fromVertex s.toVertex v s.weight hfrom
    obtain ⟨hn, _, horigin, _⟩ := addShortcut_spec K s.fromVertex s.toVertex v s.weight
    obtain ⟨K1, hK1def, hK1r, hK1n, hK1o, hK1k⟩ :
        ∃ K1, K1 = (if b = true then addShortcut K s.fromVertex s.toVertex v s.weight
            else K) ∧
          K1.InRange ∧ K1.numVertices = K.numVertices ∧
          (∀ e ∈ K1.edges, e ∈ K.edges ∨ (e.fromVertex = s.fromVertex ∧
            e.toVertex = s.toVertex ∧ e.weight = s.weight)) ∧
          (∀ e ∈ K.edges, ¬ (e.fromVertex = s.fromVertex ∧ e.toVertex = s.toVertex) →
            e ∈ K1.edges) := by
      by_cases hb : b = true
      · refine ⟨_, rfl, ?_, ?_, ?_, ?_⟩
        · rw [if_pos hb]; exact addShortcut_inRange hK v s.weight hfrom hto
        · rw [if_pos hb]; exact hn
        · rw [if_pos hb]; exact horigin
        · rw [if_pos hb]
          exact fun e he hne => addShortcut_keeps K s.fromVertex s.toVertex v s.weight e he hne
      · refine ⟨_, rfl, ?_, ?_, ?_, ?_⟩
        · rw [if_neg hb]; exact hK
        · rw [if_neg hb]
        · rw [if_neg hb]; exact fun e he => Or.inl he
        · rw [if_neg hb]; exact fun e he _ => he
    obtain ⟨K', ws', hrun, r1, r2, r3, r4, r5⟩ := ih K1 ws1 hK1r
      (fun hen => by rw [hK1n]; exact hws1 hen)
      (fun s' hs' => by rw [hK1n]; exact hL s' (List.mem_cons_of_mem _ hs'))
    refine ⟨K', ws', ?_, r1, r2.trans hK1n, fun hen => by rw [← hK1n]; exact r3 hen, ?_, ?_⟩
    · unfold testShortcuts
      rw [hcall]
      simp only []
      rw [← hK1def]
      exact hrun
    · intro e he
      rcases r4 e he with h | ⟨s', hs', h⟩
      · rcases hK1o e h with h2 | h2
        · exact Or.inl h2
        · exact Or.inr ⟨s, List.mem_cons_self _ _, h2⟩
      · exact Or.inr ⟨s', List.mem_cons_of_mem _ hs', h⟩
    · intro e he hne
      exact r5 e (hK1k e he (hne s (List.mem_cons_self _ _)))
        (fun s' hs' => hne s' (List.mem_cons_of_mem _ hs'))

theorem addShortcut_isolated {K : DynamicGraph} {fromV toV : Nat} (via : Nat) (S : Int)
    (hfrom : ¬ K.Isolated fromV) (hto : ¬ K.Isolated toV) (x : Nat) (hx : K.Isolated x) :
    (addShortcut K fromV toV via S).Isolated x := by
  obtain ⟨_, _, horigin, _⟩ := addShortcut_spec K fromV toV via S
  intro e he
  rcases horigin e he with h | ⟨h1, h2, _⟩
  · exact hx e h
  · rw [h1, h2]
    exact ⟨fun h => hfrom (h ▸ hx), fun h => hto (h ▸ hx)⟩

theorem Candidates.persist_candidates {K K' : DynamicGraph} {v : Nat} {L : List Shortcut}
    (h : Candidates K v L) (hp : K.Persists K') : Candidates K' v L := by
  intro s hs
  obtain ⟨h0, ⟨e1, he1, a1, b1⟩, ⟨e2, he2, a2, b2⟩⟩ := h s hs
  obtain ⟨e1', he1', a1', b1', _⟩ := hp e1 he1
  obtain ⟨e2', he2', a2', b2', _⟩ := hp e2 he2
  exact ⟨h0, ⟨e1', he1', a1'.trans a1, b1'.trans b1⟩, ⟨e2', he2', a2'.trans a2, b2'.trans b2⟩⟩

/-- The loop over the candidate shortcuts of `contract(v)` on a core graph whose weights
are at most `intMax / 3`, for candidates of such weights: it ends; the core graph stays
well formed with weights of at most `intMax / 3` and the witness search consistent; no
edge is lost or gets heavier; an edge that is new or changed is one of the candidates; and
every candidate that does not end at `v` has a walk in the new core graph that avoids `v`
and is no longer than the candidate. -/
theorem testShortcuts_spec (cfg : WitnessConfig) (v : Nat) :
    ∀ (L : List Shortcut) (K : DynamicGraph) (ws : WitnessSearch), K.WellFormed → K.Light →
      (cfg.enabled = true → ws.Consistent K) → Candidates K v L →
      (∀ s ∈ L, s.weight ≤ intMax / 3) →
      ∃ K' ws', testShortcuts cfg v L K ws = some (K', ws') ∧ K'.WellFormed ∧ K'.Light ∧
        K'.numVertices = K.numVertices ∧ (cfg.enabled = true → ws'.Consistent K') ∧
        K.Persists K' ∧
        (∀ e ∈ K'.edges, e ∈ K.edges ∨ ∃ s ∈ L, e.fromVertex = s.fromVertex ∧
          e.toVertex = s.toVertex ∧ e.weight = s.weight) ∧
        (∀ s ∈ L, s.toVertex ≠ v → (cfg.enabled = true → s.weight < intMax) →
          ∃ w, Walk K'.edges (fun x => x ≠ v) s.fromVertex s.toVertex w ∧ w ≤ s.weight) ∧
        (L = [] ∨ (cfg.enabled = true → ws'.currentVia = v)) := by
  intro L
  induction L with
  | nil =>
    intro K ws hK hKl hws _ _
    exact ⟨K, ws, rfl, hK, hKl, rfl, hws, DynamicGraph.Persists.refl_persists K,
      fun e he => Or.inl he, fun s hs => absurd hs (List.not_mem_nil s), Or.inl rfl⟩
  | cons s rest ih =>
    intro K ws hK hKl hws hcand hsmall
    obtain ⟨hS, ⟨e1, he1, a1, b1⟩, ⟨e2, he2, a2, b2⟩⟩ := hcand s (List.mem_cons_self _ _)
    have hS3 := hsmall s (List.mem_cons_self _ _)
    have hfrom : s.fromVertex < K.numVertices := by rw [← a1]; exact (hK.range e1 he1).1
    have hto : s.toVertex < K.numVertices := by rw [← b2]; exact (hK.range e2 he2).2
    have hlf : ¬ K.Isolated s.fromVertex := fun h => (h e1 he1).1 a1
    have hlv : ¬ K.Isolated v := fun h => (h e1 he1).2 b1
    have hlt : ¬ K.Isolated s.toVertex := fun h => (h e2 he2).2 b2
    have hfit : ∀ e ∈ K.edges, s.weight + e.weight ≤ intMax := by
      intro e he
      have := hKl e he
      unfold intMax at this hS3 ⊢
      omega
    -- the question to the witness search
    obtain ⟨b, ws1, hcall, hws1, hvia1, hans, hoff⟩ :
        ∃ b ws1, ws.shortcutIsNecessary cfg K s.fromVertex s.toVertex v s.weight =
            some (b, ws1) ∧
          (cfg.enabled = true → ws1.Consistent K) ∧
          (cfg.enabled = true → ws1.currentVia = v) ∧
          (cfg.enabled = true → s.weight < intMax → b = false →
            ∃ w, Walk K.edges (fun x => x ≠ v) s.fromVertex s.toVertex w ∧ w ≤ s.weight) ∧
          (cfg.enabled ≠ true → b = true) := by
      by_cases hen : cfg.enabled = true
      · obtain ⟨b, ws1, q1, q2, _, q4, q5⟩ :=
          WitnessSearch.shortcutIsNecessary_consistent cfg hen K hK ws (hws hen)
            s.fromVertex s.toVertex v s.weight hfrom hto hfit
        exact ⟨b, ws1, q1, fun _ => q2, fun _ => q4,
          fun _ hlt2 hb => q5 hlf hlv hlt hlt2 hb, fun h => absurd hen h⟩
      · refine ⟨true, ws, ?_, fun h => absurd h hen, fun h => absurd h hen,
          fun h => absurd h hen, fun _ => rfl⟩
        unfold WitnessSearch.shortcutIsNecessary
        rw [if_neg hen]
    -- the core graph after the candidate
    obtain ⟨hn, hpers, horigin, hhas⟩ := addShortcut_spec K s.fromVertex s.toVertex v s.weight
    obtain ⟨K1, hK1def, hK1wf, hK1l, hK1n, hK1p, hK1o, hK1iso⟩ :
        ∃ K1, K1 = (if b = true then addShortcut K s.fromVertex s.toVertex v s.weight
            else K) ∧
          K1.WellFormed ∧ K1.Light ∧ K1.numVertices = K.numVertices ∧ K.Persists K1 ∧
          (∀ e ∈ K1.edges, e ∈ K.edges ∨ (e.fromVertex = s.fromVertex ∧
            e.toVertex = s.toVertex ∧ e.weight = s.weight)) ∧
          (∀ x, K.Isolated x → K1.Isolated x) := by
      by_cases hb : b = true
      · refine ⟨_, rfl, ?_, ?_, ?_, ?_, ?_, ?_⟩
        · rw [if_pos hb]; exact addShortcut_wellFormed hK v hfrom hto hS
        · rw [if_pos hb]; exact addShortcut_light hKl s.fromVertex s.toVertex v hS3
        · rw [if_pos hb]; exact hn
        · rw [if_pos hb]; exact hpers
        · rw [if_pos hb]; exact horigin
        · rw [if_pos hb]; exact addShortcut_isolated v s.weight hlf hlt
      · refine ⟨_, rfl, ?_, ?_, ?_, ?_, ?_, ?_⟩
        · rw [if_neg hb]; exact hK
        · rw [if_neg hb]; exact hKl
        · rw [if_neg hb]
        · rw [if_neg hb]; exact DynamicGraph.Persists.refl_persists K
        · rw [if_neg hb]; exact fun e he => Or.inl he
        · rw [if_neg hb]; exact fun x hx => hx
    have hws1' : cfg.enabled = true → ws1.Consistent K1 :=
      fun hen => (hws1 hen).of_persists hK1n hK1p hK1iso
    have hcand1 : Candidates K1 v rest :=
      Candidates.persist_candidates (fun s' hs' => hcand s' (List.mem_cons_of_mem _ hs')) hK1p
    obtain ⟨K', ws', hrun, r1, r1l, r2, r3, r4, r5, r6, r7⟩ := ih K1 ws1 hK1wf hK1l hws1' hcand1
      (fun s' hs' => hsmall s' (List.mem_cons_of_mem _ hs'))
    refine ⟨K', ws', ?_, r1, r1l, r2.trans hK1n, r3, hK1p.trans_persists r4, ?_, ?_, ?_⟩
    · unfold testShortcuts
      rw [hcall]
      simp only []
      rw [← hK1def]
      exact hrun
    · intro e he
      rcases r5 e he with h | ⟨s', hs', h⟩
      · rcases hK1o e h with h2 | h2
        · exact Or.inl h2
        · exact Or.inr ⟨s, List.mem_cons_self _ _, h2⟩
      · exact Or.inr ⟨s', List.mem_cons_of_mem _ hs', h⟩
    · intro s' hs' hne hlt2
      rcases List.mem_cons.mp hs' with h | h
      · subst h
        by_cases hb : b = true
        · -- the shortcut was added
          obtain ⟨e, he, ea, eb, ec⟩ := hhas
          have he1 : e ∈ K1.edges := by rw [hK1def, if_pos hb]; exact he
          obtain ⟨e', he', ea', eb', ec'⟩ := r4 e he1
          have := Walk.single_edge (P := fun x => x ≠ v) he' (by rw [eb', eb]; exact hne)
          rw [ea', eb', ea, eb] at this
          exact ⟨_, this, by omega⟩
        · have hen : cfg.enabled = true := by
            by_contra hh; exact hb (hoff hh)
          have hbf : b = false := by
            cases b with
            | true => exact absurd rfl hb
            | false => rfl
          obtain ⟨w, hw, hle⟩ := hans hen (hlt2 hen) hbf
          obtain ⟨w', hw', hle'⟩ := (hK1p.trans_persists r4).walk hw
          exact ⟨w', hw', by omega⟩
      · exact r6 s' h hne hlt2
    · right
      intro hen
      rcases r7 with h | h
      · subst h
        unfold testShortcuts at hrun
        have := Option.some.inj hrun
        rw [← (Prod.mk.inj this).2]
        exact hvia1 hen
      · exact h hen

end Builder
end CH

namespace CH

namespace Builder

/-- The candidate shortcuts of a vertex are the pairs of an edge into it and an edge out of
it whose ends differ, with the sum of the two weights as `int` computes it. -/
theorem mem_shortcutsOf (K : DynamicGraph) (v : Nat) (s : Shortcut) :
    s ∈ shortcutsOf K v ↔ ∃ first ∈ K.edgesTo v, ∃ second ∈ K.edgesFrom v,
      first.fromVertex ≠ second.toVertex ∧
      s = ⟨first.fromVertex, second.toVertex, wrapInt32 (first.weight + second.weight)⟩ := by
  unfold shortcutsOf
  have inner : ∀ (first : CoreEdge) (l2 : List CoreEdge),
      s ∈ l2.foldr (fun second acc2 =>
          if first.fromVertex = second.toVertex then acc2
          else (⟨first.fromVertex, second.toVertex,
            wrapInt32 (first.weight + second.weight)⟩ : Shortcut) :: acc2) [] ↔
        ∃ second ∈ l2, first.fromVertex ≠ second.toVertex ∧
          s = ⟨first.fromVertex, second.toVertex,
            wrapInt32 (first.weight + second.weight)⟩ := by
    intro first l2
    induction l2 with
    | nil => simp
    | cons x xs ih =>
      rw [List.foldr_cons]
      by_cases hx : first.fromVertex = x.toVertex
      · rw [if_pos hx, ih]
        constructor
        · rintro ⟨second, h1, h2, h3⟩
          exact ⟨second, List.mem_cons_of_mem _ h1, h2, h3⟩
        · rintro ⟨second, h1, h2, h3⟩
          rcases List.mem_cons.mp h1 with h | h
          · subst h; exact absurd hx h2
          · exact ⟨second, h, h2, h3⟩
      · rw [if_neg hx, List.mem_cons, ih]
        constructor
        · rintro (h | ⟨second, h1, h2, h3⟩)
          · exact ⟨x, List.mem_cons_self _ _, hx, h⟩
          · exact ⟨second, List.mem_cons_of_mem _ h1, h2, h3⟩
        · rintro ⟨second, h1, h2, h3⟩
          rcases List.mem_cons.mp h1 with h | h
          · subst h; exact Or.inl h3
          · exact Or.inr ⟨second, h, h2, h3⟩
  generalize K.edgesTo v = l1
  induction l1 with
  | nil => simp
  | cons x xs ih =>
    rw [List.foldr_cons, List.mem_append, inner]
    constructor
    · rintro (⟨second, h1, h2, h3⟩ | h)
      · exact ⟨x, List.mem_cons_self _ _, second, h1, h2, h3⟩
      · obtain ⟨first, h0, second, h1, h2, h3⟩ := ih.mp h
        exact ⟨first, List.mem_cons_of_mem _ h0, second, h1, h2, h3⟩
    · rintro ⟨first, h0, second, h1, h2, h3⟩
      rcases List.mem_cons.mp h0 with h | h
      · subst h; exact Or.inl ⟨second, h1, h2, h3⟩
      · exact Or.inr (ih.mpr ⟨first, h, second, h1, h2, h3⟩)

theorem mem_edgesTo (K : DynamicGraph) (v : Nat) (e : CoreEdge) :
    e ∈ K.edgesTo v ↔ e ∈ K.edges ∧ e.toVertex = v := by
  unfold DynamicGraph.edgesTo
  rw [List.mem_filter]; simp

theorem mem_edgesFrom (K : DynamicGraph) (v : Nat) (e : CoreEdge) :
    e ∈ K.edgesFrom v ↔ e ∈ K.edges ∧ e.fromVertex = v := by
  unfold DynamicGraph.edgesFrom
  rw [List.mem_filter]; simp

theorem mem_isolateVertex (K : DynamicGraph) (v : Nat) (e : CoreEdge) :
    e ∈ (K.isolateVertex v).edges ↔ e ∈ K.edges ∧ e.fromVertex ≠ v ∧ e.toVertex ≠ v := by
  unfold DynamicGraph.isolateVertex
  simp only []
  rw [List.mem_filter]; simp

/-- When the weights are non-negative and those of the edges at `v` at most `intMax / 6`,
the weight of a candidate shortcut of `v` is the sum of the two weights. -/
theorem mem_shortcutsOf_fits {K : DynamicGraph} (hnn : ∀ e ∈ K.edges, 0 ≤ e.weight) {v : Nat}
    (hsix : ∀ e ∈ K.edges, e.toVertex = v ∨ e.fromVertex = v → e.weight ≤ intMax / 6)
    (s : Shortcut) :
    s ∈ shortcutsOf K v ↔ ∃ first ∈ K.edgesTo v, ∃ second ∈ K.edgesFrom v,
      first.fromVertex ≠ second.toVertex ∧
      s = ⟨first.fromVertex, second.toVertex, first.weight + second.weight⟩ := by
  have hwrap : ∀ first ∈ K.edgesTo v, ∀ second ∈ K.edgesFrom v,
      wrapInt32 (first.weight + second.weight) = first.weight + second.weight := by
    intro first h0 second h1
    rw [mem_edgesTo] at h0
    rw [mem_edgesFrom] at h1
    have a1 := hnn first h0.1
    have a2 := hnn second h1.1
    have a3 := hsix first h0.1 (Or.inl h0.2)
    have a4 := hsix second h1.1 (Or.inr h1.2)
    apply WitnessSearch.wrapInt32_of_fits
    · omega
    · unfold intMax at a3 a4 ⊢; omega
  rw [mem_shortcutsOf]
  constructor
  · rintro ⟨first, h0, second, h1, h2, h3⟩
    exact ⟨first, h0, second, h1, h2, by rw [h3, hwrap first h0 second h1]⟩
  · rintro ⟨first, h0, second, h1, h2, h3⟩
    exact ⟨first, h0, second, h1, h2, by rw [h3, hwrap first h0 second h1]⟩

/-- The ends of a candidate shortcut are vertices of the graph. -/
theorem shortcutsOf_inRange {K : DynamicGraph} (hK : K.InRange) (v : Nat) (s : Shortcut)
    (hs : s ∈ shortcutsOf K v) : s.fromVertex < K.numVertices ∧ s.toVertex < K.numVertices := by
  obtain ⟨first, h0, second, h1, _, h3⟩ := (mem_shortcutsOf K v s).mp hs
  rw [mem_edgesTo] at h0
  rw [mem_edgesFrom] at h1
  subst h3
  exact ⟨(hK first h0.1).1, (hK second h1.1).2⟩

/-- The candidate shortcuts of a graph with non-negative weights, of at most `intMax / 6`
at the vertex, are candidates with weights of at most `intMax / 3`. -/
theorem candidates_shortcutsOf {K : DynamicGraph} (hnn : ∀ e ∈ K.edges, 0 ≤ e.weight)
    (v : Nat)
    (hsix : ∀ e ∈ K.edges, e.toVertex = v ∨ e.fromVertex = v → e.weight ≤ intMax / 6)
    (L : List Shortcut) (hL : ∀ s, s ∈ L → s ∈ shortcutsOf K v) :
    Candidates K v L ∧ ∀ s ∈ L, s.weight ≤ intMax / 3 := by
  constructor
  · intro s hs
    obtain ⟨first, h0, second, h1, _, h3⟩ := (mem_shortcutsOf_fits hnn hsix s).mp (hL s hs)
    rw [mem_edgesTo] at h0
    rw [mem_edgesFrom] at h1
    subst h3
    have := hnn first h0.1
    have := hnn second h1.1
    exact ⟨by simp only []; omega, ⟨first, h0.1, rfl, h0.2⟩, ⟨second, h1.1, h1.2, rfl⟩⟩
  · intro s hs
    obtain ⟨first, h0, second, h1, _, h3⟩ := (mem_shortcutsOf_fits hnn hsix s).mp (hL s hs)
    rw [mem_edgesTo] at h0
    rw [mem_edgesFrom] at h1
    subst h3
    have a3 := hsix first h0.1 (Or.inl h0.2)
    have a4 := hsix second h1.1 (Or.inr h1.2)
    simp only []
    unfold intMax at a3 a4 ⊢
    omega

end Builder
end CH

namespace CH
namespace Builder

/-- A walk that starts outside `v` and does not enter `v` is a walk of the graph without
the edges of `v`. -/
theorem walk_isolateVertex {K : DynamicGraph} {v p y : Nat} {w : Int}
    (h : Walk K.edges (fun x => x ≠ v) p y w) (hp : p ≠ v) :
    y ≠ v ∧ Walk (K.isolateVertex v).edges (fun _ => True) p y w := by
  induction h with
  | nil => exact ⟨hp, Walk.nil _⟩
  | snoc e _ he hfrom hto ih =>
    refine ⟨hto, Walk.snoc e ih.2 ?_ hfrom trivial⟩
    rw [mem_isolateVertex]
    exact ⟨he, by rw [hfrom]; exact ih.1, hto⟩

/-- After the loop over the candidate shortcuts of `v`, every edge into `v` and every edge
out of `v` whose other ends differ can be replaced by a walk that avoids `v`, when the
weights of the edges at `v` were at most `intMax / 6`. -/
theorem pairs_covered (cfg : WitnessConfig) {K Km : DynamicGraph}
    (hnn : ∀ e ∈ K.edges, 0 ≤ e.weight)
    {v : Nat} {L : List Shortcut} (hL : ∀ s, s ∈ shortcutsOf K v → s ∈ L)
    (hLsub : ∀ s, s ∈ L → s ∈ shortcutsOf K v)
    (hsix : ∀ e ∈ K.edges, e.toVertex = v ∨ e.fromVertex = v → e.weight ≤ intMax / 6)
    (horigin : ∀ e ∈ Km.edges, e ∈ K.edges ∨ ∃ s ∈ L, e.fromVertex = s.fromVertex ∧
      e.toVertex = s.toVertex ∧ e.weight = s.weight)
    (hcover : ∀ s ∈ L, s.toVertex ≠ v → (cfg.enabled = true → s.weight < intMax) →
      ∃ w, Walk Km.edges (fun x => x ≠ v) s.fromVertex s.toVertex w ∧ w ≤ s.weight)
    (ein eout : CoreEdge) (hin : ein ∈ Km.edges) (hout : eout ∈ Km.edges)
    (hinv : ein.toVertex = v) (houtv : eout.fromVertex = v) (hinp : ein.fromVertex ≠ v)
    (houtp : eout.toVertex ≠ v) (hne : ein.fromVertex ≠ eout.toVertex) :
    ∃ w, Walk (Km.isolateVertex v).edges (fun _ => True) ein.fromVertex eout.toVertex w ∧
      w ≤ ein.weight + eout.weight := by
  have hy : eout.toVertex ≠ v := houtp
  -- below every edge of `Km` at `v` there is an edge of `K` between the same vertices
  obtain ⟨f1, hf1, a1, b1, c1⟩ : ∃ f ∈ K.edges, f.fromVertex = ein.fromVertex ∧
      f.toVertex = v ∧ f.weight ≤ ein.weight := by
    rcases horigin ein hin with h | ⟨s, hs, a, b, c⟩
    · exact ⟨ein, h, rfl, hinv, le_refl _⟩
    · obtain ⟨first, h0, second, h1, _, h3⟩ :=
        (mem_shortcutsOf_fits hnn hsix s).mp (hLsub s hs)
      rw [mem_edgesTo] at h0
      rw [mem_edgesFrom] at h1
      subst h3
      simp only [] at a b c
      have n2 := hnn second h1.1
      exact ⟨first, h0.1, a.symm, h0.2, by omega⟩
  obtain ⟨f2, hf2, a2, b2, c2⟩ : ∃ f ∈ K.edges, f.fromVertex = v ∧
      f.toVertex = eout.toVertex ∧ f.weight ≤ eout.weight := by
    rcases horigin eout hout with h | ⟨s, hs, a, b, c⟩
    · exact ⟨eout, h, houtv, rfl, le_refl _⟩
    · obtain ⟨first, h0, second, h1, _, h3⟩ :=
        (mem_shortcutsOf_fits hnn hsix s).mp (hLsub s hs)
      rw [mem_edgesTo] at h0
      rw [mem_edgesFrom] at h1
      subst h3
      simp only [] at a b c
      have n1 := hnn first h0.1
      exact ⟨second, h1.1, h1.2, b.symm, by omega⟩
  have hmem : (⟨f1.fromVertex, f2.toVertex, f1.weight + f2.weight⟩ : Shortcut) ∈ L :=
    hL _ ((mem_shortcutsOf_fits hnn hsix _).mpr ⟨f1, (mem_edgesTo K v f1).mpr ⟨hf1, b1⟩, f2,
      (mem_edgesFrom K v f2).mpr ⟨hf2, a2⟩, by rw [a1, b2]; exact hne, rfl⟩)
  obtain ⟨w, hw, hle⟩ := hcover _ hmem (by simp only []; rw [b2]; exact hy) (by
    intro _
    have h1 := hsix f1 hf1 (Or.inl b1)
    have h2 := hsix f2 hf2 (Or.inr a2)
    simp only []
    unfold intMax at h1 h2 ⊢
    omega)
  simp only [] at hw hle
  rw [a1, b2] at hw
  exact ⟨w, (walk_isolateVertex hw hinp).2, by omega⟩

/-- The walks of the core graph from a vertex other than the contracted vertex `v`: a walk
that ends outside `v` has a walk without the edges of `v` that is not longer, and a walk
that ends at `v` has one to the start of an edge into `v`. -/
theorem walk_contract_from {Km : DynamicGraph} (hnn : ∀ e ∈ Km.edges, 0 ≤ e.weight)
    {v : Nat}
    (hpair : ∀ ein ∈ Km.edges, ∀ eout ∈ Km.edges, ein.toVertex = v → eout.fromVertex = v →
      ein.fromVertex ≠ v → eout.toVertex ≠ v → ein.fromVertex ≠ eout.toVertex →
      ∃ w, Walk (Km.isolateVertex v).edges (fun _ => True) ein.fromVertex eout.toVertex w ∧
        w ≤ ein.weight + eout.weight)
    {a y : Nat} {w : Int} (h : Walk Km.edges (fun _ => True) a y w) (ha : a ≠ v) :
    (y ≠ v → ∃ w', Walk (Km.isolateVertex v).edges (fun _ => True) a y w' ∧ w' ≤ w) ∧
    (y = v → ∃ ein ∈ Km.edges, ein.toVertex = v ∧ ein.fromVertex ≠ v ∧
      ∃ u, Walk (Km.isolateVertex v).edges (fun _ => True) a ein.fromVertex u ∧
        u + ein.weight ≤ w) := by
  induction h with
  | nil => exact ⟨fun _ => ⟨0, Walk.nil _, le_refl _⟩, fun h => absurd h ha⟩
  | snoc e _ he hfrom hto ih =>
    rename_i x w0 _
    have hew := hnn e he
    by_cases hx : x = v
    · obtain ⟨ein, hin, i1, i2, u, hu, hle⟩ := ih.2 hx
      constructor
      · intro hy
        by_cases hsame : ein.fromVertex = e.toVertex
        · rw [hsame] at hu
          have := hnn ein hin
          exact ⟨u, hu, by omega⟩
        · obtain ⟨w2, hw2, hle2⟩ := hpair ein hin e he i1 (hfrom.trans hx) i2 hy hsame
          exact ⟨u + w2, hu.append_walk hw2, by omega⟩
      · intro _
        exact ⟨ein, hin, i1, i2, u, hu, by omega⟩
    · obtain ⟨w1, hw1, hle1⟩ := ih.1 hx
      constructor
      · intro hy
        refine ⟨w1 + e.weight, Walk.snoc e hw1 ?_ hfrom trivial, by omega⟩
        rw [mem_isolateVertex]
        exact ⟨he, by rw [hfrom]; exact hx, hy⟩
      · intro hy
        exact ⟨e, he, hy, by rw [hfrom]; exact hx, w1, by rw [hfrom]; exact hw1, by omega⟩

/-- The walks of the core graph from the contracted vertex `v` to another vertex: they
have a walk that is not longer and consists of an edge out of `v` and a walk without the
edges of `v`. -/
theorem walk_contract_at {Km : DynamicGraph} (hnn : ∀ e ∈ Km.edges, 0 ≤ e.weight)
    {v y : Nat} {w : Int} (h : Walk Km.edges (fun _ => True) v y w) :
    y ≠ v → ∃ eout ∈ Km.edges, eout.fromVertex = v ∧ eout.toVertex ≠ v ∧
      ∃ u, Walk (Km.isolateVertex v).edges (fun _ => True) eout.toVertex y u ∧
        eout.weight + u ≤ w := by
  induction h with
  | nil => intro h; exact absurd rfl h
  | snoc e h0 he hfrom hto ih =>
    rename_i x w0
    intro hy
    have hew := hnn e he
    have hw0 := h0.weight_nonneg hnn
    by_cases hx : x = v
    · exact ⟨e, he, hfrom.trans hx, hy, 0, Walk.nil _, by omega⟩
    · obtain ⟨eout, hout, o1, o2, u, hu, hle⟩ := ih hx
      refine ⟨eout, hout, o1, o2, u + e.weight, Walk.snoc e hu ?_ hfrom trivial, by omega⟩
      rw [mem_isolateVertex]
      exact ⟨he, by rw [hfrom]; exact hx, hy⟩

/-- When no two edges into and out of `v` have different other ends, the walks between
other vertices do not need `v`. -/
theorem walk_without_leaf {K : DynamicGraph} (hnn : ∀ e ∈ K.edges, 0 ≤ e.weight) {v : Nat}
    (hleaf : ∀ ein ∈ K.edges, ∀ eout ∈ K.edges, ein.toVertex = v → eout.fromVertex = v →
      ein.fromVertex = eout.toVertex)
    {P : Nat → Prop} {a y : Nat} {w : Int} (h : Walk K.edges P a y w) (ha : a ≠ v) :
    (y ≠ v → ∃ w', Walk (K.isolateVertex v).edges P a y w' ∧ w' ≤ w) ∧
    (y = v → ∃ ein ∈ K.edges, ein.toVertex = v ∧ ein.fromVertex ≠ v ∧
      ∃ u, Walk (K.isolateVertex v).edges P a ein.fromVertex u ∧ u ≤ w) := by
  induction h with
  | nil => exact ⟨fun _ => ⟨0, Walk.nil _, le_refl _⟩, fun h => absurd h ha⟩
  | snoc e _ he hfrom hto ih =>
    rename_i x w0 _
    have hew := hnn e he
    by_cases hx : x = v
    · obtain ⟨ein, hin, i1, i2, u, hu, hle⟩ := ih.2 hx
      have hsame := hleaf ein hin e he i1 (hfrom.trans hx)
      constructor
      · intro _
        rw [hsame] at hu
        exact ⟨u, hu, by omega⟩
      · intro _
        exact ⟨ein, hin, i1, i2, u, hu, by omega⟩
    · obtain ⟨w1, hw1, hle1⟩ := ih.1 hx
      constructor
      · intro hy
        refine ⟨w1 + e.weight, Walk.snoc e hw1 ?_ hfrom hto, by omega⟩
        rw [mem_isolateVertex]
        exact ⟨he, by rw [hfrom]; exact hx, hy⟩
      · intro hy
        exact ⟨e, he, hy, by rw [hfrom]; exact hx, w1, by rw [hfrom]; exact hw1, by omega⟩

end Builder
end CH

namespace CH
namespace Builder

variable {σ : Type}

/-- The invariant looks only at the core graph, the overlays and the witness search. -/
theorem Inv.of_same {cfg : BuilderConfig} {g : DynamicGraph} {b b' : Builder σ}
    (h : Inv cfg g b) (hc : b'.data.core = b.data.core)
    (hF : b'.data.forwardCH = b.data.forwardCH) (hB : b'.data.backwardCH = b.data.backwardCH)
    (hs : cfg.witness.enabled = true → b'.witnessSearch.Sized b.data.core.numVertices)
    (hws : Regime g b.data → cfg.witness.enabled = true →
      b'.witnessSearch.Consistent b.data.core) :
    Inv cfg g b' := by
  refine ⟨by rw [hc]; exact h.bound, by rw [hc]; exact h.range, by rw [hc]; exact h.size,
    by rw [hc]; exact hs, ?_⟩
  intro hreg
  have hreg0 : Regime g b.data := by
    refine ⟨hreg.1, hreg.2.1, ?_⟩
    have := hreg.2.2
    unfold Data.Bounded at this ⊢
    rw [hF, hB] at this
    exact this
  have E := h.exact hreg0
  exact ⟨by rw [hc]; exact E.nonneg, by rw [hc]; exact E.loops, by rw [hc]; exact E.light,
    by rw [hc]; exact hws hreg0, by rw [hc]; exact E.coreSound,
    by rw [hF]; exact E.forwardSound, by rw [hB]; exact E.backwardSound,
    by rw [hc, hF, hB]; exact E.complete⟩

/-- One call of `reKey` with a lawful key function. -/
theorem reKey_inv {cfg : BuilderConfig} {kf : KeyFunction σ} (hkey : kf.Lawful cfg.witness)
    {g : DynamicGraph} {b : Builder σ} (h : Inv cfg g b) (v : Nat) :
    ∃ b', reKey kf b v = some b' ∧ Inv cfg g b' ∧ b'.data = b.data ∧
      b'.keyState = b.keyState ∧ b'.Q = heapUpdate b.Q v := by
  obtain ⟨k, ws', hk, hws'⟩ := hkey.1 b.keyState b.data b.witnessSearch v h.range h.sized
  unfold reKey
  rw [hk]
  refine ⟨_, rfl, h.of_same rfl rfl rfl hws' ?_, rfl, rfl, rfl⟩
  intro hreg hen
  have E := h.exact hreg
  exact hkey.2 b.keyState b.data b.witnessSearch v k ws' ⟨h.bound, h.range, E.nonneg⟩
    E.light E.search hk hen

theorem heapUpdate_of_mem {Q : List Nat} {x : Nat} (h : x ∈ Q) : heapUpdate Q x = Q := by
  unfold heapUpdate; rw [if_pos h]

theorem mem_heapUpdate_of_mem {Q : List Nat} (x : Nat) {y : Nat} (h : y ∈ Q) :
    y ∈ heapUpdate Q x := by
  unfold heapUpdate
  split
  · exact h
  · exact List.mem_append_left _ h

theorem self_mem_heapUpdate (Q : List Nat) (x : Nat) : x ∈ heapUpdate Q x := by
  unfold heapUpdate
  split
  · assumption
  · exact List.mem_append_right _ (List.mem_singleton.mpr rfl)

theorem length_heapUpdate_le (Q : List Nat) (x : Nat) :
    (heapUpdate Q x).length ≤ Q.length + 1 := by
  unfold heapUpdate
  split
  · omega
  · simp

/-- The loop over the neighbours in `contract`. -/
theorem updateNeighbors_inv {cfg : BuilderConfig} {kf : KeyFunction σ}
    (hkey : kf.Lawful cfg.witness) {g : DynamicGraph} (level : Nat) :
    ∀ (l : List Nat) (b : Builder σ), Inv cfg g b →
      ∃ b', updateNeighbors kf level l b = some b' ∧ Inv cfg g b' ∧
        b'.data.core = b.data.core ∧ b'.data.forwardCH = b.data.forwardCH ∧
        b'.data.backwardCH = b.data.backwardCH ∧ b'.keyState = b.keyState ∧
        (∀ x ∈ b.Q, x ∈ b'.Q) ∧ ((∀ x ∈ l, x ∈ b.Q) → b'.Q = b.Q) := by
  intro l
  induction l with
  | nil => intro b h; exact ⟨b, rfl, h, rfl, rfl, rfl, rfl, fun x hx => hx, fun _ => rfl⟩
  | cons n rest ih =>
    intro b h
    let b0 : Builder σ :=
      { b with data := { b.data with
          level := b.data.level.updateAt n (fun l => max l level) } }
    have h0 : Inv cfg g b0 :=
      h.of_same rfl rfl rfl h.sized (fun hreg => (h.exact hreg).search)
    obtain ⟨b1, hre, h1, hd1, hk1, hq1⟩ := reKey_inv hkey h0 n
    obtain ⟨b2, hrun, h2, c2, f2, k2, s2, q2, q2'⟩ := ih b1 h1
    refine ⟨b2, ?_, h2, ?_, ?_, ?_, ?_, ?_, ?_⟩
    · unfold updateNeighbors
      simp only []
      have : reKey kf b0 n = some b1 := hre
      rw [this]
      exact hrun
    · rw [c2, hd1]
    · rw [f2, hd1]
    · rw [k2, hd1]
    · rw [s2, hk1]
    · intro x hx
      apply q2
      rw [hq1]
      exact mem_heapUpdate_of_mem n hx
    · intro hall
      have hb1 : b1.Q = b.Q := by
        rw [hq1]
        exact heapUpdate_of_mem (hall n (List.mem_cons_self _ _))
      rw [q2' (fun x hx => by rw [hb1]; exact hall x (List.mem_cons_of_mem _ hx)), hb1]

/-- The calls of `reKey` made by `update` of the key function. -/
theorem reKeyAll_inv {cfg : BuilderConfig} {kf : KeyFunction σ}
    (hkey : kf.Lawful cfg.witness) {g : DynamicGraph} :
    ∀ (l : List Nat) (b : Builder σ), Inv cfg g b →
      ∃ b', reKeyAll kf l b = some b' ∧ Inv cfg g b' ∧ b'.data = b.data ∧
        (∀ x ∈ b.Q, x ∈ b'.Q) ∧ (l = [] → b' = b) := by
  intro l
  induction l with
  | nil => intro b h; exact ⟨b, rfl, h, rfl, fun x hx => hx, fun _ => rfl⟩
  | cons n rest ih =>
    intro b h
    obtain ⟨b1, hre, h1, hd1, _, hq1⟩ := reKey_inv hkey h n
    obtain ⟨b2, hrun, h2, d2, q2, _⟩ := ih b1 h1
    refine ⟨b2, ?_, h2, d2.trans hd1, ?_, fun hh => absurd hh (List.cons_ne_nil _ _)⟩
    · unfold reKeyAll
      rw [hre]
      exact hrun
    · intro x hx
      apply q2
      rw [hq1]
      exact mem_heapUpdate_of_mem n hx

/-- The loop of `buildQ`: afterwards every vertex of the list is on the queue. -/
theorem buildQ_inv {cfg : BuilderConfig} {kf : KeyFunction σ}
    (hkey : kf.Lawful cfg.witness) {g : DynamicGraph} :
    ∀ (l : List Nat) (b : Builder σ), Inv cfg g b →
      ∃ b', buildQ kf l b = some b' ∧ Inv cfg g b' ∧
        b'.data.core = b.data.core ∧ b'.data.forwardCH = b.data.forwardCH ∧
        b'.data.backwardCH = b.data.backwardCH ∧
        (∀ x ∈ b.Q, x ∈ b'.Q) ∧ (∀ x ∈ l, x ∈ b'.Q) ∧
        b'.Q.length ≤ b.Q.length + l.length := by
  intro l
  induction l with
  | nil =>
    intro b h
    exact ⟨b, rfl, h, rfl, rfl, rfl, fun x hx => hx,
      fun x hx => absurd hx (List.not_mem_nil x), by simp⟩
  | cons n rest ih =>
    intro b h
    let b0 : Builder σ :=
      { b with data := { b.data with level := b.data.level.updateAt n (fun _ => 0) } }
    have h0 : Inv cfg g b0 :=
      h.of_same rfl rfl rfl h.sized (fun hreg => (h.exact hreg).search)
    obtain ⟨b1, hre, h1, hd1, _, hq1⟩ := reKey_inv hkey h0 n
    obtain ⟨b2, hrun, h2, c2, f2, k2, q2, q2', hlen⟩ := ih b1 h1
    have hb1 : ∀ x ∈ b.Q, x ∈ b1.Q := by
      intro x hx; rw [hq1]; exact mem_heapUpdate_of_mem n hx
    refine ⟨b2, ?_, h2, ?_, ?_, ?_, fun x hx => q2 x (hb1 x hx), ?_, ?_⟩
    · unfold buildQ
      simp only []
      have : reKey kf b0 n = some b1 := hre
      rw [this]
      exact hrun
    · rw [c2, hd1]
    · rw [f2, hd1]
    · rw [k2, hd1]
    · intro x hx
      rcases List.mem_cons.mp hx with hh | hh
      · subst hh
        apply q2
        rw [hq1]
        exact self_mem_heapUpdate _ _
      · exact q2' x hh
    · have : b1.Q.length ≤ b.Q.length + 1 := by
        rw [hq1]; exact length_heapUpdate_le _ _
      simp only [List.length_cons]
      omega

theorem queueFront_mem (bt : Bool) (key : Nat → Int) :
    ∀ (Q : List Nat) (v : Nat), queueFront bt key Q = some v → v ∈ Q := by
  intro Q
  induction Q with
  | nil => intro v h; exact Option.noConfusion h
  | cons x xs ih =>
    intro v h
    unfold queueFront at h
    cases hq : queueFront bt key xs with
    | none =>
      rw [hq] at h
      simp only [] at h
      rw [← Option.some.inj h]; exact List.mem_cons_self _ _
    | some y =>
      rw [hq] at h
      simp only [] at h
      split at h
      · rw [← Option.some.inj h]; exact List.mem_cons_of_mem _ (ih y hq)
      · rw [← Option.some.inj h]; exact List.mem_cons_self _ _

theorem queueFront_eq_none (bt : Bool) (key : Nat → Int) (Q : List Nat)
    (h : queueFront bt key Q = none) : Q = [] := by
  cases Q with
  | nil => rfl
  | cons x xs =>
    unfold queueFront at h
    cases hq : queueFront bt key xs with
    | none => rw [hq] at h; exact Option.noConfusion h
    | some y =>
      rw [hq] at h
      simp only [] at h
      split at h <;> exact Option.noConfusion h

theorem mem_setInsert (x y : Nat) : ∀ (l : List Nat), y ∈ setInsert x l → y = x ∨ y ∈ l := by
  intro l
  induction l with
  | nil => intro h; unfold setInsert at h; exact Or.inl (List.mem_singleton.mp h)
  | cons z zs ih =>
    intro h
    unfold setInsert at h
    split at h
    · rcases List.mem_cons.mp h with hh | hh
      · exact Or.inl hh
      · exact Or.inr hh
    · split at h
      · exact Or.inr h
      · rcases List.mem_cons.mp h with hh | hh
        · exact Or.inr (hh ▸ List.mem_cons_self _ _)
        · rcases ih hh with h2 | h2
          · exact Or.inl h2
          · exact Or.inr (List.mem_cons_of_mem _ h2)

/-- A neighbour of `v` is the other end of an edge at `v`, and is not `v`. -/
theorem mem_neighborsOf (K : DynamicGraph) (v x : Nat) (h : x ∈ neighborsOf K v) :
    x ≠ v ∧ ∃ e ∈ K.edges, (e.fromVertex = x ∨ e.toVertex = x) := by
  unfold neighborsOf at h
  simp only [] at h
  have key : ∀ (l acc : List Nat), x ∈ l.foldl (fun acc x => setInsert x acc) acc →
      x ∈ l ∨ x ∈ acc := by
    intro l
    induction l with
    | nil => intro acc h; exact Or.inr h
    | cons y ys ih =>
      intro acc h
      rw [List.foldl_cons] at h
      rcases ih _ h with h1 | h1
      · exact Or.inl (List.mem_cons_of_mem _ h1)
      · rcases mem_setInsert y x acc h1 with h2 | h2
        · exact Or.inl (h2 ▸ List.mem_cons_self _ _)
        · exact Or.inr h2
  rcases key _ _ h with h1 | h1
  · rcases List.mem_append.mp h1 with h2 | h2
    · obtain ⟨e, he, hx⟩ := List.mem_map.mp h2
      obtain ⟨he1, he2⟩ := List.mem_filter.mp he
      rw [mem_edgesFrom] at he1
      have hne : v ≠ e.toVertex := of_decide_eq_true he2
      exact ⟨by rw [← hx]; exact fun hh => hne hh.symm, e, he1.1, Or.inr hx⟩
    · obtain ⟨e, he, hx⟩ := List.mem_map.mp h2
      obtain ⟨he1, he2⟩ := List.mem_filter.mp he
      rw [mem_edgesTo] at he1
      have hne : v ≠ e.fromVertex := of_decide_eq_true he2
      exact ⟨by rw [← hx]; exact fun hh => hne hh.symm, e, he1.1, Or.inl hx⟩
  · exact absurd h1 (List.not_mem_nil x)

end Builder
end CH

namespace CH
namespace Builder

variable {σ : Type}

theorem isolateVertex_wellFormed {K : DynamicGraph} (hK : K.WellFormed) (v : Nat) :
    (K.isolateVertex v).WellFormed :=
  ⟨hK.size, fun e he => hK.range e ((mem_isolateVertex K v e).mp he).1,
    fun e he => hK.nonneg e ((mem_isolateVertex K v e).mp he).1⟩

theorem isolateVertex_inRange {K : DynamicGraph} (hK : K.InRange) (v : Nat) :
    (K.isolateVertex v).InRange :=
  fun e he => hK e ((mem_isolateVertex K v e).mp he).1

theorem isolated_isolateVertex (K : DynamicGraph) (v : Nat) :
    (K.isolateVertex v).Isolated v := by
  intro e he
  rw [mem_isolateVertex] at he
  exact ⟨he.2.1, he.2.2⟩

theorem Isolated.isolateVertex_isolated {K : DynamicGraph} {x : Nat} (h : K.Isolated x)
    (v : Nat) : (K.isolateVertex v).Isolated x :=
  fun e he => h e ((mem_isolateVertex K v e).mp he).1

/-- A consistent witness search stays consistent when the edges of `v` are removed,
provided it avoided `v` or `v` joins no two different vertices. -/
theorem consistent_isolateVertex {K : DynamicGraph} (hK : K.WellFormed)
    {ws : WitnessSearch} (h : ws.Consistent K) {v : Nat}
    (hcase : ws.currentVia = v ∨ (∀ ein ∈ K.edges, ∀ eout ∈ K.edges, ein.toVertex = v →
      eout.fromVertex = v → ein.fromVertex = eout.toVertex)) :
    ws.Consistent (K.isolateVertex v) := by
  obtain ⟨hord, hs⟩ := h
  refine ⟨hord, ?_⟩
  rcases hs with hd | hs
  · left
    rcases hd with hd | hd
    · exact Or.inl (Isolated.isolateVertex_isolated hd v)
    · exact Or.inr (Isolated.isolateVertex_isolated hd v)
  · rcases hcase with hv | hleaf
    · left; right; rw [hv]; exact isolated_isolateVertex K v
    · by_cases hf : ws.currentFrom = v
      · left; left; rw [hf]; exact isolated_isolateVertex K v
      · right
        intro x hx hlive
        have hxv : x ≠ v := fun hh => hlive (hh ▸ isolated_isolateVertex K v)
        have hliveK : ¬ K.Isolated x :=
          fun hh => hlive (Isolated.isolateVertex_isolated hh v)
        obtain ⟨w, hw, hle⟩ := hs x hx hliveK
        obtain ⟨w', hw', hle'⟩ := (walk_without_leaf hK.nonneg hleaf hw hf).1 hxv
        exact ⟨w', hw', by omega⟩

theorem mem_forwardEdges (K : DynamicGraph) (v : Nat) (e : CoreEdge) :
    e ∈ forwardEdges K v ↔ ∃ e' ∈ K.edges, e'.fromVertex = v ∧ e'.toVertex ≠ v ∧
      e = ⟨v, e'.toVertex, e'.viaVertex, e'.weight⟩ := by
  unfold forwardEdges
  rw [List.mem_map]
  constructor
  · rintro ⟨e', he', rfl⟩
    obtain ⟨h1, h2⟩ := List.mem_filter.mp he'
    rw [mem_edgesFrom] at h1
    have hne : v ≠ e'.toVertex := of_decide_eq_true h2
    exact ⟨e', h1.1, h1.2, fun hh => hne hh.symm, rfl⟩
  · rintro ⟨e', he', h1, h2, rfl⟩
    refine ⟨e', List.mem_filter.mpr ⟨(mem_edgesFrom K v e').mpr ⟨he', h1⟩, ?_⟩, rfl⟩
    exact decide_eq_true (fun hh => h2 hh.symm)

theorem mem_backwardEdges (K : DynamicGraph) (v : Nat) (e : CoreEdge) :
    e ∈ backwardEdges K v ↔ ∃ e' ∈ K.edges, e'.toVertex = v ∧ e'.fromVertex ≠ v ∧
      e = ⟨v, e'.fromVertex, e'.viaVertex, e'.weight⟩ := by
  unfold backwardEdges
  rw [List.mem_map]
  constructor
  · rintro ⟨e', he', rfl⟩
    obtain ⟨h1, h2⟩ := List.mem_filter.mp he'
    rw [mem_edgesTo] at h1
    have hne : v ≠ e'.fromVertex := of_decide_eq_true h2
    exact ⟨e', h1.1, h1.2, fun hh => hne hh.symm, rfl⟩
  · rintro ⟨e', he', h1, h2, rfl⟩
    refine ⟨e', List.mem_filter.mpr ⟨(mem_edgesTo K v e').mpr ⟨he', h1⟩, ?_⟩, rfl⟩
    exact decide_eq_true (fun hh => h2 hh.symm)

end Builder
end CH

namespace CH
namespace Builder

variable {σ : Type}

/-- The step of `contract(v)` on the data while no sum of weights leaves the range of
`int`: after the loop over the candidate shortcuts has turned the core graph into `Km`,
moving the edges of `v` to the overlays keeps the facts of `Exact`. -/
theorem Exact.contract_step {cfg : BuilderConfig} {g : DynamicGraph} {b0 b1 : Builder σ}
    (h : Exact cfg g b0) (v : Nat) {Km : DynamicGraph} (L : List Shortcut)
    (hL : ∀ s, s ∈ L ↔ s ∈ shortcutsOf b0.data.core v)
    (hsix : ∀ e ∈ b0.data.core.edges, e.toVertex = v ∨ e.fromVertex = v →
      e.weight ≤ intMax / 6)
    (hKm : Km.WellFormed) (hKml : Km.Light)
    (hcons : cfg.witness.enabled = true → b1.witnessSearch.Consistent Km)
    (hpers : b0.data.core.Persists Km)
    (horigin : ∀ e ∈ Km.edges, e ∈ b0.data.core.edges ∨ ∃ s ∈ L,
      e.fromVertex = s.fromVertex ∧ e.toVertex = s.toVertex ∧ e.weight = s.weight)
    (hcover : ∀ s ∈ L, s.toVertex ≠ v → (cfg.witness.enabled = true → s.weight < intMax) →
      ∃ w, Walk Km.edges (fun x => x ≠ v) s.fromVertex s.toVertex w ∧ w ≤ s.weight)
    (hvia : L = [] ∨ (cfg.witness.enabled = true → b1.witnessSearch.currentVia = v))
    (hcore : b1.data.core = Km.isolateVertex v)
    (hF : b1.data.forwardCH.edges = b0.data.forwardCH.edges ++ forwardEdges Km v)
    (hB : b1.data.backwardCH.edges = b0.data.backwardCH.edges ++ backwardEdges Km v) :
    Exact cfg g b1 := by
  have hfits := fun s => mem_shortcutsOf_fits h.nonneg hsix s
  -- every edge of `Km` stands for a walk of `g`
  have hKmSound : ∀ e ∈ Km.edges,
      ∃ w, Walk g.edges (fun _ => True) e.fromVertex e.toVertex w ∧ w ≤ e.weight := by
    intro e he
    rcases horigin e he with h1 | ⟨s, hs, a, b, c⟩
    · exact h.coreSound e h1
    · obtain ⟨first, h0, second, h1, _, h3⟩ := (hfits s).mp ((hL s).mp hs)
      rw [mem_edgesTo] at h0
      rw [mem_edgesFrom] at h1
      subst h3
      simp only [] at a b c
      obtain ⟨w1, hw1, hle1⟩ := h.coreSound first h0.1
      obtain ⟨w2, hw2, hle2⟩ := h.coreSound second h1.1
      rw [h0.2] at hw1
      rw [h1.2] at hw2
      rw [a, b, c]
      exact ⟨w1 + w2, hw1.append_walk hw2, by omega⟩
  have hKmLoops : ∀ e ∈ Km.edges, e.fromVertex ≠ e.toVertex := by
    intro e he
    rcases horigin e he with h1 | ⟨s, hs, a, b, _⟩
    · exact h.loops e h1
    · obtain ⟨first, _, second, _, h2, h3⟩ := (hfits s).mp ((hL s).mp hs)
      subst h3
      simp only [] at a b
      rw [a, b]; exact h2
  refine ⟨?_, ?_, ?_, ?_, ?_, ?_, ?_, ?_⟩
  · intro e he
    rw [hcore, mem_isolateVertex] at he
    exact hKm.nonneg e he.1
  · intro e he
    rw [hcore, mem_isolateVertex] at he
    exact hKmLoops e he.1
  · intro e he
    rw [hcore, mem_isolateVertex] at he
    exact hKml e he.1
  · intro hen
    rw [hcore]
    refine consistent_isolateVertex hKm (hcons hen) ?_
    rcases hvia with hnil | hv
    · right
      intro ein hin eout hout hi ho
      by_contra hne
      have h1 : ein ∈ b0.data.core.edges := by
        rcases horigin ein hin with h1 | ⟨s, hs, _⟩
        · exact h1
        · rw [hnil] at hs; exact absurd hs (List.not_mem_nil s)
      have h2 : eout ∈ b0.data.core.edges := by
        rcases horigin eout hout with h1 | ⟨s, hs, _⟩
        · exact h1
        · rw [hnil] at hs; exact absurd hs (List.not_mem_nil s)
      have : (⟨ein.fromVertex, eout.toVertex, ein.weight + eout.weight⟩ : Shortcut) ∈ L :=
        (hL _).mpr ((hfits _).mpr ⟨ein, (mem_edgesTo _ v ein).mpr ⟨h1, hi⟩,
          eout, (mem_edgesFrom _ v eout).mpr ⟨h2, ho⟩, hne, rfl⟩)
      rw [hnil] at this
      exact absurd this (List.not_mem_nil _)
    · exact Or.inl (hv hen)
  · intro e he
    rw [hcore, mem_isolateVertex] at he
    exact hKmSound e he.1
  · intro e he
    rw [hF] at he
    rcases List.mem_append.mp he with h1 | h1
    · exact h.forwardSound e h1
    · obtain ⟨e', he', a, _, rfl⟩ := (mem_forwardEdges Km v e).mp h1
      obtain ⟨w, hw, hle⟩ := hKmSound e' he'
      rw [a] at hw
      exact ⟨w, hw, hle⟩
  · intro e he
    rw [hB] at he
    rcases List.mem_append.mp he with h1 | h1
    · exact h.backwardSound e h1
    · obtain ⟨e', he', a, _, rfl⟩ := (mem_backwardEdges Km v e).mp h1
      obtain ⟨w, hw, hle⟩ := hKmSound e' he'
      rw [a] at hw
      exact ⟨w, hw, hle⟩
  · intro s t w hw
    obtain ⟨a, c, w1, w2, w3, hw1, hw2, hw3, hsum⟩ := h.complete s t w hw
    obtain ⟨w2', hw2', hle2⟩ := hpers.walk hw2
    have hw1' : Walk b1.data.forwardCH.edges (fun _ => True) s a w1 :=
      hw1.mono_walk (fun e he => by rw [hF]; exact List.mem_append_left _ he) (fun _ hx => hx)
    have hw3' : Walk b1.data.backwardCH.edges (fun _ => True) t c w3 :=
      hw3.mono_walk (fun e he => by rw [hB]; exact List.mem_append_left _ he) (fun _ hx => hx)
    have hpair := pairs_covered cfg.witness h.nonneg (fun s hs => (hL s).mpr hs)
      (fun s hs => (hL s).mp hs) hsix horigin hcover
    have hpair' : ∀ ein ∈ Km.edges, ∀ eout ∈ Km.edges, ein.toVertex = v →
        eout.fromVertex = v → ein.fromVertex ≠ v → eout.toVertex ≠ v →
        ein.fromVertex ≠ eout.toVertex →
        ∃ w, Walk (Km.isolateVertex v).edges (fun _ => True) ein.fromVertex eout.toVertex w ∧
          w ≤ ein.weight + eout.weight :=
      fun ein hin eout hout p1 p2 p3 p4 p5 => hpair ein eout hin hout p1 p2 p3 p4 p5
    rw [hcore]
    by_cases ha : a = v
    · by_cases hc : c = v
      · have := hw2'.weight_nonneg hKm.nonneg
        exact ⟨a, a, w1, 0, w3, hw1', Walk.nil _, by rw [ha, ← hc]; exact hw3', by omega⟩
      · rw [ha] at hw2'
        obtain ⟨eout, hout, o1, o2, u, hu, hle⟩ := walk_contract_at hKm.nonneg hw2' hc
        have hstep : Walk b1.data.forwardCH.edges (fun _ => True) s eout.toVertex
            (w1 + eout.weight) :=
          Walk.snoc (⟨v, eout.toVertex, eout.viaVertex, eout.weight⟩ : CoreEdge) hw1'
            (by rw [hF]
                exact List.mem_append_right _
                  ((mem_forwardEdges Km v _).mpr ⟨eout, hout, o1, o2, rfl⟩))
            ha.symm trivial
        exact ⟨eout.toVertex, c, _, u, w3, hstep, hu, hw3', by omega⟩
    · obtain ⟨hout, hat⟩ := walk_contract_from hKm.nonneg hpair' hw2' ha
      by_cases hc : c = v
      · obtain ⟨ein, hin, i1, i2, u, hu, hle⟩ := hat hc
        have hstep : Walk b1.data.backwardCH.edges (fun _ => True) t ein.fromVertex
            (w3 + ein.weight) :=
          Walk.snoc (⟨v, ein.fromVertex, ein.viaVertex, ein.weight⟩ : CoreEdge) hw3'
            (by rw [hB]
                exact List.mem_append_right _
                  ((mem_backwardEdges Km v _).mpr ⟨ein, hin, i1, i2, rfl⟩))
            hc.symm trivial
        exact ⟨a, ein.fromVertex, w1, u, _, hw1', hu, hstep, by omega⟩
      · obtain ⟨u, hu, hle⟩ := hout hc
        exact ⟨a, c, w1, u, w3, hw1', hu, hw3', by omega⟩

end Builder
end CH

namespace CH
namespace Builder

variable {σ : Type}

/-- One call of `contract(v)` for the vertex `v` just taken from the queue: it returns, and
keeps the invariant and the queue covering the core graph. -/
theorem contract_inv {cfg : BuilderConfig} {kf : KeyFunction σ}
    (hkey : kf.Lawful cfg.witness) (hsort : ∀ l, (cfg.sortShortcuts l).Perm l)
    {g : DynamicGraph} {b0 : Builder σ} (h : Inv cfg g b0) (hq : QueueCovers b0) (v : Nat) :
    ∃ b', contract cfg kf { b0 with Q := b0.Q.erase v } v = some b' ∧ Inv cfg g b' ∧
      QueueCovers b' ∧ b'.Q = b0.Q.erase v := by
  have hLmem : ∀ s, s ∈ cfg.sortShortcuts (shortcutsOf b0.data.core v) ↔
      s ∈ shortcutsOf b0.data.core v := fun s => (hsort _).mem_iff
  obtain ⟨Km, wsm, hrun, hKmR, hn, hsized, horigin, hkeeps⟩ :=
    testShortcuts_returns cfg.witness v (cfg.sortShortcuts (shortcutsOf b0.data.core v))
      b0.data.core b0.witnessSearch h.range h.sized
      (fun s hs => shortcutsOf_inRange h.range v s ((hLmem s).mp hs))
  let data1 : Data :=
    { b0.data with
      order := b0.data.order ++ [v]
      forwardCH := ⟨b0.data.forwardCH.numVertices,
        b0.data.forwardCH.edges ++ forwardEdges Km v⟩
      backwardCH := ⟨b0.data.backwardCH.numVertices,
        b0.data.backwardCH.edges ++ backwardEdges Km v⟩
      core := Km.isolateVertex v }
  let b1 : Builder σ :=
    { b0 with Q := b0.Q.erase v, data := data1, witnessSearch := wsm }
  have h1 : Inv cfg g b1 := by
    refine ⟨?_, isolateVertex_inRange hKmR v, hn.trans h.size, ?_, ?_⟩
    · show Km.numVertices ≤ noVertex
      rw [hn]; exact h.bound
    · intro hen
      show wsm.Sized Km.numVertices
      rw [hn]; exact hsized hen
    · intro hreg
      have hbound : ∀ e, e ∈ (b0.data.forwardCH.edges ++ forwardEdges Km v) ++
          (b0.data.backwardCH.edges ++ backwardEdges Km v) → e.weight ≤ intMax / 6 :=
        hreg.2.2
      have hreg0 : Regime g b0.data := by
        refine ⟨hreg.1, hreg.2.1, ?_⟩
        intro e he
        apply hbound e
        rcases List.mem_append.mp he with h1 | h1
        · exact List.mem_append_left _ (List.mem_append_left _ h1)
        · exact List.mem_append_right _ (List.mem_append_left _ h1)
      have E := h.exact hreg0
      have hwf0 : b0.data.core.WellFormed := ⟨h.bound, h.range, E.nonneg⟩
      -- no candidate ends at `v`, so the edges at `v` are kept and are in the overlays
      have hsix : ∀ e ∈ b0.data.core.edges, e.toVertex = v ∨ e.fromVertex = v →
          e.weight ≤ intMax / 6 := by
        intro e he hv
        have hloop := E.loops e he
        have hkm : e ∈ Km.edges := by
          apply hkeeps e he
          intro s hs hh
          obtain ⟨first, h0, second, h3, _, h4⟩ :=
            (mem_shortcutsOf b0.data.core v s).mp ((hLmem s).mp hs)
          rw [mem_edgesTo] at h0
          rw [mem_edgesFrom] at h3
          subst h4
          simp only [] at hh
          have l1 := E.loops first h0.1
          have l2 := E.loops second h3.1
          rcases hv with hv | hv
          · exact l2 (h3.2.trans (hv.symm.trans hh.2))
          · exact l1 ((hh.1.symm.trans hv).trans h0.2.symm)
        rcases hv with hv | hv
        · apply hbound ⟨v, e.fromVertex, e.viaVertex, e.weight⟩
          exact List.mem_append_right _ (List.mem_append_right _
            ((mem_backwardEdges Km v _).mpr ⟨e, hkm, hv, fun hh => hloop (hh.trans hv.symm),
              rfl⟩))
        · apply hbound ⟨v, e.toVertex, e.viaVertex, e.weight⟩
          exact List.mem_append_left _ (List.mem_append_right _
            ((mem_forwardEdges Km v _).mpr ⟨e, hkm, hv, fun hh => hloop (hv.trans hh.symm),
              rfl⟩))
      obtain ⟨hcand, hsmall⟩ := candidates_shortcutsOf E.nonneg v hsix
        (cfg.sortShortcuts (shortcutsOf b0.data.core v)) (fun s hs => (hLmem s).mp hs)
      obtain ⟨Km2, wsm2, hrun2, hKm, hKml, _, hcons, hpers, horigin2, hcover, hvia⟩ :=
        testShortcuts_spec cfg.witness v (cfg.sortShortcuts (shortcutsOf b0.data.core v))
          b0.data.core b0.witnessSearch hwf0 E.light E.search hcand hsmall
      have heq : (Km2, wsm2) = (Km, wsm) := Option.some.inj (hrun2.symm.trans hrun)
      have hK2 : Km2 = Km := (Prod.mk.inj heq).1
      have hw2 : wsm2 = wsm := (Prod.mk.inj heq).2
      rw [hK2] at hKm hKml hcons hpers horigin2 hcover
      rw [hw2] at hcons hvia
      exact E.contract_step v _ hLmem hsix hKm hKml hcons hpers horigin2 hcover hvia
        rfl rfl rfl
  have hKmQ : ∀ e ∈ Km.edges, e.fromVertex ∈ b0.Q ∧ e.toVertex ∈ b0.Q := by
    intro e he
    rcases horigin e he with h2 | ⟨s, hs, a, b, _⟩
    · exact hq e h2
    · obtain ⟨first, h0, second, h3, _, h4⟩ :=
        (mem_shortcutsOf b0.data.core v s).mp ((hLmem s).mp hs)
      rw [mem_edgesTo] at h0
      rw [mem_edgesFrom] at h3
      subst h4
      simp only [] at a b
      rw [a, b]
      exact ⟨(hq first h0.1).1, (hq second h3.1).2⟩
  obtain ⟨b', hupd, h', c', _, _, _, _, q'⟩ :=
    updateNeighbors_inv hkey ((b0.data.level.getD v 0 + 1) % 65536) (neighborsOf Km v) b1 h1
  have hQ : b'.Q = b0.Q.erase v := by
    apply q'
    intro x hx
    obtain ⟨hne, e, he, hcase⟩ := mem_neighborsOf Km v x hx
    have hxQ : x ∈ b0.Q := by
      rcases hcase with hc | hc
      · rw [← hc]; exact (hKmQ e he).1
      · rw [← hc]; exact (hKmQ e he).2
    exact (List.mem_erase_of_ne hne).mpr hxQ
  refine ⟨b', ?_, h', ?_, hQ⟩
  · unfold contract
    simp only []
    have hrun' : testShortcuts cfg.witness v
        (cfg.sortShortcuts (shortcutsOf b0.data.core v)) b0.data.core b0.witnessSearch =
        some (Km, wsm) := hrun
    rw [hrun']
    exact hupd
  · intro e he
    rw [c'] at he
    have he' : e ∈ (Km.isolateVertex v).edges := he
    rw [mem_isolateVertex] at he'
    rw [hQ]
    exact ⟨(List.mem_erase_of_ne he'.2.1).mpr (hKmQ e he'.1).1,
      (List.mem_erase_of_ne he'.2.2).mpr (hKmQ e he'.1).2⟩

/-- The loop of `contractQVertices`: whatever it returns satisfies the invariant, and when
`update` of the key function puts no vertex back on the queue, it returns within as many
iterations as there are vertices on the queue. -/
theorem contractQVertices_inv {cfg : BuilderConfig} {kf : KeyFunction σ}
    (hkey : kf.Lawful cfg.witness) (hsort : ∀ l, (cfg.sortShortcuts l).Perm l)
    {g : DynamicGraph} :
    ∀ (fuel : Nat) (b : Builder σ), Inv cfg g b → QueueCovers b →
      (∀ r, contractQVertices cfg kf fuel b = some r → Inv cfg g r ∧ QueueCovers r) ∧
      ((∀ st d, (kf.update st d).2 = []) → b.Q.length < fuel →
        ∃ r, contractQVertices cfg kf fuel b = some r) := by
  intro fuel
  induction fuel with
  | zero =>
    intro b _ _
    exact ⟨fun r hr => Option.noConfusion hr, fun _ hl => absurd hl (Nat.not_lt_zero _)⟩
  | succ fuel ih =>
    intro b h hq
    unfold contractQVertices
    by_cases hemp : b.Q.isEmpty = true
    · rw [if_pos hemp]
      exact ⟨fun r hr => by rw [← Option.some.inj hr]; exact ⟨h, hq⟩, fun _ _ => ⟨b, rfl⟩⟩
    · rw [if_neg hemp]
      simp only []
      have h0 : Inv cfg g { b with keyState := (kf.update b.keyState b.data).1 } :=
        h.of_same rfl rfl rfl h.sized (fun hreg => (h.exact hreg).search)
      obtain ⟨b2, hre, h2, d2, q2, hnil⟩ :=
        reKeyAll_inv hkey (kf.update b.keyState b.data).2 _ h0
      rw [hre]
      simp only []
      have hq2 : QueueCovers b2 := by
        intro e he
        rw [d2] at he
        exact ⟨q2 _ (hq e he).1, q2 _ (hq e he).2⟩
      by_cases hstop : cfg.stopCriterion b2.data b2.Q = true
      · rw [if_pos hstop]
        exact ⟨fun r hr => by rw [← Option.some.inj hr]; exact ⟨h2, hq2⟩,
          fun _ _ => ⟨b2, rfl⟩⟩
      · rw [if_neg hstop]
        cases hfront : queueFront cfg.BreakKeyTiesById (fun v => b2.label.getD v 0) b2.Q with
        | none =>
          exact ⟨fun r hr => by rw [← Option.some.inj hr]; exact ⟨h2, hq2⟩,
            fun _ _ => ⟨b2, rfl⟩⟩
        | some v =>
          simp only []
          obtain ⟨b3, hc, h3, hq3, hQ3⟩ := contract_inv hkey hsort h2 hq2 v
          rw [hc]
          simp only []
          obtain ⟨ih1, ih2⟩ := ih b3 h3 hq3
          refine ⟨ih1, ?_⟩
          intro hupd hlen
          apply ih2 hupd
          have hb2 : b2 = { b with keyState := (kf.update b.keyState b.data).1 } :=
            hnil (hupd _ _)
          have hvQ : v ∈ b2.Q := queueFront_mem _ _ _ _ hfront
          rw [hQ3, List.length_erase_of_mem hvQ]
          have : b2.Q = b.Q := by rw [hb2]
          rw [this] at hvQ ⊢
          have := List.length_pos_of_mem hvQ
          omega

end Builder
end CH

namespace CH
namespace Builder

variable {σ : Type}

/-- The loop of `copyCoreToCH`: the core graph is not changed; the overlays lose no edge and
gain only edges of the core graph, reversed in the backward overlay; and when the loop
runs as often as the queue is long, every edge of the core graph that starts at a vertex
on the queue is in both overlays. -/
theorem copyCore_spec (cfg : BuilderConfig) :
    ∀ (fuel : Nat) (b : Builder σ),
      (copyCore cfg fuel b).data.core = b.data.core ∧
      (∀ e ∈ (copyCore cfg fuel b).data.forwardCH.edges,
        e ∈ b.data.forwardCH.edges ∨ e ∈ b.data.core.edges) ∧
      (∀ e ∈ (copyCore cfg fuel b).data.backwardCH.edges,
        e ∈ b.data.backwardCH.edges ∨ ∃ e' ∈ b.data.core.edges,
          e = ⟨e'.toVertex, e'.fromVertex, e'.viaVertex, e'.weight⟩) ∧
      (∀ e ∈ b.data.forwardCH.edges, e ∈ (copyCore cfg fuel b).data.forwardCH.edges) ∧
      (∀ e ∈ b.data.backwardCH.edges, e ∈ (copyCore cfg fuel b).data.backwardCH.edges) ∧
      (b.Q.length ≤ fuel → ∀ e ∈ b.data.core.edges, e.fromVertex ∈ b.Q →
        e ∈ (copyCore cfg fuel b).data.forwardCH.edges ∧
        (⟨e.toVertex, e.fromVertex, e.viaVertex, e.weight⟩ : CoreEdge) ∈
          (copyCore cfg fuel b).data.backwardCH.edges) := by
  intro fuel
  induction fuel with
  | zero =>
    intro b
    refine ⟨rfl, fun e he => Or.inl he, fun e he => Or.inl he, fun e he => he,
      fun e he => he, ?_⟩
    intro hlen e _ hq
    have : b.Q = [] := List.length_eq_zero.mp (Nat.le_zero.mp hlen)
    rw [this] at hq
    exact absurd hq (List.not_mem_nil _)
  | succ fuel ih =>
    intro b
    unfold copyCore
    cases hfront : queueFront cfg.BreakKeyTiesById (fun v => b.label.getD v 0) b.Q with
    | none =>
      simp only []
      refine ⟨trivial, fun e he => Or.inl he, fun e he => Or.inl he, fun e he => he,
        fun e he => he, ?_⟩
      intro _ e _ hq
      rw [queueFront_eq_none _ _ _ hfront] at hq
      exact absurd hq (List.not_mem_nil _)
    | some v =>
      simp only []
      obtain ⟨i1, i2, i3, i4, i5, i6⟩ := ih
        { b with
          data := { b.data with
            forwardCH := ⟨b.data.forwardCH.numVertices, b.data.forwardCH.edges ++
              (b.data.core.edgesFrom v).map
                (fun e => ⟨v, e.toVertex, e.viaVertex, e.weight⟩)⟩
            backwardCH := ⟨b.data.backwardCH.numVertices, b.data.backwardCH.edges ++
              (b.data.core.edgesFrom v).map
                (fun e => ⟨e.toVertex, v, e.viaVertex, e.weight⟩)⟩ }
          Q := b.Q.erase v }
      have hvQ : v ∈ b.Q := queueFront_mem _ _ _ _ hfront
      have hfwd : ∀ e ∈ b.data.core.edges, e.fromVertex = v →
          e ∈ (b.data.core.edgesFrom v).map
            (fun e => (⟨v, e.toVertex, e.viaVertex, e.weight⟩ : CoreEdge)) := by
        intro e he hv
        refine List.mem_map.mpr ⟨e, (mem_edgesFrom _ v e).mpr ⟨he, hv⟩, ?_⟩
        cases e
        simp only [] at hv
        subst hv
        rfl
      refine ⟨i1, ?_, ?_, ?_, ?_, ?_⟩
      · intro e he
        rcases i2 e he with h | h
        · rcases List.mem_append.mp h with h1 | h1
          · exact Or.inl h1
          · obtain ⟨e', he', rfl⟩ := List.mem_map.mp h1
            rw [mem_edgesFrom] at he'
            right
            have : (⟨v, e'.toVertex, e'.viaVertex, e'.weight⟩ : CoreEdge) = e' := by
              cases e'
              simp only [] at he'
              rw [← he'.2]
            rw [this]; exact he'.1
        · exact Or.inr h
      · intro e he
        rcases i3 e he with h | h
        · rcases List.mem_append.mp h with h1 | h1
          · exact Or.inl h1
          · obtain ⟨e', he', rfl⟩ := List.mem_map.mp h1
            rw [mem_edgesFrom] at he'
            exact Or.inr ⟨e', he'.1, by rw [he'.2]⟩
        · exact Or.inr h
      · intro e he
        exact i4 e (List.mem_append_left _ he)
      · intro e he
        exact i5 e (List.mem_append_left _ he)
      · intro hlen e he hq
        by_cases hev : e.fromVertex = v
        · refine ⟨i4 e (List.mem_append_right _ (hfwd e he hev)), ?_⟩
          apply i5
          refine List.mem_append_right _ (List.mem_map.mpr
            ⟨e, (mem_edgesFrom _ v e).mpr ⟨he, hev⟩, ?_⟩)
          rw [hev]
        · refine i6 ?_ e he ((List.mem_erase_of_ne hev).mpr hq)
          have : (b.Q.erase v).length = b.Q.length - 1 := List.length_erase_of_mem hvQ
          show (b.Q.erase v).length ≤ fuel
          omega

end Builder
end CH

namespace CH
namespace Builder

variable {σ : Type}

/-- The builder `run` starts in satisfies the invariant. -/
theorem new_inv (cfg : BuilderConfig) (g : DynamicGraph) (hg : g.WellFormed) (b : Builder σ)
    (hcore : b.data.core = g) (hF : b.data.forwardCH.edges = [])
    (hB : b.data.backwardCH.edges = [])
    (hws : b.witnessSearch = WitnessSearch.new.initializeSearch g) : Inv cfg g b := by
  obtain ⟨f1, f2, _⟩ := WitnessSearch.fresh_inv g hg
  refine ⟨by rw [hcore]; exact hg.size, by rw [hcore]; exact hg.range, by rw [hcore], ?_, ?_⟩
  · intro _
    rw [hcore, hws]
    exact f1.sized
  · intro hreg
    refine ⟨by rw [hcore]; exact hg.nonneg, by rw [hcore]; exact hreg.1, ?_, ?_, ?_, ?_, ?_,
      ?_⟩
    · rw [hcore]
      intro e he
      have := hreg.2.1 e he
      unfold intMax at this ⊢
      omega
    · intro _
      rw [hcore, hws]
      exact ⟨f1, Or.inr f2.soundLe⟩
    · intro e he
      rw [hcore] at he
      exact ⟨_, Walk.single_edge he trivial, le_refl _⟩
    · intro e he; rw [hF] at he; exact absurd he (List.not_mem_nil e)
    · intro e he; rw [hB] at he; exact absurd he (List.not_mem_nil e)
    · intro s t w hw
      refine ⟨s, t, 0, w, 0, Walk.nil _, ?_, Walk.nil _, by omega⟩
      rw [hcore]; exact hw

/-- What `run` returns satisfies the invariant, with a queue that covers the core graph;
and `run` returns within one iteration per vertex when `update` of the key function puts
no vertex back on the queue. -/
theorem run_inv {cfg : BuilderConfig} {kf : KeyFunction σ} (hkey : kf.Lawful cfg.witness)
    (hsort : ∀ l, (cfg.sortShortcuts l).Perm l) (g : DynamicGraph) (hg : g.WellFormed)
    (st : σ) :
    ((∀ s d, (kf.update s d).2 = []) →
      ∃ r, run cfg kf (g.numVertices + 1) (new g st) = some r) ∧
    ∀ fuel r, run cfg kf fuel (new g st) = some r → Inv cfg g r ∧ QueueCovers r := by
  have h0 : Inv cfg g
      ({ new g st with
          data := { (new g st).data with order := [] }
          label := List.replicate (new g st).data.numVertices 0
          witnessSearch := (new g st).witnessSearch.initializeSearch (new g st).data.core
          Q := [] } : Builder σ) :=
    new_inv cfg g hg _ rfl rfl rfl rfl
  obtain ⟨b1, hb, h1, c1, _, _, _, q1, l1⟩ := buildQ_inv hkey (List.range g.numVertices) _ h0
  have hc1 : b1.data.core = g := c1
  have hq1 : QueueCovers b1 := by
    intro e he
    rw [hc1] at he
    exact ⟨q1 _ (List.mem_range.mpr (hg.range e he).1),
      q1 _ (List.mem_range.mpr (hg.range e he).2)⟩
  have hlen : b1.Q.length ≤ g.numVertices := by
    have : b1.Q.length ≤ 0 + (List.range g.numVertices).length := l1
    rw [List.length_range] at this
    omega
  have hrun : ∀ fuel, run cfg kf fuel (new g st) = contractQVertices cfg kf fuel b1 := by
    intro fuel
    unfold run
    simp only []
    have : buildQ kf (List.range g.numVertices)
        ({ new g st with
            data := { (new g st).data with order := [] }
            label := List.replicate (new g st).data.numVertices 0
            witnessSearch := (new g st).witnessSearch.initializeSearch (new g st).data.core
            Q := [] } : Builder σ) = some b1 := hb
    show (match buildQ kf (List.range g.numVertices)
        ({ new g st with
            data := { (new g st).data with order := [] }
            label := List.replicate (new g st).data.numVertices 0
            witnessSearch := (new g st).witnessSearch.initializeSearch (new g st).data.core
            Q := [] } : Builder σ) with
      | none => none
      | some b => contractQVertices cfg kf fuel b) = _
    rw [this]
  constructor
  · intro hupd
    rw [hrun]
    exact (contractQVertices_inv hkey hsort _ b1 h1 hq1).2 hupd (by omega)
  · intro fuel r hr
    rw [hrun] at hr
    exact (contractQVertices_inv hkey hsort fuel b1 h1 hq1).1 r hr

/-- After `copyCoreToCH` on a builder that satisfies the invariant, the distances of the
input graph are the meeting distances of the two overlays, provided the input graph has no
loop and its weights and the weights of the overlays are at most `intMax / 6`. -/
theorem copyCoreToCH_distances {cfg : BuilderConfig} {g : DynamicGraph} {r : Builder σ}
    (h : Inv cfg g r) (hq : QueueCovers r)
    (hb : Regime g (copyCoreToCH cfg r).data)
    (s t : Nat) (d : Option Int) :
    IsDistance g.edges s t d ↔
      IsMeetingDistance (copyCoreToCH cfg r).data.forwardCH.edges
        (copyCoreToCH cfg r).data.backwardCH.edges s t d := by
  obtain ⟨_, c2, c3, c4, c5, c6⟩ := copyCore_spec cfg r.Q.length r
  have c6' := c6 (le_refl _)
  have hb0 : Regime g r.data := by
    refine ⟨hb.1, hb.2.1, ?_⟩
    intro e he
    apply hb.2.2 e
    rcases List.mem_append.mp he with h1 | h1
    · exact List.mem_append_left _ (c4 e h1)
    · exact List.mem_append_right _ (c5 e h1)
  have E := h.exact hb0
  apply isDistance_iff_isMeetingDistance
  · intro s t w hw
    obtain ⟨a, c, w1, w2, w3, hw1, hw2, hw3, hsum⟩ := E.complete s t w hw
    have hw1' : Walk (copyCoreToCH cfg r).data.forwardCH.edges (fun _ => True) s a w1 :=
      hw1.mono_walk c4 (fun _ hx => hx)
    have hw2' : Walk (copyCoreToCH cfg r).data.forwardCH.edges (fun _ => True) a c w2 :=
      hw2.mono_walk (fun e he => (c6' e he (hq e he).1).1) (fun _ hx => hx)
    have hw3' : Walk (copyCoreToCH cfg r).data.backwardCH.edges (fun _ => True) t c w3 :=
      hw3.mono_walk c5 (fun _ hx => hx)
    exact ⟨c, w1 + w2, w3, hw1'.append_walk hw2', hw3', by omega⟩
  · intro s t m w1 w2 hw1 hw2
    obtain ⟨u1, hu1, hle1⟩ : ∃ u, Walk g.edges (fun _ => True) s m u ∧ u ≤ w1 := by
      refine Walk.replace_edges ?_ hw1
      intro e he _
      rcases c2 e he with h1 | h1
      · exact E.forwardSound e h1
      · exact E.coreSound e h1
    obtain ⟨u2, hu2, hle2⟩ : ∃ u, Walk g.edges (fun _ => True) m t u ∧ u ≤ w2 := by
      refine Walk.reverse_edges ?_ hw2
      intro e he
      rcases c3 e he with h1 | ⟨e', he', rfl⟩
      · exact E.backwardSound e h1
      · exact E.coreSound e' he'
    exact ⟨u1 + u2, hu1.append_walk hu2, by omega⟩

end Builder
end CH

namespace CH

/-- The loops of `simulateContract` end, whatever the weights are, and keep the shape of
the witness search. -/
theorem simulateContract_returns (cfg : WitnessConfig) (K : DynamicGraph) (hK : K.InRange)
    (v : Nat) :
    ∀ (L : List Shortcut) (ws : WitnessSearch) (n : Int),
      (∀ s ∈ L, s.fromVertex < K.numVertices ∧ s.toVertex < K.numVertices) →
      (cfg.enabled = true → ws.Sized K.numVertices) →
      ∃ k ws', simulateContract cfg K v L ws n = some (k, ws') ∧
        (cfg.enabled = true → ws'.Sized K.numVertices) := by
  intro L
  induction L with
  | nil => intro ws n _ hws; exact ⟨n, ws, rfl, hws⟩
  | cons s rest ih =>
    intro ws n hL hws
    obtain ⟨hfrom, _⟩ := hL s (List.mem_cons_self _ _)
    obtain ⟨b, ws1, hcall, hws1⟩ := WitnessSearch.shortcutIsNecessary_returns cfg K hK ws hws
      s.fromVertex s.toVertex v s.weight hfrom
    obtain ⟨k, ws', hrun, hws'⟩ := ih ws1 (if b = true then wrapInt32 (n + 1) else n)
      (fun s' hs' => hL s' (List.mem_cons_of_mem _ hs')) hws1
    refine ⟨k, ws', ?_, hws'⟩
    unfold simulateContract
    rw [hcall]
    exact hrun

/-- The loops of `simulateContract` with a consistent witness search, for candidates whose
weight plus the weight of any edge fits `int`: they return and leave the witness search
consistent. -/
theorem simulateContract_spec (cfg : WitnessConfig) (K : DynamicGraph) (hK : K.WellFormed)
    (v : Nat) :
    ∀ (L : List Shortcut) (ws : WitnessSearch) (n : Int),
      (∀ s ∈ L, s.fromVertex < K.numVertices ∧ s.toVertex < K.numVertices ∧
        ∀ e ∈ K.edges, s.weight + e.weight ≤ intMax) →
      (cfg.enabled = true → ws.Consistent K) →
      ∃ k ws', simulateContract cfg K v L ws n = some (k, ws') ∧
        (cfg.enabled = true → ws'.Consistent K) := by
  intro L
  induction L with
  | nil => intro ws n _ hws; exact ⟨n, ws, rfl, hws⟩
  | cons s rest ih =>
    intro ws n hL hws
    obtain ⟨hfrom, hto, hfit⟩ := hL s (List.mem_cons_self _ _)
    obtain ⟨b, ws1, hcall, hws1⟩ :
        ∃ b ws1, ws.shortcutIsNecessary cfg K s.fromVertex s.toVertex v s.weight =
            some (b, ws1) ∧ (cfg.enabled = true → ws1.Consistent K) := by
      by_cases hen : cfg.enabled = true
      · obtain ⟨b, ws1, q1, q2, _⟩ :=
          WitnessSearch.shortcutIsNecessary_consistent cfg hen K hK ws (hws hen)
            s.fromVertex s.toVertex v s.weight hfrom hto hfit
        exact ⟨b, ws1, q1, fun _ => q2⟩
      · refine ⟨true, ws, ?_, fun h => absurd h hen⟩
        unfold WitnessSearch.shortcutIsNecessary
        rw [if_neg hen]
    obtain ⟨k, ws', hrun, hws'⟩ := ih ws1 (if b = true then wrapInt32 (n + 1) else n)
      (fun s' hs' => hL s' (List.mem_cons_of_mem _ hs')) hws1
    refine ⟨k, ws', ?_, hws'⟩
    unfold simulateContract
    rw [hcall]
    exact hrun

/-- On a core graph with non-negative weights of at most `intMax / 3`, the weight of a
candidate shortcut is the sum of the two weights, and its sum with the weight of an edge
fits `int`. -/
theorem shortcutsOf_light {K : DynamicGraph} (hK : K.WellFormed) (hl : K.Light) (v : Nat)
    (s : Shortcut) (hs : s ∈ Builder.shortcutsOf K v) :
    s.fromVertex < K.numVertices ∧ s.toVertex < K.numVertices ∧
      (∀ e ∈ K.edges, s.weight + e.weight ≤ intMax) ∧
      ∃ first ∈ K.edgesTo v, ∃ second ∈ K.edgesFrom v, first.fromVertex ≠ second.toVertex ∧
        s = ⟨first.fromVertex, second.toVertex, first.weight + second.weight⟩ := by
  obtain ⟨first, h0, second, h1, h2, h3⟩ := (Builder.mem_shortcutsOf K v s).mp hs
  have m0 := (Builder.mem_edgesTo K v first).mp h0
  have m1 := (Builder.mem_edgesFrom K v second).mp h1
  have a1 := hK.nonneg first m0.1
  have a2 := hK.nonneg second m1.1
  have a3 := hl first m0.1
  have a4 := hl second m1.1
  have hw : wrapInt32 (first.weight + second.weight) = first.weight + second.weight := by
    apply WitnessSearch.wrapInt32_of_fits
    · omega
    · unfold intMax at a3 a4 ⊢; omega
  rw [hw] at h3
  refine ⟨?_, ?_, ?_, first, h0, second, h1, h2, h3⟩
  · rw [h3]; exact (hK.range first m0.1).1
  · rw [h3]; exact (hK.range second m1.1).2
  · intro e he
    have a5 := hl e he
    rw [h3]
    simp only []
    unfold intMax at a3 a4 a5 ⊢
    omega

/-- `GreedyKey` is a lawful key function of a builder with the same witness search. -/
theorem greedyKey_lawful (cfg : WitnessConfig) (shortcutWeight levelWeight degreeWeight : Int) :
    (greedyKey cfg shortcutWeight levelWeight degreeWeight).Lawful cfg := by
  constructor
  · intro st d ws v hr hws
    unfold greedyKey
    simp only []
    split
    · exact ⟨_, ws, rfl, hws⟩
    · split
      · exact ⟨_, ws, rfl, hws⟩
      · obtain ⟨k, ws', hrun, hws'⟩ := simulateContract_returns cfg d.core hr v
          (Builder.shortcutsOf d.core v) ws 0
          (fun s hs => Builder.shortcutsOf_inRange hr v s hs) hws
        rw [hrun]
        exact ⟨_, ws', rfl, hws'⟩
  · intro st d ws v k ws' hwf hl hws hk hen
    unfold greedyKey at hk
    simp only [] at hk
    split at hk
    · rw [← (Prod.mk.inj (Option.some.inj hk)).2]; exact hws hen
    · split at hk
      · rw [← (Prod.mk.inj (Option.some.inj hk)).2]; exact hws hen
      · obtain ⟨k2, ws2, hrun, hws2⟩ := simulateContract_spec cfg d.core hwf v
          (Builder.shortcutsOf d.core v) ws 0
          (fun s hs =>
            ⟨(shortcutsOf_light hwf hl v s hs).1, (shortcutsOf_light hwf hl v s hs).2.1,
              (shortcutsOf_light hwf hl v s hs).2.2.1⟩) hws
        rw [hrun] at hk
        rw [← (Prod.mk.inj (Option.some.inj hk)).2]; exact hws2 hen

/-- `PermutationKey` is a lawful key function: it does not touch the witness search. -/
theorem permutationKey_lawful (cfg : WitnessConfig) (permutation : List Nat) :
    (permutationKey permutation).Lawful cfg := by
  constructor
  · intro _ _ ws _ _ hws
    exact ⟨_, ws, rfl, hws⟩
  · intro _ _ ws _ k ws' _ _ hws hk hen
    have : ws = ws' := (Prod.mk.inj (Option.some.inj hk)).2
    rw [← this]; exact hws hen

/-- A walk cannot leave a vertex at which no edge starts. -/
theorem Walk.stuck {E : List CoreEdge} {P : Nat → Prop} {s : Nat}
    (hE : ∀ e ∈ E, e.fromVertex ≠ s) {t : Nat} {w : Int} (h : Walk E P s t w) :
    t = s ∧ w = 0 := by
  induction h with
  | nil => exact ⟨rfl, rfl⟩
  | snoc e _ he hfrom _ ih => exact absurd (hfrom.trans ih.1) (hE e he)

/-- The walks of `heavyPath` from A: they end at A with weight 0, or at B or C with weight
`intMax`. -/
theorem heavyPath_walks {t : Nat} {w : Int}
    (h : Walk heavyPath.edges (fun _ => True) 0 t w) :
    (t = 0 ∧ w = 0) ∨ (t = 1 ∧ w = 2147483647) ∨ (t = 2 ∧ w = 2147483647) := by
  induction h with
  | nil => exact Or.inl ⟨rfl, rfl⟩
  | snoc e _ he hfrom _ ih =>
    simp only [heavyPath, List.mem_cons, List.mem_singleton, List.not_mem_nil, or_false] at he
    rcases he with he | he
    · subst he
      simp only [] at hfrom ⊢
      rcases ih with ⟨h1, h2⟩ | ⟨h1, _⟩ | ⟨h1, _⟩
      · right; left; exact ⟨trivial, by omega⟩
      · omega
      · omega
    · subst he
      simp only [] at hfrom ⊢
      rcases ih with ⟨h1, _⟩ | ⟨_, h2⟩ | ⟨h1, _⟩
      · omega
      · right; right; exact ⟨trivial, by omega⟩
      · omega

/-- The walks of `billionDetour` from 0. -/
theorem billionDetour_walks {t : Nat} {w : Int}
    (h : Walk billionDetour.edges (fun _ => True) 0 t w) :
    (t = 0 ∧ w = 0) ∨ (t = 1 ∧ w = 1000000000) ∨ (t = 3 ∧ w = 1000000000) ∨
      (t = 4 ∧ w = 2000000000) ∨ (t = 2 ∧ w = 2000000000) ∨ (t = 2 ∧ w = 3000000000) := by
  induction h with
  | nil => exact Or.inl ⟨rfl, rfl⟩
  | snoc e _ he hfrom _ ih =>
    simp only [billionDetour, List.mem_cons, List.mem_singleton, List.not_mem_nil,
      or_false] at he
    rcases he with he | he | he | he | he <;> subst he <;> simp only [] at hfrom ⊢ <;>
      rcases ih with ⟨h1, h2⟩ | ⟨h1, h2⟩ | ⟨h1, h2⟩ | ⟨h1, h2⟩ | ⟨h1, h2⟩ | ⟨h1, h2⟩ <;>
      first | omega | (subst h2; norm_num)

/-- The walks of the forward overlay of `billionDetourCH` from 0. -/
theorem billionDetourCH_forward {t : Nat} {w : Int}
    (h : Walk billionDetourCH.forwardCH.edges (fun _ => True) 0 t w) :
    (t = 0 ∧ w = 0) ∨ (t = 3 ∧ w = 1000000000) ∨ (t = 4 ∧ w = 2000000000) := by
  induction h with
  | nil => exact Or.inl ⟨rfl, rfl⟩
  | snoc e _ he hfrom _ ih =>
    simp only [billionDetourCH, List.mem_cons, List.mem_singleton, List.not_mem_nil,
      or_false] at he
    rcases he with he | he | he <;> subst he <;> simp only [] at hfrom ⊢ <;>
      rcases ih with ⟨h1, h2⟩ | ⟨h1, h2⟩ | ⟨h1, h2⟩ <;>
      first | omega | (subst h2; norm_num)

/-- The walks of the backward overlay of `billionDetourCH` from 2. -/
theorem billionDetourCH_backward {t : Nat} {w : Int}
    (h : Walk billionDetourCH.backwardCH.edges (fun _ => True) 2 t w) :
    (t = 2 ∧ w = 0) ∨ (t = 4 ∧ w = 1000000000) := by
  induction h with
  | nil => exact Or.inl ⟨rfl, rfl⟩
  | snoc e _ he hfrom _ ih =>
    simp only [billionDetourCH, List.mem_cons, List.mem_singleton, List.not_mem_nil,
      or_false] at he
    rcases he with he | he <;> subst he <;> simp only [] at hfrom ⊢ <;>
      rcases ih with ⟨h1, h2⟩ | ⟨h1, h2⟩ <;> first | omega | (subst h2; norm_num)

namespace Builder

/-- Claim C1, counterexample.  The path A, B, C with the weights `intMax` and 0 is a
graph with non-negative weights in which the distance from A to C is `intMax`.  The
builder with the witness search and the default `GreedyKey` contracts B first; the
witness search calls the shortcut from A to C of weight `intMax` unnecessary, so the
forward overlay is the edge from B to C, the backward overlay the edge from B to A, and
no vertex is reached from A in the one and from C in the other: the meeting distance is
infinite.  And in the graph `billionDetour`, without loops and with all weights 10^9
(below `INFTY`), the builder with the witness search and `PermutationKey` contracts the
vertices in the order 1, 0, 2, 3, 4; the witness search for the shortcut from 0 to 2 over 1
of weight 2 * 10^9 adds 10^9 to the label 2 * 10^9 of the vertex 4, the sum does not fit
`int`, the label of 2 becomes negative and the shortcut is called unnecessary; all weights
of the overlays are 10^9, the distance from 0 to 2 is 2 * 10^9, and the meeting distance
is 3 * 10^9. -/
theorem build_misses_heavy_shortcut :
    heavyPath.WellFormed ∧
      build witnessBuilder (defaultGreedyKey unlimitedWitnessSearch) 4 heavyPath () =
        some ⟨3, ⟨3, []⟩, ⟨3, [⟨1, 2, noVertex, 0⟩]⟩, ⟨3, [⟨1, 0, noVertex, 2147483647⟩]⟩,
          [1, 0, 2], [1, 0, 1]⟩ ∧
      IsDistance heavyPath.edges 0 2 (some 2147483647) ∧
      IsMeetingDistance [⟨1, 2, noVertex, 0⟩] [⟨1, 0, noVertex, 2147483647⟩] 0 2 none ∧
      billionDetour.WellFormed ∧
      (∀ e ∈ billionDetour.edges, e.fromVertex ≠ e.toVertex ∧ e.weight < INFTY) ∧
      build witnessBuilder (permutationKey [1, 0, 2, 3, 4]) 6 billionDetour () =
        some billionDetourCH ∧
      (∀ e ∈ billionDetourCH.forwardCH.edges ++ billionDetourCH.backwardCH.edges,
        e.weight < INFTY) ∧
      IsDistance billionDetour.edges 0 2 (some 2000000000) ∧
      IsMeetingDistance billionDetourCH.forwardCH.edges billionDetourCH.backwardCH.edges 0 2
        (some 3000000000) := by
  refine ⟨⟨by decide, by decide, by decide⟩, by decide, ⟨?_, ?_⟩, ?_,
    ⟨by decide, by decide, by decide⟩, by decide, by decide, by decide, ⟨?_, ?_⟩, ⟨?_, ?_⟩⟩
  · have h1 : Walk heavyPath.edges (fun _ => True) 0 1 (0 + 2147483647) :=
      Walk.snoc ⟨0, 1, noVertex, 2147483647⟩ (Walk.nil 0) (by decide) rfl trivial
    exact Walk.snoc ⟨1, 2, noVertex, 0⟩ h1 (by decide) rfl trivial
  · intro w hw
    rcases heavyPath_walks hw with ⟨h1, _⟩ | ⟨h1, _⟩ | ⟨_, h2⟩
    · omega
    · omega
    · omega
  · intro m w1 w2 h1 h2
    have e1 := (Walk.stuck (by decide) h1).1
    have e2 := (Walk.stuck (by decide) h2).1
    omega
  · have h1 : Walk billionDetour.edges (fun _ => True) 0 1 (0 + 1000000000) :=
      Walk.snoc ⟨0, 1, noVertex, 1000000000⟩ (Walk.nil 0) (by decide) rfl trivial
    exact Walk.snoc ⟨1, 2, noVertex, 1000000000⟩ h1 (by decide) rfl trivial
  · intro w hw
    rcases billionDetour_walks hw with ⟨h1, h2⟩ | ⟨h1, h2⟩ | ⟨h1, h2⟩ | ⟨h1, h2⟩ | ⟨h1, h2⟩ |
      ⟨h1, h2⟩ <;> omega
  · have h1 : Walk billionDetourCH.forwardCH.edges (fun _ => True) 0 3 (0 + 1000000000) :=
      Walk.snoc ⟨0, 3, noVertex, 1000000000⟩ (Walk.nil 0) (by decide) rfl trivial
    have h2 : Walk billionDetourCH.forwardCH.edges (fun _ => True) 0 4
        (0 + 1000000000 + 1000000000) :=
      Walk.snoc ⟨3, 4, noVertex, 1000000000⟩ h1 (by decide) rfl trivial
    have h3 : Walk billionDetourCH.backwardCH.edges (fun _ => True) 2 4 (0 + 1000000000) :=
      Walk.snoc ⟨2, 4, noVertex, 1000000000⟩ (Walk.nil 2) (by decide) rfl trivial
    exact ⟨4, _, _, h2, h3, by norm_num⟩
  · intro m w1 w2 h1 h2
    rcases billionDetourCH_forward h1 with ⟨a1, a2⟩ | ⟨a1, a2⟩ | ⟨a1, a2⟩ <;>
      rcases billionDetourCH_backward h2 with ⟨b1, b2⟩ | ⟨b1, b2⟩ <;> omega

/-- Claim C1, amended.  For every graph with non-negative weights, every lawful key
function (`GreedyKey` and `PermutationKey` are lawful), every stop criterion, every
reordering of the candidate shortcuts, and with or without the witness search:
`run()` returns within one iteration per vertex when `update` of the key function puts no
vertex back on the queue; and for whatever CH data `run()` followed by `copyCoreToCH()`
produces, provided that the graph has no loop and that all weights of the graph and of
the two overlays are at most `intMax / 6` (so that no sum of weights the builder or the
witness search forms leaves the range of `int`), the distance from `s` to `t` in the
graph is the minimum over the vertices `m` of the distance from `s` to `m` in the forward
overlay plus the distance from `t` to `m` in the backward overlay, both being infinite
together. -/
theorem build_distances {σ : Type} (cfg : BuilderConfig) (kf : KeyFunction σ)
    (hkey : kf.Lawful cfg.witness) (hsort : ∀ l, (cfg.sortShortcuts l).Perm l)
    (g : DynamicGraph) (hg : g.WellFormed) (st : σ) :
    ((∀ s d, (kf.update s d).2 = []) →
      ∃ d, build cfg kf (g.numVertices + 1) g st = some d) ∧
    ∀ fuel d, build cfg kf fuel g st = some d →
      (∀ e ∈ g.edges, e.fromVertex ≠ e.toVertex) →
      (∀ e ∈ g.edges, e.weight ≤ intMax / 6) → d.Bounded →
      ∀ s t x, IsDistance g.edges s t x ↔
        IsMeetingDistance d.forwardCH.edges d.backwardCH.edges s t x := by
  obtain ⟨htotal, hinv⟩ := run_inv hkey hsort g hg st
  constructor
  · intro hupd
    obtain ⟨r, hr⟩ := htotal hupd
    exact ⟨_, by unfold build; rw [hr]; rfl⟩
  · intro fuel d hd hloops hsmall hb s t x
    unfold build at hd
    cases hr : run cfg kf fuel (new g st) with
    | none => rw [hr] at hd; exact Option.noConfusion hd
    | some r =>
      rw [hr] at hd
      have hdr : (copyCoreToCH cfg r).data = d := Option.some.inj hd
      obtain ⟨h1, h2⟩ := hinv fuel r hr
      rw [← hdr]
      exact copyCoreToCH_distances h1 h2 ⟨hloops, hsmall, by rw [hdr]; exact hb⟩ s t x

/-- Claim C1, amended, at the graph `fork` with the witness search and the default
`GreedyKey`: the builder contracts the vertices 1, 0, 2, 3, adds the shortcut from 2 to 3
over 0, and its overlays give the distances of the graph. -/
theorem build_distances_witness :
    build witnessBuilder (defaultGreedyKey unlimitedWitnessSearch) 5 fork () = some forkCH ∧
      ∀ s t x, IsDistance fork.edges s t x ↔
        IsMeetingDistance forkCH.forwardCH.edges forkCH.backwardCH.edges s t x :=
  ⟨by decide,
    (build_distances witnessBuilder (defaultGreedyKey unlimitedWitnessSearch)
      (greedyKey_lawful unlimitedWitnessSearch 1024 1024 0) (fun l => List.Perm.refl l)
      fork ⟨by decide, by decide, by decide⟩ ()).2 5 forkCH (by decide)
      (by decide) (by decide) (by unfold Data.Bounded; decide)⟩

end Builder
end CH

namespace TripBased
namespace ShortcutSearch

theorem getD_set_self {α : Type} (l : List α) (i : Nat) (v dflt : α) (h : i < l.length) :
    (l.set i v).getD i dflt = v := by
  rw [List.getD_eq_getElem?_getD, List.getElem?_set_self (by simpa using h)]
  rfl

theorem getD_set_ne {α : Type} (l : List α) (i j : Nat) (v dflt : α) (h : i ≠ j) :
    (l.set i v).getD j dflt = l.getD j dflt := by
  rw [List.getD_eq_getElem?_getD, List.getD_eq_getElem?_getD, List.getElem?_set_ne h]

theorem getD_of_length_le {α : Type} (l : List α) (i : Nat) (dflt : α) (h : l.length ≤ i) :
    l.getD i dflt = dflt := by
  rw [List.getD_eq_getElem?_getD, List.getElem?_eq_none h]
  rfl

theorem set_of_length_le {α : Type} (l : List α) (i : Nat) (v : α) (h : l.length ≤ i) :
    l.set i v = l := by
  induction l generalizing i with
  | nil => rfl
  | cons x xs ih =>
    cases i with
    | zero => simp at h
    | succ i => simp only [List.set_cons_succ]; rw [ih i (by simpa using h)]

/-- Writing a value that is not larger keeps a label array below its bound. -/
theorem getD_set_le (l : List Int) (i : Nat) (v : Int) (h : v ≤ l.getD i never) (x : Nat) :
    (l.set i v).getD x never ≤ l.getD x never := by
  by_cases hx : i = x
  · subst hx
    by_cases hi : i < l.length
    · rw [getD_set_self l i v never hi]; exact h
    · rw [set_of_length_le l i v (by omega)]
  · rw [getD_set_ne l i x v never hx]

theorem isStop_noStop (d : RAPTOR.Data) (h : d.numberOfStops ≤ noStop) :
    d.isStop noStop = false := by
  unfold RAPTOR.Data.isStop
  exact decide_eq_false (by omega)

theorem isStop_lt (d : RAPTOR.Data) {x : Nat} (h : d.isStop x = true) : x < d.numberOfStops := by
  unfold RAPTOR.Data.isStop at h
  exact of_decide_eq_true h

/-- A stop index beyond the array of route parents is not marked. -/
theorem not_marked_of_le (d : RAPTOR.Data) (s : ShortcutSearch)
    (hp : s.twoTripsRouteParent.length = d.numberOfStops) (hno : d.isStop noStop = false)
    {x : Nat} (hx : d.numberOfStops ≤ x) :
    d.isStop (s.twoTripsRouteParent.getD x noStop) = false := by
  rw [getD_of_length_le _ _ _ (by omega)]
  exact hno

/-- `arrivalByRoute2` for an arrival that is not later than the label of the stop keeps
the invariant of the second round. -/
theorem arrivalByRoute2_round2 {d : RAPTOR.Data} (hno : d.isStop noStop = false)
    {base : Nat → Int} {s : ShortcutSearch} (h : Round2 d base s) (stop : Nat) (T : Int)
    (parent ev : Nat) (hstop : stop < d.transferGraph.numVertices)
    (hreach : Reaches d ev stop T) (hT : T ≤ s.twoTripsArrivalLabels.getD stop never) :
    Round2 d base (arrivalByRoute2 s stop T parent ev) ∧
      (arrivalByRoute2 s stop T parent ev).shortcuts = s.shortcuts ∧
      (arrivalByRoute2 s stop T parent ev).shortcutDestinationCandidates =
        s.shortcutDestinationCandidates := by
  unfold arrivalByRoute2
  by_cases hc : s.oneTripTransferParent.getD parent noStopEvent ≠ noStopEvent
  · rw [if_pos hc]
    simp only []
    refine ⟨⟨?_, ?_, ?_, ?_, ?_, ?_, ?_, ?_⟩, trivial, trivial⟩
    · rw [List.length_set]; exact h.labels
    · rw [List.length_set]; exact h.parents
    · rw [List.length_set]; exact h.events
    · intro x hx; exact h.queue x (List.mem_of_mem_erase hx)
    · intro x hx
      unfold IndexedSet.insert at hx
      split at hx
      · exact h.updated x hx
      · rcases List.mem_append.mp hx with h1 | h1
        · exact h.updated x h1
        · rw [List.mem_singleton] at h1; rw [h1]; exact hstop
    · intro x hx
      simp only [] at hx ⊢
      by_cases hxs : stop = x
      · subst hxs
        by_cases hin : stop < d.numberOfStops
        · rw [getD_set_self s.twoTripsRouteParentEvent stop ev 0 (by have := h.events; omega),
            getD_set_self s.twoTripsArrivalLabels stop T never (by rw [h.labels]; exact hstop)]
          exact hreach
        · rw [set_of_length_le _ _ _ (by rw [h.parents]; omega)] at hx
          rw [not_marked_of_le d s h.parents hno (by omega)] at hx
          exact absurd hx (by simp)
      · rw [getD_set_ne _ _ _ _ _ hxs] at hx ⊢
        rw [getD_set_ne _ _ _ _ _ hxs]
        exact h.marked x hx
    · intro x
      exact le_trans (getD_set_le _ _ _ hT x) (h.below x)
    · exact h.nodupQ.erase _
  · rw [if_neg hc]
    simp only []
    refine ⟨⟨?_, ?_, ?_, ?_, ?_, ?_, ?_, ?_⟩, trivial, trivial⟩
    · rw [List.length_set]; exact h.labels
    · rw [List.length_set]; exact h.parents
    · exact h.events
    · intro x hx; exact h.queue x (List.mem_of_mem_erase hx)
    · intro x hx
      unfold IndexedSet.insert at hx
      split at hx
      · exact h.updated x hx
      · rcases List.mem_append.mp hx with h1 | h1
        · exact h.updated x h1
        · rw [List.mem_singleton] at h1; rw [h1]; exact hstop
    · intro x hx
      simp only [] at hx ⊢
      by_cases hxs : stop = x
      · subst hxs
        by_cases hin : stop < d.numberOfStops
        · rw [getD_set_self _ _ _ _ (by rw [h.parents]; exact hin), hno] at hx
          exact absurd hx (by simp)
        · rw [set_of_length_le _ _ _ (by rw [h.parents]; omega)] at hx
          rw [not_marked_of_le d s h.parents hno (by omega)] at hx
          exact absurd hx (by simp)
      · rw [getD_set_ne _ _ _ _ _ hxs] at hx ⊢
        exact h.marked x hx
    · intro x
      exact le_trans (getD_set_le _ _ _ hT x) (h.below x)
    · exact h.nodupQ.erase _

end ShortcutSearch
end TripBased

namespace TripBased
namespace ShortcutSearch

theorem OnRoute.previousTrip_onRoute {d : RAPTOR.Data} {route : Nat}
    {it : RAPTOR.TripIterator} (h : OnRoute d route it) : OnRoute d route it.previousTrip := by
  obtain ⟨h1, h2, k, h3⟩ := h
  refine ⟨h1, h2, k + 1, ?_⟩
  show it.currentTrip - it.tripSize = _
  rw [h3, h1, Nat.sub_sub, Nat.add_mul, Nat.one_mul]

theorem OnRoute.nextStop_onRoute {d : RAPTOR.Data} {route : Nat}
    {it : RAPTOR.TripIterator} (h : OnRoute d route it) : OnRoute d route it.nextStop := h

/-- The stop at a position of a route is a stop. -/
theorem OnRoute.stop_lt {d : RAPTOR.Data} (hd : WellFormed d) {route : Nat}
    {it : RAPTOR.TripIterator} (h : OnRoute d route it) (hi : it.stopIndex < it.tripSize) :
    it.stop d < d.numberOfStops := by
  obtain ⟨h1, h2, _⟩ := h
  unfold RAPTOR.TripIterator.stop RAPTOR.TripIterator.stopAt RAPTOR.Data.stopIdAt
  rw [h2]
  rw [h1] at hi
  unfold RAPTOR.Data.numberOfStopsInRoute at hi
  unfold RAPTOR.Data.stopArrayOfRoute
  have hlen : d.firstStopIdOfRoute.getD (route + 1) 0 ≤ d.stopIds.length := by
    by_cases hr : route + 1 < d.firstStopIdOfRoute.length
    · apply hd.routes
      rw [List.getD_eq_getElem?_getD, List.getElem?_eq_getElem hr]
      exact List.getElem_mem hr
    · rw [getD_of_length_le _ _ _ (by omega)]; omega
  have hidx : d.firstStopIdOfRoute.getD route 0 + it.stopIndex < d.stopIds.length := by omega
  apply hd.stopIds
  rw [List.getD_eq_getElem?_getD, List.getElem?_eq_getElem hidx]
  exact List.getElem_mem hidx

/-- The loop that goes back to the earliest trip ends. -/
theorem earlierTrips_some (d : RAPTOR.Data) (s : ShortcutSearch) (previous route : Nat) :
    ∀ (fuel : Nat) (it : RAPTOR.TripIterator), OnRoute d route it → 1 ≤ it.tripSize →
      it.currentTrip < fuel →
      ∃ it', earlierTrips d s previous fuel it = some it' ∧ OnRoute d route it' ∧
        it'.stopIndex = it.stopIndex ∧ it'.tripSize = it.tripSize := by
  intro fuel
  induction fuel with
  | zero => intro it _ _ h; exact absurd h (Nat.not_lt_zero _)
  | succ fuel ih =>
    intro it hon hsize hfuel
    unfold earlierTrips
    simp only []
    split
    · rename_i hc
      have hearlier : it.previousTrip.firstTrip < it.previousTrip.currentTrip := by
        have := hc.1
        unfold RAPTOR.TripIterator.hasEarlierTrip at this
        exact of_decide_eq_true this
      have hcur : it.previousTrip.currentTrip = it.currentTrip - it.tripSize := rfl
      obtain ⟨it', h1, h2, h3, h4⟩ := ih it.previousTrip hon.previousTrip_onRoute hsize
        (by rw [hcur] at hearlier ⊢; omega)
      exact ⟨it', h1, h2, h3, h4⟩
    · exact ⟨_, rfl, hon.previousTrip_onRoute, rfl, rfl⟩

/-- The loop that looks for the next updated stop ends, at a later stop. -/
theorem fastForward_some (d : RAPTOR.Data) (s : ShortcutSearch) (previous route : Nat) :
    ∀ (fuel : Nat) (it : RAPTOR.TripIterator), OnRoute d route it → 1 ≤ fuel →
      it.tripSize ≤ fuel + it.stopIndex →
      ∃ it', fastForward d s previous fuel it = some it' ∧ OnRoute d route it' ∧
        it.stopIndex < it'.stopIndex ∧ it'.tripSize = it.tripSize := by
  intro fuel
  induction fuel with
  | zero => intro it _ h _; exact absurd h (by omega)
  | succ fuel ih =>
    intro it hon _ hfuel
    unfold fastForward
    simp only []
    split
    · rename_i hc
      have hfurther : it.nextStop.stopIndex + 1 < it.nextStop.tripSize := by
        have := hc.1
        unfold RAPTOR.TripIterator.hasFurtherStops at this
        exact of_decide_eq_true this
      have hidx : it.nextStop.stopIndex = it.stopIndex + 1 := rfl
      have hsz : it.nextStop.tripSize = it.tripSize := rfl
      obtain ⟨it', h1, h2, h3, h4⟩ := ih it.nextStop hon.nextStop_onRoute (by omega) (by omega)
      exact ⟨it', h1, h2, by omega, h4.trans hsz⟩
    · exact ⟨_, rfl, hon.nextStop_onRoute, Nat.lt_succ_self _, rfl⟩

/-- The search for the trip to board at the current stop ends: it leaves the loop, goes on
from a later stop, or rides a trip of the route from the current stop with a parent index
that is not behind it. -/
theorem board_some (d : RAPTOR.Data) (s : ShortcutSearch) (previous route : Nat)
    (it : RAPTOR.TripIterator) (parentIndex : Nat) (hon : OnRoute d route it)
    (hsize : 1 ≤ it.tripSize) (hp : parentIndex ≤ it.stopIndex) :
    board d s previous it parentIndex = some Boarding.leave ∨
      (∃ it', board d s previous it parentIndex = some (Boarding.skip it') ∧
        OnRoute d route it' ∧ it.stopIndex < it'.stopIndex ∧ it'.tripSize = it.tripSize) ∨
      (∃ it' p, board d s previous it parentIndex = some (Boarding.ride it' p) ∧
        OnRoute d route it' ∧ it'.stopIndex = it.stopIndex ∧ it'.tripSize = it.tripSize ∧
        p ≤ it'.stopIndex) := by
  unfold board
  split
  · obtain ⟨it1, e1, on1, idx1, sz1⟩ := earlierTrips_some d s previous route
      (it.currentTrip + 1) it hon hsize (Nat.lt_succ_self _)
    rw [e1]
    simp only []
    split
    · split
      · exact Or.inl rfl
      · obtain ⟨it2, e2, on2, idx2, sz2⟩ := fastForward_some d s previous route
          (it1.tripSize + 1) it1 on1 (by omega) (by omega)
        rw [e2]
        exact Or.inr (Or.inl ⟨it2, rfl, on2, by omega, sz2.trans sz1⟩)
    · exact Or.inr (Or.inr ⟨it1, it1.stopIndex, rfl, on1, idx1, sz1, le_refl _⟩)
  · exact Or.inr (Or.inr ⟨it, parentIndex, rfl, hon, rfl, rfl, hp⟩)

/-- The trip of an iterator reaches the stop of the iterator from every earlier stop
index. -/
theorem OnRoute.reaches {d : RAPTOR.Data} {route : Nat} {it : RAPTOR.TripIterator}
    (h : OnRoute d route it) {p : Nat} (hp : p < it.stopIndex) (hi : it.stopIndex < it.tripSize) :
    Reaches d (it.stopEventAt p) (it.stop d) (it.arrivalTime d) := by
  obtain ⟨h1, h2, k, h3⟩ := h
  refine ⟨route, k, p, it.stopIndex, hp, by rw [← h1]; exact hi, ?_, ?_, ?_⟩
  · unfold RAPTOR.TripIterator.stopEventAt; rw [h3]
  · unfold RAPTOR.TripIterator.stop RAPTOR.TripIterator.stopAt; rw [h2]
  · unfold RAPTOR.TripIterator.arrivalTime; rw [h3]

/-- An arrival of the second route scan keeps the invariant of the second round. -/
theorem arrive_round2 {d : RAPTOR.Data} (hd : WellFormed d) {base : Nat → Int}
    {s : ShortcutSearch} (h : Round2 d base s) {route : Nat} {it : RAPTOR.TripIterator}
    (hon : OnRoute d route it) {p : Nat} (hp : p < it.stopIndex)
    (hi : it.stopIndex < it.tripSize) :
    Round2 d base (arrive d 2 it p s) ∧ (arrive d 2 it p s).shortcuts = s.shortcuts ∧
      (arrive d 2 it p s).shortcutDestinationCandidates = s.shortcutDestinationCandidates := by
  have hno : d.isStop noStop = false := isStop_noStop d (le_trans hd.stops hd.size)
  have hstop : it.stop d < d.transferGraph.numVertices :=
    lt_of_lt_of_le (hon.stop_lt hd hi) hd.stops
  have hreach := hon.reaches hp hi
  have h21 : ¬ ((2 : Nat) = 1) := by decide
  unfold arrive
  simp only [h21, if_false]
  by_cases hlt : it.arrivalTime d < s.arrivalTime 2 (it.stop d)
  · rw [if_pos hlt]
    exact arrivalByRoute2_round2 hno h _ _ _ _ hstop hreach (le_of_lt hlt)
  · rw [if_neg hlt]
    by_cases heq : it.arrivalTime d = s.arrivalTime 2 (it.stop d)
    · rw [if_pos heq]
      by_cases hc : s.oneTripTransferParent.getD (it.stopAt d p) noStopEvent ≠ noStopEvent
      · rw [if_pos hc]
        exact arrivalByRoute2_round2 hno h _ _ _ _ hstop hreach (le_of_eq heq)
      · rw [if_neg hc]
        exact ⟨h, rfl, rfl⟩
    · rw [if_neg heq]
      exact ⟨h, rfl, rfl⟩

end ShortcutSearch
end TripBased

namespace TripBased
namespace ShortcutSearch

/-- The scan of one route in the second round ends and keeps the invariant; it emits no
shortcut. -/
theorem scanRoute_round2 {d : RAPTOR.Data} (hd : WellFormed d) {base : Nat → Int}
    (route : Nat) :
    ∀ (fuel : Nat) (it : RAPTOR.TripIterator) (p : Nat) (s : ShortcutSearch),
      OnRoute d route it → p ≤ it.stopIndex → 1 ≤ fuel → it.tripSize ≤ fuel + it.stopIndex →
      Round2 d base s →
      ∃ s', scanRoute d 2 fuel it p s = some s' ∧ Round2 d base s' ∧
        s'.shortcuts = s.shortcuts ∧
        s'.shortcutDestinationCandidates = s.shortcutDestinationCandidates := by
  intro fuel
  induction fuel with
  | zero => intro it p s _ _ h; exact absurd h (by omega)
  | succ fuel ih =>
    intro it p s hon hp _ hfuel h
    unfold scanRoute
    by_cases hf : it.hasFurtherStops = true
    · rw [if_pos hf]
      have hfurther : it.stopIndex + 1 < it.tripSize := by
        unfold RAPTOR.TripIterator.hasFurtherStops at hf
        exact of_decide_eq_true hf
      rcases board_some d s (2 - 1) route it p hon (by omega) hp with
        hb | ⟨it', hb, on', idx', sz'⟩ | ⟨it', p', hb, on', idx', sz', hp'⟩
      · rw [hb]; exact ⟨s, rfl, h, rfl, rfl⟩
      · rw [hb]
        simp only []
        exact ih it' p s on' (by omega) (by omega) (by omega) h
      · rw [hb]
        simp only []
        have hidx : it'.nextStop.stopIndex = it'.stopIndex + 1 := rfl
        have hsz : it'.nextStop.tripSize = it'.tripSize := rfl
        obtain ⟨a1, a2, a3⟩ := @arrive_round2 d hd base s h route it'.nextStop
          on'.nextStop_onRoute p' (by omega) (by omega)
        obtain ⟨s', r1, r2, r3, r4⟩ := ih it'.nextStop p' _ on'.nextStop_onRoute (by omega)
          (by omega) (by omega) a1
        exact ⟨s', r1, r2, r3.trans a2, r4.trans a3⟩
    · rw [if_neg hf]
      exact ⟨s, rfl, h, rfl, rfl⟩

/-- The scan of the routes in the second round. -/
theorem scanRouteList_round2 {d : RAPTOR.Data} (hd : WellFormed d) {base : Nat → Int} :
    ∀ (routes : List Nat) (s : ShortcutSearch), Round2 d base s →
      ∃ s', scanRouteList d 2 routes s = some s' ∧ Round2 d base s' ∧
        s'.shortcuts = s.shortcuts ∧
        s'.shortcutDestinationCandidates = s.shortcutDestinationCandidates := by
  intro routes
  induction routes with
  | nil => intro s h; exact ⟨s, rfl, h, rfl, rfl⟩
  | cons route rest ih =>
    intro s h
    unfold scanRouteList
    simp only []
    obtain ⟨s1, r1, r2, r3, r4⟩ := @scanRoute_round2 d hd base route
      (d.numberOfStopsInRoute route + 1)
      (d.getTripIterator route (s.routesServingUpdatedStops.get route))
      (s.routesServingUpdatedStops.get route) s
      ⟨rfl, rfl, 0, by simp [RAPTOR.Data.getTripIterator]⟩ (le_refl _) (by omega)
      (by show d.numberOfStopsInRoute route ≤ _; omega) h
    rw [r1]
    simp only []
    obtain ⟨s2, q1, q2, q3, q4⟩ := ih s1 r2
    exact ⟨s2, q1, q2, q3.trans r3, q4.trans r4⟩

/-- `scanRoutes<2>()` ends and keeps the invariant of the second round; it emits no
shortcut. -/
theorem scanRoutes_round2 {d : RAPTOR.Data} (hd : WellFormed d) {base : Nat → Int}
    {s : ShortcutSearch} (h : Round2 d base s) :
    ∃ s', scanRoutes d 2 s = some s' ∧ Round2 d base s' ∧ s'.shortcuts = s.shortcuts ∧
      s'.shortcutDestinationCandidates = s.shortcutDestinationCandidates := by
  obtain ⟨s1, r1, r2, r3, r4⟩ :=
    @scanRouteList_round2 d hd base s.routesServingUpdatedStops.keys s h
  unfold scanRoutes
  rw [r1]
  exact ⟨_, rfl, ⟨r2.labels, r2.parents, r2.events, r2.queue, r2.updated, r2.marked, r2.below, r2.nodupQ⟩,
    r3, r4⟩

/-- A state that is ready for the second round satisfies its invariant. -/
theorem Ready.round2 {d : RAPTOR.Data} (hd : WellFormed d) {s : ShortcutSearch}
    (h : Ready d s) : Round2 d (fun x => s.twoTripsArrivalLabels.getD x never) s := by
  have hno : d.isStop noStop = false := isStop_noStop d (le_trans hd.stops hd.size)
  refine ⟨h.labels, h.parents, h.events, h.queue, h.updated, ?_, fun _ => le_refl _, h.nodupQ⟩
  intro stop hstop
  exfalso
  by_cases hlt : stop < s.twoTripsRouteParent.length
  · have hmem : s.twoTripsRouteParent.getD stop noStop ∈ s.twoTripsRouteParent := by
      rw [List.getD_eq_getElem?_getD, List.getElem?_eq_getElem hlt]
      exact List.getElem_mem hlt
    rw [h.noMarks _ hmem] at hstop
    exact Bool.noConfusion hstop
  · rw [getD_of_length_le _ _ _ (by omega), hno] at hstop
    exact Bool.noConfusion hstop

end ShortcutSearch
end TripBased

namespace TripBased
namespace ShortcutSearch

theorem getD_mem_of_lt {α : Type} (l : List α) (i : Nat) (dflt : α) (h : i < l.length) :
    l.getD i dflt ∈ l := by
  rw [List.getD_eq_getElem _ _ h]
  exact List.getElem_mem h

theorem length_le_of_nodup (l : List Nat) (n : Nat) (h : l.Nodup) (hlt : ∀ x ∈ l, x < n) :
    l.length ≤ n := by
  have hsub : l.toFinset ⊆ Finset.range n := by
    intro x hx
    rw [List.mem_toFinset] at hx
    exact Finset.mem_range.mpr (hlt x hx)
  have hcard := Finset.card_le_card hsub
  rwa [List.toFinset_card_of_nodup h, Finset.card_range] at hcard

/-- The edges leaving a vertex are edges of the transfer graph. -/
theorem edgesFrom_lt {d : RAPTOR.Data} (hd : WellFormed d) (v e : Nat)
    (he : e ∈ d.transferGraph.edgesFrom v) : e < d.transferGraph.toVertex.length := by
  unfold StaticGraph.edgesFrom at he
  rw [List.mem_range'_1] at he
  have hle : d.transferGraph.beginEdgeFrom (v + 1) ≤ d.transferGraph.toVertex.length := by
    unfold StaticGraph.beginEdgeFrom
    by_cases hv : v + 1 < d.transferGraph.beginOut.length
    · exact hd.edgeIds _ (getD_mem_of_lt _ _ _ hv)
    · rw [getD_of_length_le _ _ _ (by omega)]; omega
  omega

/-- One step of the first loop of `finalDijkstra` keeps the invariant of the round. -/
theorem seedFinal_round2 {d : RAPTOR.Data} {base : Nat → Int} {s : ShortcutSearch}
    (h : Round2 d base s) (stop : Nat) (hstop : stop < d.transferGraph.numVertices) :
    Round2 d base (seedFinal d s stop) ∧ (seedFinal d s stop).shortcuts = s.shortcuts := by
  have hq : ∀ x ∈ CH.heapUpdate s.twoTripsQueue stop, x < d.transferGraph.numVertices := by
    intro x hx
    rcases (CH.heapUpdate_mem _ _ _).mp hx with h1 | h1
    · exact h.queue x h1
    · rw [h1]; exact hstop
  unfold seedFinal
  simp only []
  split
  · exact ⟨⟨h.labels, h.parents, h.events, hq, h.updated, h.marked, h.below,
      CH.heapUpdate_nodup _ _ h.nodupQ⟩, rfl⟩
  · exact ⟨⟨h.labels, h.parents, h.events, hq, h.updated, h.marked, h.below,
      CH.heapUpdate_nodup _ _ h.nodupQ⟩, rfl⟩

theorem seedFinal_fold {d : RAPTOR.Data} {base : Nat → Int} :
    ∀ (l : List Nat) (s : ShortcutSearch), Round2 d base s →
      (∀ x ∈ l, x < d.transferGraph.numVertices) →
      Round2 d base (l.foldl (seedFinal d) s) ∧
        (l.foldl (seedFinal d) s).shortcuts = s.shortcuts := by
  intro l
  induction l with
  | nil => intro s h _; exact ⟨h, rfl⟩
  | cons x xs ih =>
    intro s h hl
    rw [List.foldl_cons]
    have h1 := seedFinal_round2 h x (hl x (List.mem_cons_self _ _))
    have h2 := ih _ h1.1 (fun y hy => hl y (List.mem_cons_of_mem _ hy))
    exact ⟨h2.1, h2.2.trans h1.2⟩

/-- What `arrivalByEdge2` writes. -/
theorem arrivalByEdge2_fields (d : RAPTOR.Data) (s : ShortcutSearch) (vertex : Nat)
    (arrivalTime : Int) :
    (arrivalByEdge2 d s vertex arrivalTime).twoTripsArrivalLabels =
        s.twoTripsArrivalLabels.set vertex arrivalTime ∧
      (arrivalByEdge2 d s vertex arrivalTime).twoTripsQueue =
        CH.heapUpdate s.twoTripsQueue vertex ∧
      (arrivalByEdge2 d s vertex arrivalTime).shortcuts = s.shortcuts ∧
      (arrivalByEdge2 d s vertex arrivalTime).twoTripsRouteParentEvent =
        s.twoTripsRouteParentEvent ∧
      (arrivalByEdge2 d s vertex arrivalTime).stopsUpdatedByRoute = s.stopsUpdatedByRoute ∧
      (arrivalByEdge2 d s vertex arrivalTime).twoTripsRouteParent =
        (if d.isStop vertex = true then s.twoTripsRouteParent.set vertex noStop
          else s.twoTripsRouteParent) := by
  unfold arrivalByEdge2
  simp only []
  by_cases h1 : d.isStop vertex = true
  · rw [if_pos h1, if_pos h1]
    by_cases h2 : d.isStop (s.twoTripsRouteParent.getD vertex noStop) = true
    · rw [if_pos h2]
      exact ⟨rfl, rfl, rfl, rfl, rfl, rfl⟩
    · rw [if_neg h2]
      exact ⟨rfl, rfl, rfl, rfl, rfl, rfl⟩
  · rw [if_neg h1, if_neg h1]
    exact ⟨rfl, rfl, rfl, rfl, rfl, rfl⟩

/-- An arrival by an edge from the current vertex at a vertex with a later label keeps the
invariant of the relaxations: the vertex is not settled, its label stays above the label of
the current vertex, and it is no longer marked. -/
theorem arrivalByEdge2_mid {d : RAPTOR.Data} (hno : d.isStop noStop = false)
    {base : Nat → Int} {shortcuts : List Shortcut} {done : List Nat} {current : Nat} {L : Int}
    {s : ShortcutSearch} (h : FinalMid d base shortcuts done current L s) (vertex : Nat)
    (T : Int) (hv : vertex < d.transferGraph.numVertices) (hL : L ≤ T)
    (hT : T < s.twoTripsArrivalLabels.getD vertex never) :
    FinalMid d base shortcuts done current L (arrivalByEdge2 d s vertex T) := by
  obtain ⟨e1, e2, e3, e4, e5, e6⟩ := arrivalByEdge2_fields d s vertex T
  have hnot : ∀ x ∈ done, vertex ≠ x := by
    intro x hx hvx
    have := (h.settled x hx).2.2
    rw [← hvx] at this
    omega
  have hsame : ∀ x ∈ done, (s.twoTripsArrivalLabels.set vertex T).getD x never =
      s.twoTripsArrivalLabels.getD x never :=
    fun x hx => getD_set_ne _ _ _ _ _ (hnot x hx)
  have hlen : vertex < s.twoTripsArrivalLabels.length := by rw [h.round.labels]; exact hv
  refine ⟨⟨?_, ?_, ?_, ?_, ?_, ?_, ?_, ?_⟩, ?_, ?_, h.nodup, ⟨h.here.1, ?_⟩, ?_⟩
  · rw [e1, List.length_set]; exact h.round.labels
  · rw [e6]
    split
    · rw [List.length_set]; exact h.round.parents
    · exact h.round.parents
  · rw [e4]; exact h.round.events
  · rw [e2]
    intro x hx
    rcases (CH.heapUpdate_mem _ _ _).mp hx with h1 | h1
    · exact h.round.queue x h1
    · rw [h1]; exact hv
  · rw [e5]; exact h.round.updated
  · intro x hx
    rw [e6] at hx
    rw [e4, e1]
    by_cases hxs : vertex = x
    · subst hxs
      exfalso
      by_cases hin : d.isStop vertex = true
      · rw [if_pos hin, getD_set_self _ _ _ _ (by rw [h.round.parents]; exact isStop_lt d hin),
          hno] at hx
        exact absurd hx (by simp)
      · rw [if_neg hin] at hx
        have hge : d.numberOfStops ≤ vertex := by
          unfold RAPTOR.Data.isStop at hin
          simpa using hin
        rw [not_marked_of_le d s h.round.parents hno hge] at hx
        exact absurd hx (by simp)
    · rw [getD_set_ne _ _ _ _ _ hxs]
      have hx2 : d.isStop (s.twoTripsRouteParent.getD x noStop) = true := by
        split at hx
        · rwa [getD_set_ne _ _ _ _ _ hxs] at hx
        · exact hx
      exact h.round.marked x hx2
  · intro x
    rw [e1]
    exact le_trans (getD_set_le _ _ _ (le_of_lt hT) x) (h.round.below x)
  · rw [e2]; exact CH.heapUpdate_nodup _ _ h.round.nodupQ
  · intro x hx
    refine ⟨(h.settled x hx).1, ?_, ?_⟩
    · rw [e2]
      intro hmem
      rcases (CH.heapUpdate_mem _ _ _).mp hmem with h1 | h1
      · exact (h.settled x hx).2.1 h1
      · exact hnot x hx h1.symm
    · rw [e1, hsame x hx]; exact (h.settled x hx).2.2
  · intro q hq
    rw [e2] at hq
    rw [e1]
    by_cases hqv : vertex = q
    · subst hqv
      rw [getD_set_self _ _ _ _ hlen]; exact hL
    · rw [getD_set_ne _ _ _ _ _ hqv]
      rcases (CH.heapUpdate_mem _ _ _).mp hq with h1 | h1
      · exact h.above q h1
      · exact absurd h1.symm hqv
  · rw [e1, hsame current h.here.1]; exact h.here.2
  · obtain ⟨new, hnew, hall⟩ := h.emitted
    refine ⟨new, by rw [e3]; exact hnew, ?_⟩
    intro sc hsc
    obtain ⟨D, hD, hstop, hreach⟩ := hall sc hsc
    exact ⟨D, hD, hstop, by rw [e1, hsame D hD]; exact hreach⟩

/-- One relaxation of an edge of the transfer graph keeps the invariant. -/
theorem relaxTwoTrips_mid {d : RAPTOR.Data} (hd : WellFormed d)
    {base : Nat → Int} {shortcuts : List Shortcut} {done : List Nat} {current : Nat} {L : Int}
    {s : ShortcutSearch} (h : FinalMid d base shortcuts done current L s) (edge : Nat)
    (hedge : edge < d.transferGraph.toVertex.length) :
    FinalMid d base shortcuts done current L (relaxTwoTrips d current s edge) := by
  have hno : d.isStop noStop = false := isStop_noStop d (le_trans hd.stops hd.size)
  have hv : d.transferGraph.toVertex.getD edge noVertex < d.transferGraph.numVertices :=
    hd.heads _ (getD_mem_of_lt _ _ _ hedge)
  have hw : 0 ≤ d.transferGraph.travelTime.getD edge 0 :=
    hd.nonneg _ (getD_mem_of_lt _ _ _ (by rw [hd.times]; exact hedge))
  unfold relaxTwoTrips
  simp only []
  split
  · rename_i hlt
    refine arrivalByEdge2_mid hno h _ _ hv ?_ hlt
    rw [h.here.2]; omega
  · exact h

theorem relaxTwoTrips_fold {d : RAPTOR.Data} (hd : WellFormed d)
    {base : Nat → Int} {shortcuts : List Shortcut} {done : List Nat} {current : Nat} {L : Int} :
    ∀ (l : List Nat) (s : ShortcutSearch), (∀ e ∈ l, e < d.transferGraph.toVertex.length) →
      FinalMid d base shortcuts done current L s →
      FinalMid d base shortcuts done current L (l.foldl (relaxTwoTrips d current) s) := by
  intro l
  induction l with
  | nil => intro s _ h; exact h
  | cons e es ih =>
    intro s hl h
    rw [List.foldl_cons]
    exact ih _ (fun y hy => hl y (List.mem_cons_of_mem _ hy))
      (relaxTwoTrips_mid hd h e (hl e (List.mem_cons_self _ _)))

/-- Unmarking the obsolete candidates only erases route parents. -/
theorem unmark_getD : ∀ (l : List Nat) (parents : List Nat) (x : Nat),
    ((l.foldl (fun parents obsoleteCandidate => parents.set obsoleteCandidate noStop)
        parents).length = parents.length) ∧
    ((l.foldl (fun parents obsoleteCandidate => parents.set obsoleteCandidate noStop)
        parents).getD x noStop = parents.getD x noStop ∨
      (l.foldl (fun parents obsoleteCandidate => parents.set obsoleteCandidate noStop)
        parents).getD x noStop = noStop) := by
  intro l
  induction l with
  | nil => intro parents x; exact ⟨rfl, Or.inl rfl⟩
  | cons c cs ih =>
    intro parents x
    rw [List.foldl_cons]
    obtain ⟨h1, h2⟩ := ih (parents.set c noStop) x
    refine ⟨by rw [h1, List.length_set], ?_⟩
    rcases h2 with h2 | h2
    · by_cases hcx : c = x
      · subst hcx
        right
        rw [h2]
        by_cases hin : c < parents.length
        · exact getD_set_self _ _ _ _ hin
        · rw [set_of_length_le _ _ _ (by omega), getD_of_length_le _ _ _ (by omega)]
      · left
        rw [h2, getD_set_ne _ _ _ _ _ hcx]
    · exact Or.inr h2

/-- The insertion of the shortcut of the current vertex, a marked stop, keeps the
invariant: the shortcut belongs to the current vertex. -/
theorem insertShortcut_mid {d : RAPTOR.Data} (hno : d.isStop noStop = false)
    {base : Nat → Int} {shortcuts : List Shortcut} {done : List Nat} {current : Nat} {L : Int}
    {s : ShortcutSearch} (h : FinalMid d base shortcuts done current L s)
    (hstop : d.isStop current = true)
    (hparent : d.isStop (s.twoTripsRouteParent.getD current noStop) = true) :
    FinalMid d base shortcuts done current L (insertShortcut d s current) := by
  unfold insertShortcut
  simp only []
  refine ⟨⟨h.round.labels, ?_, h.round.events, h.round.queue, h.round.updated, ?_,
    h.round.below, h.round.nodupQ⟩, h.settled, h.above, h.nodup, h.here, ?_⟩
  · rw [(unmark_getD _ _ 0).1]; exact h.round.parents
  · intro x hx
    simp only [] at hx ⊢
    rcases (unmark_getD (s.shortcutDestinationCandidates.get
      (s.twoTripsRouteParentEvent.getD current 0)) s.twoTripsRouteParent x).2 with h1 | h1
    · rw [h1] at hx; exact h.round.marked x hx
    · rw [h1, hno] at hx; exact absurd hx (by simp)
  · obtain ⟨new, hnew, hall⟩ := h.emitted
    refine ⟨new ++ [⟨s.oneTripTransferParent.getD
        (s.twoTripsRouteParent.getD current noStop) noStopEvent,
      s.twoTripsRouteParentEvent.getD current 0,
      s.oneTripArrivalLabels.getD (s.twoTripsRouteParent.getD current noStop) never -
        (d.stopEventAt (s.oneTripTransferParent.getD
          (s.twoTripsRouteParent.getD current noStop) noStopEvent)).arrivalTime⟩], ?_, ?_⟩
    · simp only []
      rw [hnew, List.append_assoc]
    · intro sc hsc
      rcases List.mem_append.mp hsc with h1 | h1
      · exact hall sc h1
      · rw [List.mem_singleton] at h1
        subst h1
        exact ⟨current, h.here.1, hstop, h.round.marked current hparent⟩

/-- The loop of `finalDijkstra` ends within one iteration per vertex and keeps its
invariant. -/
theorem finalLoop_final {d : RAPTOR.Data} (hd : WellFormed d) {base : Nat → Int}
    {shortcuts : List Shortcut} :
    ∀ (fuel : Nat) (done : List Nat) (s : ShortcutSearch), Final d base shortcuts done s →
      d.transferGraph.numVertices + 1 ≤ fuel + done.length →
      ∃ s' done', finalLoop d fuel s = some s' ∧ Final d base shortcuts done' s' := by
  have hno : d.isStop noStop = false := isStop_noStop d (le_trans hd.stops hd.size)
  intro fuel
  induction fuel with
  | zero =>
    intro done s h hf
    have := length_le_of_nodup done _ h.nodup (fun x hx => (h.settled x hx).1)
    omega
  | succ fuel ih =>
    intro done s h hf
    unfold finalLoop
    cases hfront : CH.heapFront (fun v => s.twoTripsArrivalLabels.getD v never)
      s.twoTripsQueue with
    | none => exact ⟨s, done, rfl, h⟩
    | some current =>
      simp only []
      obtain ⟨hmem, hmin⟩ := CH.heapFront_some _ _ _ hfront
      have hcur : current ∉ done := fun hc => (h.settled current hc).2.1 hmem
      have mid0 : FinalMid d base shortcuts (current :: done) current
          (s.twoTripsArrivalLabels.getD current never)
          { s with twoTripsQueue := s.twoTripsQueue.erase current } := by
        refine ⟨⟨h.round.labels, h.round.parents, h.round.events, ?_, h.round.updated,
          h.round.marked, h.round.below, h.round.nodupQ.erase _⟩, ?_, ?_,
          List.nodup_cons.mpr ⟨hcur, h.nodup⟩, ⟨List.mem_cons_self _ _, rfl⟩, ?_⟩
        · intro x hx; exact h.round.queue x (List.mem_of_mem_erase hx)
        · intro x hx
          rcases List.mem_cons.mp hx with h1 | h1
          · subst h1
            exact ⟨h.round.queue x hmem,
              fun hin => (List.Nodup.mem_erase_iff h.round.nodupQ).mp hin |>.1 rfl, le_refl _⟩
          · exact ⟨(h.settled x h1).1,
              fun hin => (h.settled x h1).2.1 (List.mem_of_mem_erase hin),
              (h.settled x h1).2.2 current hmem⟩
        · intro q hq
          exact hmin q (List.mem_of_mem_erase hq)
        · obtain ⟨new, hnew, hall⟩ := h.emitted
          refine ⟨new, hnew, ?_⟩
          intro sc hsc
          obtain ⟨D, hD, hrest⟩ := hall sc hsc
          exact ⟨D, List.mem_cons_of_mem _ hD, hrest⟩
      have mid1 := relaxTwoTrips_fold hd (d.transferGraph.edgesFrom current) _
        (fun e he => edgesFrom_lt hd current e he) mid0
      have toFinal : ∀ s2, FinalMid d base shortcuts (current :: done) current
          (s.twoTripsArrivalLabels.getD current never) s2 →
          Final d base shortcuts (current :: done) s2 := by
        intro s2 m
        exact ⟨m.round, fun x hx => ⟨(m.settled x hx).1, (m.settled x hx).2.1,
          fun q hq => le_trans (m.settled x hx).2.2 (m.above q hq)⟩, m.nodup, m.emitted⟩
      have continue_ : ∀ s2, Final d base shortcuts (current :: done) s2 →
          ∃ s' done', (if s2.shortcutDestinationCandidates.isEmpty = true then some s2
            else finalLoop d fuel s2) = some s' ∧ Final d base shortcuts done' s' := by
        intro s2 f2
        by_cases he : s2.shortcutDestinationCandidates.isEmpty = true
        · rw [if_pos he]; exact ⟨s2, _, rfl, f2⟩
        · rw [if_neg he]
          exact ih (current :: done) s2 f2 (by rw [List.length_cons]; omega)
      by_cases hc : d.isStop current = true ∧
          d.isStop (((d.transferGraph.edgesFrom current).foldl (relaxTwoTrips d current)
            { s with twoTripsQueue := s.twoTripsQueue.erase current }).twoTripsRouteParent.getD
              current noStop) = true
      · rw [if_pos hc]
        exact continue_ _ (toFinal _ (insertShortcut_mid hno mid1 hc.1 hc.2))
      · rw [if_neg hc]
        exact continue_ _ (toFinal _ mid1)

/-- `finalDijkstra()` ends, and every shortcut it inserts belongs to a stop whose label is
the arrival of the trip boarded with the destination of the shortcut. -/
theorem finalDijkstra_final {d : RAPTOR.Data} (hd : WellFormed d) {base : Nat → Int}
    {s : ShortcutSearch} (h : Round2 d base s) (fuel : Nat)
    (hfuel : d.transferGraph.numVertices < fuel) :
    ∃ s', finalDijkstra d fuel s = some s' ∧ ∃ new, s'.shortcuts = s.shortcuts ++ new ∧
      ∀ sc ∈ new, ∃ D, d.isStop D = true ∧
        Reaches d sc.destination D (s'.twoTripsArrivalLabels.getD D never) ∧
        s'.twoTripsArrivalLabels.getD D never ≤ base D := by
  obtain ⟨r, hsc⟩ := seedFinal_fold s.stopsUpdatedByRoute.keys s h h.updated
  have f0 : Final d base s.shortcuts [] (s.stopsUpdatedByRoute.keys.foldl (seedFinal d) s) :=
    ⟨r, fun x hx => absurd hx (List.not_mem_nil x), List.nodup_nil,
      ⟨[], by rw [hsc, List.append_nil], fun sc hx => absurd hx (List.not_mem_nil sc)⟩⟩
  obtain ⟨s', done', hrun, f⟩ := finalLoop_final hd fuel [] _ f0
    (by rw [List.length_nil]; omega)
  unfold finalDijkstra
  rw [hrun]
  simp only []
  obtain ⟨new, hnew, hall⟩ := f.emitted
  refine ⟨_, rfl, new, hnew, ?_⟩
  intro sc hx
  obtain ⟨D, _, hstop, hreach⟩ := hall sc hx
  exact ⟨D, hstop, hreach, f.round.below D⟩

end ShortcutSearch
end TripBased

namespace TripBased
namespace ShortcutSearch

/-- Witness dominance as the sentence of the specification has it fails on the code.  In
`twoRoutes 300` the walk from A reaches D at 400, the very time at which the candidate journey over the shortcut
(1, 2) arrives, and the run from A still emits the shortcut.  In `farWitness` with the
witness transfer limit 900 the witness over the stops E, F and G reaches D at 1399,
strictly before the candidate at 1400, and the run still emits the shortcut, since the
walk of the witness from F to G lies beyond the limit. -/
theorem run_emits_dominated_shortcut :
    ¬ WitnessDominance (fun T' T => T' ≤ T) (twoRoutes 300) 900 10 0 0 1000 ∧
      ¬ WitnessDominance (fun T' T => T' < T) farWitness 900 20 0 0 2000 := by
  constructor
  · intro h
    have hs : (run (twoRoutes 300) 10 (new (twoRoutes 300) 900) 0 0 1000).map
        (fun s => s.shortcuts) = some [⟨1, 2, 60⟩] := by decide
    cases hrun : run (twoRoutes 300) 10 (new (twoRoutes 300) 900) 0 0 1000 with
    | none => rw [hrun] at hs; exact absurd hs (by simp)
    | some s' =>
      rw [hrun] at hs
      have hsc : s'.shortcuts = [⟨1, 2, 60⟩] := by simpa using hs
      refine h s' hrun ⟨1, 2, 60⟩ (by rw [hsc]; exact List.mem_singleton.mpr rfl) 100 3 400
        ?_ ⟨400, le_refl _, ?_⟩
      · exact ⟨0, 0, 0, 1, by decide, by decide, by decide, by decide, by decide,
          1, 0, 0, 1, by decide, by decide, by decide,
          Or.inr ⟨1, by decide, by decide, by decide⟩, by decide, by decide, by decide⟩
      · exact Or.inl ⟨300, Or.inr ⟨0, by decide, by decide, by decide⟩, by decide⟩
  · intro h
    have hs : (run farWitness 20 (new farWitness 900) 0 0 2000).map
        (fun s => s.shortcuts) = some [⟨1, 2, 60⟩] := by decide
    cases hrun : run farWitness 20 (new farWitness 900) 0 0 2000 with
    | none => rw [hrun] at hs; exact absurd hs (by simp)
    | some s' =>
      rw [hrun] at hs
      have hsc : s'.shortcuts = [⟨1, 2, 60⟩] := by simpa using hs
      refine h s' hrun ⟨1, 2, 60⟩ (by rw [hsc]; exact List.mem_singleton.mpr rfl) 100 3 1400
        ?_ ⟨1399, by decide, ?_⟩
      · exact ⟨0, 0, 0, 1, by decide, by decide, by decide, by decide, by decide,
          1, 0, 0, 1, by decide, by decide, by decide,
          Or.inr ⟨1, by decide, by decide, by decide⟩, by decide, by decide, by decide⟩
      · exact Or.inr ⟨4, 10, by decide, by decide, Or.inr ⟨0, by decide, by decide, by decide⟩,
          5, 250, ⟨2, 0, 0, 1, by decide, by decide, by decide, by decide, by decide, by decide⟩,
          Or.inr ⟨6, 1000, 3, 1399, Or.inr ⟨3, by decide, by decide, by decide⟩,
            ⟨3, 0, 0, 1, by decide, by decide, by decide, by decide, by decide, by decide⟩,
            0, Or.inl ⟨rfl, rfl⟩, by decide⟩⟩

/-- From every state in which the second round starts, `scanRoutes<2>()` followed by
`finalDijkstra()` ends within one iteration of the Dijkstra loop per vertex, and every
shortcut it adds has a destination stop `D` that the trip boarded with the
destination event of the shortcut reaches at the final two-trips label of `D`, which is
not later than the label of `D` before the round.  So a shortcut is emitted only when no
arrival that the search has recorded at `D`, of a witness or of a candidate, is strictly
earlier than the arrival of its candidate journey. -/
theorem secondRound_shortcuts (d : RAPTOR.Data) (hd : WellFormed d) (s : ShortcutSearch)
    (hs : Ready d s) (fuel : Nat) (hfuel : d.transferGraph.numVertices < fuel) :
    ∃ s', secondRound d fuel s = some s' ∧ ∃ new, s'.shortcuts = s.shortcuts ++ new ∧
      ∀ sc ∈ new, ∃ D, d.isStop D = true ∧
        Reaches d sc.destination D (s'.twoTripsArrivalLabels.getD D never) ∧
        s'.twoTripsArrivalLabels.getD D never ≤ s.twoTripsArrivalLabels.getD D never := by
  obtain ⟨s1, h1, r1, sc1, _⟩ := scanRoutes_round2 hd (Ready.round2 hd hs)
  obtain ⟨s2, h2, new, hnew, hall⟩ := finalDijkstra_final hd r1 fuel hfuel
  refine ⟨s2, ?_, new, by rw [hnew, sc1], hall⟩
  unfold secondRound
  rw [h1]
  exact h2

/-- The second round of the run from A in `twoRoutes 301`, where the walk from A reaches
D one second after the candidate. -/
theorem secondRound_shortcuts_witness :
    WellFormed (twoRoutes 301) ∧ Ready (twoRoutes 301) (secondRoundStart (twoRoutes 301) 10 900 0 0 1000) ∧
    ∃ s', secondRound (twoRoutes 301) 10 (secondRoundStart (twoRoutes 301) 10 900 0 0 1000) = some s' ∧
      ∃ new, s'.shortcuts = (secondRoundStart (twoRoutes 301) 10 900 0 0 1000).shortcuts ++ new ∧
      ∀ sc ∈ new, ∃ D, (twoRoutes 301).isStop D = true ∧
        Reaches (twoRoutes 301) sc.destination D (s'.twoTripsArrivalLabels.getD D never) ∧
        s'.twoTripsArrivalLabels.getD D never ≤
          (secondRoundStart (twoRoutes 301) 10 900 0 0 1000).twoTripsArrivalLabels.getD D never :=
  have hd : WellFormed (twoRoutes 301) :=
    ⟨by decide, by decide, by decide, by decide, by decide, by decide, by decide, by decide⟩
  have hs : Ready (twoRoutes 301) (secondRoundStart (twoRoutes 301) 10 900 0 0 1000) :=
    ⟨by decide, by decide, by decide, by decide, by decide, by decide, by decide⟩
  ⟨hd, hs, secondRound_shortcuts (twoRoutes 301) hd _ hs 10 (by decide)⟩

end ShortcutSearch
end TripBased

namespace TripBased
namespace ShortcutSearch

/-- Of the two candidate journeys of `equalCandidates`, which reach E at the same time,
the run from A keeps the shortcut of one: the search settles E once. -/
theorem run_equalCandidates_shortcuts :
    (run equalCandidates 20 (new equalCandidates 900) 0 0 1000).map (fun s => s.shortcuts) =
      some [⟨1, 4, 50⟩] ∧
    CandidateArrival equalCandidates 0 100 ⟨1, 2, 50⟩ 4 400 ∧
    CandidateArrival equalCandidates 0 100 ⟨1, 4, 50⟩ 4 400 := by
  refine ⟨by decide, ?_, ?_⟩
  · exact ⟨0, 0, 0, 1, by decide, by decide, by decide, by decide, by decide,
      1, 0, 0, 1, by decide, by decide, by decide,
      Or.inr ⟨0, by decide, by decide, by decide⟩, by decide, by decide, by decide⟩
  · exact ⟨0, 0, 0, 1, by decide, by decide, by decide, by decide, by decide,
      2, 0, 0, 1, by decide, by decide, by decide,
      Or.inr ⟨1, by decide, by decide, by decide⟩, by decide, by decide, by decide⟩

end ShortcutSearch
end TripBased

namespace TripBased
namespace Query

theorem clear_journeys_inv (q : Query) : q.clear.Inv := by
  refine ⟨⟨by simp [clear], by simp [clear]⟩, ?_, ?_⟩
  · intro x hx
    simp [clear] at hx
    rw [hx]
  · simp [clear]

theorem nextRound_journeys_inv {q : Query} (h : q.Inv) : q.nextRound.Inv :=
  ⟨⟨h.size.1, by have := h.size.2; simp only [nextRound]; omega⟩, h.finite, h.sorted⟩

/-- Lowering the last entry of a non-increasing vector keeps it non-increasing. -/
theorem set_last_sorted (l : List Int) (x : Int) (hl : l ≠ [])
    (hs : l.Pairwise (fun a b => b ≤ a)) :
    (l.set (l.length - 1) (min (l.getD (l.length - 1) 0) x)).Pairwise (fun a b => b ≤ a) ∧
      ∀ y ∈ l.set (l.length - 1) (min (l.getD (l.length - 1) 0) x),
        y ∈ l ∨ y = min (l.getD (l.length - 1) 0) x := by
  obtain ⟨init, last, rfl⟩ : ∃ init last, l = init ++ [last] :=
    ⟨l.dropLast, l.getLast hl, (List.dropLast_append_getLast hl).symm⟩
  have hlen : (init ++ [last]).length - 1 = init.length := by simp
  rw [hlen]
  have hget : (init ++ [last]).getD init.length 0 = last := by
    simp [List.getD_eq_getElem?_getD]
  have hset : (init ++ [last]).set init.length (min last x) = init ++ [min last x] := by
    rw [List.set_append_right _ _ (le_refl _)]
    simp
  rw [hget, hset]
  constructor
  · rw [List.pairwise_append] at hs ⊢
    refine ⟨hs.1, List.pairwise_singleton _ _, ?_⟩
    intro a ha b hb
    rw [List.mem_singleton] at hb
    have := hs.2.2 a ha last (List.mem_singleton.mpr rfl)
    rw [hb]
    exact le_trans (min_le_left _ _) this
  · intro y hy
    rcases List.mem_append.mp hy with h1 | h1
    · exact Or.inl (List.mem_append_left _ h1)
    · exact Or.inr (List.mem_singleton.mp h1)

theorem getLastD_of_ne_nil (l : List Int) (d : Int) (h : l ≠ []) :
    l.getLastD d = l.getLast h := by
  rw [List.getLastD_eq_getLast?, List.getLast?_eq_getLast _ h]
  rfl

theorem addJourney_inv {q : Query} (h : q.Inv) (t : Int) : (q.addJourney t).Inv := by
  obtain ⟨⟨h1, h2⟩, hf, hs⟩ := h
  have hne : q.minArrivalTimeByMaxNumberOfUsedVehicles ≠ [] := by
    intro h0; rw [h0] at h1; simp at h1
  by_cases hc : q.minArrivalTimeByMaxNumberOfUsedVehicles.length ≤ q.numberOfUsedVehicles
  · -- the vector is resized
    have hlast := getLastD_of_ne_nil q.minArrivalTimeByMaxNumberOfUsedVehicles 0 hne
    have hres : resize q.minArrivalTimeByMaxNumberOfUsedVehicles (q.numberOfUsedVehicles + 1)
        (q.minArrivalTimeByMaxNumberOfUsedVehicles.getLastD 0) =
        q.minArrivalTimeByMaxNumberOfUsedVehicles ++
          List.replicate (q.numberOfUsedVehicles + 1 -
            q.minArrivalTimeByMaxNumberOfUsedVehicles.length)
            (q.minArrivalTimeByMaxNumberOfUsedVehicles.getLast hne) := by
      unfold resize
      rw [List.take_of_length_le (by omega), hlast]
    have hlen : (q.minArrivalTimeByMaxNumberOfUsedVehicles ++
          List.replicate (q.numberOfUsedVehicles + 1 -
            q.minArrivalTimeByMaxNumberOfUsedVehicles.length)
            (q.minArrivalTimeByMaxNumberOfUsedVehicles.getLast hne)).length =
        q.numberOfUsedVehicles + 1 := by
      rw [List.length_append, List.length_replicate]; omega
    have hsorted : (q.minArrivalTimeByMaxNumberOfUsedVehicles ++
          List.replicate (q.numberOfUsedVehicles + 1 -
            q.minArrivalTimeByMaxNumberOfUsedVehicles.length)
            (q.minArrivalTimeByMaxNumberOfUsedVehicles.getLast hne)).Pairwise
          (fun a b => b ≤ a) := by
      rw [List.pairwise_append]
      refine ⟨hs, ?_, ?_⟩
      · rw [List.pairwise_replicate]
        exact Or.inr (le_refl _)
      · intro a ha b hb
        rw [List.eq_of_mem_replicate hb]
        have hsplit := List.dropLast_append_getLast hne
        rw [← hsplit] at ha hs
        rcases List.mem_append.mp ha with h3 | h3
        · exact (List.pairwise_append.mp hs).2.2 a h3 _ (List.mem_singleton.mpr rfl)
        · rw [List.mem_singleton.mp h3]
    have key := set_last_sorted _ t (by
      intro h0
      have := congrArg List.length h0
      rw [hlen] at this
      simp at this) hsorted
    rw [hlen] at key
    simp only [Nat.add_sub_cancel] at key
    unfold addJourney
    simp only []
    rw [if_pos hc, hres]
    refine ⟨⟨?_, ?_⟩, ?_, key.1⟩
    · rw [List.length_set, hlen]; omega
    · rw [List.length_set, hlen]
    · intro y hy
      rcases key.2 y hy with h3 | h3
      · rcases List.mem_append.mp h3 with h4 | h4
        · exact hf y h4
        · rw [List.eq_of_mem_replicate h4]
          exact hf _ (List.getLast_mem hne)
      · rw [h3]
        refine le_trans (min_le_left _ _) ?_
        have hmem : (q.minArrivalTimeByMaxNumberOfUsedVehicles ++
            List.replicate (q.numberOfUsedVehicles + 1 -
              q.minArrivalTimeByMaxNumberOfUsedVehicles.length)
              (q.minArrivalTimeByMaxNumberOfUsedVehicles.getLast hne)).getD
            q.numberOfUsedVehicles 0 ∈ _ :=
          ShortcutSearch.getD_mem_of_lt _ _ _ (by rw [hlen]; omega)
        rcases List.mem_append.mp hmem with h4 | h4
        · exact hf _ h4
        · rw [List.eq_of_mem_replicate h4]
          exact hf _ (List.getLast_mem hne)
  · -- the entry of the current number of vehicles is the last one
    have hn : q.numberOfUsedVehicles = q.minArrivalTimeByMaxNumberOfUsedVehicles.length - 1 := by
      omega
    have key := set_last_sorted _ t hne hs
    rw [← hn] at key
    unfold addJourney
    simp only []
    rw [if_neg hc]
    refine ⟨⟨?_, ?_⟩, ?_, key.1⟩
    · rw [List.length_set]; exact h1
    · rw [List.length_set]; exact h2
    · intro y hy
      rcases key.2 y hy with h3 | h3
      · exact hf y h3
      · rw [h3]
        exact le_trans (min_le_left _ _)
          (hf _ (ShortcutSearch.getD_mem_of_lt _ _ _ (by omega)))

theorem foldl_addJourney_inv : ∀ (l : List Int) (q : Query), q.Inv → (l.foldl addJourney q).Inv := by
  intro l
  induction l with
  | nil => intro q h; exact h
  | cons t ts ih => intro q h; exact ih _ (addJourney_inv h t)

theorem foldl_rounds_inv : ∀ (rounds : List (List Int)) (q : Query), q.Inv →
    (rounds.foldl (fun q arrivals => arrivals.foldl addJourney q.nextRound) q).Inv := by
  intro rounds
  induction rounds with
  | nil => intro q h; exact h
  | cons r rs ih =>
    intro q h
    rw [List.foldl_cons]
    exact ih _ (foldl_addJourney_inv r _ (nextRound_journeys_inv h))

theorem run_journeys_inv (q : Query) (direct : Option Int) (rounds : List (List Int)) :
    (q.run direct rounds).Inv := by
  unfold run
  apply foldl_rounds_inv
  cases direct with
  | none => exact clear_journeys_inv q
  | some t => exact addJourney_inv (clear_journeys_inv q) t

end Query
end TripBased

namespace TripBased
namespace Query

theorem sorted_getD (l : List Int) (hs : l.Pairwise (fun a b => b ≤ a)) {i j : Nat}
    (hij : i ≤ j) (hj : j < l.length) : l.getD j 0 ≤ l.getD i 0 := by
  rcases Nat.eq_or_lt_of_le hij with h | h
  · rw [h]
  · rw [List.getD_eq_getElem _ _ hj, List.getD_eq_getElem _ _ (lt_trans h hj)]
    exact List.pairwise_iff_getElem.mp hs i j (lt_trans h hj) hj h

/-- The invariant of the loop of `getJourneys` before the iteration for the index `k`. -/
theorem getJourneys_loop (q : Query) (h : q.Inv) : ∀ k,
    k ≤ q.minArrivalTimeByMaxNumberOfUsedVehicles.length →
    ((List.range k).foldl q.getJourney []).Pairwise
        (fun a b => b.arrivalTime < a.arrivalTime ∧
          a.numberOfUsedVehicles < b.numberOfUsedVehicles) ∧
      (∀ j : Journey, j ∈ (List.range k).foldl q.getJourney [] ↔
        j.numberOfUsedVehicles < k ∧
        j.arrivalTime =
          q.minArrivalTimeByMaxNumberOfUsedVehicles.getD j.numberOfUsedVehicles 0 ∧
        j.arrivalTime < INFTY ∧
        (j.numberOfUsedVehicles = 0 ∨
          q.minArrivalTimeByMaxNumberOfUsedVehicles.getD j.numberOfUsedVehicles 0 <
            q.minArrivalTimeByMaxNumberOfUsedVehicles.getD (j.numberOfUsedVehicles - 1) 0)) ∧
      ((k = 0 ∨ INFTY ≤ q.minArrivalTimeByMaxNumberOfUsedVehicles.getD (k - 1) 0) →
        (List.range k).foldl q.getJourney [] = []) ∧
      (1 ≤ k → q.minArrivalTimeByMaxNumberOfUsedVehicles.getD (k - 1) 0 < INFTY →
        ((List.range k).foldl q.getJourney []).getLast?.map (fun j => j.arrivalTime) =
          some (q.minArrivalTimeByMaxNumberOfUsedVehicles.getD (k - 1) 0)) := by
  intro k
  induction k with
  | zero =>
    intro _
    refine ⟨List.Pairwise.nil, ?_, fun _ => rfl, fun h0 => absurd h0 (by omega)⟩
    intro j
    constructor
    · intro hj; exact absurd hj (List.not_mem_nil j)
    · intro hj; exact absurd hj.1 (by omega)
  | succ k ih =>
    intro hk
    obtain ⟨ihP, ihM, ihE, ihL⟩ := ih (by omega)
    rw [List.range_succ, List.foldl_append, List.foldl_cons, List.foldl_nil]
    generalize (List.range k).foldl q.getJourney [] = R at ihP ihM ihE ihL
    have hmono : ∀ i, i ≤ k → q.minArrivalTimeByMaxNumberOfUsedVehicles.getD k 0 ≤
        q.minArrivalTimeByMaxNumberOfUsedVehicles.getD i 0 :=
      fun i hi => sorted_getD _ h.sorted hi (by omega)
    simp only [Nat.add_sub_cancel]
    unfold getJourney
    by_cases hinf : q.minArrivalTimeByMaxNumberOfUsedVehicles.getD k 0 ≥ INFTY
    · -- no journey with so many vehicles
      rw [if_pos hinf]
      have hR : R = [] := by
        apply ihE
        by_cases hk0 : k = 0
        · exact Or.inl hk0
        · exact Or.inr (le_trans hinf (hmono (k - 1) (by omega)))
      refine ⟨ihP, ?_, fun _ => hR, fun _ hlt => absurd hlt (by omega)⟩
      intro j
      rw [ihM j]
      constructor
      · rintro ⟨a, b, c, d⟩; exact ⟨by omega, b, c, d⟩
      · rintro ⟨a, b, c, d⟩
        refine ⟨?_, b, c, d⟩
        rcases Nat.lt_succ_iff_lt_or_eq.mp a with h1 | h1
        · exact h1
        · rw [h1] at b; omega
    · rw [if_neg hinf]
      have hfin : q.minArrivalTimeByMaxNumberOfUsedVehicles.getD k 0 < INFTY := by omega
      by_cases hsame : 1 ≤ R.length ∧ (R.getLast?.map fun j => j.arrivalTime) =
          some (q.minArrivalTimeByMaxNumberOfUsedVehicles.getD k 0)
      · -- the arrival time of the last journey is not improved
        rw [if_pos hsame]
        have hk1 : 1 ≤ k ∧ q.minArrivalTimeByMaxNumberOfUsedVehicles.getD (k - 1) 0 < INFTY := by
          by_contra hcon
          have : R = [] := by
            apply ihE
            by_cases hk0 : k = 0
            · exact Or.inl hk0
            · right
              by_contra h3
              exact hcon ⟨by omega, by omega⟩
          rw [this] at hsame
          simp at hsame
        have heq : q.minArrivalTimeByMaxNumberOfUsedVehicles.getD (k - 1) 0 =
            q.minArrivalTimeByMaxNumberOfUsedVehicles.getD k 0 := by
          have := ihL hk1.1 hk1.2
          rw [hsame.2] at this
          exact (Option.some.inj this).symm
        refine ⟨ihP, ?_, fun hor => ?_, fun _ _ => hsame.2⟩
        · intro j
          rw [ihM j]
          constructor
          · rintro ⟨a, b, c, d⟩; exact ⟨by omega, b, c, d⟩
          · rintro ⟨a, b, c, d⟩
            refine ⟨?_, b, c, d⟩
            rcases Nat.lt_succ_iff_lt_or_eq.mp a with h1 | h1
            · exact h1
            · rw [h1] at d
              rcases d with d | d
              · omega
              · rw [heq] at d; exact absurd d (lt_irrefl _)
        · rcases hor with h0 | h0
          · exact absurd h0 (by omega)
          · exact absurd h0 (by omega)
      · -- a new journey
        rw [if_neg hsame]
        have hbetter : k = 0 ∨ q.minArrivalTimeByMaxNumberOfUsedVehicles.getD k 0 <
            q.minArrivalTimeByMaxNumberOfUsedVehicles.getD (k - 1) 0 := by
          by_cases hk0 : k = 0
          · exact Or.inl hk0
          · right
            have hle := hmono (k - 1) (by omega)
            by_cases hprev : q.minArrivalTimeByMaxNumberOfUsedVehicles.getD (k - 1) 0 < INFTY
            · have hl := ihL (by omega) hprev
              have hne : q.minArrivalTimeByMaxNumberOfUsedVehicles.getD (k - 1) 0 ≠
                  q.minArrivalTimeByMaxNumberOfUsedVehicles.getD k 0 := by
                intro he
                apply hsame
                refine ⟨?_, by rw [hl, he]⟩
                cases R with
                | nil => simp at hl
                | cons a as => simp
              omega
            · omega
        refine ⟨?_, ?_, fun hor => ?_, fun _ _ => by simp⟩
        · rw [List.pairwise_append]
          refine ⟨ihP, List.pairwise_singleton _ _, ?_⟩
          intro a ha b hb
          rw [List.mem_singleton] at hb
          rw [hb]
          obtain ⟨a1, a2, a3, a4⟩ := (ihM a).mp ha
          refine ⟨?_, a1⟩
          show q.minArrivalTimeByMaxNumberOfUsedVehicles.getD k 0 < a.arrivalTime
          rw [a2]
          rcases hbetter with h0 | h0
          · omega
          · exact lt_of_lt_of_le h0
              (sorted_getD _ h.sorted (by omega) (by omega))
        · intro j
          rw [List.mem_append, ihM j, List.mem_singleton]
          constructor
          · rintro (⟨a, b, c, d⟩ | hj)
            · exact ⟨by omega, b, c, d⟩
            · rw [hj]
              exact ⟨Nat.lt_succ_self k, rfl, hfin, hbetter⟩
          · rintro ⟨a, b, c, d⟩
            rcases Nat.lt_succ_iff_lt_or_eq.mp a with h1 | h1
            · exact Or.inl ⟨h1, b, c, d⟩
            · right
              cases j with
              | mk ja jn =>
                simp only [] at h1 b
                rw [h1] at b
                rw [b, h1]
        · have : (R ++ [(⟨q.minArrivalTimeByMaxNumberOfUsedVehicles.getD k 0, k⟩ : Journey)]) ≠
              [] := by simp
          rcases hor with h0 | h0
          · exact absurd h0 (by omega)
          · exact absurd h0 (by omega)

end Query
end TripBased

namespace TripBased
namespace Query

theorem best_of_lt (q : Query) {n : Nat}
    (h : n < q.minArrivalTimeByMaxNumberOfUsedVehicles.length) :
    q.best n = q.minArrivalTimeByMaxNumberOfUsedVehicles.getD n 0 := by
  unfold best
  rw [List.getD_eq_getElem _ _ h, List.getD_eq_getElem _ _ h]

theorem best_of_le (q : Query) {n : Nat}
    (h : q.minArrivalTimeByMaxNumberOfUsedVehicles.length ≤ n + 1)
    (hne : q.minArrivalTimeByMaxNumberOfUsedVehicles ≠ []) :
    q.best n = q.minArrivalTimeByMaxNumberOfUsedVehicles.getLast hne := by
  unfold best
  by_cases hn : n < q.minArrivalTimeByMaxNumberOfUsedVehicles.length
  · rw [List.getD_eq_getElem _ _ hn, List.getLast_eq_getElem]
    congr 1
    omega
  · rw [ShortcutSearch.getD_of_length_le _ _ _ (by omega)]
    rw [List.getLastD_eq_getLast?, List.getLast?_eq_getLast _ hne]
    rfl

/-- The value for `n` vehicles in a vector, the last entry standing for the entries
beyond its end. -/
theorem bestOf_append_replicate (v : List Int) (hne : v ≠ []) (j n : Nat) (d : Int) :
    (v ++ List.replicate j (v.getLast hne)).getD n
        ((v ++ List.replicate j (v.getLast hne)).getLastD d) =
      v.getD n (v.getLast hne) := by
  have hlast : (v ++ List.replicate j (v.getLast hne)).getLastD d = v.getLast hne := by
    cases j with
    | zero =>
      rw [List.replicate_zero, List.append_nil]
      exact getLastD_of_ne_nil _ _ hne
    | succ j =>
      rw [getLastD_of_ne_nil _ _ (by simp), List.getLast_eq_getElem,
        List.getElem_append_right (by simp)]
      simp
  rw [hlast]
  by_cases hn : n < v.length
  · rw [List.getD_eq_getElem _ _ (by simp; omega), List.getD_eq_getElem _ _ hn,
      List.getElem_append_left hn]
  · rw [ShortcutSearch.getD_of_length_le v n _ (by omega)]
    by_cases hn2 : n < v.length + j
    · rw [List.getD_eq_getElem _ _ (by simp; omega),
        List.getElem_append_right (by omega)]
      simp
    · rw [ShortcutSearch.getD_of_length_le _ n _ (by simp; omega)]

/-- Writing the last entry of a vector. -/
theorem bestOf_set_last (w : List Int) (m : Nat) (hm : w.length = m + 1) (x d : Int) (n : Nat) :
    (w.set m x).getD n ((w.set m x).getLastD d) =
      if n < m then w.getD n d else x := by
  have hlen : (w.set m x).length = m + 1 := by rw [List.length_set]; exact hm
  have hne : w.set m x ≠ [] := by
    intro h0
    rw [h0] at hlen
    simp at hlen
  have hlast : (w.set m x).getLastD d = x := by
    rw [getLastD_of_ne_nil _ _ hne, List.getLast_eq_getElem]
    simp [hm]
  rw [hlast]
  by_cases hn : n < m
  · rw [if_pos hn, ShortcutSearch.getD_set_ne _ _ _ _ _ (by omega),
      List.getD_eq_getElem _ _ (by omega), List.getD_eq_getElem _ _ (by omega)]
  · rw [if_neg hn]
    by_cases hn2 : n = m
    · subst hn2
      rw [ShortcutSearch.getD_set_self _ _ _ _ (by omega)]
    · rw [ShortcutSearch.getD_of_length_le _ _ _ (by omega)]

/-- What `addJourney` does to the best arrival times: those for fewer vehicles than the
current number stay, and the new arrival time is taken into those from the current number
on. -/
theorem addJourney_best {q : Query} (h : q.Inv) (a : Int) (n : Nat) :
    (q.addJourney a).numberOfUsedVehicles = q.numberOfUsedVehicles ∧
    (q.addJourney a).best n =
      if n < q.numberOfUsedVehicles then q.best n
      else min (q.best q.numberOfUsedVehicles) a := by
  obtain ⟨⟨h1, h2⟩, _, _⟩ := h
  have hne : q.minArrivalTimeByMaxNumberOfUsedVehicles ≠ [] := by
    intro h0; rw [h0] at h1; simp at h1
  refine ⟨rfl, ?_⟩
  have hbest : ∀ m, q.best m = q.minArrivalTimeByMaxNumberOfUsedVehicles.getD m
      (q.minArrivalTimeByMaxNumberOfUsedVehicles.getLast hne) := by
    intro m
    unfold best
    rw [getLastD_of_ne_nil _ _ hne]
  -- the vector before the write
  obtain ⟨w, hw, hwlen, hwbest⟩ : ∃ w : List Int,
      (q.addJourney a).minArrivalTimeByMaxNumberOfUsedVehicles =
        w.set q.numberOfUsedVehicles (min (w.getD q.numberOfUsedVehicles 0) a) ∧
      w.length = q.numberOfUsedVehicles + 1 ∧
      ∀ m, m ≤ q.numberOfUsedVehicles → ∀ d, w.getD m d = q.best m := by
    by_cases hc : q.minArrivalTimeByMaxNumberOfUsedVehicles.length ≤ q.numberOfUsedVehicles
    · have hres : resize q.minArrivalTimeByMaxNumberOfUsedVehicles
          (q.numberOfUsedVehicles + 1)
          (q.minArrivalTimeByMaxNumberOfUsedVehicles.getLastD 0) =
          q.minArrivalTimeByMaxNumberOfUsedVehicles ++
            List.replicate (q.numberOfUsedVehicles + 1 -
              q.minArrivalTimeByMaxNumberOfUsedVehicles.length)
              (q.minArrivalTimeByMaxNumberOfUsedVehicles.getLast hne) := by
        unfold resize
        rw [List.take_of_length_le (by omega), getLastD_of_ne_nil _ _ hne]
      refine ⟨q.minArrivalTimeByMaxNumberOfUsedVehicles ++
          List.replicate (q.numberOfUsedVehicles + 1 -
            q.minArrivalTimeByMaxNumberOfUsedVehicles.length)
            (q.minArrivalTimeByMaxNumberOfUsedVehicles.getLast hne), ?_, ?_, ?_⟩
      · unfold addJourney
        simp only []
        rw [if_pos hc, hres]
      · simp; omega
      · intro m hm d
        have hlen : m < (q.minArrivalTimeByMaxNumberOfUsedVehicles ++
            List.replicate (q.numberOfUsedVehicles + 1 -
              q.minArrivalTimeByMaxNumberOfUsedVehicles.length)
              (q.minArrivalTimeByMaxNumberOfUsedVehicles.getLast hne)).length := by
          simp; omega
        have := bestOf_append_replicate q.minArrivalTimeByMaxNumberOfUsedVehicles hne
          (q.numberOfUsedVehicles + 1 - q.minArrivalTimeByMaxNumberOfUsedVehicles.length) m d
        rw [List.getD_eq_getElem _ _ hlen] at this
        rw [List.getD_eq_getElem _ _ hlen, this, hbest]
    · refine ⟨q.minArrivalTimeByMaxNumberOfUsedVehicles, ?_, by omega, ?_⟩
      · unfold addJourney
        simp only []
        rw [if_neg hc]
      · intro m hm d
        rw [hbest, List.getD_eq_getElem _ _ (by omega), List.getD_eq_getElem _ _ (by omega)]
  have e : (q.addJourney a).best n =
      (w.set q.numberOfUsedVehicles (min (w.getD q.numberOfUsedVehicles 0) a)).getD n
        ((w.set q.numberOfUsedVehicles
          (min (w.getD q.numberOfUsedVehicles 0) a)).getLastD INFTY) := by
    unfold best
    rw [hw]
  rw [e, bestOf_set_last w _ hwlen, hwbest _ (le_refl _)]
  by_cases hn : n < q.numberOfUsedVehicles
  · rw [if_pos hn, if_pos hn, hwbest n (by omega)]
  · rw [if_neg hn, if_neg hn]

/-- The calls of `addJourney` of one round. -/
theorem foldl_addJourney_best : ∀ (l : List Int) (q : Query), q.Inv → ∀ n,
    (l.foldl addJourney q).numberOfUsedVehicles = q.numberOfUsedVehicles ∧
    (l.foldl addJourney q).best n =
      if n < q.numberOfUsedVehicles ∨ l = [] then q.best n
      else l.foldl min (q.best q.numberOfUsedVehicles) := by
  intro l
  induction l with
  | nil => intro q _ n; simp
  | cons a rest ih =>
    intro q h n
    rw [List.foldl_cons]
    obtain ⟨e1, e2⟩ := ih (q.addJourney a) (addJourney_inv h a) n
    have f1 := (addJourney_best h a n).1
    have f2 := (addJourney_best h a n).2
    have f3 := (addJourney_best h a q.numberOfUsedVehicles).2
    rw [if_neg (lt_irrefl _)] at f3
    refine ⟨e1.trans f1, ?_⟩
    rw [e2, f1]
    by_cases hn : n < q.numberOfUsedVehicles
    · rw [if_pos (Or.inl hn), if_pos (Or.inl hn), f2, if_pos hn]
    · have hcons : ¬ (n < q.numberOfUsedVehicles ∨ a :: rest = []) := by
        rintro (hh | hh)
        · exact hn hh
        · exact List.cons_ne_nil _ _ hh
      rw [if_neg hcons, List.foldl_cons]
      by_cases hr : rest = []
      · rw [if_pos (Or.inr hr), f2, if_neg hn, hr, List.foldl_nil]
      · have hrest : ¬ (n < q.numberOfUsedVehicles ∨ rest = []) := by
          rintro (hh | hh)
          · exact hn hh
          · exact hr hh
        rw [if_neg hrest, f3]

/-- The best arrival time beyond the current number of vehicles is that for the current
number. -/
theorem best_beyond {q : Query} (h : q.Inv) {n : Nat} (hn : q.numberOfUsedVehicles ≤ n) :
    q.best n = q.best q.numberOfUsedVehicles := by
  have hne : q.minArrivalTimeByMaxNumberOfUsedVehicles ≠ [] := by
    intro h0
    have := h.size.1
    rw [h0] at this
    simp at this
  have := h.size.2
  rw [best_of_le q (by omega) hne, best_of_le q (by omega) hne]

theorem foldl_min_le_init : ∀ (l : List Int) (x : Int), l.foldl min x ≤ x := by
  intro l
  induction l with
  | nil => intro x; exact le_refl _
  | cons a rest ih => intro x; exact le_trans (ih _) (min_le_left _ _)

/-- The best arrival times after the rounds of a run. -/
theorem foldl_rounds_best (direct : Option Int) :
    ∀ (rounds done : List (List Int)) (q : Query), q.Inv →
      q.numberOfUsedVehicles = done.length →
      (∀ n, q.best n = bestAdded direct done n) →
      ∀ n, (rounds.foldl (fun q arrivals => arrivals.foldl addJourney q.nextRound) q).best n =
        bestAdded direct (done ++ rounds) n := by
  intro rounds
  induction rounds with
  | nil => intro done q _ _ hb n; simpa using hb n
  | cons A rest ih =>
    intro done q h hk hb n
    rw [List.foldl_cons]
    have hnext : q.nextRound.Inv := nextRound_journeys_inv h
    have key := foldl_addJourney_best A q.nextRound hnext
    have hstep := ih (done ++ [A]) (A.foldl addJourney q.nextRound)
      (foldl_addJourney_inv A _ hnext)
      (by rw [(key 0).1]; simp [nextRound, hk])
      (by
        intro m
        rw [(key m).2]
        have hnv : q.nextRound.numberOfUsedVehicles = done.length + 1 := by
          simp [nextRound, hk]
        have hbq : ∀ x, q.nextRound.best x = q.best x := fun _ => rfl
        rw [hnv, hbq, hbq]
        unfold bestAdded
        by_cases hm : m < done.length + 1
        · rw [if_pos (Or.inl hm), hb m]
          unfold bestAdded
          rw [List.take_append_of_le_length (by omega)]
        · have hall : (done ++ [A]).take m = done ++ [A] :=
            List.take_of_length_le (by simp; omega)
          rw [hall, List.flatten_append, ← List.append_assoc, List.foldl_append]
          have hdone : (direct.toList ++ done.flatten).foldl min INFTY =
              q.best (done.length + 1) := by
            rw [hb (done.length + 1)]
            unfold bestAdded
            rw [List.take_of_length_le (by omega)]
          rw [hdone]
          by_cases hA : A = []
          · subst hA
            rw [if_pos (Or.inr rfl)]
            simp only [List.flatten_cons, List.flatten_nil, List.append_nil, List.foldl_nil]
            rw [best_beyond h (by omega), best_beyond h (show q.numberOfUsedVehicles ≤
              done.length + 1 by omega)]
          · rw [if_neg (by simp [hm, hA])]
            simp only [List.flatten_cons, List.flatten_nil, List.append_nil])
      n
    rw [hstep, List.append_assoc]
    rfl

/-- The best arrival times after a run are those of the arrival times that the run
passed to `addJourney`. -/
theorem run_best (q : Query) (direct : Option Int) (rounds : List (List Int)) (n : Nat) :
    (q.run direct rounds).best n = bestAdded direct rounds n := by
  unfold run
  have h0 : q.clear.Inv := clear_journeys_inv q
  have hstart : ∀ q0 : Query, q0.Inv → q0.numberOfUsedVehicles = 0 →
      (∀ n, q0.best n = bestAdded direct [] n) →
      (rounds.foldl (fun q arrivals => arrivals.foldl addJourney q.nextRound) q0).best n =
        bestAdded direct rounds n := by
    intro q0 hi hk hb
    have := foldl_rounds_best direct rounds [] q0 hi (by simpa using hk) hb n
    simpa using this
  cases direct with
  | none =>
    apply hstart _ h0 rfl
    intro m
    unfold bestAdded best clear
    cases m <;> simp
  | some a =>
    apply hstart _ (addJourney_inv h0 a) rfl
    intro m
    rw [(addJourney_best h0 a m).2]
    have : q.clear.numberOfUsedVehicles = 0 := rfl
    rw [this, if_neg (Nat.not_lt_zero _)]
    unfold bestAdded best clear
    simp

/-- The result of `getJourneys()` in terms of the vector of the best arrival times. -/
theorem getJourneys_best (q : Query) (direct : Option Int) (rounds : List (List Int)) :
    (q.run direct rounds).getJourneys.Pairwise
        (fun a b => b.arrivalTime < a.arrivalTime ∧
          a.numberOfUsedVehicles < b.numberOfUsedVehicles) ∧
      ∀ (a : Int) (n : Nat), (⟨a, n⟩ : Journey) ∈ (q.run direct rounds).getJourneys ↔
        a = (q.run direct rounds).best n ∧ a < INFTY ∧
          (n = 0 ∨ (q.run direct rounds).best n < (q.run direct rounds).best (n - 1)) := by
  have hinv := run_journeys_inv q direct rounds
  generalize q.run direct rounds = r at hinv
  obtain ⟨hP, hM, _, _⟩ := getJourneys_loop r hinv _ (le_refl _)
  have hne : r.minArrivalTimeByMaxNumberOfUsedVehicles ≠ [] := by
    intro h0
    have := hinv.size.1
    rw [h0] at this
    simp at this
  refine ⟨hP, ?_⟩
  intro a n
  unfold getJourneys
  rw [hM ⟨a, n⟩]
  simp only []
  by_cases hn : n < r.minArrivalTimeByMaxNumberOfUsedVehicles.length
  · rw [best_of_lt r hn, best_of_lt r (show n - 1 < _ by omega)]
    constructor
    · rintro ⟨_, b, c, d⟩; exact ⟨b, c, d⟩
    · rintro ⟨b, c, d⟩; exact ⟨hn, b, c, d⟩
  · rw [best_of_le r (show _ ≤ n + 1 by omega) hne,
      best_of_le r (show _ ≤ n - 1 + 1 by omega) hne]
    constructor
    · rintro ⟨h1, _⟩; exact absurd h1 hn
    · rintro ⟨_, _, d⟩
      rcases d with d | d
      · have := hinv.size.1
        omega
      · exact absurd d (lt_irrefl _)

/-- Claim C11: `run` passes to `addJourney` the arrival time of the direct walk, if there
is one, with 0 vehicles, and in the round `i` of `scanTrips` the arrival times of the
journeys with `i` vehicles that it finds; the best arrival time with at most `n` vehicles
is the least of `INFTY` and the arrival times passed with at most `n` vehicles
(`bestAdded`).  After every run, the result of `getJourneys()` is strictly decreasing in
the arrival time and strictly increasing in the number of used vehicles, and it holds the
journey `(a, n)` exactly when `a` is the best arrival time with at most `n` vehicles, `a`
is finite (below `INFTY`), and `a` is strictly better than the best arrival time with at
most `n - 1` vehicles (no condition for `n = 0`). -/
theorem getJourneys_pareto (q : Query) (direct : Option Int) (rounds : List (List Int)) :
    (q.run direct rounds).getJourneys.Pairwise
        (fun a b => b.arrivalTime < a.arrivalTime ∧
          a.numberOfUsedVehicles < b.numberOfUsedVehicles) ∧
      ∀ (a : Int) (n : Nat), (⟨a, n⟩ : Journey) ∈ (q.run direct rounds).getJourneys ↔
        a = bestAdded direct rounds n ∧ a < INFTY ∧
          (n = 0 ∨ bestAdded direct rounds n < bestAdded direct rounds (n - 1)) := by
  obtain ⟨h1, h2⟩ := getJourneys_best q direct rounds
  refine ⟨h1, ?_⟩
  intro a n
  rw [h2 a n, run_best, run_best]

end Query
end TripBased

namespace TripBased
namespace ShortcutSearch

/-- C20 (counterexample): `never` is `intMax`, not `intMax / 2`, and `never` plus a travel
time of one second does not fit into a signed 32-bit integer. -/
theorem never_is_not_half_intMax :
    ¬ (never = intMax / 2 ∧
      ∀ t : Int, 0 ≤ t → t < intMax / 2 → wrapInt32 (never + t) = never + t) := by
  intro h
  have h1 := h.1
  revert h1
  decide

/-- C20 (amended): `never` is `intMax`; the constant that is `intMax / 2` is `INFTY`, and
`INFTY` plus any 32-bit travel time below `INFTY` fits into a signed 32-bit integer. -/
theorem INFTY_add_fits (t : Int) (hlo : -intMax - 1 ≤ t) (hhi : t < INFTY) :
    never = intMax ∧ INFTY = intMax / 2 ∧ wrapInt32 (INFTY + t) = INFTY + t ∧
      -intMax - 1 ≤ INFTY + t ∧ INFTY + t ≤ intMax := by
  have h1 : intMax = 2147483647 := rfl
  have h2 : INFTY = 1073741823 := by decide
  refine ⟨rfl, rfl, ?_, by omega, by omega⟩
  unfold wrapInt32
  omega

/-- C20 (witness): a travel time of 900 seconds. -/
theorem INFTY_add_fits_witness :
    never = intMax ∧ INFTY = intMax / 2 ∧ wrapInt32 (INFTY + 900) = INFTY + 900 ∧
      -intMax - 1 ≤ INFTY + 900 ∧ INFTY + 900 ≤ intMax :=
  INFTY_add_fits 900 (by decide) (by decide)

end ShortcutSearch
end TripBased

namespace TripBased
namespace Data

/-- The bisection finds the partition point of a predicate that holds on a prefix of the
range. -/
theorem lowerBound_spec (less : Nat → Bool) : ∀ (fuel first len : Nat), len ≤ fuel →
    (∀ i j, first ≤ i → i ≤ j → j < first + len → less j = true → less i = true) →
    first ≤ lowerBound less fuel first len ∧ lowerBound less fuel first len ≤ first + len ∧
      (∀ i, first ≤ i → i < lowerBound less fuel first len → less i = true) ∧
      (∀ i, lowerBound less fuel first len ≤ i → i < first + len → less i = false) := by
  intro fuel
  induction fuel with
  | zero =>
    intro first len hlen _
    have : len = 0 := by omega
    subst this
    refine ⟨le_refl _, le_refl _, ?_, ?_⟩
    · intro i h1 h2; simp only [lowerBound] at h2; omega
    · intro i h1 h2; simp only [lowerBound] at h1; omega
  | succ fuel ih =>
    intro first len hlen hmono
    unfold lowerBound
    by_cases h0 : 0 < len
    · rw [if_pos h0]
      have hhalf : len / 2 < len := Nat.div_lt_self h0 (by omega)
      by_cases hmid : less (first + len / 2) = true
      · rw [if_pos hmid]
        obtain ⟨a, b, c, d⟩ := ih (first + len / 2 + 1) (len - len / 2 - 1) (by omega)
          (fun i j h1 h2 h3 h4 => hmono i j (by omega) h2 (by omega) h4)
        refine ⟨by omega, by omega, ?_, ?_⟩
        · intro i h1 h2
          by_cases hi : i ≤ first + len / 2
          · exact hmono i (first + len / 2) h1 hi (by omega) hmid
          · exact c i (by omega) h2
        · intro i h1 h2
          exact d i h1 (by omega)
      · rw [if_neg hmid]
        obtain ⟨a, b, c, d⟩ := ih first (len / 2) (by omega)
          (fun i j h1 h2 h3 h4 => hmono i j h1 h2 (by omega) h4)
        refine ⟨a, by omega, c, ?_⟩
        · intro i h1 h2
          by_cases hi : i < first + len / 2
          · exact d i h1 hi
          · cases hl : less i with
            | false => rfl
            | true => exact absurd (hmono (first + len / 2) i (by omega) (by omega) h2 hl) hmid
    · rw [if_neg h0]
      have : len = 0 := by omega
      subst this
      refine ⟨le_refl _, le_refl _, ?_, ?_⟩
      · intro i h1 h2; omega
      · intro i h1 h2; omega

/-- C17: on a route whose trips are sorted by their departure time at the stop index,
`getEarliestTrip` returns `noTripId` exactly when the stop index is the last one of the
route or no trip of the route departs there at `time` or later, and every other result is
the smallest trip id of the route whose departure time at the stop index is at least
`time`. -/
theorem getEarliestTrip_spec (td : Data) (route stopIndex : Nat) (time : Int)
    (hfifo : ∀ t t', td.firstTripOfRoute.getD route 0 ≤ t → t ≤ t' →
      t' < td.firstTripOfRoute.getD (route + 1) 0 →
      (td.getStopEvent t stopIndex).departureTime ≤
        (td.getStopEvent t' stopIndex).departureTime)
    (hid : td.firstTripOfRoute.getD (route + 1) 0 ≤ noTripId) :
    (td.getEarliestTrip route stopIndex time = noTripId ↔
        stopIndex + 1 = td.numberOfStopsInRoute route ∨
        ¬ ∃ t, td.firstTripOfRoute.getD route 0 ≤ t ∧
          t < td.firstTripOfRoute.getD (route + 1) 0 ∧
          time ≤ (td.getStopEvent t stopIndex).departureTime) ∧
      (td.getEarliestTrip route stopIndex time ≠ noTripId →
        td.firstTripOfRoute.getD route 0 ≤ td.getEarliestTrip route stopIndex time ∧
        td.getEarliestTrip route stopIndex time < td.firstTripOfRoute.getD (route + 1) 0 ∧
        time ≤ (td.getStopEvent (td.getEarliestTrip route stopIndex time)
          stopIndex).departureTime ∧
        ∀ t, td.firstTripOfRoute.getD route 0 ≤ t →
          t < td.firstTripOfRoute.getD (route + 1) 0 →
          time ≤ (td.getStopEvent t stopIndex).departureTime →
          td.getEarliestTrip route stopIndex time ≤ t) := by
  unfold getEarliestTrip getEarliestTripBinary numberOfStopsInRoute
  simp only []
  by_cases hlast : stopIndex + 1 = td.raptorData.numberOfStopsInRoute route
  · rw [if_pos hlast]
    exact ⟨⟨fun _ => Or.inl hlast, fun _ => rfl⟩, fun h => absurd rfl h⟩
  · rw [if_neg hlast]
    by_cases hle : td.firstTripOfRoute.getD route 0 ≤ td.firstTripOfRoute.getD (route + 1) 0
    · obtain ⟨a, b, c, d⟩ := lowerBound_spec
        (fun trip => decide ((td.getStopEvent trip stopIndex).departureTime < time))
        (td.firstTripOfRoute.getD (route + 1) 0 - td.firstTripOfRoute.getD route 0)
        (td.firstTripOfRoute.getD route 0)
        (td.firstTripOfRoute.getD (route + 1) 0 - td.firstTripOfRoute.getD route 0)
        (le_refl _)
        (by
          intro i j h1 h2 h3 h4
          have h5 := hfifo i j h1 h2 (by omega)
          have h6 := of_decide_eq_true h4
          exact decide_eq_true (lt_of_le_of_lt h5 h6))
      generalize lowerBound
        (fun trip => decide ((td.getStopEvent trip stopIndex).departureTime < time))
        (td.firstTripOfRoute.getD (route + 1) 0 - td.firstTripOfRoute.getD route 0)
        (td.firstTripOfRoute.getD route 0)
        (td.firstTripOfRoute.getD (route + 1) 0 - td.firstTripOfRoute.getD route 0) = p
        at a b c d
      by_cases hp : p < td.firstTripOfRoute.getD (route + 1) 0
      · rw [if_pos hp]
        have hdep : time ≤ (td.getStopEvent p stopIndex).departureTime := by
          have := of_decide_eq_false (d p (le_refl _) (by omega))
          omega
        have hno : p ≠ noTripId := by omega
        refine ⟨⟨fun h => absurd h hno, ?_⟩, fun _ => ⟨a, hp, hdep, ?_⟩⟩
        · rintro (h | h)
          · exact absurd h hlast
          · exact absurd ⟨p, a, hp, hdep⟩ h
        · intro t h1 h2 h3
          by_contra hcon
          have := of_decide_eq_true (c t h1 (by omega))
          omega
      · rw [if_neg hp]
        refine ⟨⟨fun _ => Or.inr ?_, fun _ => rfl⟩, fun h => absurd rfl h⟩
        rintro ⟨t, h1, h2, h3⟩
        have := of_decide_eq_true (c t h1 (by omega))
        omega
    · have hzero : td.firstTripOfRoute.getD (route + 1) 0 - td.firstTripOfRoute.getD route 0 = 0 := by
        omega
      rw [hzero]
      simp only [lowerBound]
      rw [if_neg (by omega)]
      refine ⟨⟨fun _ => Or.inr ?_, fun _ => rfl⟩, fun h => absurd rfl h⟩
      rintro ⟨t, h1, h2, h3⟩
      omega

end Data
end TripBased

namespace TripBased
namespace Data

theorem getD_replicate_lt {α : Type} (n i : Nat) (a dflt : α) (h : i < n) :
    (List.replicate n a).getD i dflt = a := by
  rw [List.getD_eq_getElem _ _ (by simpa using h)]
  simp

theorem getD_range_lt (n i dflt : Nat) (h : i < n) : (List.range n).getD i dflt = i := by
  rw [List.getD_eq_getElem _ _ (by simpa using h)]
  simp

theorem getD_map_lt {α β : Type} (f : α → β) (l : List α) (i : Nat) (a : α) (b : β)
    (h : i < l.length) : (l.map f).getD i b = f (l.getD i a) := by
  rw [List.getD_eq_getElem _ _ (by simpa using h), List.getD_eq_getElem _ _ h]
  simp

theorem getD_append_lt {α : Type} (l l' : List α) (i : Nat) (dflt : α) (h : i < l.length) :
    (l ++ l').getD i dflt = l.getD i dflt :=
  List.getD_append l l' dflt i h

theorem getD_append_ge {α : Type} (l l' : List α) (i : Nat) (dflt : α) (h : l.length ≤ i) :
    (l ++ l').getD i dflt = l'.getD (i - l.length) dflt :=
  List.getD_append_right l l' dflt i h

theorem getD_append_add {α : Type} (l l' : List α) (i : Nat) (dflt : α) :
    (l ++ l').getD (l.length + i) dflt = l'.getD i dflt := by
  rw [getD_append_ge _ _ _ _ (by omega)]
  congr 1
  omega

/-- The stop events that the inner loop of the constructor appends for one trip. -/
theorem foldl_addStopEvent (trip firstStopId : Nat) : ∀ (n : Nat) (td : Data),
    (List.range n).foldl (addStopEvent trip firstStopId) td =
      { td with
        tripOfStopEvent := td.tripOfStopEvent ++ List.replicate n trip
        indexOfStopEvent := td.indexOfStopEvent ++ List.range n
        arrivalEvents := td.arrivalEvents ++ (List.range n).map (fun i =>
          (⟨(td.raptorData.stopEventAt (td.arrivalEvents.length + i)).arrivalTime,
            td.raptorData.stopIdAt (firstStopId + i)⟩ : ArrivalEvent)) } := by
  intro n
  induction n with
  | zero => intro td; simp
  | succ n ih =>
    intro td
    rw [List.range_succ, List.foldl_append, ih td]
    simp only [List.foldl_cons, List.foldl_nil, addStopEvent, List.length_append,
      List.length_map, List.length_range, List.map_append, List.map_cons, List.map_nil,
      List.append_assoc, List.replicate_succ']

/-- What `addTrip` appends. -/
theorem addTrip_fields (route n firstStopId : Nat) (td : Data) (E : Nat) :
    (addTrip route n firstStopId td E).raptorData = td.raptorData ∧
    (addTrip route n firstStopId td E).firstTripOfRoute = td.firstTripOfRoute ∧
    (addTrip route n firstStopId td E).routeOfTrip = td.routeOfTrip ++ [route] ∧
    (addTrip route n firstStopId td E).firstStopIdOfTrip =
      td.firstStopIdOfTrip ++ [firstStopId] ∧
    (addTrip route n firstStopId td E).firstStopEventOfTrip = td.firstStopEventOfTrip ++ [E] ∧
    (addTrip route n firstStopId td E).tripOfStopEvent =
      td.tripOfStopEvent ++ List.replicate n td.routeOfTrip.length ∧
    (addTrip route n firstStopId td E).indexOfStopEvent =
      td.indexOfStopEvent ++ List.range n ∧
    (addTrip route n firstStopId td E).arrivalEvents =
      td.arrivalEvents ++ (List.range n).map (fun i =>
        (⟨(td.raptorData.stopEventAt (td.arrivalEvents.length + i)).arrivalTime,
          td.raptorData.stopIdAt (firstStopId + i)⟩ : ArrivalEvent)) := by
  unfold addTrip
  simp only []
  rw [foldl_addStopEvent]
  exact ⟨rfl, rfl, rfl, rfl, rfl, rfl, rfl, rfl⟩

end Data
end TripBased

namespace TripBased
namespace Data

/-- Adding a trip of a route that has a stop, starting at the stop event built next,
keeps the invariant of the trips. -/
theorem addTrip_tripsBuilt {d : RAPTOR.Data} {td : Data} {E : Nat} (h : TripsBuilt d td E)
    (route : Nat) (hr : route < d.numberOfRoutes) (hn : 0 < d.numberOfStopsInRoute route) :
    TripsBuilt d
      (addTrip route (d.numberOfStopsInRoute route) (d.firstStopIdOfRoute.getD route 0) td E)
      (E + d.numberOfStopsInRoute route) := by
  obtain ⟨e1, e2, e3, e4, e5, e6, e7, e8⟩ :=
    addTrip_fields route (d.numberOfStopsInRoute route) (d.firstStopIdOfRoute.getD route 0) td E
  generalize addTrip route (d.numberOfStopsInRoute route)
    (d.firstStopIdOfRoute.getD route 0) td E = td' at e1 e2 e3 e4 e5 e6 e7 e8
  obtain ⟨hrap, ⟨hl1, hl2⟩, ⟨hE1, hE2, hE3⟩, htrip, hevent⟩ := h
  have hends : td'.tripEnds (E + d.numberOfStopsInRoute route) =
      td.tripEnds E ++ [E + d.numberOfStopsInRoute route] := by
    unfold tripEnds; rw [e5]
  have hendsLen : (td.tripEnds E).length = td.routeOfTrip.length + 1 := by
    unfold tripEnds; rw [List.length_append, hl2]; rfl
  have hendT : (td.tripEnds E).getD td.routeOfTrip.length 0 = E := by
    unfold tripEnds
    rw [← hl2, getD_append_ge _ _ _ _ (le_refl _), Nat.sub_self]
    rfl
  have hendT1 : (td'.tripEnds (E + d.numberOfStopsInRoute route)).getD
      (td.routeOfTrip.length + 1) 0 = E + d.numberOfStopsInRoute route := by
    rw [hends, ← hendsLen, getD_append_ge _ _ _ _ (le_refl _), Nat.sub_self]
    rfl
  have hendOld : ∀ t, t ≤ td.routeOfTrip.length →
      (td'.tripEnds (E + d.numberOfStopsInRoute route)).getD t 0 = (td.tripEnds E).getD t 0 := by
    intro t ht
    rw [hends, getD_append_lt _ _ _ _ (by omega)]
  have hlen' : td'.routeOfTrip.length = td.routeOfTrip.length + 1 := by
    rw [e3, List.length_append]; rfl
  have hrouteOld : ∀ t, t < td.routeOfTrip.length →
      td'.routeOfTrip.getD t 0 = td.routeOfTrip.getD t 0 := by
    intro t ht; rw [e3, getD_append_lt _ _ _ _ ht]
  have hrouteT : td'.routeOfTrip.getD td.routeOfTrip.length 0 = route := by
    rw [e3, getD_append_ge _ _ _ _ (le_refl _), Nat.sub_self]; rfl
  have hfsidOld : ∀ t, t < td.routeOfTrip.length →
      td'.firstStopIdOfTrip.getD t 0 = td.firstStopIdOfTrip.getD t 0 := by
    intro t ht; rw [e4, getD_append_lt _ _ _ _ (by omega)]
  have hfsidT : td'.firstStopIdOfTrip.getD td.routeOfTrip.length 0 =
      d.firstStopIdOfRoute.getD route 0 := by
    rw [e4, ← hl1, getD_append_ge _ _ _ _ (le_refl _), Nat.sub_self]; rfl
  have htripOld : ∀ e, e < E → td'.tripOfStopEvent.getD e 0 = td.tripOfStopEvent.getD e 0 := by
    intro e he; rw [e6, getD_append_lt _ _ _ _ (by omega)]
  have hidxOld : ∀ e, e < E → td'.indexOfStopEvent.getD e 0 = td.indexOfStopEvent.getD e 0 := by
    intro e he; rw [e7, getD_append_lt _ _ _ _ (by omega)]
  have harrOld : ∀ e, e < E → td'.arrivalEvents.getD e {} = td.arrivalEvents.getD e {} := by
    intro e he; rw [e8, getD_append_lt _ _ _ _ (by omega)]
  have htripNew : ∀ i, i < d.numberOfStopsInRoute route →
      td'.tripOfStopEvent.getD (E + i) 0 = td.routeOfTrip.length := by
    intro i hi
    rw [e6, ← hE1, getD_append_add, getD_replicate_lt _ _ _ _ hi]
  have hidxNew : ∀ i, i < d.numberOfStopsInRoute route →
      td'.indexOfStopEvent.getD (E + i) 0 = i := by
    intro i hi
    rw [e7, ← hE2, getD_append_add, getD_range_lt _ _ _ hi]
  have harrNew : ∀ i, i < d.numberOfStopsInRoute route →
      td'.arrivalEvents.getD (E + i) {} =
        ⟨(d.stopEventAt (E + i)).arrivalTime,
          d.stopIdAt (d.firstStopIdOfRoute.getD route 0 + i)⟩ := by
    intro i hi
    rw [e8, ← hE3, getD_append_add,
      getD_map_lt _ _ _ 0 _ (by rw [List.length_range]; exact hi), getD_range_lt _ _ _ hi,
      hrap]
  refine ⟨e1.trans hrap, ⟨?_, ?_⟩, ⟨?_, ?_, ?_⟩, ?_, ?_⟩
  · rw [e4, e3, List.length_append, List.length_append, hl1]; rfl
  · rw [e5, e3, List.length_append, List.length_append, hl2]; rfl
  · rw [e6, List.length_append, List.length_replicate, hE1]
  · rw [e7, List.length_append, List.length_range, hE2]
  · rw [e8, List.length_append, List.length_map, List.length_range, hE3]
  · intro t ht
    rw [hlen'] at ht
    rcases Nat.lt_succ_iff_lt_or_eq.mp ht with h1 | h1
    · obtain ⟨a, b, c, f, g, k⟩ := htrip t h1
      rw [hrouteOld t h1, hfsidOld t h1, hendOld t (by omega), hendOld (t + 1) (by omega)]
      refine ⟨a, b, c, f, by omega, ?_⟩
      intro i hi
      rw [htripOld _ (by omega), hidxOld _ (by omega)]
      exact k i hi
    · rw [h1, hrouteT, hfsidT, hendOld _ (le_refl _), hendT, hendT1]
      refine ⟨hr, rfl, hn, rfl, le_refl _, ?_⟩
      intro i hi
      exact ⟨htripNew i hi, hidxNew i hi⟩
  · intro e he
    by_cases heE : e < E
    · obtain ⟨a, b, c, f⟩ := hevent e heE
      rw [htripOld e heE, hidxOld e heE, harrOld e heE, hrouteOld _ a, hfsidOld _ a,
        hendOld _ (by omega), hlen']
      exact ⟨by omega, b, c, f⟩
    · obtain ⟨i, rfl⟩ : ∃ i, e = E + i := ⟨e - E, by omega⟩
      have hi : i < d.numberOfStopsInRoute route := by omega
      rw [htripNew i hi, hidxNew i hi, harrNew i hi, hrouteT, hfsidT,
        hendOld _ (le_refl _), hendT, hlen']
      exact ⟨by omega, hi, rfl, rfl⟩

/-- Adding a trip of the route started last keeps the invariant of the routes. -/
theorem addTrip_routesBuilt {k : Nat} {td : Data} (h : RoutesBuilt (k + 1) td)
    (n firstStopId E : Nat) : RoutesBuilt (k + 1) (addTrip k n firstStopId td E) := by
  obtain ⟨e1, e2, e3, e4, e5, e6, e7, e8⟩ := addTrip_fields k n firstStopId td E
  generalize addTrip k n firstStopId td E = td' at e1 e2 e3 e4 e5 e6 e7 e8
  obtain ⟨hlen, hroute, htrips⟩ := h
  have hlen' : td'.routeOfTrip.length = td.routeOfTrip.length + 1 := by
    rw [e3, List.length_append]; rfl
  have hendsOld : ∀ r, r ≤ k → td'.routeEnds.getD r 0 = td.routeEnds.getD r 0 := by
    intro r hr
    unfold routeEnds
    rw [e2, getD_append_lt _ _ _ _ (by omega), getD_append_lt _ _ _ _ (by omega)]
  have hendLast : td.routeEnds.getD (k + 1) 0 = td.routeOfTrip.length := by
    unfold routeEnds
    rw [← hlen, getD_append_ge _ _ _ _ (le_refl _), Nat.sub_self]; rfl
  have hendLast' : td'.routeEnds.getD (k + 1) 0 = td.routeOfTrip.length + 1 := by
    unfold routeEnds
    rw [e2, ← hlen, getD_append_ge _ _ _ _ (le_refl _), Nat.sub_self, hlen']; rfl
  have hrouteOld : ∀ t, t < td.routeOfTrip.length →
      td'.routeOfTrip.getD t 0 = td.routeOfTrip.getD t 0 := by
    intro t ht; rw [e3, getD_append_lt _ _ _ _ ht]
  have hrouteT : td'.routeOfTrip.getD td.routeOfTrip.length 0 = k := by
    rw [e3, getD_append_ge _ _ _ _ (le_refl _), Nat.sub_self]; rfl
  have hk := htrips k (Nat.lt_succ_self k)
  rw [hendLast] at hk
  refine ⟨by rw [e2]; exact hlen, ?_, ?_⟩
  · intro t ht
    rw [hlen'] at ht
    rcases Nat.lt_succ_iff_lt_or_eq.mp ht with h1 | h1
    · obtain ⟨a, b, c⟩ := hroute t h1
      rw [hrouteOld t h1, hendsOld _ (by omega)]
      refine ⟨a, b, ?_⟩
      rcases Nat.lt_succ_iff_lt_or_eq.mp a with h2 | h2
      · rw [hendsOld _ (by omega)]; exact c
      · rw [h2, hendLast']; omega
    · rw [h1, hrouteT, hendsOld _ (le_refl _), hendLast']
      exact ⟨Nat.lt_succ_self k, hk.1, Nat.lt_succ_self _⟩
  · intro r hr
    rcases Nat.lt_succ_iff_lt_or_eq.mp hr with h2 | h2
    · obtain ⟨a, b, c⟩ := htrips r hr
      rw [hendsOld _ (by omega), hendsOld _ (by omega), hlen']
      refine ⟨a, by omega, ?_⟩
      intro t h3 h4
      have : t < td.routeOfTrip.length := by omega
      rw [hrouteOld t this]
      exact c t h3 h4
    · rw [h2, hendsOld _ (le_refl _), hendLast', hlen']
      refine ⟨by omega, le_refl _, ?_⟩
      intro t h3 h4
      rcases Nat.lt_succ_iff_lt_or_eq.mp h4 with h5 | h5
      · rw [hrouteOld t h5]
        exact hk.2.2 t h3 h5
      · rw [h5, hrouteT]

end Data
end TripBased

namespace TripBased
namespace Data

/-- Lowering one departure time keeps the number of stop events and their arrival
times. -/
theorem updateAt_departure (base events : List RAPTOR.StopEvent)
    (h : SameArrivals base events) (i : Nat) (c : Int) :
    SameArrivals base
      (events.updateAt i (fun e => { e with departureTime := e.departureTime - c })) := by
  refine ⟨by rw [CH.length_updateAt]; exact h.1, ?_⟩
  intro e
  by_cases hie : i = e
  · subst hie
    by_cases hi : i < events.length
    · rw [CH.getD_updateAt_self _ _ _ _ hi]
      exact h.2 i
    · rw [CH.getD_updateAt_out _ _ _ (by omega)]
      exact h.2 i
  · rw [CH.getD_updateAt_other _ _ _ _ _ hie]
    exact h.2 e

theorem foldl_sameArrivals {β : Type} (base : List RAPTOR.StopEvent)
    (f : List RAPTOR.StopEvent → β → List RAPTOR.StopEvent)
    (hf : ∀ a b, SameArrivals base a → SameArrivals base (f a b)) :
    ∀ (l : List β) (a : List RAPTOR.StopEvent), SameArrivals base a →
      SameArrivals base (l.foldl f a) := by
  intro l
  induction l with
  | nil => intro a h; exact h
  | cons b bs ih => intro a h; exact ih _ (hf a b h)

/-- `useImplicitDepartureBufferTimes` changes departure times only. -/
theorem useImplicitDepartureBufferTimes_same (d : RAPTOR.Data) :
    d.useImplicitDepartureBufferTimes.firstStopIdOfRoute = d.firstStopIdOfRoute ∧
    d.useImplicitDepartureBufferTimes.firstStopEventOfRoute = d.firstStopEventOfRoute ∧
    d.useImplicitDepartureBufferTimes.stopIds = d.stopIds ∧
    d.useImplicitDepartureBufferTimes.stopEvents.length = d.stopEvents.length ∧
    ∀ e, (d.useImplicitDepartureBufferTimes.stopEventAt e).arrivalTime =
      (d.stopEventAt e).arrivalTime := by
  unfold RAPTOR.Data.useImplicitDepartureBufferTimes
  by_cases h : d.implicitDepartureBufferTimes = true
  · rw [if_pos h]
    exact ⟨rfl, rfl, rfl, rfl, fun _ => rfl⟩
  · rw [if_neg h]
    have key : SameArrivals d.stopEvents ((List.range d.numberOfRoutes).foldl
      (fun events route =>
        (List.range (d.numberOfTripsInRoute route)).foldl
          (fun events trip =>
            (List.range (d.numberOfStopsInRoute route)).foldl
              (fun events stopIndex =>
                events.updateAt
                  (d.firstTripOfRoute route + trip * d.numberOfStopsInRoute route + stopIndex)
                  (fun e => { e with departureTime := e.departureTime -
                    (d.stopData.getD (d.stopIdAt (d.stopArrayOfRoute route + stopIndex))
                      {}).minTransferTime }))
              events)
          events)
      d.stopEvents) := by
      refine foldl_sameArrivals _ _ ?_ _ _ ⟨rfl, fun _ => rfl⟩
      intro events route hP
      refine foldl_sameArrivals _ _ ?_ _ _ hP
      intro events trip hP
      refine foldl_sameArrivals _ _ ?_ _ _ hP
      intro events stopIndex hP
      exact updateAt_departure _ _ hP _ _
    exact ⟨rfl, rfl, rfl, key.1, fun e => key.2 e⟩

/-- The loop over the trips of the route started last ends and keeps the invariants. -/
theorem addTrips_built {d : RAPTOR.Data} (route : Nat) (hr : route < d.numberOfRoutes)
    (hn : 0 < d.numberOfStopsInRoute route) (lastEvent : Nat) :
    ∀ (m fuel E : Nat) (td : Data), lastEvent = E + m * d.numberOfStopsInRoute route →
      m + 1 ≤ fuel → TripsBuilt d td E → RoutesBuilt (route + 1) td →
      ∃ td', addTrips route (d.numberOfStopsInRoute route) (d.firstStopIdOfRoute.getD route 0)
          lastEvent fuel E td = some td' ∧
        TripsBuilt d td' lastEvent ∧ RoutesBuilt (route + 1) td' := by
  intro m
  induction m with
  | zero =>
    intro fuel E td hE hf ht hrb
    obtain ⟨f, rfl⟩ : ∃ f, fuel = f + 1 := ⟨fuel - 1, by omega⟩
    have : lastEvent = E := by omega
    subst this
    unfold addTrips
    rw [if_neg (lt_irrefl _)]
    exact ⟨td, rfl, ht, hrb⟩
  | succ m ih =>
    intro fuel E td hE hf ht hrb
    obtain ⟨f, rfl⟩ : ∃ f, fuel = f + 1 := ⟨fuel - 1, by omega⟩
    have hlt : E < lastEvent := by
      rw [hE, Nat.succ_mul]
      omega
    unfold addTrips
    rw [if_pos hlt]
    exact ih f (E + d.numberOfStopsInRoute route) _
      (by rw [hE, Nat.succ_mul]; omega) (by omega)
      (addTrip_tripsBuilt ht route hr hn) (addTrip_routesBuilt hrb _ _ _)

/-- Starting a route keeps the invariant of the routes: the route has no trips yet. -/
theorem startRoute_routesBuilt {k : Nat} {td : Data} (h : RoutesBuilt k td) :
    RoutesBuilt (k + 1)
      { td with firstTripOfRoute := td.firstTripOfRoute ++ [td.routeOfTrip.length] } := by
  obtain ⟨hlen, hroute, htrips⟩ := h
  have e2 : ({ td with firstTripOfRoute := td.firstTripOfRoute ++
      [td.routeOfTrip.length] } : Data).firstTripOfRoute =
      td.firstTripOfRoute ++ [td.routeOfTrip.length] := rfl
  have e3 : ({ td with firstTripOfRoute := td.firstTripOfRoute ++
      [td.routeOfTrip.length] } : Data).routeOfTrip = td.routeOfTrip := rfl
  generalize ({ td with firstTripOfRoute := td.firstTripOfRoute ++
      [td.routeOfTrip.length] } : Data) = td1 at e2 e3
  have hends : ∀ r, r ≤ k → td1.routeEnds.getD r 0 = td.routeEnds.getD r 0 := by
    intro r hr
    unfold routeEnds
    rw [e2, getD_append_lt _ _ _ _ (by rw [List.length_append, hlen]; simp; omega)]
  have hlast : td.routeEnds.getD k 0 = td.routeOfTrip.length := by
    unfold routeEnds
    rw [← hlen, getD_append_ge _ _ _ _ (le_refl _), Nat.sub_self]; rfl
  have hlast' : td1.routeEnds.getD (k + 1) 0 = td.routeOfTrip.length := by
    unfold routeEnds
    rw [e2, e3, getD_append_ge _ _ _ _ (by rw [List.length_append, hlen]; simp)]
    rw [List.length_append, hlen]
    simp
  refine ⟨by rw [e2, List.length_append, hlen]; rfl, ?_, ?_⟩
  · intro t ht
    rw [e3] at ht ⊢
    obtain ⟨a, b, c⟩ := hroute t ht
    refine ⟨by omega, ?_, ?_⟩
    · rw [hends _ (by omega)]; exact b
    · rw [hends _ (by omega)]; exact c
  · intro r hr
    rw [e3]
    rcases Nat.lt_succ_iff_lt_or_eq.mp hr with h2 | h2
    · obtain ⟨a, b, c⟩ := htrips r h2
      rw [hends _ (by omega), hends _ (by omega)]
      exact ⟨a, b, c⟩
    · rw [h2, hends _ (le_refl _), hlast', hlast]
      refine ⟨le_refl _, le_refl _, ?_⟩
      intro t h3 h4
      omega

/-- The body of the loop over the routes ends and keeps the invariants. -/
theorem addRoute_built {d : RAPTOR.Data} (hd : Timetable d) {td : Data} {k : Nat}
    (hk : k < d.numberOfRoutes) (ht : TripsBuilt d td (d.firstStopEventOfRoute.getD k 0))
    (hrb : RoutesBuilt k td) :
    ∃ td', addRoute td k = some td' ∧
      TripsBuilt d td' (d.firstStopEventOfRoute.getD (k + 1) 0) ∧ RoutesBuilt (k + 1) td' := by
  have hrap := ht.raptor
  subst hrap
  obtain ⟨hn, hle, m, hm⟩ := hd.trips k hk
  unfold addRoute
  simp only []
  have ht' : TripsBuilt td.raptorData
      { td with firstTripOfRoute := td.firstTripOfRoute ++ [td.routeOfTrip.length] }
      (td.raptorData.firstStopEventOfRoute.getD k 0) :=
    ⟨ht.raptor, ht.lens, ht.events, ht.trip, ht.event⟩
  refine addTrips_built k hk hn _ m _ _ _ ?_ ?_ ht' (startRoute_routesBuilt hrb)
  · rw [Nat.mul_comm]; omega
  · have : m ≤ td.raptorData.numberOfStopsInRoute k * m := Nat.le_mul_of_pos_left m hn
    omega

/-- The loop over the routes ends and keeps the invariants. -/
theorem addRoutes_built {d : RAPTOR.Data} (hd : Timetable d) : ∀ (m k : Nat) (td : Data),
    k + m ≤ d.numberOfRoutes → TripsBuilt d td (d.firstStopEventOfRoute.getD k 0) →
    RoutesBuilt k td →
    ∃ td', addRoutes (List.range' k m) td = some td' ∧
      TripsBuilt d td' (d.firstStopEventOfRoute.getD (k + m) 0) ∧ RoutesBuilt (k + m) td' := by
  intro m
  induction m with
  | zero => intro k td _ ht hrb; exact ⟨td, rfl, ht, hrb⟩
  | succ m ih =>
    intro k td hk ht hrb
    obtain ⟨td1, h1, ht1, hrb1⟩ := addRoute_built hd (show k < d.numberOfRoutes by omega) ht hrb
    obtain ⟨td2, h2, ht2, hrb2⟩ := ih (k + 1) td1 (by omega) ht1 hrb1
    refine ⟨td2, ?_, by rw [show k + (m + 1) = k + 1 + m by omega]; exact ht2,
      by rw [show k + (m + 1) = k + 1 + m by omega]; exact hrb2⟩
    rw [List.range'_succ]
    unfold addRoutes
    rw [h1]
    exact h2

end Data
end TripBased

namespace TripBased
namespace Data

/-- The timetable that the constructed data holds: the given one, with implicit departure
buffer times. -/
theorem implicit_same (d : RAPTOR.Data) :
    (if d.implicitDepartureBufferTimes = true then d
      else d.useImplicitDepartureBufferTimes).firstStopIdOfRoute = d.firstStopIdOfRoute ∧
    (if d.implicitDepartureBufferTimes = true then d
      else d.useImplicitDepartureBufferTimes).firstStopEventOfRoute =
        d.firstStopEventOfRoute ∧
    (if d.implicitDepartureBufferTimes = true then d
      else d.useImplicitDepartureBufferTimes).stopIds = d.stopIds ∧
    (if d.implicitDepartureBufferTimes = true then d
      else d.useImplicitDepartureBufferTimes).stopEvents.length = d.stopEvents.length ∧
    ∀ e, ((if d.implicitDepartureBufferTimes = true then d
      else d.useImplicitDepartureBufferTimes).stopEventAt e).arrivalTime =
        (d.stopEventAt e).arrivalTime := by
  by_cases h : d.implicitDepartureBufferTimes = true
  · rw [if_pos h]; exact ⟨rfl, rfl, rfl, rfl, fun _ => rfl⟩
  · rw [if_neg h]; exact useImplicitDepartureBufferTimes_same d

/-- The constructor returns for every timetable, and in its result the stop events are
the pairs of a trip and a stop index. -/
theorem ofRaptor_spec (d : RAPTOR.Data) (hd : Timetable d) :
    ∃ td, ofRaptor d = some td ∧ StopEventsOfTrips td ∧
      td.raptorData.firstStopIdOfRoute = d.firstStopIdOfRoute ∧
      td.raptorData.firstStopEventOfRoute = d.firstStopEventOfRoute ∧
      td.raptorData.stopIds = d.stopIds ∧
      td.raptorData.stopEvents.length = d.stopEvents.length ∧
      ∀ e, (td.raptorData.stopEventAt e).arrivalTime = (d.stopEventAt e).arrivalTime := by
  have h0 : TripsBuilt d ⟨d, [], [], [], [], [], [], ⟨[0], [], []⟩, []⟩
      (d.firstStopEventOfRoute.getD 0 0) := by
    rw [hd.first]
    refine ⟨rfl, ⟨rfl, rfl⟩, ⟨rfl, rfl, rfl⟩, ?_, ?_⟩
    · intro t ht; exact absurd ht (Nat.not_lt_zero t)
    · intro e he; exact absurd he (Nat.not_lt_zero e)
  have r0 : RoutesBuilt 0 (⟨d, [], [], [], [], [], [], ⟨[0], [], []⟩, []⟩ : Data) := by
    refine ⟨rfl, ?_, ?_⟩
    · intro t ht; exact absurd ht (Nat.not_lt_zero t)
    · intro r hr; exact absurd hr (Nat.not_lt_zero r)
  obtain ⟨td, hrun, ht, hrb⟩ := addRoutes_built hd d.numberOfRoutes 0 _ (by omega) h0 r0
  rw [Nat.zero_add, hd.last] at ht
  rw [Nat.zero_add] at hrb
  rw [← List.range_eq_range'] at hrun
  obtain ⟨f1, f2, f3, f4, f5⟩ := implicit_same d
  obtain ⟨hrap, ⟨hl1, hl2⟩, ⟨hE1, hE2, hE3⟩, htrip, hevent⟩ := ht
  obtain ⟨hlen, hroute, htrips⟩ := hrb
  unfold ofRaptor
  rw [hrun]
  simp only []
  rw [hrap]
  refine ⟨_, rfl, ?_, f1, f2, f3, f4, f5⟩
  have hroutes : (if d.implicitDepartureBufferTimes = true then d
      else d.useImplicitDepartureBufferTimes).numberOfRoutes = d.numberOfRoutes := by
    unfold RAPTOR.Data.numberOfRoutes; rw [f1]
  have hstops : ∀ r, (if d.implicitDepartureBufferTimes = true then d
      else d.useImplicitDepartureBufferTimes).numberOfStopsInRoute r =
      d.numberOfStopsInRoute r := by
    intro r; unfold RAPTOR.Data.numberOfStopsInRoute; rw [f1]
  have hstopId : ∀ i, (if d.implicitDepartureBufferTimes = true then d
      else d.useImplicitDepartureBufferTimes).stopIdAt i = d.stopIdAt i := by
    intro i; unfold RAPTOR.Data.stopIdAt; rw [f3]
  generalize (if d.implicitDepartureBufferTimes = true then d
      else d.useImplicitDepartureBufferTimes) = d' at f1 f2 f3 f4 f5 hroutes hstops hstopId
  have hfsid : ∀ t, t < td.routeOfTrip.length →
      (td.firstStopIdOfTrip ++ [d.stopIds.length]).getD t 0 = td.firstStopIdOfTrip.getD t 0 :=
    fun t ht => getD_append_lt _ _ _ _ (by omega)
  refine ⟨?_, ⟨?_, ?_⟩, ⟨?_, ?_, ?_⟩, ?_, ?_, ?_, ?_, ?_⟩
  · show (td.firstTripOfRoute ++ [td.routeOfTrip.length]).length = d'.numberOfRoutes + 1
    rw [List.length_append, hlen, hroutes]; rfl
  · show (td.firstStopEventOfTrip ++ [d.stopEvents.length]).length = td.routeOfTrip.length + 1
    rw [List.length_append, hl2]; rfl
  · show (td.firstStopIdOfTrip ++ [d.stopIds.length]).length = td.routeOfTrip.length + 1
    rw [List.length_append, hl1]; rfl
  · show td.tripOfStopEvent.length = d'.stopEvents.length
    rw [f4]; exact hE1
  · show td.indexOfStopEvent.length = d'.stopEvents.length
    rw [f4]; exact hE2
  · show td.arrivalEvents.length = d'.stopEvents.length
    rw [f4]; exact hE3
  · intro t ht
    obtain ⟨a, b, c⟩ := hroute t ht
    show td.routeOfTrip.getD t 0 < d'.numberOfRoutes ∧
      td.routeEnds.getD (td.routeOfTrip.getD t 0) 0 ≤ t ∧
      t < td.routeEnds.getD (td.routeOfTrip.getD t 0 + 1) 0
    rw [hroutes]
    exact ⟨a, b, c⟩
  · intro r hr
    have hr' : r < d.numberOfRoutes := by rw [← hroutes]; exact hr
    exact htrips r hr'
  · intro t ht
    obtain ⟨a, b, c, f, g, k⟩ := htrip t ht
    show (td.tripEnds d.stopEvents.length).getD (t + 1) 0 -
        (td.tripEnds d.stopEvents.length).getD t 0 =
        d'.numberOfStopsInRoute (td.routeOfTrip.getD t 0) ∧
      0 < (td.tripEnds d.stopEvents.length).getD (t + 1) 0 -
        (td.tripEnds d.stopEvents.length).getD t 0 ∧
      (td.firstStopIdOfTrip ++ [d.stopIds.length]).getD t 0 =
        d'.firstStopIdOfRoute.getD (td.routeOfTrip.getD t 0) 0 ∧
      (td.tripEnds d.stopEvents.length).getD (t + 1) 0 ≤ d'.stopEvents.length
    rw [hstops, hfsid t ht, f1, f4]
    exact ⟨by omega, by omega, b, g⟩
  · intro e he
    have he' : e < d.stopEvents.length := by
      have : e < d'.stopEvents.length := he
      omega
    obtain ⟨a, b, c, f⟩ := hevent e he'
    obtain ⟨a1, b1, c1, f1', g1, k1⟩ := htrip _ a
    show td.tripOfStopEvent.getD e 0 < td.routeOfTrip.length ∧
      td.indexOfStopEvent.getD e 0 <
        (td.tripEnds d.stopEvents.length).getD (td.tripOfStopEvent.getD e 0 + 1) 0 -
          (td.tripEnds d.stopEvents.length).getD (td.tripOfStopEvent.getD e 0) 0 ∧
      (td.tripEnds d.stopEvents.length).getD (td.tripOfStopEvent.getD e 0) 0 +
        td.indexOfStopEvent.getD e 0 = e ∧
      td.arrivalEvents.getD e {} =
        ⟨(d'.stopEventAt e).arrivalTime,
          d'.stopIdAt ((td.firstStopIdOfTrip ++ [d.stopIds.length]).getD
            (td.tripOfStopEvent.getD e 0) 0 + td.indexOfStopEvent.getD e 0)⟩
    rw [f5, hstopId, hfsid _ a]
    exact ⟨a, by omega, c, f⟩
  · intro t i ht hi
    obtain ⟨a, b, c, f, g, k⟩ := htrip t ht
    have hi' : i < d.numberOfStopsInRoute (td.routeOfTrip.getD t 0) := by
      have : i < (td.tripEnds d.stopEvents.length).getD (t + 1) 0 -
        (td.tripEnds d.stopEvents.length).getD t 0 := hi
      omega
    show (td.tripEnds d.stopEvents.length).getD t 0 + i < d'.stopEvents.length ∧
      td.tripOfStopEvent.getD ((td.tripEnds d.stopEvents.length).getD t 0 + i) 0 = t ∧
      td.indexOfStopEvent.getD ((td.tripEnds d.stopEvents.length).getD t 0 + i) 0 = i
    rw [f4]
    exact ⟨by omega, (k i hi').1, (k i hi').2⟩

end Data
end TripBased

namespace TripBased
namespace Data

/-- C18: the constructor of `TripBased::Data` returns for every timetable, and in its
result the stop events are in bijection with the pairs of a trip and a stop index of it:
every stop event `e` is the stop event `indexOfStopEvent[e]` of the trip
`tripOfStopEvent[e]`, the stop event `getStopEventId(t, i)` of every trip `t` and index
`i < numberOfStopsInTrip(t)` has the trip `t` and the index `i`, a trip has as many stops
as its route, and `arrivalEvents[e]` holds the arrival time of the stop event `e` (the one
of the timetable) and its stop. -/
theorem stopEvents_bijection (d : RAPTOR.Data) (hd : Timetable d) :
    ∃ td, ofRaptor d = some td ∧
      (∀ e, e < td.numberOfStopEvents →
        td.tripOfStopEvent.getD e 0 < td.numberOfTrips ∧
        td.indexOfStopEvent.getD e 0 < td.numberOfStopsInTrip (td.tripOfStopEvent.getD e 0) ∧
        td.firstStopEventOfTrip.getD (td.tripOfStopEvent.getD e 0) 0 +
          td.indexOfStopEvent.getD e 0 = e ∧
        td.arrivalEvents.getD e {} =
          ⟨(td.raptorData.stopEventAt e).arrivalTime, td.getStopOfStopEvent e⟩ ∧
        (td.raptorData.stopEventAt e).arrivalTime = (d.stopEventAt e).arrivalTime) ∧
      (∀ t i, t < td.numberOfTrips → i < td.numberOfStopsInTrip t →
        td.getStopEventId t i < td.numberOfStopEvents ∧
        td.tripOfStopEvent.getD (td.getStopEventId t i) 0 = t ∧
        td.indexOfStopEvent.getD (td.getStopEventId t i) 0 = i) ∧
      (∀ t, t < td.numberOfTrips →
        td.numberOfStopsInTrip t = td.numberOfStopsInRoute (td.routeOfTrip.getD t 0)) ∧
      td.numberOfStopEvents = d.numberOfStopEvents := by
  obtain ⟨td, h1, h2, _, _, _, h6, h7⟩ := ofRaptor_spec d hd
  refine ⟨td, h1, ?_, h2.ofTrip, fun t ht => (h2.stopsInTrip t ht).1, h6⟩
  intro e he
  obtain ⟨a, b, c, f⟩ := h2.ofEvent e he
  exact ⟨a, b, c, f, h7 e⟩

/-- C18 (witness): the data of `smallTimetable`. -/
theorem stopEvents_bijection_witness :
    Timetable smallTimetable ∧
    ∃ td, ofRaptor smallTimetable = some td ∧
      (∀ e, e < td.numberOfStopEvents →
        td.tripOfStopEvent.getD e 0 < td.numberOfTrips ∧
        td.indexOfStopEvent.getD e 0 < td.numberOfStopsInTrip (td.tripOfStopEvent.getD e 0) ∧
        td.firstStopEventOfTrip.getD (td.tripOfStopEvent.getD e 0) 0 +
          td.indexOfStopEvent.getD e 0 = e ∧
        td.arrivalEvents.getD e {} =
          ⟨(td.raptorData.stopEventAt e).arrivalTime, td.getStopOfStopEvent e⟩ ∧
        (td.raptorData.stopEventAt e).arrivalTime = (smallTimetable.stopEventAt e).arrivalTime) ∧
      (∀ t i, t < td.numberOfTrips → i < td.numberOfStopsInTrip t →
        td.getStopEventId t i < td.numberOfStopEvents ∧
        td.tripOfStopEvent.getD (td.getStopEventId t i) 0 = t ∧
        td.indexOfStopEvent.getD (td.getStopEventId t i) 0 = i) ∧
      (∀ t, t < td.numberOfTrips →
        td.numberOfStopsInTrip t = td.numberOfStopsInRoute (td.routeOfTrip.getD t 0)) ∧
      td.numberOfStopEvents = smallTimetable.numberOfStopEvents :=
  have hd : Timetable smallTimetable :=
    ⟨by decide, by decide, by decide, by decide, by decide⟩
  ⟨hd, stopEvents_bijection smallTimetable hd⟩

/-- The constructor builds `smallData` from `smallTimetable`. -/
theorem ofRaptor_smallTimetable : ofRaptor smallTimetable = some smallData := by rfl

theorem smallTimetable_timetable : Timetable smallTimetable :=
  ⟨by decide, by decide, by decide, by decide, by decide⟩

end Data
end TripBased

namespace TripBased
namespace ReachedIndexSmall

/-- Writing `f t` at every index `t` below `k`. -/
theorem foldl_set_getD (f : Nat → Nat) : ∀ (k : Nat) (base : List Nat) (t : Nat),
    k ≤ base.length →
    ((List.range k).foldl (fun l trip => l.set trip (f trip)) base).length = base.length ∧
    ((List.range k).foldl (fun l trip => l.set trip (f trip)) base).getD t 0 =
      if t < k then f t else base.getD t 0 := by
  intro k
  induction k with
  | zero => intro base t _; exact ⟨rfl, rfl⟩
  | succ k ih =>
    intro base t hk
    obtain ⟨h1, h2⟩ := ih base t (by omega)
    rw [List.range_succ, List.foldl_append, List.foldl_cons, List.foldl_nil]
    refine ⟨by rw [List.length_set, h1], ?_⟩
    by_cases htk : k = t
    · subst htk
      rw [ShortcutSearch.getD_set_self _ _ _ _ (by rw [h1]; omega), if_pos (Nat.lt_succ_self _)]
    · rw [ShortcutSearch.getD_set_ne _ _ _ _ _ htk, h2]
      by_cases h3 : t < k
      · rw [if_pos h3, if_pos (by omega)]
      · rw [if_neg h3, if_neg (by omega)]

/-- The labels directly after `clear()`. -/
theorem clear_labels (td : Data) :
    (new td).clear.labels.length = td.numberOfTrips ∧
    ∀ t, t < td.numberOfTrips →
      (new td).clear.labels.getD t 0 = td.numberOfStopsInTrip t % 256 := by
  have key := foldl_set_getD (fun trip => td.numberOfStopsInTrip trip % 256) td.numberOfTrips
    (List.replicate td.numberOfTrips 255)
  constructor
  · exact ((key 0 (by simp)).1).trans (by simp)
  · intro t ht
    have := (key t (by simp)).2
    rw [if_pos ht] at this
    exact this

/-- The loop of `update` lowers the labels from the trip `i` to the end of the route to
`index`, when they are bytes that do not increase along the route. -/
theorem updateLoop_spec (index routeEnd : Nat) : ∀ (fuel i : Nat) (labels : List Nat),
    routeEnd ≤ i + fuel → routeEnd ≤ labels.length →
    (∀ t, i ≤ t → t < routeEnd → labels.getD t 0 ≤ 255) →
    (∀ t t', i ≤ t → t ≤ t' → t' < routeEnd → labels.getD t' 0 ≤ labels.getD t 0) →
    (updateLoop index routeEnd fuel i labels).length = labels.length ∧
    (∀ t, t < i ∨ routeEnd ≤ t →
      (updateLoop index routeEnd fuel i labels).getD t 0 = labels.getD t 0) ∧
    (∀ t, i ≤ t → t < routeEnd →
      (updateLoop index routeEnd fuel i labels).getD t 0 = min (labels.getD t 0) index) := by
  intro fuel
  induction fuel with
  | zero =>
    intro i labels hf _ _ _
    refine ⟨rfl, fun _ _ => rfl, ?_⟩
    intro t h1 h2
    omega
  | succ fuel ih =>
    intro i labels hf hlen hsmall hsorted
    unfold updateLoop
    by_cases hi : i < routeEnd
    · rw [if_pos hi]
      by_cases hle : labels.getD i 0 ≤ index
      · rw [if_pos hle]
        refine ⟨rfl, fun _ _ => rfl, ?_⟩
        intro t h1 h2
        have := hsorted i t (le_refl _) h1 h2
        rw [min_eq_left (by omega)]
      · rw [if_neg hle]
        have hidx : index % 256 = index := by
          have := hsmall i (le_refl _) hi
          exact Nat.mod_eq_of_lt (by omega)
        rw [hidx]
        have hsame : ∀ t, i ≠ t → (labels.set i index).getD t 0 = labels.getD t 0 :=
          fun t ht => ShortcutSearch.getD_set_ne _ _ _ _ _ ht
        obtain ⟨a, b, c⟩ := ih (i + 1) (labels.set i index) (by omega)
          (by rw [List.length_set]; exact hlen)
          (by
            intro t h1 h2
            rw [hsame t (by omega)]
            exact hsmall t (by omega) h2)
          (by
            intro t t' h1 h2 h3
            rw [hsame t (by omega), hsame t' (by omega)]
            exact hsorted t t' (by omega) h2 h3)
        refine ⟨by rw [a, List.length_set], ?_, ?_⟩
        · intro t ht
          rw [b t (by omega), hsame t (by omega)]
        · intro t h1 h2
          by_cases hti : i = t
          · subst hti
            rw [b i (by omega), ShortcutSearch.getD_set_self _ _ _ _ (by omega)]
            rw [min_eq_right (by omega)]
          · rw [c t (by omega) h2, hsame t hti]
    · rw [if_neg hi]
      refine ⟨rfl, fun _ _ => rfl, ?_⟩
      intro t h1 h2
      omega

/-- The labels after `clear()` satisfy the invariant. -/
theorem clear_inv {td : Data} (h : td.StopEventsOfTrips) : Inv td (new td).clear := by
  obtain ⟨h1, h2⟩ := clear_labels td
  refine ⟨h1, ?_, ?_⟩
  · intro t ht
    rw [h2 t ht]
    have := Nat.mod_lt (td.numberOfStopsInTrip t) (show 0 < 256 by decide)
    omega
  · intro t t' htt ht' hroute
    rw [h2 t (by omega), h2 t' ht', (h.stopsInTrip t (by omega)).1, (h.stopsInTrip t' ht').1,
      hroute]

/-- `update(trip, index)` lowers the labels of the trips of the route of `trip` from
`trip` on to `index` and keeps every other label. -/
theorem update_spec {td : Data} (h : td.StopEventsOfTrips) {r : ReachedIndexSmall}
    (hr : Inv td r) (trip index : Nat) (ht : trip < td.numberOfTrips) :
    Inv td (update td r trip index) ∧
    ∀ t, t < td.numberOfTrips →
      (update td r trip index).labels.getD t 0 =
        if trip ≤ t ∧ td.routeOfTrip.getD t 0 = td.routeOfTrip.getD trip 0
        then min (r.labels.getD t 0) index else r.labels.getD t 0 := by
  obtain ⟨hroute, hfirst, hend⟩ := h.route trip ht
  obtain ⟨hle, hn, hall⟩ := h.tripsOfRoute _ hroute
  have hin : ∀ t, trip ≤ t → t < td.firstTripOfRoute.getD (td.routeOfTrip.getD trip 0 + 1) 0 →
      td.routeOfTrip.getD t 0 = td.routeOfTrip.getD trip 0 :=
    fun t h1 h2 => hall t (by omega) h2
  obtain ⟨a, b, c⟩ := updateLoop_spec index
    (td.firstTripOfRoute.getD (td.routeOfTrip.getD trip 0 + 1) 0)
    (td.firstTripOfRoute.getD (td.routeOfTrip.getD trip 0 + 1) 0 - trip) trip r.labels
    (by omega) (by rw [hr.length]; exact hn)
    (fun t _ h2 => hr.small t (by omega))
    (fun t t' h1 h2 h3 => hr.sorted t t' h2 (by omega)
      ((hin t h1 (by omega)).trans (hin t' (by omega) h3).symm))
  have hlabels : ∀ t, t < td.numberOfTrips →
      (update td r trip index).labels.getD t 0 =
        if trip ≤ t ∧ td.routeOfTrip.getD t 0 = td.routeOfTrip.getD trip 0
        then min (r.labels.getD t 0) index else r.labels.getD t 0 := by
    intro t htn
    show (updateLoop index _ _ trip r.labels).getD t 0 = _
    by_cases hc : trip ≤ t ∧ td.routeOfTrip.getD t 0 = td.routeOfTrip.getD trip 0
    · rw [if_pos hc]
      refine c t hc.1 ?_
      have := (h.route t htn).2.2
      rw [hc.2] at this
      exact this
    · rw [if_neg hc]
      refine b t ?_
      by_contra hcon
      exact hc ⟨by omega, hin t (by omega) (by omega)⟩
  refine ⟨⟨?_, ?_, ?_⟩, hlabels⟩
  · show (updateLoop index _ _ trip r.labels).length = _
    rw [a]; exact hr.length
  · intro t htn
    rw [hlabels t htn]
    have := hr.small t htn
    split
    · exact le_trans (min_le_left _ _) this
    · exact this
  · intro t t' htt ht' hsame
    rw [hlabels t (by omega), hlabels t' ht']
    have hs := hr.sorted t t' htt ht' hsame
    by_cases hc : trip ≤ t ∧ td.routeOfTrip.getD t 0 = td.routeOfTrip.getD trip 0
    · rw [if_pos hc, if_pos ⟨by omega, hsame ▸ hc.2⟩]
      exact min_le_min_right _ hs
    · rw [if_neg hc]
      split
      · exact le_trans (min_le_left _ _) hs
      · exact hs

/-- Every state reached from `clear()` by calls of `update` for trips satisfies the
invariant. -/
theorem afterUpdates_inv {td : Data} (h : td.StopEventsOfTrips) :
    ∀ (updates : List (Nat × Nat)) (r : ReachedIndexSmall), Inv td r →
      (∀ u ∈ updates, u.1 < td.numberOfTrips) →
      Inv td (updates.foldl (fun r u => update td r u.1 u.2) r) := by
  intro updates
  induction updates with
  | nil => intro r hr _; exact hr
  | cons u us ih =>
    intro r hr hu
    rw [List.foldl_cons]
    exact ih _ (update_spec h hr u.1 u.2 (hu u (List.mem_cons_self _ _))).1
      (fun v hv => hu v (List.mem_cons_of_mem _ hv))

end ReachedIndexSmall
end TripBased

namespace TripBased
namespace ReachedIndexSmall

/-- C12: in every state reached from `clear()` by calls of `update` (for trips of the
data built from a timetable), `update(trip, index)` increases no label, changes no label
of a trip of another route or of an earlier trip, and leaves every trip from `trip` on of
the route of `trip` with a label of at most `index`. -/
theorem update_monotone (d : RAPTOR.Data) (hd : Data.Timetable d) (td : Data)
    (htd : Data.ofRaptor d = some td) (updates : List (Nat × Nat))
    (hu : ∀ u ∈ updates, u.1 < td.numberOfTrips) (trip index : Nat)
    (ht : trip < td.numberOfTrips) :
    (∀ t, (update td (afterUpdates td updates) trip index).get t ≤
      (afterUpdates td updates).get t) ∧
    (∀ t, t < td.numberOfTrips →
      td.routeOfTrip.getD t 0 ≠ td.routeOfTrip.getD trip 0 ∨ t < trip →
      (update td (afterUpdates td updates) trip index).get t =
        (afterUpdates td updates).get t) ∧
    (∀ t, trip ≤ t → t < td.numberOfTrips →
      td.routeOfTrip.getD t 0 = td.routeOfTrip.getD trip 0 →
      (update td (afterUpdates td updates) trip index).get t ≤ index) := by
  obtain ⟨td', h1, hs, _⟩ := Data.ofRaptor_spec d hd
  rw [htd] at h1
  obtain rfl := Option.some.inj h1
  have hinv : Inv td (afterUpdates td updates) :=
    afterUpdates_inv hs updates _ (clear_inv hs) hu
  obtain ⟨hinv', hl⟩ := update_spec hs hinv trip index ht
  unfold get
  refine ⟨?_, ?_, ?_⟩
  · intro t
    by_cases htn : t < td.numberOfTrips
    · rw [hl t htn]
      split
      · exact min_le_left _ _
      · exact le_refl _
    · rw [ShortcutSearch.getD_of_length_le _ _ _ (by rw [hinv'.length]; omega)]
      exact Nat.zero_le _
  · intro t htn hor
    rw [hl t htn, if_neg]
    rintro ⟨h2, h3⟩
    rcases hor with h4 | h4
    · exact h4 h3
    · omega
  · intro t h2 htn h3
    rw [hl t htn, if_pos ⟨h2, h3⟩]
    exact min_le_right _ _

/-- C12 (witness): in the data of `smallTimetable`, after `clear()` and `update(1, 2)`,
the call `update(0, 1)`. -/
theorem update_monotone_witness :
    (∀ t, (update Data.smallData (afterUpdates Data.smallData [(1, 2)]) 0 1).get t ≤
      (afterUpdates Data.smallData [(1, 2)]).get t) ∧
    (∀ t, t < Data.smallData.numberOfTrips →
      Data.smallData.routeOfTrip.getD t 0 ≠ Data.smallData.routeOfTrip.getD 0 0 ∨ t < 0 →
      (update Data.smallData (afterUpdates Data.smallData [(1, 2)]) 0 1).get t =
        (afterUpdates Data.smallData [(1, 2)]).get t) ∧
    (∀ t, 0 ≤ t → t < Data.smallData.numberOfTrips →
      Data.smallData.routeOfTrip.getD t 0 = Data.smallData.routeOfTrip.getD 0 0 →
      (update Data.smallData (afterUpdates Data.smallData [(1, 2)]) 0 1).get t ≤ 1) :=
  update_monotone Data.smallTimetable
    ⟨by decide, by decide, by decide, by decide, by decide⟩ Data.smallData (by rfl)
    [(1, 2)] (by decide) 0 1 (by decide)

set_option maxRecDepth 100000 in
/-- C13 (counterexample): `longRoute` is a timetable whose only trip has 256 stops;
directly after `clear()` its reached index is 0, not 256, and `alreadyReached` answers
true for its first stop index. -/
theorem clear_wraps_long_trip :
    (Data.ofRaptor Data.longRoute).map (fun td =>
      (td.numberOfTrips, td.numberOfStopsInRoute (td.routeOfTrip.getD 0 0),
        (new td).clear.get 0, (new td).clear.alreadyReached 0 0)) =
      some (1, 256, 0, true) := by
  decide

/-- C13 (amended): for the data built from a timetable and every trip `t` whose route has
at most 255 stops, directly after `clear()` the reached index of `t` is the number of
stops of the route of `t`, and `alreadyReached(t, j)` is false for every stop index `j`
below it. -/
theorem clear_reached_index (d : RAPTOR.Data) (hd : Data.Timetable d) (td : Data)
    (htd : Data.ofRaptor d = some td) (t : Nat) (ht : t < td.numberOfTrips)
    (hsmall : td.numberOfStopsInRoute (td.routeOfTrip.getD t 0) ≤ 255) :
    (new td).clear.get t = td.numberOfStopsInRoute (td.routeOfTrip.getD t 0) ∧
    ∀ j, j < td.numberOfStopsInRoute (td.routeOfTrip.getD t 0) →
      (new td).clear.alreadyReached t j = false := by
  obtain ⟨td', h1, hs, _⟩ := Data.ofRaptor_spec d hd
  rw [htd] at h1
  obtain rfl := Option.some.inj h1
  have hl := (clear_labels td).2 t ht
  rw [(hs.stopsInTrip t ht).1, Nat.mod_eq_of_lt (by omega)] at hl
  refine ⟨hl, ?_⟩
  intro j hj
  unfold alreadyReached
  rw [hl, Nat.mod_eq_of_lt (by omega)]
  exact decide_eq_false (by omega)

/-- C13 (witness): the trip 2 of the data of `smallTimetable`, whose route has two
stops. -/
theorem clear_reached_index_witness :
    (new Data.smallData).clear.get 2 =
      Data.smallData.numberOfStopsInRoute (Data.smallData.routeOfTrip.getD 2 0) ∧
    ∀ j, j < Data.smallData.numberOfStopsInRoute (Data.smallData.routeOfTrip.getD 2 0) →
      (new Data.smallData).clear.alreadyReached 2 j = false :=
  clear_reached_index Data.smallTimetable
    ⟨by decide, by decide, by decide, by decide, by decide⟩ Data.smallData (by rfl) 2
    (by decide) (by decide)

end ReachedIndexSmall
end TripBased

namespace TripBased
namespace Data

/-- C17 (witness): the route 0 of the data of `smallTimetable` at its first stop, whose
two trips leave at 100 and at 400, and the time 150. -/
theorem getEarliestTrip_spec_witness :
    (smallData.getEarliestTrip 0 0 150 = noTripId ↔
        0 + 1 = smallData.numberOfStopsInRoute 0 ∨
        ¬ ∃ t, smallData.firstTripOfRoute.getD 0 0 ≤ t ∧
          t < smallData.firstTripOfRoute.getD (0 + 1) 0 ∧
          150 ≤ (smallData.getStopEvent t 0).departureTime) ∧
      (smallData.getEarliestTrip 0 0 150 ≠ noTripId →
        smallData.firstTripOfRoute.getD 0 0 ≤ smallData.getEarliestTrip 0 0 150 ∧
        smallData.getEarliestTrip 0 0 150 < smallData.firstTripOfRoute.getD (0 + 1) 0 ∧
        150 ≤ (smallData.getStopEvent (smallData.getEarliestTrip 0 0 150) 0).departureTime ∧
        ∀ t, smallData.firstTripOfRoute.getD 0 0 ≤ t →
          t < smallData.firstTripOfRoute.getD (0 + 1) 0 →
          150 ≤ (smallData.getStopEvent t 0).departureTime →
          smallData.getEarliestTrip 0 0 150 ≤ t) :=
  getEarliestTrip_spec smallData 0 0 150
    (by
      intro t t' _ h2 h3
      have h4 : t' < 2 := h3
      interval_cases t' <;> interval_cases t <;> decide)
    (by decide)

/-- The trip found in the witness is the second trip of the route. -/
theorem getEarliestTrip_smallData : smallData.getEarliestTrip 0 0 150 = 1 := by decide

end Data
end TripBased

namespace TripBased

theorem shortcutLess_iff (a b : Shortcut) :
    shortcutLess a b = true ↔ pairLess (a.origin, a.destination) (b.origin, b.destination) := by
  unfold shortcutLess pairLess
  simp only [Bool.or_eq_true, Bool.and_eq_true, decide_eq_true_eq]

theorem shortcutLess_false_iff (a b : Shortcut) :
    shortcutLess a b = false ↔
      ¬ pairLess (a.origin, a.destination) (b.origin, b.destination) := by
  rw [← shortcutLess_iff]
  cases shortcutLess a b <;> simp

/-- An insertion sort leaves a sorted list as it is. -/
theorem sortBy_of_sorted {α : Type} (lt : α → α → Bool) : ∀ (l : List α),
    l.Pairwise (fun a b => lt b a = false) → ShortcutSearch.sortBy lt l = l := by
  intro l
  induction l with
  | nil => intro _; rfl
  | cons x xs ih =>
    intro h
    rw [List.pairwise_cons] at h
    have hxs := ih h.2
    unfold ShortcutSearch.sortBy at hxs ⊢
    rw [List.foldr_cons, hxs]
    cases xs with
    | nil => rfl
    | cons y ys =>
      unfold ShortcutSearch.insertSorted
      rw [h.1 y (List.mem_cons_self _ _)]
      rfl

theorem insertSorted_perm {α : Type} (lt : α → α → Bool) (x : α) : ∀ (l : List α),
    (ShortcutSearch.insertSorted lt x l).Perm (x :: l) := by
  intro l
  induction l with
  | nil => exact List.Perm.refl _
  | cons y ys ih =>
    unfold ShortcutSearch.insertSorted
    split
    · exact (List.Perm.cons y ih).trans (List.Perm.swap x y ys)
    · exact List.Perm.refl _

theorem sortBy_perm {α : Type} (lt : α → α → Bool) : ∀ (l : List α),
    (ShortcutSearch.sortBy lt l).Perm l := by
  intro l
  induction l with
  | nil => exact List.Perm.refl _
  | cons x xs ih =>
    unfold ShortcutSearch.sortBy at ih ⊢
    rw [List.foldr_cons]
    exact (insertSorted_perm lt x _).trans (List.Perm.cons x ih)

/-- The insertion sort by origin and destination meets the contract of `std::sort`. -/
theorem sortBy_stdSort : StdSort shortcutLess (ShortcutSearch.sortBy shortcutLess) := by
  have hins : ∀ (x : Shortcut) (l : List Shortcut),
      l.Pairwise (fun a b => shortcutLess b a = false) →
      (ShortcutSearch.insertSorted shortcutLess x l).Pairwise
        (fun a b => shortcutLess b a = false) := by
    intro x l
    induction l with
    | nil => intro _; exact List.pairwise_singleton _ _
    | cons y ys ih =>
      intro h
      rw [List.pairwise_cons] at h
      unfold ShortcutSearch.insertSorted
      by_cases hyx : shortcutLess y x = true
      · rw [if_pos hyx, List.pairwise_cons]
        refine ⟨?_, ih h.2⟩
        intro z hz
        rcases List.mem_cons.mp ((insertSorted_perm shortcutLess x ys).subset hz) with h1 | h1
        · rw [h1, shortcutLess_false_iff]
          rw [shortcutLess_iff] at hyx
          unfold pairLess at hyx ⊢
          simp only [] at hyx ⊢
          omega
        · exact h.1 z h1
      · rw [if_neg hyx, List.pairwise_cons]
        refine ⟨?_, List.pairwise_cons.mpr h⟩
        intro z hz
        have hyx' : shortcutLess y x = false := by
          cases hb : shortcutLess y x with
          | false => rfl
          | true => exact absurd hb hyx
        rcases List.mem_cons.mp hz with h1 | h1
        · rw [h1]; exact hyx'
        · have := h.1 z h1
          rw [shortcutLess_false_iff] at this hyx' ⊢
          unfold pairLess at this hyx' ⊢
          simp only [] at this hyx' ⊢
          omega
  intro l
  refine ⟨sortBy_perm _ l, ?_⟩
  induction l with
  | nil => exact List.Pairwise.nil
  | cons x xs ih =>
    unfold ShortcutSearch.sortBy at ih ⊢
    rw [List.foldr_cons]
    exact hins x _ ih

/-- Two lists that are strictly increasing for an asymmetric relation and have the same
elements are equal. -/
theorem eq_of_increasing {α : Type} (lt : α → α → Prop) (hasymm : ∀ a b, lt a b → ¬ lt b a) :
    ∀ (l1 l2 : List α), l1.Pairwise lt → l2.Pairwise lt → (∀ x, x ∈ l1 ↔ x ∈ l2) →
      l1 = l2 := by
  have hirr : ∀ a, ¬ lt a a := fun a h => hasymm a a h h
  intro l1
  induction l1 with
  | nil =>
    intro l2 _ _ hm
    cases l2 with
    | nil => rfl
    | cons b bs => exact absurd ((hm b).mpr (List.mem_cons_self _ _)) (List.not_mem_nil b)
  | cons a as ih =>
    intro l2 h1 h2 hm
    cases l2 with
    | nil => exact absurd ((hm a).mp (List.mem_cons_self _ _)) (List.not_mem_nil a)
    | cons b bs =>
      rw [List.pairwise_cons] at h1 h2
      have hab : a = b := by
        rcases List.mem_cons.mp ((hm a).mp (List.mem_cons_self _ _)) with h3 | h3
        · exact h3
        · rcases List.mem_cons.mp ((hm b).mpr (List.mem_cons_self _ _)) with h4 | h4
          · exact h4.symm
          · exact absurd (h1.1 b h4) (hasymm _ _ (h2.1 a h3))
      subst hab
      congr 1
      refine ih bs h1.2 h2.2 ?_
      intro x
      constructor
      · intro hx
        rcases List.mem_cons.mp ((hm x).mp (List.mem_cons_of_mem _ hx)) with h3 | h3
        · rw [h3] at hx; exact absurd (h1.1 a hx) (hirr a)
        · exact h3
      · intro hx
        rcases List.mem_cons.mp ((hm x).mpr (List.mem_cons_of_mem _ hx)) with h3 | h3
        · rw [h3] at hx; exact absurd (h2.1 a hx) (hirr a)
        · exact h3

namespace ULTRABuilder

theorem addShortcuts_eq : ∀ (rest : List Shortcut) (g : DynamicTransferGraph)
    (previous : Shortcut),
    addShortcuts g previous rest =
      { g with edges := g.edges ++ emitted previous rest } := by
  intro rest
  induction rest with
  | nil => intro g previous; simp [addShortcuts, emitted]
  | cons s rest ih =>
    intro g previous
    unfold addShortcuts emitted
    split
    · exact ih g s
    · rw [ih]
      simp [DynamicTransferGraph.addEdge]

/-- Every edge of the loop is the edge of a shortcut. -/
theorem mem_emitted : ∀ (rest : List Shortcut) (previous : Shortcut) (e : TransferEdge),
    e ∈ emitted previous rest →
      ∃ s ∈ rest, e = ⟨s.origin, s.destination, s.walkingDistance⟩ := by
  intro rest
  induction rest with
  | nil => intro previous e he; simp [emitted] at he
  | cons s rest ih =>
    intro previous e he
    unfold emitted at he
    split at he
    · obtain ⟨s', h1, h2⟩ := ih s e he
      exact ⟨s', List.mem_cons_of_mem _ h1, h2⟩
    · rcases List.mem_cons.mp he with h1 | h1
      · exact ⟨s, List.mem_cons_self _ _, h1⟩
      · obtain ⟨s', h2, h3⟩ := ih s e h1
        exact ⟨s', List.mem_cons_of_mem _ h2, h3⟩

/-- Every shortcut has the origin and the destination of the shortcut before the loop or
of an edge of the loop. -/
theorem emitted_covers : ∀ (rest : List Shortcut) (previous : Shortcut), ∀ s ∈ rest,
    (s.origin = previous.origin ∧ s.destination = previous.destination) ∨
      ∃ e ∈ emitted previous rest, e.fromVertex = s.origin ∧ e.toVertex = s.destination := by
  intro rest
  induction rest with
  | nil => intro previous s hs; exact absurd hs (List.not_mem_nil s)
  | cons s0 rest ih =>
    intro previous s hs
    unfold emitted
    by_cases hc : s0.origin = previous.origin ∧ s0.destination = previous.destination
    · rw [if_pos hc]
      rcases List.mem_cons.mp hs with h1 | h1
      · rw [h1]; exact Or.inl hc
      · rcases ih s0 s h1 with h2 | h2
        · exact Or.inl ⟨h2.1.trans hc.1, h2.2.trans hc.2⟩
        · exact Or.inr h2
    · rw [if_neg hc]
      rcases List.mem_cons.mp hs with h1 | h1
      · rw [h1]; exact Or.inr ⟨_, List.mem_cons_self _ _, rfl, rfl⟩
      · rcases ih s0 s h1 with h2 | h2
        · exact Or.inr ⟨_, List.mem_cons_self _ _, h2.1.symm, h2.2.symm⟩
        · obtain ⟨e, he, h3⟩ := h2
          exact Or.inr ⟨e, List.mem_cons_of_mem _ he, h3⟩

/-- On a sorted vector the edges of the loop are strictly increasing, above the shortcut
before the loop. -/
theorem emitted_increasing : ∀ (rest : List Shortcut) (previous : Shortcut),
    (∀ s ∈ rest, shortcutLess s previous = false) →
    rest.Pairwise (fun a b => shortcutLess b a = false) →
    (∀ e ∈ emitted previous rest,
      pairLess (previous.origin, previous.destination) (e.fromVertex, e.toVertex)) ∧
    (emitted previous rest).Pairwise (fun a b =>
      pairLess (a.fromVertex, a.toVertex) (b.fromVertex, b.toVertex)) := by
  intro rest
  induction rest with
  | nil =>
    intro previous _ _
    exact ⟨fun e he => by simp [emitted] at he, by simp [emitted]⟩
  | cons s rest ih =>
    intro previous hprev hsorted
    rw [List.pairwise_cons] at hsorted
    obtain ⟨h1, h2⟩ := ih s hsorted.1 hsorted.2
    have hs := hprev s (List.mem_cons_self _ _)
    rw [shortcutLess_false_iff] at hs
    unfold emitted
    by_cases hc : s.origin = previous.origin ∧ s.destination = previous.destination
    · rw [if_pos hc]
      refine ⟨?_, h2⟩
      intro e he
      have := h1 e he
      rw [hc.1, hc.2] at this
      exact this
    · rw [if_neg hc]
      have hlt : pairLess (previous.origin, previous.destination) (s.origin, s.destination) := by
        unfold pairLess at hs ⊢
        simp only [] at hs ⊢
        omega
      refine ⟨?_, List.pairwise_cons.mpr ⟨fun e he => h1 e he, h2⟩⟩
      intro e he
      rcases List.mem_cons.mp he with h3 | h3
      · rw [h3]; exact hlt
      · have := h1 e h3
        unfold pairLess at this hlt ⊢
        simp only [] at this hlt ⊢
        omega

end ULTRABuilder
end TripBased

namespace TripBased
namespace ULTRABuilder

theorem mem_edgesOf (S : List Shortcut) (e : TransferEdge) (he : e ∈ edgesOf S) :
    ∃ s ∈ S, e = ⟨s.origin, s.destination, s.walkingDistance⟩ := by
  cases S with
  | nil => simp [edgesOf] at he
  | cons first rest =>
    unfold edgesOf at he
    rcases List.mem_cons.mp he with h1 | h1
    · exact ⟨first, List.mem_cons_self _ _, h1⟩
    · obtain ⟨s, h2, h3⟩ := mem_emitted rest first e h1
      exact ⟨s, List.mem_cons_of_mem _ h2, h3⟩

theorem edgesOf_covers (S : List Shortcut) (s : Shortcut) (hs : s ∈ S) :
    ∃ e ∈ edgesOf S, e.fromVertex = s.origin ∧ e.toVertex = s.destination := by
  cases S with
  | nil => exact absurd hs (List.not_mem_nil s)
  | cons first rest =>
    unfold edgesOf
    rcases List.mem_cons.mp hs with h1 | h1
    · rw [h1]; exact ⟨_, List.mem_cons_self _ _, rfl, rfl⟩
    · rcases emitted_covers rest first s h1 with h2 | h2
      · exact ⟨_, List.mem_cons_self _ _, h2.1.symm, h2.2.symm⟩
      · obtain ⟨e, he, h3⟩ := h2
        exact ⟨e, List.mem_cons_of_mem _ he, h3⟩

theorem edgesOf_increasing (S : List Shortcut)
    (hS : S.Pairwise (fun a b => shortcutLess b a = false)) :
    (edgesOf S).Pairwise (fun a b =>
      pairLess (a.fromVertex, a.toVertex) (b.fromVertex, b.toVertex)) := by
  cases S with
  | nil => simp [edgesOf]
  | cons first rest =>
    rw [List.pairwise_cons] at hS
    obtain ⟨h1, h2⟩ := emitted_increasing rest first hS.1 hS.2
    unfold edgesOf
    exact List.pairwise_cons.mpr ⟨fun e he => h1 e he, h2⟩

/-- The graph that `computeShortcuts` returns for a vector that is not empty. -/
theorem computeShortcuts_eq (sort : List Shortcut → List Shortcut)
    (hsort : StdSort shortcutLess sort) (n : Nat) (shortcuts : List Shortcut) :
    computeShortcuts sort n shortcuts =
      if shortcuts = [] then none else some ⟨n, edgesOf (sort shortcuts)⟩ := by
  obtain ⟨hperm, hsorted⟩ := hsort shortcuts
  have hinc := edgesOf_increasing _ hsorted
  unfold computeShortcuts
  cases hS : sort shortcuts with
  | nil =>
    rw [hS] at hperm
    rw [if_pos (List.Perm.nil_eq hperm).symm]
  | cons first rest =>
    rw [hS] at hperm hinc
    have hne : shortcuts ≠ [] := by
      intro h0
      rw [h0] at hperm
      exact absurd hperm.length_eq (by simp)
    rw [if_neg hne]
    simp only []
    rw [addShortcuts_eq]
    unfold DynamicTransferGraph.sortEdges DynamicTransferGraph.addEdge
    simp only [List.nil_append, List.singleton_append]
    have hfix : ShortcutSearch.sortBy DynamicTransferGraph.edgeLess
        (⟨first.origin, first.destination, first.walkingDistance⟩ :: emitted first rest) =
        ⟨first.origin, first.destination, first.walkingDistance⟩ :: emitted first rest := by
      apply sortBy_of_sorted
      refine List.Pairwise.imp ?_ hinc
      intro a b hab
      unfold pairLess at hab
      unfold DynamicTransferGraph.edgeLess
      simp only [] at hab
      simp only [Bool.or_eq_false_iff, Bool.and_eq_false_iff, decide_eq_false_iff_not]
      omega
    rw [hfix]
    rfl

theorem pairLess_asymm (a b : Nat × Nat) (h : pairLess a b) : ¬ pairLess b a := by
  unfold pairLess at h ⊢
  omega

/-- The pairs of origin and destination of the edges depend on the shortcuts as a set
only. -/
theorem edgesOf_pairs_eq (sort : List Shortcut → List Shortcut)
    (hsort : StdSort shortcutLess sort) (l1 l2 : List Shortcut) (h : l1.Perm l2) :
    (edgesOf (sort l1)).map (fun e => (e.fromVertex, e.toVertex)) =
      (edgesOf (sort l2)).map (fun e => (e.fromVertex, e.toVertex)) := by
  have hmem : ∀ (la lb : List Shortcut), la.Perm lb → ∀ x,
      x ∈ (edgesOf (sort la)).map (fun e => (e.fromVertex, e.toVertex)) →
      x ∈ (edgesOf (sort lb)).map (fun e => (e.fromVertex, e.toVertex)) := by
    intro la lb hab x hx
    obtain ⟨e, he, rfl⟩ := List.mem_map.mp hx
    obtain ⟨s, hs, rfl⟩ := mem_edgesOf _ e he
    have hs' : s ∈ sort lb :=
      (hsort lb).1.symm.subset (hab.subset ((hsort la).1.subset hs))
    obtain ⟨e', he', h1, h2⟩ := edgesOf_covers _ s hs'
    exact List.mem_map.mpr ⟨e', he', by simp only [h1, h2]⟩
  refine eq_of_increasing pairLess pairLess_asymm _ _ ?_ ?_ ?_
  · exact (List.pairwise_map).mpr (edgesOf_increasing _ (hsort l1).2)
  · exact (List.pairwise_map).mpr (edgesOf_increasing _ (hsort l2).2)
  · intro x
    exact ⟨hmem l1 l2 h x, hmem l2 l1 h.symm x⟩

/-- When equal pairs carry equal walking distances, the edges depend on the shortcuts as
a set only. -/
theorem edgesOf_eq (sort : List Shortcut → List Shortcut)
    (hsort : StdSort shortcutLess sort) (l1 l2 : List Shortcut) (h : l1.Perm l2)
    (hsame : SameDistances l1) : edgesOf (sort l1) = edgesOf (sort l2) := by
  have hmem : ∀ (la lb : List Shortcut), la.Perm lb → SameDistances la → ∀ x,
      x ∈ edgesOf (sort la) → x ∈ edgesOf (sort lb) := by
    intro la lb hab hd x hx
    obtain ⟨s, hs, rfl⟩ := mem_edgesOf _ x hx
    have hsa : s ∈ la := (hsort la).1.subset hs
    have hs' : s ∈ sort lb := (hsort lb).1.symm.subset (hab.subset hsa)
    obtain ⟨e', he', h1, h2⟩ := edgesOf_covers _ s hs'
    obtain ⟨s', hs2, rfl⟩ := mem_edgesOf _ e' he'
    have hs2a : s' ∈ la := hab.symm.subset ((hsort lb).1.subset hs2)
    have hw := hd s' hs2a s hsa h1 h2
    simp only [] at h1 h2
    rw [← h1, ← h2, ← hw]
    exact he'
  have hsame2 : SameDistances l2 := by
    intro a ha b hb
    exact hsame a (h.symm.subset ha) b (h.symm.subset hb)
  refine eq_of_increasing
    (fun a b : TransferEdge => pairLess (a.fromVertex, a.toVertex) (b.fromVertex, b.toVertex))
    (fun a b hab => pairLess_asymm _ _ hab) _ _
    (edgesOf_increasing _ (hsort l1).2) (edgesOf_increasing _ (hsort l2).2) ?_
  intro x
  exact ⟨hmem l1 l2 h hsame x, hmem l2 l1 h.symm hsame2 x⟩

end ULTRABuilder
end TripBased

namespace TripBased
namespace ULTRABuilder

/-- C14 (failing input): for the empty vector of shortcuts `computeShortcuts` reads
`shortcuts[0]`, an element that does not exist, and emits no graph at all; so the code
does not give every list of shortcuts a graph whose edges are the pairs of origin and
destination of the shortcuts, each once. -/
theorem computeShortcuts_needs_a_shortcut :
    ¬ ∀ shortcuts : List Shortcut,
      ∃ g, computeShortcuts (ShortcutSearch.sortBy shortcutLess) 8 shortcuts = some g ∧
        (∀ o d, (∃ e ∈ g.edges, e.fromVertex = o ∧ e.toVertex = d) ↔
          ∃ s ∈ shortcuts, s.origin = o ∧ s.destination = d) ∧
        g.edges.Pairwise (fun a b => ¬ (a.fromVertex = b.fromVertex ∧ a.toVertex = b.toVertex)) := by
  intro h
  obtain ⟨g, hg, _⟩ := h []
  have hnone : computeShortcuts (ShortcutSearch.sortBy shortcutLess) 8 [] = none := by decide
  rw [hnone] at hg
  exact Option.noConfusion hg

/-- For every vector of shortcuts that is not empty and every sort that meets the
contract of `std::sort`, `computeShortcuts` emits a graph that has an edge from
`o` to `d` if and only if some shortcut has the origin `o` and the destination `d`, and
no two edges of the graph have the same origin and destination. -/
theorem computeShortcuts_edges (sort : List Shortcut → List Shortcut)
    (hsort : StdSort shortcutLess sort) (n : Nat) (shortcuts : List Shortcut)
    (hne : shortcuts ≠ []) :
    ∃ g, computeShortcuts sort n shortcuts = some g ∧
      (∀ o d, (∃ e ∈ g.edges, e.fromVertex = o ∧ e.toVertex = d) ↔
        ∃ s ∈ shortcuts, s.origin = o ∧ s.destination = d) ∧
      g.edges.Pairwise (fun a b => ¬ (a.fromVertex = b.fromVertex ∧ a.toVertex = b.toVertex)) := by
  rw [computeShortcuts_eq sort hsort, if_neg hne]
  refine ⟨_, rfl, ?_, ?_⟩
  · intro o d
    constructor
    · rintro ⟨e, he, h1, h2⟩
      obtain ⟨s, hs, rfl⟩ := mem_edgesOf _ e he
      exact ⟨s, (hsort shortcuts).1.subset hs, h1, h2⟩
    · rintro ⟨s, hs, h1, h2⟩
      obtain ⟨e, he, h3, h4⟩ := edgesOf_covers _ s ((hsort shortcuts).1.symm.subset hs)
      exact ⟨e, he, h3.trans h1, h4.trans h2⟩
  · refine List.Pairwise.imp ?_ (edgesOf_increasing _ (hsort shortcuts).2)
    intro a b hab heq
    unfold pairLess at hab
    simp only [] at hab
    omega

/-- Three shortcuts, two of them with the same origin and destination. -/
theorem computeShortcuts_edges_witness :
    ∃ g, computeShortcuts (ShortcutSearch.sortBy shortcutLess) 8
        [⟨1, 2, 60⟩, ⟨0, 3, 10⟩, ⟨1, 2, 60⟩] = some g ∧
      (∀ o d, (∃ e ∈ g.edges, e.fromVertex = o ∧ e.toVertex = d) ↔
        ∃ s ∈ ([⟨1, 2, 60⟩, ⟨0, 3, 10⟩, ⟨1, 2, 60⟩] : List Shortcut),
          s.origin = o ∧ s.destination = d) ∧
      g.edges.Pairwise (fun a b => ¬ (a.fromVertex = b.fromVertex ∧ a.toVertex = b.toVertex)) :=
  computeShortcuts_edges _ sortBy_stdSort 8 _ (by decide)

/-- The graph of the witness. -/
theorem computeShortcuts_example :
    computeShortcuts (ShortcutSearch.sortBy shortcutLess) 8
      [⟨1, 2, 60⟩, ⟨0, 3, 10⟩, ⟨1, 2, 60⟩] = some ⟨8, [⟨0, 3, 10⟩, ⟨1, 2, 60⟩]⟩ := by
  decide

/-- Insertion puts an element behind the elements that are smaller, whatever follows. -/
theorem insertSorted_split {α : Type} (lt : α → α → Bool) (x : α) :
    ∀ l : List α, ∃ l1 l2, ShortcutSearch.insertSorted lt x l = l1 ++ x :: l2 ∧
      ∀ y ∈ l1, lt y x = true := by
  intro l
  induction l with
  | nil => exact ⟨[], [], rfl, by simp⟩
  | cons y ys ih =>
    unfold ShortcutSearch.insertSorted
    by_cases hy : lt y x = true
    · rw [if_pos hy]
      obtain ⟨l1, l2, h1, h2⟩ := ih
      refine ⟨y :: l1, l2, by rw [h1]; rfl, ?_⟩
      intro z hz
      rcases List.mem_cons.mp hz with rfl | hz
      · exact hy
      · exact h2 z hz
    · rw [if_neg hy]
      exact ⟨[], y :: ys, rfl, by simp⟩

/-- The loop adds the edge of a shortcut whose pair differs from the pairs of the
shortcuts before it. -/
theorem emitted_mem (x : Shortcut) (l2 : List Shortcut) : ∀ (l1 : List Shortcut)
    (previous : Shortcut),
    (∀ y ∈ previous :: l1, ¬ (x.origin = y.origin ∧ x.destination = y.destination)) →
    (⟨x.origin, x.destination, x.walkingDistance⟩ : TransferEdge) ∈
      emitted previous (l1 ++ x :: l2) := by
  intro l1
  induction l1 with
  | nil =>
    intro previous h
    have hp := h previous (List.mem_cons_self _ _)
    rw [List.nil_append]
    unfold emitted
    rw [if_neg hp]
    exact List.mem_cons_self _ _
  | cons y ys ih =>
    intro previous h
    have hy := ih y (fun z hz => h z (List.mem_cons_of_mem _ hz))
    rw [List.cons_append]
    unfold emitted
    split
    · exact hy
    · exact List.mem_cons_of_mem _ hy

/-- The first shortcut of a vector has its edge, with its walking distance, in the graph
that the insertion sort yields. -/
theorem edgesOf_head (x : Shortcut) (rest : List Shortcut) :
    (⟨x.origin, x.destination, x.walkingDistance⟩ : TransferEdge) ∈
      edgesOf (ShortcutSearch.sortBy shortcutLess (x :: rest)) := by
  have hs : ShortcutSearch.sortBy shortcutLess (x :: rest) =
      ShortcutSearch.insertSorted shortcutLess x (ShortcutSearch.sortBy shortcutLess rest) := rfl
  obtain ⟨l1, l2, h1, h2⟩ := insertSorted_split shortcutLess x
    (ShortcutSearch.sortBy shortcutLess rest)
  rw [hs, h1]
  cases l1 with
  | nil =>
    rw [List.nil_append]
    unfold edgesOf
    exact List.mem_cons_self _ _
  | cons y ys =>
    rw [List.cons_append]
    unfold edgesOf
    refine List.mem_cons_of_mem _ (emitted_mem x l2 ys y ?_)
    intro z hz hpair
    have hlt := h2 z hz
    rw [shortcutLess_iff] at hlt
    unfold pairLess at hlt
    simp only [] at hlt
    omega

/-- When two shortcuts of a vector with the same origin and destination differ in the
walking distance, two orderings of the vector give different graphs. -/
theorem computeShortcuts_differs (n : Nat) (l : List Shortcut) (h : ¬ SameDistances l) :
    ∃ l3, l.Perm l3 ∧ computeShortcuts (ShortcutSearch.sortBy shortcutLess) n l ≠
      computeShortcuts (ShortcutSearch.sortBy shortcutLess) n l3 := by
  by_contra hall
  apply h
  intro a ha b hb ho hd
  have key : ∀ x ∈ l, (⟨x.origin, x.destination, x.walkingDistance⟩ : TransferEdge) ∈
      edgesOf (ShortcutSearch.sortBy shortcutLess l) := by
    intro x hx
    have hperm : l.Perm (x :: l.erase x) := List.perm_cons_erase hx
    have heq : computeShortcuts (ShortcutSearch.sortBy shortcutLess) n l =
        computeShortcuts (ShortcutSearch.sortBy shortcutLess) n (x :: l.erase x) := by
      by_contra hne
      exact hall ⟨_, hperm, hne⟩
    rw [computeShortcuts_eq _ sortBy_stdSort, computeShortcuts_eq _ sortBy_stdSort,
      if_neg (List.ne_nil_of_mem hx), if_neg (List.cons_ne_nil _ _)] at heq
    have hedges : edgesOf (ShortcutSearch.sortBy shortcutLess l) =
        edgesOf (ShortcutSearch.sortBy shortcutLess (x :: l.erase x)) := by
      injection heq with heq
      injection heq
    rw [hedges]
    exact edgesOf_head x _
  have hinc := edgesOf_increasing (ShortcutSearch.sortBy shortcutLess l)
    (sortBy_stdSort l).2
  have ha2 := key a ha
  have hb2 := key b hb
  by_contra hne
  have hdiff : (⟨a.origin, a.destination, a.walkingDistance⟩ : TransferEdge) ≠
      ⟨b.origin, b.destination, b.walkingDistance⟩ := by
    intro he
    injection he with _ _ hw
    exact hne hw
  have hsym : ∀ (L : List TransferEdge),
      L.Pairwise (fun a b => pairLess (a.fromVertex, a.toVertex) (b.fromVertex, b.toVertex)) →
      ∀ e1 ∈ L, ∀ e2 ∈ L, e1 ≠ e2 →
      pairLess (e1.fromVertex, e1.toVertex) (e2.fromVertex, e2.toVertex) ∨
        pairLess (e2.fromVertex, e2.toVertex) (e1.fromVertex, e1.toVertex) := by
    intro L hL
    induction hL with
    | nil => intro e1 h1; exact absurd h1 (List.not_mem_nil _)
    | cons hx _ ih =>
      intro e1 h1 e2 h2 h12
      rcases List.mem_cons.mp h1 with h1a | h1b
      · rcases List.mem_cons.mp h2 with h2a | h2b
        · exact absurd (h1a.trans h2a.symm) h12
        · rw [h1a]
          exact Or.inl (hx e2 h2b)
      · rcases List.mem_cons.mp h2 with h2a | h2b
        · rw [h2a]
          exact Or.inr (hx e1 h1b)
        · exact ih e1 h1b e2 h2b h12
  have := hsym _ hinc _ ha2 _ hb2 hdiff
  unfold pairLess at this
  simp only [] at this
  omega

/-- C15 (counterexample): the travel time of an edge depends on the order in which the
threads append their shortcuts.  In `oneWayFootpath` the stop V has a footpath of 0
seconds to the source S and S has none to V, so the station of V has the representative S
while the station of S is S alone.  The search from S rides the route 0 to A (stop event
2); the stop X on the way from A to V holds the earlier arrival of the walk from S, which
is not relaxed further, and V, which lies neither in the source station nor among the
stops reached by a direct transfer, gets its label over the footpath of 50 seconds from A:
the shortcut from the stop event 2 to the stop event 3 (the departure at V) is collected
with the walking distance 50.  The search from T rides the same trip to A and finds the
walk over X: the same shortcut with the walking distance 15.  When the thread of the stops
0 to 4 appends first the edge gets the travel time 50, when the thread of the stop 5
appends first it gets 15, for a sort that meets the contract of `std::sort`. -/
theorem computeShortcuts_depends_on_order :
    ShortcutSearch.WellFormed ShortcutSearch.oneWayFootpath ∧
    (ShortcutSearch.new ShortcutSearch.oneWayFootpath 900).stationOfStop.take 2 =
      [⟨0, [0]⟩, ⟨0, [1, 0]⟩] ∧
    collectShortcuts ShortcutSearch.oneWayFootpath 7 900 (-never) never
      [[0, 1, 2, 3, 4], [5]] = some [⟨2, 3, 50⟩, ⟨2, 3, 15⟩] ∧
    collectShortcuts ShortcutSearch.oneWayFootpath 7 900 (-never) never
      [[5], [0, 1, 2, 3, 4]] = some [⟨2, 3, 15⟩, ⟨2, 3, 50⟩] ∧
    ([⟨2, 3, 50⟩, ⟨2, 3, 15⟩] : List Shortcut).Perm [⟨2, 3, 15⟩, ⟨2, 3, 50⟩] ∧
    StdSort shortcutLess (ShortcutSearch.sortBy shortcutLess) ∧
    computeShortcuts (ShortcutSearch.sortBy shortcutLess) 5 [⟨2, 3, 50⟩, ⟨2, 3, 15⟩] =
      some ⟨5, [⟨2, 3, 50⟩]⟩ ∧
    computeShortcuts (ShortcutSearch.sortBy shortcutLess) 5 [⟨2, 3, 15⟩, ⟨2, 3, 50⟩] =
      some ⟨5, [⟨2, 3, 15⟩]⟩ :=
  ⟨⟨by decide, by decide, by decide, by decide, by decide, by decide, by decide, by decide⟩,
    by decide, by decide, by decide, List.Perm.swap _ _ _, sortBy_stdSort, by decide,
    by decide⟩

/-- C15 (amended): for every sort that meets the contract of `std::sort` and any two
orderings of the same shortcuts, `computeShortcuts` emits graphs with the same vertices
and the same sequence of edges as pairs of origin and destination; the travel times are
the same as well, and so are the graphs, when the shortcuts with the same origin and
destination have the same walking distance; and when two shortcuts with the same origin
and destination differ in the walking distance, some ordering of the shortcuts gives
another graph under the insertion sort. -/
theorem computeShortcuts_order_independent (sort : List Shortcut → List Shortcut)
    (hsort : StdSort shortcutLess sort) (n : Nat) (l1 l2 : List Shortcut) (h : l1.Perm l2) :
    (computeShortcuts sort n l1).map
        (fun g => (g.numVertices, g.edges.map (fun e => (e.fromVertex, e.toVertex)))) =
      (computeShortcuts sort n l2).map
        (fun g => (g.numVertices, g.edges.map (fun e => (e.fromVertex, e.toVertex)))) ∧
    (SameDistances l1 → computeShortcuts sort n l1 = computeShortcuts sort n l2) ∧
    (¬ SameDistances l1 → ∃ l3, l1.Perm l3 ∧
      computeShortcuts (ShortcutSearch.sortBy shortcutLess) n l1 ≠
        computeShortcuts (ShortcutSearch.sortBy shortcutLess) n l3) := by
  refine ⟨?_, ?_, computeShortcuts_differs n l1⟩
  · rw [computeShortcuts_eq sort hsort, computeShortcuts_eq sort hsort]
    by_cases h1 : l1 = []
    · have h2 : l2 = [] := by
        rw [h1] at h
        exact (List.Perm.nil_eq h).symm
      rw [if_pos h1, if_pos h2]
    · have h2 : l2 ≠ [] := by
        intro h0
        rw [h0] at h
        exact h1 (List.Perm.eq_nil h)
      rw [if_neg h1, if_neg h2]
      simp only [Option.map_some']
      rw [edgesOf_pairs_eq sort hsort l1 l2 h]
  · intro hsame
    rw [computeShortcuts_eq sort hsort, computeShortcuts_eq sort hsort]
    by_cases h1 : l1 = []
    · have h2 : l2 = [] := by
        rw [h1] at h
        exact (List.Perm.nil_eq h).symm
      rw [if_pos h1, if_pos h2]
    · have h2 : l2 ≠ [] := by
        intro h0
        rw [h0] at h
        exact h1 (List.Perm.eq_nil h)
      rw [if_neg h1, if_neg h2, edgesOf_eq sort hsort l1 l2 h hsame]

/-- C15 (witness): two orderings of three shortcuts. -/
theorem computeShortcuts_order_independent_witness :
    (computeShortcuts (ShortcutSearch.sortBy shortcutLess) 8
        [⟨1, 2, 60⟩, ⟨0, 3, 10⟩, ⟨1, 2, 60⟩]).map
        (fun g => (g.numVertices, g.edges.map (fun e => (e.fromVertex, e.toVertex)))) =
      (computeShortcuts (ShortcutSearch.sortBy shortcutLess) 8
        [⟨0, 3, 10⟩, ⟨1, 2, 60⟩, ⟨1, 2, 60⟩]).map
        (fun g => (g.numVertices, g.edges.map (fun e => (e.fromVertex, e.toVertex)))) ∧
    (SameDistances [⟨1, 2, 60⟩, ⟨0, 3, 10⟩, ⟨1, 2, 60⟩] →
      computeShortcuts (ShortcutSearch.sortBy shortcutLess) 8
        [⟨1, 2, 60⟩, ⟨0, 3, 10⟩, ⟨1, 2, 60⟩] =
      computeShortcuts (ShortcutSearch.sortBy shortcutLess) 8
        [⟨0, 3, 10⟩, ⟨1, 2, 60⟩, ⟨1, 2, 60⟩]) ∧
    (¬ SameDistances [⟨1, 2, 60⟩, ⟨0, 3, 10⟩, ⟨1, 2, 60⟩] → ∃ l3,
      ([⟨1, 2, 60⟩, ⟨0, 3, 10⟩, ⟨1, 2, 60⟩] : List Shortcut).Perm l3 ∧
      computeShortcuts (ShortcutSearch.sortBy shortcutLess) 8
        [⟨1, 2, 60⟩, ⟨0, 3, 10⟩, ⟨1, 2, 60⟩] ≠
      computeShortcuts (ShortcutSearch.sortBy shortcutLess) 8 l3) :=
  computeShortcuts_order_independent _ sortBy_stdSort 8 _ _ (List.Perm.swap _ _ _)

/-- C16: for the empty vector of shortcuts both `computeShortcuts` read `shortcuts[0]`,
an element that does not exist, so neither returns a graph without edges: their result is
undefined. -/
theorem computeShortcuts_empty (sort : List Shortcut → List Shortcut)
    (hsort : StdSort shortcutLess sort) (n : Nat) :
    computeShortcuts sort n [] = none ∧
      StopEventGraphBuilderUsingULTRA.computeShortcuts sort n [] = none := by
  have h0 : sort [] = [] := List.Perm.eq_nil (hsort []).1
  unfold computeShortcuts StopEventGraphBuilderUsingULTRA.computeShortcuts
  rw [h0]
  exact ⟨rfl, rfl⟩

/-- C16 (witness): the insertion sort. -/
theorem computeShortcuts_empty_witness :
    computeShortcuts (ShortcutSearch.sortBy shortcutLess) 8 [] = none ∧
      StopEventGraphBuilderUsingULTRA.computeShortcuts
        (ShortcutSearch.sortBy shortcutLess) 8 [] = none :=
  computeShortcuts_empty _ sortBy_stdSort 8

end ULTRABuilder
end TripBased

namespace TripBased
namespace StopEventGraphBuilder
open Data

theorem lowerBound_range (less : Nat → Bool) : ∀ (fuel first len : Nat),
    first ≤ lowerBound less fuel first len ∧ lowerBound less fuel first len ≤ first + len := by
  intro fuel
  induction fuel with
  | zero => intro first len; simp only [lowerBound]; omega
  | succ fuel ih =>
    intro first len
    unfold lowerBound
    by_cases h0 : 0 < len
    · rw [if_pos h0]
      have hhalf : len / 2 < len := Nat.div_lt_self h0 (by omega)
      by_cases hmid : less (first + len / 2) = true
      · rw [if_pos hmid]
        have := ih (first + len / 2 + 1) (len - len / 2 - 1)
        omega
      · rw [if_neg hmid]
        have := ih first (len / 2)
        omega
    · rw [if_neg h0]; omega

theorem getEarliestTripBinary_range (td : Data) (route : RAPTOR.RouteSegment) (time : Int) :
    td.getEarliestTripBinary route time = noTripId ∨
      (td.firstTripOfRoute.getD route.routeId 0 ≤ td.getEarliestTripBinary route time ∧
        td.getEarliestTripBinary route time < td.firstTripOfRoute.getD (route.routeId + 1) 0) := by
  unfold Data.getEarliestTripBinary
  by_cases h : route.stopIndex + 1 = td.raptorData.numberOfStopsInRoute route.routeId
  · rw [if_pos h]; left; rfl
  · rw [if_neg h]
    simp only []
    split
    · right
      rename_i hlt
      exact ⟨(lowerBound_range _ _ _ _).1, hlt⟩
    · left; rfl

/-- The earliest trip of a route segment of the timetable is a trip of its route, and the
stop index of the segment is one of its stop indices. -/
theorem getEarliestTrip_isTrip {td : Data} (ht : StopEventsOfTrips td)
    (route : RAPTOR.RouteSegment)
    (hseg : route.stopIndex < td.raptorData.numberOfStopsInRoute route.routeId) (time : Int)
    (h : td.getEarliestTripOfSegment route time ≠ noTripId) :
    td.getEarliestTripOfSegment route time < td.numberOfTrips ∧
      route.stopIndex < td.numberOfStopsInTrip (td.getEarliestTripOfSegment route time) := by
  unfold Data.getEarliestTripOfSegment at h ⊢
  rcases getEarliestTripBinary_range td route time with h0 | ⟨h1, h2⟩
  · exact absurd h0 h
  · have hr : route.routeId < td.raptorData.numberOfRoutes := by
      by_contra hc
      rw [ShortcutSearch.getD_of_length_le _ _ _ (by rw [ht.routes]; omega)] at h2
      omega
    obtain ⟨_, hlast, hof⟩ := ht.tripsOfRoute route.routeId hr
    have htrip : td.getEarliestTripBinary route time < td.numberOfTrips := by omega
    refine ⟨htrip, ?_⟩
    rw [(ht.stopsInTrip _ htrip).1, hof _ h1 h2]
    exact hseg

theorem scanRoute_noU {td : Data} (ht : StopEventsOfTrips td) (trip i : Nat)
    (htrip : trip < td.numberOfTrips) (hi : i < td.numberOfStopsInTrip trip) (arrivalTime : Int)
    (b : StopEventGraphBuilder) (hb : NoUTransfer td b) (route : RAPTOR.RouteSegment)
    (hseg : route.stopIndex < td.raptorData.numberOfStopsInRoute route.routeId) :
    NoUTransfer td (scanRoute td trip i arrivalTime b route) := by
  unfold scanRoute
  simp only []
  by_cases h1 : td.getEarliestTripOfSegment route arrivalTime = noTripId
  · rw [if_pos h1]; exact hb
  rw [if_neg h1]
  by_cases h2 : route.routeId = td.routeOfTrip.getD trip 0 ∧
      td.getEarliestTripOfSegment route arrivalTime ≥ trip ∧ route.stopIndex ≥ i
  · rw [if_pos h2]; exact hb
  rw [if_neg h2]
  by_cases h3 : isUTransfer td trip i (td.getEarliestTripOfSegment route arrivalTime)
      route.stopIndex = true
  · rw [if_pos h3]; exact hb
  rw [if_neg h3]
  intro v w hw
  simp only [] at hw
  by_cases hv : td.firstStopEventOfTrip.getD trip 0 + i = v
  · subst hv
    by_cases hlen : td.firstStopEventOfTrip.getD trip 0 + i < b.edges.length
    · rw [CH.getD_updateAt_self _ _ _ _ hlen, List.mem_append] at hw
      rcases hw with hw | hw
      · exact hb _ _ hw
      · rw [List.mem_singleton] at hw
        subst hw
        obtain ⟨ho, hidx⟩ := getEarliestTrip_isTrip ht route hseg arrivalTime h1
        obtain ⟨_, a1, a2⟩ := ht.ofTrip trip i htrip hi
        obtain ⟨_, c1, c2⟩ := ht.ofTrip _ _ ho hidx
        unfold Data.getStopEventId at a1 a2 c1 c2
        rw [a1, a2, c1, c2]
        simpa using h3
    · rw [CH.getD_updateAt_out _ _ _ (by omega)] at hw
      exact hb _ _ hw
  · rw [CH.getD_updateAt_other _ _ _ _ _ hv] at hw
    exact hb _ _ hw

theorem foldl_noU {α : Type} {td : Data} (f : StopEventGraphBuilder → α → StopEventGraphBuilder)
    (l : List α) (P : α → Prop) (hP : ∀ x ∈ l, P x)
    (hf : ∀ b x, NoUTransfer td b → P x → NoUTransfer td (f b x)) :
    ∀ b, NoUTransfer td b → NoUTransfer td (l.foldl f b) := by
  induction l with
  | nil => intro b hb; exact hb
  | cons x xs ih =>
    intro b hb
    rw [List.foldl_cons]
    exact ih (fun y hy => hP y (List.mem_cons_of_mem _ hy)) _
      (hf b x hb (hP x (List.mem_cons_self _ _)))

theorem scanRoutes_noU {td : Data} (ht : StopEventsOfTrips td)
    (hseg : ∀ seg ∈ td.raptorData.routeSegments,
      seg.stopIndex < td.raptorData.numberOfStopsInRoute seg.routeId)
    (trip i : Nat) (htrip : trip < td.numberOfTrips) (hi : i < td.numberOfStopsInTrip trip)
    (stop : Nat) (arrivalTime : Int) (b : StopEventGraphBuilder) (hb : NoUTransfer td b) :
    NoUTransfer td (scanRoutes td b trip i stop arrivalTime) := by
  unfold scanRoutes
  refine foldl_noU _ _ (fun seg => seg.stopIndex < td.raptorData.numberOfStopsInRoute seg.routeId)
    ?_ ?_ b hb
  · intro seg hmem
    unfold RAPTOR.Data.routesContainingStop at hmem
    exact hseg seg (List.mem_of_mem_drop (List.mem_of_mem_take hmem))
  · intro b seg hb hs
    exact scanRoute_noU ht trip i htrip hi arrivalTime b hb seg hs

theorem scanStop_noU {td : Data} (ht : StopEventsOfTrips td)
    (hseg : ∀ seg ∈ td.raptorData.routeSegments,
      seg.stopIndex < td.raptorData.numberOfStopsInRoute seg.routeId)
    (trip : Nat) (htrip : trip < td.numberOfTrips) (b : StopEventGraphBuilder)
    (hb : NoUTransfer td b) (i : Nat) (hi : i < td.numberOfStopsInTrip trip) :
    NoUTransfer td (scanStop td trip b i) := by
  unfold scanStop
  simp only []
  refine foldl_noU _ _ (fun _ => True) (fun _ _ => trivial) ?_ _
    (scanRoutes_noU ht hseg trip i htrip hi _ _ b hb)
  intro b edge hb _
  exact scanRoutes_noU ht hseg trip i htrip hi _ _ b hb

theorem scanTrip_noU {td : Data} (ht : StopEventsOfTrips td)
    (hseg : ∀ seg ∈ td.raptorData.routeSegments,
      seg.stopIndex < td.raptorData.numberOfStopsInRoute seg.routeId)
    (trip : Nat) (htrip : trip < td.numberOfTrips) (b : StopEventGraphBuilder)
    (hb : NoUTransfer td b) : NoUTransfer td (scanTrip td b trip) := by
  unfold scanTrip
  refine foldl_noU _ _ (fun i => i < td.numberOfStopsInTrip trip) ?_ ?_ b hb
  · intro i hmem
    rw [List.mem_range'_1] at hmem
    omega
  · intro b i hb hi
    exact scanStop_noU ht hseg trip htrip b hb i hi

theorem uniqueTransfers_loop (w : Nat) : ∀ (l acc : List Nat),
    w ∈ l.foldl
      (fun transfers x => if transfers.getLast? ≠ some x then transfers ++ [x] else transfers)
      acc → w ∈ acc ∨ w ∈ l := by
  intro l
  induction l with
  | nil => intro acc h; exact Or.inl h
  | cons x xs ih =>
    intro acc h
    rw [List.foldl_cons] at h
    rcases ih _ h with h1 | h1
    · by_cases hc : acc.getLast? ≠ some x
      · rw [if_pos hc, List.mem_append, List.mem_singleton] at h1
        rcases h1 with h1 | h1
        · exact Or.inl h1
        · exact Or.inr (h1 ▸ List.mem_cons_self _ _)
      · rw [if_neg hc] at h1
        exact Or.inl h1
    · exact Or.inr (List.mem_cons_of_mem _ h1)

theorem uniqueTransfers_subset (l : List Nat) (w : Nat) (h : w ∈ uniqueTransfers l) : w ∈ l := by
  unfold uniqueTransfers at h
  cases l with
  | nil => exact h
  | cons first rest =>
    simp only [] at h
    rcases uniqueTransfers_loop w _ _ h with h1 | h1
    · rw [List.mem_singleton] at h1
      exact h1 ▸ List.mem_cons_self _ _
    · exact h1

theorem kept_subset (f : List StopLabel → Nat → List StopLabel × Bool) (w : Nat) :
    ∀ (l : List Nat) (init : List StopLabel × List Nat),
      w ∈ (l.foldl
        (fun (state : List StopLabel × List Nat) x =>
          ((f state.1 x).1, if (f state.1 x).2 then state.2 ++ [x] else state.2)) init).2 →
      w ∈ init.2 ∨ w ∈ l := by
  intro l
  induction l with
  | nil => intro init h; exact Or.inl h
  | cons x xs ih =>
    intro init h
    rw [List.foldl_cons] at h
    rcases ih _ h with h1 | h1
    · simp only [] at h1
      by_cases hc : (f init.1 x).2 = true
      · rw [if_pos hc, List.mem_append, List.mem_singleton] at h1
        rcases h1 with h1 | h1
        · exact Or.inl h1
        · exact Or.inr (h1 ▸ List.mem_cons_self _ _)
      · rw [if_neg hc] at h1
        exact Or.inl h1
    · exact Or.inr (List.mem_cons_of_mem _ h1)

theorem reduceStop_noU (sort : (Nat → Nat → Bool) → List Nat → List Nat)
    (hsort : ∀ less l, (sort less l).Perm l) (td : Data) (trip : Nat)
    (b : StopEventGraphBuilder) (hb : NoUTransfer td b) (i : Nat) :
    NoUTransfer td (reduceStop sort td trip b i) := by
  unfold reduceStop
  simp only []
  split
  · exact hb
  · intro v w hw
    simp only [] at hw
    by_cases hv : td.firstStopEventOfTrip.getD trip 0 + i = v
    · subst hv
      by_cases hlen : td.firstStopEventOfTrip.getD trip 0 + i < b.edges.length
      · rw [ShortcutSearch.getD_set_self _ _ _ _ hlen] at hw
        rcases kept_subset (scanTarget td b.timeStamp) w _ _ hw with h1 | h1
        · exact absurd h1 (List.not_mem_nil _)
        · exact hb _ _ (((hsort _ _).mem_iff).1 (uniqueTransfers_subset _ _ h1))
      · rw [ShortcutSearch.set_of_length_le _ _ _ (by omega)] at hw
        exact hb _ _ hw
    · rw [ShortcutSearch.getD_set_ne _ _ _ _ _ hv] at hw
      exact hb _ _ hw

theorem reduceTransfers_noU (sort : (Nat → Nat → Bool) → List Nat → List Nat)
    (hsort : ∀ less l, (sort less l).Perm l) (td : Data) (b : StopEventGraphBuilder)
    (hb : NoUTransfer td b) (trip : Nat) : NoUTransfer td (reduceTransfers sort td b trip) := by
  unfold reduceTransfers
  exact foldl_noU _ _ (fun _ => True) (fun _ _ => trivial)
    (fun b i hb _ => reduceStop_noU sort hsort td trip b hb i) _ hb

theorem new_noU (td : Data) : NoUTransfer td (new td) := by
  intro v w hw
  unfold new at hw
  simp only [] at hw
  by_cases hv : v < td.numberOfStopEvents
  · rw [getD_replicate_lt _ _ _ _ hv] at hw
    exact absurd hw (List.not_mem_nil _)
  · rw [ShortcutSearch.getD_of_length_le _ _ _ (by simp; omega)] at hw
    exact absurd hw (List.not_mem_nil _)

theorem build_noU (sort : (Nat → Nat → Bool) → List Nat → List Nat)
    (hsort : ∀ less l, (sort less l).Perm l) {td : Data} (ht : StopEventsOfTrips td)
    (hseg : ∀ seg ∈ td.raptorData.routeSegments,
      seg.stopIndex < td.raptorData.numberOfStopsInRoute seg.routeId)
    (trips : List Nat) (htrips : ∀ trip ∈ trips, trip < td.numberOfTrips) :
    NoUTransfer td (build sort td trips) := by
  unfold build
  exact foldl_noU _ _ (fun trip => trip < td.numberOfTrips) htrips
    (fun b trip hb htrip =>
      reduceTransfers_noU sort hsort td _ (scanTrip_noU ht hseg trip htrip b hb) trip)
    _ (new_noU td)

end StopEventGraphBuilder
end TripBased

namespace TripBased
namespace StopEventGraphBuilder
open Data

/-- The constructor keeps the route segments and the stops of the routes of the
timetable. -/
theorem ofRaptor_routeSegments (d : RAPTOR.Data) (hd : Timetable d) (td : Data)
    (htd : ofRaptor d = some td) :
    StopEventsOfTrips td ∧ td.raptorData.routeSegments = d.routeSegments ∧
      td.raptorData.firstStopIdOfRoute = d.firstStopIdOfRoute := by
  obtain ⟨td1, h1, h2, h3, _⟩ := ofRaptor_spec d hd
  rw [htd] at h1
  have e : td = td1 := Option.some.inj h1
  subst e
  refine ⟨h2, ?_, h3⟩
  have h0 : TripsBuilt d ⟨d, [], [], [], [], [], [], ⟨[0], [], []⟩, []⟩
      (d.firstStopEventOfRoute.getD 0 0) := by
    rw [hd.first]
    refine ⟨rfl, ⟨rfl, rfl⟩, ⟨rfl, rfl, rfl⟩, ?_, ?_⟩
    · intro t ht; exact absurd ht (Nat.not_lt_zero t)
    · intro e he; exact absurd he (Nat.not_lt_zero e)
  have r0 : RoutesBuilt 0 (⟨d, [], [], [], [], [], [], ⟨[0], [], []⟩, []⟩ : Data) := by
    refine ⟨rfl, ?_, ?_⟩
    · intro t ht; exact absurd ht (Nat.not_lt_zero t)
    · intro r hr; exact absurd hr (Nat.not_lt_zero r)
  obtain ⟨td0, hrun, ht, _⟩ := addRoutes_built hd d.numberOfRoutes 0 _ (by omega) h0 r0
  rw [← List.range_eq_range'] at hrun
  unfold ofRaptor at htd
  rw [hrun] at htd
  simp only [] at htd
  have e := Option.some.inj htd
  rw [← e]
  simp only []
  rw [ht.raptor]
  by_cases hflag : d.implicitDepartureBufferTimes = true
  · rw [if_pos hflag]
  · rw [if_neg hflag]
    unfold RAPTOR.Data.useImplicitDepartureBufferTimes
    rw [if_neg hflag]

/-- C19 (amended): the U-turn filter.  In the graph that `scanTrip` and `reduceTransfers`
build for the trips of a list, over the data of a timetable whose route segments name stop
indices of their routes and with a sort that permutes, there is no transfer from the stop
event of a trip at its stop index `i ≥ 2` to the stop event of a trip `other` at its stop
index `j`, when the stop that `other` visits next (index `j + 1`) is the stop that the
trip visited before (index `i - 1`) and `other` leaves it no earlier than the trip arrived
there. -/
theorem no_uTurn_transfer (sort : (Nat → Nat → Bool) → List Nat → List Nat)
    (hsort : ∀ less l, (sort less l).Perm l) (d : RAPTOR.Data) (hd : Timetable d)
    (hseg : ∀ seg ∈ d.routeSegments, seg.stopIndex < d.numberOfStopsInRoute seg.routeId)
    (td : Data) (htd : ofRaptor d = some td) (trips : List Nat)
    (htrips : ∀ trip ∈ trips, trip < td.numberOfTrips) (trip i other j : Nat)
    (htrip : trip < td.numberOfTrips) (hi : i < td.numberOfStopsInTrip trip)
    (hother : other < td.numberOfTrips) (hj : j + 1 < td.numberOfStopsInTrip other)
    (h2 : 2 ≤ i) (hstop : td.getStop trip (i - 1) = td.getStop other (j + 1))
    (htime : (td.getStopEvent trip (i - 1)).arrivalTime ≤
      (td.getStopEvent other (j + 1)).departureTime) :
    td.getStopEventId other j ∉
      (build sort td trips).edges.getD (td.getStopEventId trip i) [] := by
  obtain ⟨ht, e1, e2⟩ := ofRaptor_routeSegments d hd td htd
  have hseg1 : ∀ seg ∈ td.raptorData.routeSegments,
      seg.stopIndex < td.raptorData.numberOfStopsInRoute seg.routeId := by
    intro seg hmem
    rw [e1] at hmem
    have := hseg seg hmem
    unfold RAPTOR.Data.numberOfStopsInRoute at this ⊢
    rw [e2]
    exact this
  intro hmem
  have hno := build_noU sort hsort ht hseg1 trips htrips _ _ hmem
  obtain ⟨_, a1, a2⟩ := ht.ofTrip trip i htrip hi
  obtain ⟨_, c1, c2⟩ := ht.ofTrip other j hother (by omega)
  rw [a1, a2, c1, c2] at hno
  unfold isUTransfer at hno
  rw [if_neg (by omega), if_neg (by omega), if_neg (by simpa using hstop),
    if_neg (by omega)] at hno
  exact Bool.noConfusion hno

theorem uTurn_timetable : Timetable uTurn :=
  ⟨by decide, by decide, by decide, by decide, by decide⟩

/-- The constructor builds `uTurnData` from `uTurn`. -/
theorem ofRaptor_uTurn : ofRaptor uTurn = some uTurnData := by rfl

/-- C19 (witness): in `uTurn` the trip 0 is at B at its index 1 and back at A at its index
2, and the trip 1 at its index 0 at A visits B next and leaves it at 260, after the trip 0
arrived there at 200: the graph has no transfer from the stop event 2 to the stop event
3. -/
theorem no_uTurn_transfer_witness :
    uTurnData.getStopEventId 1 0 ∉
      (build ShortcutSearch.sortBy uTurnData [0, 1]).edges.getD
        (uTurnData.getStopEventId 0 2) [] :=
  no_uTurn_transfer ShortcutSearch.sortBy (fun less l => sortBy_perm less l) uTurn
    ⟨by decide, by decide, by decide, by decide, by decide⟩ (by decide) uTurnData (by rfl)
    [0, 1] (by decide) 0 2 1 0 (by decide) (by decide) (by decide) (by decide) (by decide)
    (by decide) (by decide)

/-- C19 (counterexample): in `uTurn` the route 0 visits A, B, A (the stops 0, 1, 0) and the
route 1 starts at A; its trip 0 is back at A at 205, no later than the footpath from B
(200 + 10).  After `scanTrip` and `reduceTransfers` for the trip 0 the stop event of the
route 0 at B (the stop event 1) has the transfer to the first stop event of the trip 1 of
the route 1 (the stop event 3). -/
theorem uTurn_transfer_emitted :
    (uTurnData.getStop 0 0 = 0 ∧ uTurnData.getStop 0 1 = 1 ∧ uTurnData.getStop 0 2 = 0 ∧
      uTurnData.numberOfStopsInTrip 0 = 3) ∧
    (uTurnData.routeOfTrip.getD 0 0 = 0 ∧ uTurnData.routeOfTrip.getD 1 0 = 1 ∧
      uTurnData.getStop 1 0 = 0) ∧
    (uTurnData.getStopEvent 0 2).arrivalTime ≤ (uTurnData.getStopEvent 0 1).arrivalTime + 10 ∧
    (reduceTransfers ShortcutSearch.sortBy uTurnData (scanTrip uTurnData (new uTurnData) 0)
      0).edges.getD (uTurnData.getStopEventId 0 1) [] = [uTurnData.getStopEventId 1 0] ∧
    (build ShortcutSearch.sortBy uTurnData [0, 1]).edges.getD (uTurnData.getStopEventId 0 1) []
      = [uTurnData.getStopEventId 1 0] := by
  decide

end StopEventGraphBuilder
end TripBased

namespace CH

/-- Adding to a wrapped value and wrapping gives the wrapped sum. -/
theorem wrapInt32_add_wrap (a b : Int) : wrapInt32 (wrapInt32 a + b) = wrapInt32 (a + b) := by
  unfold wrapInt32
  omega

/-- A value of `int` is not changed by the wrap. -/
theorem wrapInt32_of_fitsInt {x : Int} (h : FitsInt x) : wrapInt32 x = x := by
  unfold FitsInt at h
  unfold wrapInt32
  omega

/-- The answers of a sequence of calls are as many as the calls. -/
theorem runCalls_length (cfg : WitnessConfig) (g : DynamicGraph) :
    ∀ (calls : List WitnessSearch.Call) (ws : WitnessSearch) (bs : List Bool)
      (ws' : WitnessSearch),
      WitnessSearch.runCalls cfg g ws calls = some (bs, ws') → bs.length = calls.length := by
  intro calls
  induction calls with
  | nil =>
    intro ws bs ws' h
    unfold WitnessSearch.runCalls at h
    rw [← (Prod.mk.inj (Option.some.inj h)).1]
    rfl
  | cons c cs ih =>
    intro ws bs ws' h
    unfold WitnessSearch.runCalls at h
    cases hcall : ws.shortcutIsNecessary cfg g c.fromVertex c.toVertex c.viaVertex
        c.shortcutDistance with
    | none => rw [hcall] at h; exact Option.noConfusion h
    | some r =>
      obtain ⟨b, ws1⟩ := r
      rw [hcall] at h
      simp only [] at h
      cases hrest : WitnessSearch.runCalls cfg g ws1 cs with
      | none => rw [hrest] at h; exact Option.noConfusion h
      | some r2 =>
        obtain ⟨bs2, ws2⟩ := r2
        rw [hrest] at h
        simp only [] at h
        rw [← (Prod.mk.inj (Option.some.inj h)).1, List.length_cons, List.length_cons,
          ih ws1 bs2 ws2 hrest]

theorem simulateContract_eq_runCalls (cfg : WitnessConfig) (core : DynamicGraph) (vertex : Nat) :
    ∀ (L : List Shortcut) (ws : WitnessSearch) (n : Int), FitsInt n →
      simulateContract cfg core vertex L ws n =
        (WitnessSearch.runCalls cfg core ws
          (L.map (fun s => ⟨s.fromVertex, s.toVertex, vertex, s.weight⟩))).map
          (fun r => (wrapInt32 (n + (r.1.count true : Nat)), r.2)) := by
  intro L
  induction L with
  | nil =>
    intro ws n hn
    simp [simulateContract, WitnessSearch.runCalls, wrapInt32_of_fitsInt hn]
  | cons s rest ih =>
    intro ws n hn
    unfold simulateContract
    rw [List.map_cons]
    unfold WitnessSearch.runCalls
    simp only []
    cases hcall : ws.shortcutIsNecessary cfg core s.fromVertex s.toVertex vertex s.weight with
    | none => rfl
    | some r =>
      obtain ⟨b, ws1⟩ := r
      simp only []
      have hn' : FitsInt (if b = true then wrapInt32 (n + 1) else n) := by
        split
        · have := WitnessSearch.wrapInt32_range (n + 1)
          unfold intMax at this
          exact this
        · exact hn
      rw [ih ws1 _ hn']
      cases hrest : WitnessSearch.runCalls cfg core ws1
          (rest.map (fun s => ⟨s.fromVertex, s.toVertex, vertex, s.weight⟩)) with
      | none => rfl
      | some r2 =>
        obtain ⟨bs, ws2⟩ := r2
        simp only [Option.map_some']
        cases b with
        | true =>
          simp only [if_true, List.count_cons_self]
          rw [wrapInt32_add_wrap]
          congr 3
          push_cast
          omega
        | false =>
          simp only [Bool.false_eq_true, if_false]
          rw [List.count_cons_of_ne (by decide)]

theorem shortcutsOf_questions (core : DynamicGraph) (vertex : Nat) :
    (Builder.shortcutsOf core vertex).map
        (fun s => (⟨s.fromVertex, s.toVertex, vertex, s.weight⟩ : WitnessSearch.Call)) =
      greedyQuestions core vertex := by
  unfold Builder.shortcutsOf greedyQuestions
  generalize core.edgesTo vertex = l1
  generalize core.edgesFrom vertex = l2
  have inner : ∀ (first : CoreEdge) (l : List CoreEdge),
      (l.foldr (fun second acc2 =>
          if first.fromVertex = second.toVertex then acc2
          else (⟨first.fromVertex, second.toVertex,
            wrapInt32 (first.weight + second.weight)⟩ : Shortcut) :: acc2) []).map
        (fun s => (⟨s.fromVertex, s.toVertex, vertex, s.weight⟩ : WitnessSearch.Call)) =
      (l.filter (fun second => first.fromVertex ≠ second.toVertex)).map
        (fun second =>
          (⟨first.fromVertex, second.toVertex, vertex,
            wrapInt32 (first.weight + second.weight)⟩ : WitnessSearch.Call)) := by
    intro first l
    induction l with
    | nil => rfl
    | cons x xs ih =>
      rw [List.foldr_cons]
      by_cases hx : first.fromVertex = x.toVertex
      · rw [if_pos hx, ih, List.filter_cons_of_neg (by simpa using hx)]
      · rw [if_neg hx, List.map_cons, ih, List.filter_cons_of_pos (by simpa using hx),
          List.map_cons]
  induction l1 with
  | nil => rfl
  | cons first rest ih =>
    rw [List.foldr_cons, List.map_append, inner, ih, List.flatMap_cons]

/-- The conversion of a degree to `int` keeps it when the total degree fits `int`. -/
theorem wrapInt32_degree (core : DynamicGraph) (v : Nat)
    (hdeg : (core.degree v : Int) ≤ intMax) :
    wrapInt32 (core.inDegree v : Int) = core.inDegree v ∧
      wrapInt32 (core.outDegree v : Int) = core.outDegree v ∧
      wrapInt32 (core.degree v : Int) = core.degree v := by
  have hd : core.degree v = core.inDegree v + core.outDegree v := rfl
  rw [hd] at hdeg ⊢
  unfold intMax at hdeg
  push_cast at hdeg ⊢
  unfold wrapInt32
  omega

/-- The key of `GreedyKey` for a vertex that is not of small degree and has a total degree
that fits `int`: the sum of the degrees is not zero, and the key follows the answers of the
witness search. -/
theorem greedyKey_general (cfg : WitnessConfig) (shortcutWeight levelWeight degreeWeight : Int)
    (data : Data) (ws : WitnessSearch) (v : Nat)
    (h : ¬ (data.core.inDegree v ≤ 2 ∧ data.core.outDegree v ≤ 2 ∧ data.core.degree v ≤ 2))
    (hdeg : (data.core.degree v : Int) ≤ intMax) :
    data.core.inDegree v + data.core.outDegree v ≠ 0 ∧
      (greedyKey cfg shortcutWeight levelWeight degreeWeight).key () data ws v =
        (WitnessSearch.runCalls cfg data.core ws (greedyQuestions data.core v)).map
          (fun r =>
            (greedyKeyValue shortcutWeight levelWeight degreeWeight
              (wrapInt32 (r.1.count true : Nat)) (data.core.inDegree v : Int)
              (data.core.outDegree v : Int) (data.level.getD v 0 : Int), r.2)) := by
  have hd : data.core.degree v = data.core.inDegree v + data.core.outDegree v := rfl
  obtain ⟨w1, w2, w3⟩ := wrapInt32_degree data.core v hdeg
  refine ⟨by omega, ?_⟩
  unfold greedyKey
  simp only []
  rw [w1, w2, w3]
  rw [if_neg (by
      intro hc
      have h1 : data.core.inDegree v ≤ 2 := by exact_mod_cast hc.1
      have h2 : data.core.outDegree v ≤ 2 := by exact_mod_cast hc.2.1
      have h3 : data.core.degree v ≤ 1 := by exact_mod_cast hc.2.2
      exact h ⟨h1, h2, by omega⟩),
    if_neg (by
      intro hc
      have h1 : data.core.inDegree v ≤ 2 := by exact_mod_cast hc.1
      have h2 : data.core.outDegree v ≤ 2 := by exact_mod_cast hc.2.1
      have h3 : data.core.degree v = 2 := by exact_mod_cast hc.2.2
      exact h ⟨h1, h2, by omega⟩)]
  rw [simulateContract_eq_runCalls _ _ _ _ _ _ (by unfold FitsInt; omega),
    shortcutsOf_questions]
  cases WitnessSearch.runCalls cfg data.core ws (greedyQuestions data.core v) with
  | none => rfl
  | some r => simp

/-- The key of `GreedyKey` for a vertex of small degree. -/
theorem greedyKey_small (cfg : WitnessConfig) (shortcutWeight levelWeight degreeWeight : Int)
    (data : Data) (ws : WitnessSearch) (v : Nat) (h1 : data.core.inDegree v ≤ 2)
    (h2 : data.core.outDegree v ≤ 2) :
    (data.core.degree v ≤ 1 →
      (greedyKey cfg shortcutWeight levelWeight degreeWeight).key () data ws v =
        some ((data.level.getD v 0 : Int) - 1000, ws)) ∧
    (data.core.degree v = 2 →
      (greedyKey cfg shortcutWeight levelWeight degreeWeight).key () data ws v =
        some ((data.level.getD v 0 : Int) - 100000, ws)) := by
  have hd : data.core.degree v = data.core.inDegree v + data.core.outDegree v := rfl
  obtain ⟨w1, w2, w3⟩ := wrapInt32_degree data.core v (by
    rw [hd]; unfold intMax; push_cast; omega)
  constructor
  · intro h3
    unfold greedyKey
    simp only []
    rw [w1, w2, w3]
    have hc : (data.core.inDegree v : Int) ≤ 2 ∧ (data.core.outDegree v : Int) ≤ 2 ∧
        (data.core.degree v : Int) ≤ 1 := by
      refine ⟨?_, ?_, ?_⟩ <;> exact_mod_cast (by assumption)
    rw [if_pos hc]
  · intro h3
    unfold greedyKey
    simp only []
    rw [w1, w2, w3]
    rw [if_neg (by
        intro hc
        have : data.core.degree v ≤ 1 := by exact_mod_cast hc.2.2
        omega),
      if_pos (by
        refine ⟨?_, ?_, ?_⟩ <;> exact_mod_cast (by assumption))]

/-- `GreedyKey` returns a key on every core graph whose edges join its vertices. -/
theorem greedyKey_returns (cfg : WitnessConfig) (shortcutWeight levelWeight degreeWeight : Int)
    (data : Data) (ws : WitnessSearch) (v : Nat) (hr : data.core.InRange)
    (hws : cfg.enabled = true → ws.Sized data.core.numVertices) :
    ∃ k ws', (greedyKey cfg shortcutWeight levelWeight degreeWeight).key () data ws v =
      some (k, ws') := by
  obtain ⟨k, ws', h, _⟩ :=
    (greedyKey_lawful cfg shortcutWeight levelWeight degreeWeight).1 () data ws v hr hws
  exact ⟨k, ws', h⟩

/-- Claim C23, counterexample: a vertex without edges at level 0 has the key -1000 under
the default `GreedyKey`, and this key is stored in the queue of the builder by `run()`.
And with the non-negative weights 2^30, 1024 and 0 the vertex 0 of `fork`, which has two
edges in and one edge out, has the key -715827882: the product of 2^30 and the two
shortcuts that are necessary is not a value of `int`. -/
theorem greedyKey_negative :
    ((defaultGreedyKey noWitnessSearch).key () (Data.ofGraph ⟨1, []⟩) WitnessSearch.new 0).map
      Prod.fst = some (-1000) ∧
    (Builder.run ⟨noWitnessSearch, false, fun l => l, fun _ _ => true⟩
      (defaultGreedyKey noWitnessSearch) 2 (Builder.new ⟨1, []⟩ ())).map
        (fun b => (b.Q, b.label)) = some ([0], [-1000]) ∧
    ¬ (fork.inDegree 0 ≤ 2 ∧ fork.outDegree 0 ≤ 2 ∧ fork.degree 0 ≤ 2) ∧
    ((greedyKey unlimitedWitnessSearch 1073741824 1024 0).key () (Data.ofGraph fork)
      (WitnessSearch.new.initializeSearch fork) 0).map Prod.fst = some (-715827882) := by
  decide

/-- Claim C23, amended: with non-negative weights, on a core graph whose edges join its
vertices, for a vertex whose total degree fits `int` and for which the sum of
`shortcutWeight` times the number of pairs of an edge in and an edge out with different
other ends, `levelWeight * level[v]` and `degreeWeight * in * out` is at most `intMax`,
`GreedyKey` returns a key; the key is non-negative when the vertex has more than two edges
in, more than two edges out or a total degree above 2, and it is `level[v] - 1000` or
`level[v] - 100000` for every other vertex. -/
theorem greedyKey_nonneg (cfg : WitnessConfig) (shortcutWeight levelWeight degreeWeight : Int)
    (hs : 0 ≤ shortcutWeight) (hl : 0 ≤ levelWeight) (hd : 0 ≤ degreeWeight)
    (data : Data) (ws : WitnessSearch) (v : Nat) (hr : data.core.InRange)
    (hws : cfg.enabled = true → ws.Sized data.core.numVertices)
    (hdeg : (data.core.degree v : Int) ≤ intMax)
    (hfit : shortcutWeight * ((greedyQuestions data.core v).length : Int) +
      levelWeight * (data.level.getD v 0 : Int) +
      degreeWeight * (data.core.inDegree v : Int) * (data.core.outDegree v : Int) ≤ intMax) :
    ∃ k ws', (greedyKey cfg shortcutWeight levelWeight degreeWeight).key () data ws v =
        some (k, ws') ∧
      (¬ (data.core.inDegree v ≤ 2 ∧ data.core.outDegree v ≤ 2 ∧ data.core.degree v ≤ 2) →
        0 ≤ k) ∧
      (data.core.inDegree v ≤ 2 ∧ data.core.outDegree v ≤ 2 ∧ data.core.degree v ≤ 2 →
        k = (data.level.getD v 0 : Int) - 1000 ∨ k = (data.level.getD v 0 : Int) - 100000) := by
  obtain ⟨k, ws', hk⟩ :=
    greedyKey_returns cfg shortcutWeight levelWeight degreeWeight data ws v hr hws
  refine ⟨k, ws', hk, ?_, ?_⟩
  · intro h
    obtain ⟨hne, he⟩ :=
      greedyKey_general cfg shortcutWeight levelWeight degreeWeight data ws v h hdeg
    rw [hk] at he
    cases hrun : WitnessSearch.runCalls cfg data.core ws (greedyQuestions data.core v) with
    | none => rw [hrun] at he; exact Option.noConfusion he
    | some r =>
      obtain ⟨bs, ws2⟩ := r
      rw [hrun, Option.map_some'] at he
      have hk2 := congrArg Prod.fst (Option.some.inj he)
      simp only [] at hk2
      rw [hk2]
      have hlen := runCalls_length cfg data.core _ ws bs ws2 hrun
      have hcount : bs.count true ≤ (greedyQuestions data.core v).length := by
        rw [← hlen]; exact List.count_le_length _ _
      -- abbreviations
      generalize hS : ((bs.count true : Nat) : Int) = s
      generalize hN : (((greedyQuestions data.core v).length : Nat) : Int) = n at hfit
      generalize hI : ((data.core.inDegree v : Nat) : Int) = i at hfit
      generalize hO : ((data.core.outDegree v : Nat) : Int) = o at hfit
      generalize hL : ((data.level.getD v 0 : Nat) : Int) = l at hfit
      have s0 : 0 ≤ s := by rw [← hS]; exact Int.natCast_nonneg _
      have sn : s ≤ n := by rw [← hS, ← hN]; exact_mod_cast hcount
      have i0 : 0 ≤ i := by rw [← hI]; exact Int.natCast_nonneg _
      have o0 : 0 ≤ o := by rw [← hO]; exact Int.natCast_nonneg _
      have l0 : 0 ≤ l := by rw [← hL]; exact Int.natCast_nonneg _
      have io : 0 < i + o := by
        have : (data.core.inDegree v + data.core.outDegree v : Nat) ≠ 0 := hne
        rw [← hI, ← hO]
        omega
      have hdeg2 : i + o ≤ intMax := by
        have hd' : data.core.degree v = data.core.inDegree v + data.core.outDegree v := rfl
        rw [hd'] at hdeg
        rw [← hI, ← hO]
        exact_mod_cast hdeg
      have a1 : 0 ≤ shortcutWeight * s := mul_nonneg hs s0
      have a2 : shortcutWeight * s ≤ shortcutWeight * n := mul_le_mul_of_nonneg_left sn hs
      have a3 : 0 ≤ levelWeight * l := mul_nonneg hl l0
      have a4 : 0 ≤ degreeWeight * i := mul_nonneg hd i0
      have a5 : 0 ≤ degreeWeight * i * o := mul_nonneg a4 o0
      have a6 : 0 ≤ shortcutWeight * n := le_trans a1 a2
      have q0 : 0 ≤ (shortcutWeight * s).tdiv (i + o) := Int.tdiv_nonneg a1 (le_of_lt io)
      have q1 : (shortcutWeight * s).tdiv (i + o) ≤ shortcutWeight * s := by
        rw [Int.tdiv_eq_ediv a1 (le_of_lt io)]
        exact Int.ediv_le_self _ a1
      -- the wrapped count times the weight
      have hprod : wrapInt32 (shortcutWeight * wrapInt32 s) = shortcutWeight * s := by
        by_cases hz : shortcutWeight = 0
        · rw [hz]; simp [wrapInt32]
        · have hpos : 1 ≤ shortcutWeight := by omega
          have : n ≤ shortcutWeight * n := by
            have h0 : 0 ≤ n := le_trans s0 sn
            nlinarith
          have hsfit : wrapInt32 s = s := by
            apply WitnessSearch.wrapInt32_of_fits
            · omega
            · omega
          rw [hsfit]
          apply WitnessSearch.wrapInt32_of_fits
          · omega
          · omega
      have hdprod : wrapInt32 (wrapInt32 (degreeWeight * i) * o) = degreeWeight * i * o := by
        by_cases hz : o = 0
        · rw [hz]; simp [wrapInt32]
        · have hpos : 1 ≤ o := by omega
          have : degreeWeight * i ≤ degreeWeight * i * o := by nlinarith
          rw [WitnessSearch.wrapInt32_of_fits (degreeWeight * i) (by omega) (by omega)]
          apply WitnessSearch.wrapInt32_of_fits
          · omega
          · omega
      unfold greedyKeyValue
      have e1 : wrapInt32 ((shortcutWeight * s).tdiv (i + o) + levelWeight * l) =
          (shortcutWeight * s).tdiv (i + o) + levelWeight * l :=
        WitnessSearch.wrapInt32_of_fits _ (by omega) (by omega)
      have e2 : wrapInt32 ((shortcutWeight * s).tdiv (i + o) + levelWeight * l +
          degreeWeight * i * o) =
          (shortcutWeight * s).tdiv (i + o) + levelWeight * l + degreeWeight * i * o :=
        WitnessSearch.wrapInt32_of_fits _ (by omega) (by omega)
      rw [hprod, hdprod, WitnessSearch.wrapInt32_of_fits (i + o) (by omega) hdeg2,
        WitnessSearch.wrapInt32_of_fits (levelWeight * l) (by omega) (by omega), e1, e2]
      omega
  · rintro ⟨h1, h2, h3⟩
    obtain ⟨a, b⟩ := greedyKey_small cfg shortcutWeight levelWeight degreeWeight data ws v h1 h2
    by_cases h4 : data.core.degree v ≤ 1
    · rw [a h4] at hk
      left
      exact (congrArg Prod.fst (Option.some.inj hk)).symm
    · rw [b (by omega)] at hk
      right
      exact (congrArg Prod.fst (Option.some.inj hk)).symm

/-- Claim C23, witness: the vertex 0 of `fork`, with the default weights and without a
witness search. -/
theorem greedyKey_nonneg_witness :
    ∃ k ws', (greedyKey noWitnessSearch 1024 1024 0).key () (Data.ofGraph fork)
        WitnessSearch.new 0 = some (k, ws') ∧
      (¬ ((Data.ofGraph fork).core.inDegree 0 ≤ 2 ∧ (Data.ofGraph fork).core.outDegree 0 ≤ 2 ∧
          (Data.ofGraph fork).core.degree 0 ≤ 2) → 0 ≤ k) ∧
      ((Data.ofGraph fork).core.inDegree 0 ≤ 2 ∧ (Data.ofGraph fork).core.outDegree 0 ≤ 2 ∧
          (Data.ofGraph fork).core.degree 0 ≤ 2 →
        k = (((Data.ofGraph fork).level.getD 0 0 : Nat) : Int) - 1000 ∨
          k = (((Data.ofGraph fork).level.getD 0 0 : Nat) : Int) - 100000) :=
  greedyKey_nonneg noWitnessSearch 1024 1024 0 (by decide) (by decide) (by decide)
    (Data.ofGraph fork) WitnessSearch.new 0 (by unfold DynamicGraph.InRange; decide)
    (fun h => absurd h (by decide)) (by decide) (by decide)

end CH

namespace CH
namespace Builder

/-- The first match of `findIdx?` splits the list. -/
theorem findIdx_split {α : Type} (p : α → Bool) : ∀ (l : List α) (i : Nat),
    l.findIdx? p = some i →
    ∃ l1 x l2, l = l1 ++ x :: l2 ∧ l1.length = i ∧ p x = true ∧ ∀ y ∈ l1, p y = false := by
  intro l
  induction l with
  | nil => intro i h; simp at h
  | cons a as ih =>
    intro i h
    rw [List.findIdx?_cons] at h
    by_cases ha : p a = true
    · rw [if_pos ha] at h
      have : i = 0 := (Option.some.inj h).symm
      subst this
      exact ⟨[], a, as, rfl, rfl, ha, fun y hy => absurd hy (List.not_mem_nil y)⟩
    · rw [if_neg ha, List.findIdx?_succ] at h
      cases hrec : as.findIdx? p with
      | none => rw [hrec] at h; simp at h
      | some j =>
        rw [hrec] at h
        simp only [Option.map_some', Option.some.injEq] at h
        obtain ⟨l1, x, l2, e1, e2, e3, e4⟩ := ih j hrec
        refine ⟨a :: l1, x, l2, by rw [e1]; rfl, by simp [e2, ← h], e3, ?_⟩
        intro y hy
        rcases List.mem_cons.mp hy with hy | hy
        · subst hy; simpa using ha
        · exact e4 y hy

theorem findIdx_none {α : Type} (p : α → Bool) (l : List α) (h : l.findIdx? p = none) :
    ∀ y ∈ l, p y = false := by
  induction l with
  | nil => intro y hy; exact absurd hy (List.not_mem_nil y)
  | cons a as ih =>
    rw [List.findIdx?_cons] at h
    by_cases ha : p a = true
    · rw [if_pos ha] at h; simp at h
    · rw [if_neg ha, List.findIdx?_succ] at h
      have h2 : as.findIdx? p = none := by
        cases hrec : as.findIdx? p with
        | none => rfl
        | some j => rw [hrec] at h; simp at h
      intro y hy
      rcases List.mem_cons.mp hy with hy | hy
      · subst hy; simpa using ha
      · exact ih h2 y hy

theorem updateAt_split {α : Type} (l1 : List α) (x : α) (l2 : List α) (f : α → α) :
    (l1 ++ x :: l2).updateAt l1.length f = l1 ++ f x :: l2 := by
  unfold List.updateAt
  rw [show (l1 ++ x :: l2)[l1.length]? = some x by
    rw [List.getElem?_append_right (le_refl _), Nat.sub_self]; simp]
  simp

theorem filter_eq_nil_of {α : Type} (p : α → Bool) (l : List α) (h : ∀ y ∈ l, p y = false) :
    l.filter p = [] := by
  rw [List.filter_eq_nil_iff]
  intro y hy
  rw [h y hy]
  simp

theorem filter_eq_self_of {α : Type} (p : α → Bool) (l : List α) (h : ∀ y ∈ l, p y = true) :
    l.filter p = l := by
  rw [List.filter_eq_self]
  exact h


/-- The edge `e` joins `fromV` to `toV`. -/
theorem joins_iff (fromV toV : Nat) (e : CoreEdge) :
    decide (e.fromVertex = fromV ∧ e.toVertex = toV) = true ↔
      e.fromVertex = fromV ∧ e.toVertex = toV := by
  simp

/-- C27: on a core graph with at most one edge for every ordered pair of vertices,
`addShortcut(from, to, via, w)` leaves exactly one edge from `from` to `to`; its weight is
`w` when there was no such edge and the minimum of `w` and the previous weight otherwise;
its `ViaVertex` is `via` when there was no such edge or `w` is strictly smaller than the
previous weight, and the previous `ViaVertex` otherwise; the other edges, the number of
vertices and the uniqueness of the edges are unchanged. -/
theorem addShortcut_edge (core : DynamicGraph) (fromV toV via : Nat) (w : Int)
    (hunique : core.edges.Pairwise
      (fun a b => ¬ (a.fromVertex = b.fromVertex ∧ a.toVertex = b.toVertex))) :
    (∃ e, (addShortcut core fromV toV via w).edges.filter
          (fun e => e.fromVertex = fromV ∧ e.toVertex = toV) = [e] ∧
        e.weight = (match core.edges.find? (fun e => e.fromVertex = fromV ∧ e.toVertex = toV) with
          | none => w
          | some previous => min w previous.weight) ∧
        e.viaVertex =
          (match core.edges.find? (fun e => e.fromVertex = fromV ∧ e.toVertex = toV) with
          | none => via
          | some previous => if w < previous.weight then via else previous.viaVertex)) ∧
    (addShortcut core fromV toV via w).edges.filter
        (fun e => ¬ (e.fromVertex = fromV ∧ e.toVertex = toV)) =
      core.edges.filter (fun e => ¬ (e.fromVertex = fromV ∧ e.toVertex = toV)) ∧
    (addShortcut core fromV toV via w).numVertices = core.numVertices ∧
    (addShortcut core fromV toV via w).edges.Pairwise
      (fun a b => ¬ (a.fromVertex = b.fromVertex ∧ a.toVertex = b.toVertex)) := by
  unfold addShortcut
  cases hfind : core.findEdge fromV toV with
  | none =>
    unfold DynamicGraph.findEdge at hfind
    have hnone := findIdx_none _ _ hfind
    have hfind2 : core.edges.find? (fun e => e.fromVertex = fromV ∧ e.toVertex = toV) = none := by
      rw [List.find?_eq_none]
      intro y hy
      rw [hnone y hy]
      simp
    simp only [DynamicGraph.addEdge, hfind2]
    refine ⟨⟨⟨fromV, toV, via, w⟩, ?_, rfl, rfl⟩, ?_, ?_⟩
    · rw [List.filter_append, filter_eq_nil_of _ _ hnone]
      simp
    · rw [List.filter_append]
      simp
    · refine ⟨trivial, ?_⟩
      rw [List.pairwise_append]
      refine ⟨hunique, List.pairwise_singleton _ _, ?_⟩
      intro a ha b hb
      rw [List.mem_singleton] at hb
      subst hb
      have := hnone a ha
      simpa using this
  | some i =>
    unfold DynamicGraph.findEdge at hfind
    obtain ⟨l1, x, l2, e1, e2, e3, e4⟩ := findIdx_split _ _ _ hfind
    have hx : x.fromVertex = fromV ∧ x.toVertex = toV := (joins_iff fromV toV x).mp e3
    rw [e1] at hunique
    have hl2 : ∀ y ∈ l2, decide (y.fromVertex = fromV ∧ y.toVertex = toV) = false := by
      intro y hy
      have h1 := (List.pairwise_append.mp hunique).2.1
      have h2 := (List.pairwise_cons.mp h1).1 y hy
      rw [hx.1, hx.2] at h2
      simp only [decide_eq_false_iff_not]
      intro hc
      exact h2 ⟨hc.1.symm, hc.2.symm⟩
    have hfx : (x :: l2).find? (fun e => e.fromVertex = fromV ∧ e.toVertex = toV) = some x :=
      List.find?_cons_of_pos _ e3
    have hfind2 : core.edges.find? (fun e => e.fromVertex = fromV ∧ e.toVertex = toV) = some x := by
      rw [e1, List.find?_append, (List.find?_eq_none).mpr (by
        intro y hy
        rw [e4 y hy]
        simp), Option.none_or, hfx]
    have hgetD : core.edges.getD i default = x := by
      rw [e1, ← e2, List.getD_eq_getElem?_getD,
        List.getElem?_append_right (le_refl _), Nat.sub_self]
      simp
    have hnot1 : ∀ y ∈ l1, decide (¬ (y.fromVertex = fromV ∧ y.toVertex = toV)) = true := by
      intro y hy
      exact decide_eq_true (of_decide_eq_false (e4 y hy))
    have hnot2 : ∀ y ∈ l2, decide (¬ (y.fromVertex = fromV ∧ y.toVertex = toV)) = true := by
      intro y hy
      exact decide_eq_true (of_decide_eq_false (hl2 y hy))
    simp only [hfind2]
    rw [hgetD]
    by_cases hgt : x.weight > w
    · rw [if_pos hgt]
      simp only []
      rw [e1, ← e2, updateAt_split]
      refine ⟨⟨{ x with viaVertex := via, weight := w }, ?_, ?_, ?_⟩, ?_, trivial, ?_⟩
      · rw [List.filter_append, filter_eq_nil_of _ _ e4, List.nil_append,
          List.filter_cons_of_pos (by simpa using hx), filter_eq_nil_of _ _ hl2]
      · simp only []
        rw [min_eq_left (le_of_lt hgt)]
      · simp only []
        rw [if_pos hgt]
      · rw [List.filter_append, List.filter_append,
          List.filter_cons_of_neg (by simpa using hx),
          List.filter_cons_of_neg (by simpa using hx)]
      · rw [List.pairwise_append] at hunique ⊢
        refine ⟨hunique.1, ?_, ?_⟩
        · rw [List.pairwise_cons] at hunique ⊢
          exact ⟨fun y hy => hunique.2.1.1 y hy, hunique.2.1.2⟩
        · intro a ha b hb
          rcases List.mem_cons.mp hb with hb | hb
          · subst hb
            exact hunique.2.2 a ha x (List.mem_cons_self _ _)
          · exact hunique.2.2 a ha b (List.mem_cons_of_mem _ hb)
    · rw [if_neg hgt]
      rw [e1]
      refine ⟨⟨x, ?_, ?_, ?_⟩, rfl, rfl, hunique⟩
      · rw [List.filter_append, filter_eq_nil_of _ _ e4, List.nil_append,
          List.filter_cons_of_pos (by simpa using hx), filter_eq_nil_of _ _ hl2]
      · rw [min_eq_right (not_lt.mp hgt)]
      · rw [if_neg hgt]

/-- C27 (witness): the shortcut from 2 to 3 over 0 of weight 5 in `fork`, where it is new,
and again with weight 4, which replaces the weight and the `ViaVertex`. -/
theorem addShortcut_edge_witness :
    (addShortcut fork 2 3 0 5).edges =
      [⟨1, 0, noVertex, 1⟩, ⟨2, 0, noVertex, 2⟩, ⟨0, 3, noVertex, 3⟩, ⟨2, 3, 0, 5⟩] ∧
    (addShortcut (addShortcut fork 2 3 0 5) 2 3 1 4).edges =
      [⟨1, 0, noVertex, 1⟩, ⟨2, 0, noVertex, 2⟩, ⟨0, 3, noVertex, 3⟩, ⟨2, 3, 1, 4⟩] ∧
    (addShortcut (addShortcut fork 2 3 0 5) 2 3 1 6).edges =
      [⟨1, 0, noVertex, 1⟩, ⟨2, 0, noVertex, 2⟩, ⟨0, 3, noVertex, 3⟩, ⟨2, 3, 0, 5⟩] ∧
    (addShortcut fork 2 3 0 5).edges.Pairwise
      (fun a b => ¬ (a.fromVertex = b.fromVertex ∧ a.toVertex = b.toVertex)) :=
  ⟨by decide, by decide, by decide,
    (addShortcut_edge fork 2 3 0 5 (by decide)).2.2.2⟩

end Builder
end CH

namespace TripBased
namespace StopEventGraphBuilder
open Data

/-- The constructor builds `thereAndBackData` from `thereAndBack`. -/
theorem ofRaptor_thereAndBack : ofRaptor thereAndBack = some thereAndBackData := by rfl

/-- C30 (counterexample): in `thereAndBack`, for the trip 0 at its stop index 1 (the stop
B, reached at 200).  The earliest trip of its own route at B is the trip 0 itself, at the
same stop index 1, with another stop after it (D) than before it (A): neither exception of
the claim applies, yet no transfer is added.  The earliest trip of the route 1 at B is the
trip 1 at its stop index 0; its next stop is A, the stop before B on the trip 0, and it
leaves A at 300, after the trip 0 reached A at 100: the second exception of the claim
applies, yet the transfer from the stop event 1 to the stop event 3 is added. -/
theorem scanRoute_differs_from_claim :
    (thereAndBackData.getEarliestTripOfSegment ⟨0, 1⟩ 200 = 0 ∧
      thereAndBackData.routeOfTrip.getD 0 0 = 0 ∧ ¬ (1 < 1) ∧
      thereAndBackData.getStop 0 (1 - 1) ≠ thereAndBackData.getStop 0 (1 + 1) ∧
      scanRoute thereAndBackData 0 1 200 (new thereAndBackData) ⟨0, 1⟩ =
        new thereAndBackData) ∧
    (thereAndBackData.getEarliestTripOfSegment ⟨1, 0⟩ 200 = 1 ∧
      thereAndBackData.getStop 0 (1 - 1) = thereAndBackData.getStop 1 (0 + 1) ∧
      (thereAndBackData.getStopEvent 0 (1 - 1)).arrivalTime ≤
        (thereAndBackData.getStopEvent 1 (0 + 1)).departureTime ∧
      (scanRoute thereAndBackData 0 1 200 (new thereAndBackData) ⟨1, 0⟩).edges.getD
        (thereAndBackData.getStopEventId 0 1) [] = [thereAndBackData.getStopEventId 1 0]) := by
  decide

/-- C30 (amended): in the data of a timetable whose route segments name stop indices of
their routes, for a trip `t`, a stop index `i` of it and a route segment with the stop
index `j` whose earliest trip at the arrival time is `t'`: `scanRoutes` adds the transfer
from the stop event of `t` at `i` to the stop event of `t'` at `j`, and changes nothing
else, unless (a) `t'` is on the route of `t`, `t' ≥ t` and `j ≥ i`, or (b) `i ≥ 2`, the
stop before `i` on `t` is the stop after `j` on `t'` and `t` arrives there no later than
`t'` leaves; in these two cases, and when there is no trip, it changes nothing. -/
theorem scanRoute_transfer (d : RAPTOR.Data) (hd : Timetable d)
    (hseg : ∀ seg ∈ d.routeSegments, seg.stopIndex < d.numberOfStopsInRoute seg.routeId)
    (td : Data) (htd : ofRaptor d = some td) (trip i : Nat) (htrip : trip < td.numberOfTrips)
    (hi : i < td.numberOfStopsInTrip trip) (route : RAPTOR.RouteSegment)
    (hroute : route ∈ d.routeSegments) (arrivalTime : Int) (b : StopEventGraphBuilder)
    (hb : b.edges.length = td.numberOfStopEvents) :
    (td.getEarliestTripOfSegment route arrivalTime = noTripId →
      scanRoute td trip i arrivalTime b route = b) ∧
    (td.getEarliestTripOfSegment route arrivalTime ≠ noTripId →
      ((route.routeId = td.routeOfTrip.getD trip 0 ∧
          td.getEarliestTripOfSegment route arrivalTime ≥ trip ∧ route.stopIndex ≥ i) ∨
        (2 ≤ i ∧ td.getStop trip (i - 1) =
            td.getStop (td.getEarliestTripOfSegment route arrivalTime) (route.stopIndex + 1) ∧
          (td.getStopEvent trip (i - 1)).arrivalTime ≤
            (td.getStopEvent (td.getEarliestTripOfSegment route arrivalTime)
              (route.stopIndex + 1)).departureTime) →
        scanRoute td trip i arrivalTime b route = b) ∧
      (¬ ((route.routeId = td.routeOfTrip.getD trip 0 ∧
          td.getEarliestTripOfSegment route arrivalTime ≥ trip ∧ route.stopIndex ≥ i) ∨
        (2 ≤ i ∧ td.getStop trip (i - 1) =
            td.getStop (td.getEarliestTripOfSegment route arrivalTime) (route.stopIndex + 1) ∧
          (td.getStopEvent trip (i - 1)).arrivalTime ≤
            (td.getStopEvent (td.getEarliestTripOfSegment route arrivalTime)
              (route.stopIndex + 1)).departureTime)) →
        (scanRoute td trip i arrivalTime b route).edges.getD (td.getStopEventId trip i) [] =
          b.edges.getD (td.getStopEventId trip i) [] ++
            [td.getStopEventId (td.getEarliestTripOfSegment route arrivalTime)
              route.stopIndex] ∧
        (∀ v, v ≠ td.getStopEventId trip i →
          (scanRoute td trip i arrivalTime b route).edges.getD v [] = b.edges.getD v []) ∧
        (scanRoute td trip i arrivalTime b route).labels = b.labels ∧
        (scanRoute td trip i arrivalTime b route).timeStamp = b.timeStamp)) := by
  obtain ⟨ht, e1, e2⟩ := ofRaptor_routeSegments d hd td htd
  have hs : route.stopIndex < td.raptorData.numberOfStopsInRoute route.routeId := by
    have := hseg route hroute
    unfold RAPTOR.Data.numberOfStopsInRoute at this ⊢
    rw [e2]
    exact this
  constructor
  · intro h0
    unfold scanRoute
    simp only []
    rw [if_pos h0]
  · intro h0
    obtain ⟨ho, hidx⟩ := getEarliestTrip_isTrip ht route hs arrivalTime h0
    -- the stop index of the segment is not the last of the trip
    have hnext : route.stopIndex + 1 < td.numberOfStopsInTrip
        (td.getEarliestTripOfSegment route arrivalTime) := by
      have hne : route.stopIndex + 1 ≠ td.raptorData.numberOfStopsInRoute route.routeId := by
        intro hc
        apply h0
        unfold Data.getEarliestTripOfSegment Data.getEarliestTripBinary
        rw [if_pos hc]
      rcases getEarliestTripBinary_range td route arrivalTime with hr | ⟨h1, h2⟩
      · exact absurd hr h0
      · have hr : route.routeId < td.raptorData.numberOfRoutes := by
          by_contra hc
          rw [ShortcutSearch.getD_of_length_le _ _ _ (by rw [ht.routes]; omega)] at h2
          omega
        obtain ⟨_, _, hof⟩ := ht.tripsOfRoute route.routeId hr
        unfold Data.getEarliestTripOfSegment at ho ⊢
        rw [(ht.stopsInTrip _ ho).1, hof _ h1 h2]
        unfold Data.numberOfStopsInRoute
        omega
    have hU : isUTransfer td trip i (td.getEarliestTripOfSegment route arrivalTime)
        route.stopIndex = true ↔
        (2 ≤ i ∧ td.getStop trip (i - 1) =
            td.getStop (td.getEarliestTripOfSegment route arrivalTime) (route.stopIndex + 1) ∧
          (td.getStopEvent trip (i - 1)).arrivalTime ≤
            (td.getStopEvent (td.getEarliestTripOfSegment route arrivalTime)
              (route.stopIndex + 1)).departureTime) := by
      unfold isUTransfer
      by_cases c1 : i < 2
      · rw [if_pos c1]
        constructor
        · intro h; exact Bool.noConfusion h
        · rintro ⟨h, _⟩; omega
      · rw [if_neg c1, if_neg (by omega)]
        by_cases c3 : td.getStop trip (i - 1) ≠
            td.getStop (td.getEarliestTripOfSegment route arrivalTime) (route.stopIndex + 1)
        · rw [if_pos c3]
          constructor
          · intro h; exact Bool.noConfusion h
          · rintro ⟨_, h, _⟩; exact absurd h c3
        · rw [if_neg c3]
          by_cases c4 : (td.getStopEvent trip (i - 1)).arrivalTime >
              (td.getStopEvent (td.getEarliestTripOfSegment route arrivalTime)
                (route.stopIndex + 1)).departureTime
          · rw [if_pos c4]
            constructor
            · intro h; exact Bool.noConfusion h
            · rintro ⟨_, _, h⟩; omega
          · rw [if_neg c4]
            constructor
            · intro _; exact ⟨by omega, not_not.mp c3, by omega⟩
            · intro _; rfl
    constructor
    · intro hex
      unfold scanRoute
      simp only []
      rw [if_neg h0]
      rcases hex with ha | hbb
      · rw [if_pos ha]
      · by_cases ha : route.routeId = td.routeOfTrip.getD trip 0 ∧
            td.getEarliestTripOfSegment route arrivalTime ≥ trip ∧ route.stopIndex ≥ i
        · rw [if_pos ha]
        · rw [if_neg ha, if_pos (hU.mpr hbb)]
    · intro hex
      have ha : ¬ (route.routeId = td.routeOfTrip.getD trip 0 ∧
          td.getEarliestTripOfSegment route arrivalTime ≥ trip ∧ route.stopIndex ≥ i) :=
        fun h => hex (Or.inl h)
      have hu : ¬ isUTransfer td trip i (td.getEarliestTripOfSegment route arrivalTime)
          route.stopIndex = true := fun h => hex (Or.inr (hU.mp h))
      have hlen : td.firstStopEventOfTrip.getD trip 0 + i < b.edges.length := by
        rw [hb]
        exact (ht.ofTrip trip i htrip hi).1
      unfold scanRoute
      simp only []
      rw [if_neg h0, if_neg ha, if_neg hu]
      simp only []
      unfold Data.getStopEventId
      refine ⟨?_, ?_, trivial, trivial⟩
      · rw [CH.getD_updateAt_self _ _ _ _ hlen]
      · intro v hv
        rw [CH.getD_updateAt_other _ _ _ _ _ (fun h => hv h.symm)]

/-- C30 (witness): in `thereAndBack` the trip 0 at its stop index 1 and the route segment of
the route 1 at B, with a builder that has no transfers yet. -/
theorem scanRoute_transfer_witness :
    (scanRoute thereAndBackData 0 1 200 (new thereAndBackData) ⟨1, 0⟩).edges.getD
        (thereAndBackData.getStopEventId 0 1) [] =
      (new thereAndBackData).edges.getD (thereAndBackData.getStopEventId 0 1) [] ++
        [thereAndBackData.getStopEventId
          (thereAndBackData.getEarliestTripOfSegment ⟨1, 0⟩ 200) 0] :=
  (((scanRoute_transfer thereAndBack ⟨by decide, by decide, by decide, by decide, by decide⟩
    (by decide) thereAndBackData (by rfl) 0 1 (by decide) (by decide) ⟨1, 0⟩ (by decide) 200
    (new thereAndBackData) (by decide)).2 (by decide)).2 (by decide)).1

end StopEventGraphBuilder
end TripBased

namespace TripBased
namespace Data

theorem addTrip_routeStarts {d : RAPTOR.Data} {k : Nat} {td : Data} {E : Nat}
    (hrb : RoutesBuilt (k + 1) td) (ht : TripsBuilt d td E) (hs : RouteStarts d (k + 1) td E)
    (n firstStopId : Nat) : RouteStarts d (k + 1) (addTrip k n firstStopId td E) (E + n) := by
  obtain ⟨e1, e2, e3, e4, e5, e6, e7, e8⟩ := addTrip_fields k n firstStopId td E
  generalize addTrip k n firstStopId td E = td' at e1 e2 e3 e4 e5 e6 e7 e8
  intro r hr
  have hsame : td'.routeEnds.getD r 0 = td.routeEnds.getD r 0 := by
    unfold routeEnds
    rw [e2, getD_append_lt _ _ _ _ (by rw [hrb.length]; exact hr),
      getD_append_lt _ _ _ _ (by rw [hrb.length]; exact hr)]
  have hle : td.routeEnds.getD r 0 ≤ td.routeOfTrip.length := by
    obtain ⟨a, b, _⟩ := hrb.trips r hr
    omega
  rw [hsame, ← hs r hr]
  unfold tripEnds
  rw [e5, getD_append_lt _ _ _ _ (by
    rw [List.length_append, ht.lens.2, List.length_singleton]; omega)]

theorem startRoute_routeStarts {d : RAPTOR.Data} {k : Nat} {td : Data}
    (hrb : RoutesBuilt k td) (ht : TripsBuilt d td (d.firstStopEventOfRoute.getD k 0))
    (hs : RouteStarts d k td (d.firstStopEventOfRoute.getD k 0)) :
    RouteStarts d (k + 1)
      { td with firstTripOfRoute := td.firstTripOfRoute ++ [td.routeOfTrip.length] }
      (d.firstStopEventOfRoute.getD k 0) := by
  have e2 : ({ td with firstTripOfRoute := td.firstTripOfRoute ++
      [td.routeOfTrip.length] } : Data).firstTripOfRoute =
      td.firstTripOfRoute ++ [td.routeOfTrip.length] := rfl
  have e3 : ({ td with firstTripOfRoute := td.firstTripOfRoute ++
      [td.routeOfTrip.length] } : Data).routeOfTrip = td.routeOfTrip := rfl
  have e5 : ({ td with firstTripOfRoute := td.firstTripOfRoute ++
      [td.routeOfTrip.length] } : Data).firstStopEventOfTrip = td.firstStopEventOfTrip := rfl
  generalize ({ td with firstTripOfRoute := td.firstTripOfRoute ++
      [td.routeOfTrip.length] } : Data) = td1 at e2 e3 e5
  intro r hr
  have hte : td1.tripEnds (d.firstStopEventOfRoute.getD k 0) =
      td.tripEnds (d.firstStopEventOfRoute.getD k 0) := by
    unfold tripEnds; rw [e5]
  rw [hte]
  by_cases hrk : r < k
  · have hsame : td1.routeEnds.getD r 0 = td.routeEnds.getD r 0 := by
      unfold routeEnds
      rw [e2, getD_append_lt _ _ _ _ (by
          rw [List.length_append, hrb.length, List.length_singleton]; omega),
        getD_append_lt _ _ _ _ (by rw [hrb.length]; omega)]
    rw [hsame]
    exact hs r hrk
  · have hrk2 : r = k := by omega
    subst hrk2
    have hend : td1.routeEnds.getD r 0 = td.routeOfTrip.length := by
      unfold routeEnds
      rw [e2, getD_append_lt _ _ _ _ (by
          rw [List.length_append, hrb.length, List.length_singleton]; omega),
        getD_append_ge _ _ _ _ (by rw [hrb.length]), hrb.length, Nat.sub_self]
      rfl
    rw [hend]
    unfold tripEnds
    rw [getD_append_ge _ _ _ _ (by rw [ht.lens.2]), ht.lens.2, Nat.sub_self]
    rfl

theorem addTrips_routeStarts {d : RAPTOR.Data} (route : Nat) (hr : route < d.numberOfRoutes)
    (hn : 0 < d.numberOfStopsInRoute route) (lastEvent : Nat) :
    ∀ (m fuel E : Nat) (td : Data), lastEvent = E + m * d.numberOfStopsInRoute route →
      m + 1 ≤ fuel → TripsBuilt d td E → RoutesBuilt (route + 1) td →
      RouteStarts d (route + 1) td E →
      ∀ td', addTrips route (d.numberOfStopsInRoute route) (d.firstStopIdOfRoute.getD route 0)
          lastEvent fuel E td = some td' → RouteStarts d (route + 1) td' lastEvent := by
  intro m
  induction m with
  | zero =>
    intro fuel E td hE hf ht hrb hs td' hrun
    obtain ⟨f, rfl⟩ : ∃ f, fuel = f + 1 := ⟨fuel - 1, by omega⟩
    have : lastEvent = E := by omega
    subst this
    unfold addTrips at hrun
    rw [if_neg (lt_irrefl _)] at hrun
    rw [← Option.some.inj hrun]
    exact hs
  | succ m ih =>
    intro fuel E td hE hf ht hrb hs td' hrun
    obtain ⟨f, rfl⟩ : ∃ f, fuel = f + 1 := ⟨fuel - 1, by omega⟩
    have hlt : E < lastEvent := by
      rw [hE, Nat.succ_mul]
      omega
    unfold addTrips at hrun
    rw [if_pos hlt] at hrun
    exact ih f (E + d.numberOfStopsInRoute route) _
      (by rw [hE, Nat.succ_mul]; omega) (by omega)
      (addTrip_tripsBuilt ht route hr hn) (addTrip_routesBuilt hrb _ _ _)
      (addTrip_routeStarts hrb ht hs _ _) td' hrun

theorem addRoute_routeStarts {d : RAPTOR.Data} (hd : Timetable d) {td : Data} {k : Nat}
    (hk : k < d.numberOfRoutes) (ht : TripsBuilt d td (d.firstStopEventOfRoute.getD k 0))
    (hrb : RoutesBuilt k td) (hs : RouteStarts d k td (d.firstStopEventOfRoute.getD k 0))
    (td' : Data) (hrun : addRoute td k = some td') :
    RouteStarts d (k + 1) td' (d.firstStopEventOfRoute.getD (k + 1) 0) := by
  have hrap := ht.raptor
  subst hrap
  obtain ⟨hn, hle, m, hm⟩ := hd.trips k hk
  unfold addRoute at hrun
  simp only [] at hrun
  have ht' : TripsBuilt td.raptorData
      { td with firstTripOfRoute := td.firstTripOfRoute ++ [td.routeOfTrip.length] }
      (td.raptorData.firstStopEventOfRoute.getD k 0) :=
    ⟨ht.raptor, ht.lens, ht.events, ht.trip, ht.event⟩
  refine addTrips_routeStarts k hk hn _ m _ _ _ ?_ ?_ ht' (startRoute_routesBuilt hrb)
    (startRoute_routeStarts hrb ht hs) td' hrun
  · rw [Nat.mul_comm]; omega
  · have : m ≤ td.raptorData.numberOfStopsInRoute k * m := Nat.le_mul_of_pos_left m hn
    omega

theorem addRoutes_routeStarts {d : RAPTOR.Data} (hd : Timetable d) : ∀ (m k : Nat) (td : Data),
    k + m ≤ d.numberOfRoutes → TripsBuilt d td (d.firstStopEventOfRoute.getD k 0) →
    RoutesBuilt k td → RouteStarts d k td (d.firstStopEventOfRoute.getD k 0) →
    ∀ td', addRoutes (List.range' k m) td = some td' →
      RouteStarts d (k + m) td' (d.firstStopEventOfRoute.getD (k + m) 0) := by
  intro m
  induction m with
  | zero =>
    intro k td _ ht hrb hs td' hrun
    have : td = td' := Option.some.inj hrun
    rw [← this]
    exact hs
  | succ m ih =>
    intro k td hk ht hrb hs td' hrun
    obtain ⟨td1, h1, ht1, hrb1⟩ := addRoute_built hd (show k < d.numberOfRoutes by omega) ht hrb
    have hs1 := addRoute_routeStarts hd (show k < d.numberOfRoutes by omega) ht hrb hs td1 h1
    rw [List.range'_succ] at hrun
    unfold addRoutes at hrun
    rw [h1] at hrun
    have := ih (k + 1) td1 (by omega) ht1 hrb1 hs1 td' hrun
    rw [show k + (m + 1) = k + 1 + m by omega]
    exact this

/-- In the data that the constructor builds for a timetable, the first trip of every route
begins with the first stop event of the route, and the trips end with the last stop
event. -/
theorem ofRaptor_routeStarts (d : RAPTOR.Data) (hd : Timetable d) (td : Data)
    (htd : ofRaptor d = some td) (r : Nat) (hr : r ≤ d.numberOfRoutes) :
    td.firstStopEventOfTrip.getD (td.firstTripOfRoute.getD r 0) 0 =
      d.firstStopEventOfRoute.getD r 0 := by
  have h0 : TripsBuilt d ⟨d, [], [], [], [], [], [], ⟨[0], [], []⟩, []⟩
      (d.firstStopEventOfRoute.getD 0 0) := by
    rw [hd.first]
    refine ⟨rfl, ⟨rfl, rfl⟩, ⟨rfl, rfl, rfl⟩, ?_, ?_⟩
    · intro t ht; exact absurd ht (Nat.not_lt_zero t)
    · intro e he; exact absurd he (Nat.not_lt_zero e)
  have r0 : RoutesBuilt 0 (⟨d, [], [], [], [], [], [], ⟨[0], [], []⟩, []⟩ : Data) := by
    refine ⟨rfl, ?_, ?_⟩
    · intro t ht; exact absurd ht (Nat.not_lt_zero t)
    · intro r hr; exact absurd hr (Nat.not_lt_zero r)
  have s0 : RouteStarts d 0 (⟨d, [], [], [], [], [], [], ⟨[0], [], []⟩, []⟩ : Data)
      (d.firstStopEventOfRoute.getD 0 0) := fun r hr => absurd hr (Nat.not_lt_zero r)
  obtain ⟨td0, hrun, ht, hrb⟩ := addRoutes_built hd d.numberOfRoutes 0 _ (by omega) h0 r0
  have hs := addRoutes_routeStarts hd d.numberOfRoutes 0 _ (by omega) h0 r0 s0 td0 hrun
  rw [Nat.zero_add, hd.last] at ht hs
  rw [Nat.zero_add] at hrb
  rw [← List.range_eq_range'] at hrun
  unfold ofRaptor at htd
  rw [hrun] at htd
  simp only [] at htd
  rw [← Option.some.inj htd]
  simp only []
  rw [ht.raptor]
  show (td0.tripEnds d.stopEvents.length).getD (td0.routeEnds.getD r 0) 0 = _
  by_cases hrn : r < d.numberOfRoutes
  · exact hs r hrn
  · have hrn2 : r = d.numberOfRoutes := by omega
    subst hrn2
    have hend : td0.routeEnds.getD d.numberOfRoutes 0 = td0.routeOfTrip.length := by
      unfold routeEnds
      rw [getD_append_ge _ _ _ _ (by rw [hrb.length]), hrb.length, Nat.sub_self]
      rfl
    rw [hend, hd.last]
    unfold tripEnds
    rw [getD_append_ge _ _ _ _ (by rw [ht.lens.2]), ht.lens.2, Nat.sub_self]
    rfl

end Data
end TripBased

namespace TripBased
namespace Data

theorem peekUp_spec (td : Data) (stopIndex : Nat) (time : Int) :
    ∀ (fuel t B : Nat), t ≤ B → B - t < fuel → B < 4294967296 →
      (∀ i, t ≤ i → i < B → (td.getStopEvent i stopIndex).departureTime < time) →
      ¬ (td.getStopEvent B stopIndex).departureTime < time →
      peekUp td stopIndex time fuel t = some B := by
  intro fuel
  induction fuel with
  | zero => intro t B _ h; omega
  | succ fuel ih =>
    intro t B htB hf hB hlt hge
    unfold peekUp
    by_cases h : (td.getStopEvent t stopIndex).departureTime < time
    · rw [if_pos h]
      have hne : t ≠ B := fun e => hge (e ▸ h)
      rw [Nat.mod_eq_of_lt (by omega)]
      exact ih (t + 1) B (by omega) (by omega) hB
        (fun i h1 h2 => hlt i (by omega) h2) hge
    · rw [if_neg h]
      have : t = B := by
        by_contra hne
        exact h (hlt t (le_refl _) (by omega))
      rw [this]

theorem peekDown_spec (td : Data) (stopIndex : Nat) (time : Int) :
    ∀ (fuel t B : Nat), B ≤ t → t - B < fuel → t < 4294967296 →
      (∀ i, B < i → i ≤ t → (td.getStopEvent i stopIndex).departureTime ≥ time) →
      ¬ (td.getStopEvent B stopIndex).departureTime ≥ time →
      peekDown td stopIndex time fuel t = some B := by
  intro fuel
  induction fuel with
  | zero => intro t B _ h; omega
  | succ fuel ih =>
    intro t B htB hf ht hge hlt
    unfold peekDown
    by_cases h : (td.getStopEvent t stopIndex).departureTime ≥ time
    · rw [if_pos h]
      have hne : t ≠ B := fun e => hlt (e ▸ h)
      have hdec : (t + 4294967295) % 4294967296 = t - 1 := by omega
      rw [hdec]
      exact ih (t - 1) B (by omega) (by omega) (by omega)
        (fun i h1 h2 => hge i h1 (by omega)) hlt
    · rw [if_neg h]
      have : t = B := by
        by_contra hne
        exact h (hge t (by omega) (le_refl _))
      rw [this]

theorem find_range' (p : Nat → Bool) : ∀ (n s b : Nat), s ≤ b → b < s + n → p b = true →
    (∀ i, s ≤ i → i < b → p i = false) → (List.range' s n).find? p = some b := by
  intro n
  induction n with
  | zero => intro s b h1 h2; omega
  | succ n ih =>
    intro s b h1 h2 hb hlt
    rw [List.range'_succ]
    by_cases hs : s = b
    · subst hs
      exact List.find?_cons_of_pos _ hb
    · rw [List.find?_cons_of_neg _ (by rw [hlt s (le_refl _) (by omega)]; simp)]
      exact ih (s + 1) b (by omega) (by omega) hb (fun i h3 h4 => hlt i (by omega) h4)

theorem find_range'_none (p : Nat → Bool) (n s : Nat)
    (h : ∀ i, s ≤ i → i < s + n → p i = false) : (List.range' s n).find? p = none := by
  rw [List.find?_eq_none]
  intro x hx
  rw [List.mem_range'_1] at hx
  rw [h x hx.1 hx.2]
  simp

theorem interpolation_le (a L c M : Nat) (ha : a ≤ L) : (a * c) % M / L ≤ c := by
  apply Nat.div_le_of_le_mul
  calc (a * c) % M ≤ a * c := Nat.mod_le _ _
    _ ≤ L * c := Nat.mul_le_mul_right c ha

theorem toU32_of_nonneg (x : Int) (h0 : 0 ≤ x) (h1 : x < 4294967296) : (toU32 x : Int) = x := by
  unfold toU32
  rw [Int.emod_eq_of_lt h0 h1]
  exact Int.toNat_of_nonneg h0

/-- The binary search, under the FIFO order of the departures: the result of
`std::lower_bound` separates the trips that leave before the time from the others. -/
theorem lowerBound_departures (td : Data) (route : RAPTOR.RouteSegment) (time : Int)
    (hfifo : ∀ t t', td.firstTripOfRoute.getD route.routeId 0 ≤ t → t ≤ t' →
      t' < td.firstTripOfRoute.getD (route.routeId + 1) 0 →
      (td.getStopEvent t route.stopIndex).departureTime ≤
        (td.getStopEvent t' route.stopIndex).departureTime)
    (hle : td.firstTripOfRoute.getD route.routeId 0 ≤
      td.firstTripOfRoute.getD (route.routeId + 1) 0) :
    ∃ B, td.firstTripOfRoute.getD route.routeId 0 ≤ B ∧
      B ≤ td.firstTripOfRoute.getD (route.routeId + 1) 0 ∧
      (∀ i, td.firstTripOfRoute.getD route.routeId 0 ≤ i → i < B →
        (td.getStopEvent i route.stopIndex).departureTime < time) ∧
      (∀ i, B ≤ i → i < td.firstTripOfRoute.getD (route.routeId + 1) 0 →
        time ≤ (td.getStopEvent i route.stopIndex).departureTime) ∧
      (route.stopIndex + 1 ≠ td.raptorData.numberOfStopsInRoute route.routeId →
        td.getEarliestTripBinary route time =
          if B < td.firstTripOfRoute.getD (route.routeId + 1) 0 then B else noTripId) := by
  obtain ⟨a, b, c, e⟩ := lowerBound_spec
    (fun trip => decide ((td.getStopEvent trip route.stopIndex).departureTime < time))
    (td.firstTripOfRoute.getD (route.routeId + 1) 0 - td.firstTripOfRoute.getD route.routeId 0)
    (td.firstTripOfRoute.getD route.routeId 0)
    (td.firstTripOfRoute.getD (route.routeId + 1) 0 - td.firstTripOfRoute.getD route.routeId 0)
    (le_refl _) (by
      intro i j h1 h2 h3 h4
      have h5 := hfifo i j h1 h2 (by omega)
      simp only [decide_eq_true_eq] at h4 ⊢
      omega)
  refine ⟨_, a, by omega, ?_, ?_, ?_⟩
  · intro i h1 h2
    have := c i h1 h2
    simpa using this
  · intro i h1 h2
    have := e i h1 (by omega)
    simpa using this
  · intro hne
    unfold getEarliestTripBinary
    rw [if_neg hne]


/-- The interpolation search returns what the binary search returns: it does not divide by
zero, and its correction loops end within the trips of the route. -/
theorem peek_eq_binary (td : Data) (route : RAPTOR.RouteSegment) (time : Int)
    (hfifo : ∀ t t', td.firstTripOfRoute.getD route.routeId 0 ≤ t → t ≤ t' →
      t' < td.firstTripOfRoute.getD (route.routeId + 1) 0 →
      (td.getStopEvent t route.stopIndex).departureTime ≤
        (td.getStopEvent t' route.stopIndex).departureTime)
    (hle : td.firstTripOfRoute.getD route.routeId 0 ≤
      td.firstTripOfRoute.getD (route.routeId + 1) 0)
    (hid : td.firstTripOfRoute.getD (route.routeId + 1) 0 ≤ noTripId)
    (hspan : (td.getStopEvent (td.firstTripOfRoute.getD (route.routeId + 1) 0 - 1)
        route.stopIndex).departureTime -
      (td.getStopEvent (td.firstTripOfRoute.getD route.routeId 0) route.stopIndex).departureTime
        ≤ intMax) :
    td.getEarliestTripPeek route time = some (td.getEarliestTripBinary route time) := by
  obtain ⟨B, b1, b2, b3, b4, b5⟩ := lowerBound_departures td route time hfifo hle
  unfold noTripId at hid
  unfold intMax at hspan
  unfold getEarliestTripPeek
  by_cases hlast : route.stopIndex + 1 = td.raptorData.numberOfStopsInRoute route.routeId
  · rw [if_pos hlast]
    unfold getEarliestTripBinary
    rw [if_pos hlast]
  rw [if_neg hlast, b5 hlast]
  simp only []
  by_cases hempty : td.firstTripOfRoute.getD route.routeId 0 =
      td.firstTripOfRoute.getD (route.routeId + 1) 0
  · rw [if_pos hempty, if_neg (by omega)]
  rw [if_neg hempty]
  have hpred : (td.firstTripOfRoute.getD (route.routeId + 1) 0 + 4294967295) % 4294967296 =
      td.firstTripOfRoute.getD (route.routeId + 1) 0 - 1 := by omega
  rw [hpred]
  by_cases hfirst : (td.getStopEvent (td.firstTripOfRoute.getD route.routeId 0)
      route.stopIndex).departureTime ≥ time
  · rw [if_pos hfirst]
    have hB : B = td.firstTripOfRoute.getD route.routeId 0 := by
      by_contra hne
      have := b3 _ (le_refl _) (by omega)
      omega
    rw [hB, if_pos (by omega)]
  rw [if_neg hfirst]
  by_cases hlastDep : (td.getStopEvent (td.firstTripOfRoute.getD (route.routeId + 1) 0 - 1)
      route.stopIndex).departureTime < time
  · rw [if_pos hlastDep]
    have hB : ¬ B < td.firstTripOfRoute.getD (route.routeId + 1) 0 := by
      intro hlt
      have h1 := b4 B (le_refl _) hlt
      have h2 := hfifo B (td.firstTripOfRoute.getD (route.routeId + 1) 0 - 1) b1 (by omega)
        (by omega)
      omega
    rw [if_neg hB]
  rw [if_neg hlastDep]
  -- the first trip leaves before the time, the last one does not
  have hBfirst : td.firstTripOfRoute.getD route.routeId 0 < B := by
    by_contra hc
    have hB : B = td.firstTripOfRoute.getD route.routeId 0 := by omega
    have := b4 B (le_refl _) (by omega)
    rw [hB] at this
    omega
  have hBlast : B < td.firstTripOfRoute.getD (route.routeId + 1) 0 := by
    by_contra hc
    have := b3 (td.firstTripOfRoute.getD (route.routeId + 1) 0 - 1) (by omega) (by omega)
    omega
  have hL := toU32_of_nonneg
    ((td.getStopEvent (td.firstTripOfRoute.getD (route.routeId + 1) 0 - 1)
        route.stopIndex).departureTime -
      (td.getStopEvent (td.firstTripOfRoute.getD route.routeId 0)
        route.stopIndex).departureTime) (by omega) (by omega)
  have ha := toU32_of_nonneg
    (time - (td.getStopEvent (td.firstTripOfRoute.getD route.routeId 0)
        route.stopIndex).departureTime) (by omega) (by omega)
  have hL0 : toU32 ((td.getStopEvent (td.firstTripOfRoute.getD (route.routeId + 1) 0 - 1)
        route.stopIndex).departureTime -
      (td.getStopEvent (td.firstTripOfRoute.getD route.routeId 0)
        route.stopIndex).departureTime) ≠ 0 := by
    intro h0
    rw [h0] at hL
    push_cast at hL
    omega
  rw [if_neg hL0, if_pos hBlast]
  have hcount : (td.firstTripOfRoute.getD (route.routeId + 1) 0 + 4294967296 -
      td.firstTripOfRoute.getD route.routeId 0 + 4294967295) % 4294967296 =
      td.firstTripOfRoute.getD (route.routeId + 1) 0 -
        td.firstTripOfRoute.getD route.routeId 0 - 1 := by omega
  rw [hcount]
  have hguess := interpolation_le
    (toU32 (time - (td.getStopEvent (td.firstTripOfRoute.getD route.routeId 0)
        route.stopIndex).departureTime))
    (toU32 ((td.getStopEvent (td.firstTripOfRoute.getD (route.routeId + 1) 0 - 1)
        route.stopIndex).departureTime -
      (td.getStopEvent (td.firstTripOfRoute.getD route.routeId 0)
        route.stopIndex).departureTime))
    (td.firstTripOfRoute.getD (route.routeId + 1) 0 -
      td.firstTripOfRoute.getD route.routeId 0 - 1) 4294967296 (by
      have : (toU32 (time - (td.getStopEvent (td.firstTripOfRoute.getD route.routeId 0)
          route.stopIndex).departureTime) : Int) ≤
        (toU32 ((td.getStopEvent (td.firstTripOfRoute.getD (route.routeId + 1) 0 - 1)
          route.stopIndex).departureTime -
        (td.getStopEvent (td.firstTripOfRoute.getD route.routeId 0)
          route.stopIndex).departureTime) : Int) := by
        rw [hL, ha]; omega
      exact_mod_cast this)
  generalize toU32 (time - (td.getStopEvent (td.firstTripOfRoute.getD route.routeId 0)
        route.stopIndex).departureTime) *
      (td.firstTripOfRoute.getD (route.routeId + 1) 0 -
        td.firstTripOfRoute.getD route.routeId 0 - 1) % 4294967296 /
      toU32 ((td.getStopEvent (td.firstTripOfRoute.getD (route.routeId + 1) 0 - 1)
        route.stopIndex).departureTime -
      (td.getStopEvent (td.firstTripOfRoute.getD route.routeId 0)
        route.stopIndex).departureTime) = guess at hguess ⊢
  rw [Nat.mod_eq_of_lt (show td.firstTripOfRoute.getD route.routeId 0 + guess < 4294967296 by
    omega)]
  by_cases hbelow : (td.getStopEvent (td.firstTripOfRoute.getD route.routeId 0 + guess)
      route.stopIndex).departureTime < time
  · rw [if_pos hbelow]
    have htB : td.firstTripOfRoute.getD route.routeId 0 + guess < B := by
      by_contra hc
      have := b4 _ (not_lt.mp hc) (by omega)
      omega
    exact peekUp_spec td route.stopIndex time _ _ B (by omega) (by omega) (by omega)
      (fun i h1 h2 => b3 i (by omega) h2)
      (by have := b4 B (le_refl _) hBlast; omega)
  · rw [if_neg hbelow]
    have htB : B ≤ td.firstTripOfRoute.getD route.routeId 0 + guess := by
      by_contra hc
      exact hbelow (b3 _ (by omega) (by omega))
    rw [peekDown_spec td route.stopIndex time _ _ (B - 1) (by omega) (by omega) (by omega)
      (fun i h1 h2 => by have := b4 i (by omega) (by omega); omega)
      (by have := b3 (B - 1) (by omega) (by omega); omega)]
    rw [Option.map_some']
    rw [show (B - 1 + 1) % 4294967296 = B by omega]

/-- The linear search returns what the binary search returns on a route with a trip, when
the last trip of the route in the timetable is the last trip of the route. -/
theorem linear_eq_binary (td : Data) (route : RAPTOR.RouteSegment) (time : Int)
    (hfifo : ∀ t t', td.firstTripOfRoute.getD route.routeId 0 ≤ t → t ≤ t' →
      t' < td.firstTripOfRoute.getD (route.routeId + 1) 0 →
      (td.getStopEvent t route.stopIndex).departureTime ≤
        (td.getStopEvent t' route.stopIndex).departureTime)
    (hlt : td.firstTripOfRoute.getD route.routeId 0 <
      td.firstTripOfRoute.getD (route.routeId + 1) 0)
    (hlink : td.raptorData.lastTripOfRoute route.routeId =
      td.firstStopEventOfTrip.getD (td.firstTripOfRoute.getD (route.routeId + 1) 0 - 1) 0) :
    td.getEarliestTripLinear route time = td.getEarliestTripBinary route time := by
  obtain ⟨B, b1, b2, b3, b4, b5⟩ := lowerBound_departures td route time hfifo (le_of_lt hlt)
  unfold getEarliestTripLinear
  by_cases hlast : route.stopIndex + 1 = td.raptorData.numberOfStopsInRoute route.routeId
  · rw [if_pos hlast]
    unfold getEarliestTripBinary
    rw [if_pos hlast]
  rw [if_neg hlast, b5 hlast, hlink]
  have hev : td.raptorData.stopEventAt (td.firstStopEventOfTrip.getD
      (td.firstTripOfRoute.getD (route.routeId + 1) 0 - 1) 0 + route.stopIndex) =
      td.getStopEvent (td.firstTripOfRoute.getD (route.routeId + 1) 0 - 1) route.stopIndex := rfl
  rw [hev]
  by_cases hlastDep : (td.getStopEvent (td.firstTripOfRoute.getD (route.routeId + 1) 0 - 1)
      route.stopIndex).departureTime < time
  · rw [if_pos hlastDep]
    have hB : ¬ B < td.firstTripOfRoute.getD (route.routeId + 1) 0 := by
      intro hlt2
      have h1 := b4 B (le_refl _) hlt2
      have h2 := hfifo B (td.firstTripOfRoute.getD (route.routeId + 1) 0 - 1) b1 (by omega)
        (by omega)
      omega
    rw [if_neg hB]
  · rw [if_neg hlastDep]
    have hBlast : B < td.firstTripOfRoute.getD (route.routeId + 1) 0 := by
      by_contra hc
      have := b3 (td.firstTripOfRoute.getD (route.routeId + 1) 0 - 1) (by omega) (by omega)
      omega
    have hfind := find_range'
      (fun trip => decide ((td.getStopEvent trip route.stopIndex).departureTime ≥ time))
      (td.firstTripOfRoute.getD (route.routeId + 1) 0 - td.firstTripOfRoute.getD route.routeId 0)
      (td.firstTripOfRoute.getD route.routeId 0) B b1 (by omega)
      (decide_eq_true (b4 B (le_refl _) hBlast))
      (fun i h1 h2 => decide_eq_false (not_le.mpr (b3 i h1 h2)))
    rw [hfind, if_pos hBlast]

end Data
end TripBased

namespace TripBased
namespace Data

/-- In the data that the constructor builds for a timetable, the last trip of a route that
has a trip begins where the timetable has the last trip of the route. -/
theorem ofRaptor_lastTrip (d : RAPTOR.Data) (hd : Timetable d) (td : Data)
    (htd : ofRaptor d = some td) (r : Nat) (hr : r < d.numberOfRoutes)
    (hlt : td.firstTripOfRoute.getD r 0 < td.firstTripOfRoute.getD (r + 1) 0) :
    td.firstTripOfRoute.getD r 0 ≤ td.firstTripOfRoute.getD (r + 1) 0 ∧
    td.raptorData.lastTripOfRoute r =
      td.firstStopEventOfTrip.getD (td.firstTripOfRoute.getD (r + 1) 0 - 1) 0 := by
  obtain ⟨td1, h1, ht, f1, f2, _⟩ := ofRaptor_spec d hd
  rw [htd] at h1
  have e : td = td1 := Option.some.inj h1
  subst e
  have hr' : r < td.raptorData.numberOfRoutes := by
    unfold RAPTOR.Data.numberOfRoutes at hr ⊢
    rw [f1]; exact hr
  obtain ⟨a, b, c⟩ := ht.tripsOfRoute r hr'
  refine ⟨a, ?_⟩
  have hstart := ofRaptor_routeStarts d hd td htd (r + 1) (by omega)
  have htrip : td.firstTripOfRoute.getD (r + 1) 0 - 1 < td.numberOfTrips := by omega
  obtain ⟨s1, s2, _, _⟩ := ht.stopsInTrip _ htrip
  rw [c _ (by omega) (by omega)] at s1
  unfold numberOfStopsInTrip at s1 s2
  rw [show td.firstTripOfRoute.getD (r + 1) 0 - 1 + 1 = td.firstTripOfRoute.getD (r + 1) 0 by
    omega, hstart] at s1 s2
  unfold RAPTOR.Data.lastTripOfRoute
  rw [f2]
  unfold Data.numberOfStopsInRoute at s1
  omega

/-- C29: in the data of a timetable, on a route whose departures at the stop index of the
segment are FIFO-sorted (and whose trip ids are below `noTripId`, with a difference of the
last and the first departure that is an `int`), `getEarliestTripPeek` returns what
`getEarliestTripBinary` returns: its interpolation does not divide by zero and its
correction loops end within the trips of the route; and when the route has a trip,
`getEarliestTripLinear` returns the same as well. -/
theorem getEarliestTrip_variants (d : RAPTOR.Data) (hd : Timetable d) (td : Data)
    (htd : ofRaptor d = some td) (route : RAPTOR.RouteSegment)
    (hr : route.routeId < d.numberOfRoutes) (time : Int)
    (hfifo : ∀ t t', td.firstTripOfRoute.getD route.routeId 0 ≤ t → t ≤ t' →
      t' < td.firstTripOfRoute.getD (route.routeId + 1) 0 →
      (td.getStopEvent t route.stopIndex).departureTime ≤
        (td.getStopEvent t' route.stopIndex).departureTime)
    (hid : td.firstTripOfRoute.getD (route.routeId + 1) 0 ≤ noTripId)
    (hspan : (td.getStopEvent (td.firstTripOfRoute.getD (route.routeId + 1) 0 - 1)
        route.stopIndex).departureTime -
      (td.getStopEvent (td.firstTripOfRoute.getD route.routeId 0) route.stopIndex).departureTime
        ≤ intMax) :
    td.getEarliestTripPeek route time = some (td.getEarliestTripBinary route time) ∧
    (td.firstTripOfRoute.getD route.routeId 0 < td.firstTripOfRoute.getD (route.routeId + 1) 0 →
      td.getEarliestTripLinear route time = td.getEarliestTripBinary route time) := by
  have hle : td.firstTripOfRoute.getD route.routeId 0 ≤
      td.firstTripOfRoute.getD (route.routeId + 1) 0 := by
    obtain ⟨td1, h1, ht, f1, _⟩ := ofRaptor_spec d hd
    rw [htd] at h1
    have e : td = td1 := Option.some.inj h1
    subst e
    exact (ht.tripsOfRoute route.routeId (by
      unfold RAPTOR.Data.numberOfRoutes at hr ⊢
      rw [f1]; exact hr)).1
  refine ⟨peek_eq_binary td route time hfifo hle hid hspan, ?_⟩
  intro hlt
  exact linear_eq_binary td route time hfifo hlt
    (ofRaptor_lastTrip d hd td htd route.routeId hr hlt).2

/-- C29 (witness): the route 0 of `smallTimetable` at its first stop, whose two trips leave
at 100 and at 400, and the time 150: the three searches return the trip 1. -/
theorem getEarliestTrip_variants_witness :
    (smallData.getEarliestTripPeek ⟨0, 0⟩ 150 = some (smallData.getEarliestTripBinary ⟨0, 0⟩ 150) ∧
      (smallData.firstTripOfRoute.getD 0 0 < smallData.firstTripOfRoute.getD (0 + 1) 0 →
        smallData.getEarliestTripLinear ⟨0, 0⟩ 150 =
          smallData.getEarliestTripBinary ⟨0, 0⟩ 150)) ∧
    smallData.getEarliestTripBinary ⟨0, 0⟩ 150 = 1 :=
  ⟨getEarliestTrip_variants smallTimetable
    ⟨by decide, by decide, by decide, by decide, by decide⟩ smallData (by rfl) ⟨0, 0⟩
    (by decide) 150
    (by
      intro t t' _ h2 h3
      have h4 : t' < 2 := h3
      interval_cases t' <;> interval_cases t <;> decide)
    (by decide) (by decide), by decide⟩

end Data
end TripBased

namespace CH
namespace Builder

variable {σ : Type}

/-- What a call of `reKey` that returns changes. -/
theorem reKey_some (kf : KeyFunction σ) (b b' : Builder σ) (v : Nat)
    (h : reKey kf b v = some b') :
    b'.data = b.data ∧ b'.keyState = b.keyState ∧ b'.Q = heapUpdate b.Q v ∧
      ∃ k ws, kf.key b.keyState b.data b.witnessSearch v = some (k, ws) ∧
        b'.label = b.label.updateAt v (fun _ => k) := by
  unfold reKey at h
  cases hk : kf.key b.keyState b.data b.witnessSearch v with
  | none => rw [hk] at h; exact Option.noConfusion h
  | some r =>
    obtain ⟨k, ws⟩ := r
    rw [hk] at h
    simp only [] at h
    have e := Option.some.inj h
    rw [← e]
    exact ⟨rfl, rfl, rfl, k, ws, rfl, rfl⟩

theorem reKeyAll_some (kf : KeyFunction σ) : ∀ (l : List Nat) (b b' : Builder σ),
    reKeyAll kf l b = some b' →
    b'.data = b.data ∧ b'.keyState = b.keyState ∧ b'.Q = l.foldl heapUpdate b.Q := by
  intro l
  induction l with
  | nil =>
    intro b b' h
    have : b = b' := Option.some.inj h
    rw [← this]
    exact ⟨rfl, rfl, rfl⟩
  | cons v rest ih =>
    intro b b' h
    unfold reKeyAll at h
    cases h1 : reKey kf b v with
    | none => rw [h1] at h; exact Option.noConfusion h
    | some b1 =>
      rw [h1] at h
      simp only [] at h
      obtain ⟨a1, a2, a3, _⟩ := reKey_some kf b b1 v h1
      obtain ⟨c1, c2, c3⟩ := ih b1 b' h
      refine ⟨c1.trans a1, c2.trans a2, ?_⟩
      rw [c3, a3, List.foldl_cons]

theorem updateNeighbors_some (kf : KeyFunction σ) (level : Nat) :
    ∀ (l : List Nat) (b b' : Builder σ), updateNeighbors kf level l b = some b' →
    b'.data.numVertices = b.data.numVertices ∧ b'.data.core = b.data.core ∧
      b'.data.forwardCH = b.data.forwardCH ∧ b'.data.backwardCH = b.data.backwardCH ∧
      b'.data.order = b.data.order ∧
      b'.data.level = l.foldl (fun lv n => lv.updateAt n (fun x => max x level)) b.data.level ∧
      b'.keyState = b.keyState ∧ b'.Q = l.foldl heapUpdate b.Q := by
  intro l
  induction l with
  | nil =>
    intro b b' h
    have : b = b' := Option.some.inj h
    rw [← this]
    exact ⟨rfl, rfl, rfl, rfl, rfl, rfl, rfl, rfl⟩
  | cons n rest ih =>
    intro b b' h
    unfold updateNeighbors at h
    simp only [] at h
    cases h1 : reKey kf { b with data := { b.data with
        level := b.data.level.updateAt n (fun l => max l level) } } n with
    | none => rw [h1] at h; exact Option.noConfusion h
    | some b1 =>
      rw [h1] at h
      simp only [] at h
      obtain ⟨a1, a2, a3, _⟩ := reKey_some kf _ b1 n h1
      obtain ⟨c1, c2, c3, c4, c5, c6, c7, c8⟩ := ih b1 b' h
      rw [a1] at c1 c2 c3 c4 c5 c6
      rw [a2] at c7
      rw [a3] at c8
      exact ⟨c1, c2, c3, c4, c5, c6, c7, c8⟩

theorem buildQ_some (kf : KeyFunction σ) :
    ∀ (l : List Nat) (b b' : Builder σ), buildQ kf l b = some b' →
    b'.data.numVertices = b.data.numVertices ∧ b'.data.core = b.data.core ∧
      b'.data.forwardCH = b.data.forwardCH ∧ b'.data.backwardCH = b.data.backwardCH ∧
      b'.data.order = b.data.order ∧
      b'.data.level = l.foldl (fun lv n => lv.updateAt n (fun _ => 0)) b.data.level ∧
      b'.keyState = b.keyState ∧ b'.Q = l.foldl heapUpdate b.Q := by
  intro l
  induction l with
  | nil =>
    intro b b' h
    have : b = b' := Option.some.inj h
    rw [← this]
    exact ⟨rfl, rfl, rfl, rfl, rfl, rfl, rfl, rfl⟩
  | cons n rest ih =>
    intro b b' h
    unfold buildQ at h
    simp only [] at h
    cases h1 : reKey kf { b with data := { b.data with
        level := b.data.level.updateAt n (fun _ => 0) } } n with
    | none => rw [h1] at h; exact Option.noConfusion h
    | some b1 =>
      rw [h1] at h
      simp only [] at h
      obtain ⟨a1, a2, a3, _⟩ := reKey_some kf _ b1 n h1
      obtain ⟨c1, c2, c3, c4, c5, c6, c7, c8⟩ := ih b1 b' h
      rw [a1] at c1 c2 c3 c4 c5 c6
      rw [a2] at c7
      rw [a3] at c8
      exact ⟨c1, c2, c3, c4, c5, c6, c7, c8⟩

theorem buildQResume_some (kf : KeyFunction σ) (done : List Nat) :
    ∀ (l : List Nat) (b b' : Builder σ), buildQResume kf done l b = some b' →
    b'.data = b.data ∧ b'.keyState = b.keyState ∧
      b'.Q = (l.filter (fun v => decide (v ∉ done))).foldl heapUpdate b.Q := by
  intro l
  induction l with
  | nil =>
    intro b b' h
    have : b = b' := Option.some.inj h
    rw [← this]
    exact ⟨rfl, rfl, rfl⟩
  | cons v rest ih =>
    intro b b' h
    unfold buildQResume at h
    by_cases hv : v ∈ done
    · rw [if_pos hv] at h
      rw [List.filter_cons_of_neg (by simpa using hv)]
      exact ih b b' h
    · rw [if_neg hv] at h
      cases h1 : reKey kf b v with
      | none => rw [h1] at h; exact Option.noConfusion h
      | some b1 =>
        rw [h1] at h
        simp only [] at h
        obtain ⟨a1, a2, a3, _⟩ := reKey_some kf b b1 v h1
        obtain ⟨c1, c2, c3⟩ := ih b1 b' h
        refine ⟨c1.trans a1, c2.trans a2, ?_⟩
        rw [c3, a3, List.filter_cons_of_pos (by simpa using hv), List.foldl_cons]

/-- The edges of the core graph after the loop over the candidate shortcuts: edges of the
core graph before it, or edges between the ends of a candidate. -/
theorem testShortcuts_edges (cfg : WitnessConfig) (v : Nat) :
    ∀ (L : List Shortcut) (K K' : DynamicGraph) (ws ws' : WitnessSearch),
      testShortcuts cfg v L K ws = some (K', ws') →
      K'.numVertices = K.numVertices ∧ K.Persists K' ∧
      ∀ e ∈ K'.edges, e ∈ K.edges ∨
        ∃ s ∈ L, e.fromVertex = s.fromVertex ∧ e.toVertex = s.toVertex := by
  intro L
  induction L with
  | nil =>
    intro K K' ws ws' h
    have e := Option.some.inj h
    have e1 : K = K' := congrArg Prod.fst e
    rw [← e1]
    exact ⟨rfl, DynamicGraph.Persists.refl_persists K, fun e he => Or.inl he⟩
  | cons s rest ih =>
    intro K K' ws ws' h
    unfold testShortcuts at h
    cases h1 : ws.shortcutIsNecessary cfg K s.fromVertex s.toVertex v s.weight with
    | none => rw [h1] at h; exact Option.noConfusion h
    | some r =>
      obtain ⟨necessary, ws1⟩ := r
      rw [h1] at h
      simp only [] at h
      obtain ⟨n1, p1, o1⟩ := ih _ K' ws1 ws' h
      by_cases hn : necessary = true
      · rw [if_pos hn] at n1 p1 o1
        obtain ⟨a1, a2, a3, _⟩ := addShortcut_spec K s.fromVertex s.toVertex v s.weight
        refine ⟨n1.trans a1, a2.trans_persists p1, ?_⟩
        intro e he
        rcases o1 e he with h2 | ⟨s', hs', q1, q2⟩
        · rcases a3 e h2 with h3 | ⟨h3, h4, _⟩
          · exact Or.inl h3
          · exact Or.inr ⟨s, List.mem_cons_self _ _, h3, h4⟩
        · exact Or.inr ⟨s', List.mem_cons_of_mem _ hs', q1, q2⟩
      · rw [if_neg hn] at n1 p1 o1
        refine ⟨n1, p1, ?_⟩
        intro e he
        rcases o1 e he with h2 | ⟨s', hs', q1, q2⟩
        · exact Or.inl h2
        · exact Or.inr ⟨s', List.mem_cons_of_mem _ hs', q1, q2⟩

/-- What a call of `contract` that returns changes. -/
theorem contract_some (cfg : BuilderConfig) (kf : KeyFunction σ) (b b' : Builder σ) (v : Nat)
    (h : contract cfg kf b v = some b') :
    ∃ Km ws, testShortcuts cfg.witness v (cfg.sortShortcuts (shortcutsOf b.data.core v))
        b.data.core b.witnessSearch = some (Km, ws) ∧
      b'.data.numVertices = b.data.numVertices ∧
      b'.data.core = Km.isolateVertex v ∧
      b'.data.forwardCH.edges = b.data.forwardCH.edges ++ forwardEdges Km v ∧
      b'.data.backwardCH.edges = b.data.backwardCH.edges ++ backwardEdges Km v ∧
      b'.data.order = b.data.order ++ [v] ∧
      b'.data.level = (neighborsOf Km v).foldl
        (fun lv n => lv.updateAt n (fun x => max x ((b.data.level.getD v 0 + 1) % 65536)))
        b.data.level ∧
      b'.keyState = b.keyState ∧ b'.Q = (neighborsOf Km v).foldl heapUpdate b.Q := by
  unfold contract at h
  simp only [] at h
  cases h1 : testShortcuts cfg.witness v (cfg.sortShortcuts (shortcutsOf b.data.core v))
      b.data.core b.witnessSearch with
  | none => rw [h1] at h; exact Option.noConfusion h
  | some r =>
    obtain ⟨Km, ws⟩ := r
    rw [h1] at h
    simp only [] at h
    obtain ⟨c1, c2, c3, c4, c5, c6, c7, c8⟩ := updateNeighbors_some kf _ _ _ b' h
    exact ⟨Km, ws, rfl, c1, c2, by rw [c3], by rw [c4], c5, c6, c7, c8⟩

end Builder
end CH

namespace CH
namespace Builder

variable {σ : Type}

theorem length_foldl_updateAt {α : Type} (f : α → α) : ∀ (l : List Nat) (lv : List α),
    (l.foldl (fun lv n => lv.updateAt n f) lv).length = lv.length := by
  intro l
  induction l with
  | nil => intro lv; rfl
  | cons n rest ih =>
    intro lv
    rw [List.foldl_cons, ih, length_updateAt]

/-- The levels after the loop over the neighbours. -/
theorem getD_foldl_max (L : Nat) : ∀ (l : List Nat) (lv : List Nat) (x : Nat),
    (l.foldl (fun lv n => lv.updateAt n (fun y => max y L)) lv).getD x 0 =
      if x ∈ l ∧ x < lv.length then max (lv.getD x 0) L else lv.getD x 0 := by
  intro l
  induction l with
  | nil => intro lv x; simp
  | cons n rest ih =>
    intro lv x
    rw [List.foldl_cons, ih, length_updateAt]
    by_cases hx : x < lv.length
    · by_cases hn : n = x
      · subst hn
        rw [getD_updateAt_self _ _ _ _ hx,
          if_pos (show n ∈ n :: rest ∧ n < lv.length from ⟨List.mem_cons_self _ _, hx⟩)]
        by_cases hr : n ∈ rest
        · rw [if_pos (show n ∈ rest ∧ n < lv.length from ⟨hr, hx⟩)]
          omega
        · rw [if_neg (show ¬ (n ∈ rest ∧ n < lv.length) from fun h => hr h.1)]
      · rw [getD_updateAt_other _ _ _ _ _ hn]
        by_cases hr : x ∈ rest
        · rw [if_pos (show x ∈ rest ∧ x < lv.length from ⟨hr, hx⟩),
            if_pos (show x ∈ n :: rest ∧ x < lv.length from ⟨List.mem_cons_of_mem _ hr, hx⟩)]
        · rw [if_neg (show ¬ (x ∈ rest ∧ x < lv.length) from fun h => hr h.1),
            if_neg (show ¬ (x ∈ n :: rest ∧ x < lv.length) from fun h => by
              rcases List.mem_cons.mp h.1 with h1 | h1
              · exact hn h1.symm
              · exact hr h1)]
    · rw [if_neg (show ¬ (x ∈ rest ∧ x < lv.length) from fun h => hx h.2),
        if_neg (show ¬ (x ∈ n :: rest ∧ x < lv.length) from fun h => hx h.2)]
      by_cases hn : n = x
      · subst hn
        rw [getD_updateAt_out _ _ _ (by omega)]
      · rw [getD_updateAt_other _ _ _ _ _ hn]

theorem getD_foldl_zero : ∀ (l : List Nat) (lv : List Nat), (∀ x, lv.getD x 0 = 0) →
    ∀ x, (l.foldl (fun lv n => lv.updateAt n (fun _ => 0)) lv).getD x 0 = 0 := by
  intro l
  induction l with
  | nil => intro lv h x; exact h x
  | cons n rest ih =>
    intro lv h x
    rw [List.foldl_cons]
    apply ih
    intro y
    by_cases hn : n = y
    · subst hn
      by_cases hlen : n < lv.length
      · rw [getD_updateAt_self _ _ _ _ hlen]
      · rw [getD_updateAt_out _ _ _ (by omega)]
        exact h n
    · rw [getD_updateAt_other _ _ _ _ _ hn]
      exact h y

theorem setInsert_self (x : Nat) : ∀ (l : List Nat), x ∈ setInsert x l := by
  intro l
  induction l with
  | nil => unfold setInsert; exact List.mem_singleton.mpr rfl
  | cons y ys ih =>
    unfold setInsert
    split
    · exact List.mem_cons_self _ _
    · split
      · rename_i h
        rw [h]
        exact List.mem_cons_self _ _
      · exact List.mem_cons_of_mem _ ih

theorem setInsert_of_mem (x y : Nat) : ∀ (l : List Nat), y ∈ l → y ∈ setInsert x l := by
  intro l
  induction l with
  | nil => intro h; exact absurd h (List.not_mem_nil y)
  | cons z zs ih =>
    intro h
    unfold setInsert
    split
    · exact List.mem_cons_of_mem _ h
    · split
      · exact h
      · rcases List.mem_cons.mp h with h1 | h1
        · rw [h1]; exact List.mem_cons_self _ _
        · exact List.mem_cons_of_mem _ (ih h1)

theorem foldl_setInsert_mem (x : Nat) : ∀ (l acc : List Nat), x ∈ l ∨ x ∈ acc →
    x ∈ l.foldl (fun acc x => setInsert x acc) acc := by
  intro l
  induction l with
  | nil =>
    intro acc h
    rcases h with h | h
    · exact absurd h (List.not_mem_nil x)
    · exact h
  | cons y ys ih =>
    intro acc h
    rw [List.foldl_cons]
    apply ih
    rcases h with h | h
    · rcases List.mem_cons.mp h with h1 | h1
      · right; rw [h1]; exact setInsert_self y acc
      · left; exact h1
    · right; exact setInsert_of_mem y x acc h

/-- The other end of an edge of `v` is a neighbour of `v`. -/
theorem neighborsOf_of_edge (K : DynamicGraph) (v : Nat) (e : CoreEdge) (he : e ∈ K.edges) :
    (e.fromVertex = v → e.toVertex ≠ v → e.toVertex ∈ neighborsOf K v) ∧
    (e.toVertex = v → e.fromVertex ≠ v → e.fromVertex ∈ neighborsOf K v) := by
  unfold neighborsOf
  simp only []
  constructor
  · intro h1 h2
    apply foldl_setInsert_mem
    left
    apply List.mem_append_left
    rw [List.mem_map]
    refine ⟨e, ?_, rfl⟩
    rw [List.mem_filter]
    exact ⟨(mem_edgesFrom K v e).mpr ⟨he, h1⟩, by simpa using fun h => h2 h.symm⟩
  · intro h1 h2
    apply foldl_setInsert_mem
    left
    apply List.mem_append_right
    rw [List.mem_map]
    refine ⟨e, ?_, rfl⟩
    rw [List.mem_filter]
    exact ⟨(mem_edgesTo K v e).mpr ⟨he, h1⟩, by simpa using fun h => h2 h.symm⟩

/-- A vertex without an edge has none after the loop over the candidate shortcuts of
`v`, whose ends are ends of edges. -/
theorem testShortcuts_isolated (cfg : WitnessConfig) (v : Nat) (L : List Shortcut)
    (K K' : DynamicGraph) (ws ws' : WitnessSearch)
    (hL : ∀ s ∈ L, s ∈ shortcutsOf K v)
    (h : testShortcuts cfg v L K ws = some (K', ws')) :
    (∀ x, K.Isolated x → K'.Isolated x) ∧
    (∀ n : Nat, (∀ e ∈ K.edges, e.fromVertex < n ∧ e.toVertex < n) →
      ∀ e ∈ K'.edges, e.fromVertex < n ∧ e.toVertex < n) := by
  obtain ⟨_, _, horigin⟩ := testShortcuts_edges cfg v L K K' ws ws' h
  constructor
  · intro x hx e he
    rcases horigin e he with h1 | ⟨s, hs, a, b⟩
    · exact hx e h1
    · obtain ⟨first, h0, second, h3, _, h4⟩ := (mem_shortcutsOf K v s).mp (hL s hs)
      rw [mem_edgesTo] at h0
      rw [mem_edgesFrom] at h3
      subst h4
      simp only [] at a b
      rw [a, b]
      exact ⟨(hx first h0.1).1, (hx second h3.1).2⟩
  · intro n hn e he
    rcases horigin e he with h1 | ⟨s, hs, a, b⟩
    · exact hn e h1
    · obtain ⟨first, h0, second, h3, _, h4⟩ := (mem_shortcutsOf K v s).mp (hL s hs)
      rw [mem_edgesTo] at h0
      rw [mem_edgesFrom] at h3
      subst h4
      simp only [] at a b
      rw [a, b]
      exact ⟨(hn first h0.1).1, (hn second h3.1).2⟩

/-- A contraction keeps what contraction leaves behind. -/
theorem contract_contracted (cfg : BuilderConfig) (hsort : ∀ l, (cfg.sortShortcuts l).Perm l)
    (kf : KeyFunction σ) (b b' : Builder σ) (v : Nat) (hb : Contracted b)
    (h : contract cfg kf b v = some b') : Contracted b' := by
  obtain ⟨Km, ws, hrun, _, c2, c3, c4, c5, c6, _, _⟩ := contract_some cfg kf b b' v h
  obtain ⟨hiso, hrange⟩ := testShortcuts_isolated cfg.witness v _ _ Km _ ws
    (fun s hs => (hsort _).mem_iff.mp hs) hrun
  have hlen : b'.data.level.length = b.data.level.length := by
    rw [c6, length_foldl_updateAt]
  have hlevel : ∀ x, b'.data.level.getD x 0 =
      if x ∈ neighborsOf Km v ∧ x < b.data.level.length then
        max (b.data.level.getD x 0) ((b.data.level.getD v 0 + 1) % 65536)
      else b.data.level.getD x 0 := by
    intro x
    rw [c6, getD_foldl_max]
  have hkeep : ∀ x, Km.Isolated x ∨ x = v → b'.data.level.getD x 0 = b.data.level.getD x 0 := by
    intro x hx
    rw [hlevel, if_neg]
    rintro ⟨hmem, _⟩
    obtain ⟨hne, e, he, hcase⟩ := mem_neighborsOf Km v x hmem
    rcases hx with hx | hx
    · rcases hcase with hc | hc
      · exact (hx e he).1 hc
      · exact (hx e he).2 hc
    · exact hne hx
  have hmono : ∀ x, b.data.level.getD x 0 ≤ b'.data.level.getD x 0 := by
    intro x
    rw [hlevel]
    split
    · exact le_max_left _ _
    · exact le_refl _
  have hKm := hrange b.data.level.length hb.range
  refine ⟨?_, ?_, ?_, ?_⟩
  · intro x hx
    rw [c5] at hx
    rw [c2]
    rcases List.mem_append.mp hx with h1 | h1
    · exact Isolated.isolateVertex_isolated (hiso x (hb.isolated x h1)) v
    · rw [List.mem_singleton] at h1
      rw [h1]
      exact isolated_isolateVertex Km v
  · intro e he
    rw [c2, mem_isolateVertex] at he
    rw [hlen]
    exact hKm e he.1
  · intro x
    rw [hlevel]
    split
    · have := hb.levels x
      have : (b.data.level.getD v 0 + 1) % 65536 < 65536 := Nat.mod_lt _ (by omega)
      have := max_le (hb.levels x) (show (b.data.level.getD v 0 + 1) % 65536 ≤ 65535 by omega)
      exact this
    · exact hb.levels x
  · -- an edge that the contraction of `v` adds to an overlay
    have hnew : ∀ e' ∈ Km.edges, ∀ n : Nat,
        (e'.fromVertex = v ∧ e'.toVertex = n) ∨ (e'.toVertex = v ∧ e'.fromVertex = n) →
        n ≠ v →
        (∃ l1 l2, b'.data.order = l1 ++ v :: l2 ∧ n ∉ l1 ∧ n ≠ v) ∧
        (b'.data.level.getD v 0 < b'.data.level.getD n 0 ∨ b'.data.level.getD v 0 = 65535) := by
      intro e' he' n hcase hne
      have hnb : n ∈ neighborsOf Km v := by
        rcases hcase with ⟨h1, h2⟩ | ⟨h1, h2⟩
        · rw [← h2]
          exact (neighborsOf_of_edge Km v e' he').1 h1 (by rw [h2]; exact hne)
        · rw [← h2]
          exact (neighborsOf_of_edge Km v e' he').2 h1 (by rw [h2]; exact hne)
      have hnlen : n < b.data.level.length := by
        rcases hcase with ⟨_, h2⟩ | ⟨_, h2⟩
        · rw [← h2]; exact (hKm e' he').2
        · rw [← h2]; exact (hKm e' he').1
      have hnot : n ∉ b.data.order := by
        intro hmem
        have hi := hiso n (hb.isolated n hmem)
        rcases hcase with ⟨_, h2⟩ | ⟨_, h2⟩
        · exact (hi e' he').2 h2
        · exact (hi e' he').1 h2
      refine ⟨⟨b.data.order, [], c5, hnot, hne⟩, ?_⟩
      rw [hkeep v (Or.inr rfl), hlevel n, if_pos ⟨hnb, hnlen⟩]
      have hv := hb.levels v
      by_cases hmax : b.data.level.getD v 0 = 65535
      · exact Or.inr hmax
      · left
        rw [Nat.mod_eq_of_lt (by omega)]
        exact lt_of_lt_of_le (Nat.lt_succ_self _) (le_max_right _ _)
    intro e he
    rw [c3, c4] at he
    have hold : e ∈ b.data.forwardCH.edges ++ b.data.backwardCH.edges →
        (∃ l1 l2, b'.data.order = l1 ++ e.fromVertex :: l2 ∧ e.toVertex ∉ l1 ∧
          e.toVertex ≠ e.fromVertex) ∧
        (b'.data.level.getD e.fromVertex 0 < b'.data.level.getD e.toVertex 0 ∨
          b'.data.level.getD e.fromVertex 0 = 65535) := by
      intro hmem
      obtain ⟨⟨l1, l2, e1, e2, e3⟩, hlv⟩ := hb.overlay e hmem
      have hfrom : e.fromVertex ∈ b.data.order := by
        rw [e1]; exact List.mem_append_right _ (List.mem_cons_self _ _)
      refine ⟨⟨l1, l2 ++ [v], by rw [c5, e1]; simp, e2, e3⟩, ?_⟩
      rw [hkeep _ (Or.inl (hiso _ (hb.isolated _ hfrom)))]
      rcases hlv with hlv | hlv
      · exact Or.inl (lt_of_lt_of_le hlv (hmono _))
      · exact Or.inr hlv
    rcases List.mem_append.mp he with h1 | h1
    · rcases List.mem_append.mp h1 with h2 | h2
      · exact hold (List.mem_append_left _ h2)
      · obtain ⟨e', he', q1, q2, q3⟩ := (mem_forwardEdges Km v e).mp h2
        rw [q3]
        exact hnew e' he' e'.toVertex (Or.inl ⟨q1, rfl⟩) q2
    · rcases List.mem_append.mp h1 with h2 | h2
      · exact hold (List.mem_append_right _ h2)
      · obtain ⟨e', he', q1, q2, q3⟩ := (mem_backwardEdges Km v e).mp h2
        rw [q3]
        exact hnew e' he' e'.fromVertex (Or.inr ⟨q1, rfl⟩) q2

end Builder
end CH

namespace CH
namespace Builder

variable {σ : Type}

theorem Contracted.of_data {b b' : Builder σ} (h : b'.data = b.data) (hb : Contracted b) :
    Contracted b' := by
  refine ⟨?_, ?_, ?_, ?_⟩
  · rw [h]; exact hb.isolated
  · rw [h]; exact hb.range
  · rw [h]; exact hb.levels
  · rw [h]; exact hb.overlay

theorem mem_foldl_heapUpdate (x : Nat) : ∀ (l Q : List Nat),
    x ∈ l.foldl heapUpdate Q ↔ x ∈ Q ∨ x ∈ l := by
  intro l
  induction l with
  | nil => intro Q; simp
  | cons y ys ih =>
    intro Q
    rw [List.foldl_cons, ih, heapUpdate_mem, List.mem_cons]
    constructor
    · rintro ((h | h) | h)
      · exact Or.inl h
      · exact Or.inr (Or.inl h)
      · exact Or.inr (Or.inr h)
    · rintro (h | h | h)
      · exact Or.inl (Or.inl h)
      · exact Or.inl (Or.inr h)
      · exact Or.inr h

theorem foldl_heapUpdate_nodup : ∀ (l Q : List Nat), Q.Nodup → (l.foldl heapUpdate Q).Nodup := by
  intro l
  induction l with
  | nil => intro Q h; exact h
  | cons y ys ih =>
    intro Q h
    rw [List.foldl_cons]
    exact ih _ (heapUpdate_nodup Q y h)

/-- One contraction keeps the queue and the order free of repetitions and apart, when the
contracted vertex comes from the queue. -/
theorem contract_queueInv (cfg : BuilderConfig) (hsort : ∀ l, (cfg.sortShortcuts l).Perm l)
    (kf : KeyFunction σ) (b b' : Builder σ) (v : Nat) (hb : Contracted b) (hq : QueueInv b)
    (hv : v ∈ b.Q) (h : contract cfg kf { b with Q := b.Q.erase v } v = some b') :
    QueueInv b' := by
  obtain ⟨Km, ws, hrun, _, _, _, _, c5, _, _, c8⟩ := contract_some cfg kf _ b' v h
  obtain ⟨hiso, _⟩ := testShortcuts_isolated cfg.witness v _ _ Km _ ws
    (fun s hs => (hsort _).mem_iff.mp hs) hrun
  have c5' : b'.data.order = b.data.order ++ [v] := c5
  have c8' : b'.Q = (neighborsOf Km v).foldl heapUpdate (b.Q.erase v) := c8
  refine ⟨?_, ?_, ?_⟩
  · rw [c8']
    exact foldl_heapUpdate_nodup _ _ (hq.queue.erase v)
  · rw [c5']
    rw [List.nodup_append]
    refine ⟨hq.order, List.nodup_singleton v, ?_⟩
    intro x hx hx2
    rw [List.mem_singleton] at hx2
    rw [hx2] at hx
    exact hq.disjoint v hv hx
  · intro x hx
    rw [c8', mem_foldl_heapUpdate] at hx
    rw [c5', List.mem_append, List.mem_singleton]
    rcases hx with hx | hx
    · have h1 := (hq.queue.mem_erase_iff).mp hx
      rintro (h2 | h2)
      · exact hq.disjoint x h1.2 h2
      · exact h1.1 h2
    · obtain ⟨hne, e, he, hcase⟩ := mem_neighborsOf Km v x hx
      rintro (h2 | h2)
      · have hi := hiso x (hb.isolated x h2)
        rcases hcase with hc | hc
        · exact (hi e he).1 hc
        · exact (hi e he).2 hc
      · exact hne h2

/-- The loop of `contractQVertices`: what contraction leaves behind is kept, the order
only grows at its end, the queue is empty at the end when the stop criterion never holds,
and the queue and the order stay free of repetitions and apart when `update` of the key
function calls `reKey` for no vertex of the order. -/
theorem contractQVertices_contracted (cfg : BuilderConfig)
    (hsort : ∀ l, (cfg.sortShortcuts l).Perm l) (kf : KeyFunction σ) :
    ∀ (fuel : Nat) (b r : Builder σ), Contracted b → contractQVertices cfg kf fuel b = some r →
      Contracted r ∧ b.data.order <+: r.data.order ∧
      ((∀ d Q, cfg.stopCriterion d Q = false) → r.Q = []) ∧
      ((∀ st d, ∀ v ∈ (kf.update st d).2, v ∉ d.order) → QueueInv b → QueueInv r) := by
  intro fuel
  induction fuel with
  | zero => intro b r _ h; exact Option.noConfusion h
  | succ fuel ih =>
    intro b r hb h
    unfold contractQVertices at h
    by_cases hemp : b.Q.isEmpty = true
    · rw [if_pos hemp] at h
      have e : b = r := Option.some.inj h
      rw [← e]
      exact ⟨hb, List.prefix_refl _, fun _ => List.isEmpty_iff.mp hemp, fun _ hq => hq⟩
    · rw [if_neg hemp] at h
      simp only [] at h
      cases hre : reKeyAll kf (kf.update b.keyState b.data).2
          { b with keyState := (kf.update b.keyState b.data).1 } with
      | none => rw [hre] at h; exact Option.noConfusion h
      | some b2 =>
        rw [hre] at h
        simp only [] at h
        obtain ⟨d2, _, q2⟩ := reKeyAll_some kf _ _ b2 hre
        have d2' : b2.data = b.data := d2
        have q2' : b2.Q = (kf.update b.keyState b.data).2.foldl heapUpdate b.Q := q2
        have hb2 : Contracted b2 := Contracted.of_data d2' hb
        have hq2 : (∀ st d, ∀ v ∈ (kf.update st d).2, v ∉ d.order) → QueueInv b →
            QueueInv b2 := by
          intro hupd hq
          refine ⟨?_, ?_, ?_⟩
          · rw [q2']; exact foldl_heapUpdate_nodup _ _ hq.queue
          · rw [d2']; exact hq.order
          · intro x hx
            rw [q2', mem_foldl_heapUpdate] at hx
            rw [d2']
            rcases hx with hx | hx
            · exact hq.disjoint x hx
            · exact hupd _ _ x hx
        by_cases hstop : cfg.stopCriterion b2.data b2.Q = true
        · rw [if_pos hstop] at h
          have e : b2 = r := Option.some.inj h
          rw [← e]
          refine ⟨hb2, by rw [d2'], ?_, hq2⟩
          intro hno
          rw [hno] at hstop
          exact Bool.noConfusion hstop
        · rw [if_neg hstop] at h
          cases hfront : queueFront cfg.BreakKeyTiesById (fun v => b2.label.getD v 0) b2.Q with
          | none =>
            rw [hfront] at h
            have e : b2 = r := Option.some.inj h
            rw [← e]
            exact ⟨hb2, by rw [d2'], fun _ => queueFront_eq_none _ _ _ hfront, hq2⟩
          | some v =>
            rw [hfront] at h
            simp only [] at h
            cases hc : contract cfg kf { b2 with Q := b2.Q.erase v } v with
            | none => rw [hc] at h; exact Option.noConfusion h
            | some b3 =>
              rw [hc] at h
              simp only [] at h
              have hb2e : Contracted ({ b2 with Q := b2.Q.erase v } : Builder σ) :=
                @Contracted.of_data σ b2 _ rfl hb2
              have hb3 : Contracted b3 := contract_contracted cfg hsort kf _ b3 v hb2e hc
              obtain ⟨_, _, _, _, _, _, _, c5, _⟩ := contract_some cfg kf _ b3 v hc
              have c5' : b3.data.order = b.data.order ++ [v] := by rw [c5]; show _ = _; rw [d2']
              obtain ⟨i1, i2, i3, i4⟩ := ih b3 r hb3 h
              refine ⟨i1, ?_, i3, ?_⟩
              · exact List.IsPrefix.trans (by rw [c5']; exact List.prefix_append _ _) i2
              · intro hupd hq
                exact i4 hupd (contract_queueInv cfg hsort kf b2 b3 v hb2 (hq2 hupd hq)
                  (queueFront_mem _ _ _ _ hfront) hc)

end Builder
end CH

namespace CH
namespace Builder

variable {σ : Type}

theorem nodup_foldl_heapUpdate_nil (l : List Nat) : (l.foldl heapUpdate []).Nodup :=
  foldl_heapUpdate_nodup l [] List.nodup_nil

/-- What `run()` returns is what contraction leaves behind. -/
theorem run_contracted (cfg : BuilderConfig) (hsort : ∀ l, (cfg.sortShortcuts l).Perm l)
    (kf : KeyFunction σ) (g : DynamicGraph)
    (hg : ∀ e ∈ g.edges, e.fromVertex < g.numVertices ∧ e.toVertex < g.numVertices) (st : σ)
    (fuel : Nat) (r : Builder σ) (h : run cfg kf fuel (new g st) = some r) :
    Contracted r ∧ ((∀ d Q, cfg.stopCriterion d Q = false) → r.Q = []) ∧
      ((∀ st d, ∀ v ∈ (kf.update st d).2, v ∉ d.order) → QueueInv r) := by
  unfold run at h
  simp only [] at h
  cases hb : buildQ kf (List.range (new g st).data.core.numVertices)
      ({ new g st with
          data := { (new g st).data with order := [] }
          label := List.replicate (new g st).data.numVertices 0
          witnessSearch := (new g st).witnessSearch.initializeSearch (new g st).data.core
          Q := [] } : Builder σ) with
  | none => rw [hb] at h; exact Option.noConfusion h
  | some b1 =>
    rw [hb] at h
    simp only [] at h
    obtain ⟨_, c2, c3, c4, c5, c6, _, c8⟩ := buildQ_some kf _ _ b1 hb
    have c2' : b1.data.core = g := c2
    have c3' : b1.data.forwardCH.edges = [] := by rw [c3]; rfl
    have c4' : b1.data.backwardCH.edges = [] := by rw [c4]; rfl
    have c5' : b1.data.order = [] := c5
    have c6' : b1.data.level = (List.range g.numVertices).foldl
        (fun lv n => lv.updateAt n (fun _ => 0)) (List.replicate g.numVertices 0) := c6
    have c8' : b1.Q = (List.range g.numVertices).foldl heapUpdate [] := c8
    have hlen : b1.data.level.length = g.numVertices := by
      rw [c6', length_foldl_updateAt, List.length_replicate]
    have hzero : ∀ x, b1.data.level.getD x 0 = 0 := by
      intro x
      rw [c6']
      apply getD_foldl_zero
      intro y
      rw [List.getD_eq_getElem?_getD, List.getElem?_replicate]
      split <;> rfl
    have hb1 : Contracted b1 := by
      refine ⟨?_, ?_, ?_, ?_⟩
      · intro v hv; rw [c5'] at hv; exact absurd hv (List.not_mem_nil v)
      · intro e he; rw [c2'] at he; rw [hlen]; exact hg e he
      · intro x; rw [hzero]; omega
      · intro e he
        rw [c3', c4'] at he
        exact absurd he (List.not_mem_nil e)
    have hq1 : QueueInv b1 := by
      refine ⟨?_, ?_, ?_⟩
      · rw [c8']; exact nodup_foldl_heapUpdate_nil _
      · rw [c5']; exact List.nodup_nil
      · intro v _; rw [c5']; exact List.not_mem_nil v
    obtain ⟨i1, _, i3, i4⟩ := contractQVertices_contracted cfg hsort kf fuel b1 r hb1 h
    exact ⟨i1, i3, fun hupd => i4 hupd hq1⟩

/-- What `resume()` returns is what contraction leaves behind, with the order it found as
the beginning of the new order. -/
theorem resume_contracted (cfg : BuilderConfig) (hsort : ∀ l, (cfg.sortShortcuts l).Perm l)
    (kf : KeyFunction σ) (fuel : Nat) (b r : Builder σ) (hb : Contracted b)
    (h : resume cfg kf fuel b = some r) :
    Contracted r ∧ b.data.order <+: r.data.order ∧
      ((∀ d Q, cfg.stopCriterion d Q = false) → r.Q = []) ∧
      ((∀ st d, ∀ v ∈ (kf.update st d).2, v ∉ d.order) → b.data.order.Nodup → QueueInv r) := by
  unfold resume at h
  simp only [] at h
  cases hq : buildQResume kf b.data.order (List.range b.data.core.numVertices)
      ({ b with witnessSearch := b.witnessSearch.initializeSearch b.data.core, Q := [] } :
        Builder σ) with
  | none => rw [hq] at h; exact Option.noConfusion h
  | some b1 =>
    rw [hq] at h
    simp only [] at h
    obtain ⟨c1, _, c3⟩ := buildQResume_some kf _ _ _ b1 hq
    have c1' : b1.data = b.data := c1
    have c3' : b1.Q = ((List.range b.data.core.numVertices).filter
        (fun v => decide (v ∉ b.data.order))).foldl heapUpdate [] := c3
    have hb1 : Contracted b1 := Contracted.of_data c1' hb
    obtain ⟨i1, i2, i3, i4⟩ := contractQVertices_contracted cfg hsort kf fuel b1 r hb1 h
    refine ⟨i1, by rw [← c1']; exact i2, i3, ?_⟩
    intro hupd hnd
    apply i4 hupd
    refine ⟨?_, ?_, ?_⟩
    · rw [c3']; exact nodup_foldl_heapUpdate_nil _
    · rw [c1']; exact hnd
    · intro v hv
      rw [c3', mem_foldl_heapUpdate] at hv
      rw [c1']
      rcases hv with hv | hv
      · exact absurd hv (List.not_mem_nil v)
      · have := (List.mem_filter.mp hv).2
        simpa using this

/-- A sequence of calls of `resume()` keeps what contraction leaves behind, and the order
free of repetitions and apart from the queue. -/
theorem resumeAll_contracted :
    ∀ (phases : List (BuilderConfig × KeyFunction σ × Nat)) (b r : Builder σ),
      (∀ p ∈ phases, (∀ l, (p.1.sortShortcuts l).Perm l) ∧
        ∀ st d, ∀ v ∈ (p.2.1.update st d).2, v ∉ d.order) →
      Contracted b → QueueInv b → resumeAll phases b = some r →
      Contracted r ∧ QueueInv r ∧ b.data.order <+: r.data.order := by
  intro phases
  induction phases with
  | nil =>
    intro b r _ hb hq h
    have e : b = r := Option.some.inj h
    rw [← e]
    exact ⟨hb, hq, List.prefix_refl _⟩
  | cons p rest ih =>
    intro b r hp hb hq h
    unfold resumeAll at h
    cases h1 : resume p.1 p.2.1 p.2.2 b with
    | none => rw [h1] at h; exact Option.noConfusion h
    | some b1 =>
      rw [h1] at h
      simp only [] at h
      obtain ⟨p1, p2⟩ := hp p (List.mem_cons_self _ _)
      obtain ⟨i1, i2, _, i4⟩ := resume_contracted p.1 p1 p.2.1 p.2.2 b b1 hb h1
      obtain ⟨j1, j2, j3⟩ := ih b1 r (fun q hq' => hp q (List.mem_cons_of_mem _ hq')) i1
        (i4 p2 hq.order) h
      exact ⟨j1, j2, List.IsPrefix.trans i2 j3⟩

/-- The loop of `copyCoreToCH` changes neither the order nor the levels. -/
theorem copyCore_order (cfg : BuilderConfig) : ∀ (fuel : Nat) (b : Builder σ),
    (copyCore cfg fuel b).data.order = b.data.order ∧
      (copyCore cfg fuel b).data.level = b.data.level := by
  intro fuel
  induction fuel with
  | zero => intro b; exact ⟨rfl, rfl⟩
  | succ fuel ih =>
    intro b
    unfold copyCore
    cases hfront : queueFront cfg.BreakKeyTiesById (fun v => b.label.getD v 0) b.Q with
    | none => exact ⟨rfl, rfl⟩
    | some v =>
      simp only []
      obtain ⟨a1, a2⟩ := ih ({ b with
        data := { b.data with
          forwardCH := ⟨b.data.forwardCH.numVertices,
            b.data.forwardCH.edges ++
              (b.data.core.edgesFrom v).map (fun e => ⟨v, e.toVertex, e.viaVertex, e.weight⟩)⟩
          backwardCH := ⟨b.data.backwardCH.numVertices,
            b.data.backwardCH.edges ++
              (b.data.core.edgesFrom v).map (fun e => ⟨e.toVertex, v, e.viaVertex, e.weight⟩)⟩ },
        Q := b.Q.erase v } : Builder σ)
      exact ⟨a1, a2⟩

end Builder
end CH

namespace CH
namespace Builder

variable {σ : Type}

/-- Claim C25, counterexample: on the graph of the edge from 0 to 1 and the complete graph
on 2, 3, 4, 5, the builder with the witness search and the default `GreedyKey` contracts
the vertices in the order 0, 1, 2, 3, 4, 5 with the levels 0, 1, 0, 1, 2, 3: vertex 1 of
level 1 precedes vertex 2 of level 0. -/
theorem run_levels_not_monotone :
    (run witnessBuilder (defaultGreedyKey unlimitedWitnessSearch) 7
        (new edgeAndClique ())).map (fun r => (r.data.order, r.data.level)) =
      some ([0, 1, 2, 3, 4, 5], [0, 1, 0, 1, 2, 3]) ∧
    (1 : Nat) = [0, 1, 2, 3, 4, 5].getD 1 0 ∧ (2 : Nat) = [0, 1, 2, 3, 4, 5].getD 2 0 ∧
    ¬ [0, 1, 0, 1, 2, 3].getD 1 0 ≤ [0, 1, 0, 1, 2, 3].getD 2 0 := by
  refine ⟨by decide, rfl, rfl, by decide⟩

/-- Claim C25, amended: for every input graph that is well formed, every lawful key
function, every stop criterion and every reordering of the candidate shortcuts, `run()`
returns within one iteration per vertex when `update` of the key function puts no vertex
back on the queue; and in whatever `run()` returns, every edge of the forward and of the
backward overlay leads from a vertex `u` of the contraction order to another vertex `v`
that does not precede `u` in the order, and `level[u] < level[v]` unless `level[u]` is
65535.  The levels are not monotone along the order between vertices that no such edge
joins. -/
theorem run_levels_along_edges (cfg : BuilderConfig) (kf : KeyFunction σ)
    (hkey : kf.Lawful cfg.witness) (hsort : ∀ l, (cfg.sortShortcuts l).Perm l)
    (g : DynamicGraph) (hg : g.WellFormed) (st : σ) :
    ((∀ s d, (kf.update s d).2 = []) →
      ∃ r, run cfg kf (g.numVertices + 1) (new g st) = some r) ∧
    ∀ fuel r, run cfg kf fuel (new g st) = some r →
      ∀ e ∈ r.data.forwardCH.edges ++ r.data.backwardCH.edges,
        (∃ l1 l2, r.data.order = l1 ++ e.fromVertex :: l2 ∧ e.toVertex ∉ l1 ∧
          e.toVertex ≠ e.fromVertex) ∧
        (r.data.level.getD e.fromVertex 0 < r.data.level.getD e.toVertex 0 ∨
          r.data.level.getD e.fromVertex 0 = 65535) := by
  refine ⟨(run_inv hkey hsort g hg st).1, ?_⟩
  intro fuel r hr
  exact (run_contracted cfg hsort kf g hg.range st fuel r hr).1.overlay

/-- Claim C25, amended, at the graph of the counterexample: `run()` returns, and the
edges of its overlays lead upwards in the levels. -/
theorem run_levels_along_edges_witness :
    ∃ r, run witnessBuilder (defaultGreedyKey unlimitedWitnessSearch) 7
        (new edgeAndClique ()) = some r ∧
      ∀ e ∈ r.data.forwardCH.edges ++ r.data.backwardCH.edges,
        (∃ l1 l2, r.data.order = l1 ++ e.fromVertex :: l2 ∧ e.toVertex ∉ l1 ∧
          e.toVertex ≠ e.fromVertex) ∧
        (r.data.level.getD e.fromVertex 0 < r.data.level.getD e.toVertex 0 ∨
          r.data.level.getD e.fromVertex 0 = 65535) := by
  have h := run_levels_along_edges witnessBuilder (defaultGreedyKey unlimitedWitnessSearch)
    (greedyKey_lawful unlimitedWitnessSearch 1024 1024 0) (fun l => List.Perm.refl l)
    edgeAndClique ⟨by decide, by decide, by decide⟩ ()
  obtain ⟨r, hr⟩ := h.1 (fun _ _ => rfl)
  exact ⟨r, hr, h.2 7 r hr⟩

/-- Claim C26, counterexample: on the chain of the vertices 0 to 4, the builder of a core
CH contracts the vertices 0 and 4 and stops with the core of the vertices 1, 2, 3, whose
levels are 1, 0, 1; `copyCoreToCH()` then puts the edge from 1 to 2 into the forward
overlay, and `level[1] = 1` is not below `level[2] = 0`. -/
theorem build_core_edge_downwards :
    (build coreBuilder (defaultGreedyKey unlimitedWitnessSearch) 6 unitChain ()).map
        (fun d => (d.order, d.level,
          d.forwardCH.edges.map (fun e => (e.fromVertex, e.toVertex)))) =
      some ([0, 4], [0, 1, 0, 1, 0], [(0, 1), (4, 3), (1, 2), (3, 2), (2, 1), (2, 3)]) ∧
    ((1 : Nat), (2 : Nat)) ∈ [(0, 1), (4, 3), (1, 2), (3, 2), (2, 1), (2, 3)] ∧
    ¬ [0, 1, 0, 1, 0].getD 1 0 < [0, 1, 0, 1, 0].getD 2 0 := by
  refine ⟨by decide, by decide, by decide⟩

/-- Claim C26, amended: for every input graph that is well formed, every lawful key
function, every stop criterion and every reordering of the candidate shortcuts, `run()`
followed by `copyCoreToCH()` returns within one iteration per vertex when `update` of the
key function puts no vertex back on the queue; and in whatever CH data it returns, every
edge `(v, w)` of the forward and of the backward overlay whose tail `v` was contracted
(is in the contraction order) satisfies `level[v] < level[w]` unless `level[v]` is 65535;
and when the stop criterion never holds, the tail of every edge of the overlays was
contracted.  The edges that `copyCoreToCH()` adds for a core that is left have tails that
were not contracted. -/
theorem build_levels_along_edges (cfg : BuilderConfig) (kf : KeyFunction σ)
    (hkey : kf.Lawful cfg.witness) (hsort : ∀ l, (cfg.sortShortcuts l).Perm l)
    (g : DynamicGraph) (hg : g.WellFormed) (st : σ) :
    ((∀ s d, (kf.update s d).2 = []) →
      ∃ d, build cfg kf (g.numVertices + 1) g st = some d) ∧
    ∀ fuel d, build cfg kf fuel g st = some d →
      ∀ e ∈ d.forwardCH.edges ++ d.backwardCH.edges,
        (e.fromVertex ∈ d.order →
          d.level.getD e.fromVertex 0 < d.level.getD e.toVertex 0 ∨
            d.level.getD e.fromVertex 0 = 65535) ∧
        ((∀ x Q, cfg.stopCriterion x Q = false) → e.fromVertex ∈ d.order) := by
  constructor
  · intro hupd
    obtain ⟨r, hr⟩ := (run_inv hkey hsort g hg st).1 hupd
    exact ⟨_, by unfold build; rw [hr]; rfl⟩
  · intro fuel d hd e he
    unfold build at hd
    cases hr : run cfg kf fuel (new g st) with
    | none => rw [hr] at hd; exact Option.noConfusion hd
    | some r =>
      rw [hr] at hd
      have hdr : (copyCoreToCH cfg r).data = d := Option.some.inj hd
      obtain ⟨hc, hstop, _⟩ := run_contracted cfg hsort kf g hg.range st fuel r hr
      obtain ⟨_, c2, c3, _, _, _⟩ := copyCore_spec cfg r.Q.length r
      obtain ⟨o1, o2⟩ := copyCore_order cfg r.Q.length r
      have ho : d.order = r.data.order := by rw [← hdr]; exact o1
      have hl : d.level = r.data.level := by rw [← hdr]; exact o2
      have hiso : ∀ e' ∈ r.data.core.edges,
          e'.fromVertex ∉ r.data.order ∧ e'.toVertex ∉ r.data.order := fun e' he' =>
        ⟨fun hm => (hc.isolated _ hm e' he').1 rfl, fun hm => (hc.isolated _ hm e' he').2 rfl⟩
      have hup : ∀ e' ∈ r.data.forwardCH.edges ++ r.data.backwardCH.edges,
          d.level.getD e'.fromVertex 0 < d.level.getD e'.toVertex 0 ∨
            d.level.getD e'.fromVertex 0 = 65535 := by
        intro e' he'
        rw [hl]
        exact (hc.overlay e' he').2
      constructor
      · intro hfrom
        rw [ho] at hfrom
        rw [← hdr] at he
        rcases List.mem_append.mp he with h1 | h1
        · rcases c2 e h1 with h2 | h2
          · exact hup e (List.mem_append_left _ h2)
          · exact absurd hfrom (hiso e h2).1
        · rcases c3 e h1 with h2 | ⟨e', he', h2⟩
          · exact hup e (List.mem_append_right _ h2)
          · rw [h2] at hfrom
            exact absurd hfrom (hiso e' he').2
      · intro hnever
        have hQ : r.Q = [] := hstop hnever
        have h0 : copyCoreToCH cfg r = r := by
          unfold copyCoreToCH
          rw [hQ]
          rfl
        rw [h0] at hdr
        rw [← hdr] at he
        rw [← hdr]
        obtain ⟨⟨l1, l2, hsplit, _, _⟩, _⟩ := hc.overlay e he
        rw [hsplit]
        exact List.mem_append_right _ (List.mem_cons_self _ _)

/-- Claim C26, amended, at the chain of the counterexample: the builder of a core CH
returns, and the edges of its overlays whose tail was contracted lead upwards in the
levels. -/
theorem build_levels_along_edges_witness :
    ∃ d, build coreBuilder (defaultGreedyKey unlimitedWitnessSearch) 6 unitChain () =
        some d ∧
      ∀ e ∈ d.forwardCH.edges ++ d.backwardCH.edges,
        (e.fromVertex ∈ d.order →
          d.level.getD e.fromVertex 0 < d.level.getD e.toVertex 0 ∨
            d.level.getD e.fromVertex 0 = 65535) ∧
        ((∀ x Q, coreBuilder.stopCriterion x Q = false) → e.fromVertex ∈ d.order) := by
  have h := build_levels_along_edges coreBuilder (defaultGreedyKey unlimitedWitnessSearch)
    (greedyKey_lawful unlimitedWitnessSearch 1024 1024 0) (fun l => List.Perm.refl l)
    unitChain ⟨by decide, by decide, by decide⟩ ()
  obtain ⟨d, hd⟩ := h.1 (fun _ _ => rfl)
  exact ⟨d, hd, h.2 6 d hd⟩

end Builder
end CH

namespace CH
namespace Builder

variable {σ : Type}

/-- Claim C21, counterexample: three vertices without edges, `PartialKey` with only the
vertex 0 contractable and `minOrderIndex = 2` over a `PermutationKey`, ties of the keys
broken by the vertex id.  The vertex 1 is contracted second with the key `intMax`; then
the order has two vertices, `update` calls `reKey` for the vertices 2 and 1, which puts the
contracted vertex 1 back on the queue, and it is contracted again: the order is
0, 1, 1, 2. -/
theorem run_contracts_twice :
    (run tieBuilder (partialKey (permutationKey [0, 1, 2])) 10
        (new ⟨3, []⟩ ⟨[true, false, false], 2, ()⟩)).map (fun r => r.data.order) =
      some [0, 1, 1, 2] ∧ ¬ [0, 1, 1, 2].Nodup := by
  refine ⟨by decide, by decide⟩

/-- Claim C21, amended: for key functions whose `update` calls `reKey` for no vertex of the
contraction order (as `GreedyKey`, `PermutationKey` and `OrderKey`, whose `update` calls it
for none).  For every input graph that is well formed, every lawful key function, every
stop criterion and every reordering of the candidate shortcuts, `run()` returns within one
iteration per vertex when `update` puts no vertex back on the queue; and after `run()` and
any number of calls of `resume()` that return, each with its own stop criterion and key
function, the order holds no vertex twice, and every vertex of the order has no edge in
the core graph and is not on the queue; and the order before a further call of `resume()`
is a prefix of the order after it. -/
theorem order_without_repetition (cfg : BuilderConfig) (kf : KeyFunction σ)
    (hkey : kf.Lawful cfg.witness) (hsort : ∀ l, (cfg.sortShortcuts l).Perm l)
    (hupd : ∀ s d, ∀ v ∈ (kf.update s d).2, v ∉ d.order)
    (g : DynamicGraph) (hg : g.WellFormed) (st : σ) :
    ((∀ s d, (kf.update s d).2 = []) →
      ∃ r, run cfg kf (g.numVertices + 1) (new g st) = some r) ∧
    ∀ fuel r, run cfg kf fuel (new g st) = some r →
      ∀ (phases : List (BuilderConfig × KeyFunction σ × Nat)) (before : Builder σ),
        (∀ p ∈ phases, (∀ l, (p.1.sortShortcuts l).Perm l) ∧
          ∀ s d, ∀ v ∈ (p.2.1.update s d).2, v ∉ d.order) →
        resumeAll phases r = some before →
        before.data.order.Nodup ∧
        (∀ v ∈ before.data.order, v ∉ before.Q ∧ before.data.core.Isolated v) ∧
        ∀ (next : BuilderConfig) (key : KeyFunction σ) (fuel2 : Nat) (after : Builder σ),
          (∀ l, (next.sortShortcuts l).Perm l) →
          resume next key fuel2 before = some after →
          before.data.order <+: after.data.order := by
  refine ⟨(run_inv hkey hsort g hg st).1, ?_⟩
  intro fuel r hr phases before hphases hbefore
  obtain ⟨hc, _, hq⟩ := run_contracted cfg hsort kf g hg.range st fuel r hr
  obtain ⟨hc2, hq2, _⟩ := resumeAll_contracted phases r before hphases hc (hq hupd) hbefore
  refine ⟨hq2.order, ?_, ?_⟩
  · intro v hv
    exact ⟨fun hQ => hq2.disjoint v hQ hv, hc2.isolated v hv⟩
  · intro next key fuel2 after hs2 hafter
    exact (resume_contracted next hs2 key fuel2 before after hc2 hafter).2.1

/-- Claim C21, amended, at the chain of the vertices 0 to 4: the builder of a core CH
contracts the vertices 0 and 4; `resume()` without stop criterion then contracts the
vertices 1, 3 and 2, and the order 0, 4 is a prefix of the order after it, which holds no
vertex twice. -/
theorem order_without_repetition_witness :
    ∃ r after, run coreBuilder (defaultGreedyKey unlimitedWitnessSearch) 6
        (new unitChain ()) = some r ∧
      resume witnessBuilder (defaultGreedyKey unlimitedWitnessSearch) 4 r = some after ∧
      r.data.order = [0, 4] ∧ after.data.order = [0, 4, 1, 3, 2] ∧
      r.data.order.Nodup ∧ after.data.order.Nodup ∧ r.data.order <+: after.data.order := by
  have h := order_without_repetition coreBuilder (defaultGreedyKey unlimitedWitnessSearch)
    (greedyKey_lawful unlimitedWitnessSearch 1024 1024 0) (fun l => List.Perm.refl l)
    (fun _ _ v hv => absurd hv (List.not_mem_nil v))
    unitChain ⟨by decide, by decide, by decide⟩ ()
  have h1 : (run coreBuilder (defaultGreedyKey unlimitedWitnessSearch) 6
      (new unitChain ())).map (fun r => r.data.order) = some [0, 4] := by decide
  have h2 : ((run coreBuilder (defaultGreedyKey unlimitedWitnessSearch) 6
      (new unitChain ())).bind
        (resume witnessBuilder (defaultGreedyKey unlimitedWitnessSearch) 4)).map
      (fun r => r.data.order) = some [0, 4, 1, 3, 2] := by decide
  cases hr : run coreBuilder (defaultGreedyKey unlimitedWitnessSearch) 6 (new unitChain ()) with
  | none => rw [hr] at h1; exact Option.noConfusion h1
  | some r =>
    rw [hr] at h1 h2
    have h1' : r.data.order = [0, 4] := Option.some.inj h1
    have h2' : (resume witnessBuilder (defaultGreedyKey unlimitedWitnessSearch) 4 r).map
        (fun r => r.data.order) = some [0, 4, 1, 3, 2] := h2
    cases ha : resume witnessBuilder (defaultGreedyKey unlimitedWitnessSearch) 4 r with
    | none => rw [ha] at h2'; exact Option.noConfusion h2'
    | some after =>
      rw [ha] at h2'
      have h2'' : after.data.order = [0, 4, 1, 3, 2] := Option.some.inj h2'
      have hp : ∀ p ∈ [(witnessBuilder, defaultGreedyKey unlimitedWitnessSearch, 4)],
          (∀ l, (p.1.sortShortcuts l).Perm l) ∧
            ∀ s d, ∀ v ∈ (p.2.1.update s d).2, v ∉ d.order := by
        intro p hp
        rw [List.mem_singleton] at hp
        subst hp
        exact ⟨fun l => List.Perm.refl l, fun _ _ v hv => absurd hv (List.not_mem_nil v)⟩
      have e0 := h.2 6 r hr [] r (fun p hp => absurd hp (List.not_mem_nil p)) rfl
      have e1 := h.2 6 r hr [(witnessBuilder, defaultGreedyKey unlimitedWitnessSearch, 4)] after
        hp (by unfold resumeAll; rw [ha]; rfl)
      exact ⟨r, after, rfl, ha, h1', h2'', e0.1, e1.1,
        e0.2.2 witnessBuilder (defaultGreedyKey unlimitedWitnessSearch) 4 after
          (fun l => List.Perm.refl l) ha⟩

end Builder
end CH

namespace CH
namespace Builder

variable {σ : Type}

/-- The neighbours of `v`: the other ends of the edges from and to `v`. -/
theorem mem_neighborsOf_iff (K : DynamicGraph) (v x : Nat) :
    x ∈ neighborsOf K v ↔ x ≠ v ∧ ∃ e ∈ K.edges,
      (e.fromVertex = v ∧ e.toVertex = x) ∨ (e.fromVertex = x ∧ e.toVertex = v) := by
  constructor
  · intro h
    unfold neighborsOf at h
    simp only [] at h
    have key : ∀ (l acc : List Nat), x ∈ l.foldl (fun acc x => setInsert x acc) acc →
        x ∈ l ∨ x ∈ acc := by
      intro l
      induction l with
      | nil => intro acc h; exact Or.inr h
      | cons y ys ih =>
        intro acc h
        rw [List.foldl_cons] at h
        rcases ih _ h with h1 | h1
        · exact Or.inl (List.mem_cons_of_mem _ h1)
        · rcases mem_setInsert y x acc h1 with h2 | h2
          · exact Or.inl (by rw [h2]; exact List.mem_cons_self _ _)
          · exact Or.inr h2
    rcases key _ _ h with h1 | h1
    · rcases List.mem_append.mp h1 with h2 | h2
      · obtain ⟨e, he, hx⟩ := List.mem_map.mp h2
        obtain ⟨he1, he2⟩ := List.mem_filter.mp he
        have hne : v ≠ e.toVertex := by simpa using he2
        rw [mem_edgesFrom] at he1
        exact ⟨by rw [← hx]; exact fun h => hne h.symm, e, he1.1, Or.inl ⟨he1.2, hx⟩⟩
      · obtain ⟨e, he, hx⟩ := List.mem_map.mp h2
        obtain ⟨he1, he2⟩ := List.mem_filter.mp he
        have hne : v ≠ e.fromVertex := by simpa using he2
        rw [mem_edgesTo] at he1
        exact ⟨by rw [← hx]; exact fun h => hne h.symm, e, he1.1, Or.inr ⟨hx, he1.2⟩⟩
    · exact absurd h1 (List.not_mem_nil x)
  · rintro ⟨hne, e, he, ⟨h1, h2⟩ | ⟨h1, h2⟩⟩
    · rw [← h2]
      exact (neighborsOf_of_edge K v e he).1 h1 (by rw [h2]; exact hne)
    · rw [← h1]
      exact (neighborsOf_of_edge K v e he).2 h2 (by rw [h1]; exact hne)

/-- The loop over the candidate shortcuts of `v` gives `v` no new neighbour and takes none
away. -/
theorem testShortcuts_neighbors (cfg : WitnessConfig) (v : Nat) (L : List Shortcut)
    (K K' : DynamicGraph) (ws ws' : WitnessSearch)
    (hL : ∀ s ∈ L, s ∈ shortcutsOf K v)
    (h : testShortcuts cfg v L K ws = some (K', ws')) (x : Nat) :
    x ∈ neighborsOf K' v ↔ x ∈ neighborsOf K v := by
  obtain ⟨_, hpers, horigin⟩ := testShortcuts_edges cfg v L K K' ws ws' h
  rw [mem_neighborsOf_iff, mem_neighborsOf_iff]
  constructor
  · rintro ⟨hne, e, he, hcase⟩
    refine ⟨hne, ?_⟩
    rcases horigin e he with h1 | ⟨s, hs, a, b⟩
    · exact ⟨e, h1, hcase⟩
    · obtain ⟨first, h0, second, h3, _, h4⟩ := (mem_shortcutsOf K v s).mp (hL s hs)
      rw [mem_edgesTo] at h0
      rw [mem_edgesFrom] at h3
      subst h4
      simp only [] at a b
      rcases hcase with ⟨c1, c2⟩ | ⟨c1, c2⟩
      · exact ⟨second, h3.1, Or.inl ⟨h3.2, by rw [← b]; exact c2⟩⟩
      · exact ⟨first, h0.1, Or.inr ⟨by rw [← a]; exact c1, h0.2⟩⟩
  · rintro ⟨hne, e, he, hcase⟩
    refine ⟨hne, ?_⟩
    obtain ⟨e', he', a, b, _⟩ := hpers e he
    refine ⟨e', he', ?_⟩
    rw [a, b]
    exact hcase

/-- Claim C28, counterexample: the contraction of the vertex 0 of level 65535 in the graph
of the single edge from 0 to 1 isolates the vertex 0 and leaves the level of its neighbour
1 at 0, because `level[0] + 1` is stored in a 16-bit variable as 0; it is not
`max(0, 65535 + 1)`. -/
theorem contract_level_wraps :
    (contract plainBuilder (permutationKey [0, 1])
        { topLevelBuilder with Q := topLevelBuilder.Q.erase 0 } 0).map
      (fun b => (b.data.level, b.data.core.edges)) = some ([65535, 0], []) ∧
    topLevelBuilder.data.level.getD 0 0 = 65535 ∧
    [65535, 0].getD 1 0 ≠
      max (topLevelBuilder.data.level.getD 1 0) (topLevelBuilder.data.level.getD 0 0 + 1) := by
  refine ⟨by decide, by decide, by decide⟩

/-- Claim C28, amended: the sum `level[v] + 1` is taken modulo 65536.  For a builder that
satisfies the invariant of the builder for a graph `g`, with a queue that covers the core
graph and a level for every vertex, `contract(v)` for the vertex `v` just taken from the
queue returns; afterwards `v` has no edge in the core graph, and every other vertex `n`
that had an edge from or to `v` in the core graph before has the level
`max(old level[n], (level[v] + 1) mod 65536)`, which is `max(old level[n], level[v] + 1)`
for `level[v] < 65535` and the old `level[n]` for `level[v] = 65535`. -/
theorem contract_levels {cfg : BuilderConfig} {kf : KeyFunction σ}
    (hkey : kf.Lawful cfg.witness) (hsort : ∀ l, (cfg.sortShortcuts l).Perm l)
    {g : DynamicGraph} {b : Builder σ} (h : Inv cfg g b) (hq : QueueCovers b)
    (hlevel : b.data.level.length = b.data.core.numVertices) (v : Nat) :
    ∃ b', contract cfg kf { b with Q := b.Q.erase v } v = some b' ∧
      b'.data.core.Isolated v ∧
      ∀ n, n ≠ v →
        (∃ e ∈ b.data.core.edges,
          (e.fromVertex = v ∧ e.toVertex = n) ∨ (e.fromVertex = n ∧ e.toVertex = v)) →
        b'.data.level.getD n 0 =
            max (b.data.level.getD n 0) ((b.data.level.getD v 0 + 1) % 65536) ∧
          (b.data.level.getD v 0 < 65535 → b'.data.level.getD n 0 =
            max (b.data.level.getD n 0) (b.data.level.getD v 0 + 1)) ∧
          (b.data.level.getD v 0 = 65535 → b'.data.level.getD n 0 = b.data.level.getD n 0) := by
  obtain ⟨b', hb', _, _, _⟩ := contract_inv hkey hsort h hq v
  refine ⟨b', hb', ?_⟩
  obtain ⟨Km, ws, hrun, _, c2, _, _, _, c6, _, _⟩ := contract_some cfg kf _ b' v hb'
  have hrun' : testShortcuts cfg.witness v (cfg.sortShortcuts (shortcutsOf b.data.core v))
      b.data.core b.witnessSearch = some (Km, ws) := hrun
  have c2' : b'.data.core = Km.isolateVertex v := c2
  have c6' : b'.data.level = (neighborsOf Km v).foldl
      (fun lv n => lv.updateAt n (fun x => max x ((b.data.level.getD v 0 + 1) % 65536)))
      b.data.level := c6
  constructor
  · intro e he
    rw [c2', mem_isolateVertex] at he
    exact ⟨he.2.1, he.2.2⟩
  · intro n hne hedge
    have hn : n ∈ neighborsOf Km v :=
      (testShortcuts_neighbors cfg.witness v _ _ Km _ ws
        (fun s hs => (hsort _).mem_iff.mp hs) hrun' n).mpr
        ((mem_neighborsOf_iff b.data.core v n).mpr ⟨hne, hedge⟩)
    have hlt : n < b.data.level.length := by
      obtain ⟨e, he, ⟨_, h2⟩ | ⟨h1, _⟩⟩ := hedge
      · rw [hlevel, ← h2]; exact (h.range e he).2
      · rw [hlevel, ← h1]; exact (h.range e he).1
    have hmain : b'.data.level.getD n 0 =
        max (b.data.level.getD n 0) ((b.data.level.getD v 0 + 1) % 65536) := by
      rw [c6', getD_foldl_max, if_pos ⟨hn, hlt⟩]
    refine ⟨hmain, ?_, ?_⟩
    · intro hv
      rw [hmain, Nat.mod_eq_of_lt (by omega)]
    · intro hv
      rw [hmain, hv]
      exact Nat.max_eq_left (Nat.zero_le _)

/-- Claim C28, amended, at the builder of the counterexample: the contraction of the
vertex 0 returns. -/
theorem contract_levels_witness :
    ∃ b', contract plainBuilder (permutationKey [0, 1])
        { topLevelBuilder with Q := topLevelBuilder.Q.erase 0 } 0 = some b' ∧
      b'.data.core.Isolated 0 ∧
      ∀ n, n ≠ 0 →
        (∃ e ∈ topLevelBuilder.data.core.edges,
          (e.fromVertex = 0 ∧ e.toVertex = n) ∨ (e.fromVertex = n ∧ e.toVertex = 0)) →
        b'.data.level.getD n 0 = max (topLevelBuilder.data.level.getD n 0)
            ((topLevelBuilder.data.level.getD 0 0 + 1) % 65536) ∧
          (topLevelBuilder.data.level.getD 0 0 < 65535 → b'.data.level.getD n 0 =
            max (topLevelBuilder.data.level.getD n 0)
              (topLevelBuilder.data.level.getD 0 0 + 1)) ∧
          (topLevelBuilder.data.level.getD 0 0 = 65535 →
            b'.data.level.getD n 0 = topLevelBuilder.data.level.getD n 0) :=
  contract_levels (permutationKey_lawful noWitnessSearch [0, 1]) (fun l => List.Perm.refl l)
    (new_inv plainBuilder arc ⟨by decide, by decide, by decide⟩ topLevelBuilder rfl rfl rfl rfl)
    (by intro e he; revert e; decide) rfl 0

end Builder
end CH

namespace CH

/-- The entries of `l` that the loop of `invert` does not write keep their value. -/
theorem getD_foldl_set_other (original : List Nat) (x : Nat) :
    ∀ (is : List Nat) (p : List Nat), (∀ i ∈ is, original.getD i 0 ≠ x) →
      (is.foldl (fun p i => p.set (original.getD i 0) i) p).getD x 0 = p.getD x 0 := by
  intro is
  induction is with
  | nil => intro p _; rfl
  | cons i rest ih =>
    intro p h
    rw [List.foldl_cons, ih _ (fun k hk => h k (List.mem_cons_of_mem _ hk))]
    exact TripBased.ShortcutSearch.getD_set_ne _ _ _ _ _ (h i (List.mem_cons_self _ _))

theorem length_foldl_set (original : List Nat) :
    ∀ (is : List Nat) (p : List Nat),
      (is.foldl (fun p i => p.set (original.getD i 0) i) p).length = p.length := by
  intro is
  induction is with
  | nil => intro p; rfl
  | cons i rest ih => intro p; rw [List.foldl_cons, ih, List.length_set]

/-- The loop of `invert` over indices at which `original` has different entries. -/
theorem getD_foldl_set_self (original : List Nat) :
    ∀ (is : List Nat) (p : List Nat), is.Nodup →
      (∀ i ∈ is, ∀ j ∈ is, original.getD i 0 = original.getD j 0 → i = j) →
      (∀ i ∈ is, original.getD i 0 < p.length) →
      ∀ j ∈ is, (is.foldl (fun p i => p.set (original.getD i 0) i) p).getD
        (original.getD j 0) 0 = j := by
  intro is
  induction is with
  | nil => intro p _ _ _ j hj; exact absurd hj (List.not_mem_nil j)
  | cons i rest ih =>
    intro p hnd hinj hlt j hj
    rw [List.foldl_cons]
    rcases List.mem_cons.mp hj with h | h
    · subst h
      rw [getD_foldl_set_other]
      · exact TripBased.ShortcutSearch.getD_set_self _ _ _ _ (hlt j (List.mem_cons_self _ _))
      · intro k hk he
        have := hinj k (List.mem_cons_of_mem _ hk) j (List.mem_cons_self _ _) he
        rw [this] at hk
        exact (List.nodup_cons.mp hnd).1 hk
    · apply ih _ (List.nodup_cons.mp hnd).2
        (fun a ha c hc => hinj a (List.mem_cons_of_mem _ ha) c (List.mem_cons_of_mem _ hc))
        _ j h
      intro k hk
      rw [List.length_set]
      exact hlt k (List.mem_cons_of_mem _ hk)

theorem length_invert (order : List Nat) : (invert order).length = order.length := by
  unfold invert
  rw [length_foldl_set, List.length_replicate]

/-- An order without repetition whose entries are below its length: the inverted order
has the index `i` at the entry `order[i]`. -/
theorem invert_getD (order : List Nat) (hnd : order.Nodup)
    (hlt : ∀ x ∈ order, x < order.length) (i : Nat) (hi : i < order.length) :
    (invert order).getD (order.getD i 0) 0 = i := by
  unfold invert
  apply getD_foldl_set_self order (List.range order.length) _ (List.nodup_range _)
  · intro a ha c hc he
    have ha' := List.mem_range.mp ha
    have hc' := List.mem_range.mp hc
    rw [List.getD_eq_getElem?_getD, List.getD_eq_getElem?_getD,
      List.getElem?_eq_getElem ha', List.getElem?_eq_getElem hc'] at he
    exact (List.Nodup.getElem_inj_iff hnd).mp he
  · intro a ha
    have ha' := List.mem_range.mp ha
    rw [List.length_replicate, List.getD_eq_getElem?_getD, List.getElem?_eq_getElem ha']
    exact hlt _ (List.getElem_mem _)
  · exact List.mem_range.mpr hi

/-- The front of the queue has a minimal key. -/
theorem queueFront_min (bt : Bool) (key : Nat → Int) :
    ∀ (Q : List Nat) (v : Nat), queueFront bt key Q = some v → ∀ y ∈ Q, key v ≤ key y := by
  intro Q
  induction Q with
  | nil => intro v h; exact Option.noConfusion h
  | cons x xs ih =>
    intro v h
    unfold queueFront at h
    cases hq : queueFront bt key xs with
    | none =>
      rw [hq] at h
      simp only [] at h
      have hx := Builder.queueFront_eq_none bt key xs hq
      intro y hy
      rw [hx, List.mem_singleton] at hy
      rw [← Option.some.inj h, hy]
    | some z =>
      rw [hq] at h
      simp only [] at h
      have hz := ih z hq
      split at h
      · rename_i hc
        rw [← Option.some.inj h]
        intro y hy
        rcases List.mem_cons.mp hy with e | e
        · rw [e]
          rcases hc with hc | ⟨_, hc, _⟩
          · exact le_of_lt hc
          · exact le_of_eq hc
        · exact hz y e
      · rename_i hc
        rw [← Option.some.inj h]
        intro y hy
        have hxz : key x ≤ key z := by
          by_contra hn
          exact hc (Or.inl (lt_of_not_le hn))
        rcases List.mem_cons.mp hy with e | e
        · rw [e]
        · exact le_trans hxz (hz y e)

/-- Putting vertices on the queue that are not yet there appends them. -/
theorem foldl_heapUpdate_append : ∀ (l acc : List Nat), (acc ++ l).Nodup →
    l.foldl heapUpdate acc = acc ++ l := by
  intro l
  induction l with
  | nil => intro acc _; simp
  | cons x rest ih =>
    intro acc h
    rw [List.foldl_cons]
    have hx : x ∉ acc := by
      intro hm
      have := List.nodup_append.mp h
      exact this.2.2 hm (List.mem_cons_self _ _)
    have e : heapUpdate acc x = acc ++ [x] := by
      unfold heapUpdate
      rw [if_neg hx]
    rw [e, ih _ (by simpa using h)]
    simp

end CH

namespace CH
namespace Builder

theorem reKey_keyed (p : List Nat) (b b' : Builder Unit) (v : Nat)
    (h : reKey (permutationKey p) b v = some b') :
    b'.label = b.label.updateAt v (fun _ => ((p.getD v 0 : Nat) : Int)) := by
  obtain ⟨_, _, _, k, ws, hk, hl⟩ := reKey_some (permutationKey p) b b' v h
  have e : some (((p.getD v 0 : Nat) : Int), b.witnessSearch) = some (k, ws) := hk
  have e1 : ((p.getD v 0 : Nat) : Int) = k := congrArg Prod.fst (Option.some.inj e)
  rw [hl, e1]

theorem keyed_updateAt (p : List Nat) (label : List Int) (v : Nat) (h : Keyed p label) :
    Keyed p (label.updateAt v (fun _ => ((p.getD v 0 : Nat) : Int))) := by
  intro x hx
  rw [length_updateAt] at hx
  by_cases e : v = x
  · subst e
    rw [getD_updateAt_self _ _ _ _ hx]
  · rw [getD_updateAt_other _ _ _ _ _ e]
    exact h x hx

theorem updateNeighbors_keyed (p : List Nat) (level : Nat) :
    ∀ (l : List Nat) (b b' : Builder Unit),
      updateNeighbors (permutationKey p) level l b = some b' →
      b'.label.length = b.label.length ∧ (Keyed p b.label → Keyed p b'.label) := by
  intro l
  induction l with
  | nil =>
    intro b b' h
    have : b = b' := Option.some.inj h
    rw [← this]
    exact ⟨rfl, fun h => h⟩
  | cons n rest ih =>
    intro b b' h
    unfold updateNeighbors at h
    simp only [] at h
    cases h1 : reKey (permutationKey p)
        ({ b with data := { b.data with
            level := b.data.level.updateAt n (fun l => max l level) } } : Builder Unit) n with
    | none => rw [h1] at h; exact Option.noConfusion h
    | some b1 =>
      rw [h1] at h
      simp only [] at h
      have e1 := reKey_keyed p _ b1 n h1
      have e1' : b1.label = b.label.updateAt n (fun _ => ((p.getD n 0 : Nat) : Int)) := e1
      obtain ⟨a1, a2⟩ := ih b1 b' h
      refine ⟨by rw [a1, e1', length_updateAt], ?_⟩
      intro hk
      apply a2
      rw [e1']
      exact keyed_updateAt p _ n hk

theorem contract_keyed (cfg : BuilderConfig) (p : List Nat) (b b' : Builder Unit) (v : Nat)
    (h : contract cfg (permutationKey p) b v = some b') :
    b'.label.length = b.label.length ∧ (Keyed p b.label → Keyed p b'.label) := by
  unfold contract at h
  simp only [] at h
  cases h1 : testShortcuts cfg.witness v (cfg.sortShortcuts (shortcutsOf b.data.core v))
      b.data.core b.witnessSearch with
  | none => rw [h1] at h; exact Option.noConfusion h
  | some r =>
    obtain ⟨Km, ws⟩ := r
    rw [h1] at h
    simp only [] at h
    have hk := updateNeighbors_keyed p _ _ _ b' h
    exact hk

/-- After `buildQ` the labels of the vertices of the list hold their keys. -/
theorem buildQ_keyed (p : List Nat) :
    ∀ (l : List Nat) (b b' : Builder Unit), buildQ (permutationKey p) l b = some b' →
      b'.label.length = b.label.length ∧
      ∀ x, x < b.label.length →
        (x ∈ l ∨ b.label.getD x 0 = ((p.getD x 0 : Nat) : Int)) →
        b'.label.getD x 0 = ((p.getD x 0 : Nat) : Int) := by
  intro l
  induction l with
  | nil =>
    intro b b' h
    have : b = b' := Option.some.inj h
    rw [← this]
    refine ⟨rfl, ?_⟩
    intro x _ hx
    rcases hx with hx | hx
    · exact absurd hx (List.not_mem_nil x)
    · exact hx
  | cons n rest ih =>
    intro b b' h
    unfold buildQ at h
    simp only [] at h
    cases h1 : reKey (permutationKey p)
        ({ b with data := { b.data with
            level := b.data.level.updateAt n (fun _ => 0) } } : Builder Unit) n with
    | none => rw [h1] at h; exact Option.noConfusion h
    | some b1 =>
      rw [h1] at h
      simp only [] at h
      have e1 := reKey_keyed p _ b1 n h1
      have e1' : b1.label = b.label.updateAt n (fun _ => ((p.getD n 0 : Nat) : Int)) := e1
      obtain ⟨a1, a2⟩ := ih b1 b' h
      have hlen : b1.label.length = b.label.length := by rw [e1', length_updateAt]
      refine ⟨by rw [a1, hlen], ?_⟩
      intro x hx hcase
      apply a2 x (by rw [hlen]; exact hx)
      by_cases e : n = x
      · right
        subst e
        rw [e1', getD_updateAt_self _ _ _ _ hx]
      · rcases hcase with hc | hc
        · rcases List.mem_cons.mp hc with h2 | h2
          · exact absurd h2.symm e
          · exact Or.inl h2
        · right
          rw [e1', getD_updateAt_other _ _ _ _ _ e]
          exact hc

end Builder
end CH

namespace CH
namespace Builder

/-- The loop of `contractQVertices` with `OrderKey(order)` and without stop criterion, on a
builder that has contracted the first `k` vertices of the order and has the others on the
queue: it contracts the others in their sequence. -/
theorem contractQVertices_orderKey (cfg : BuilderConfig)
    (hstop : ∀ d Q, cfg.stopCriterion d Q = false)
    (hsort : ∀ l, (cfg.sortShortcuts l).Perm l) (g : DynamicGraph) (order : List Nat)
    (hnd : order.Nodup) (hlt : ∀ x ∈ order, x < order.length) :
    ∀ (m k : Nat) (b : Builder Unit) (fuel : Nat), k + m = order.length → m < fuel →
      Inv cfg g b → QueueCovers b → b.data.order = order.take k →
      b.Q.Perm (order.drop k) → b.label.length = order.length →
      Keyed (invert order) b.label →
      ∃ r, contractQVertices cfg (orderKey order) fuel b = some r ∧
        r.data.order = order ∧ r.Q = [] := by
  intro m
  induction m with
  | zero =>
    intro k b fuel hk hfuel _ _ ho hQ _ _
    obtain ⟨f, rfl⟩ : ∃ f, fuel = f + 1 := ⟨fuel - 1, by omega⟩
    have hk' : k = order.length := by omega
    rw [hk', List.drop_length] at hQ
    have hQ' : b.Q = [] := List.Perm.eq_nil hQ
    refine ⟨b, ?_, ?_, hQ'⟩
    · unfold contractQVertices
      rw [if_pos (by rw [hQ']; rfl)]
    · rw [ho, hk', List.take_length]
  | succ m ih =>
    intro k b fuel hk hfuel h hq ho hQ hlen hkeyed
    obtain ⟨f, rfl⟩ : ∃ f, fuel = f + 1 := ⟨fuel - 1, by omega⟩
    have hk' : k < order.length := by omega
    have hdrop : order.drop k = order[k] :: order.drop (k + 1) := List.drop_eq_getElem_cons hk'
    rw [hdrop] at hQ
    have hmemQ : ∀ x, x ∈ b.Q ↔ x ∈ order[k] :: order.drop (k + 1) := fun x => hQ.mem_iff
    have hne : ¬ b.Q.isEmpty = true := by
      intro he
      have : b.Q = [] := List.isEmpty_iff.mp he
      have h0 := (hmemQ order[k]).mpr (List.mem_cons_self _ _)
      rw [this] at h0
      exact absurd h0 (List.not_mem_nil _)
    have hkey : ∀ i (hi : i < order.length),
        b.label.getD order[i] 0 = (i : Int) := by
      intro i hi
      have hx : order[i] < b.label.length := by rw [hlen]; exact hlt _ (List.getElem_mem _)
      rw [hkeyed _ hx]
      have e : order[i] = order.getD i 0 := by
        rw [List.getD_eq_getElem?_getD, List.getElem?_eq_getElem hi]
        rfl
      rw [e, invert_getD order hnd hlt i hi]
    unfold contractQVertices
    rw [if_neg hne]
    simp only []
    have hre : reKeyAll (orderKey order) ((orderKey order).update b.keyState b.data).2
        { b with keyState := ((orderKey order).update b.keyState b.data).1 } = some b := rfl
    rw [hre]
    simp only []
    rw [if_neg (by rw [hstop]; exact Bool.false_ne_true)]
    cases hfront : queueFront cfg.BreakKeyTiesById (fun v => b.label.getD v 0) b.Q with
    | none =>
      have := queueFront_eq_none _ _ _ hfront
      exact absurd (List.isEmpty_iff.mpr this) hne
    | some v =>
      simp only []
      have hvQ : v ∈ b.Q := queueFront_mem _ _ _ _ hfront
      have hmin := queueFront_min _ _ _ _ hfront
      -- the front is the next vertex of the order
      have hv : v = order[k] := by
        rcases List.mem_cons.mp ((hmemQ v).mp hvQ) with e | e
        · exact e
        · obtain ⟨j, hj, hjv⟩ := List.getElem_of_mem e
          rw [List.length_drop] at hj
          rw [List.getElem_drop] at hjv
          have h1 := hmin order[k] ((hmemQ _).mpr (List.mem_cons_self _ _))
          simp only [] at h1
          rw [← hjv, hkey (k + 1 + j) (by omega), hkey k hk'] at h1
          omega
      obtain ⟨b3, hc, h3, hq3, hQ3⟩ :=
        contract_inv (permutationKey_lawful cfg.witness (invert order)) hsort h hq v
      have hc' : contract cfg (orderKey order) { b with Q := b.Q.erase v } v = some b3 := hc
      rw [hc']
      simp only []
      obtain ⟨_, _, _, _, _, _, _, c5, _, _, _⟩ := contract_some cfg _ _ b3 v hc
      have c5' : b3.data.order = b.data.order ++ [v] := c5
      obtain ⟨l1, l2⟩ := contract_keyed cfg (invert order) _ b3 v hc
      apply ih (k + 1) b3 f (by omega) (by omega) h3 hq3
      · rw [c5', ho, hv, List.take_succ, List.getElem?_eq_getElem hk']
        rfl
      · rw [hQ3, hv]
        have := List.Perm.erase order[k] hQ
        rw [List.erase_cons_head] at this
        exact this
      · rw [l1]; exact hlen
      · exact l2 hkeyed

end Builder
end CH

namespace CH
namespace Builder

/-- Claim C22: for every builder configuration without stop criterion (with or without
the witness search, breaking of ties and sorting of the shortcuts), every well-formed
graph with `n` vertices, `n` at most `intMax` so that the keys fit the key type `int`, and
every order that is a permutation of `0..n-1`: the keys of `OrderKey(order)` are at most
`intMax`, and `run()` with fuel for more than `n` iterations returns with the contraction
order equal to the given order and with an empty queue. -/
theorem orderKey_order (cfg : BuilderConfig) (hstop : ∀ d Q, cfg.stopCriterion d Q = false)
    (hsort : ∀ l, (cfg.sortShortcuts l).Perm l) (g : DynamicGraph) (hg : g.WellFormed)
    (hsize : (g.numVertices : Int) ≤ intMax)
    (order : List Nat) (horder : order.Perm (List.range g.numVertices)) :
    (∀ v, (((invert order).getD v 0 : Nat) : Int) ≤ intMax) ∧
    ∀ fuel, g.numVertices < fuel →
      ∃ r, run cfg (orderKey order) fuel (new g ()) = some r ∧
        r.data.order = order ∧ r.Q = [] := by
  have hlen : order.length = g.numVertices := by
    rw [horder.length_eq, List.length_range]
  have hnd : order.Nodup := horder.nodup_iff.mpr (List.nodup_range _)
  have hlt : ∀ x ∈ order, x < order.length := by
    intro x hx
    rw [hlen]
    exact List.mem_range.mp (horder.mem_iff.mp hx)
  constructor
  · intro v
    by_cases hv : v < g.numVertices
    · have hm : v ∈ order := horder.mem_iff.mpr (List.mem_range.mpr hv)
      obtain ⟨i, hi, hiv⟩ := List.getElem_of_mem hm
      have e : v = order.getD i 0 := by
        rw [List.getD_eq_getElem?_getD, List.getElem?_eq_getElem hi, ← hiv]
        rfl
      rw [e, invert_getD order hnd hlt i hi]
      have : ((i : Nat) : Int) < g.numVertices := by exact_mod_cast (hlen ▸ hi)
      omega
    · have hout : (invert order).getD v 0 = 0 := by
        rw [List.getD_eq_getElem?_getD, List.getElem?_eq_none]
        · rfl
        · rw [length_invert, hlen]; omega
      rw [hout]
      unfold intMax
      decide
  · intro fuel hfuel
    have hkey := permutationKey_lawful cfg.witness (invert order)
    have h0 : Inv cfg g
        ({ new g () with
            data := { (new g ()).data with order := [] }
            label := List.replicate (new g ()).data.numVertices 0
            witnessSearch := (new g ()).witnessSearch.initializeSearch (new g ()).data.core
            Q := [] } : Builder Unit) :=
      new_inv cfg g hg _ rfl rfl rfl rfl
    obtain ⟨b1, hb, h1, c1, _, _, _, q1, _⟩ :=
      buildQ_inv hkey (List.range g.numVertices) _ h0
    have hb' : buildQ (orderKey order) (List.range g.numVertices)
        ({ new g () with
            data := { (new g ()).data with order := [] }
            label := List.replicate (new g ()).data.numVertices 0
            witnessSearch := (new g ()).witnessSearch.initializeSearch (new g ()).data.core
            Q := [] } : Builder Unit) = some b1 := hb
    have hc1 : b1.data.core = g := c1
    have hq1 : QueueCovers b1 := by
      intro e he
      rw [hc1] at he
      exact ⟨q1 _ (List.mem_range.mpr (hg.range e he).1),
        q1 _ (List.mem_range.mpr (hg.range e he).2)⟩
    obtain ⟨_, _, _, _, s5, _, _, s8⟩ := buildQ_some _ _ _ b1 hb
    have s5' : b1.data.order = [] := s5
    have s8' : b1.Q = (List.range g.numVertices).foldl heapUpdate [] := s8
    obtain ⟨k1, k2⟩ := buildQ_keyed (invert order) _ _ b1 hb
    have k1' : b1.label.length = g.numVertices := by
      rw [k1]
      exact List.length_replicate _ _
    have hb2 : buildQ (orderKey order) (List.range (new g ()).data.core.numVertices)
        ({ new g () with
            data := { (new g ()).data with order := [] }
            label := List.replicate (new g ()).data.numVertices 0
            witnessSearch := (new g ()).witnessSearch.initializeSearch (new g ()).data.core
            Q := [] } : Builder Unit) = some b1 := hb
    have hrun : run cfg (orderKey order) fuel (new g ()) =
        contractQVertices cfg (orderKey order) fuel b1 := by
      unfold run
      simp only []
      rw [hb2]
    rw [hrun]
    apply contractQVertices_orderKey cfg hstop hsort g order hnd hlt g.numVertices 0 b1 fuel
      (by omega) hfuel h1 hq1
    · rw [s5']; rfl
    · rw [s8', foldl_heapUpdate_append _ _ (by simpa using List.nodup_range _)]
      simpa using horder.symm
    · rw [k1', hlen]
    · intro x hx
      rw [k1'] at hx
      apply k2 x (by rw [List.length_replicate]; exact hx)
      exact Or.inl (List.mem_range.mpr hx)

/-- Claim C22 at the graph `fork` with the witness search and the order 2, 0, 3, 1. -/
theorem orderKey_order_witness :
    ∃ r, run witnessBuilder (orderKey [2, 0, 3, 1]) 5 (new fork ()) = some r ∧
      r.data.order = [2, 0, 3, 1] ∧ r.Q = [] :=
  (orderKey_order witnessBuilder (fun _ _ => rfl) (fun l => List.Perm.refl l) fork
    ⟨by decide, by decide, by decide⟩ (by decide) [2, 0, 3, 1] (by decide)).2 5 (by decide)

end Builder
end CH

namespace IndexedMap

variable {Value : Type}

theorem getD_dropLast {α : Type} (l : List α) (i : Nat) (d : α) (h : i + 1 < l.length) :
    l.dropLast.getD i d = l.getD i d := by
  rw [List.getD_eq_getElem?_getD, List.getD_eq_getElem?_getD, List.dropLast_eq_take,
    List.getElem?_take_of_lt (by omega)]

theorem getD_getLast {α : Type} (l : List α) (x d : α) (h : l.getLast? = some x) :
    0 < l.length ∧ l.getD (l.length - 1) d = x := by
  cases l with
  | nil => exact absurd h (by simp)
  | cons a as =>
    refine ⟨by simp, ?_⟩
    rw [List.getLast?_eq_getElem?] at h
    rw [List.getD_eq_getElem?_getD, h]
    rfl

theorem contains_iff (m : IndexedMap Value) (k : Nat) :
    m.contains k = true ↔ m.indices.getD k NotContained ≠ NotContained := by
  unfold contains
  simp

theorem contains_eq_false (m : IndexedMap Value) (k : Nat) :
    m.contains k = false ↔ m.indices.getD k NotContained = NotContained := by
  unfold contains
  simp

/-- The keys of a map that satisfies the invariant are pairwise different. -/
theorem Inv.keys_inj {m : IndexedMap Value} (h : Inv m) (i j : Nat) (hi : i < m.keys.length)
    (hj : j < m.keys.length) (e : m.keys.getD i 0 = m.keys.getD j 0) : i = j := by
  have a := (h.back i hi).2
  have b := (h.back j hj).2
  rw [e] at a
  exact a.symm.trans b

theorem Inv.keys_nodup {m : IndexedMap Value} (h : Inv m) : m.keys.Nodup := by
  rw [List.nodup_iff_injective_get]
  intro a b hab
  apply Fin.ext
  apply h.keys_inj a.1 b.1 a.2 b.2
  rw [List.getD_eq_getElem _ _ a.2, List.getD_eq_getElem _ _ b.2]
  exact hab

/-- A map that satisfies the invariant has at most as many keys as its capacity, and
fewer when a key below the capacity is not contained. -/
theorem Inv.size_lt {m : IndexedMap Value} (h : Inv m) (k : Nat) (hk : k < m.indices.length)
    (hc : m.indices.getD k NotContained = NotContained) : m.keys.length < m.indices.length := by
  have hall : ∀ x ∈ m.keys, x < m.indices.length := by
    intro x hx
    obtain ⟨i, hi, e'⟩ := List.getElem_of_mem hx
    have := (h.back i hi).1
    rw [List.getD_eq_getElem _ _ hi, e'] at this
    exact this
  have hle0 := TripBased.ShortcutSearch.length_le_of_nodup m.keys m.indices.length
    h.keys_nodup hall
  have hnot : k ∉ m.keys := by
    intro hm
    obtain ⟨i, hi, e⟩ := List.getElem_of_mem hm
    have b := (h.back i hi).2
    rw [List.getD_eq_getElem _ _ hi, e, hc] at b
    have := h.cap
    omega
  have hnd : (k :: m.keys).Nodup := List.nodup_cons.mpr ⟨hnot, h.keys_nodup⟩
  have hle := TripBased.ShortcutSearch.length_le_of_nodup (k :: m.keys) m.indices.length hnd
    (by
      intro x hx
      rcases List.mem_cons.mp hx with e | e
      · rw [e]; exact hk
      · exact hall x e)
  simp only [List.length_cons] at hle
  omega

theorem init_inv (n : Nat) (hn : n ≤ NotContained) : Inv (init n : IndexedMap Value) := by
  refine ⟨rfl, ?_, ?_, ?_⟩
  · show (List.replicate n NotContained).length ≤ NotContained
    rw [List.length_replicate]; exact hn
  · intro i hi
    exact absurd hi (Nat.not_lt_zero _)
  · intro k hk hne
    have hk' : k < n := by
      have : k < (List.replicate n NotContained).length := hk
      rwa [List.length_replicate] at this
    exact absurd (TripBased.Data.getD_replicate_lt n k NotContained NotContained hk') hne

theorem resize_inv (m : IndexedMap Value) (key : Nat) (h : Inv m) (hk : key < NotContained) :
    Inv (m.resize key) ∧ key < (m.resize key).capacity ∧
      (∀ k, (m.resize key).indices.getD k NotContained = m.indices.getD k NotContained) ∧
      (m.resize key).keys = m.keys ∧ (m.resize key).values = m.values := by
  unfold resize capacity
  split
  · rename_i hge
    have hget : ∀ k, (m.indices ++ List.replicate (key + 1 - m.indices.length) NotContained).getD
        k NotContained = m.indices.getD k NotContained := by
      intro k
      by_cases hlt : k < m.indices.length
      · exact TripBased.Data.getD_append_lt _ _ _ _ hlt
      · rw [TripBased.Data.getD_append_ge _ _ _ _ (by omega),
          TripBased.ShortcutSearch.getD_of_length_le m.indices k _ (by omega)]
        by_cases h2 : k - m.indices.length < key + 1 - m.indices.length
        · exact TripBased.Data.getD_replicate_lt _ _ _ _ h2
        · exact TripBased.ShortcutSearch.getD_of_length_le _ _ _
            (by rw [List.length_replicate]; omega)
    refine ⟨⟨h.len, ?_, ?_, ?_⟩, ?_, hget, rfl, rfl⟩
    · show (m.indices ++ List.replicate (key + 1 - m.indices.length) NotContained).length ≤ _
      rw [List.length_append, List.length_replicate]
      omega
    · intro i hi
      have hi' : i < m.keys.length := hi
      have := h.back i hi'
      refine ⟨?_, ?_⟩
      · show m.keys.getD i 0 < (m.indices ++ List.replicate _ NotContained).length
        rw [List.length_append]
        omega
      · show (m.indices ++ List.replicate _ NotContained).getD _ _ = i
        rw [hget]; exact this.2
    · intro k _ hne
      have hne' : m.indices.getD k NotContained ≠ NotContained := by
        rw [← hget k]; exact hne
      have hk' : k < m.indices.length := by
        by_contra hc
        exact hne' (TripBased.ShortcutSearch.getD_of_length_le _ _ _ (by omega))
      have := h.fwd k hk' hne'
      show (m.indices ++ List.replicate _ NotContained).getD k NotContained < m.keys.length ∧
        m.keys.getD ((m.indices ++ List.replicate _ NotContained).getD k NotContained) 0 = k
      rw [hget]
      exact this
    · show key < (m.indices ++ List.replicate _ NotContained).length
      rw [List.length_append, List.length_replicate]
      omega
  · rename_i hlt
    exact ⟨h, by omega, fun _ => rfl, rfl, rfl⟩

theorem setValue_inv (m : IndexedMap Value) (key : Nat) (value : Value) (h : Inv m) :
    Inv (m.setValue key value) := by
  unfold setValue
  refine ⟨?_, h.cap, h.back, h.fwd⟩
  show m.keys.length = (m.values.set _ value).length
  rw [List.length_set]
  exact h.len

theorem insert_inv (m : IndexedMap Value) (key : Nat) (value : Value) (h : Inv m)
    (hk : key < m.capacity) : Inv (m.insert key value) := by
  unfold insert
  split
  · exact setValue_inv m key value h
  · rename_i hc
    have hc' : m.indices.getD key NotContained = NotContained := by
      rw [← contains_eq_false]
      simpa using hc
    have hsize := h.size_lt key hk hc'
    have hcap := h.cap
    refine ⟨?_, ?_, ?_, ?_⟩
    · show (m.keys ++ [key]).length = (m.values ++ [value]).length
      rw [List.length_append, List.length_append, h.len]
      rfl
    · show (m.indices.set key m.keys.length).length ≤ NotContained
      rw [List.length_set]; exact hcap
    · intro i hi
      have hi' : i < m.keys.length + 1 := by
        have : i < (m.keys ++ [key]).length := hi
        rwa [List.length_append] at this
      show (m.keys ++ [key]).getD i 0 < (m.indices.set key m.keys.length).length ∧
        (m.indices.set key m.keys.length).getD ((m.keys ++ [key]).getD i 0) NotContained = i
      rw [List.length_set]
      by_cases hlt : i < m.keys.length
      · rw [TripBased.Data.getD_append_lt _ _ _ _ hlt]
        obtain ⟨b1, b2⟩ := h.back i hlt
        refine ⟨b1, ?_⟩
        have hne : key ≠ m.keys.getD i 0 := by
          intro e
          rw [← e, hc'] at b2
          omega
        rw [TripBased.ShortcutSearch.getD_set_ne _ _ _ _ _ hne]
        exact b2
      · have e : i = m.keys.length := by omega
        rw [e, TripBased.Data.getD_append_ge _ _ _ _ (le_refl _), Nat.sub_self]
        show key < m.indices.length ∧ (m.indices.set key m.keys.length).getD key NotContained = _
        exact ⟨hk, TripBased.ShortcutSearch.getD_set_self _ _ _ _ hk⟩
    · intro k hk' hne
      have hk2 : k < m.indices.length := by
        have : k < (m.indices.set key m.keys.length).length := hk'
        rwa [List.length_set] at this
      show (m.indices.set key m.keys.length).getD k NotContained < (m.keys ++ [key]).length ∧
        (m.keys ++ [key]).getD ((m.indices.set key m.keys.length).getD k NotContained) 0 = k
      have hne' : (m.indices.set key m.keys.length).getD k NotContained ≠ NotContained := hne
      rw [List.length_append]
      by_cases e : key = k
      · subst e
        rw [TripBased.ShortcutSearch.getD_set_self _ _ _ _ hk,
          TripBased.Data.getD_append_ge _ _ _ _ (le_refl _), Nat.sub_self]
        exact ⟨by simp, rfl⟩
      · rw [TripBased.ShortcutSearch.getD_set_ne _ _ _ _ _ e] at hne' ⊢
        obtain ⟨f1, f2⟩ := h.fwd k hk2 hne'
        refine ⟨by omega, ?_⟩
        rw [TripBased.Data.getD_append_lt _ _ _ _ f1]
        exact f2

end IndexedMap

namespace IndexedMap

variable {Value : Type}

theorem foldl_clear_length : ∀ (keys : List Nat) (indices : List Nat),
    (keys.foldl (fun ind key => ind.set key NotContained) indices).length = indices.length := by
  intro keys
  induction keys with
  | nil => intro indices; rfl
  | cons k rest ih => intro indices; rw [List.foldl_cons, ih, List.length_set]

theorem foldl_clear_getD : ∀ (keys : List Nat) (indices : List Nat) (x : Nat),
    (keys.foldl (fun ind key => ind.set key NotContained) indices).getD x NotContained =
      if x ∈ keys then NotContained else indices.getD x NotContained := by
  intro keys
  induction keys with
  | nil => intro indices x; simp
  | cons k rest ih =>
    intro indices x
    rw [List.foldl_cons, ih]
    by_cases hx : x ∈ rest
    · rw [if_pos hx, if_pos (List.mem_cons_of_mem _ hx)]
    · rw [if_neg hx]
      by_cases e : k = x
      · subst e
        rw [if_pos (List.mem_cons_self _ _)]
        by_cases hk : k < indices.length
        · exact TripBased.ShortcutSearch.getD_set_self _ _ _ _ hk
        · rw [TripBased.ShortcutSearch.set_of_length_le _ _ _ (by omega)]
          exact TripBased.ShortcutSearch.getD_of_length_le _ _ _ (by omega)
      · rw [if_neg (by
          intro hm
          rcases List.mem_cons.mp hm with h1 | h1
          · exact e h1.symm
          · exact hx h1)]
        exact TripBased.ShortcutSearch.getD_set_ne _ _ _ _ _ e

theorem clear_mapInv (m : IndexedMap Value) (h : Inv m) : Inv m.clear := by
  unfold clear
  refine ⟨rfl, ?_, ?_, ?_⟩
  · show (m.keys.foldl (fun ind key => ind.set key NotContained) m.indices).length ≤ _
    rw [foldl_clear_length]; exact h.cap
  · intro i hi
    exact absurd hi (Nat.not_lt_zero _)
  · intro k hk hne
    have hk' : k < m.indices.length := by
      have : k < (m.keys.foldl (fun ind key => ind.set key NotContained) m.indices).length := hk
      rwa [foldl_clear_length] at this
    have hne' : (m.keys.foldl (fun ind key => ind.set key NotContained) m.indices).getD k
        NotContained ≠ NotContained := hne
    rw [foldl_clear_getD] at hne'
    by_cases hm : k ∈ m.keys
    · rw [if_pos hm] at hne'
      exact absurd rfl hne'
    · rw [if_neg hm] at hne'
      obtain ⟨f1, f2⟩ := h.fwd k hk' hne'
      have : k ∈ m.keys := by
        rw [← f2, List.getD_eq_getElem _ _ f1]
        exact List.getElem_mem _
      exact absurd this hm

/-- What `remove(key)` does to a map that satisfies the invariant and contains the key. -/
theorem remove_view (m : IndexedMap Value) (key : Nat) (h : Inv m) (hk : key < m.capacity)
    (hc : m.contains key = true) :
    ∃ lastKey lastValue, m.keys.getLast? = some lastKey ∧ m.values.getLast? = some lastValue ∧
      m.remove key =
        { indices := (m.indices.set lastKey (m.indices.getD key NotContained)).set key
            NotContained
          keys := (m.keys.set (m.indices.getD key NotContained) lastKey).dropLast
          values := (m.values.set (m.indices.getD key NotContained) lastValue).dropLast } := by
  have hne := (contains_iff m key).mp hc
  obtain ⟨f1, _⟩ := h.fwd key hk hne
  have hk1 : m.keys ≠ [] := by
    intro e; rw [e] at f1; exact absurd f1 (Nat.not_lt_zero _)
  have hv1 : m.values ≠ [] := by
    intro e
    have := h.len
    rw [e] at this
    rw [this] at f1
    exact absurd f1 (Nat.not_lt_zero _)
  obtain ⟨lastKey, e1⟩ : ∃ x, m.keys.getLast? = some x :=
    ⟨m.keys.getLast hk1, List.getLast?_eq_getLast _ hk1⟩
  obtain ⟨lastValue, e2⟩ : ∃ x, m.values.getLast? = some x :=
    ⟨m.values.getLast hv1, List.getLast?_eq_getLast _ hv1⟩
  refine ⟨lastKey, lastValue, e1, e2, ?_⟩
  unfold remove
  rw [if_pos hc]
  simp only []
  rw [e1, e2]

theorem remove_absent (m : IndexedMap Value) (key : Nat) (hc : m.contains key = false) :
    m.remove key = m := by
  unfold remove
  rw [if_neg (by rw [hc]; exact Bool.false_ne_true)]

/-- The fields of the map after `remove(key)` of a contained key. -/
theorem remove_fields [Inhabited Value] (m : IndexedMap Value) (key : Nat) (h : Inv m)
    (hk : key < m.capacity) (hc : m.contains key = true) :
    ∃ lastKey, m.keys.getD (m.keys.length - 1) 0 = lastKey ∧
      (m.remove key).indices.length = m.indices.length ∧
      (m.remove key).keys.length + 1 = m.keys.length ∧
      (m.remove key).values.length + 1 = m.values.length ∧
      (∀ x, (m.remove key).indices.getD x NotContained =
        if x = key then NotContained
        else if x = lastKey then m.indices.getD key NotContained
        else m.indices.getD x NotContained) ∧
      (∀ i, i + 1 < m.keys.length → (m.remove key).keys.getD i 0 =
        if i = m.indices.getD key NotContained then lastKey else m.keys.getD i 0) ∧
      (∀ i, i + 1 < m.keys.length → (m.remove key).values.getD i default =
        if i = m.indices.getD key NotContained then m.values.getD (m.keys.length - 1) default
        else m.values.getD i default) := by
  obtain ⟨lastKey, lastValue, e1, e2, e3⟩ := remove_view m key h hk hc
  have hne := (contains_iff m key).mp hc
  obtain ⟨f1, f2⟩ := h.fwd key hk hne
  obtain ⟨p1, p2⟩ := getD_getLast m.keys lastKey 0 e1
  obtain ⟨q1, q2⟩ := getD_getLast m.values lastValue default e2
  have hlast := h.back (m.keys.length - 1) (by omega)
  rw [p2] at hlast
  refine ⟨lastKey, p2, ?_, ?_, ?_, ?_, ?_, ?_⟩
  · rw [e3]
    show ((m.indices.set lastKey _).set key NotContained).length = _
    rw [List.length_set, List.length_set]
  · rw [e3]
    show ((m.keys.set _ lastKey).dropLast).length + 1 = _
    rw [List.length_dropLast, List.length_set]
    omega
  · rw [e3]
    show ((m.values.set _ lastValue).dropLast).length + 1 = _
    rw [List.length_dropLast, List.length_set]
    omega
  · intro x
    rw [e3]
    show ((m.indices.set lastKey _).set key NotContained).getD x NotContained = _
    by_cases hx : x = key
    · subst hx
      rw [if_pos rfl]
      exact TripBased.ShortcutSearch.getD_set_self _ _ _ _ (by rw [List.length_set]; exact hk)
    · rw [if_neg hx, TripBased.ShortcutSearch.getD_set_ne _ _ _ _ _ (fun e => hx e.symm)]
      by_cases hl : x = lastKey
      · subst hl
        rw [if_pos rfl]
        exact TripBased.ShortcutSearch.getD_set_self _ _ _ _ hlast.1
      · rw [if_neg hl]
        exact TripBased.ShortcutSearch.getD_set_ne _ _ _ _ _ (fun e => hl e.symm)
  · intro i hi
    rw [e3]
    show ((m.keys.set _ lastKey).dropLast).getD i 0 = _
    rw [getD_dropLast _ _ _ (by rw [List.length_set]; exact hi)]
    by_cases hx : i = m.indices.getD key NotContained
    · rw [if_pos hx, ← hx]
      exact TripBased.ShortcutSearch.getD_set_self _ _ _ _ (by omega)
    · rw [if_neg hx]
      exact TripBased.ShortcutSearch.getD_set_ne _ _ _ _ _ (fun e => hx e.symm)
  · intro i hi
    rw [e3]
    show ((m.values.set _ lastValue).dropLast).getD i default = _
    have hlen := h.len
    rw [getD_dropLast _ _ _ (by rw [List.length_set]; omega)]
    by_cases hx : i = m.indices.getD key NotContained
    · rw [if_pos hx, ← hx, hlen, q2]
      exact TripBased.ShortcutSearch.getD_set_self _ _ _ _ (by omega)
    · rw [if_neg hx]
      exact TripBased.ShortcutSearch.getD_set_ne _ _ _ _ _ (fun e => hx e.symm)

end IndexedMap

namespace IndexedMap

variable {Value : Type}

/-- A map that satisfies the invariant has at most as many keys as its capacity. -/
theorem Inv.size_le {m : IndexedMap Value} (h : Inv m) : m.keys.length ≤ m.indices.length := by
  apply TripBased.ShortcutSearch.length_le_of_nodup m.keys m.indices.length h.keys_nodup
  intro x hx
  obtain ⟨i, hi, e'⟩ := List.getElem_of_mem hx
  have := (h.back i hi).1
  rw [List.getD_eq_getElem _ _ hi, e'] at this
  exact this

/-- In a map that satisfies the invariant a key below the capacity is contained exactly
when its index is a position whose key it is. -/
theorem Inv.contains_iff_position {m : IndexedMap Value} (h : Inv m) (k : Nat)
    (hk : k < m.capacity) :
    m.contains k = true ↔ m.indices.getD k NotContained < m.size ∧
      m.keys.getD (m.indices.getD k NotContained) 0 = k := by
  rw [contains_iff]
  unfold size
  rw [← h.len]
  constructor
  · intro hne
    exact h.fwd k hk hne
  · rintro ⟨h1, _⟩
    have := h.size_le
    have := h.cap
    omega

theorem remove_inv [Inhabited Value] (m : IndexedMap Value) (key : Nat) (h : Inv m)
    (hk : key < m.capacity) : Inv (m.remove key) := by
  by_cases hc : m.contains key = true
  · obtain ⟨lastKey, p2, r1, r2, r3, r4, r5, _⟩ := remove_fields m key h hk hc
    have hne := (contains_iff m key).mp hc
    obtain ⟨f1, f2⟩ := h.fwd key hk hne
    have hlast := h.back (m.keys.length - 1) (by omega)
    rw [p2] at hlast
    refine ⟨?_, ?_, ?_, ?_⟩
    · have := h.len
      omega
    · rw [r1]; exact h.cap
    · intro i hi
      have hi' : i + 1 < m.keys.length := by omega
      rw [r1, r5 i hi', r4]
      by_cases e : i = m.indices.getD key NotContained
      · rw [if_pos e]
        have hlk : lastKey ≠ key := by
          intro e2
          have := h.keys_inj (m.keys.length - 1) (m.indices.getD key NotContained) (by omega) f1
            (by rw [p2, f2, e2])
          omega
        rw [if_neg hlk, if_pos rfl]
        exact ⟨hlast.1, e.symm⟩
      · rw [if_neg e]
        obtain ⟨b1, b2⟩ := h.back i (by omega)
        have n1 : m.keys.getD i 0 ≠ key := by
          intro e2
          exact e (h.keys_inj i _ (by omega) f1 (by rw [e2, f2]))
        have n2 : m.keys.getD i 0 ≠ lastKey := by
          intro e2
          have := h.keys_inj i (m.keys.length - 1) (by omega) (by omega) (by rw [e2, p2])
          omega
        rw [if_neg n1, if_neg n2]
        exact ⟨b1, b2⟩
    · intro x hx hnx
      rw [r1] at hx
      rw [r4] at hnx ⊢
      by_cases e1 : x = key
      · rw [if_pos e1] at hnx
        exact absurd rfl hnx
      · rw [if_neg e1] at hnx ⊢
        by_cases e2 : x = lastKey
        · rw [if_pos e2]
          have hidx : m.indices.getD key NotContained + 1 < m.keys.length := by
            by_contra hcon
            have e3 : m.indices.getD key NotContained = m.keys.length - 1 := by omega
            rw [e3, p2] at f2
            exact e1 (e2.trans f2)
          refine ⟨by omega, ?_⟩
          rw [r5 _ hidx, if_pos rfl]
          exact e2.symm
        · rw [if_neg e2] at hnx ⊢
          obtain ⟨g1, g2⟩ := h.fwd x hx hnx
          have n1 : m.indices.getD x NotContained ≠ m.keys.length - 1 := by
            intro e3
            rw [e3, p2] at g2
            exact e2 g2.symm
          have n2 : m.indices.getD x NotContained ≠ m.indices.getD key NotContained := by
            intro e3
            rw [e3, f2] at g2
            exact e1 g2.symm
          refine ⟨by omega, ?_⟩
          rw [r5 _ (by omega), if_neg n2]
          exact g2
  · have hc' : m.contains key = false := by simpa using hc
    rw [remove_absent m key hc']
    exact h

/-- Every reachable state satisfies the invariant. -/
theorem Reachable.inv [Inhabited Value] {m : IndexedMap Value} (h : Reachable m) : Inv m := by
  induction h with
  | init n hn => exact init_inv n hn
  | resize m key _ hk ih => exact (resize_inv m key ih hk).1
  | insert m key value _ hk ih => exact insert_inv m key value ih hk
  | setValue m key value _ _ _ ih => exact setValue_inv m key value ih
  | remove m key _ hk ih => exact remove_inv m key ih hk
  | clear m _ ih => exact clear_mapInv m ih

/-- What `remove(key)` does to the other keys of a map that satisfies the invariant. -/
theorem Inv.remove_others [Inhabited Value] {m : IndexedMap Value} (h : Inv m) (k : Nat)
    (hk : k < m.capacity) :
    (m.remove k).contains k = false ∧
    (m.contains k = true → (m.remove k).size + 1 = m.size) ∧
    ∀ k', k' < m.capacity → k' ≠ k →
      (m.remove k).contains k' = m.contains k' ∧
      (m.contains k' = true → (m.remove k).get k' = m.get k') := by
  by_cases hc : m.contains k = true
  · obtain ⟨lastKey, p2, r1, r2, r3, r4, r5, r6⟩ := remove_fields m k h hk hc
    have hne := (contains_iff m k).mp hc
    obtain ⟨f1, f2⟩ := h.fwd k hk hne
    have hlast := h.back (m.keys.length - 1) (by omega)
    rw [p2] at hlast
    have hsz := h.size_le
    have hcap := h.cap
    refine ⟨?_, ?_, ?_⟩
    · rw [contains_eq_false, r4, if_pos rfl]
    · intro _
      unfold size
      exact r3
    · intro k' hk' hkk
      by_cases e2 : k' = lastKey
      · have hidx : m.indices.getD k NotContained + 1 < m.keys.length := by
          by_contra hcon
          have e3 : m.indices.getD k NotContained = m.keys.length - 1 := by omega
          rw [e3, p2] at f2
          exact hkk (e2.trans f2)
        have c1 : (m.remove k).contains k' = true := by
          rw [contains_iff, r4, if_neg hkk, if_pos e2]
          omega
        have c2 : m.contains k' = true := by
          rw [contains_iff, e2, hlast.2]
          omega
        refine ⟨c1.trans c2.symm, ?_⟩
        intro _
        unfold get
        rw [r4, if_neg hkk, if_pos e2, r6 _ hidx, if_pos rfl, e2, hlast.2]
      · have hidx : (m.remove k).indices.getD k' NotContained =
            m.indices.getD k' NotContained := by
          rw [r4, if_neg hkk, if_neg e2]
        constructor
        · unfold contains
          rw [hidx]
        · intro hc'
          have hne' := (contains_iff m k').mp hc'
          obtain ⟨g1, g2⟩ := h.fwd k' hk' hne'
          have n1 : m.indices.getD k' NotContained ≠ m.keys.length - 1 := by
            intro e3
            rw [e3, p2] at g2
            exact e2 g2.symm
          have n2 : m.indices.getD k' NotContained ≠ m.indices.getD k NotContained := by
            intro e3
            rw [e3, f2] at g2
            exact hkk g2.symm
          unfold get
          rw [hidx, r6 _ (by omega), if_neg n2]
  · have hc' : m.contains k = false := by simpa using hc
    rw [remove_absent m k hc']
    exact ⟨hc', fun h' => absurd h' hc, fun _ _ _ => ⟨rfl, fun _ => rfl⟩⟩

/-- Claim C40: every state of an `IndexedMap` that is reachable by the constructor,
`insert`, `operator[] =`, `remove`, `clear` and the resizing of a resizeable map, with
keys below the capacity, has as many keys as values and pairwise distinct keys; a key
below the capacity is contained exactly when `indices[k] < size` and
`keys[indices[k]] = k`; and `remove(k)` returns `true` exactly when `k` was contained,
leaves `k` not contained, lowers the size by one when `k` was contained and changes
nothing otherwise, and leaves every other key contained as it was, with its value. -/
theorem reachable_spec [Inhabited Value] (m : IndexedMap Value) (h : Reachable m) :
    m.keys.length = m.values.length ∧ m.keys.Nodup ∧
    (∀ k, k < m.capacity →
      (m.contains k = true ↔ m.indices.getD k NotContained < m.size ∧
        m.keys.getD (m.indices.getD k NotContained) 0 = k)) ∧
    (∀ k, k < m.capacity →
      (m.removeReturns k = true ↔ m.contains k = true) ∧
      (m.remove k).contains k = false ∧
      (m.contains k = true → (m.remove k).size + 1 = m.size) ∧
      (m.contains k = false → m.remove k = m) ∧
      ∀ k', k' < m.capacity → k' ≠ k →
        (m.remove k).contains k' = m.contains k' ∧
        (m.contains k' = true → (m.remove k).get k' = m.get k')) := by
  have hinv := h.inv
  refine ⟨hinv.len, hinv.keys_nodup, fun k hk => hinv.contains_iff_position k hk, ?_⟩
  intro k hk
  obtain ⟨a, b, c⟩ := hinv.remove_others k hk
  exact ⟨Iff.rfl, a, b, remove_absent m k, c⟩

/-- Claim C40 at the map of capacity 3 with the value 10 for the key 0 and the value 20
for the key 2: after `remove(0)` the key 2 has moved to the first position. -/
theorem reachable_spec_witness :
    (((init 3).insert 0 10).insert 2 20).remove 0 =
      (⟨[NotContained, NotContained, 0], [2], [20]⟩ : IndexedMap Nat) ∧
    ((((init 3).insert 0 10).insert 2 20 : IndexedMap Nat).remove 0).get 2 = 20 ∧
    (((init 3).insert 0 10).insert 2 20 : IndexedMap Nat).keys.Nodup :=
  ⟨by decide, by decide,
    (reachable_spec (((init 3).insert 0 10).insert 2 20 : IndexedMap Nat)
      (Reachable.insert _ 2 20
        (Reachable.insert _ 0 10 (Reachable.init 3 (by decide)) (by decide))
        (by decide))).2.1⟩

end IndexedMap

namespace CH

/-- The loop of `isValid`: when it does not return `false`, the entries are below the
size and different from each other and from the entries seen before. -/
theorem isValid_loop (n : Nat) : ∀ (rest before : List Nat) (seen : List Bool),
    seen.length = n → (∀ x, seen.getD x false = true ↔ x ∈ before) → before.Nodup →
    (rest.foldl
      (fun (state : Option (List Bool)) entry =>
        match state with
        | none => none
        | some seen =>
          if entry ≥ n then none
          else if seen.getD entry false then none
          else some (seen.set entry true))
      (some seen)).isSome = true →
    (before ++ rest).Nodup ∧ ∀ x ∈ rest, x < n := by
  intro rest
  induction rest with
  | nil =>
    intro before seen _ _ hnd _
    rw [List.append_nil]
    exact ⟨hnd, fun x hx => absurd hx (List.not_mem_nil x)⟩
  | cons e rest ih =>
    intro before seen hlen hseen hnd h
    rw [List.foldl_cons] at h
    have hnone : ∀ l : List Nat, (l.foldl
        (fun (state : Option (List Bool)) entry =>
          match state with
          | none => none
          | some seen =>
            if entry ≥ n then none
            else if seen.getD entry false then none
            else some (seen.set entry true))
        none).isSome = false := by
      intro l
      induction l with
      | nil => rfl
      | cons a l ihl => rw [List.foldl_cons]; exact ihl
    simp only [] at h
    by_cases h1 : e ≥ n
    · rw [if_pos h1, hnone] at h
      exact absurd h (by simp)
    · rw [if_neg h1] at h
      by_cases h2 : seen.getD e false = true
      · rw [if_pos h2, hnone] at h
        exact absurd h (by simp)
      · rw [if_neg h2] at h
        have hnot : e ∉ before := fun hm => h2 ((hseen e).mpr hm)
        have := ih (before ++ [e]) (seen.set e true) (by rw [List.length_set]; exact hlen)
          (by
            intro x
            by_cases hx : e = x
            · subst hx
              rw [TripBased.ShortcutSearch.getD_set_self _ _ _ _ (by omega)]
              simp
            · rw [TripBased.ShortcutSearch.getD_set_ne _ _ _ _ _ hx, hseen x,
                List.mem_append, List.mem_singleton]
              constructor
              · exact fun h' => Or.inl h'
              · rintro (h' | h')
                · exact h'
                · exact absurd h'.symm hx)
          (by
            rw [List.nodup_append]
            refine ⟨hnd, List.nodup_singleton e, ?_⟩
            intro a ha hb
            rw [List.mem_singleton] at hb
            exact hnot (hb ▸ ha))
          h
        rw [List.append_assoc] at this
        refine ⟨this.1, ?_⟩
        intro x hx
        rcases List.mem_cons.mp hx with e1 | e1
        · rw [e1]; omega
        · exact this.2 x e1

/-- A valid mapping has no entry twice and only entries below its size. -/
theorem isValid_nodup (p : List Nat) (h : isValid p = true) :
    p.Nodup ∧ ∀ x ∈ p, x < p.length := by
  unfold isValid at h
  have := isValid_loop p.length p [] (List.replicate p.length false)
    (List.length_replicate _ _)
    (by
      intro x
      constructor
      · intro hx
        by_cases hlt : x < p.length
        · rw [TripBased.Data.getD_replicate_lt _ _ _ _ hlt] at hx
          exact absurd hx (by simp)
        · rw [TripBased.ShortcutSearch.getD_of_length_le _ _ _
            (by rw [List.length_replicate]; omega)] at hx
          exact absurd hx (by simp)
      · intro hx; exact absurd hx (List.not_mem_nil x))
    List.nodup_nil h
  rw [List.nil_append] at this
  exact this

/-- A mapping without repetition whose entries are below its size has every index as an
entry. -/
theorem mem_of_valid (p : List Nat) (hnd : p.Nodup) (hlt : ∀ x ∈ p, x < p.length) (x : Nat)
    (hx : x < p.length) : x ∈ p := by
  have hsub : p.toFinset ⊆ Finset.range p.length := by
    intro y hy
    rw [List.mem_toFinset] at hy
    exact Finset.mem_range.mpr (hlt y hy)
  have hcard : (Finset.range p.length).card ≤ p.toFinset.card := by
    rw [List.toFinset_card_of_nodup hnd, Finset.card_range]
  have heq := Finset.eq_of_subset_of_card_le hsub hcard
  have : x ∈ p.toFinset := by rw [heq]; exact Finset.mem_range.mpr hx
  exact List.mem_toFinset.mp this

/-- The copying constructor inverts a valid mapping. -/
theorem invert_inverse (p : List Nat) (hnd : p.Nodup) (hlt : ∀ x ∈ p, x < p.length) :
    Inverse p (invert p) := by
  have hget : ∀ i, i < p.length → p.getD i 0 ∈ p := by
    intro i hi
    rw [List.getD_eq_getElem _ _ hi]
    exact List.getElem_mem _
  have hsur : ∀ x, x < p.length → ∃ i, i < p.length ∧ p.getD i 0 = x := by
    intro x hx
    obtain ⟨i, hi, e⟩ := List.getElem_of_mem (mem_of_valid p hnd hlt x hx)
    exact ⟨i, hi, by rw [List.getD_eq_getElem _ _ hi]; exact e⟩
  refine ⟨length_invert p, ?_, ?_, ?_, ?_⟩
  · intro x hx
    exact hlt _ (hget x hx)
  · intro x hx
    obtain ⟨i, hi, e⟩ := hsur x hx
    rw [← e, invert_getD p hnd hlt i hi]
    exact hi
  · intro x hx
    exact invert_getD p hnd hlt x hx
  · intro x hx
    obtain ⟨i, hi, e⟩ := hsur x hx
    rw [← e, invert_getD p hnd hlt i hi]

end CH

namespace CH

theorem count_false_set : ∀ (seen : List Bool) (index : Nat), index < seen.length →
    seen.getD index false = false →
    (seen.set index true).count false + 1 = seen.count false := by
  intro seen
  induction seen with
  | nil => intro index h _; exact absurd h (Nat.not_lt_zero _)
  | cons b rest ih =>
    intro index h hf
    cases index with
    | zero =>
      have : b = false := hf
      subst this
      simp
    | succ k =>
      have hk : k < rest.length := by simpa using h
      have hf' : rest.getD k false = false := hf
      have := ih k hk hf'
      rw [List.set_cons_succ, List.count_cons, List.count_cons]
      omega

theorem count_false_pos (seen : List Bool) (i : Nat) (hi : i < seen.length)
    (hf : seen.getD i false = false) : 0 < seen.count false := by
  apply List.count_pos_iff.mpr
  rw [List.getD_eq_getElem _ _ hi] at hf
  rw [← hf]
  exact List.getElem_mem _

theorem getD_set_bool (seen : List Bool) (index x : Nat) (h : index < seen.length) :
    (seen.set index true).getD x false = if x = index then true else seen.getD x false := by
  by_cases e : x = index
  · subst e
    rw [if_pos rfl]
    exact TripBased.ShortcutSearch.getD_set_self _ _ _ _ h
  · rw [if_neg e]
    exact TripBased.ShortcutSearch.getD_set_ne _ _ _ _ _ (fun h' => e h'.symm)

theorem getD_set_set (p : List Nat) (i index a b x : Nat) (hi : i < p.length)
    (hx : index < p.length) :
    ((p.set i a).set index b).getD x 0 =
      if x = index then b else if x = i then a else p.getD x 0 := by
  by_cases e : x = index
  · subst e
    rw [if_pos rfl]
    exact TripBased.ShortcutSearch.getD_set_self _ _ _ _ (by rw [List.length_set]; exact hx)
  · rw [if_neg e, TripBased.ShortcutSearch.getD_set_ne _ _ _ _ _ (fun h' => e h'.symm)]
    by_cases e2 : x = i
    · subst e2
      rw [if_pos rfl]
      exact TripBased.ShortcutSearch.getD_set_self _ _ _ _ hi
    · rw [if_neg e2]
      exact TripBased.ShortcutSearch.getD_set_ne _ _ _ _ _ (fun h' => e2 h'.symm)

/-- At the head of the inner loop the next index has not been seen. -/
theorem InvertInner.index_unseen {p0 q0 : List Nat} {seen0 : List Bool} {i : Nat}
    {p : List Nat} {seen : List Bool} {value index : Nat} (hinv : Inverse p0 q0)
    (hclosed : ∀ x, x < p0.length → seen0.getD x false = true →
      seen0.getD (q0.getD x 0) false = true)
    (h : InvertInner p0 q0 seen0 i p seen value index) :
    index < p0.length ∧ q0.getD index 0 = value ∧ seen.getD index false = false ∧
      seen0.getD index false = false := by
  have hlt : index < p0.length := by rw [h.next]; exact hinv.boundP _ h.valueLt
  have hq : q0.getD index 0 = value := by rw [h.next]; exact hinv.left _ h.valueLt
  have hs0 : seen0.getD index false = false := by
    cases hc : seen0.getD index false with
    | false => rfl
    | true =>
      have h1 := hclosed index hlt hc
      rw [hq] at h1
      rcases h.tip with e | ⟨_, e⟩
      · have := h.mono value h1
        rw [e, h.unseen] at this
        exact absurd this (by simp)
      · rw [e] at h1
        exact absurd h1 (by simp)
  refine ⟨hlt, hq, ?_, hs0⟩
  cases hc : seen.getD index false with
  | false => rfl
  | true => exact absurd hq (h.used index hlt hc hs0)

/-- One iteration of the inner loop at an index other than `i`. -/
theorem InvertInner.step {p0 q0 : List Nat} {seen0 : List Bool} {i : Nat}
    {p : List Nat} {seen : List Bool} {value index : Nat} (hinv : Inverse p0 q0)
    (hclosed : ∀ x, x < p0.length → seen0.getD x false = true →
      seen0.getD (q0.getD x 0) false = true)
    (h : InvertInner p0 q0 seen0 i p seen value index) (hne : index ≠ i) :
    InvertInner p0 q0 seen0 i ((p.set i (p.getD index 0)).set index value)
      (seen.set index true) index
      (((p.set i (p.getD index 0)).set index value).getD i 0) := by
  obtain ⟨hlt, hq, hs, hs0⟩ := h.index_unseen hinv hclosed
  have hi : i < p.length := by rw [h.lenP]; exact h.start
  have hx : index < p.length := by rw [h.lenP]; exact hlt
  have hxs : index < seen.length := by rw [h.lenS]; exact hlt
  have hpi : p.getD index 0 = p0.getD index 0 := h.untouched index hlt hs hne
  refine ⟨?_, ?_, h.start, ?_, ?_, ?_, ?_, rfl, ?_, hlt, ?_, ?_, ?_⟩
  · rw [List.length_set, List.length_set]; exact h.lenP
  · rw [List.length_set]; exact h.lenS
  · rw [getD_set_bool _ _ _ hxs, if_neg (fun e => hne e.symm)]; exact h.unseen
  · intro x hx0
    rw [getD_set_bool _ _ _ hxs]
    split
    · rfl
    · exact h.mono x hx0
  · intro x hxn hsx
    rw [getD_set_bool _ _ _ hxs] at hsx
    rw [getD_set_set _ _ _ _ _ _ hi hx]
    by_cases e : x = index
    · rw [if_pos e, e, hq]
    · rw [if_neg e] at hsx ⊢
      have e2 : x ≠ i := by
        intro e3; rw [e3, h.unseen] at hsx; exact absurd hsx (by simp)
      rw [if_neg e2]
      exact h.inverted x hxn hsx
  · intro x hxn hsx hxi
    rw [getD_set_bool _ _ _ hxs] at hsx
    rw [getD_set_set _ _ _ _ _ _ hi hx]
    by_cases e : x = index
    · rw [if_pos e] at hsx; exact absurd hsx (by simp)
    · rw [if_neg e] at hsx ⊢
      rw [if_neg hxi]
      exact h.untouched x hxn hsx hxi
  · rw [getD_set_set _ _ _ _ _ _ hi hx, if_neg (fun e => hne e.symm), if_pos rfl]
    exact hpi
  · right
    exact ⟨by rw [getD_set_bool _ _ _ hxs, if_pos rfl], hs0⟩
  · intro x hxn hsx hsx0
    rw [getD_set_bool _ _ _ hxs] at hsx
    by_cases e : x = index
    · rw [e, hq]
      rcases h.tip with t | ⟨t1, t2⟩
      · exact Or.inl t
      · right
        refine ⟨?_, t2⟩
        rw [getD_set_bool _ _ _ hxs]
        split
        · rfl
        · exact t1
    · rw [if_neg e] at hsx
      rcases h.pred x hxn hsx hsx0 with t | ⟨t1, t2⟩
      · exact Or.inl t
      · right
        refine ⟨?_, t2⟩
        rw [getD_set_bool _ _ _ hxs]
        split
        · rfl
        · exact t1
  · intro x hxn hsx hsx0
    rw [getD_set_bool _ _ _ hxs] at hsx
    by_cases e : x = index
    · rw [e, hq]
      intro e2
      rcases h.tip with t | ⟨t1, _⟩
      · exact hne (e2.symm.trans t)
      · rw [e2, hs] at t1
        exact absurd t1 (by simp)
    · rw [if_neg e] at hsx
      rcases h.pred x hxn hsx hsx0 with t | ⟨t1, _⟩
      · rw [t]; exact fun e2 => hne e2.symm
      · intro e2
        rw [e2, hs] at t1
        exact absurd t1 (by simp)

/-- The last iteration of the inner loop, at the index `i` itself. -/
theorem InvertInner.finish {p0 q0 : List Nat} {seen0 : List Bool} {i : Nat}
    {p : List Nat} {seen : List Bool} {value : Nat} (hinv : Inverse p0 q0)
    (hclosed : ∀ x, x < p0.length → seen0.getD x false = true →
      seen0.getD (q0.getD x 0) false = true)
    (h : InvertInner p0 q0 seen0 i p seen value i) :
    InvertOuter p0 q0 ((p.set i (p.getD i 0)).set i value) (seen.set i true) ∧
      (seen.set i true).getD value false = true ∧
      ((p.set i (p.getD i 0)).set i value).getD i 0 = value := by
  obtain ⟨hlt, hq, hs, hs0⟩ := h.index_unseen hinv hclosed
  have hi : i < p.length := by rw [h.lenP]; exact h.start
  have hxs : i < seen.length := by rw [h.lenS]; exact hlt
  have hval : (seen.set i true).getD value false = true := by
    rw [getD_set_bool _ _ _ hxs]
    split
    · rfl
    · rcases h.tip with t | ⟨t1, _⟩
      · rename_i hne; exact absurd t hne
      · exact t1
  refine ⟨⟨?_, ?_, ?_, ?_, ?_⟩, hval, ?_⟩
  · rw [List.length_set, List.length_set]; exact h.lenP
  · rw [List.length_set]; exact h.lenS
  · intro x hxn hsx
    rw [getD_set_bool _ _ _ hxs] at hsx
    rw [getD_set_set _ _ _ _ _ _ hi hi]
    by_cases e : x = i
    · rw [if_pos e, e, hq]
    · rw [if_neg e] at hsx ⊢
      rw [if_neg e]
      exact h.inverted x hxn hsx
  · intro x hxn hsx
    rw [getD_set_bool _ _ _ hxs] at hsx
    rw [getD_set_set _ _ _ _ _ _ hi hi]
    by_cases e : x = i
    · rw [if_pos e] at hsx; exact absurd hsx (by simp)
    · rw [if_neg e] at hsx ⊢
      rw [if_neg e]
      exact h.untouched x hxn hsx e
  · intro x hxn hsx
    rw [getD_set_bool _ _ _ hxs] at hsx
    by_cases e : x = i
    · rw [e, hq]; exact hval
    · rw [if_neg e] at hsx
      rw [getD_set_bool _ _ _ hxs]
      split
      · rfl
      · cases hc : seen0.getD x false with
        | true => exact h.mono _ (hclosed x hxn hc)
        | false =>
          rcases h.pred x hxn hsx hc with t | ⟨t1, _⟩
          · rename_i hne; exact absurd t hne
          · exact t1
  · rw [getD_set_set _ _ _ _ _ _ hi hi, if_pos rfl]

/-- The inner loop of the moving constructor ends, with the cycle of `i` inverted. -/
theorem invertCycle_spec {p0 q0 : List Nat} {seen0 : List Bool} {i : Nat}
    (hinv : Inverse p0 q0)
    (hclosed : ∀ x, x < p0.length → seen0.getD x false = true →
      seen0.getD (q0.getD x 0) false = true) :
    ∀ (fuel : Nat) (p : List Nat) (seen : List Bool) (value index : Nat),
      InvertInner p0 q0 seen0 i p seen value index → seen.count false < fuel →
      ∃ p' seen', invertCycle i fuel p seen value index = some (p', seen') ∧
        InvertOuter p0 q0 p' seen' ∧ seen'.getD i false = true ∧
        ∀ x, seen0.getD x false = true → seen'.getD x false = true := by
  intro fuel
  induction fuel with
  | zero => intro p seen value index _ hc; exact absurd hc (Nat.not_lt_zero _)
  | succ fuel ih =>
    intro p seen value index h hc
    obtain ⟨hlt, hq, hs, hs0⟩ := h.index_unseen hinv hclosed
    have hxs : index < seen.length := by rw [h.lenS]; exact hlt
    unfold invertCycle
    rw [if_neg (by rw [hs]; exact Bool.false_ne_true)]
    simp only []
    by_cases e : index = i
    · subst e
      obtain ⟨ho, hval, hhead⟩ := h.finish hinv hclosed
      have hpos := count_false_pos seen index hxs hs
      obtain ⟨f, rfl⟩ : ∃ f, fuel = f + 1 := ⟨fuel - 1, by omega⟩
      refine ⟨_, _, ?_, ho, ?_, ?_⟩
      · unfold invertCycle
        rw [hhead, if_pos hval]
      · rw [getD_set_bool _ _ _ hxs, if_pos rfl]
      · intro x hx
        rw [getD_set_bool _ _ _ hxs]
        split
        · rfl
        · exact h.mono x hx
    · have hstep := h.step hinv hclosed e
      have hcount := count_false_set seen index hxs hs
      exact ih _ _ _ _ hstep (by omega)

end CH

namespace CH

/-- The outer loop of the moving constructor ends, with every index of the list seen. -/
theorem invertFrom_spec {p0 q0 : List Nat} (hinv : Inverse p0 q0) (fuel : Nat)
    (hfuel : p0.length < fuel) :
    ∀ (rest : List Nat) (p : List Nat) (seen : List Bool), (∀ i ∈ rest, i < p0.length) →
      InvertOuter p0 q0 p seen →
      ∃ p' seen', invertFrom fuel rest p seen = some p' ∧ InvertOuter p0 q0 p' seen' ∧
        (∀ x, seen.getD x false = true → seen'.getD x false = true) ∧
        ∀ i ∈ rest, seen'.getD i false = true := by
  intro rest
  induction rest with
  | nil =>
    intro p seen _ h
    exact ⟨p, seen, rfl, h, fun _ hx => hx, fun i hi => absurd hi (List.not_mem_nil i)⟩
  | cons i rest ih =>
    intro p seen hrest h
    have hi : i < p0.length := hrest i (List.mem_cons_self _ _)
    have hrest' : ∀ j ∈ rest, j < p0.length := fun j hj => hrest j (List.mem_cons_of_mem _ hj)
    unfold invertFrom
    cases hs : seen.getD i false with
    | true =>
      rw [if_pos rfl]
      obtain ⟨p', seen', e, ho, hm, hall⟩ := ih p seen hrest' h
      refine ⟨p', seen', e, ho, hm, ?_⟩
      intro j hj
      rcases List.mem_cons.mp hj with e1 | e1
      · rw [e1]; exact hm i hs
      · exact hall j e1
    | false =>
      rw [if_neg Bool.false_ne_true]
      have hinner : InvertInner p0 q0 seen i p seen i (p.getD i 0) :=
        { lenP := h.lenP
          lenS := h.lenS
          start := hi
          unseen := hs
          mono := fun _ hx => hx
          inverted := h.inverted
          untouched := fun x hx hsx _ => h.untouched x hx hsx
          head := rfl
          next := h.untouched i hi hs
          valueLt := hi
          tip := Or.inl rfl
          pred := fun x _ h1 h2 => by rw [h1] at h2; exact absurd h2 (by simp)
          used := fun x _ h1 h2 => by rw [h1] at h2; exact absurd h2 (by simp) }
      have hcount : seen.count false < fuel := by
        have := List.count_le_length false seen
        rw [h.lenS] at this
        omega
      obtain ⟨p1, seen1, e1, ho1, hi1, hm1⟩ :=
        invertCycle_spec hinv h.closed fuel p seen i (p.getD i 0) hinner hcount
      rw [e1]
      simp only []
      obtain ⟨p', seen', e, ho, hm, hall⟩ := ih p1 seen1 hrest' ho1
      refine ⟨p', seen', e, ho, fun x hx => hm x (hm1 x hx), ?_⟩
      intro j hj
      rcases List.mem_cons.mp hj with e2 | e2
      · rw [e2]; exact hm i hi1
      · exact hall j e2

/-- The moving constructor returns the inverse of a mapping that has one. -/
theorem invertInPlace_eq {p q : List Nat} (hinv : Inverse p q) : invertInPlace p = some q := by
  have h0 : InvertOuter p q p (List.replicate p.length false) := by
    have hf : ∀ x, (List.replicate p.length false).getD x false = false := by
      intro x
      by_cases hx : x < p.length
      · exact TripBased.Data.getD_replicate_lt _ _ _ _ hx
      · exact TripBased.ShortcutSearch.getD_of_length_le _ _ _
          (by rw [List.length_replicate]; omega)
    refine ⟨rfl, List.length_replicate _ _, ?_, fun _ _ _ => rfl, ?_⟩
    · intro x _ hx; rw [hf] at hx; exact absurd hx (by simp)
    · intro x _ hx; rw [hf] at hx; exact absurd hx (by simp)
  obtain ⟨p', seen', e, ho, _, hall⟩ := invertFrom_spec hinv (p.length + 1) (by omega)
    (List.range p.length) p _ (fun i hi => List.mem_range.mp hi) h0
  unfold invertInPlace
  rw [e]
  congr 1
  apply List.ext_getElem (by rw [ho.lenP, hinv.length])
  intro x h1 h2
  have hx : x < p.length := by rw [← ho.lenP]; exact h1
  have := ho.inverted x hx (hall x (List.mem_range.mpr hx))
  rw [List.getD_eq_getElem _ _ h1, List.getD_eq_getElem _ _ h2] at this
  exact this

/-- Claim C39: for every valid mapping `p` (one for which `isValid()` holds), the moving
constructor `IdMapping(Invert, std::move(p))` ends and produces the vector `q` that the
copying constructor `IdMapping(Invert, p)` produces; `q` has the size of `p`, and
`q[p[i]] = i` and `p[q[i]] = i` for every index `i`. -/
theorem invert_constructors_agree (p : List Nat) (h : isValid p = true) :
    invertInPlace p = some (invert p) ∧ (invert p).length = p.length ∧
      ∀ i, i < p.length →
        (invert p).getD (p.getD i 0) 0 = i ∧ p.getD ((invert p).getD i 0) 0 = i := by
  obtain ⟨hnd, hlt⟩ := isValid_nodup p h
  have hinv := invert_inverse p hnd hlt
  exact ⟨invertInPlace_eq hinv, hinv.length, fun i hi => ⟨hinv.left i hi, hinv.right i hi⟩⟩

/-- Claim C39 at the mapping 2, 0, 3, 1, 4, 6, 5, which has a cycle of four indices, a fixed
index and a cycle of two: both constructors produce 1, 3, 0, 2, 4, 6, 5. -/
theorem invert_constructors_agree_witness :
    invert [2, 0, 3, 1, 4, 6, 5] = [1, 3, 0, 2, 4, 6, 5] ∧
    (invertInPlace [2, 0, 3, 1, 4, 6, 5] = some (invert [2, 0, 3, 1, 4, 6, 5]) ∧
      (invert [2, 0, 3, 1, 4, 6, 5]).length = [2, 0, 3, 1, 4, 6, 5].length ∧
      ∀ i, i < [2, 0, 3, 1, 4, 6, 5].length →
        (invert [2, 0, 3, 1, 4, 6, 5]).getD ([2, 0, 3, 1, 4, 6, 5].getD i 0) 0 = i ∧
          [2, 0, 3, 1, 4, 6, 5].getD ((invert [2, 0, 3, 1, 4, 6, 5]).getD i 0) 0 = i) :=
  ⟨by decide, invert_constructors_agree [2, 0, 3, 1, 4, 6, 5] (by decide)⟩

end CH

namespace TripBased
namespace StopEventGraphBuilder

theorem lower_cons (p : Nat × Int) (rest : List (Nat × Int)) (y : Nat) (m : Int) :
    lower (p :: rest) y m = lower rest y (if p.1 = y then min m p.2 else m) := rfl

theorem lower_append (a b : List (Nat × Int)) (y : Nat) (m : Int) :
    lower (a ++ b) y m = lower b y (lower a y m) := by
  unfold lower
  rw [List.foldl_append]

theorem lower_le : ∀ (pairs : List (Nat × Int)) (y : Nat) (m : Int), lower pairs y m ≤ m := by
  intro pairs
  induction pairs with
  | nil => intro y m; exact le_refl m
  | cons p rest ih =>
    intro y m
    rw [lower_cons]
    refine le_trans (ih y _) ?_
    split
    · exact min_le_left _ _
    · exact le_refl m

theorem lower_mono : ∀ (pairs : List (Nat × Int)) (y : Nat) (m m' : Int), m ≤ m' →
    lower pairs y m ≤ lower pairs y m' := by
  intro pairs
  induction pairs with
  | nil => intro y m m' h; exact h
  | cons p rest ih =>
    intro y m m' h
    rw [lower_cons, lower_cons]
    apply ih
    split
    · exact min_le_min h (le_refl _)
    · exact h

/-- An arrival of the list is not earlier than the time lowered by the list. -/
theorem lower_le_of_mem : ∀ (pairs : List (Nat × Int)) (p : Nat × Int) (m : Int),
    p ∈ pairs → lower pairs p.1 m ≤ p.2 := by
  intro pairs
  induction pairs with
  | nil => intro p m h; exact absurd h (List.not_mem_nil p)
  | cons q rest ih =>
    intro p m h
    rw [lower_cons]
    rcases List.mem_cons.mp h with e | e
    · subst e
      rw [if_pos rfl]
      exact le_trans (lower_le rest _ _) (min_le_right _ _)
    · exact ih p _ e

theorem best_append (known pairs : List (Nat × Int)) (y : Nat) :
    best (known ++ pairs) y = lower pairs y (best known y) := by
  unfold best
  rw [lower_append]

theorem effective_eq (timeStamp : Int) (labels : List StopLabel) (x : Nat) :
    effective timeStamp labels x =
      if (labels.getD x {}).timeStamp ≠ timeStamp then INFTY
      else (labels.getD x {}).arrivalTime := rfl

/-- What `improve` does to the labels and to the flag, for a stop that has a label. -/
theorem improve_spec (timeStamp : Int) (labels : List StopLabel) (keep : Bool) (x : Nat)
    (t : Int) (hx : x < labels.length) :
    (improve timeStamp (labels, keep) x t).1.length = labels.length ∧
    (∀ y, effective timeStamp (improve timeStamp (labels, keep) x t).1 y =
      if x = y then min (effective timeStamp labels x) t else effective timeStamp labels y) ∧
    (improve timeStamp (labels, keep) x t).2 =
      (keep || decide (t < effective timeStamp labels x)) := by
  have h1 : (labels.updateAt x (fun l => l.checkTimeStamp timeStamp)).getD x {} =
      (labels.getD x {}).checkTimeStamp timeStamp :=
    CH.getD_updateAt_self _ _ _ _ hx
  have hlen1 : (labels.updateAt x (fun l => l.checkTimeStamp timeStamp)).length =
      labels.length := CH.length_updateAt _ _ _
  have heff : ((labels.getD x {}).checkTimeStamp timeStamp).arrivalTime =
      effective timeStamp labels x := rfl
  unfold improve
  simp only []
  rw [h1, heff]
  by_cases hc : effective timeStamp labels x > t
  · rw [if_pos hc]
    refine ⟨?_, ?_, ?_⟩
    · show (List.updateAt _ x _).length = _
      rw [CH.length_updateAt, hlen1]
    · intro y
      by_cases e : x = y
      · subst e
        rw [if_pos rfl, effective_eq]
        have : ((labels.updateAt x (fun l => l.checkTimeStamp timeStamp)).updateAt x
            (fun l => { l with arrivalTime := t })).getD x {} =
            { (labels.getD x {}).checkTimeStamp timeStamp with arrivalTime := t } := by
          rw [CH.getD_updateAt_self _ _ _ _ (by rw [hlen1]; exact hx), h1]
        show (if (((labels.updateAt x (fun l => l.checkTimeStamp timeStamp)).updateAt x
            (fun l => { l with arrivalTime := t })).getD x {}).timeStamp ≠ timeStamp then INFTY
          else (((labels.updateAt x (fun l => l.checkTimeStamp timeStamp)).updateAt x
            (fun l => { l with arrivalTime := t })).getD x {}).arrivalTime) = _
        rw [this]
        show (if timeStamp ≠ timeStamp then INFTY else t) = _
        rw [if_neg (fun h => h rfl), min_eq_right (le_of_lt hc)]
      · rw [if_neg e, effective_eq, effective_eq]
        show (if (((labels.updateAt x (fun l => l.checkTimeStamp timeStamp)).updateAt x
            (fun l => { l with arrivalTime := t })).getD y {}).timeStamp ≠ timeStamp then INFTY
          else (((labels.updateAt x (fun l => l.checkTimeStamp timeStamp)).updateAt x
            (fun l => { l with arrivalTime := t })).getD y {}).arrivalTime) = _
        rw [CH.getD_updateAt_other _ _ _ _ _ e, CH.getD_updateAt_other _ _ _ _ _ e]
    · show true = _
      rw [decide_eq_true hc, Bool.or_true]
  · rw [if_neg hc]
    refine ⟨hlen1, ?_, ?_⟩
    · intro y
      by_cases e : x = y
      · subst e
        rw [if_pos rfl, effective_eq]
        show (if ((labels.updateAt x (fun l => l.checkTimeStamp timeStamp)).getD x {}).timeStamp
            ≠ timeStamp then INFTY
          else ((labels.updateAt x (fun l => l.checkTimeStamp timeStamp)).getD x {}).arrivalTime)
            = _
        rw [h1]
        show (if timeStamp ≠ timeStamp then INFTY
          else ((labels.getD x {}).checkTimeStamp timeStamp).arrivalTime) = _
        rw [if_neg (fun h => h rfl), heff, min_eq_left (not_lt.mp hc)]
      · rw [if_neg e, effective_eq, effective_eq]
        show (if ((labels.updateAt x (fun l => l.checkTimeStamp timeStamp)).getD y {}).timeStamp
            ≠ timeStamp then INFTY
          else ((labels.updateAt x (fun l => l.checkTimeStamp timeStamp)).getD y {}).arrivalTime)
            = _
        rw [CH.getD_updateAt_other _ _ _ _ _ e]
    · show keep = _
      rw [decide_eq_false (fun h => hc h), Bool.or_false]

/-- What the loop of `improve` over a list of arrivals does to the labels and to the
flag. -/
theorem foldl_improve_spec (timeStamp : Int) :
    ∀ (pairs : List (Nat × Int)) (labels : List StopLabel) (keep : Bool),
      (∀ p ∈ pairs, p.1 < labels.length) →
      (pairs.foldl (fun st p => improve timeStamp st p.1 p.2) (labels, keep)).1.length =
        labels.length ∧
      (∀ y, effective timeStamp
          (pairs.foldl (fun st p => improve timeStamp st p.1 p.2) (labels, keep)).1 y =
        lower pairs y (effective timeStamp labels y)) ∧
      ((pairs.foldl (fun st p => improve timeStamp st p.1 p.2) (labels, keep)).2 = true ↔
        keep = true ∨ ∃ p ∈ pairs, p.2 < effective timeStamp labels p.1) := by
  intro pairs
  induction pairs with
  | nil =>
    intro labels keep _
    refine ⟨rfl, fun _ => rfl, ?_⟩
    constructor
    · exact fun h => Or.inl h
    · rintro (h | ⟨p, hp, _⟩)
      · exact h
      · exact absurd hp (List.not_mem_nil p)
  | cons p rest ih =>
    intro labels keep hrange
    have hp : p.1 < labels.length := hrange p (List.mem_cons_self _ _)
    obtain ⟨a1, a2, a3⟩ := improve_spec timeStamp labels keep p.1 p.2 hp
    rw [List.foldl_cons]
    have hst : improve timeStamp (labels, keep) p.1 p.2 =
        ((improve timeStamp (labels, keep) p.1 p.2).1,
          (improve timeStamp (labels, keep) p.1 p.2).2) := rfl
    rw [hst]
    obtain ⟨b1, b2, b3⟩ := ih (improve timeStamp (labels, keep) p.1 p.2).1
      (improve timeStamp (labels, keep) p.1 p.2).2
      (fun q hq => by rw [a1]; exact hrange q (List.mem_cons_of_mem _ hq))
    refine ⟨b1.trans a1, ?_, ?_⟩
    · intro y
      rw [b2, lower_cons, a2]
      congr 1
      by_cases e : p.1 = y
      · rw [if_pos e, if_pos e, e]
      · rw [if_neg e, if_neg e]
    · rw [b3, a3]
      constructor
      · rintro (h | ⟨q, hq, hlt⟩)
        · rcases Bool.or_eq_true_iff.mp h with h1 | h1
          · exact Or.inl h1
          · exact Or.inr ⟨p, List.mem_cons_self _ _, of_decide_eq_true h1⟩
        · right
          rw [a2] at hlt
          by_cases e : p.1 = q.1
          · rw [if_pos e] at hlt
            refine ⟨q, List.mem_cons_of_mem _ hq, ?_⟩
            rw [← e]
            exact lt_of_lt_of_le hlt (min_le_left _ _)
          · rw [if_neg e] at hlt
            exact ⟨q, List.mem_cons_of_mem _ hq, hlt⟩
      · rintro (h | ⟨q, hq, hlt⟩)
        · left; rw [h]; rfl
        · rcases List.mem_cons.mp hq with e | e
          · left
            rw [e] at hlt
            rw [decide_eq_true hlt, Bool.or_true]
          · by_cases hpl : p.2 < effective timeStamp labels p.1
            · left
              rw [decide_eq_true hpl, Bool.or_true]
            · right
              refine ⟨q, e, ?_⟩
              rw [a2]
              by_cases e2 : p.1 = q.1
              · rw [if_pos e2, lt_min_iff, e2]
                rw [e2] at hpl
                exact ⟨hlt, lt_of_lt_of_le hlt (not_lt.mp hpl)⟩
              · rw [if_neg e2]
                exact hlt

end StopEventGraphBuilder
end TripBased

namespace TripBased
namespace StopEventGraphBuilder

/-- The nested loops of `reduceTransfers` over the stops of a target and the edges that
leave them are one loop over the arrivals of the target. -/
theorem scan_fold (timeStamp : Int) (stopOf : Nat → Nat) (timeOf : Nat → Int)
    (edgesOf : Nat → List Nat) (head : Nat → Nat) (tt : Nat → Int) :
    ∀ (js : List Nat) (st : List StopLabel × Bool),
      js.foldl
        (fun state j =>
          (edgesOf (stopOf j)).foldl
            (fun state edge => improve timeStamp state (head edge) (timeOf j + tt edge))
            (improve timeStamp state (stopOf j) (timeOf j))) st =
      (js.flatMap (fun j => (stopOf j, timeOf j) ::
          (edgesOf (stopOf j)).map (fun e => (head e, timeOf j + tt e)))).foldl
        (fun st p => improve timeStamp st p.1 p.2) st := by
  intro js
  induction js with
  | nil => intro st; rfl
  | cons j rest ih =>
    intro st
    rw [List.foldl_cons, List.flatMap_cons, List.foldl_append, List.foldl_cons, List.foldl_map,
      ih]

theorem scanTarget_eq (td : Data) (timeStamp : Int) (labels : List StopLabel)
    (transferTarget : Nat) :
    scanTarget td timeStamp labels transferTarget =
      (targetArrivals td transferTarget).foldl (fun st p => improve timeStamp st p.1 p.2)
        (labels, false) := by
  unfold scanTarget targetArrivals
  exact scan_fold timeStamp
    (fun j => td.raptorData.stopIdAt
      (td.stopArrayOfTrip (td.tripOfStopEvent.getD transferTarget 0) +
        td.indexOfStopEvent.getD transferTarget 0 + j))
    (fun j => (td.raptorData.stopEventAt (transferTarget + j)).arrivalTime)
    (fun stop => td.raptorData.transferGraph.edgesFrom stop)
    (fun edge => td.raptorData.transferGraph.toVertex.getD edge noVertex)
    (fun edge => td.raptorData.transferGraph.travelTime.getD edge 0) _ _

/-- What `labels[x].update(timeStamp, t)` does to the labels, for a stop with a label. -/
theorem label_update_spec (timeStamp : Int) (labels : List StopLabel) (x : Nat) (t : Int)
    (hx : x < labels.length) (y : Nat) :
    effective timeStamp (labels.updateAt x (fun l => l.update timeStamp t)) y =
      if x = y then min (effective timeStamp labels y) t else effective timeStamp labels y := by
  rw [effective_eq]
  by_cases e : x = y
  · subst e
    rw [if_pos rfl, CH.getD_updateAt_self _ _ _ _ hx]
    show (if timeStamp ≠ timeStamp then INFTY
      else min ((labels.getD x {}).checkTimeStamp timeStamp).arrivalTime t) = _
    rw [if_neg (fun h => h rfl)]
    rfl
  · rw [if_neg e, CH.getD_updateAt_other _ _ _ _ _ e, effective_eq]

/-- The updates of the labels for a list of arrivals lower the labels by the list. -/
theorem foldl_update_spec (timeStamp : Int) :
    ∀ (pairs : List (Nat × Int)) (labels : List StopLabel),
      (∀ p ∈ pairs, p.1 < labels.length) →
      (pairs.foldl (fun l p => l.updateAt p.1 (fun lab => lab.update timeStamp p.2))
        labels).length = labels.length ∧
      ∀ y, effective timeStamp
          (pairs.foldl (fun l p => l.updateAt p.1 (fun lab => lab.update timeStamp p.2)) labels)
          y = lower pairs y (effective timeStamp labels y) := by
  intro pairs
  induction pairs with
  | nil => intro labels _; exact ⟨rfl, fun _ => rfl⟩
  | cons p rest ih =>
    intro labels hrange
    have hp : p.1 < labels.length := hrange p (List.mem_cons_self _ _)
    rw [List.foldl_cons]
    obtain ⟨b1, b2⟩ := ih (labels.updateAt p.1 (fun lab => lab.update timeStamp p.2))
      (fun q hq => by rw [CH.length_updateAt]; exact hrange q (List.mem_cons_of_mem _ hq))
    refine ⟨by rw [b1, CH.length_updateAt], ?_⟩
    intro y
    rw [b2, lower_cons, label_update_spec _ _ _ _ hp]

/-- The labels after the entries of `reduceTransfers(trip)` for the stop index `i`. -/
theorem own_labels (td : Data) (timeStamp : Int) (labels : List StopLabel) (trip i : Nat) :
    (td.raptorData.transferGraph.edgesFrom
        (td.raptorData.stopIdAt (td.stopArrayOfTrip trip + i))).foldl
      (fun labels edge =>
        labels.updateAt (td.raptorData.transferGraph.toVertex.getD edge noVertex)
          (fun l => l.update timeStamp
            ((td.raptorData.stopEventAt (td.firstStopEventOfTrip.getD trip 0 + i)).arrivalTime +
              td.raptorData.transferGraph.travelTime.getD edge 0)))
      (labels.updateAt (td.raptorData.stopIdAt (td.stopArrayOfTrip trip + i))
        (fun l => l.update timeStamp
          (td.raptorData.stopEventAt (td.firstStopEventOfTrip.getD trip 0 + i)).arrivalTime)) =
    (ownArrivals td trip i).foldl
      (fun l p => l.updateAt p.1 (fun lab => lab.update timeStamp p.2)) labels := by
  unfold ownArrivals
  simp only []
  rw [List.foldl_cons, List.foldl_map]

/-- The labels that stand for the known arrivals stand, once lowered by a list of
arrivals, for the known arrivals and those of the list. -/
theorem Represents.lowered {timeStamp : Int} {labels labels' : List StopLabel}
    {known : List (Nat × Int)} (h : Represents timeStamp labels known)
    (pairs : List (Nat × Int)) (hlen : labels'.length = labels.length)
    (heff : ∀ y, effective timeStamp labels' y = lower pairs y (effective timeStamp labels y)) :
    Represents timeStamp labels' (known ++ pairs) := by
  intro x hx
  rw [heff, best_append, h x (by rw [← hlen]; exact hx)]

/-- A target all of whose arrivals are known is no improvement. -/
theorem improves_of_known (td : Data) (known : List (Nat × Int)) (w : Nat)
    (h : ∀ p ∈ targetArrivals td w, p ∈ known) : improves td known w = false := by
  unfold improves
  rw [List.any_eq_false]
  intro p hp
  rw [decide_eq_true_eq]
  exact not_lt.mpr (by
    unfold best
    exact lower_le_of_mem known p INFTY (h p hp))

/-- The transfers the specification keeps are transfers of the list, and none of them is
a target whose arrivals are known already. -/
theorem mem_keptBySpec (td : Data) (w : Nat) : ∀ (transfers : List Nat)
    (known : List (Nat × Int)), w ∈ keptBySpec td known transfers →
    w ∈ transfers ∧ ¬ ∀ p ∈ targetArrivals td w, p ∈ known := by
  intro transfers
  induction transfers with
  | nil => intro known h; exact absurd h (List.not_mem_nil w)
  | cons y rest ih =>
    intro known h
    unfold keptBySpec at h
    rcases List.mem_append.mp h with h1 | h1
    · by_cases hc : improves td known y = true
      · rw [if_pos hc, List.mem_singleton] at h1
        subst h1
        refine ⟨List.mem_cons_self _ _, ?_⟩
        intro hall
        rw [improves_of_known td known w hall] at hc
        exact absurd hc (by simp)
      · rw [if_neg hc] at h1
        exact absurd h1 (List.not_mem_nil w)
    · obtain ⟨a, b⟩ := ih _ h1
      exact ⟨List.mem_cons_of_mem _ a, fun hall => b (fun p hp =>
        List.mem_append_left _ (hall p hp))⟩

/-- The specification keeps no transfer twice. -/
theorem keptBySpec_nodup (td : Data) : ∀ (transfers : List Nat) (known : List (Nat × Int)),
    (keptBySpec td known transfers).Nodup := by
  intro transfers
  induction transfers with
  | nil => intro known; exact List.nodup_nil
  | cons y rest ih =>
    intro known
    unfold keptBySpec
    rw [List.nodup_append]
    refine ⟨?_, ih _, ?_⟩
    · split
      · exact List.nodup_singleton y
      · exact List.nodup_nil
    · intro a ha hb
      have hay : a = y := by
        split at ha
        · exact List.mem_singleton.mp ha
        · exact absurd ha (List.not_mem_nil a)
      subst hay
      exact (mem_keptBySpec td a rest _ hb).2 (fun p hp => List.mem_append_right _ hp)

/-- The loop of `reduceTransfers` over the transfers of a stop event keeps what the
specification keeps, and leaves labels that stand for all the arrivals seen. -/
theorem keep_loop (td : Data) (timeStamp : Int) :
    ∀ (transfers : List Nat) (labels : List StopLabel) (kept : List Nat)
      (known : List (Nat × Int)), Represents timeStamp labels known →
      (∀ w ∈ transfers, ∀ p ∈ targetArrivals td w, p.1 < labels.length) →
      (transfers.foldl
        (fun (state : List StopLabel × List Nat) transferTarget =>
          ((scanTarget td timeStamp state.1 transferTarget).1,
            if (scanTarget td timeStamp state.1 transferTarget).2 then
              state.2 ++ [transferTarget] else state.2))
        (labels, kept)).1.length = labels.length ∧
      Represents timeStamp
        (transfers.foldl
          (fun (state : List StopLabel × List Nat) transferTarget =>
            ((scanTarget td timeStamp state.1 transferTarget).1,
              if (scanTarget td timeStamp state.1 transferTarget).2 then
                state.2 ++ [transferTarget] else state.2))
          (labels, kept)).1 (known ++ transfers.flatMap (targetArrivals td)) ∧
      (transfers.foldl
        (fun (state : List StopLabel × List Nat) transferTarget =>
          ((scanTarget td timeStamp state.1 transferTarget).1,
            if (scanTarget td timeStamp state.1 transferTarget).2 then
              state.2 ++ [transferTarget] else state.2))
        (labels, kept)).2 = kept ++ keptBySpec td known transfers := by
  intro transfers
  induction transfers with
  | nil =>
    intro labels kept known h _
    refine ⟨rfl, ?_, ?_⟩
    · rw [List.flatMap_nil, List.append_nil]; exact h
    · unfold keptBySpec; rw [List.append_nil]; rfl
  | cons y rest ih =>
    intro labels kept known h hrange
    have hy : ∀ p ∈ targetArrivals td y, p.1 < labels.length :=
      hrange y (List.mem_cons_self _ _)
    obtain ⟨a1, a2, a3⟩ := foldl_improve_spec timeStamp (targetArrivals td y) labels false hy
    rw [← scanTarget_eq] at a1 a2 a3
    have hrep1 : Represents timeStamp (scanTarget td timeStamp labels y).1
        (known ++ targetArrivals td y) := h.lowered _ a1 a2
    have hkeep : (scanTarget td timeStamp labels y).2 = improves td known y := by
      have hiff : (scanTarget td timeStamp labels y).2 = true ↔ improves td known y = true := by
        rw [a3]
        unfold improves
        rw [List.any_eq_true]
        constructor
        · rintro (hf | ⟨p, hp, hlt⟩)
          · exact absurd hf (by simp)
          · refine ⟨p, hp, ?_⟩
            rw [decide_eq_true_eq, ← h p.1 (hy p hp)]
            exact hlt
        · rintro ⟨p, hp, hlt⟩
          right
          refine ⟨p, hp, ?_⟩
          rw [decide_eq_true_eq, ← h p.1 (hy p hp)] at hlt
          exact hlt
      cases hs : (scanTarget td timeStamp labels y).2 with
      | true => exact (hiff.mp hs).symm
      | false =>
        cases hi : improves td known y with
        | true => rw [hiff.mpr hi] at hs; exact absurd hs (by simp)
        | false => rfl
    rw [List.foldl_cons]
    obtain ⟨b1, b2, b3⟩ := ih (scanTarget td timeStamp labels y).1
      (if (scanTarget td timeStamp labels y).2 then kept ++ [y] else kept)
      (known ++ targetArrivals td y) hrep1
      (fun w hw p hp => by rw [a1]; exact hrange w (List.mem_cons_of_mem _ hw) p hp)
    refine ⟨b1.trans a1, ?_, ?_⟩
    · rw [List.flatMap_cons, ← List.append_assoc]
      exact b2
    · rw [b3, hkeep]
      conv_rhs => unfold keptBySpec
      cases improves td known y with
      | true => simp
      | false => simp

end StopEventGraphBuilder
end TripBased

namespace TripBased
namespace StopEventGraphBuilder
open Data

/-- One iteration of the loop of `reduceTransfers(trip)` does what the specification lets
it do. -/
theorem reduceStop_spec (sort : (Nat → Nat → Bool) → List Nat → List Nat) (td : Data)
    (trip : Nat) (b : StopEventGraphBuilder) (known : List (Nat × Int)) (i : Nat)
    (hrep : Represents b.timeStamp b.labels known)
    (hown : ∀ p ∈ ownArrivals td trip i, p.1 < b.labels.length)
    (htargets : ∀ w ∈ sort
        (fun x y => decide ((td.raptorData.stopEventAt x).arrivalTime <
          (td.raptorData.stopEventAt y).arrivalTime))
        (b.edges.getD (td.firstStopEventOfTrip.getD trip 0 + i) []),
      ∀ p ∈ targetArrivals td w, p.1 < b.labels.length) :
    (reduceStop sort td trip b i).timeStamp = b.timeStamp ∧
    (reduceStop sort td trip b i).labels.length = b.labels.length ∧
    Represents b.timeStamp (reduceStop sort td trip b i).labels
      (specStop sort td trip (known, b.edges) i).1 ∧
    (reduceStop sort td trip b i).edges = (specStop sort td trip (known, b.edges) i).2 := by
  obtain ⟨o1, o2⟩ := foldl_update_spec b.timeStamp (ownArrivals td trip i) b.labels hown
  have hrep1 := hrep.lowered (ownArrivals td trip i) o1 o2
  unfold reduceStop specStop
  simp only []
  rw [own_labels]
  by_cases hemp : (b.edges.getD (td.firstStopEventOfTrip.getD trip 0 + i) []).isEmpty = true
  · rw [if_pos hemp, if_pos hemp]
    exact ⟨rfl, o1, hrep1, rfl⟩
  · rw [if_neg hemp, if_neg hemp]
    obtain ⟨k1, k2, k3⟩ := keep_loop td b.timeStamp
      (uniqueTransfers (sort
        (fun x y => decide ((td.raptorData.stopEventAt x).arrivalTime <
          (td.raptorData.stopEventAt y).arrivalTime))
        (b.edges.getD (td.firstStopEventOfTrip.getD trip 0 + i) [])))
      ((ownArrivals td trip i).foldl
        (fun l p => l.updateAt p.1 (fun lab => lab.update b.timeStamp p.2)) b.labels)
      [] (known ++ ownArrivals td trip i) hrep1
      (fun w hw p hp => by
        rw [o1]
        exact htargets w (uniqueTransfers_subset _ w hw) p hp)
    refine ⟨rfl, k1.trans o1, k2, ?_⟩
    show b.edges.set _ _ = b.edges.set _ _
    rw [k3, List.nil_append]

/-- The transfers that one iteration leaves are transfers that were there. -/
theorem specStop_subset (sort : (Nat → Nat → Bool) → List Nat → List Nat)
    (hsort : ∀ less l, (sort less l).Perm l) (td : Data) (trip : Nat)
    (state : List (Nat × Int) × List (List Nat)) (i v w : Nat)
    (h : w ∈ (specStop sort td trip state i).2.getD v []) : w ∈ state.2.getD v [] := by
  unfold specStop at h
  simp only [] at h
  split at h
  · exact h
  · simp only [] at h
    by_cases hv : td.firstStopEventOfTrip.getD trip 0 + i = v
    · subst hv
      by_cases hlen : td.firstStopEventOfTrip.getD trip 0 + i < state.2.length
      · rw [ShortcutSearch.getD_set_self _ _ _ _ hlen] at h
        have h2 := (mem_keptBySpec td w _ _ h).1
        exact (hsort _ _).mem_iff.mp (uniqueTransfers_subset _ w h2)
      · rw [ShortcutSearch.set_of_length_le _ _ _ (by omega)] at h
        exact h
    · rw [ShortcutSearch.getD_set_ne _ _ _ _ _ hv] at h
      exact h

/-- The loop of `reduceTransfers(trip)` does what the specification lets it do. -/
theorem reduceLoop_spec (sort : (Nat → Nat → Bool) → List Nat → List Nat)
    (hsort : ∀ less l, (sort less l).Perm l) (td : Data) (trip : Nat) :
    ∀ (is : List Nat) (b : StopEventGraphBuilder) (known : List (Nat × Int)),
      Represents b.timeStamp b.labels known →
      (∀ i ∈ is, ∀ p ∈ ownArrivals td trip i, p.1 < b.labels.length) →
      (∀ v, ∀ w ∈ b.edges.getD v [], ∀ p ∈ targetArrivals td w, p.1 < b.labels.length) →
      (is.foldl (reduceStop sort td trip) b).edges =
        (is.foldl (specStop sort td trip) (known, b.edges)).2 := by
  intro is
  induction is with
  | nil => intro b known _ _ _; rfl
  | cons i rest ih =>
    intro b known hrep hown htargets
    obtain ⟨r1, r2, r3, r4⟩ := reduceStop_spec sort td trip b known i hrep
      (hown i (List.mem_cons_self _ _))
      (fun w hw => htargets _ w ((hsort _ _).mem_iff.mp hw))
    rw [List.foldl_cons, List.foldl_cons]
    have hstate : specStop sort td trip (known, b.edges) i =
        ((specStop sort td trip (known, b.edges) i).1, (reduceStop sort td trip b i).edges) := by
      rw [r4]
    rw [hstate]
    apply ih
    · rw [r1]; exact r3
    · intro j hj p hp
      rw [r2]
      exact hown j (List.mem_cons_of_mem _ hj) p hp
    · intro v w hw p hp
      rw [r2]
      rw [r4] at hw
      exact htargets v w (specStop_subset sort hsort td trip _ i v w hw) p hp

/-- The loop of the specification leaves transfers that were there. -/
theorem specLoop_subset (sort : (Nat → Nat → Bool) → List Nat → List Nat)
    (hsort : ∀ less l, (sort less l).Perm l) (td : Data) (trip v w : Nat) :
    ∀ (is : List Nat) (state : List (Nat × Int) × List (List Nat)),
      w ∈ (is.foldl (specStop sort td trip) state).2.getD v [] → w ∈ state.2.getD v [] := by
  intro is
  induction is with
  | nil => intro state h; exact h
  | cons i rest ih =>
    intro state h
    rw [List.foldl_cons] at h
    exact specStop_subset sort hsort td trip state i v w (ih _ h)

/-- The loop of the specification leaves no transfer twice at the stop events it
visits. -/
theorem specLoop_nodup (sort : (Nat → Nat → Bool) → List Nat → List Nat) (td : Data)
    (trip : Nat) (D : Nat → Prop) :
    ∀ (is : List Nat) (state : List (Nat × Int) × List (List Nat)),
      (∀ v, D v → (state.2.getD v []).Nodup) →
      ∀ v, (D v ∨ ∃ i ∈ is, v = td.firstStopEventOfTrip.getD trip 0 + i) →
        ((is.foldl (specStop sort td trip) state).2.getD v []).Nodup := by
  intro is
  induction is generalizing D with
  | nil =>
    intro state h v hv
    rcases hv with hv | ⟨i, hi, _⟩
    · exact h v hv
    · exact absurd hi (List.not_mem_nil i)
  | cons i rest ih =>
    intro state h v hv
    rw [List.foldl_cons]
    apply ih (fun x => D x ∨ x = td.firstStopEventOfTrip.getD trip 0 + i)
    · intro x hx
      unfold specStop
      simp only []
      split
      · rename_i hemp
        rcases hx with hx | hx
        · exact h x hx
        · rw [hx, List.isEmpty_iff.mp hemp]
          exact List.nodup_nil
      · simp only []
        by_cases e : td.firstStopEventOfTrip.getD trip 0 + i = x
        · subst e
          by_cases hlen : td.firstStopEventOfTrip.getD trip 0 + i < state.2.length
          · rw [ShortcutSearch.getD_set_self _ _ _ _ hlen]
            exact keptBySpec_nodup td _ _
          · rw [ShortcutSearch.getD_of_length_le _ _ _ (by rw [List.length_set]; omega)]
            exact List.nodup_nil
        · rw [ShortcutSearch.getD_set_ne _ _ _ _ _ e]
          rcases hx with hx | hx
          · exact h x hx
          · exact absurd hx.symm e
    · rcases hv with hv | ⟨j, hj, e⟩
      · exact Or.inl (Or.inl hv)
      · rcases List.mem_cons.mp hj with e2 | e2
        · exact Or.inl (Or.inr (by rw [e, e2]))
        · exact Or.inr ⟨j, e2, e⟩

/-- After the increment of the time stamp the labels stand for no known arrival. -/
theorem represents_fresh (b : StopEventGraphBuilder)
    (hstamp : ∀ l ∈ b.labels, l.timeStamp ≤ b.timeStamp) :
    Represents (b.timeStamp + 1) b.labels [] := by
  intro x hx
  rw [effective_eq]
  have hm : b.labels.getD x {} ∈ b.labels := by
    rw [List.getD_eq_getElem _ _ hx]
    exact List.getElem_mem _
  have := hstamp _ hm
  rw [if_pos (by omega)]
  rfl

/-- `reduceTransfers(trip)` makes of the transfers what the specification makes of them. -/
theorem reduceTransfers_eq_spec (sort : (Nat → Nat → Bool) → List Nat → List Nat)
    (hsort : ∀ less l, (sort less l).Perm l) (td : Data) (b : StopEventGraphBuilder)
    (trip : Nat) (hstamp : ∀ l ∈ b.labels, l.timeStamp ≤ b.timeStamp)
    (hown : ∀ i, 1 ≤ i → i < td.numberOfStopsInTrip trip →
      ∀ p ∈ ownArrivals td trip i, p.1 < b.labels.length)
    (htargets : ∀ v, ∀ w ∈ b.edges.getD v [], ∀ p ∈ targetArrivals td w,
      p.1 < b.labels.length) :
    (reduceTransfers sort td b trip).edges = specTransfers sort td b.edges trip := by
  unfold reduceTransfers specTransfers
  apply reduceLoop_spec sort hsort td trip _ { b with timeStamp := b.timeStamp + 1 } []
    (represents_fresh b hstamp)
  · intro i hi p hp
    rw [List.mem_reverse, List.mem_range'_1] at hi
    exact hown i hi.1 (by omega) p hp
  · exact htargets

end StopEventGraphBuilder
end TripBased

namespace TripBased
namespace StopEventGraphBuilder
open Data

/-- The constructor builds `tiedTargetsData` from `tiedTargets`. -/
theorem ofRaptor_tiedTargets : ofRaptor tiedTargets = some tiedTargetsData := by rfl

/-- Claim C31, counterexample: in `tiedTargets` the trip 0 reaches its last stop S at 200,
where `scanTrip` finds the transfers to the stop events 2 and 4, the trips of the routes 1
and 2 at S; both targets have the arrival time 300, and both trips arrive at X at 500.  No
arrival at X is known from the trip 0 or from a transfer with an earlier target arrival
time, so the claim keeps both transfers; `reduceTransfers` keeps only the one that the sort
puts first (the target 2 when the order is kept, the target 4 when it is reversed). -/
theorem reduceTransfers_drops_tied_target :
    (scanTrip tiedTargetsData (new tiedTargetsData) 0).edges.getD 1 [] = [2, 4] ∧
    (tiedTargets.stopEventAt 2).arrivalTime = (tiedTargets.stopEventAt 4).arrivalTime ∧
    targetArrivals tiedTargetsData 2 = [(2, 500)] ∧
    targetArrivals tiedTargetsData 4 = [(2, 500)] ∧
    ownArrivals tiedTargetsData 0 1 = [(1, 200)] ∧
    (reduceTransfers ShortcutSearch.sortBy tiedTargetsData
      (scanTrip tiedTargetsData (new tiedTargetsData) 0) 0).edges.getD 1 [] = [2] ∧
    (reduceTransfers (fun _ l => l.reverse) tiedTargetsData
      (scanTrip tiedTargetsData (new tiedTargetsData) 0) 0).edges.getD 1 [] = [4] := by
  decide

/-- Claim C31, amended: the arrivals that count as known are all those entered before, in
the order of the code: the arrivals of the trip at its stops from the last one down to
the current one, and the arrivals of every transfer target scanned before, which are the
targets of the later stop events and the targets of the same stop event that the sort puts
first, those of equal arrival time included.  For a builder whose labels have time stamps
up to its own, with labels for the stops that the trip and the transfer targets lead to,
and a sort that permutes: `reduceTransfers(trip)` leaves exactly the transfers that the
specification keeps, those whose target trip arrives at some later stop, directly or over
one edge, strictly earlier than every known arrival and than `INFTY`; and every transfer
it leaves was there before. -/
theorem reduceTransfers_keeps_improvements
    (sort : (Nat → Nat → Bool) → List Nat → List Nat)
    (hsort : ∀ less l, (sort less l).Perm l) (td : Data) (b : StopEventGraphBuilder)
    (trip : Nat) (hstamp : ∀ l ∈ b.labels, l.timeStamp ≤ b.timeStamp)
    (hown : ∀ i, 1 ≤ i → i < td.numberOfStopsInTrip trip →
      ∀ p ∈ ownArrivals td trip i, p.1 < b.labels.length)
    (htargets : ∀ v, ∀ w ∈ b.edges.getD v [], ∀ p ∈ targetArrivals td w,
      p.1 < b.labels.length) :
    (reduceTransfers sort td b trip).edges = specTransfers sort td b.edges trip ∧
    ∀ v w, w ∈ (reduceTransfers sort td b trip).edges.getD v [] → w ∈ b.edges.getD v [] := by
  have h := reduceTransfers_eq_spec sort hsort td b trip hstamp hown htargets
  refine ⟨h, ?_⟩
  intro v w hw
  rw [h] at hw
  unfold specTransfers at hw
  exact specLoop_subset sort hsort td trip v w _ _ hw

/-- The transfers found for the trip 0 of `tiedTargets` lead to stops with labels. -/
theorem tiedTargets_range (edges : List (List Nat)) (hlen : edges.length = 6)
    (h : ∀ l ∈ edges, ∀ w ∈ l, w < 6) :
    ∀ v, ∀ w ∈ edges.getD v [], ∀ p ∈ targetArrivals tiedTargetsData w,
      p.1 < (List.replicate 3 ({} : StopLabel)).length := by
  intro v w hw
  by_cases hv : v < edges.length
  · rw [List.getD_eq_getElem _ _ hv] at hw
    have hw6 := h _ (List.getElem_mem _) w hw
    interval_cases w <;> decide
  · rw [ShortcutSearch.getD_of_length_le _ _ _ (by omega)] at hw
    exact absurd hw (List.not_mem_nil w)

/-- Claim C31, amended, at the trip 0 of `tiedTargets` after `scanTrip`: the transfer to
the stop event 2 is kept, the transfer to the stop event 4 is not. -/
theorem reduceTransfers_keeps_improvements_witness :
    (reduceTransfers ShortcutSearch.sortBy tiedTargetsData
        (scanTrip tiedTargetsData (new tiedTargetsData) 0) 0).edges =
      specTransfers ShortcutSearch.sortBy tiedTargetsData
        (scanTrip tiedTargetsData (new tiedTargetsData) 0).edges 0 ∧
    specTransfers ShortcutSearch.sortBy tiedTargetsData
        (scanTrip tiedTargetsData (new tiedTargetsData) 0).edges 0 =
      [[], [2], [], [], [], []] :=
  ⟨(reduceTransfers_keeps_improvements ShortcutSearch.sortBy
      (fun less l => TripBased.sortBy_perm less l) tiedTargetsData
      (scanTrip tiedTargetsData (new tiedTargetsData) 0) 0 (by decide)
      (by
        intro i h1 h2
        have h3 : i < 2 := h2
        have : i = 1 := by omega
        subst this
        decide)
      (tiedTargets_range _ (by decide) (by decide))).1, by decide⟩

/-- Claim C37: for a builder whose labels have time stamps up to its own, with labels for
the stops that the trip and the transfer targets lead to, and for every sort that
permutes, whatever order it gives the targets: after `reduceTransfers(trip)` the kept
transfers of every stop event of the trip (the stop indices from 1 on) hold no target
twice. -/
theorem reduceTransfers_no_repetition
    (sort : (Nat → Nat → Bool) → List Nat → List Nat)
    (hsort : ∀ less l, (sort less l).Perm l) (td : Data) (b : StopEventGraphBuilder)
    (trip : Nat) (hstamp : ∀ l ∈ b.labels, l.timeStamp ≤ b.timeStamp)
    (hown : ∀ i, 1 ≤ i → i < td.numberOfStopsInTrip trip →
      ∀ p ∈ ownArrivals td trip i, p.1 < b.labels.length)
    (htargets : ∀ v, ∀ w ∈ b.edges.getD v [], ∀ p ∈ targetArrivals td w,
      p.1 < b.labels.length)
    (i : Nat) (hi : 1 ≤ i) (hlt : i < td.numberOfStopsInTrip trip) :
    ((reduceTransfers sort td b trip).edges.getD
      (td.firstStopEventOfTrip.getD trip 0 + i) []).Nodup := by
  rw [reduceTransfers_eq_spec sort hsort td b trip hstamp hown htargets]
  unfold specTransfers
  apply specLoop_nodup sort td trip (fun _ => False) _ _ (fun _ h => absurd h id)
  right
  refine ⟨i, ?_, rfl⟩
  rw [List.mem_reverse, List.mem_range'_1]
  omega

/-- Claim C37 at the trip 0 of `tiedTargets` with the transfers 2, 4, 2 found at its last
stop, two targets of equal arrival time with a repeated one between them that the sort
leaves in this order: only the first transfer is kept. -/
theorem reduceTransfers_no_repetition_witness :
    (reduceTransfers ShortcutSearch.sortBy tiedTargetsData
        ⟨[[], [2, 4, 2], [], [], [], []], List.replicate 3 {}, 0⟩ 0).edges.getD
      (tiedTargetsData.firstStopEventOfTrip.getD 0 0 + 1) [] = [2] ∧
    ((reduceTransfers ShortcutSearch.sortBy tiedTargetsData
        ⟨[[], [2, 4, 2], [], [], [], []], List.replicate 3 {}, 0⟩ 0).edges.getD
      (tiedTargetsData.firstStopEventOfTrip.getD 0 0 + 1) []).Nodup :=
  ⟨by decide,
    reduceTransfers_no_repetition ShortcutSearch.sortBy
      (fun less l => TripBased.sortBy_perm less l) tiedTargetsData
      ⟨[[], [2, 4, 2], [], [], [], []], List.replicate 3 {}, 0⟩ 0 (by decide)
      (by
        intro i h1 h2
        have h3 : i < 2 := h2
        have : i = 1 := by omega
        subst this
        decide)
      (tiedTargets_range _ (by decide) (by decide)) 1 (by decide) (by decide)⟩

end StopEventGraphBuilder
end TripBased

namespace TripBased

namespace ShortcutSearch

/-- Reachability over edges of travel time 0 is transitive. -/
theorem ZeroReachable.trans {g : StaticGraph} {a b c : Nat} (h1 : ZeroReachable g a b)
    (h2 : ZeroReachable g b c) : ZeroReachable g a c := by
  induction h2 with
  | refl => exact h1
  | step u e _ he ht ih => exact ZeroReachable.step u e ih he ht

/-- The vertices the search pushes when it settles `u`. -/
theorem mem_zeroNext (g : StaticGraph) (u x : Nat) :
    x ∈ (g.edgesFrom u).filterMap (fun e =>
        if g.travelTime.getD e 0 > 0 then none else some (g.toVertex.getD e noVertex)) ↔
      ∃ e ∈ g.edgesFrom u, ¬ g.travelTime.getD e 0 > 0 ∧ g.toVertex.getD e noVertex = x := by
  rw [List.mem_filterMap]
  constructor
  · rintro ⟨e, he, h⟩
    by_cases ht : g.travelTime.getD e 0 > 0
    · rw [if_pos ht] at h; cases h
    · rw [if_neg ht] at h
      exact ⟨e, he, ht, Option.some.inj h⟩
  · rintro ⟨e, he, ht, h⟩
    exact ⟨e, he, by rw [if_neg ht, h]⟩

/-- Settling a vertex removes its share from the work that is left. -/
theorem sum_filter_settle (f : Nat → Nat) (S : List Nat) (u : Nat) (hS : u ∉ S) :
    ∀ L : List Nat, L.Nodup → u ∈ L →
      ((L.filter (fun x => decide (x ∉ S ++ [u]))).map f).sum + f u =
        ((L.filter (fun x => decide (x ∉ S))).map f).sum := by
  intro L
  induction L with
  | nil => intro _ h; cases h
  | cons a L ih =>
    intro hn hu
    rw [List.nodup_cons] at hn
    by_cases ha : a = u
    · subst ha
      have h1 : decide (a ∉ S ++ [a]) = false := by simp
      have h2 : decide (a ∉ S) = true := by simp [hS]
      simp only [List.filter_cons, h1, h2, if_true, Bool.false_eq_true, if_false]
      have h3 : L.filter (fun x => decide (x ∉ S ++ [a])) = L.filter (fun x => decide (x ∉ S)) := by
        apply List.filter_congr
        intro x hx
        have hxa : x ≠ a := fun e => hn.1 (e ▸ hx)
        simp [hxa]
      rw [h3, List.map_cons, List.sum_cons]
      omega
    · have hu2 : u ∈ L := by
        rcases List.mem_cons.mp hu with h | h
        · exact absurd h.symm ha
        · exact h
      have ih2 := ih hn.2 hu2
      by_cases haS : a ∈ S
      · have h1 : decide (a ∉ S ++ [u]) = false := by simp [haS]
        have h2 : decide (a ∉ S) = false := by simp [haS]
        simp only [List.filter_cons, h1, h2, Bool.false_eq_true, if_false]
        exact ih2
      · have h1 : decide (a ∉ S ++ [u]) = true := by simp [haS, ha]
        have h2 : decide (a ∉ S) = true := by simp [haS]
        simp only [List.filter_cons, h1, h2, if_true, List.map_cons, List.sum_cons]
        omega

/-- What `zeroReach` returns when its fuel covers the work that is left: the settled
vertices and the queued ones are among the result, every vertex of the result that was not
settled before has its edges of travel time 0 lead into the result, and it is reached from
a queued vertex. -/
theorem zeroReach_spec (g : StaticGraph) (n : Nat)
    (hheads : ∀ u, u < n → ∀ e ∈ g.edgesFrom u, g.toVertex.getD e noVertex < n)
    (hnonneg : ∀ e, 0 ≤ g.travelTime.getD e 0) :
    ∀ (fuel : Nat) (queue settled : List Nat), (∀ u ∈ queue, u < n) →
      zeroWork g n queue settled ≤ fuel →
      (∀ x ∈ settled, x ∈ zeroReach g fuel queue settled) ∧
      (∀ x ∈ queue, x ∈ zeroReach g fuel queue settled) ∧
      (∀ x ∈ zeroReach g fuel queue settled, x ∈ settled ∨
        ∀ e ∈ g.edgesFrom x, g.travelTime.getD e 0 = 0 →
          g.toVertex.getD e noVertex ∈ zeroReach g fuel queue settled) ∧
      (∀ x ∈ zeroReach g fuel queue settled, x ∈ settled ∨
        ∃ q ∈ queue, ZeroReachable g q x) := by
  intro fuel
  induction fuel with
  | zero =>
    intro queue settled _ hw
    have hq : queue = [] := by
      unfold zeroWork at hw
      cases queue with
      | nil => rfl
      | cons a l => simp at hw
    subst hq
    unfold zeroReach
    exact ⟨fun x h => h, fun x h => absurd h (List.not_mem_nil x), fun x h => Or.inl h, fun x h => Or.inl h⟩
  | succ fuel ih =>
    intro queue settled hq hw
    cases queue with
    | nil =>
      unfold zeroReach
      exact ⟨fun x h => h, fun x h => absurd h (List.not_mem_nil x), fun x h => Or.inl h, fun x h => Or.inl h⟩
    | cons u queue =>
      have hqs : ∀ x ∈ queue, x < n := fun x hx => hq x (List.mem_cons_of_mem _ hx)
      have hu : u < n := hq u (List.mem_cons_self _ _)
      unfold zeroReach
      by_cases hs : u ∈ settled
      · rw [if_pos hs]
        have hw2 : zeroWork g n queue settled ≤ fuel := by
          unfold zeroWork at hw ⊢
          rw [List.length_cons] at hw
          omega
        obtain ⟨h1, h2, h3, h4⟩ := ih queue settled hqs hw2
        refine ⟨h1, ?_, h3, ?_⟩
        · intro x hx
          rcases List.mem_cons.mp hx with e | e
          · rw [e]; exact h1 u hs
          · exact h2 x e
        · intro x hx
          rcases h4 x hx with e | ⟨q, hq1, hq2⟩
          · exact Or.inl e
          · exact Or.inr ⟨q, List.mem_cons_of_mem _ hq1, hq2⟩
      · rw [if_neg hs]
        simp only []
        have hnext : ∀ x ∈ (g.edgesFrom u).filterMap (fun e =>
            if g.travelTime.getD e 0 > 0 then none else some (g.toVertex.getD e noVertex)),
            x < n := by
          intro x hx
          obtain ⟨e, he, _, hx2⟩ := (mem_zeroNext g u x).mp hx
          rw [← hx2]; exact hheads u hu e he
        have hq2 : ∀ x ∈ queue ++ (g.edgesFrom u).filterMap (fun e =>
            if g.travelTime.getD e 0 > 0 then none else some (g.toVertex.getD e noVertex)),
            x < n := by
          intro x hx
          rcases List.mem_append.mp hx with e | e
          · exact hqs x e
          · exact hnext x e
        have hw2 : zeroWork g n (queue ++ (g.edgesFrom u).filterMap (fun e =>
            if g.travelTime.getD e 0 > 0 then none else some (g.toVertex.getD e noVertex)))
            (settled ++ [u]) ≤ fuel := by
          unfold zeroWork at hw ⊢
          have hsum := sum_filter_settle (fun u => 1 + (g.edgesFrom u).length) settled u hs
            (List.range n) (List.nodup_range n) (List.mem_range.mpr hu)
          have hlen := List.length_filterMap_le (fun e =>
            if g.travelTime.getD e 0 > 0 then none else some (g.toVertex.getD e noVertex))
            (g.edgesFrom u)
          rw [List.length_cons] at hw
          rw [List.length_append]
          simp only [] at hsum
          omega
        obtain ⟨h1, h2, h3, h4⟩ := ih _ _ hq2 hw2
        refine ⟨?_, ?_, ?_, ?_⟩
        · intro x hx
          exact h1 x (List.mem_append_left _ hx)
        · intro x hx
          rcases List.mem_cons.mp hx with e | e
          · rw [e]; exact h1 u (List.mem_append_right _ (List.mem_singleton_self u))
          · exact h2 x (List.mem_append_left _ e)
        · intro x hx
          rcases h3 x hx with e | e
          · rcases List.mem_append.mp e with e1 | e1
            · exact Or.inl e1
            · rw [List.mem_singleton] at e1
              right
              intro ed hed ht
              apply h2
              apply List.mem_append_right
              rw [e1] at hed
              exact (mem_zeroNext g u _).mpr ⟨ed, hed, by omega, rfl⟩
          · exact Or.inr e
        · intro x hx
          rcases h4 x hx with e | ⟨q, hq1, hq2⟩
          · rcases List.mem_append.mp e with e1 | e1
            · exact Or.inl e1
            · rw [List.mem_singleton] at e1
              exact Or.inr ⟨u, List.mem_cons_self _ _, e1 ▸ ZeroReachable.refl⟩
          · rcases List.mem_append.mp hq1 with e1 | e1
            · exact Or.inr ⟨q, List.mem_cons_of_mem _ e1, hq2⟩
            · obtain ⟨ed, hed, ht, hx2⟩ := (mem_zeroNext g u q).mp e1
              have ht0 : g.travelTime.getD ed 0 = 0 := by
                have := hnonneg ed
                omega
              refine Or.inr ⟨u, List.mem_cons_self _ _, ?_⟩
              have hstep : ZeroReachable g u q :=
                hx2 ▸ ZeroReachable.step u ed ZeroReachable.refl hed ht0
              exact hstep.trans hq2

/-- With sorted first edges the edges of the first `k` vertices are the edges before the
first edge of the vertex `k`. -/
theorem sum_outdegree (g : StaticGraph) (hs : SortedEdges g) :
    ∀ k, k ≤ g.numVertices →
      ((List.range k).map (fun u => 1 + (g.edgesFrom u).length)).sum + g.beginEdgeFrom 0 =
        k + g.beginEdgeFrom k := by
  intro k
  induction k with
  | zero => intro _; simp
  | succ k ih =>
    intro hk
    have h1 := ih (by omega)
    have h2 := hs k (by omega)
    rw [List.range_succ, List.map_append, List.sum_append, List.map_singleton,
      List.sum_singleton]
    have hlen : (g.edgesFrom k).length = g.beginEdgeFrom (k + 1) - g.beginEdgeFrom k := by
      unfold StaticGraph.edgesFrom
      rw [List.length_range']
    rw [hlen]
    omega

/-- The fuel of the constructor covers the search from one vertex. -/
theorem zeroWork_start {d : RAPTOR.Data} (hd : WellFormed d) (hs : SortedEdges d.transferGraph)
    (stop : Nat) :
    zeroWork d.transferGraph d.transferGraph.numVertices [stop] [] ≤
      d.transferGraph.toVertex.length + d.transferGraph.numVertices + 1 := by
  unfold zeroWork
  have hf : (List.range d.transferGraph.numVertices).filter (fun u => decide (u ∉ ([] : List Nat)))
      = List.range d.transferGraph.numVertices := by
    rw [List.filter_eq_self]
    intro x _
    simp
  rw [hf]
  have h1 := sum_outdegree d.transferGraph hs d.transferGraph.numVertices (le_refl _)
  have h2 : d.transferGraph.beginEdgeFrom d.transferGraph.numVertices ≤
      d.transferGraph.toVertex.length := by
    unfold StaticGraph.beginEdgeFrom
    by_cases hv : d.transferGraph.numVertices < d.transferGraph.beginOut.length
    · exact hd.edgeIds _ (getD_mem_of_lt _ _ _ hv)
    · rw [getD_of_length_le _ _ _ (by omega)]; omega
  rw [List.length_singleton]
  omega

/-- The vertices the constructor finds from a stop are the vertices reached from it over
edges of travel time 0. -/
theorem mem_zeroReach {d : RAPTOR.Data} (hd : WellFormed d) (hs : SortedEdges d.transferGraph)
    (stop : Nat) (hstop : stop < d.transferGraph.numVertices) (x : Nat) :
    x ∈ zeroReach d.transferGraph
        (d.transferGraph.toVertex.length + d.transferGraph.numVertices + 1) [stop] [] ↔
      ZeroReachable d.transferGraph stop x := by
  have hheads : ∀ u, u < d.transferGraph.numVertices → ∀ e ∈ d.transferGraph.edgesFrom u,
      d.transferGraph.toVertex.getD e noVertex < d.transferGraph.numVertices := by
    intro u _ e he
    exact hd.heads _ (getD_mem_of_lt _ _ _ (edgesFrom_lt hd u e he))
  have hnonneg : ∀ e, 0 ≤ d.transferGraph.travelTime.getD e 0 := by
    intro e
    by_cases he : e < d.transferGraph.travelTime.length
    · exact hd.nonneg _ (getD_mem_of_lt _ _ _ he)
    · rw [getD_of_length_le _ _ _ (by omega)]
  obtain ⟨_, h2, h3, h4⟩ := zeroReach_spec d.transferGraph d.transferGraph.numVertices hheads
    hnonneg _ [stop] []
    (fun u hu => by rw [List.mem_singleton] at hu; rw [hu]; exact hstop)
    (zeroWork_start hd hs stop)
  constructor
  · intro hx
    rcases h4 x hx with e | ⟨q, hq1, hq2⟩
    · cases e
    · rw [List.mem_singleton] at hq1
      rw [hq1] at hq2
      exact hq2
  · intro hx
    induction hx with
    | refl => exact h2 stop (List.mem_singleton_self stop)
    | step u e _ he ht ih =>
      rcases h3 u ih with e1 | e1
      · cases e1
      · exact e1 e he ht

/-- The representative of a station that is filled stop by stop is the smallest of its
stops, or `noStop` when no stop is below it. -/
theorem foldl_add_representative (l : List Nat) :
    ∀ s : Station, (l.foldl Station.add s).representative ≤ s.representative ∧
      (∀ x ∈ l, (l.foldl Station.add s).representative ≤ x) ∧
      ((l.foldl Station.add s).representative = s.representative ∨
        (l.foldl Station.add s).representative ∈ l) := by
  induction l with
  | nil => intro s; exact ⟨le_refl _, fun x h => absurd h (List.not_mem_nil x), Or.inl rfl⟩
  | cons a l ih =>
    intro s
    rw [List.foldl_cons]
    obtain ⟨h1, h2, h3⟩ := ih (s.add a)
    have ha : (s.add a).representative ≤ s.representative ∧ (s.add a).representative ≤ a ∧
        ((s.add a).representative = s.representative ∨ (s.add a).representative = a) := by
      unfold Station.add
      simp only []
      by_cases h : s.representative > a
      · rw [if_pos h]; exact ⟨by omega, le_refl _, Or.inr rfl⟩
      · rw [if_neg h]; exact ⟨le_refl _, by omega, Or.inl rfl⟩
    refine ⟨by omega, ?_, ?_⟩
    · intro x hx
      rcases List.mem_cons.mp hx with e | e
      · rw [e]; omega
      · exact h2 x e
    · rcases h3 with e | e
      · rcases ha.2.2 with e2 | e2
        · left; rw [e, e2]
        · right; rw [e, e2]; exact List.mem_cons_self _ _
      · right; exact List.mem_cons_of_mem _ e

/-- The station the constructor stores for a stop. -/
theorem representative_new (d : RAPTOR.Data) (limit : Int) (stop : Nat)
    (h : stop < d.numberOfStops) :
    (new d limit).representative stop = (stationOf d stop).representative := by
  unfold representative new
  simp only []
  rw [List.getD_eq_getElem?_getD, List.getElem?_map, List.getElem?_range h]
  rfl

/-- C33: for a well-formed timetable whose transfer graph has sorted first edges and every
stop `stop`, the representative the constructor stores in `stationOfStop[stop]` is a stop
reached from `stop` over edges of travel time 0 and is the smallest such stop; and `run`
with a source that is not the representative of its station returns the search as it was,
whatever its state. -/
theorem station_representative (d : RAPTOR.Data) (limit : Int) (stop : Nat)
    (hd : WellFormed d) (hs : SortedEdges d.transferGraph) (h : stop < d.numberOfStops) :
    (new d limit).representative stop < d.numberOfStops ∧
    ZeroReachable d.transferGraph stop ((new d limit).representative stop) ∧
    (∀ t, t < d.numberOfStops → ZeroReachable d.transferGraph stop t →
      (new d limit).representative stop ≤ t) ∧
    ∀ (fuel : Nat) (s : ShortcutSearch) (source : Nat) (minTime maxTime : Int),
      s.representative source ≠ source → run d fuel s source minTime maxTime = some s := by
  have hv : stop < d.transferGraph.numVertices := lt_of_lt_of_le h hd.stops
  have hmem := mem_zeroReach hd hs stop hv
  have hrep : (new d limit).representative stop =
      (((zeroReach d.transferGraph
        (d.transferGraph.toVertex.length + d.transferGraph.numVertices + 1) [stop] []).filter
        (fun u => d.isStop u)).foldl Station.add {}).representative := by
    rw [representative_new d limit stop h]; rfl
  obtain ⟨h1, h2, h3⟩ := foldl_add_representative
    ((zeroReach d.transferGraph
      (d.transferGraph.toVertex.length + d.transferGraph.numVertices + 1) [stop] []).filter
      (fun u => d.isStop u)) {}
  have hin : ∀ t, t < d.numberOfStops → ZeroReachable d.transferGraph stop t →
      t ∈ (zeroReach d.transferGraph
        (d.transferGraph.toVertex.length + d.transferGraph.numVertices + 1) [stop] []).filter
        (fun u => d.isStop u) := by
    intro t ht hr
    rw [List.mem_filter]
    exact ⟨(hmem t).mpr hr, by unfold RAPTOR.Data.isStop; exact decide_eq_true ht⟩
  have hle := h2 stop (hin stop h ZeroReachable.refl)
  have hsz := hd.size
  have hst := hd.stops
  rw [← hrep] at h2 h3 hle
  have hne : (new d limit).representative stop ≠ ({} : Station).representative := by
    have : ({} : Station).representative = noStop := rfl
    rw [this]
    omega
  have hmem2 := h3.resolve_left hne
  rw [List.mem_filter] at hmem2
  refine ⟨by omega, (hmem _).mp hmem2.1, fun t ht hr => h2 t (hin t ht hr), ?_⟩
  intro fuel s source minTime maxTime hsrc
  unfold run
  rw [if_pos hsrc]

/-- The timetable `oneWayStation` is well-formed. -/
theorem oneWayStation_wellFormed : WellFormed oneWayStation :=
  ⟨by decide, by decide, by decide, by decide, by decide, by decide, by decide, by decide⟩

/-- The first edges of the transfer graph of `oneWayStation` are sorted. -/
theorem oneWayStation_sorted : SortedEdges oneWayStation.transferGraph := by
  intro v hv
  have h3 : v < 3 := hv
  interval_cases v <;> decide

/-- The theorem `station_representative` at the stop B of `oneWayStation`, whose station
has the stops B and A: its representative is A, and `run` from B changes nothing. -/
theorem station_representative_witness :
    (new oneWayStation 900).representative 1 = 0 ∧
    ZeroReachable oneWayStation.transferGraph 1 ((new oneWayStation 900).representative 1) ∧
    run oneWayStation 10 (new oneWayStation 900) 1 0 1000 = some (new oneWayStation 900) :=
  ⟨by decide,
    (station_representative oneWayStation 900 1 oneWayStation_wellFormed oneWayStation_sorted
      (by decide)).2.1,
    (station_representative oneWayStation 900 1 oneWayStation_wellFormed oneWayStation_sorted
      (by decide)).2.2.2 10 _ 1 0 1000 (by decide)⟩

end ShortcutSearch

end TripBased

namespace TripBased

namespace ShortcutSearch

/-- The loop over the trips of a route creates labels of departures only. -/
theorem departuresOfTrips_collected (d : RAPTOR.Data) (s : ShortcutSearch) (route stopIndex : Nat)
    (cutoffTime maxTime : Int) (hroute : route < d.numberOfRoutes)
    (hindex : stopIndex + 1 < d.numberOfStopsInRoute route) (hfit : DeparturesFit d s) :
    ∀ (fuel k : Nat) (acc : List DepartureLabel),
      (∀ l ∈ acc, Collected d s cutoffTime maxTime l) →
      ∀ l ∈ departuresOfTrips d s route stopIndex
          (s.directTransferArrivalLabels.getD (d.stopIdAt (d.stopArrayOfRoute route + stopIndex))
            never)
          cutoffTime maxTime (d.numberOfStopsInRoute route) fuel
          (d.firstTripOfRoute route + k * d.numberOfStopsInRoute route) acc,
        Collected d s cutoffTime maxTime l := by
  intro fuel
  induction fuel with
  | zero => intro k acc hacc l hl; unfold departuresOfTrips at hl; exact hacc l hl
  | succ fuel ih =>
    intro k acc hacc l hl
    unfold departuresOfTrips at hl
    have hnext : d.firstTripOfRoute route + k * d.numberOfStopsInRoute route +
        d.numberOfStopsInRoute route =
        d.firstTripOfRoute route + (k + 1) * d.numberOfStopsInRoute route := by
      rw [Nat.add_mul, Nat.one_mul, Nat.add_assoc]
    split at hl
    · rename_i hle
      simp only [] at hl
      rw [CH.wrapInt32_of_fitsInt (hfit route stopIndex k hroute hindex hle)] at hl
      split at hl
      · rw [hnext] at hl
        exact ih (k + 1) acc hacc l hl
      · rename_i hlow
        split at hl
        · exact hacc l hl
        · rename_i hhigh
          rw [hnext] at hl
          refine ih (k + 1) _ ?_ l hl
          intro l2 hl2
          rcases List.mem_append.mp hl2 with e | e
          · exact hacc l2 e
          · rw [List.mem_singleton] at e
            refine ⟨route, stopIndex, ⟨hroute, hindex, k, hle, ?_⟩, ?_, ?_, ?_⟩
            · rw [e]; split <;> rfl
            · rw [e]
              have : ∀ (c : Prop) [Decidable c] (a b : RAPTOR.RouteSegment) (t : Int),
                  (if c then (⟨a, t⟩ : DepartureLabel) else ⟨b, t⟩).departureTime = t := by
                intro c _ a b t; split <;> rfl
              rw [this]; omega
            · rw [e]
              have : ∀ (c : Prop) [Decidable c] (a b : RAPTOR.RouteSegment) (t : Int),
                  (if c then (⟨a, t⟩ : DepartureLabel) else ⟨b, t⟩).departureTime = t := by
                intro c _ a b t; split <;> rfl
              rw [this]; omega
            · rw [e]; split <;> rfl
    · exact hacc l hl

/-- The loop over the stop indices of a route creates labels of departures only. -/
theorem departuresOfRoute_collected (d : RAPTOR.Data) (s : ShortcutSearch) (route : Nat)
    (cutoffTime maxTime : Int) (hroute : route < d.numberOfRoutes) (hfit : DeparturesFit d s) :
    ∀ (indices : List Nat) (minimalTransferTime : Int) (acc : List DepartureLabel),
      (∀ i ∈ indices, i + 1 < d.numberOfStopsInRoute route) →
      (∀ l ∈ acc, Collected d s cutoffTime maxTime l) →
      ∀ l ∈ departuresOfRoute d s route cutoffTime maxTime indices minimalTransferTime acc,
        Collected d s cutoffTime maxTime l := by
  intro indices
  induction indices with
  | nil => intro m acc _ hacc l hl; unfold departuresOfRoute at hl; exact hacc l hl
  | cons i rest ih =>
    intro m acc hidx hacc l hl
    unfold departuresOfRoute at hl
    simp only [] at hl
    have hrest : ∀ j ∈ rest, j + 1 < d.numberOfStopsInRoute route :=
      fun j hj => hidx j (List.mem_cons_of_mem _ hj)
    split at hl
    · exact ih m acc hrest hacc l hl
    · refine ih _ _ hrest ?_ l hl
      have h := departuresOfTrips_collected d s route i cutoffTime maxTime hroute
        (hidx i (List.mem_cons_self _ _)) hfit (d.numberOfStopEvents + 1) 0 acc hacc
      rw [Nat.zero_mul, Nat.add_zero] at h
      exact h

/-- The loop over the routes creates labels of departures only. -/
theorem departureLabels_collected (d : RAPTOR.Data) (s : ShortcutSearch)
    (cutoffTime maxTime : Int) (hfit : DeparturesFit d s) :
    ∀ (routes : List Nat) (acc : List DepartureLabel),
      (∀ r ∈ routes, r < d.numberOfRoutes) →
      (∀ l ∈ acc, Collected d s cutoffTime maxTime l) →
      ∀ l ∈ routes.foldl (fun acc route =>
          departuresOfRoute d s route cutoffTime maxTime
            (List.range (d.numberOfStopsInRoute route - 1)) never acc) acc,
        Collected d s cutoffTime maxTime l := by
  intro routes
  induction routes with
  | nil => intro acc _ hacc l hl; exact hacc l hl
  | cons r rest ih =>
    intro acc hr hacc l hl
    rw [List.foldl_cons] at hl
    refine ih _ (fun x hx => hr x (List.mem_cons_of_mem _ hx)) ?_ l hl
    apply departuresOfRoute_collected d s r cutoffTime maxTime (hr r (List.mem_cons_self _ _))
      hfit
    · intro i hi
      rw [List.mem_range] at hi
      omega
    · exact hacc

/-- Insertion into a list of labels with falling departure times keeps the times falling. -/
theorem insertSorted_falling (x : DepartureLabel) :
    ∀ l : List DepartureLabel, l.Pairwise (fun a b => b.departureTime ≤ a.departureTime) →
      (insertSorted DepartureLabel.lt x l).Pairwise
        (fun a b => b.departureTime ≤ a.departureTime) := by
  intro l
  induction l with
  | nil => intro _; unfold insertSorted; exact List.pairwise_singleton _ _
  | cons y ys ih =>
    intro h
    rw [List.pairwise_cons] at h
    unfold insertSorted
    split
    · rename_i hlt
      rw [List.pairwise_cons]
      refine ⟨?_, ih h.2⟩
      intro z hz
      rcases List.mem_cons.mp ((insertSorted_perm DepartureLabel.lt x ys).mem_iff.mp hz) with e | e
      · rw [e]
        unfold DepartureLabel.lt at hlt
        simp only [Bool.or_eq_true, Bool.and_eq_true, decide_eq_true_eq] at hlt
        omega
      · exact h.1 z e
    · rename_i hlt
      have hyx : y.departureTime ≤ x.departureTime := by
        unfold DepartureLabel.lt at hlt
        simp only [Bool.or_eq_true, Bool.and_eq_true, decide_eq_true_eq, not_or] at hlt
        omega
      rw [List.pairwise_cons]
      refine ⟨?_, List.pairwise_cons.mpr h⟩
      intro z hz
      rcases List.mem_cons.mp hz with e | e
      · rw [e]; exact hyx
      · have := h.1 z e
        omega

/-- The sorted departure labels have falling departure times. -/
theorem sortBy_falling : ∀ l : List DepartureLabel,
    (sortBy DepartureLabel.lt l).Pairwise (fun a b => b.departureTime ≤ a.departureTime) := by
  intro l
  induction l with
  | nil => exact List.Pairwise.nil
  | cons x xs ih =>
    unfold sortBy
    rw [List.foldr_cons]
    exact insertSorted_falling x _ ih

/-- The consolidation closes labels with strictly falling departure times, each of them
consolidated from the labels it has read. -/
theorem consolidate_spec (Q : DepartureLabel → Prop) :
    ∀ (rest : List DepartureLabel) (closed : List ConsolidatedDepartureLabel)
      (back : ConsolidatedDepartureLabel),
      rest.Pairwise (fun a b => b.departureTime ≤ a.departureTime) →
      (∀ l ∈ rest, Q l) →
      closed.Pairwise (fun a b => a.departureTime > b.departureTime) →
      (∀ c ∈ closed, back.departureTime ≤ c.departureTime) →
      (closed ≠ [] → ∀ l ∈ rest, l.departureTime ≤ back.departureTime) →
      (∀ c ∈ closed, Consolidated Q c) →
      (∀ seg ∈ back.routes, ∃ l, Q l ∧ l.route = seg ∧ l.route.routeId ≠ noRouteId ∧
        ∀ l2 ∈ rest, l2.departureTime ≤ l.departureTime) →
      ∃ closed2 back2, consolidate rest (closed ++ [back]) = closed2 ++ [back2] ∧
        closed2.Pairwise (fun a b => a.departureTime > b.departureTime) ∧
        ∀ c ∈ closed2, Consolidated Q c := by
  intro rest
  induction rest with
  | nil =>
    intro closed back _ _ hp _ _ hc _
    exact ⟨closed, back, by unfold consolidate; rfl, hp, hc⟩
  | cons label rest ih =>
    intro closed back hsorted hQ hp hle hrest hc hb
    rw [List.pairwise_cons] at hsorted
    have hQ2 : ∀ l ∈ rest, Q l := fun l hl => hQ l (List.mem_cons_of_mem _ hl)
    have hlast : (closed ++ [back]).getLast? = some back := by simp
    unfold consolidate
    rw [hlast]
    simp only [List.dropLast_concat]
    by_cases hr : label.route.routeId = noRouteId
    · rw [if_pos hr]
      by_cases ht : label.departureTime = back.departureTime
      · rw [if_pos ht]
        refine ih closed back hsorted.2 hQ2 hp hle
          (fun hne l hl => hrest hne l (List.mem_cons_of_mem _ hl)) hc ?_
        intro seg hseg
        obtain ⟨l, h1, h2, h3, h4⟩ := hb seg hseg
        exact ⟨l, h1, h2, h3, fun l2 hl2 => h4 l2 (List.mem_cons_of_mem _ hl2)⟩
      · rw [if_neg ht]
        have happ : closed ++ [{ back with departureTime := label.departureTime },
            ({ departureTime := label.departureTime } : ConsolidatedDepartureLabel)] =
            (closed ++ [{ back with departureTime := label.departureTime }]) ++
              [({ departureTime := label.departureTime } : ConsolidatedDepartureLabel)] := by
          simp
        rw [happ]
        have hlt : ∀ c ∈ closed, label.departureTime < c.departureTime := by
          intro c hcm
          have hne : closed ≠ [] := List.ne_nil_of_mem hcm
          have h1 := hrest hne label (List.mem_cons_self _ _)
          have h2 := hle c hcm
          omega
        refine ih _ _ hsorted.2 hQ2 ?_ ?_ ?_ ?_ ?_
        · rw [List.pairwise_append]
          refine ⟨hp, List.pairwise_singleton _ _, ?_⟩
          intro a ha b hb2
          rw [List.mem_singleton] at hb2
          rw [hb2]
          exact hlt a ha
        · intro c hcm
          rcases List.mem_append.mp hcm with e | e
          · exact le_of_lt (hlt c e)
          · rw [List.mem_singleton] at e
            rw [e]
        · intro _ l hl
          exact hsorted.1 l hl
        · intro c hcm
          rcases List.mem_append.mp hcm with e | e
          · exact hc c e
          · rw [List.mem_singleton] at e
            rw [e]
            refine ⟨⟨label, hQ label (List.mem_cons_self _ _), hr, rfl⟩, ?_⟩
            intro seg hseg
            obtain ⟨l, h1, h2, h3, h4⟩ := hb seg hseg
            exact ⟨l, h1, h2, h3, h4 label (List.mem_cons_self _ _)⟩
        · intro seg hseg
          cases hseg
    · rw [if_neg hr]
      refine ih closed _ hsorted.2 hQ2 hp hle
        (fun hne l hl => hrest hne l (List.mem_cons_of_mem _ hl)) hc ?_
      intro seg hseg
      rcases List.mem_append.mp hseg with e | e
      · obtain ⟨l, h1, h2, h3, h4⟩ := hb seg e
        exact ⟨l, h1, h2, h3, fun l2 hl2 => h4 l2 (List.mem_cons_of_mem _ hl2)⟩
      · rw [List.mem_singleton] at e
        exact ⟨label, hQ label (List.mem_cons_self _ _), e.symm, hr, hsorted.1⟩

/-- The labels `collectDepartures` returns: strictly falling departure times, each the
time of a collected label without route, each route that of a collected label that is not
earlier. -/
theorem collectDepartures_consolidated (d : RAPTOR.Data) (s : ShortcutSearch)
    (minTime maxTime : Int) (hfit : DeparturesFit d s) :
    (collectDepartures d s minTime maxTime).Pairwise
      (fun a b => a.departureTime > b.departureTime) ∧
    ∀ c ∈ collectDepartures d s minTime maxTime,
      Consolidated (Collected d s (max minTime s.earliestDepartureTime) maxTime) c := by
  have hall := departureLabels_collected d s (max minTime s.earliestDepartureTime) maxTime
    hfit (List.range d.numberOfRoutes) [] (fun r hr => List.mem_range.mp hr)
    (fun l hl => absurd hl (List.not_mem_nil l))
  obtain ⟨closed, back, h1, h2, h3⟩ := consolidate_spec
    (Collected d s (max minTime s.earliestDepartureTime) maxTime)
    (sortBy DepartureLabel.lt ((List.range d.numberOfRoutes).foldl (fun acc route =>
      departuresOfRoute d s route (max minTime s.earliestDepartureTime) maxTime
        (List.range (d.numberOfStopsInRoute route - 1)) never acc) []))
    [] {} (sortBy_falling _)
    (fun l hl => hall l ((sortBy_perm DepartureLabel.lt _).mem_iff.mp hl))
    List.Pairwise.nil (fun c hc => absurd hc (List.not_mem_nil c))
    (fun h => absurd rfl h) (fun c hc => absurd hc (List.not_mem_nil c))
    (fun seg hseg => absurd hseg (List.not_mem_nil seg))
  have hcd : collectDepartures d s minTime maxTime = closed := by
    unfold collectDepartures
    simp only []
    rw [List.nil_append] at h1
    rw [h1, List.dropLast_concat]
  rw [hcd]
  exact ⟨h2, h3⟩

/-- C32, the counterexample: in the timetable `oneWayStation` the station of the stop A
is A alone, and the search from A with `minTime` 0 and `maxTime` 1000 collects one label,
of the departure time 95: the trip of the route 0 leaves B at 100, B is reached from A in
5 seconds, and the station of B has the representative A. No trip departs at 95 at any
stop.  And in the timetable `earlyTrip` the search from A with `minTime` -10 and `maxTime`
`intMax` returns one label, of the departure time 100, with the route 1 at its first stop
B attached; the only trip of the route 1 leaves B at -2, before 100: B is not reached from
A, the difference of -2 and the label `never` of B is not a value of `int`, and the
departure time of the label of the route is `intMax`. -/
theorem collectDepartures_time_of_no_trip :
    (setSource oneWayStation 10 (new oneWayStation 900) 0).map
        (fun s => (s.sourceStation, collectDepartures oneWayStation s 0 1000)) =
      some (⟨0, [0]⟩, [⟨[], 95⟩]) ∧
    (new oneWayStation 900).representative 0 = 0 ∧
    (∀ e ∈ oneWayStation.stopEvents, e.departureTime ≠ 95) ∧
    (setSource earlyTrip 10 (new earlyTrip 900) 0).map
        (fun s => (s.directTransferArrivalLabels.getD 1 never,
          collectDepartures earlyTrip s (-10) 2147483647)) =
      some (never, [⟨[⟨1, 0⟩], 100⟩]) ∧
    earlyTrip.stopIdAt (earlyTrip.stopArrayOfRoute 1 + 0) = 1 ∧
    earlyTrip.firstTripOfRoute 1 = earlyTrip.lastTripOfRoute 1 ∧
    (earlyTrip.stopEventAt (earlyTrip.firstTripOfRoute 1 + 0)).departureTime = -2 ∧
    wrapInt32 (-2 - never) = 2147483647 := by
  decide

/-- The differences that `collectDepartures` forms are values of `int` when the departure
times of the timetable are at least -1 and the labels of the direct walks lie between 0
and `never`. -/
theorem departuresFit_of_bounds (d : RAPTOR.Data) (s : ShortcutSearch)
    (htimes : ∀ e ∈ d.stopEvents, -1 ≤ e.departureTime ∧ e.departureTime ≤ 2147483647)
    (hlabels : ∀ x ∈ s.directTransferArrivalLabels, 0 ≤ x ∧ x ≤ never) :
    DeparturesFit d s := by
  intro route stopIndex k _ _ _
  have h1 : ∀ i, -1 ≤ (d.stopEventAt i).departureTime ∧
      (d.stopEventAt i).departureTime ≤ 2147483647 := by
    intro i
    unfold RAPTOR.Data.stopEventAt
    by_cases hi : i < d.stopEvents.length
    · have : d.stopEvents.getD i default = d.stopEvents[i] := by
        rw [List.getD_eq_getElem?_getD, List.getElem?_eq_getElem hi]; rfl
      rw [this]
      exact htimes _ (List.getElem_mem hi)
    · rw [getD_of_length_le _ _ _ (by omega)]
      exact ⟨by decide, by decide⟩
  have h2 : ∀ j, 0 ≤ s.directTransferArrivalLabels.getD j never ∧
      s.directTransferArrivalLabels.getD j never ≤ never := by
    intro j
    by_cases hj : j < s.directTransferArrivalLabels.length
    · have : s.directTransferArrivalLabels.getD j never = s.directTransferArrivalLabels[j] := by
        rw [List.getD_eq_getElem?_getD, List.getElem?_eq_getElem hj]; rfl
      rw [this]
      exact hlabels _ (List.getElem_mem hj)
    · rw [getD_of_length_le _ _ _ (by omega)]
      exact ⟨by decide, le_refl _⟩
  have a := h1 (d.firstTripOfRoute route + k * d.numberOfStopsInRoute route + stopIndex)
  have b := h2 (d.stopIdAt (d.stopArrayOfRoute route + stopIndex))
  have b2 : s.directTransferArrivalLabels.getD
      (d.stopIdAt (d.stopArrayOfRoute route + stopIndex)) never ≤ 2147483647 := b.2
  unfold FitsInt
  omega

/-- C32, amended: for every state of the search, every `minTime` and `maxTime`, and a
timetable whose route ids are below `noRouteId`, provided that for every trip and every
stop of its route but the last the departure time less the label of the direct walk to the
stop is a value of `int` (as it is when the departure times are at least -1 and the labels
lie between 0 and `never`), `collectDepartures` returns labels with strictly falling
departure times; each departure time lies between max(`minTime`, `earliestDepartureTime`)
and `maxTime` and is the departure time of a trip at a stop whose station has the
representative of the source station, less the direct walking time to that stop; and every
route segment attached to a label has a trip whose departure there, less the walking time
to it, is not before the departure time of the label and not after `maxTime`. -/
theorem collectDepartures_spec (d : RAPTOR.Data) (s : ShortcutSearch) (minTime maxTime : Int)
    (hroutes : d.numberOfRoutes ≤ noRouteId) (hfit : DeparturesFit d s) :
    (collectDepartures d s minTime maxTime).Pairwise
      (fun a b => a.departureTime > b.departureTime) ∧
    ∀ c ∈ collectDepartures d s minTime maxTime,
      max minTime s.earliestDepartureTime ≤ c.departureTime ∧ c.departureTime ≤ maxTime ∧
      (∃ route stopIndex, Departs d s route stopIndex c.departureTime ∧
        s.representative (d.stopIdAt (d.stopArrayOfRoute route + stopIndex)) =
          s.sourceStation.representative) ∧
      ∀ seg ∈ c.routes, ∃ t, Departs d s seg.routeId seg.stopIndex t ∧
        c.departureTime ≤ t ∧ t ≤ maxTime := by
  obtain ⟨h1, h2⟩ := collectDepartures_consolidated d s minTime maxTime hfit
  refine ⟨h1, ?_⟩
  intro c hc
  obtain ⟨⟨l, ⟨route, stopIndex, hdep, hlow, hhigh, hroute⟩, hno, htime⟩, hsegs⟩ := h2 c hc
  have hrep : s.representative (d.stopIdAt (d.stopArrayOfRoute route + stopIndex)) =
      s.sourceStation.representative := by
    by_contra hne
    rw [if_neg hne] at hroute
    rw [hroute] at hno
    have h3 := hdep.isRoute
    simp only [] at hno
    omega
  rw [htime] at hdep hlow hhigh
  refine ⟨hlow, hhigh, ⟨route, stopIndex, hdep, hrep⟩, ?_⟩
  intro seg hseg
  obtain ⟨l2, ⟨route2, stopIndex2, hdep2, _, hhigh2, hroute2⟩, hseg2, hno2, hle2⟩ := hsegs seg hseg
  by_cases hrep2 : s.representative (d.stopIdAt (d.stopArrayOfRoute route2 + stopIndex2)) =
      s.sourceStation.representative
  · rw [if_pos hrep2] at hroute2
    rw [hroute2] at hno2
    exact absurd rfl hno2
  · rw [if_neg hrep2] at hroute2
    rw [← hseg2, hroute2]
    exact ⟨l2.departureTime, hdep2, hle2, hhigh2⟩

/-- The theorem `collectDepartures_spec` at the search from the stop A of `oneWayStation`,
whose departure times are positive and whose labels of the direct walks lie between 0 and
`never`. -/
theorem collectDepartures_spec_witness :
    ∃ s, setSource oneWayStation 10 (new oneWayStation 900) 0 = some s ∧
      (collectDepartures oneWayStation s 0 1000).map (fun c => c.departureTime) = [95] ∧
      (collectDepartures oneWayStation s 0 1000).Pairwise
        (fun a b => a.departureTime > b.departureTime) := by
  have h : (setSource oneWayStation 10 (new oneWayStation 900) 0).map
      (fun s => ((collectDepartures oneWayStation s 0 1000).map (fun c => c.departureTime),
        decide (∀ x ∈ s.directTransferArrivalLabels, 0 ≤ x ∧ x ≤ never))) =
      some ([95], true) := by decide
  cases hs : setSource oneWayStation 10 (new oneWayStation 900) 0 with
  | none => rw [hs] at h; cases h
  | some s =>
    rw [hs] at h
    have h2 := Prod.mk.inj (Option.some.inj h)
    exact ⟨s, rfl, h2.1,
      (collectDepartures_spec oneWayStation s 0 1000 (by decide)
        (departuresFit_of_bounds oneWayStation s (by decide) (of_decide_eq_true h2.2))).1⟩

end ShortcutSearch

end TripBased

namespace TripBased

namespace ShortcutSearch

/-- What `lowerTwoTrips` leaves as it is. -/
theorem lowerTwoTrips_oneTrip (s : ShortcutSearch) (v : Nat) (t : Int) :
    (lowerTwoTrips s v t).oneTripQueue = s.oneTripQueue ∧
    (lowerTwoTrips s v t).oneTripTransferParent = s.oneTripTransferParent ∧
    (lowerTwoTrips s v t).shortcutCandidatesInQueue = s.shortcutCandidatesInQueue := by
  unfold lowerTwoTrips
  split <;> exact ⟨rfl, rfl, rfl⟩

/-- Counting in a list without repetition under two predicates that agree except at one
element. -/
theorem countP_change (p q : Nat → Bool) (v : Nat) (hagree : ∀ u, u ≠ v → q u = p u) :
    ∀ Q : List Nat, Q.Nodup →
      Q.countP q + (if v ∈ Q ∧ p v = true then 1 else 0) =
        Q.countP p + (if v ∈ Q ∧ q v = true then 1 else 0) := by
  intro Q
  induction Q with
  | nil => intro _; simp
  | cons a Q ih =>
    intro hn
    rw [List.nodup_cons] at hn
    have ih2 := ih hn.2
    rw [List.countP_cons, List.countP_cons]
    by_cases ha : a = v
    · subst ha
      have hnot : ∀ b : Bool, ¬ (a ∈ Q ∧ b = true) := fun b h => hn.1 h.1
      rw [if_neg (hnot _), if_neg (hnot _)] at ih2
      have hin : ∀ b : Bool, (a ∈ a :: Q ∧ b = true) ↔ b = true :=
        fun b => ⟨fun h => h.2, fun h => ⟨List.mem_cons_self _ _, h⟩⟩
      simp only [hin]
      omega
    · have hqa := hagree a ha
      have hin : ∀ b : Bool, (v ∈ a :: Q ∧ b = true) ↔ (v ∈ Q ∧ b = true) := by
        intro b
        constructor
        · rintro ⟨h1, h2⟩
          rcases List.mem_cons.mp h1 with e | e
          · exact absurd e.symm ha
          · exact ⟨e, h2⟩
        · rintro ⟨h1, h2⟩
          exact ⟨List.mem_cons_of_mem _ h1, h2⟩
      simp only [hin, hqa]
      omega

/-- Counting after the removal of an element of the list. -/
theorem countP_erase_mem (p : Nat → Bool) (v : Nat) :
    ∀ Q : List Nat, v ∈ Q →
      (Q.erase v).countP p + (if p v = true then 1 else 0) = Q.countP p := by
  intro Q
  induction Q with
  | nil => intro h; cases h
  | cons a Q ih =>
    intro h
    by_cases ha : a = v
    · subst ha
      rw [List.erase_cons_head, List.countP_cons]
    · have hv : v ∈ Q := by
        rcases List.mem_cons.mp h with e | e
        · exact absurd e.symm ha
        · exact e
      have hne : (a == v) = false := by simp [ha]
      rw [List.erase_cons_tail (by simp [ha]), List.countP_cons, List.countP_cons]
      have := ih hv
      omega

/-- The increment of the counter below its largest value. -/
theorem counterInc_eq (c : Nat) (h : c + 1 < 18446744073709551616) : counterInc c = c + 1 := by
  unfold counterInc
  exact Nat.mod_eq_of_lt h

/-- The decrement of a positive counter. -/
theorem counterDec_eq (c : Nat) (h0 : 0 < c) (h : c < 18446744073709551616) :
    counterDec c = c - 1 := by
  unfold counterDec
  omega

/-- The candidates on the queue are at most as many as the vertices. -/
theorem candidatesInQueue_le {d : RAPTOR.Data} (hd : WellFormed d) {s : ShortcutSearch}
    (hf : QueueFrame d s) : candidatesInQueue s ≤ 4294967295 := by
  unfold candidatesInQueue
  have h1 := List.countP_le_length
    (fun v => decide (s.oneTripTransferParent.getD v noStopEvent ≠ noStopEvent))
    (l := s.oneTripQueue)
  have h2 := length_le_of_nodup s.oneTripQueue _ hf.nodup hf.below
  have h3 : d.transferGraph.numVertices ≤ 4294967295 := hd.size
  omega

/-- A candidate on the queue is counted. -/
theorem candidatesInQueue_pos (s : ShortcutSearch) (v : Nat)
    (h : s.isShortcutCandidate v = true) : 0 < candidatesInQueue s := by
  unfold isShortcutCandidate at h
  rw [Bool.and_eq_true, decide_eq_true_eq] at h
  unfold candidatesInQueue
  rw [List.countP_pos_iff]
  exact ⟨v, h.1, h.2⟩

/-- Without candidates on the queue no vertex is a candidate. -/
theorem not_candidate_of_zero (s : ShortcutSearch) (v : Nat) (h : candidatesInQueue s = 0) :
    s.isShortcutCandidate v = false := by
  cases hc : s.isShortcutCandidate v with
  | false => rfl
  | true =>
    have := candidatesInQueue_pos s v hc
    omega

/-- The pending candidate of a vertex that is being settled. -/
theorem pendingCandidate_some (s : ShortcutSearch) (v : Nat) :
    pendingCandidate s (some v) =
      if s.oneTripTransferParent.getD v noStopEvent ≠ noStopEvent then 1 else 0 := rfl

/-- The effect of `arrivalByEdge1` on the queue, the parents and the counter. -/
theorem arrivalByEdge1_fields (s : ShortcutSearch) (v cur : Nat) (t : Int) :
    (arrivalByEdge1 s v t cur).oneTripQueue = CH.heapUpdate s.oneTripQueue v ∧
    (arrivalByEdge1 s v t cur).oneTripTransferParent =
      s.oneTripTransferParent.set v (s.oneTripTransferParent.getD cur noStopEvent) ∧
    (arrivalByEdge1 s v t cur).shortcutCandidatesInQueue =
      (if s.oneTripTransferParent.getD cur noStopEvent ≠ noStopEvent then
        counterInc (if s.isShortcutCandidate v then counterDec s.shortcutCandidatesInQueue
          else s.shortcutCandidatesInQueue)
      else (if s.isShortcutCandidate v then counterDec s.shortcutCandidatesInQueue
          else s.shortcutCandidatesInQueue)) := by
  unfold arrivalByEdge1
  simp only []
  refine ⟨?_, ?_, ?_⟩
  · rw [(lowerTwoTrips_oneTrip _ _ _).1]
  · rw [(lowerTwoTrips_oneTrip _ _ _).2.1]
  · rw [(lowerTwoTrips_oneTrip _ _ _).2.2]

/-- What `arrivalByEdge1` does to the number of candidates on the queue: the vertex is on
the queue with the parent of the current vertex. -/
theorem arrivalByEdge1_counts {d : RAPTOR.Data} {s : ShortcutSearch} (hf : QueueFrame d s)
    (v cur : Nat) (t : Int) (hv : v < d.transferGraph.numVertices) :
    QueueFrame d (arrivalByEdge1 s v t cur) ∧
    pendingCandidate (arrivalByEdge1 s v t cur) (some cur) = pendingCandidate s (some cur) ∧
    candidatesInQueue (arrivalByEdge1 s v t cur) +
        (if s.isShortcutCandidate v = true then 1 else 0) =
      candidatesInQueue s + pendingCandidate s (some cur) := by
  obtain ⟨hQ, hP, _⟩ := arrivalByEdge1_fields s v cur t
  have hvlen : v < s.oneTripTransferParent.length := by rw [hf.parents]; exact hv
  have hself : (s.oneTripTransferParent.set v
      (s.oneTripTransferParent.getD cur noStopEvent)).getD v noStopEvent =
      s.oneTripTransferParent.getD cur noStopEvent := getD_set_self _ _ _ _ hvlen
  have hother : ∀ u, u ≠ v → (s.oneTripTransferParent.set v
      (s.oneTripTransferParent.getD cur noStopEvent)).getD u noStopEvent =
      s.oneTripTransferParent.getD u noStopEvent :=
    fun u hu => getD_set_ne _ _ _ _ _ (fun e => hu e.symm)
  have hpend : pendingCandidate (arrivalByEdge1 s v t cur) (some cur) =
      pendingCandidate s (some cur) := by
    rw [pendingCandidate_some, pendingCandidate_some, hP]
    by_cases hc : cur = v
    · rw [hc] at hself ⊢; rw [hself]
    · rw [hother cur hc]
  refine ⟨⟨?_, ?_, ?_⟩, hpend, ?_⟩
  · rw [hQ]; exact CH.heapUpdate_nodup _ _ hf.nodup
  · rw [hQ]
    intro x hx
    rcases (CH.heapUpdate_mem _ _ _).mp hx with e | e
    · exact hf.below x e
    · rw [e]; exact hv
  · rw [hP, List.length_set]; exact hf.parents
  · have hch := countP_change
      (fun u => decide (s.oneTripTransferParent.getD u noStopEvent ≠ noStopEvent))
      (fun u => decide ((s.oneTripTransferParent.set v
        (s.oneTripTransferParent.getD cur noStopEvent)).getD u noStopEvent ≠ noStopEvent)) v
      (fun u hu => by simp only []; rw [hother u hu]) s.oneTripQueue hf.nodup
    simp only [hself] at hch
    rw [pendingCandidate_some]
    unfold candidatesInQueue isShortcutCandidate
    rw [hP, hQ]
    simp only [Bool.and_eq_true, decide_eq_true_eq] at hch ⊢
    by_cases hin : v ∈ s.oneTripQueue
    · rw [CH.Builder.heapUpdate_of_mem hin]
      by_cases h1 : s.oneTripTransferParent.getD v noStopEvent ≠ noStopEvent <;>
      by_cases h2 : s.oneTripTransferParent.getD cur noStopEvent ≠ noStopEvent <;>
      simp only [hin, h1, h2, true_and, and_self, and_true, and_false, if_true, if_false,
        not_true_eq_false, not_false_eq_true, ne_eq] at hch ⊢ <;> omega
    · have hup : CH.heapUpdate s.oneTripQueue v = s.oneTripQueue ++ [v] := by
        unfold CH.heapUpdate; rw [if_neg hin]
      rw [hup, List.countP_append, List.countP_singleton]
      simp only [hself, decide_eq_true_eq]
      by_cases h2 : s.oneTripTransferParent.getD cur noStopEvent ≠ noStopEvent <;>
      simp only [hin, h2, false_and, and_self, and_true, and_false, if_true, if_false,
        not_true_eq_false, not_false_eq_true, ne_eq] at hch ⊢ <;> omega

/-- A relaxation of `intermediateDijkstra` is a call of `arrivalByEdge1` for the head of the
edge, or nothing. -/
theorem relaxOneTrip_cases (d : RAPTOR.Data) (cur : Nat) (s : ShortcutSearch) (e : Nat) :
    relaxOneTrip d cur s e = s ∨
    relaxOneTrip d cur s e = arrivalByEdge1 s (d.transferGraph.toVertex.getD e noVertex)
      (s.oneTripArrivalLabels.getD cur never + d.transferGraph.travelTime.getD e 0) cur := by
  unfold relaxOneTrip
  simp only []
  split
  · exact Or.inr rfl
  · split
    · split
      · exact Or.inr rfl
      · exact Or.inl rfl
    · exact Or.inl rfl

/-- A relaxation keeps the counter in step with the candidates on the queue. -/
theorem relaxOneTrip_counts {d : RAPTOR.Data} (hd : WellFormed d) {s : ShortcutSearch}
    (hf : QueueFrame d s) (cur e : Nat) (he : e ∈ d.transferGraph.edgesFrom cur) :
    QueueFrame d (relaxOneTrip d cur s e) ∧
    (CountsCandidates (some cur, s) → CountsCandidates (some cur, relaxOneTrip d cur s e)) ∧
    (NoCandidates (some cur, s) → NoCandidates (some cur, relaxOneTrip d cur s e)) := by
  rcases relaxOneTrip_cases d cur s e with h | h
  · rw [h]; exact ⟨hf, fun x => x, fun x => x⟩
  · rw [h]
    have hv : d.transferGraph.toVertex.getD e noVertex < d.transferGraph.numVertices :=
      hd.heads _ (getD_mem_of_lt _ _ _ (edgesFrom_lt hd cur e he))
    obtain ⟨h1, h2, h3⟩ := arrivalByEdge1_counts hf (d.transferGraph.toVertex.getD e noVertex) cur
      (s.oneTripArrivalLabels.getD cur never + d.transferGraph.travelTime.getD e 0) hv
    obtain ⟨_, _, hc⟩ := arrivalByEdge1_fields s (d.transferGraph.toVertex.getD e noVertex) cur
      (s.oneTripArrivalLabels.getD cur never + d.transferGraph.travelTime.getD e 0)
    have hle := candidatesInQueue_le hd hf
    have hpe := pendingCandidate_some s cur
    refine ⟨h1, ?_, ?_⟩
    · intro hA
      unfold CountsCandidates at hA ⊢
      simp only [] at hA ⊢
      rw [h2, hc]
      by_cases hcand : s.isShortcutCandidate (d.transferGraph.toVertex.getD e noVertex) = true
      · have hpos := candidatesInQueue_pos s _ hcand
        rw [if_pos hcand] at h3 ⊢
        rw [counterDec_eq _ (by omega) (by split at hpe <;> omega)]
        by_cases hreal : s.oneTripTransferParent.getD cur noStopEvent ≠ noStopEvent
        · rw [if_pos hreal] at hpe ⊢
          rw [counterInc_eq _ (by omega)]
          omega
        · rw [if_neg hreal] at hpe ⊢
          omega
      · rw [if_neg hcand] at h3 ⊢
        by_cases hreal : s.oneTripTransferParent.getD cur noStopEvent ≠ noStopEvent
        · rw [if_pos hreal] at hpe ⊢
          rw [counterInc_eq _ (by omega)]
          omega
        · rw [if_neg hreal] at hpe ⊢
          omega
    · intro hB
      unfold NoCandidates at hB ⊢
      simp only [] at hB ⊢
      obtain ⟨hB1, hB2, hB3⟩ := hB
      have hcand := not_candidate_of_zero s (d.transferGraph.toVertex.getD e noVertex) hB2
      have hreal : ¬ s.oneTripTransferParent.getD cur noStopEvent ≠ noStopEvent := by
        intro hreal
        rw [if_pos hreal] at hpe
        omega
      rw [h2, hc, if_neg hreal, hcand]
      rw [hcand] at h3
      simp only [Bool.false_eq_true, if_false] at h3 ⊢
      exact ⟨hB1, by omega, hB3⟩

/-- The relaxations of the edges of the current vertex keep the counter in step with the
candidates on the queue. -/
theorem relaxStates_counts {d : RAPTOR.Data} (hd : WellFormed d) (cur : Nat) :
    ∀ (es : List Nat) (s : ShortcutSearch), (∀ e ∈ es, e ∈ d.transferGraph.edgesFrom cur) →
      QueueFrame d s →
      QueueFrame d (es.foldl (relaxOneTrip d cur) s) ∧
      (CountsCandidates (some cur, s) →
        (∀ m ∈ relaxStates d cur s es, CountsCandidates (some cur, m)) ∧
        CountsCandidates (some cur, es.foldl (relaxOneTrip d cur) s)) ∧
      (NoCandidates (some cur, s) →
        (∀ m ∈ relaxStates d cur s es, NoCandidates (some cur, m)) ∧
        NoCandidates (some cur, es.foldl (relaxOneTrip d cur) s)) := by
  intro es
  induction es with
  | nil =>
    intro s _ hf
    refine ⟨hf, fun h => ⟨?_, h⟩, fun h => ⟨?_, h⟩⟩ <;>
    · intro m hm
      unfold relaxStates at hm
      rw [List.mem_singleton] at hm
      rw [hm]; exact h
  | cons e es ih =>
    intro s hes hf
    obtain ⟨h1, h2, h3⟩ := relaxOneTrip_counts hd hf cur e (hes e (List.mem_cons_self _ _))
    obtain ⟨i1, i2, i3⟩ := ih (relaxOneTrip d cur s e)
      (fun x hx => hes x (List.mem_cons_of_mem _ hx)) h1
    rw [List.foldl_cons]
    refine ⟨i1, fun h => ⟨?_, (i2 (h2 h)).2⟩, fun h => ⟨?_, (i3 (h3 h)).2⟩⟩
    · intro m hm
      unfold relaxStates at hm
      rcases List.mem_cons.mp hm with e1 | e1
      · rw [e1]; exact h
      · exact (i2 (h2 h)).1 m e1
    · intro m hm
      unfold relaxStates at hm
      rcases List.mem_cons.mp hm with e1 | e1
      · rw [e1]; exact h
      · exact (i3 (h3 h)).1 m e1

/-- What the end of an iteration leaves as it is, and the counter after it. -/
theorem settleOneTrip_fields (d : RAPTOR.Data) (cur : Nat) (limit : Int) (s : ShortcutSearch) :
    (settleOneTrip d cur limit s).2.oneTripQueue = s.oneTripQueue ∧
    (settleOneTrip d cur limit s).2.oneTripTransferParent = s.oneTripTransferParent ∧
    (settleOneTrip d cur limit s).2.oneTripArrivalLabels = s.oneTripArrivalLabels ∧
    (settleOneTrip d cur limit s).2.shortcutCandidatesInQueue =
      (if (if s.oneTripTransferParent.getD cur noStopEvent ≠ noStopEvent then
            counterDec s.shortcutCandidatesInQueue else s.shortcutCandidatesInQueue) = 0 then
        18446744073709551615
      else (if s.oneTripTransferParent.getD cur noStopEvent ≠ noStopEvent then
            counterDec s.shortcutCandidatesInQueue else s.shortcutCandidatesInQueue)) := by
  unfold settleOneTrip
  simp only []
  by_cases h1 : s.oneTripTransferParent.getD cur noStopEvent ≠ noStopEvent
  · simp only [h1, if_true, ne_eq, not_false_eq_true]
    by_cases h2 : counterDec s.shortcutCandidatesInQueue = 0
    · simp only [h2, if_true]
      split <;> exact ⟨rfl, rfl, rfl, rfl⟩
    · simp only [h2, if_false]
      split <;> exact ⟨rfl, rfl, rfl, rfl⟩
  · simp only [h1, if_false]
    by_cases h2 : s.shortcutCandidatesInQueue = 0
    · simp only [h2, if_true]
      split <;> exact ⟨rfl, rfl, rfl, rfl⟩
    · simp only [h2, if_false]
      split <;> exact ⟨rfl, rfl, rfl, rfl⟩

/-- The end of an iteration: the counter is lowered for the settled vertex, and set to -1
when no candidate is left. -/
theorem settleOneTrip_counts {d : RAPTOR.Data} (hd : WellFormed d) {s : ShortcutSearch}
    (hf : QueueFrame d s) (cur : Nat) (limit : Int) :
    QueueFrame d (settleOneTrip d cur limit s).2 ∧
    (CountsCandidates (some cur, s) →
      CountsCandidates (none, (settleOneTrip d cur limit s).2) ∨
      NoCandidates (none, (settleOneTrip d cur limit s).2)) ∧
    (NoCandidates (some cur, s) → NoCandidates (none, (settleOneTrip d cur limit s).2)) := by
  obtain ⟨hQ, hP, _, hc⟩ := settleOneTrip_fields d cur limit s
  have hle := candidatesInQueue_le hd hf
  have hpe := pendingCandidate_some s cur
  have hcount : candidatesInQueue (settleOneTrip d cur limit s).2 = candidatesInQueue s := by
    unfold candidatesInQueue
    rw [hQ, hP]
  refine ⟨⟨?_, ?_, ?_⟩, ?_, ?_⟩
  · rw [hQ]; exact hf.nodup
  · rw [hQ]; exact hf.below
  · rw [hP]; exact hf.parents
  · intro hA
    unfold CountsCandidates at hA
    simp only [] at hA
    unfold CountsCandidates NoCandidates
    simp only []
    rw [hcount, hc]
    have hp0 : ∀ x : ShortcutSearch, pendingCandidate x none = 0 := fun _ => rfl
    rw [hp0]
    by_cases hreal : s.oneTripTransferParent.getD cur noStopEvent ≠ noStopEvent
    · rw [if_pos hreal] at hpe
      rw [if_pos hreal, counterDec_eq _ (by omega) (by omega)]
      by_cases hz : s.shortcutCandidatesInQueue - 1 = 0
      · rw [if_pos hz]; right; exact ⟨rfl, by omega, rfl⟩
      · rw [if_neg hz]; left; omega
    · rw [if_neg hreal] at hpe
      rw [if_neg hreal]
      by_cases hz : s.shortcutCandidatesInQueue = 0
      · rw [if_pos hz]; right; exact ⟨rfl, by omega, rfl⟩
      · rw [if_neg hz]; left; omega
  · intro hB
    unfold NoCandidates at hB ⊢
    simp only [] at hB ⊢
    obtain ⟨hB1, hB2, hB3⟩ := hB
    have hreal : ¬ s.oneTripTransferParent.getD cur noStopEvent ≠ noStopEvent := by
      intro hreal
      rw [if_pos hreal] at hpe
      omega
    rw [hcount, hc, if_neg hreal, hB1]
    exact ⟨by decide, hB2, rfl⟩

/-- Taking the front vertex from the queue: it is pending, the others stay on the queue. -/
theorem extract_counts {d : RAPTOR.Data} {s : ShortcutSearch} (hf : QueueFrame d s) (cur : Nat)
    (hcur : cur ∈ s.oneTripQueue) :
    QueueFrame d { s with oneTripQueue := s.oneTripQueue.erase cur } ∧
    (CountsCandidates (none, s) →
      CountsCandidates (some cur, { s with oneTripQueue := s.oneTripQueue.erase cur })) ∧
    (NoCandidates (none, s) →
      NoCandidates (some cur, { s with oneTripQueue := s.oneTripQueue.erase cur })) := by
  have hcount := countP_erase_mem
    (fun v => decide (s.oneTripTransferParent.getD v noStopEvent ≠ noStopEvent)) cur
    s.oneTripQueue hcur
  simp only [decide_eq_true_eq] at hcount
  have hpe : pendingCandidate { s with oneTripQueue := s.oneTripQueue.erase cur } (some cur) =
      if s.oneTripTransferParent.getD cur noStopEvent ≠ noStopEvent then 1 else 0 := rfl
  have hq : candidatesInQueue { s with oneTripQueue := s.oneTripQueue.erase cur } =
      (s.oneTripQueue.erase cur).countP
        (fun v => decide (s.oneTripTransferParent.getD v noStopEvent ≠ noStopEvent)) := rfl
  have hq0 : candidatesInQueue s = s.oneTripQueue.countP
      (fun v => decide (s.oneTripTransferParent.getD v noStopEvent ≠ noStopEvent)) := rfl
  have hp0 : pendingCandidate s none = 0 := rfl
  refine ⟨⟨hf.nodup.erase cur, fun v hv => hf.below v (List.mem_of_mem_erase hv), hf.parents⟩,
    ?_, ?_⟩
  · intro hA
    unfold CountsCandidates at hA ⊢
    simp only [] at hA ⊢
    rw [hpe, hq]
    omega
  · intro hB
    unfold NoCandidates at hB ⊢
    simp only [] at hB ⊢
    rw [hpe, hq]
    obtain ⟨hB1, hB2, _⟩ := hB
    refine ⟨hB1, by omega, ?_⟩
    split at hcount <;> rename_i hreal
    · omega
    · rw [if_neg hreal]

/-- Once no candidate is left, none is queued again. -/
theorem loopStates_noCandidates {d : RAPTOR.Data} (hd : WellFormed d) :
    ∀ (fuel : Nat) (limit : Int) (s : ShortcutSearch), QueueFrame d s →
      NoCandidates (none, s) → ∀ o ∈ loopStates d fuel limit s, NoCandidates o := by
  intro fuel
  induction fuel with
  | zero =>
    intro limit s _ hB o ho
    unfold loopStates at ho
    rw [List.mem_singleton] at ho
    rw [ho]; exact hB
  | succ fuel ih =>
    intro limit s hf hB o ho
    unfold loopStates at ho
    cases hfront : CH.heapFront (fun v => s.oneTripArrivalLabels.getD v never) s.oneTripQueue with
    | none =>
      rw [hfront] at ho
      simp only [] at ho
      rw [List.mem_singleton] at ho
      rw [ho]; exact hB
    | some cur =>
      rw [hfront] at ho
      simp only [] at ho
      have hcur := (CH.heapFront_some _ _ _ hfront).1
      obtain ⟨e1, _, e3⟩ := extract_counts hf cur hcur
      obtain ⟨r1, _, r3⟩ := relaxStates_counts hd cur (d.transferGraph.edgesFrom cur) _
        (fun e he => he) e1
      obtain ⟨t1, _, t3⟩ := settleOneTrip_counts hd r1 cur limit
      rcases List.mem_cons.mp ho with h | h
      · rw [h]; exact hB
      · rcases List.mem_append.mp h with h2 | h2
        · rw [List.mem_map] at h2
          obtain ⟨m, hm, hmo⟩ := h2
          rw [← hmo]
          exact (r3 (e3 hB)).1 m hm
        · split at h2
          · rw [List.mem_singleton] at h2
            rw [h2]
            exact t3 (r3 (e3 hB)).2
          · exact ih _ _ t1 (t3 (r3 (e3 hB)).2) o h2

/-- The loop of `intermediateDijkstra`: its states are counted states, followed by states
without candidates. -/
theorem loopStates_counts {d : RAPTOR.Data} (hd : WellFormed d) :
    ∀ (fuel : Nat) (limit : Int) (s : ShortcutSearch), QueueFrame d s →
      CountsCandidates (none, s) →
      ∃ before after, loopStates d fuel limit s = before ++ after ∧
        (∀ o ∈ before, CountsCandidates o) ∧ (∀ o ∈ after, NoCandidates o) := by
  intro fuel
  induction fuel with
  | zero =>
    intro limit s _ hA
    refine ⟨[(none, s)], [], by unfold loopStates; rfl, ?_, fun o ho => absurd ho (List.not_mem_nil o)⟩
    intro o ho
    rw [List.mem_singleton] at ho
    rw [ho]; exact hA
  | succ fuel ih =>
    intro limit s hf hA
    unfold loopStates
    cases hfront : CH.heapFront (fun v => s.oneTripArrivalLabels.getD v never) s.oneTripQueue with
    | none =>
      simp only []
      refine ⟨[(none, s)], [], rfl, ?_, fun o ho => absurd ho (List.not_mem_nil o)⟩
      intro o ho
      rw [List.mem_singleton] at ho
      rw [ho]; exact hA
    | some cur =>
      simp only []
      have hcur := (CH.heapFront_some _ _ _ hfront).1
      obtain ⟨e1, e2, _⟩ := extract_counts hf cur hcur
      obtain ⟨r1, r2, _⟩ := relaxStates_counts hd cur (d.transferGraph.edgesFrom cur) _
        (fun e he => he) e1
      obtain ⟨t1, t2, _⟩ := settleOneTrip_counts hd r1 cur limit
      have hmids : ∀ o ∈ (none, s) ::
          (relaxStates d cur { s with oneTripQueue := s.oneTripQueue.erase cur }
            (d.transferGraph.edgesFrom cur)).map (fun m => (some cur, m)),
          CountsCandidates o := by
        intro o ho
        rcases List.mem_cons.mp ho with h | h
        · rw [h]; exact hA
        · rw [List.mem_map] at h
          obtain ⟨m, hm, hmo⟩ := h
          rw [← hmo]
          exact (r2 (e2 hA)).1 m hm
      generalize hM : (relaxStates d cur { s with oneTripQueue := s.oneTripQueue.erase cur }
        (d.transferGraph.edgesFrom cur)).map (fun m => (some cur, m)) = mids at hmids ⊢
      rcases t2 (r2 (e2 hA)).2 with hA2 | hB2
      · split
        · refine ⟨_, [], (List.append_nil _).symm, ?_,
            fun o ho => absurd ho (List.not_mem_nil o)⟩
          intro o ho
          rw [← List.cons_append] at ho
          rcases List.mem_append.mp ho with h | h
          · exact hmids o h
          · rw [List.mem_singleton] at h
            rw [h]; exact hA2
        · obtain ⟨before, after, h1, h2, h3⟩ := ih _ _ t1 hA2
          refine ⟨((none, s) :: mids) ++ before, after,
            by rw [h1]; simp only [List.cons_append, List.append_assoc], ?_, h3⟩
          intro o ho
          rcases List.mem_append.mp ho with h | h
          · exact hmids o h
          · exact h2 o h
      · refine ⟨_, _, (List.cons_append _ _ _).symm, hmids, ?_⟩
        intro o ho
        split at ho
        · rw [List.mem_singleton] at ho
          rw [ho]; exact hB2
        · exact loopStates_noCandidates hd _ _ _ t1 hB2 o ho

/-- The loop of `intermediateDijkstra`, with the end of the iteration as one step. -/
theorem intermediateLoop_succ (d : RAPTOR.Data) (fuel : Nat) (limit : Int) (s : ShortcutSearch) :
    intermediateLoop d (fuel + 1) limit s =
      match CH.heapFront (fun v => s.oneTripArrivalLabels.getD v never) s.oneTripQueue with
      | none => some s
      | some cur =>
        if ((d.transferGraph.edgesFrom cur).foldl (relaxOneTrip d cur)
            { s with oneTripQueue := s.oneTripQueue.erase cur }).oneTripArrivalLabels.getD cur never >
            (settleOneTrip d cur limit ((d.transferGraph.edgesFrom cur).foldl (relaxOneTrip d cur)
              { s with oneTripQueue := s.oneTripQueue.erase cur })).1 then
          some (settleOneTrip d cur limit ((d.transferGraph.edgesFrom cur).foldl
            (relaxOneTrip d cur) { s with oneTripQueue := s.oneTripQueue.erase cur })).2
        else intermediateLoop d fuel
          (settleOneTrip d cur limit ((d.transferGraph.edgesFrom cur).foldl (relaxOneTrip d cur)
            { s with oneTripQueue := s.oneTripQueue.erase cur })).1
          (settleOneTrip d cur limit ((d.transferGraph.edgesFrom cur).foldl (relaxOneTrip d cur)
            { s with oneTripQueue := s.oneTripQueue.erase cur })).2 := by
  rw [intermediateLoop]
  cases CH.heapFront (fun v => s.oneTripArrivalLabels.getD v never) s.oneTripQueue with
  | none => rfl
  | some cur =>
    simp only []
    unfold settleOneTrip
    simp only []
    split <;> split <;> rfl

/-- The state in which the loop of `intermediateDijkstra` ends is the last of its states. -/
theorem loopStates_last (d : RAPTOR.Data) :
    ∀ (fuel : Nat) (limit : Int) (s r : ShortcutSearch),
      intermediateLoop d fuel limit s = some r →
      (loopStates d fuel limit s).getLast? = some (none, r) := by
  intro fuel
  induction fuel with
  | zero => intro limit s r h; unfold intermediateLoop at h; cases h
  | succ fuel ih =>
    intro limit s r h
    rw [intermediateLoop_succ] at h
    unfold loopStates
    cases hfront : CH.heapFront (fun v => s.oneTripArrivalLabels.getD v never) s.oneTripQueue with
    | none =>
      rw [hfront] at h
      simp only [] at h ⊢
      rw [← Option.some.inj h]
      rfl
    | some cur =>
      rw [hfront] at h
      simp only [] at h ⊢
      rw [List.getLast?_cons, List.getLast?_append]
      split at h
      · rename_i hlt
        rw [if_pos hlt, ← Option.some.inj h]
        rfl
      · rename_i hlt
        rw [if_neg hlt, ih _ _ _ h]
        rfl

/-- The last of the states of the first loop is the state after the loop. -/
theorem seedStates_last : ∀ (stops : List Nat) (s : ShortcutSearch),
    (seedStates s stops).getLast? = some (stops.foldl seedIntermediate s) := by
  intro stops
  induction stops with
  | nil => intro s; rfl
  | cons stop rest ih =>
    intro s
    unfold seedStates
    rw [List.getLast?_cons, ih, List.foldl_cons]
    rfl

/-- The first loop of `intermediateDijkstra` counts the candidates it puts on the queue. -/
theorem seedStates_counts {d : RAPTOR.Data} (hd : WellFormed d) :
    ∀ (stops : List Nat) (s : ShortcutSearch), stops.Nodup → QueueFrame d s →
      (∀ v ∈ stops, v < d.transferGraph.numVertices) →
      (∀ v ∈ stops, v ∈ s.oneTripQueue →
        s.oneTripTransferParent.getD v noStopEvent = noStopEvent) →
      CountsCandidates (none, s) →
      (∀ m ∈ seedStates s stops, CountsCandidates (none, m)) ∧
      QueueFrame d (stops.foldl seedIntermediate s) ∧
      CountsCandidates (none, stops.foldl seedIntermediate s) := by
  intro stops
  induction stops with
  | nil =>
    intro s _ hf _ _ hA
    refine ⟨?_, hf, hA⟩
    intro m hm
    unfold seedStates at hm
    rw [List.mem_singleton] at hm
    rw [hm]; exact hA
  | cons stop rest ih =>
    intro s hn hf hbelow hleft hA
    rw [List.nodup_cons] at hn
    have hQ : (seedIntermediate s stop).oneTripQueue = CH.heapUpdate s.oneTripQueue stop := rfl
    have hP : (seedIntermediate s stop).oneTripTransferParent = s.oneTripTransferParent := rfl
    have hC : (seedIntermediate s stop).shortcutCandidatesInQueue =
        if s.oneTripTransferParent.getD stop noStopEvent ≠ noStopEvent then
          counterInc s.shortcutCandidatesInQueue else s.shortcutCandidatesInQueue := rfl
    have hf2 : QueueFrame d (seedIntermediate s stop) := by
      refine ⟨?_, ?_, ?_⟩
      · rw [hQ]; exact CH.heapUpdate_nodup _ _ hf.nodup
      · rw [hQ]
        intro x hx
        rcases (CH.heapUpdate_mem _ _ _).mp hx with e | e
        · exact hf.below x e
        · rw [e]; exact hbelow stop (List.mem_cons_self _ _)
      · rw [hP]; exact hf.parents
    have hle := candidatesInQueue_le hd hf
    have hA2 : CountsCandidates (none, seedIntermediate s stop) := by
      unfold CountsCandidates at hA ⊢
      simp only [] at hA ⊢
      have hp0 : ∀ x : ShortcutSearch, pendingCandidate x none = 0 := fun _ => rfl
      rw [hp0] at hA ⊢
      rw [hC]
      unfold candidatesInQueue at hA hle ⊢
      rw [hQ, hP]
      by_cases hin : stop ∈ s.oneTripQueue
      · rw [CH.Builder.heapUpdate_of_mem hin,
          if_neg (not_not.mpr (hleft stop (List.mem_cons_self _ _) hin))]
        exact hA
      · have hup : CH.heapUpdate s.oneTripQueue stop = s.oneTripQueue ++ [stop] := by
          unfold CH.heapUpdate; rw [if_neg hin]
        rw [hup, List.countP_append, List.countP_singleton]
        simp only [decide_eq_true_eq]
        by_cases hreal : s.oneTripTransferParent.getD stop noStopEvent ≠ noStopEvent
        · rw [if_pos hreal, if_pos hreal, counterInc_eq _ (by omega)]
          omega
        · rw [if_neg hreal, if_neg hreal]
          omega
    obtain ⟨i1, i2, i3⟩ := ih (seedIntermediate s stop) hn.2 hf2
      (fun v hv => hbelow v (List.mem_cons_of_mem _ hv))
      (fun v hv hq => by
        rw [hQ] at hq
        rw [hP]
        rcases (CH.heapUpdate_mem _ _ _).mp hq with e | e
        · exact hleft v (List.mem_cons_of_mem _ hv) e
        · exact absurd (e ▸ hv) hn.1) hA2
    rw [List.foldl_cons]
    refine ⟨?_, i2, i3⟩
    intro m hm
    unfold seedStates at hm
    rcases List.mem_cons.mp hm with e | e
    · rw [e]; exact hA
    · exact i1 m e

/-- C34: let `intermediateDijkstra` start in a state in which the queue holds every vertex
once, its vertices and the stops updated by a route are vertices of the transfer graph, each
of these stops is listed once, every vertex has a transfer parent, and no vertex left on the
queue has a stop event as transfer parent.  Then the states of the search (after the reset
of the counter, after each iteration of the first loop, at the head of each iteration of
the second loop, and before and after each relaxation) are states in which the counter is
the number of the vertices on the queue with a stop event as transfer parent plus one for
the vertex that is being settled when it has one, followed, from the iteration on that
brings the counter to zero, by states in which the counter is -1 and no vertex on the queue
has a stop event as transfer parent.  In the former states a vertex that is a candidate
finds a positive counter, so that no decrement underflows.  The state that
`intermediateDijkstra` returns is the last of these states with `stopsUpdatedByRoute`
cleared. -/
theorem intermediateDijkstra_counts (d : RAPTOR.Data) (fuel : Nat) (s : ShortcutSearch)
    (hd : WellFormed d) (hf : QueueFrame d s) (hstops : s.stopsUpdatedByRoute.keys.Nodup)
    (hbelow : ∀ v ∈ s.stopsUpdatedByRoute.keys, v < d.transferGraph.numVertices)
    (hleft : ∀ v ∈ s.oneTripQueue, s.oneTripTransferParent.getD v noStopEvent = noStopEvent) :
    ∃ before after, intermediateStates d fuel s = before ++ after ∧
      (∀ o ∈ before, o.2.shortcutCandidatesInQueue =
          candidatesInQueue o.2 + pendingCandidate o.2 o.1 ∧
        (∀ v, o.2.isShortcutCandidate v = true → 0 < o.2.shortcutCandidatesInQueue) ∧
        (pendingCandidate o.2 o.1 = 1 → 0 < o.2.shortcutCandidatesInQueue)) ∧
      (∀ o ∈ after, o.2.shortcutCandidatesInQueue = 18446744073709551615 ∧
        candidatesInQueue o.2 = 0 ∧ pendingCandidate o.2 o.1 = 0) ∧
      ∀ r, intermediateDijkstra d fuel s = some r →
        ∃ o, (intermediateStates d fuel s).getLast? = some (none, o) ∧
          r = { o with stopsUpdatedByRoute := o.stopsUpdatedByRoute.clear } := by
  have hf0 : QueueFrame d { s with shortcutCandidatesInQueue := 0 } :=
    ⟨hf.nodup, hf.below, hf.parents⟩
  have hA0 : CountsCandidates (none, { s with shortcutCandidatesInQueue := 0 }) := by
    unfold CountsCandidates
    simp only []
    have hz : candidatesInQueue { s with shortcutCandidatesInQueue := 0 } = 0 := by
      unfold candidatesInQueue
      rw [List.countP_eq_zero]
      intro v hv
      simp only [decide_eq_true_eq]
      exact not_not.mpr (hleft v hv)
    rw [hz]
    rfl
  obtain ⟨h1, h2, h3⟩ := seedStates_counts hd s.stopsUpdatedByRoute.keys
    { s with shortcutCandidatesInQueue := 0 } hstops hf0 hbelow
    (fun v _ hq => hleft v hq) hA0
  have hstrong : ∀ o, CountsCandidates o →
      o.2.shortcutCandidatesInQueue = candidatesInQueue o.2 + pendingCandidate o.2 o.1 ∧
      (∀ v, o.2.isShortcutCandidate v = true → 0 < o.2.shortcutCandidatesInQueue) ∧
      (pendingCandidate o.2 o.1 = 1 → 0 < o.2.shortcutCandidatesInQueue) := by
    intro o ho
    unfold CountsCandidates at ho
    refine ⟨ho, ?_, ?_⟩
    · intro v hv
      have := candidatesInQueue_pos o.2 v hv
      omega
    · intro hp
      omega
  have hseeds : ∀ o ∈ (seedStates { s with shortcutCandidatesInQueue := 0 }
      s.stopsUpdatedByRoute.keys).map (fun m => ((none : Option Nat), m)),
      CountsCandidates o := by
    intro o ho
    rw [List.mem_map] at ho
    obtain ⟨m, hm, hmo⟩ := ho
    rw [← hmo]; exact h1 m hm
  have hfold : ∀ t : ShortcutSearch, s.stopsUpdatedByRoute.keys.foldl
      (fun s stop =>
        let c := if s.oneTripTransferParent.getD stop noStopEvent ≠ noStopEvent then
          counterInc s.shortcutCandidatesInQueue else s.shortcutCandidatesInQueue
        { s with oneTripQueue := CH.heapUpdate s.oneTripQueue stop,
                 shortcutCandidatesInQueue := c }) t =
      s.stopsUpdatedByRoute.keys.foldl seedIntermediate t := fun _ => rfl
  unfold intermediateStates intermediateDijkstra
  simp only []
  rw [hfold]
  by_cases hz : (s.stopsUpdatedByRoute.keys.foldl seedIntermediate
      { s with shortcutCandidatesInQueue := 0 }).shortcutCandidatesInQueue = 0
  · rw [if_pos hz, if_pos hz]
    refine ⟨_, [], rfl, fun o ho => hstrong o (hseeds o ho),
      fun o ho => absurd ho (List.not_mem_nil o), ?_⟩
    intro r hr
    refine ⟨_, ?_, (Option.some.inj hr).symm⟩
    rw [List.append_nil, List.getLast?_map, seedStates_last]
    rfl
  · rw [if_neg hz, if_neg hz]
    obtain ⟨before, after, l1, l2, l3⟩ := loopStates_counts hd fuel intMax _ h2 h3
    refine ⟨_ ++ before, after, by rw [l1, List.append_assoc], ?_, l3, ?_⟩
    · intro o ho
      rcases List.mem_append.mp ho with h | h
      · exact hstrong o (hseeds o h)
      · exact hstrong o (l2 o h)
    · intro r hr
      cases hloop : intermediateLoop d fuel intMax (s.stopsUpdatedByRoute.keys.foldl
          seedIntermediate { s with shortcutCandidatesInQueue := 0 }) with
      | none => rw [hloop] at hr; cases hr
      | some r2 =>
        rw [hloop] at hr
        refine ⟨r2, ?_, (Option.some.inj hr).symm⟩
        rw [List.getLast?_append, loopStates_last d _ _ _ _ hloop]
        rfl

/-- The theorem `intermediateDijkstra_counts` at the first departure time of the search from
the stop A of `twoRoutes 301`: the stop B is put on the queue as a candidate, the vertex C
is reached from it, and the counter falls to zero when C is settled. -/
theorem intermediateDijkstra_counts_witness :
    (intermediateStates (twoRoutes 301) 10
        (intermediateStart (twoRoutes 301) 10 900 0 0 1000)).map
        (fun o => (o.1, o.2.shortcutCandidatesInQueue, o.2.oneTripQueue)) =
      [(none, 0, []), (none, 1, [1]), (none, 1, [1]), (some 1, 1, []), (some 1, 2, [2]),
        (none, 1, [2]), (some 2, 1, []), (none, 18446744073709551615, [])] ∧
    ∃ before after, intermediateStates (twoRoutes 301) 10
        (intermediateStart (twoRoutes 301) 10 900 0 0 1000) = before ++ after ∧
      (∀ o ∈ before, o.2.shortcutCandidatesInQueue =
        candidatesInQueue o.2 + pendingCandidate o.2 o.1) ∧
      ∀ o ∈ after, o.2.shortcutCandidatesInQueue = 18446744073709551615 ∧
        candidatesInQueue o.2 = 0 ∧ pendingCandidate o.2 o.1 = 0 := by
  refine ⟨by decide, ?_⟩
  obtain ⟨before, after, h1, h2, h3, _⟩ := intermediateDijkstra_counts (twoRoutes 301) 10
    (intermediateStart (twoRoutes 301) 10 900 0 0 1000)
    ⟨by decide, by decide, by decide, by decide, by decide, by decide, by decide, by decide⟩
    ⟨by decide, by decide, by decide⟩ (by decide) (by decide) (by decide)
  exact ⟨before, after, h1, fun o ho => (h2 o ho).1, h3⟩

end ShortcutSearch

end TripBased

namespace IndexedMap

variable {Value : Type}

open TripBased.ShortcutSearch

/-- A contained key lies below the capacity. -/
theorem contains_lt (m : IndexedMap Value) (k : Nat) (hc : m.contains k = true) :
    k < m.capacity := by
  rw [contains_iff] at hc
  by_contra hk
  exact hc (getD_of_length_le _ _ _ (by unfold capacity at hk; omega))

/-- The position of a contained key is a position of the values. -/
theorem Inv.index_lt {m : IndexedMap Value} (h : Inv m) (k : Nat) (hc : m.contains k = true) :
    m.indices.getD k NotContained < m.values.length ∧
      m.keys.getD (m.indices.getD k NotContained) 0 = k := by
  have hk := contains_lt m k hc
  rw [contains_iff] at hc
  have := h.fwd k hk hc
  rw [← h.len]
  exact this

/-- `operator[] =` changes no key. -/
theorem setValue_contains (m : IndexedMap Value) (k : Nat) (v : Value) (k2 : Nat) :
    (m.setValue k v).contains k2 = m.contains k2 := rfl

/-- `operator[] =` changes no capacity. -/
theorem setValue_capacity (m : IndexedMap Value) (k : Nat) (v : Value) :
    (m.setValue k v).capacity = m.capacity := rfl

/-- The value of a contained key after `operator[] =`. -/
theorem Inv.setValue_get_self [Inhabited Value] {m : IndexedMap Value} (h : Inv m) (k : Nat)
    (v : Value) (hc : m.contains k = true) : (m.setValue k v).get k = v := by
  unfold setValue get
  simp only []
  exact getD_set_self _ _ _ _ (h.index_lt k hc).1

/-- The value of another contained key after `operator[] =`. -/
theorem Inv.setValue_get_other [Inhabited Value] {m : IndexedMap Value} (h : Inv m) (k : Nat)
    (v : Value) (hc : m.contains k = true) (k2 : Nat) (hc2 : m.contains k2 = true)
    (hne : k2 ≠ k) : (m.setValue k v).get k2 = m.get k2 := by
  unfold setValue get
  simp only []
  apply getD_set_ne
  intro e
  have h1 := (h.index_lt k hc).2
  have h2 := (h.index_lt k2 hc2).2
  rw [e] at h1
  exact hne (h2.symm.trans h1)

/-- The keys after the insertion of a key that is not contained. -/
theorem Inv.insert_contains {m : IndexedMap Value} (h : Inv m) (k : Nat) (v : Value)
    (hk : k < m.capacity) (hc : m.contains k = false) (k2 : Nat) :
    (m.insert k v).contains k2 = true ↔ k2 = k ∨ m.contains k2 = true := by
  have hsize := h.size_lt k hk ((contains_eq_false m k).mp hc)
  have hcap := h.cap
  unfold insert
  rw [hc]
  simp only [Bool.false_eq_true, if_false]
  rw [contains_iff, contains_iff]
  simp only []
  by_cases e : k2 = k
  · rw [e, getD_set_self _ _ _ _ hk]
    constructor
    · intro _; exact Or.inl rfl
    · intro _; unfold NotContained at hcap ⊢; omega
  · rw [getD_set_ne _ _ _ _ _ (fun x => e x.symm)]
    constructor
    · intro x; exact Or.inr x
    · rintro (x | x)
      · exact absurd x e
      · exact x

/-- The capacity after an insertion. -/
theorem insert_capacity (m : IndexedMap Value) (k : Nat) (v : Value) :
    (m.insert k v).capacity = m.capacity := by
  unfold insert
  split
  · rfl
  · unfold capacity; simp only []; rw [List.length_set]

/-- The value of a key after its insertion. -/
theorem Inv.insert_get_self [Inhabited Value] {m : IndexedMap Value} (h : Inv m) (k : Nat)
    (v : Value) (hk : k < m.capacity) (hc : m.contains k = false) :
    (m.insert k v).get k = v := by
  unfold insert
  rw [hc]
  simp only [Bool.false_eq_true, if_false]
  unfold get
  simp only []
  rw [getD_set_self _ _ _ _ hk, h.len, TripBased.Data.getD_append_ge _ _ _ _ (le_refl _),
    Nat.sub_self]
  rfl

/-- The value of a contained key after the insertion of another key. -/
theorem Inv.insert_get_other [Inhabited Value] {m : IndexedMap Value} (h : Inv m) (k : Nat)
    (v : Value) (hc : m.contains k = false) (k2 : Nat) (hc2 : m.contains k2 = true) :
    (m.insert k v).get k2 = m.get k2 := by
  have hne : k ≠ k2 := by
    intro e
    rw [e, hc2] at hc
    cases hc
  unfold insert
  rw [hc]
  simp only [Bool.false_eq_true, if_false]
  unfold get
  simp only []
  rw [getD_set_ne _ _ _ _ _ hne, TripBased.Data.getD_append_lt _ _ _ _ (h.index_lt k2 hc2).1]

/-- A map without values contains no key, and a map with values contains one. -/
theorem Inv.isEmpty_iff {m : IndexedMap Value} (h : Inv m) :
    m.isEmpty = true ↔ ∀ k, m.contains k = false := by
  unfold isEmpty
  rw [List.isEmpty_iff]
  constructor
  · intro he k
    cases hc : m.contains k with
    | false => rfl
    | true =>
      have := (h.index_lt k hc).1
      rw [he] at this
      exact absurd this (Nat.not_lt_zero _)
  · intro hall
    by_contra hne
    have hpos : 0 < m.keys.length := by
      rw [h.len]
      exact List.length_pos.mpr hne
    obtain ⟨h1, h2⟩ := h.back 0 hpos
    have hc := hall (m.keys.getD 0 0)
    rw [contains_eq_false, h2] at hc
    unfold NotContained at hc
    omega

/-- The keys and values after `remove(key)`, for the keys that are contained. -/
theorem Inv.remove_spec [Inhabited Value] {m : IndexedMap Value} (h : Inv m) (k : Nat)
    (hc : m.contains k = true) :
    (m.remove k).contains k = false ∧
    ∀ k2, k2 ≠ k → (m.remove k).contains k2 = m.contains k2 ∧
      (m.contains k2 = true → (m.remove k).get k2 = m.get k2) := by
  have hk := contains_lt m k hc
  obtain ⟨h1, _, h3⟩ := h.remove_others k hk
  refine ⟨h1, ?_⟩
  intro k2 hne
  by_cases hk2 : k2 < m.capacity
  · exact h3 k2 hk2 hne
  · have hc2 : m.contains k2 = false := by
      cases hx : m.contains k2 with
      | false => rfl
      | true => exact absurd (contains_lt m k2 hx) hk2
    have hcap : (m.remove k).capacity = m.capacity := by
      obtain ⟨_, _, hl, _⟩ := remove_fields m k h hk hc
      exact hl
    have hc3 : (m.remove k).contains k2 = false := by
      cases hx : (m.remove k).contains k2 with
      | false => rfl
      | true =>
        have := contains_lt _ k2 hx
        rw [hcap] at this
        exact absurd this hk2
    rw [hc2, hc3]
    exact ⟨rfl, fun x => by cases x⟩

end IndexedMap

namespace TripBased

namespace ShortcutSearch

/-- A marked stop is a stop. -/
theorem isMarked_lt {d : RAPTOR.Data} (hno : d.isStop noStop = false) {s : ShortcutSearch}
    (hp : s.twoTripsRouteParent.length = d.numberOfStops) {stop : Nat}
    (h : isMarked d s stop = true) : stop < d.numberOfStops := by
  by_contra hlt
  unfold isMarked at h
  rw [getD_of_length_le _ _ _ (by omega), hno] at h
  cases h

/-- Membership in the candidate set of the route parent event. -/
theorem isCandidateMember_iff (s : ShortcutSearch) (stop : Nat) :
    isCandidateMember s stop = true ↔
      s.shortcutDestinationCandidates.contains (s.twoTripsRouteParentEvent.getD stop 0) = true ∧
      stop ∈ s.shortcutDestinationCandidates.get (s.twoTripsRouteParentEvent.getD stop 0) := by
  unfold isCandidateMember
  rw [Bool.and_eq_true, decide_eq_true_eq]

/-- The insertion into a candidate set keeps it without repetition. -/
theorem nodup_enter (set : List Nat) (stop : Nat) (h : set.Nodup) :
    (if stop ∈ set then set else set ++ [stop]).Nodup := by
  split
  · exact h
  · rename_i hin
    rw [List.nodup_append]
    refine ⟨h, List.nodup_singleton _, ?_⟩
    intro a ha hb
    rw [List.mem_singleton] at hb
    rw [hb] at ha
    exact hin ha

/-- The map after the first loop of `finalDijkstra` has entered a stop under the key
`key`: the key is contained with the new set, the other keys are as they were. -/
theorem enter_spec {m : IndexedMap (List Nat)} (h : IndexedMap.Inv m) (key : Nat)
    (hk : key < m.capacity) (set : List Nat) :
    IndexedMap.Inv ((if m.contains key then m else m.insert key []).setValue key set) ∧
    ((if m.contains key then m else m.insert key []).setValue key set).capacity = m.capacity ∧
    (if m.contains key then m else m.insert key []).get key =
      (if m.contains key then m.get key else []) ∧
    ((if m.contains key then m else m.insert key []).setValue key set).get key = set ∧
    (∀ k, ((if m.contains key then m else m.insert key []).setValue key set).contains k = true ↔
      k = key ∨ m.contains k = true) ∧
    (∀ k, k ≠ key → m.contains k = true →
      ((if m.contains key then m else m.insert key []).setValue key set).get k = m.get k) := by
  by_cases hc : m.contains key = true
  · simp only [hc, if_true]
    refine ⟨IndexedMap.setValue_inv m key set h, by first | rfl | trivial,
      by first | rfl | trivial, h.setValue_get_self key set hc, ?_, ?_⟩
    · intro k
      rw [IndexedMap.setValue_contains]
      constructor
      · intro x; exact Or.inr x
      · rintro (x | x)
        · rw [x]; exact hc
        · exact x
    · intro k hne hck
      exact h.setValue_get_other key set hc k hck hne
  · have hc2 : m.contains key = false := by
      cases hx : m.contains key with
      | false => rfl
      | true => exact absurd hx hc
    simp only [hc2, Bool.false_eq_true, if_false]
    have hi := IndexedMap.insert_inv m key [] h hk
    have hci : (m.insert key []).contains key = true :=
      (h.insert_contains key [] hk hc2 key).mpr (Or.inl rfl)
    refine ⟨IndexedMap.setValue_inv _ key set hi, ?_, h.insert_get_self key [] hk hc2,
      hi.setValue_get_self key set hci, ?_, ?_⟩
    · rw [IndexedMap.setValue_capacity, IndexedMap.insert_capacity]
    · intro k
      rw [IndexedMap.setValue_contains]
      exact h.insert_contains key [] hk hc2 k
    · intro k hne hck
      rw [hi.setValue_get_other key set hci k
        ((h.insert_contains key [] hk hc2 k).mpr (Or.inr hck)) hne]
      exact h.insert_get_other key [] hc2 k hck

/-- What `seedFinal` writes. -/
theorem seedFinal_fields (d : RAPTOR.Data) (s : ShortcutSearch) (stop : Nat) :
    (seedFinal d s stop).twoTripsRouteParent = s.twoTripsRouteParent ∧
    (seedFinal d s stop).twoTripsRouteParentEvent = s.twoTripsRouteParentEvent ∧
    (seedFinal d s stop).twoTripsQueue = CH.heapUpdate s.twoTripsQueue stop ∧
    (seedFinal d s stop).shortcuts = s.shortcuts ∧
    (seedFinal d s stop).shortcutDestinationCandidates =
      if isMarked d s stop = true then
        (if s.shortcutDestinationCandidates.contains (s.twoTripsRouteParentEvent.getD stop 0)
          then s.shortcutDestinationCandidates
          else s.shortcutDestinationCandidates.insert
            (s.twoTripsRouteParentEvent.getD stop 0) []).setValue
          (s.twoTripsRouteParentEvent.getD stop 0)
          (if stop ∈ (if s.shortcutDestinationCandidates.contains
                (s.twoTripsRouteParentEvent.getD stop 0)
              then s.shortcutDestinationCandidates
              else s.shortcutDestinationCandidates.insert
                (s.twoTripsRouteParentEvent.getD stop 0) []).get
                (s.twoTripsRouteParentEvent.getD stop 0)
            then (if s.shortcutDestinationCandidates.contains
                (s.twoTripsRouteParentEvent.getD stop 0)
              then s.shortcutDestinationCandidates
              else s.shortcutDestinationCandidates.insert
                (s.twoTripsRouteParentEvent.getD stop 0) []).get
                (s.twoTripsRouteParentEvent.getD stop 0)
            else (if s.shortcutDestinationCandidates.contains
                (s.twoTripsRouteParentEvent.getD stop 0)
              then s.shortcutDestinationCandidates
              else s.shortcutDestinationCandidates.insert
                (s.twoTripsRouteParentEvent.getD stop 0) []).get
                (s.twoTripsRouteParentEvent.getD stop 0) ++ [stop])
      else s.shortcutDestinationCandidates := by
  unfold seedFinal isMarked
  simp only []
  split <;> exact ⟨rfl, rfl, rfl, rfl, rfl⟩

/-- One iteration of the first loop of `finalDijkstra` keeps its invariant. -/
theorem seedFinal_seeded {d : RAPTOR.Data} {s : ShortcutSearch} {entered : List Nat}
    (h : Seeded d s entered) (stop : Nat) :
    Seeded d (seedFinal d s stop) (entered ++ [stop]) := by
  obtain ⟨hP, hE, hQ, _, hM⟩ := seedFinal_fields d s stop
  have hmark : ∀ x, isMarked d (seedFinal d s stop) x = isMarked d s x := by
    intro x; unfold isMarked; rw [hP]
  have hqueued : ∀ x ∈ entered ++ [stop], x ∈ (seedFinal d s stop).twoTripsQueue := by
    intro x hx
    rw [hQ, CH.heapUpdate_mem]
    rcases List.mem_append.mp hx with e | e
    · exact Or.inl (h.queued x e)
    · exact Or.inr (List.mem_singleton.mp e)
  by_cases hm : isMarked d s stop = true
  · rw [if_pos hm] at hM
    have hroom := h.room stop hm
    obtain ⟨e1, e2, e3, e4, e5, e6⟩ := enter_spec h.sets.map
      (s.twoTripsRouteParentEvent.getD stop 0) hroom
      (if stop ∈ (if s.shortcutDestinationCandidates.contains
            (s.twoTripsRouteParentEvent.getD stop 0)
          then s.shortcutDestinationCandidates
          else s.shortcutDestinationCandidates.insert
            (s.twoTripsRouteParentEvent.getD stop 0) []).get
            (s.twoTripsRouteParentEvent.getD stop 0)
        then (if s.shortcutDestinationCandidates.contains
            (s.twoTripsRouteParentEvent.getD stop 0)
          then s.shortcutDestinationCandidates
          else s.shortcutDestinationCandidates.insert
            (s.twoTripsRouteParentEvent.getD stop 0) []).get
            (s.twoTripsRouteParentEvent.getD stop 0)
        else (if s.shortcutDestinationCandidates.contains
            (s.twoTripsRouteParentEvent.getD stop 0)
          then s.shortcutDestinationCandidates
          else s.shortcutDestinationCandidates.insert
            (s.twoTripsRouteParentEvent.getD stop 0) []).get
            (s.twoTripsRouteParentEvent.getD stop 0) ++ [stop])
    rw [← hM] at e1 e2 e4 e5 e6
    rw [e3] at e4
    -- the old set under the key
    have hold : ∀ x ∈ (if s.shortcutDestinationCandidates.contains
          (s.twoTripsRouteParentEvent.getD stop 0) = true
        then s.shortcutDestinationCandidates.get (s.twoTripsRouteParentEvent.getD stop 0)
        else []),
        s.twoTripsRouteParentEvent.getD x 0 = s.twoTripsRouteParentEvent.getD stop 0 ∧
          isMarked d s x = true := by
      intro x hx
      split at hx
      · rename_i hc
        exact (h.sets.members _ hc).2.2 x hx
      · cases hx
    have holdnd : (if s.shortcutDestinationCandidates.contains
          (s.twoTripsRouteParentEvent.getD stop 0) = true
        then s.shortcutDestinationCandidates.get (s.twoTripsRouteParentEvent.getD stop 0)
        else []).Nodup := by
      split
      · rename_i hc
        exact (h.sets.members _ hc).2.1
      · exact List.nodup_nil
    generalize hset : (if s.shortcutDestinationCandidates.contains
          (s.twoTripsRouteParentEvent.getD stop 0) = true
        then s.shortcutDestinationCandidates.get (s.twoTripsRouteParentEvent.getD stop 0)
        else []) = set at e4 hold holdnd
    have hnew : ∀ x, x ∈ (if stop ∈ set then set else set ++ [stop]) ↔ x ∈ set ∨ x = stop := by
      intro x
      split
      · rename_i hin
        constructor
        · intro hx; exact Or.inl hx
        · rintro (hx | hx)
          · exact hx
          · rw [hx]; exact hin
      · rw [List.mem_append, List.mem_singleton]
    refine ⟨⟨e1, by rw [hP]; exact h.sets.parents, by rw [hP]; exact h.sets.values, ?_⟩,
      ?_, hqueued, ?_⟩
    · intro key hkey
      rw [hE]
      rcases (e5 key).mp hkey with e | e
      · rw [e, e4]
        refine ⟨?_, ?_, ?_⟩
        · intro hnil
          have := (hnew stop).mpr (Or.inr rfl)
          rw [hnil] at this
          cases this
        · exact nodup_enter set stop holdnd
        · intro x hx
          rw [hmark]
          rcases (hnew x).mp hx with hx2 | hx2
          · exact hold x hx2
          · rw [hx2]; exact ⟨rfl, hm⟩
      · by_cases hkk : key = s.twoTripsRouteParentEvent.getD stop 0
        · rw [hkk, e4]
          rw [hkk] at e
          rw [← hset, if_pos e] at hnew
          have hmem := h.sets.members _ e
          refine ⟨?_, ?_, ?_⟩
          · intro hnil
            have := (hnew stop).mpr (Or.inr rfl)
            rw [← hset, if_pos e] at hnil
            rw [hnil] at this
            cases this
          · exact nodup_enter set stop holdnd
          · intro x hx
            rw [hmark]
            rw [← hset, if_pos e] at hx
            rcases (hnew x).mp hx with hx2 | hx2
            · exact hmem.2.2 x hx2
            · rw [hx2]; exact ⟨rfl, hm⟩
        · rw [e6 key hkk e]
          have hmem := h.sets.members key e
          refine ⟨hmem.1, hmem.2.1, ?_⟩
          intro x hx
          rw [hmark]
          exact hmem.2.2 x hx
    · intro x hx hxm
      rw [hmark] at hxm
      rw [isCandidateMember_iff, hE]
      rcases List.mem_append.mp hx with e | e
      · have hold2 := (isCandidateMember_iff s x).mp (h.members x e hxm)
        refine ⟨(e5 _).mpr (Or.inr hold2.1), ?_⟩
        by_cases hkk : s.twoTripsRouteParentEvent.getD x 0 = s.twoTripsRouteParentEvent.getD stop 0
        · rw [hkk, e4, hnew]
          left
          rw [← hset, if_pos (hkk ▸ hold2.1), ← hkk]
          exact hold2.2
        · rw [e6 _ hkk hold2.1]
          exact hold2.2
      · rw [List.mem_singleton] at e
        rw [e]
        refine ⟨(e5 _).mpr (Or.inl rfl), ?_⟩
        rw [e4, hnew]
        exact Or.inr rfl
    · intro x hx
      rw [hmark] at hx
      rw [hE, e2]
      exact h.room x hx
  · rw [if_neg hm] at hM
    refine ⟨⟨by rw [hM]; exact h.sets.map, by rw [hP]; exact h.sets.parents,
      by rw [hP]; exact h.sets.values, ?_⟩, ?_, hqueued, ?_⟩
    · intro key hkey
      rw [hM] at hkey ⊢
      rw [hE]
      have hmem := h.sets.members key hkey
      refine ⟨hmem.1, hmem.2.1, ?_⟩
      intro x hx
      rw [hmark]
      exact hmem.2.2 x hx
    · intro x hx hxm
      rw [hmark] at hxm
      rw [isCandidateMember_iff, hE, hM]
      rcases List.mem_append.mp hx with e | e
      · exact (isCandidateMember_iff s x).mp (h.members x e hxm)
      · rw [List.mem_singleton] at e
        rw [e] at hxm
        exact absurd hxm hm
    · intro x hx
      rw [hmark] at hx
      rw [hE, hM]
      exact h.room x hx

/-- The first loop of `finalDijkstra` keeps its invariant in all its states. -/
theorem seedFinalStates_seeded (d : RAPTOR.Data) :
    ∀ (stops entered : List Nat) (s : ShortcutSearch), Seeded d s entered →
      (∀ o ∈ seedFinalStates d entered s stops, Seeded d o.2 o.1) ∧
      Seeded d (stops.foldl (seedFinal d) s) (entered ++ stops) := by
  intro stops
  induction stops with
  | nil =>
    intro entered s h
    rw [List.append_nil]
    refine ⟨?_, h⟩
    intro o ho
    unfold seedFinalStates at ho
    rw [List.mem_singleton] at ho
    rw [ho]; exact h
  | cons stop rest ih =>
    intro entered s h
    obtain ⟨i1, i2⟩ := ih (entered ++ [stop]) (seedFinal d s stop) (seedFinal_seeded h stop)
    rw [List.foldl_cons]
    rw [List.append_assoc, List.singleton_append] at i2
    refine ⟨?_, i2⟩
    intro o ho
    unfold seedFinalStates at ho
    rcases List.mem_cons.mp ho with e | e
    · rw [e]; exact h
    · exact i1 o e

/-- The map after the removal of a stop from the set of a contained key: the emptied set is
removed with its key, the other keys are as they were. -/
theorem eraseCandidate_spec {m : IndexedMap (List Nat)} (h : IndexedMap.Inv m) (key : Nat)
    (hc : m.contains key = true) (v : Nat) :
    IndexedMap.Inv (eraseCandidate m key v) ∧
    (∀ k, (eraseCandidate m key v).contains k = true → m.contains k = true) ∧
    (∀ k, k ≠ key → (eraseCandidate m key v).contains k = m.contains k ∧
      (m.contains k = true → (eraseCandidate m key v).get k = m.get k)) ∧
    ((m.get key).erase v = [] → (eraseCandidate m key v).contains key = false) ∧
    ((m.get key).erase v ≠ [] → (eraseCandidate m key v).contains key = true ∧
      (eraseCandidate m key v).get key = (m.get key).erase v) := by
  have hs := IndexedMap.setValue_inv m key ((m.get key).erase v) h
  have hcs : (m.setValue key ((m.get key).erase v)).contains key = true := hc
  have hget := h.setValue_get_self key ((m.get key).erase v) hc
  unfold eraseCandidate
  simp only []
  rw [hget]
  by_cases he : (m.get key).erase v = []
  · have hie : ((m.get key).erase v).isEmpty = true := by rw [he]; rfl
    rw [hie, if_pos rfl]
    obtain ⟨r1, r2⟩ := hs.remove_spec key hcs
    refine ⟨IndexedMap.remove_inv _ key hs (IndexedMap.contains_lt _ key hcs), ?_, ?_,
      fun _ => r1, fun x => absurd he x⟩
    · intro k hk
      by_cases e : k = key
      · rw [e]; exact hc
      · rw [(r2 k e).1] at hk
        exact hk
    · intro k hne
      refine ⟨(r2 k hne).1, ?_⟩
      intro hk
      rw [(r2 k hne).2 hk]
      exact h.setValue_get_other key _ hc k hk hne
  · have hne2 : ((m.get key).erase v).isEmpty = false := by
      cases hx : ((m.get key).erase v).isEmpty with
      | false => rfl
      | true => exact absurd (List.isEmpty_iff.mp hx) he
    rw [hne2]
    simp only [Bool.false_eq_true, if_false]
    refine ⟨hs, fun k hk => hk, ?_, fun x => absurd x he, fun _ => ⟨hc, hget⟩⟩
    intro k hne
    exact ⟨rfl, fun hk => h.setValue_get_other key _ hc k hk hne⟩

/-- The candidate map after `arrivalByEdge2`. -/
theorem arrivalByEdge2_candidates (d : RAPTOR.Data) (s : ShortcutSearch) (v : Nat) (t : Int) :
    (arrivalByEdge2 d s v t).shortcutDestinationCandidates =
      if d.isStop v = true ∧ isMarked d s v = true then
        eraseCandidate s.shortcutDestinationCandidates (s.twoTripsRouteParentEvent.getD v 0) v
      else s.shortcutDestinationCandidates := by
  unfold arrivalByEdge2 isMarked
  simp only []
  by_cases h1 : d.isStop v = true
  · rw [if_pos h1]
    by_cases h2 : d.isStop (s.twoTripsRouteParent.getD v noStop) = true
    · rw [if_pos h2, if_pos ⟨h1, h2⟩]
    · rw [if_neg h2, if_neg (fun x => h2 x.2)]
  · rw [if_neg h1, if_neg (fun x => h1 x.1)]

/-- The marks after a stop has been unmarked. -/
theorem isMarked_unmark {d : RAPTOR.Data} (hno : d.isStop noStop = false) (P : List Nat) (v : Nat)
    (x : Nat) :
    d.isStop ((P.set v noStop).getD x noStop) =
      if x = v then false else d.isStop (P.getD x noStop) := by
  by_cases e : x = v
  · rw [if_pos e, e]
    by_cases hv : v < P.length
    · rw [getD_set_self _ _ _ _ hv, hno]
    · rw [getD_of_length_le _ _ _ (by rw [List.length_set]; omega), hno]
  · rw [if_neg e, getD_set_ne _ _ _ _ _ (fun x2 => e x2.symm)]

/-- An arrival by an edge keeps the invariant of the second loop of `finalDijkstra`. -/
theorem arrivalByEdge2_tracked {d : RAPTOR.Data} (hno : d.isStop noStop = false)
    {shortcuts : List Shortcut} {s : ShortcutSearch} {cur : Option Nat}
    (h : Tracked d shortcuts s cur) (v : Nat) (t : Int) :
    Tracked d shortcuts (arrivalByEdge2 d s v t) cur := by
  obtain ⟨_, hQ, hS, hE, _, hP⟩ := arrivalByEdge2_fields d s v t
  have hM := arrivalByEdge2_candidates d s v t
  have hqueue : ∀ x, x ∈ s.twoTripsQueue → x ∈ (arrivalByEdge2 d s v t).twoTripsQueue := by
    intro x hx
    rw [hQ, CH.heapUpdate_mem]
    exact Or.inl hx
  by_cases hv : d.isStop v = true
  · rw [if_pos hv] at hP
    have hmark : ∀ x, isMarked d (arrivalByEdge2 d s v t) x =
        if x = v then false else isMarked d s x := by
      intro x
      unfold isMarked
      rw [hP]
      exact isMarked_unmark hno _ v x
    have hvalues : ∀ x, (arrivalByEdge2 d s v t).twoTripsRouteParent.getD x noStop = noStop ∨
        d.isStop ((arrivalByEdge2 d s v t).twoTripsRouteParent.getD x noStop) = true := by
      intro x
      rw [hP]
      by_cases e : x = v
      · left
        rw [e]
        by_cases hvl : v < s.twoTripsRouteParent.length
        · exact getD_set_self _ _ _ _ hvl
        · exact getD_of_length_le _ _ _ (by rw [List.length_set]; omega)
      · rw [getD_set_ne _ _ _ _ _ (fun x2 => e x2.symm)]
        exact h.sets.values x
    by_cases hm : isMarked d s v = true
    · rw [if_pos ⟨hv, hm⟩] at hM
      have hmem := (isCandidateMember_iff s v).mp (h.members v hm)
      obtain ⟨e1, e2, e3, e4, e5⟩ := eraseCandidate_spec h.sets.map
        (s.twoTripsRouteParentEvent.getD v 0) hmem.1 v
      rw [← hM] at e1 e2 e3 e4 e5
      have hset := h.sets.members _ hmem.1
      refine ⟨⟨e1, by rw [hP, List.length_set]; exact h.sets.parents, hvalues, ?_⟩, ?_, ?_, ?_⟩
      · intro key hkey
        have hold := h.sets.members key (e2 key hkey)
        rw [hE]
        by_cases hkk : key = s.twoTripsRouteParentEvent.getD v 0
        · rw [hkk] at hkey ⊢
          have hne : (s.shortcutDestinationCandidates.get
              (s.twoTripsRouteParentEvent.getD v 0)).erase v ≠ [] := by
            intro hnil
            rw [e4 hnil] at hkey
            cases hkey
          rw [(e5 hne).2]
          refine ⟨hne, hset.2.1.erase v, ?_⟩
          intro x hx
          have hx2 := (hset.2.1.mem_erase_iff).mp hx
          rw [hmark, if_neg hx2.1]
          exact hset.2.2 x hx2.2
        · rw [(e3 key hkk).2 (e2 key hkey)]
          refine ⟨hold.1, hold.2.1, ?_⟩
          intro x hx
          have hx2 := hold.2.2 x hx
          have hxv : x ≠ v := by
            intro e
            rw [e] at hx2
            exact hkk hx2.1.symm
          rw [hmark, if_neg hxv]
          exact hx2
      · intro x hx
        rw [hmark] at hx
        by_cases hxv : x = v
        · rw [if_pos hxv] at hx; cases hx
        · rw [if_neg hxv] at hx
          have hold := (isCandidateMember_iff s x).mp (h.members x hx)
          rw [isCandidateMember_iff, hE]
          by_cases hkk : s.twoTripsRouteParentEvent.getD x 0 = s.twoTripsRouteParentEvent.getD v 0
          · rw [hkk] at hold ⊢
            have hin : x ∈ (s.shortcutDestinationCandidates.get
                (s.twoTripsRouteParentEvent.getD v 0)).erase v :=
              (List.mem_erase_of_ne hxv).mpr hold.2
            have hne : (s.shortcutDestinationCandidates.get
                (s.twoTripsRouteParentEvent.getD v 0)).erase v ≠ [] :=
              List.ne_nil_of_mem hin
            rw [(e5 hne).2]
            exact ⟨(e5 hne).1, hin⟩
          · rw [(e3 _ hkk).1, (e3 _ hkk).2 hold.1]
            exact hold
      · intro x hx
        rw [hmark] at hx
        by_cases hxv : x = v
        · rw [if_pos hxv] at hx; cases hx
        · rw [if_neg hxv] at hx
          rcases h.queued x hx with e | e
          · exact Or.inl (hqueue x e)
          · exact Or.inr e
      · obtain ⟨new, n1, n2, n3⟩ := h.emitted
        refine ⟨new, by rw [hS]; exact n1, n2, ?_⟩
        intro sc hsc
        cases hx : (arrivalByEdge2 d s v t).shortcutDestinationCandidates.contains
            sc.destination with
        | false => rfl
        | true =>
          have := e2 _ hx
          rw [n3 sc hsc] at this
          cases this
    · rw [if_neg (fun x => hm x.2)] at hM
      have hsame : ∀ x, isMarked d (arrivalByEdge2 d s v t) x = isMarked d s x := by
        intro x
        rw [hmark]
        by_cases e : x = v
        · rw [if_pos e, e]
          cases hx : isMarked d s v with
          | false => rfl
          | true => exact absurd hx hm
        · rw [if_neg e]
      refine ⟨⟨by rw [hM]; exact h.sets.map, by rw [hP, List.length_set]; exact h.sets.parents,
        hvalues, ?_⟩, ?_, ?_, ?_⟩
      · intro key hkey
        rw [hM] at hkey ⊢
        rw [hE]
        have hold := h.sets.members key hkey
        refine ⟨hold.1, hold.2.1, ?_⟩
        intro x hx
        rw [hsame]
        exact hold.2.2 x hx
      · intro x hx
        rw [hsame] at hx
        rw [isCandidateMember_iff, hE, hM]
        exact (isCandidateMember_iff s x).mp (h.members x hx)
      · intro x hx
        rw [hsame] at hx
        rcases h.queued x hx with e | e
        · exact Or.inl (hqueue x e)
        · exact Or.inr e
      · obtain ⟨new, n1, n2, n3⟩ := h.emitted
        exact ⟨new, by rw [hS]; exact n1, n2, by rw [hM]; exact n3⟩
  · rw [if_neg hv] at hP
    rw [if_neg (fun x => hv x.1)] at hM
    have hsame : ∀ x, isMarked d (arrivalByEdge2 d s v t) x = isMarked d s x := by
      intro x; unfold isMarked; rw [hP]
    refine ⟨⟨by rw [hM]; exact h.sets.map, by rw [hP]; exact h.sets.parents,
      by rw [hP]; exact h.sets.values, ?_⟩, ?_, ?_, ?_⟩
    · intro key hkey
      rw [hM] at hkey ⊢
      rw [hE]
      have hold := h.sets.members key hkey
      refine ⟨hold.1, hold.2.1, ?_⟩
      intro x hx
      rw [hsame]
      exact hold.2.2 x hx
    · intro x hx
      rw [hsame] at hx
      rw [isCandidateMember_iff, hE, hM]
      exact (isCandidateMember_iff s x).mp (h.members x hx)
    · intro x hx
      rw [hsame] at hx
      rcases h.queued x hx with e | e
      · exact Or.inl (hqueue x e)
      · exact Or.inr e
    · obtain ⟨new, n1, n2, n3⟩ := h.emitted
      exact ⟨new, by rw [hS]; exact n1, n2, by rw [hM]; exact n3⟩

/-- A relaxation keeps the invariant of the second loop of `finalDijkstra`. -/
theorem relaxTwoTrips_tracked {d : RAPTOR.Data} (hno : d.isStop noStop = false)
    {shortcuts : List Shortcut} {s : ShortcutSearch} {cur : Option Nat}
    (h : Tracked d shortcuts s cur) (c e : Nat) :
    Tracked d shortcuts (relaxTwoTrips d c s e) cur := by
  unfold relaxTwoTrips
  simp only []
  split
  · exact arrivalByEdge2_tracked hno h _ _
  · exact h

/-- The relaxations of the edges of the current vertex keep the invariant. -/
theorem relaxTwoStates_tracked {d : RAPTOR.Data} (hno : d.isStop noStop = false)
    {shortcuts : List Shortcut} (c : Nat) {cur : Option Nat} :
    ∀ (es : List Nat) (s : ShortcutSearch), Tracked d shortcuts s cur →
      (∀ m ∈ relaxTwoStates d c s es, Tracked d shortcuts m cur) ∧
      Tracked d shortcuts (es.foldl (relaxTwoTrips d c) s) cur := by
  intro es
  induction es with
  | nil =>
    intro s h
    refine ⟨?_, h⟩
    intro m hm
    unfold relaxTwoStates at hm
    rw [List.mem_singleton] at hm
    rw [hm]; exact h
  | cons e es ih =>
    intro s h
    obtain ⟨i1, i2⟩ := ih _ (relaxTwoTrips_tracked hno h c e)
    rw [List.foldl_cons]
    refine ⟨?_, i2⟩
    intro m hm
    unfold relaxTwoStates at hm
    rcases List.mem_cons.mp hm with e1 | e1
    · rw [e1]; exact h
    · exact i1 m e1

/-- The route parents after the unmarking of the stops of a candidate set. -/
theorem unmark_mem : ∀ (l : List Nat) (parents : List Nat) (x : Nat),
    (l.foldl (fun parents obsoleteCandidate => parents.set obsoleteCandidate noStop)
        parents).getD x noStop =
      if x ∈ l then noStop else parents.getD x noStop := by
  intro l
  induction l with
  | nil => intro parents x; simp
  | cons c cs ih =>
    intro parents x
    rw [List.foldl_cons, ih]
    by_cases hx : x ∈ cs
    · rw [if_pos hx, if_pos (List.mem_cons_of_mem _ hx)]
    · rw [if_neg hx]
      by_cases hc : x = c
      · rw [if_pos (by rw [hc]; exact List.mem_cons_self _ _), hc]
        by_cases hin : c < parents.length
        · exact getD_set_self _ _ _ _ hin
        · rw [set_of_length_le _ _ _ (by omega), getD_of_length_le _ _ _ (by omega)]
      · rw [if_neg (by
          intro h
          rcases List.mem_cons.mp h with e | e
          · exact hc e
          · exact hx e), getD_set_ne _ _ _ _ _ (fun e => hc e.symm)]

/-- The end of an iteration keeps the invariant of the second loop of `finalDijkstra`: the
settled vertex is no longer marked. -/
theorem settleTwoTrips_tracked {d : RAPTOR.Data} (hno : d.isStop noStop = false)
    {shortcuts : List Shortcut} {s : ShortcutSearch} {cur : Nat}
    (h : Tracked d shortcuts s (some cur)) :
    Tracked d shortcuts (settleTwoTrips d cur s) none := by
  unfold settleTwoTrips
  by_cases hcond : d.isStop cur = true ∧
      d.isStop (s.twoTripsRouteParent.getD cur noStop) = true
  · rw [if_pos hcond]
    have hm : isMarked d s cur = true := hcond.2
    have hmem := (isCandidateMember_iff s cur).mp (h.members cur hm)
    have hset := h.sets.members _ hmem.1
    obtain ⟨r1, r2⟩ := h.sets.map.remove_spec (s.twoTripsRouteParentEvent.getD cur 0) hmem.1
    have hP : (insertShortcut d s cur).twoTripsRouteParent =
        (s.shortcutDestinationCandidates.get (s.twoTripsRouteParentEvent.getD cur 0)).foldl
          (fun parents obsoleteCandidate => parents.set obsoleteCandidate noStop)
          s.twoTripsRouteParent := rfl
    have hM : (insertShortcut d s cur).shortcutDestinationCandidates =
        s.shortcutDestinationCandidates.remove (s.twoTripsRouteParentEvent.getD cur 0) := rfl
    have hE : (insertShortcut d s cur).twoTripsRouteParentEvent = s.twoTripsRouteParentEvent :=
      rfl
    have hQ : (insertShortcut d s cur).twoTripsQueue = s.twoTripsQueue := rfl
    have hS : ∃ a b, (insertShortcut d s cur).shortcuts =
        s.shortcuts ++ [⟨a, s.twoTripsRouteParentEvent.getD cur 0, b⟩] := ⟨_, _, rfl⟩
    have hmark : ∀ x, isMarked d (insertShortcut d s cur) x =
        if x ∈ s.shortcutDestinationCandidates.get (s.twoTripsRouteParentEvent.getD cur 0)
        then false else isMarked d s x := by
      intro x
      unfold isMarked
      rw [hP, unmark_mem]
      split
      · exact hno
      · rfl
    have hkey : ∀ x, isMarked d s x = true →
        (x ∈ s.shortcutDestinationCandidates.get (s.twoTripsRouteParentEvent.getD cur 0) ↔
          s.twoTripsRouteParentEvent.getD x 0 = s.twoTripsRouteParentEvent.getD cur 0) := by
      intro x hx
      constructor
      · intro hin; exact (hset.2.2 x hin).1
      · intro e
        have := (isCandidateMember_iff s x).mp (h.members x hx)
        rw [e] at this
        exact this.2
    refine ⟨⟨?_, ?_, ?_, ?_⟩, ?_, ?_, ?_⟩
    · rw [hM]
      exact IndexedMap.remove_inv _ _ h.sets.map (IndexedMap.contains_lt _ _ hmem.1)
    · rw [hP, (unmark_getD _ _ 0).1]; exact h.sets.parents
    · intro x
      rw [hP, unmark_mem]
      split
      · exact Or.inl rfl
      · exact h.sets.values x
    · intro key hk
      rw [hM] at hk ⊢
      rw [hE]
      have hne : key ≠ s.twoTripsRouteParentEvent.getD cur 0 := by
        intro e
        rw [e, r1] at hk
        cases hk
      rw [(r2 key hne).1] at hk
      rw [(r2 key hne).2 hk]
      have hold := h.sets.members key hk
      refine ⟨hold.1, hold.2.1, ?_⟩
      intro x hx
      have hx2 := hold.2.2 x hx
      refine ⟨hx2.1, ?_⟩
      rw [hmark, if_neg]
      · exact hx2.2
      · intro hin
        exact hne (hx2.1.symm.trans ((hkey x hx2.2).mp hin))
    · intro x hx
      rw [hmark] at hx
      split at hx
      · cases hx
      · rename_i hin
        have hold := (isCandidateMember_iff s x).mp (h.members x hx)
        have hne : s.twoTripsRouteParentEvent.getD x 0 ≠
            s.twoTripsRouteParentEvent.getD cur 0 := fun e => hin ((hkey x hx).mpr e)
        rw [isCandidateMember_iff, hE, hM, (r2 _ hne).1, (r2 _ hne).2 hold.1]
        exact hold
    · intro x hx
      rw [hmark] at hx
      split at hx
      · cases hx
      · rename_i hin
        rcases h.queued x hx with e | e
        · exact Or.inl (by rw [hQ]; exact e)
        · have : cur = x := Option.some.inj e
          rw [← this] at hin
          exact absurd hmem.2 hin
    · obtain ⟨new, n1, n2, n3⟩ := h.emitted
      obtain ⟨a, b, hS2⟩ := hS
      refine ⟨new ++ [⟨a, s.twoTripsRouteParentEvent.getD cur 0, b⟩],
        by rw [hS2, n1, List.append_assoc], ?_, ?_⟩
      · rw [List.map_append, List.nodup_append]
        refine ⟨n2, List.nodup_singleton _, ?_⟩
        intro k hk1 hk2
        rw [List.map_singleton, List.mem_singleton] at hk2
        rw [List.mem_map] at hk1
        obtain ⟨sc, hsc, hd2⟩ := hk1
        have := n3 sc hsc
        rw [hd2, hk2, hmem.1] at this
        cases this
      · intro sc hsc
        rw [hM]
        rcases List.mem_append.mp hsc with e | e
        · by_cases hk : sc.destination = s.twoTripsRouteParentEvent.getD cur 0
          · rw [hk]; exact r1
          · rw [(r2 _ hk).1]; exact n3 sc e
        · rw [List.mem_singleton] at e
          rw [e]
          exact r1
  · rw [if_neg hcond]
    have hnm : isMarked d s cur = false := by
      cases hx : isMarked d s cur with
      | false => rfl
      | true =>
        have hlt := isMarked_lt hno h.sets.parents hx
        exact absurd ⟨by unfold RAPTOR.Data.isStop; exact decide_eq_true hlt, hx⟩ hcond
    refine ⟨h.sets, h.members, ?_, h.emitted⟩
    intro x hx
    rcases h.queued x hx with e | e
    · exact Or.inl e
    · have : cur = x := Option.some.inj e
      rw [this, hx] at hnm
      cases hnm

/-- Taking the front vertex from the queue keeps the invariant of the second loop. -/
theorem extract_tracked {d : RAPTOR.Data} {shortcuts : List Shortcut} {s : ShortcutSearch}
    (h : Tracked d shortcuts s none) (cur : Nat) :
    Tracked d shortcuts { s with twoTripsQueue := s.twoTripsQueue.erase cur } (some cur) := by
  refine ⟨⟨h.sets.map, h.sets.parents, h.sets.values, h.sets.members⟩, h.members, ?_, h.emitted⟩
  intro x hx
  have hx2 : isMarked d s x = true := hx
  by_cases e : x = cur
  · right; rw [e]
  · left
    rcases h.queued x hx2 with q | q
    · exact (List.mem_erase_of_ne e).mpr q
    · cases q

/-- The loop of `finalDijkstra`, with the end of the iteration as one step. -/
theorem finalLoop_succ (d : RAPTOR.Data) (fuel : Nat) (s : ShortcutSearch) :
    finalLoop d (fuel + 1) s =
      match CH.heapFront (fun v => s.twoTripsArrivalLabels.getD v never) s.twoTripsQueue with
      | none => some s
      | some cur =>
        if (settleTwoTrips d cur ((d.transferGraph.edgesFrom cur).foldl (relaxTwoTrips d cur)
            { s with twoTripsQueue := s.twoTripsQueue.erase cur })).shortcutDestinationCandidates.isEmpty
        then some (settleTwoTrips d cur ((d.transferGraph.edgesFrom cur).foldl
            (relaxTwoTrips d cur) { s with twoTripsQueue := s.twoTripsQueue.erase cur }))
        else finalLoop d fuel (settleTwoTrips d cur ((d.transferGraph.edgesFrom cur).foldl
            (relaxTwoTrips d cur) { s with twoTripsQueue := s.twoTripsQueue.erase cur })) := by
  rw [finalLoop]
  cases CH.heapFront (fun v => s.twoTripsArrivalLabels.getD v never) s.twoTripsQueue with
  | none => rfl
  | some cur => rfl

/-- Without a marked stop the map of the candidate sets is empty. -/
theorem isEmpty_of_unmarked {d : RAPTOR.Data} {s : ShortcutSearch} (h : CandidateSets d s)
    (hnone : ∀ x, isMarked d s x = false) : s.shortcutDestinationCandidates.isEmpty = true := by
  rw [h.map.isEmpty_iff]
  intro k
  cases hk : s.shortcutDestinationCandidates.contains k with
  | false => rfl
  | true =>
    obtain ⟨h1, _, h3⟩ := h.members k hk
    obtain ⟨x, hx⟩ := List.exists_mem_of_ne_nil _ h1
    have := (h3 x hx).2
    rw [hnone x] at this
    cases this

/-- The second loop of `finalDijkstra` keeps its invariant in all its states, and ends with
an empty map in the last of them. -/
theorem finalLoopStates_tracked {d : RAPTOR.Data} (hno : d.isStop noStop = false)
    {shortcuts : List Shortcut} :
    ∀ (fuel : Nat) (s : ShortcutSearch), Tracked d shortcuts s none →
      (∀ o ∈ finalLoopStates d fuel s, Tracked d shortcuts o.2 o.1) ∧
      ∀ r, finalLoop d fuel s = some r →
        Tracked d shortcuts r none ∧ r.shortcutDestinationCandidates.isEmpty = true ∧
        (finalLoopStates d fuel s).getLast? = some (none, r) := by
  intro fuel
  induction fuel with
  | zero =>
    intro s h
    refine ⟨?_, fun r hr => by unfold finalLoop at hr; cases hr⟩
    intro o ho
    unfold finalLoopStates at ho
    rw [List.mem_singleton] at ho
    rw [ho]; exact h
  | succ fuel ih =>
    intro s h
    rw [finalLoop_succ]
    unfold finalLoopStates
    cases hfront : CH.heapFront (fun v => s.twoTripsArrivalLabels.getD v never)
        s.twoTripsQueue with
    | none =>
      simp only []
      refine ⟨?_, ?_⟩
      · intro o ho
        rw [List.mem_singleton] at ho
        rw [ho]; exact h
      · intro r hr
        rw [← Option.some.inj hr]
        refine ⟨h, ?_, rfl⟩
        have hq := (CH.heapFront_none _ _).mp hfront
        apply isEmpty_of_unmarked h.sets
        intro x
        cases hx : isMarked d s x with
        | false => rfl
        | true =>
          rcases h.queued x hx with e | e
          · rw [hq] at e; cases e
          · cases e
    | some cur =>
      simp only []
      have t1 := extract_tracked h cur
      obtain ⟨t2, t3⟩ := relaxTwoStates_tracked hno cur (d.transferGraph.edgesFrom cur) _ t1
      have t4 := settleTwoTrips_tracked hno t3
      have hmids : ∀ o ∈ (none, s) ::
          (relaxTwoStates d cur { s with twoTripsQueue := s.twoTripsQueue.erase cur }
            (d.transferGraph.edgesFrom cur)).map (fun m => (some cur, m)),
          Tracked d shortcuts o.2 o.1 := by
        intro o ho
        rcases List.mem_cons.mp ho with e | e
        · rw [e]; exact h
        · rw [List.mem_map] at e
          obtain ⟨m, hm, hmo⟩ := e
          rw [← hmo]
          exact t2 m hm
      by_cases hemp : (settleTwoTrips d cur ((d.transferGraph.edgesFrom cur).foldl
          (relaxTwoTrips d cur)
          { s with twoTripsQueue := s.twoTripsQueue.erase cur })).shortcutDestinationCandidates.isEmpty
          = true
      · rw [if_pos hemp, if_pos hemp]
        refine ⟨?_, ?_⟩
        · intro o ho
          rw [← List.cons_append] at ho
          rcases List.mem_append.mp ho with e | e
          · exact hmids o e
          · rw [List.mem_singleton] at e
            rw [e]; exact t4
        · intro r hr
          rw [← Option.some.inj hr]
          refine ⟨t4, hemp, ?_⟩
          rw [List.getLast?_cons, List.getLast?_append]
          rfl
      · rw [if_neg hemp, if_neg hemp]
        obtain ⟨i1, i2⟩ := ih _ t4
        refine ⟨?_, ?_⟩
        · intro o ho
          rw [← List.cons_append] at ho
          rcases List.mem_append.mp ho with e | e
          · exact hmids o e
          · exact i1 o e
        · intro r hr
          obtain ⟨j1, j2, j3⟩ := i2 r hr
          refine ⟨j1, j2, ?_⟩
          rw [List.getLast?_cons, List.getLast?_append, j3]
          rfl

/-- In the states of the second loop a stop is marked exactly when it is a member of its
candidate set. -/
theorem Tracked.marked_iff {d : RAPTOR.Data} {shortcuts : List Shortcut} {s : ShortcutSearch}
    {cur : Option Nat} (h : Tracked d shortcuts s cur) (stop : Nat) :
    isMarked d s stop = isCandidateMember s stop := by
  rw [Bool.eq_iff_iff]
  constructor
  · exact h.members stop
  · intro hm
    rw [isCandidateMember_iff] at hm
    exact ((h.sets.members _ hm.1).2.2 stop hm.2).2

/-- The first loop of `finalDijkstra` changes no route parent and no shortcut. -/
theorem seedFinal_fold_fields (d : RAPTOR.Data) : ∀ (stops : List Nat) (s : ShortcutSearch),
    (stops.foldl (seedFinal d) s).twoTripsRouteParent = s.twoTripsRouteParent ∧
    (stops.foldl (seedFinal d) s).shortcuts = s.shortcuts := by
  intro stops
  induction stops with
  | nil => intro s; exact ⟨rfl, rfl⟩
  | cons stop rest ih =>
    intro s
    rw [List.foldl_cons]
    obtain ⟨h1, h2⟩ := ih (seedFinal d s stop)
    obtain ⟨f1, _, _, f4, _⟩ := seedFinal_fields d s stop
    exact ⟨h1.trans f1, h2.trans f4⟩

/-- C35: let `finalDijkstra` start in a state of the second round (`Round2`) of a
well-formed timetable in which the map of the candidate sets is an empty `IndexedMap`, every
route parent is a stop or `noStop`, and every marked stop (a stop whose route parent is a
stop) is among the stops updated by a route, with a route parent event below the capacity of
the map.  Then (1) in every state of the first loop a member of a candidate set is a marked
stop, and a stop that the loop has entered is marked exactly when it is a member of the set
stored under its route parent event; (2) in every state of the second loop (at the head of
each iteration, before and after each relaxation, and after the loop) every stop is marked
exactly when it is a member of the set stored under its route parent event; (3) with fuel
for one iteration per vertex `finalDijkstra` returns, in a state in which the map is empty
and the route parent of every stop is `noStop`, and the shortcuts that it has inserted have
pairwise different destinations (the destination of a shortcut is the route parent event
for which it is inserted). -/
theorem finalDijkstra_candidates (d : RAPTOR.Data) (base : Nat → Int) (fuel : Nat)
    (s : ShortcutSearch) (hd : WellFormed d) (hround : Round2 d base s)
    (hfuel : d.transferGraph.numVertices < fuel)
    (hmap : IndexedMap.Inv s.shortcutDestinationCandidates)
    (hempty : s.shortcutDestinationCandidates.isEmpty = true)
    (hparents : ∀ p ∈ s.twoTripsRouteParent, p = noStop ∨ d.isStop p = true)
    (hmarked : ∀ stop, stop < d.numberOfStops → isMarked d s stop = true →
      stop ∈ s.stopsUpdatedByRoute.keys ∧
      s.twoTripsRouteParentEvent.getD stop 0 < s.shortcutDestinationCandidates.capacity) :
    (∀ o ∈ seedFinalStates d [] s s.stopsUpdatedByRoute.keys, ∀ stop,
      (isCandidateMember o.2 stop = true → isMarked d o.2 stop = true) ∧
      (stop ∈ o.1 → isMarked d o.2 stop = isCandidateMember o.2 stop)) ∧
    (∀ o ∈ finalLoopStates d fuel (s.stopsUpdatedByRoute.keys.foldl (seedFinal d) s), ∀ stop,
      isMarked d o.2 stop = isCandidateMember o.2 stop) ∧
    ∃ r, finalDijkstra d fuel s = some r ∧
      r.shortcutDestinationCandidates.isEmpty = true ∧
      (∀ stop, r.twoTripsRouteParent.getD stop noStop = noStop) ∧
      ∃ new, r.shortcuts = s.shortcuts ++ new ∧
        (new.map (fun sc => sc.destination)).Nodup := by
  have hno : d.isStop noStop = false := isStop_noStop d (le_trans hd.stops hd.size)
  have hvalues : ∀ stop, s.twoTripsRouteParent.getD stop noStop = noStop ∨
      d.isStop (s.twoTripsRouteParent.getD stop noStop) = true := by
    intro stop
    by_cases hlt : stop < s.twoTripsRouteParent.length
    · exact hparents _ (getD_mem_of_lt _ _ _ hlt)
    · exact Or.inl (getD_of_length_le _ _ _ (by omega))
  have hupdated : ∀ stop, isMarked d s stop = true → stop ∈ s.stopsUpdatedByRoute.keys ∧
      s.twoTripsRouteParentEvent.getD stop 0 < s.shortcutDestinationCandidates.capacity :=
    fun stop h => hmarked stop (isMarked_lt hno hround.parents h) h
  have hnone : ∀ k, s.shortcutDestinationCandidates.contains k = false :=
    hmap.isEmpty_iff.mp hempty
  have seeded0 : Seeded d s [] := by
    refine ⟨⟨hmap, hround.parents, hvalues, ?_⟩, ?_, ?_, fun stop h => (hupdated stop h).2⟩
    · intro key hkey
      rw [hnone key] at hkey
      cases hkey
    · intro stop h; cases h
    · intro stop h; cases h
  obtain ⟨s1, s2⟩ := seedFinalStates_seeded d s.stopsUpdatedByRoute.keys [] s seeded0
  rw [List.nil_append] at s2
  obtain ⟨f1, f2⟩ := seedFinal_fold_fields d s.stopsUpdatedByRoute.keys s
  have hmarks : ∀ x, isMarked d (s.stopsUpdatedByRoute.keys.foldl (seedFinal d) s) x =
      isMarked d s x := by
    intro x; unfold isMarked; rw [f1]
  have tracked0 : Tracked d s.shortcuts (s.stopsUpdatedByRoute.keys.foldl (seedFinal d) s)
      none := by
    refine ⟨s2.sets, ?_, ?_, ⟨[], by rw [f2, List.append_nil], List.nodup_nil,
      fun sc h => absurd h (List.not_mem_nil sc)⟩⟩
    · intro x hx
      exact s2.members x (hupdated x (by rw [← hmarks]; exact hx)).1 hx
    · intro x hx
      exact Or.inl (s2.queued x (hupdated x (by rw [← hmarks]; exact hx)).1)
  obtain ⟨l1, l2⟩ := finalLoopStates_tracked hno fuel _ tracked0
  refine ⟨?_, fun o ho stop => (l1 o ho).marked_iff stop, ?_⟩
  · intro o ho stop
    have hseed := s1 o ho
    refine ⟨?_, ?_⟩
    · intro hm
      rw [isCandidateMember_iff] at hm
      exact ((hseed.sets.members _ hm.1).2.2 stop hm.2).2
    · intro hin
      rw [Bool.eq_iff_iff]
      constructor
      · exact hseed.members stop hin
      · intro hm
        rw [isCandidateMember_iff] at hm
        exact ((hseed.sets.members _ hm.1).2.2 stop hm.2).2
  · obtain ⟨r, hr, _⟩ := finalDijkstra_final hd hround fuel hfuel
    refine ⟨r, hr, ?_⟩
    unfold finalDijkstra at hr
    cases hloop : finalLoop d fuel (s.stopsUpdatedByRoute.keys.foldl (seedFinal d) s) with
    | none => rw [hloop] at hr; cases hr
    | some r0 =>
      rw [hloop] at hr
      simp only [] at hr
      obtain ⟨j1, j2, _⟩ := l2 r0 hloop
      rw [← Option.some.inj hr]
      refine ⟨j2, ?_, ?_⟩
      · intro stop
        rcases j1.sets.values stop with e | e
        · exact e
        · have hm : isMarked d r0 stop = true := e
          have := (isCandidateMember_iff r0 stop).mp (j1.members stop hm)
          rw [(j1.sets.map.isEmpty_iff.mp j2) _] at this
          cases this.1
      · obtain ⟨new, n1, n2, _⟩ := j1.emitted
        exact ⟨new, n1, n2⟩

/-- The theorem `finalDijkstra_candidates` at the first departure time of the search from
the stop A of `twoRoutes 301`: the stop D is marked with the route parent C, it is settled
without a witness, the shortcut of the stop events 1 and 2 is inserted, and the search ends
with an empty map and without marks. -/
theorem finalDijkstra_candidates_witness :
    (finalStart (twoRoutes 301) 10 900 0 0 1000).twoTripsRouteParent =
      [noStop, noStop, noStop, 2] ∧
    (finalDijkstra (twoRoutes 301) 10 (finalStart (twoRoutes 301) 10 900 0 0 1000)).map
        (fun r => (r.shortcuts, r.twoTripsRouteParent)) =
      some ([⟨1, 2, 60⟩], [noStop, noStop, noStop, noStop]) ∧
    ∃ r, finalDijkstra (twoRoutes 301) 10 (finalStart (twoRoutes 301) 10 900 0 0 1000) =
        some r ∧
      r.shortcutDestinationCandidates.isEmpty = true ∧
      ∀ stop, r.twoTripsRouteParent.getD stop noStop = noStop := by
  have hd : WellFormed (twoRoutes 301) :=
    ⟨by decide, by decide, by decide, by decide, by decide, by decide, by decide, by decide⟩
  have hs : Ready (twoRoutes 301) (secondRoundStart (twoRoutes 301) 10 900 0 0 1000) :=
    ⟨by decide, by decide, by decide, by decide, by decide, by decide, by decide⟩
  obtain ⟨s1, h1, r1, _⟩ := scanRoutes_round2 hd (Ready.round2 hd hs)
  have hfs : finalStart (twoRoutes 301) 10 900 0 0 1000 = s1 := by
    unfold finalStart
    rw [h1]
  rw [← hfs] at r1
  obtain ⟨_, _, r, q1, q2, q3, _⟩ := finalDijkstra_candidates (twoRoutes 301) _ 10
    (finalStart (twoRoutes 301) 10 900 0 0 1000) hd r1 (by decide)
    ⟨by decide, by decide, by decide, by decide⟩ (by decide) (by decide) (by decide)
  exact ⟨by decide, by decide, r, q1, q2, q3⟩

end ShortcutSearch

end TripBased

namespace TripBased

namespace Query

/-- The stop events of a trip end where those of the next trip begin. -/
theorem first_succ {td : Data} (h : td.StopEventsOfTrips) (t : Nat) (ht : t < td.numberOfTrips) :
    td.firstStopEventOfTrip.getD (t + 1) 0 =
      td.firstStopEventOfTrip.getD t 0 + td.numberOfStopsInTrip t := by
  have := (h.stopsInTrip t ht).2.1
  unfold Data.numberOfStopsInTrip at this ⊢
  omega

/-- The stop events of a trip lie before those of a later trip. -/
theorem first_mono {td : Data} (h : td.StopEventsOfTrips) (t : Nat) :
    ∀ t2, t < t2 → t2 ≤ td.numberOfTrips →
      td.firstStopEventOfTrip.getD t 0 + td.numberOfStopsInTrip t ≤
        td.firstStopEventOfTrip.getD t2 0 := by
  intro t2
  induction t2 with
  | zero => intro h1; omega
  | succ n ih =>
    intro h1 h2
    by_cases e : t = n
    · rw [← e, first_succ h t (by omega)]
    · have := ih (by omega) (by omega)
      rw [first_succ h n (by omega)]
      omega

/-- Labels within different trips do not overlap. -/
theorem within_disjoint {td : Data} (h : td.StopEventsOfTrips) {a b : TripLabel} {t t2 : Nat}
    (ha : a.Within td t) (hb : b.Within td t2) (hne : t ≠ t2) :
    a.endEvent ≤ b.beginEvent ∨ b.endEvent ≤ a.beginEvent := by
  obtain ⟨a1, _, a3, a4⟩ := ha
  obtain ⟨b1, _, b3, b4⟩ := hb
  rcases Nat.lt_or_gt_of_ne hne with e | e
  · have := first_mono h t t2 e (by omega)
    left; omega
  · have := first_mono h t2 t e (by omega)
    right; omega

/-- The state after `clear()`. -/
theorem enqueued_clear {td : Data} (h : td.StopEventsOfTrips) :
    Enqueued td [] (ReachedIndexSmall.new td).clear := by
  refine ⟨ReachedIndexSmall.clear_inv h, ?_, fun l hl => absurd hl (List.not_mem_nil l),
    List.Pairwise.nil⟩
  intro t ht
  rw [(ReachedIndexSmall.clear_labels td).2 t ht]
  exact Nat.mod_le _ _

/-- A new label from the stop index `k` of a trip to its reached index, followed by the
update of the reached index to `j`, which is not above `k`. -/
theorem enqueued_push {td : Data} (h : td.StopEventsOfTrips) {labels : List TripLabel}
    {r : ReachedIndexSmall} (hq : Enqueued td labels r) (t k j : Nat)
    (ht : t < td.numberOfTrips) (hk : 1 ≤ k) (hkr : k < r.labels.getD t 0) (hj : j ≤ k) :
    Enqueued td
      (labels ++ [⟨td.firstStopEventOfTrip.getD t 0 + k,
        td.firstStopEventOfTrip.getD t 0 + r.labels.getD t 0⟩])
      (r.update td t j) := by
  obtain ⟨hinv, hl⟩ := ReachedIndexSmall.update_spec h hq.index t j ht
  have hle : ∀ x, x < td.numberOfTrips →
      (r.update td t j).labels.getD x 0 ≤ r.labels.getD x 0 := by
    intro x hx
    rw [hl x hx]
    split
    · exact min_le_left _ _
    · exact le_refl _
  have ht2 : (r.update td t j).labels.getD t 0 ≤ j := by
    rw [hl t ht, if_pos ⟨le_refl _, rfl⟩]
    exact min_le_right _ _
  have hnew : (⟨td.firstStopEventOfTrip.getD t 0 + k,
      td.firstStopEventOfTrip.getD t 0 + r.labels.getD t 0⟩ : TripLabel).Within td t := by
    have := hq.reached t ht
    exact ⟨ht, by simp only []; omega, by simp only []; omega, by simp only []; omega⟩
  refine ⟨hinv, fun x hx => le_trans (hle x hx) (hq.reached x hx), ?_, ?_⟩
  · intro l hl2
    rcases List.mem_append.mp hl2 with e | e
    · obtain ⟨x, hx1, hx2⟩ := hq.within l e
      exact ⟨x, hx1, by have := hle x hx1.1; omega⟩
    · rw [List.mem_singleton] at e
      rw [e]
      exact ⟨t, hnew, by simp only []; omega⟩
  · rw [List.pairwise_append]
    refine ⟨hq.disjoint, List.pairwise_singleton _ _, ?_⟩
    intro a ha b hb
    rw [List.mem_singleton] at hb
    rw [hb]
    obtain ⟨x, hx1, hx2⟩ := hq.within a ha
    by_cases e : x = t
    · rw [e] at hx2
      right
      simp only []
      exact hx2
    · exact within_disjoint h hx1 hnew e

/-- A call of `enqueue` keeps the invariant of the queue; `taken` lists the labels that the
rounds have taken from the queue. -/
theorem enqueue_enqueued {td : Data} (h : td.StopEventsOfTrips)
    (hsmall : ∀ t, t < td.numberOfTrips → td.numberOfStopsInTrip t ≤ 255)
    {taken : List TripLabel} {q : TripQueue}
    (hq : Enqueued td (taken ++ q.nextQueue) q.reachedIndex) (c : EnqueueCall)
    (hc : c.Valid td) :
    Enqueued td (taken ++ (enqueue td q c).nextQueue) (enqueue td q c).reachedIndex := by
  cases c with
  | trip t index =>
    obtain ⟨ht, hi⟩ : t < td.numberOfTrips ∧ index + 1 < td.numberOfStopsInTrip t := hc
    have hs := hsmall t ht
    show Enqueued td (taken ++ (enqueueTrip td q t index).nextQueue)
      (enqueueTrip td q t index).reachedIndex
    unfold enqueueTrip
    by_cases ha : q.reachedIndex.alreadyReached t (index + 1) = true
    · rw [if_pos ha]; exact hq
    · rw [if_neg ha]
      simp only []
      unfold ReachedIndexSmall.alreadyReached at ha
      rw [decide_eq_true_eq, Nat.mod_eq_of_lt (by omega)] at ha
      have := enqueued_push h hq t (index + 1) index ht (by omega) (by omega) (by omega)
      rw [List.append_assoc] at this
      exact this
  | edge e =>
    have he : td.stopEventGraph.toVertex.getD e noVertex < td.numberOfStopEvents := hc
    obtain ⟨ht, hi, hsum, _⟩ := h.ofEvent _ he
    have hs := hsmall _ ht
    show Enqueued td (taken ++ (enqueueEdge td q e).nextQueue)
      (enqueueEdge td q e).reachedIndex
    unfold enqueueEdge edgeLabel
    simp only []
    have hidx : td.stopEventGraph.toVertex.getD e noVertex + 1 -
        td.firstStopEventOfTrip.getD
          (td.tripOfStopEvent.getD (td.stopEventGraph.toVertex.getD e noVertex) 0) 0 =
        td.indexOfStopEvent.getD (td.stopEventGraph.toVertex.getD e noVertex) 0 + 1 := by
      omega
    have hbegin : td.stopEventGraph.toVertex.getD e noVertex + 1 =
        td.firstStopEventOfTrip.getD
          (td.tripOfStopEvent.getD (td.stopEventGraph.toVertex.getD e noVertex) 0) 0 +
        (td.indexOfStopEvent.getD (td.stopEventGraph.toVertex.getD e noVertex) 0 + 1) := by
      omega
    rw [hidx]
    by_cases ha : q.reachedIndex.alreadyReached
        (td.tripOfStopEvent.getD (td.stopEventGraph.toVertex.getD e noVertex) 0)
        (td.indexOfStopEvent.getD (td.stopEventGraph.toVertex.getD e noVertex) 0 + 1) = true
    · rw [if_pos ha]; exact hq
    · rw [if_neg ha]
      simp only []
      unfold ReachedIndexSmall.alreadyReached at ha
      rw [decide_eq_true_eq, Nat.mod_eq_of_lt (by omega)] at ha
      have := enqueued_push h hq
        (td.tripOfStopEvent.getD (td.stopEventGraph.toVertex.getD e noVertex) 0)
        (td.indexOfStopEvent.getD (td.stopEventGraph.toVertex.getD e noVertex) 0 + 1)
        (td.indexOfStopEvent.getD (td.stopEventGraph.toVertex.getD e noVertex) 0 + 1)
        ht (by omega) (by omega) (le_refl _)
      rw [List.append_assoc, ← hbegin] at this
      exact this

/-- The calls of a round keep the invariant of the queue. -/
theorem foldl_enqueue_enqueued {td : Data} (h : td.StopEventsOfTrips)
    (hsmall : ∀ t, t < td.numberOfTrips → td.numberOfStopsInTrip t ≤ 255)
    (taken : List TripLabel) :
    ∀ (calls : List EnqueueCall) (q : TripQueue),
      Enqueued td (taken ++ q.nextQueue) q.reachedIndex → (∀ c ∈ calls, c.Valid td) →
      Enqueued td (taken ++ (calls.foldl (enqueue td) q).nextQueue)
        (calls.foldl (enqueue td) q).reachedIndex := by
  intro calls
  induction calls with
  | nil => intro q hq _; exact hq
  | cons c rest ih =>
    intro q hq hc
    rw [List.foldl_cons]
    exact ih _ (enqueue_enqueued h hsmall hq c (hc c (List.mem_cons_self _ _)))
      (fun x hx => hc x (List.mem_cons_of_mem _ hx))

/-- The rounds of `scanTrips` keep the invariant of the queue. -/
theorem scanRounds_enqueued {td : Data} (h : td.StopEventsOfTrips)
    (hsmall : ∀ t, t < td.numberOfTrips → td.numberOfStopsInTrip t ≤ 255) :
    ∀ (rounds : List (List EnqueueCall)) (taken : List TripLabel) (q : TripQueue),
      Enqueued td (taken ++ q.nextQueue) q.reachedIndex →
      (∀ round ∈ rounds, ∀ c ∈ round, c.Valid td) →
      ∃ r, Enqueued td (scanRounds td rounds taken q) r := by
  intro rounds
  induction rounds with
  | nil => intro taken q hq _; exact ⟨_, hq⟩
  | cons round rest ih =>
    intro taken q hq hc
    unfold scanRounds
    refine ih _ _ ?_ (fun x hx => hc x (List.mem_cons_of_mem _ hx))
    apply foldl_enqueue_enqueued h hsmall (taken ++ q.nextQueue) round
    · rw [List.append_nil]; exact hq
    · exact hc round (List.mem_cons_self _ _)

/-- Of labels that do not overlap at most one holds a given stop event. -/
theorem countP_disjoint (e : Nat) : ∀ labels : List TripLabel,
    labels.Pairwise (fun a b => a.endEvent ≤ b.beginEvent ∨ b.endEvent ≤ a.beginEvent) →
    labels.countP (fun l => decide (l.beginEvent ≤ e ∧ e < l.endEvent)) ≤ 1 := by
  intro labels
  induction labels with
  | nil => intro _; simp
  | cons a rest ih =>
    intro hp
    rw [List.pairwise_cons] at hp
    rw [List.countP_cons]
    have h1 := ih hp.2
    by_cases ha : a.beginEvent ≤ e ∧ e < a.endEvent
    · have hz : rest.countP (fun l => decide (l.beginEvent ≤ e ∧ e < l.endEvent)) = 0 := by
        rw [List.countP_eq_zero]
        intro b hb
        have := hp.1 b hb
        simp only [decide_eq_true_eq]
        omega
      rw [hz]
      simp [ha]
    · simp only [ha, decide_False, Bool.false_eq_true, if_false]
      omega

/-- C36: for Trip-Based data whose stop events are those of its trips, with at most 255
stops in every trip, and every sequence of calls of `enqueue` that a run makes after
`clear()` (with a trip and a stop index that is not its last, or with an edge to a stop
event; first the calls of `evaluateInitialTransfers`, then those of the rounds of
`scanTrips`, each round taking the labels from the queue), every label that is enqueued
covers a range of stop events that is not empty and lies within one trip, behind its first
stop event; no two of the labels overlap; and every stop event lies in the range of at
most one of them. -/
theorem enqueued_disjoint (td : Data) (initial : List EnqueueCall)
    (rounds : List (List EnqueueCall)) (h : td.StopEventsOfTrips)
    (hsmall : ∀ t, t < td.numberOfTrips → td.numberOfStopsInTrip t ≤ 255)
    (hinitial : ∀ c ∈ initial, c.Valid td)
    (hrounds : ∀ round ∈ rounds, ∀ c ∈ round, c.Valid td) :
    (∀ l ∈ enqueuedLabels td initial rounds, l.beginEvent < l.endEvent ∧
      ∃ t, t < td.numberOfTrips ∧ td.firstStopEventOfTrip.getD t 0 < l.beginEvent ∧
        l.endEvent ≤ td.firstStopEventOfTrip.getD t 0 + td.numberOfStopsInTrip t) ∧
    (enqueuedLabels td initial rounds).Pairwise
      (fun a b => a.endEvent ≤ b.beginEvent ∨ b.endEvent ≤ a.beginEvent) ∧
    ∀ e, (enqueuedLabels td initial rounds).countP
      (fun l => decide (l.beginEvent ≤ e ∧ e < l.endEvent)) ≤ 1 := by
  have h0 : Enqueued td ([] ++ (⟨[], (ReachedIndexSmall.new td).clear⟩ : TripQueue).nextQueue)
      (⟨[], (ReachedIndexSmall.new td).clear⟩ : TripQueue).reachedIndex := enqueued_clear h
  have h1 := foldl_enqueue_enqueued h hsmall [] initial _ h0 hinitial
  obtain ⟨r, h2⟩ := scanRounds_enqueued h hsmall rounds [] _ h1 hrounds
  refine ⟨?_, h2.disjoint, fun e => countP_disjoint e _ h2.disjoint⟩
  intro l hl
  obtain ⟨t, ⟨w1, w2, w3, w4⟩, _⟩ := h2.within l hl
  exact ⟨w2, t, w1, w3, w4⟩

/-- The stop events of `smallGraphData` are those of its trips. -/
theorem smallGraphData_stopEvents : Data.smallGraphData.StopEventsOfTrips := by
  obtain ⟨td, h1, hs, _⟩ := Data.ofRaptor_spec Data.smallTimetable
    ⟨by decide, by decide, by decide, by decide, by decide⟩
  rw [Data.ofRaptor_smallTimetable] at h1
  obtain rfl := Option.some.inj h1
  exact ⟨hs.routes, hs.trips, hs.events, hs.route, hs.tripsOfRoute, hs.stopsInTrip,
    hs.ofEvent, hs.ofTrip⟩

/-- The theorem `enqueued_disjoint` at a run on `smallGraphData`: the second trip of the
first route is reached at its first stop and the first trip at its second stop, the edge to
the trip of the second route enqueues it, and the edge back to the second trip of the first
route enqueues nothing. -/
theorem enqueued_disjoint_witness :
    enqueuedLabels Data.smallGraphData [.trip 1 0, .trip 0 1] [[.edge 0, .edge 1], [.edge 1]] =
      [⟨4, 6⟩, ⟨2, 3⟩, ⟨7, 8⟩] ∧
    (enqueuedLabels Data.smallGraphData [.trip 1 0, .trip 0 1]
      [[.edge 0, .edge 1], [.edge 1]]).Pairwise
      (fun a b => a.endEvent ≤ b.beginEvent ∨ b.endEvent ≤ a.beginEvent) :=
  ⟨by decide,
    (enqueued_disjoint Data.smallGraphData [.trip 1 0, .trip 0 1]
      [[.edge 0, .edge 1], [.edge 1]] smallGraphData_stopEvents (by decide) (by decide)
      (by decide)).2.1⟩

end Query

end TripBased

namespace RAPTOR

namespace ULTRARAPTOR

open TripBased.ShortcutSearch

/-- The running minimum over a list of rounds. -/
theorem foldl_min_spec (g : Round → Int) : ∀ (L : List Round) (m0 : Int),
    L.foldl (fun m r => min m (g r)) m0 ≤ m0 ∧
    (∀ r ∈ L, L.foldl (fun m r => min m (g r)) m0 ≤ g r) ∧
    (L.foldl (fun m r => min m (g r)) m0 = m0 ∨
      ∃ r ∈ L, L.foldl (fun m r => min m (g r)) m0 = g r) := by
  intro L
  induction L with
  | nil => intro m0; exact ⟨le_refl _, fun r h => absurd h (List.not_mem_nil r), Or.inl rfl⟩
  | cons a L ih =>
    intro m0
    rw [List.foldl_cons]
    obtain ⟨h1, h2, h3⟩ := ih (min m0 (g a))
    refine ⟨le_trans h1 (min_le_left _ _), ?_, ?_⟩
    · intro r hr
      rcases List.mem_cons.mp hr with e | e
      · rw [e]; exact le_trans h1 (min_le_right _ _)
      · exact h2 r e
    · rcases h3 with e | ⟨r, hr, e⟩
      · rcases min_choice m0 (g a) with c | c
        · left; rw [e, c]
        · right; exact ⟨a, List.mem_cons_self _ _, by rw [e, c]⟩
      · right; exact ⟨r, List.mem_cons_of_mem _ hr, e⟩

/-- A value that is below the labels of a stop, at most `never`, and `never` or one of the
labels is the minimum over the rounds. -/
theorem roundsMin_unique {sep : Bool} (s : ULTRARAPTOR sep) (stop : Nat) (e : Int)
    (h1 : ∀ i, i < s.rounds.length → e ≤ (s.label i stop).arrivalTime) (h2 : e ≤ never)
    (h3 : e = never ∨ ∃ i, i < s.rounds.length ∧ e = (s.label i stop).arrivalTime) :
    e = roundsMin s stop := by
  obtain ⟨m1, m2, m3⟩ := foldl_min_spec (fun r => (r.getD stop default).arrivalTime) s.rounds never
  have hm : roundsMin s stop =
      s.rounds.foldl (fun m r => min m (r.getD stop default).arrivalTime) never := rfl
  rw [← hm] at m1 m2 m3
  apply le_antisymm
  · rcases m3 with c | ⟨r, hr, c⟩
    · rw [c]; exact h2
    · obtain ⟨i, hi, hir⟩ := List.getElem_of_mem hr
      have := h1 i hi
      unfold label at this
      rw [List.getD_eq_getElem _ _ hi, hir] at this
      rw [c]; exact this
  · rcases h3 with c | ⟨i, hi, c⟩
    · rw [c]; exact m1
    · rw [c]
      unfold label
      exact m2 _ (getD_mem_of_lt _ _ _ hi)

/-- The elements of a list after `updateAt`. -/
theorem mem_updateAt {α : Type} (l : List α) (i : Nat) (f : α → α) (x : α)
    (h : x ∈ l.updateAt i f) : x ∈ l ∨ ∃ y ∈ l, x = f y := by
  unfold List.updateAt at h
  split at h
  · rename_i y hy
    rcases List.mem_or_eq_of_mem_set h with e | e
    · exact Or.inl e
    · exact Or.inr ⟨y, List.getElem?_mem hy, e⟩
  · exact Or.inl h

/-- The getters of an entry after a setter, for combined entries. -/
theorem combined_set {b : Bool} (e : EarliestArrivalTime b) (hb : b = false) (time : Int) :
    (e.setArrivalTimeByRoute time).getArrivalTime = time ∧
    (e.setArrivalTimeByTransfer time).getArrivalTime = time := by
  subst hb
  exact ⟨rfl, rfl⟩

/-- What `arrivalByRoute` does: nothing, or it writes the time, which is below the entry
of the stop, to the label of the stop in the current round and to the entry. -/
theorem arrivalByRoute_view (cfg : Config)
    (s : ULTRARAPTOR cfg.SeparateRouteAndTransferEntries) (stop : Nat) (time : Int) :
    (arrivalByRoute cfg s stop time).2 = s ∨
    (time < (earliest s stop).getArrivalTimeByRoute ∧
      (arrivalByRoute cfg s stop time).2.rounds =
        s.rounds.updateAt (s.rounds.length - 1)
          (fun r => r.updateAt stop (fun l => { l with arrivalTime := time })) ∧
      (arrivalByRoute cfg s stop time).2.earliestArrival =
        s.earliestArrival.updateAt stop (fun e => e.setArrivalTimeByRoute time)) := by
  unfold arrivalByRoute
  split
  · exact Or.inl rfl
  · split
    · exact Or.inl rfl
    · rename_i h
      exact Or.inr ⟨not_le.mp h, rfl, rfl⟩

/-- What `arrivalByTransfer` does: nothing, or it writes the time, which is below the entry
of the stop, to the label of the stop in the current round and to the entry. -/
theorem arrivalByTransfer_view (cfg : Config) (data : Data)
    (s : ULTRARAPTOR cfg.SeparateRouteAndTransferEntries) (stop : Nat) (time : Int) :
    (arrivalByTransfer cfg data s stop time).2 = s ∨
    (time < (earliest s stop).getArrivalTimeByTransfer ∧
      (arrivalByTransfer cfg data s stop time).2.rounds =
        s.rounds.updateAt (s.rounds.length - 1)
          (fun r => r.updateAt stop (fun l => { l with arrivalTime := time })) ∧
      (arrivalByTransfer cfg data s stop time).2.earliestArrival =
        s.earliestArrival.updateAt stop (fun e => e.setArrivalTimeByTransfer time)) := by
  unfold arrivalByTransfer
  split
  · exact Or.inl rfl
  · split
    · exact Or.inl rfl
    · rename_i h
      refine Or.inr ⟨not_le.mp h, ?_, ?_⟩
      · simp only []; split <;> rfl
      · simp only []; split <;> rfl

/-- The labels after a write to the label of a stop in the current round. -/
theorem label_updateAt {sep : Bool} (s : ULTRARAPTOR sep) (stop : Nat)
    (f : EarliestArrivalLabel → EarliestArrivalLabel) (i t : Nat) :
    ((s.rounds.updateAt (s.rounds.length - 1) (fun r => r.updateAt stop f)).getD i []).getD t
        default =
      if i = s.rounds.length - 1 ∧ t = stop ∧ i < s.rounds.length ∧
          stop < (s.rounds.getD i []).length
      then f (s.label i t) else s.label i t := by
  unfold label
  by_cases hi : i = s.rounds.length - 1
  · by_cases hlt : i < s.rounds.length
    · rw [← hi, CH.getD_updateAt_self _ _ _ _ hlt]
      by_cases ht : t = stop
      · by_cases hs : stop < (s.rounds.getD i []).length
        · rw [if_pos ⟨rfl, ht, hlt, hs⟩, ht, CH.getD_updateAt_self _ _ _ _ hs]
        · rw [if_neg (fun x => hs x.2.2.2), CH.getD_updateAt_out _ _ _ (by omega)]
      · rw [if_neg (fun x => ht x.2.1), CH.getD_updateAt_other _ _ _ _ _ (fun e => ht e.symm)]
    · rw [if_neg (fun x => hlt x.2.2.1), CH.getD_updateAt_out _ _ _ (by omega)]
  · rw [if_neg (fun x => hi x.1), CH.getD_updateAt_other _ _ _ _ _ (fun e => hi e.symm)]

/-- The lengths of the rounds after a write to a label of the current round. -/
theorem sizes_updateAt (rounds : List Round) (n i stop : Nat)
    (f : EarliestArrivalLabel → EarliestArrivalLabel) (h : ∀ r ∈ rounds, r.length = n) :
    ∀ r ∈ rounds.updateAt i (fun r => r.updateAt stop f), r.length = n := by
  intro r hr
  rcases mem_updateAt _ _ _ _ hr with e | ⟨y, hy, e⟩
  · exact h r e
  · rw [e, CH.length_updateAt]; exact h y hy


/-- The invariant of the combined entries after a step that leaves the labels and entries
alone, or writes one time below the entry of a stop to the entry and to the label of the
stop in the current round. -/
theorem combined_of_pointwise (cfg : Config) (data : Data)
    (s s2 : ULTRARAPTOR cfg.SeparateRouteAndTransferEntries) (hc : Combined cfg data s)
    (upd : Bool) (stop : Nat) (time : Int)
    (hsize : s2.earliestArrival.length = data.numberOfStops + 1)
    (hsizes : ∀ r ∈ s2.rounds, r.length = data.numberOfStops + 1)
    (hlen : s2.rounds.length = s.rounds.length)
    (hlab : ∀ i t, (s2.label i t).arrivalTime =
      if upd = true ∧ i = s.rounds.length - 1 ∧ t = stop then time
      else (s.label i t).arrivalTime)
    (hear : ∀ t, (earliest s2 t).getArrivalTime =
      if upd = true ∧ t = stop then time else (earliest s t).getArrivalTime)
    (hlt : upd = true → time < (earliest s stop).getArrivalTime)
    (hne : upd = true → 0 < s.rounds.length) : Combined cfg data s2 := by
  refine ⟨hsize, hsizes, ?_, ?_, ?_, ?_⟩
  · intro t i hi
    rw [hlen] at hi
    rw [hear, hlab]
    by_cases hu : upd = true ∧ t = stop
    · rw [if_pos hu]
      by_cases hi2 : i = s.rounds.length - 1
      · rw [if_pos ⟨hu.1, hi2, hu.2⟩]
      · rw [if_neg (fun x => hi2 x.2.1), hu.2]
        exact le_of_lt (lt_of_lt_of_le (hlt hu.1) (hc.below stop i hi))
    · rw [if_neg hu, if_neg (fun x => hu ⟨x.1, x.2.2⟩)]
      exact hc.below t i hi
  · intro t
    rw [hear]
    by_cases hu : upd = true ∧ t = stop
    · rw [if_pos hu]
      exact le_of_lt (lt_of_lt_of_le (hlt hu.1) (hc.finite stop))
    · rw [if_neg hu]
      exact hc.finite t
  · intro t
    rw [hear]
    by_cases hu : upd = true ∧ t = stop
    · rw [if_pos hu]
      right
      refine ⟨s.rounds.length - 1, ?_, ?_⟩
      · have := hne hu.1
        omega
      · rw [hlab, if_pos ⟨hu.1, rfl, hu.2⟩]
    · rw [if_neg hu]
      rcases hc.attained t with e | ⟨i, hi, e⟩
      · exact Or.inl e
      · right
        refine ⟨i, by rw [hlen]; exact hi, ?_⟩
        rw [hlab, if_neg (fun x => hu ⟨x.1, x.2.2⟩)]
        exact e
  · intro t i j hij hj
    rw [hlen] at hj
    rw [hlab j t, hlab i t]
    have hi2 : i ≠ s.rounds.length - 1 := by omega
    have hni : ¬ (upd = true ∧ i = s.rounds.length - 1 ∧ t = stop) := fun x => hi2 x.2.1
    rw [if_neg hni]
    by_cases hu : upd = true ∧ j = s.rounds.length - 1 ∧ t = stop
    · rw [if_pos hu]
      right
      rw [hu.2.2]
      exact lt_of_lt_of_le (hlt hu.1) (hc.below stop i (by omega))
    · rw [if_neg hu]
      exact hc.falling t i j hij hj

/-- The invariant of the combined entries holds after `clear()`. -/
theorem combined_clear (cfg : Config) (data : Data)
    (s : ULTRARAPTOR cfg.SeparateRouteAndTransferEntries)
    (h : s.earliestArrival.length = data.numberOfStops + 1) :
    Combined cfg data (clear cfg data s) := by
  have hr : (clear cfg data s).rounds = [] := rfl
  refine ⟨?_, ?_, ?_, ?_, ?_, ?_⟩
  · show (s.earliestArrival.map _).length = _
    rw [List.length_map, h]
  · intro r hr2
    rw [hr] at hr2
    exact absurd hr2 (List.not_mem_nil r)
  · intro t i hi
    rw [hr] at hi
    exact absurd hi (Nat.not_lt_zero i)
  · intro t
    rw [earliest_clear, earliest_init_getArrivalTime]
  · intro t
    left
    rw [earliest_clear, earliest_init_getArrivalTime]
  · intro t i j _ hj
    rw [hr] at hj
    exact absurd hj (Nat.not_lt_zero j)

/-- The labels of a state after `startNewRound()`. -/
theorem label_startNewRound (data : Data) {sep : Bool} (s : ULTRARAPTOR sep) (i t : Nat) :
    ((s.startNewRound data).label i t).arrivalTime =
      if i < s.rounds.length then (s.label i t).arrivalTime else never := by
  unfold label startNewRound
  by_cases hi : i < s.rounds.length
  · rw [if_pos hi, TripBased.Data.getD_append_lt _ _ _ _ hi]
  · rw [if_neg hi, TripBased.Data.getD_append_ge _ _ _ _ (not_lt.mp hi)]
    by_cases h0 : i - s.rounds.length = 0
    · rw [h0]
      simp only [List.getD_cons_zero]
      by_cases ht : t < data.numberOfStops + 1
      · rw [List.getD_eq_getElem _ _ (by rw [List.length_replicate]; exact ht),
          List.getElem_replicate]
        rfl
      · rw [getD_of_length_le _ _ _ (by rw [List.length_replicate]; omega)]
        rfl
    · have e : [List.replicate (data.numberOfStops + 1) (default : EarliestArrivalLabel)].getD
          (i - s.rounds.length) [] = [] :=
        getD_of_length_le _ _ _ (by show 1 ≤ _; omega)
      rw [e]
      rfl

/-- The invariant of the combined entries is kept by `startNewRound()`. -/
theorem combined_startNewRound (cfg : Config) (data : Data)
    (s : ULTRARAPTOR cfg.SeparateRouteAndTransferEntries) (hc : Combined cfg data s) :
    Combined cfg data (s.startNewRound data) := by
  have hlen : (s.startNewRound data).rounds.length = s.rounds.length + 1 := by
    unfold startNewRound
    simp only [List.length_append, List.length_singleton]
  have he : ∀ t, earliest (s.startNewRound data) t = earliest s t := fun _ => rfl
  refine ⟨hc.size, ?_, ?_, ?_, ?_, ?_⟩
  · intro r hr
    unfold startNewRound at hr
    rcases List.mem_append.mp hr with e | e
    · exact hc.sizes r e
    · rw [List.mem_singleton.mp e, List.length_replicate]
  · intro t i _
    rw [he, label_startNewRound]
    by_cases hi : i < s.rounds.length
    · rw [if_pos hi]; exact hc.below t i hi
    · rw [if_neg hi]; exact hc.finite t
  · intro t
    rw [he]; exact hc.finite t
  · intro t
    rw [he]
    rcases hc.attained t with e | ⟨i, hi, e⟩
    · exact Or.inl e
    · right
      refine ⟨i, by rw [hlen]; omega, ?_⟩
      rw [label_startNewRound, if_pos hi]
      exact e
  · intro t i j hij hj
    rw [hlen] at hj
    rw [label_startNewRound, label_startNewRound]
    by_cases hj2 : j < s.rounds.length
    · rw [if_pos hj2, if_pos (lt_trans hij hj2)]
      exact hc.falling t i j hij hj2
    · rw [if_neg hj2]
      exact Or.inl rfl

/-- The invariant of the combined entries is kept by a write of a time below the entry of
a stop to the entry and to the label of the stop in the current round. -/
theorem combined_arrival (cfg : Config) (data : Data)
    (s s2 : ULTRARAPTOR cfg.SeparateRouteAndTransferEntries) (hc : Combined cfg data s)
    (hne : s.rounds ≠ []) (stop : Nat) (time : Int)
    (g : EarliestArrivalTime cfg.SeparateRouteAndTransferEntries →
      EarliestArrivalTime cfg.SeparateRouteAndTransferEntries)
    (hg : ∀ e, (g e).getArrivalTime = time)
    (hlt : time < (earliest s stop).getArrivalTime)
    (hr : s2.rounds = s.rounds.updateAt (s.rounds.length - 1)
      (fun r => r.updateAt stop (fun l => { l with arrivalTime := time })))
    (he : s2.earliestArrival = s.earliestArrival.updateAt stop g) :
    Combined cfg data s2 := by
  have hpos : 0 < s.rounds.length := List.length_pos.mpr hne
  apply combined_of_pointwise cfg data s s2 hc (decide (stop < data.numberOfStops + 1)) stop
    time
  · rw [he, CH.length_updateAt]; exact hc.size
  · rw [hr]; exact sizes_updateAt _ _ _ _ _ hc.sizes
  · rw [hr, CH.length_updateAt]
  · intro i t
    have h1 : s2.label i t = ((s.rounds.updateAt (s.rounds.length - 1)
        (fun r => r.updateAt stop (fun l => { l with arrivalTime := time }))).getD i []).getD t
          default := by
      unfold label
      rw [hr]
    rw [h1, label_updateAt]
    by_cases hi : i = s.rounds.length - 1
    · have hi2 : i < s.rounds.length := by omega
      have hsz : (s.rounds.getD i []).length = data.numberOfStops + 1 :=
        hc.sizes _ (getD_mem_of_lt _ _ _ hi2)
      by_cases hx : stop < data.numberOfStops + 1 ∧ t = stop
      · rw [if_pos ⟨hi, hx.2, hi2, by rw [hsz]; exact hx.1⟩,
          if_pos ⟨decide_eq_true hx.1, hi, hx.2⟩]
      · rw [if_neg (fun x => hx ⟨by rw [← hsz]; exact x.2.2.2, x.2.1⟩),
          if_neg (fun x => hx ⟨of_decide_eq_true x.1, x.2.2⟩)]
    · rw [if_neg (fun x => hi x.1), if_neg (fun x => hi x.2.1)]
  · intro t
    unfold earliest
    rw [he]
    by_cases hx : stop < data.numberOfStops + 1 ∧ t = stop
    · rw [if_pos ⟨decide_eq_true hx.1, hx.2⟩, hx.2,
        CH.getD_updateAt_self _ _ _ _ (by rw [hc.size]; exact hx.1)]
      exact hg _
    · rw [if_neg (fun x => hx ⟨of_decide_eq_true x.1, x.2⟩)]
      by_cases ht : t = stop
      · have hs : ¬ stop < data.numberOfStops + 1 := fun x => hx ⟨x, ht⟩
        rw [CH.getD_updateAt_out _ _ _ (by rw [hc.size]; omega)]
      · rw [CH.getD_updateAt_other _ _ _ _ _ (fun e => ht e.symm)]
  · intro _
    exact hlt
  · intro _
    exact hpos

/-- The invariant of the combined entries is kept by a step that leaves the arrival times
of the labels and the entries alone. -/
theorem combined_frame (cfg : Config) (data : Data)
    (s s2 : ULTRARAPTOR cfg.SeparateRouteAndTransferEntries) (hc : Combined cfg data s)
    (hr : s2.rounds = s.rounds) (he : s2.earliestArrival = s.earliestArrival) :
    Combined cfg data s2 := by
  apply combined_of_pointwise cfg data s s2 hc false 0 0
  · rw [he]; exact hc.size
  · rw [hr]; exact hc.sizes
  · rw [hr]
  · intro i t
    rw [if_neg (fun x => Bool.false_ne_true x.1)]
    unfold label
    rw [hr]
  · intro t
    rw [if_neg (fun x => Bool.false_ne_true x.1)]
    unfold earliest
    rw [he]
  · intro x
    exact absurd x Bool.false_ne_true
  · intro x
    exact absurd x Bool.false_ne_true

/-- The invariant of the combined entries is kept by a write to the other fields of a
label of the current round. -/
theorem combined_write (cfg : Config) (data : Data)
    (s : ULTRARAPTOR cfg.SeparateRouteAndTransferEntries) (hc : Combined cfg data s)
    (stop : Nat) (f : EarliestArrivalLabel → EarliestArrivalLabel)
    (hf : ∀ l, (f l).arrivalTime = l.arrivalTime) :
    Combined cfg data (s.modifyCurrent stop f) := by
  apply combined_of_pointwise cfg data s _ hc false 0 0
  · exact hc.size
  · exact sizes_updateAt _ _ _ _ _ hc.sizes
  · exact CH.length_updateAt _ _ _
  · intro i t
    rw [if_neg (fun x => Bool.false_ne_true x.1)]
    have h1 : (s.modifyCurrent stop f).label i t = ((s.rounds.updateAt (s.rounds.length - 1)
        (fun r => r.updateAt stop f)).getD i []).getD t default := rfl
    rw [h1, label_updateAt]
    split
    · exact hf _
    · rfl
  · intro t
    rw [if_neg (fun x => Bool.false_ne_true x.1)]
    rfl
  · intro x
    exact absurd x Bool.false_ne_true
  · intro x
    exact absurd x Bool.false_ne_true

/-- Every state of a query with combined entries satisfies the invariant. -/
theorem queryState_combined (cfg : Config) (data : Data)
    (hsep : cfg.SeparateRouteAndTransferEntries = false)
    (s : ULTRARAPTOR cfg.SeparateRouteAndTransferEntries) (h : QueryState cfg data s) :
    Combined cfg data s := by
  induction h with
  | clear s hs => exact combined_clear cfg data s hs
  | newRound _ ih => exact combined_startNewRound cfg data _ ih
  | @byRoute s stop time _ hne ih =>
    rcases arrivalByRoute_view cfg s stop time with e | ⟨hlt, hr, he⟩
    · rw [e]; exact ih
    · rw [(EarliestArrivalTime.combined_getters _ hsep).1] at hlt
      exact combined_arrival cfg data s _ ih hne stop time _
        (fun e => (combined_set e hsep time).1) hlt hr he
  | @byTransfer s stop time _ hne ih =>
    rcases arrivalByTransfer_view cfg data s stop time with e | ⟨hlt, hr, he⟩
    · rw [e]; exact ih
    · rw [(EarliestArrivalTime.combined_getters _ hsep).2] at hlt
      exact combined_arrival cfg data s _ ih hne stop time _
        (fun e => (combined_set e hsep time).2) hlt hr he
  | write stop f _ hf ih => exact combined_write cfg data _ ih stop f hf
  | frame _ hr he ih => exact combined_frame cfg data _ _ ih hr he


/-- A property kept by every step of a fold is kept by the fold. -/
theorem foldl_keeps {α β : Type} (P : β → Prop) (f : β → α → β)
    (h : ∀ b a, P b → P (f b a)) : ∀ (l : List α) (b : β), P b → P (l.foldl f b) := by
  intro l
  induction l with
  | nil => intro b hb; exact hb
  | cons a l ih => intro b hb; exact ih _ (h b a hb)

/-- A list is not empty after `updateAt`. -/
theorem updateAt_ne_nil {α : Type} (l : List α) (i : Nat) (f : α → α) (h : l ≠ []) :
    l.updateAt i f ≠ [] := by
  intro e
  have := CH.length_updateAt l i f
  rw [e] at this
  exact h (List.length_eq_zero.mp this.symm)

/-- A state with a started round is followed by one after `arrivalByRoute`. -/
theorem started_byRoute (cfg : Config) (data : Data)
    (s : ULTRARAPTOR cfg.SeparateRouteAndTransferEntries) (stop : Nat) (time : Int)
    (h : QueryState cfg data s ∧ s.rounds ≠ []) :
    QueryState cfg data (arrivalByRoute cfg s stop time).2 ∧
      (arrivalByRoute cfg s stop time).2.rounds ≠ [] := by
  refine ⟨QueryState.byRoute stop time h.1 h.2, ?_⟩
  rcases arrivalByRoute_view cfg s stop time with e | ⟨_, hr, _⟩
  · rw [e]; exact h.2
  · rw [hr]; exact updateAt_ne_nil _ _ _ h.2

/-- A state with a started round is followed by one after `arrivalByTransfer`. -/
theorem started_byTransfer (cfg : Config) (data : Data)
    (s : ULTRARAPTOR cfg.SeparateRouteAndTransferEntries) (stop : Nat) (time : Int)
    (h : QueryState cfg data s ∧ s.rounds ≠ []) :
    QueryState cfg data (arrivalByTransfer cfg data s stop time).2 ∧
      (arrivalByTransfer cfg data s stop time).2.rounds ≠ [] := by
  refine ⟨QueryState.byTransfer stop time h.1 h.2, ?_⟩
  rcases arrivalByTransfer_view cfg data s stop time with e | ⟨_, hr, _⟩
  · rw [e]; exact h.2
  · rw [hr]; exact updateAt_ne_nil _ _ _ h.2

/-- A state with a started round is followed by one after a write to the other fields of a
label. -/
theorem started_write (cfg : Config) (data : Data)
    (s : ULTRARAPTOR cfg.SeparateRouteAndTransferEntries) (stop : Nat)
    (f : EarliestArrivalLabel → EarliestArrivalLabel)
    (hf : ∀ l, (f l).arrivalTime = l.arrivalTime)
    (h : QueryState cfg data s ∧ s.rounds ≠ []) :
    QueryState cfg data (s.modifyCurrent stop f) ∧ (s.modifyCurrent stop f).rounds ≠ [] :=
  ⟨QueryState.write stop f h.1 hf, updateAt_ne_nil _ _ _ h.2⟩

/-- A state with a started round is followed by one after a write to other members. -/
theorem started_frame (cfg : Config) (data : Data)
    (s s2 : ULTRARAPTOR cfg.SeparateRouteAndTransferEntries)
    (hr : s2.rounds = s.rounds) (he : s2.earliestArrival = s.earliestArrival)
    (h : QueryState cfg data s ∧ s.rounds ≠ []) :
    QueryState cfg data s2 ∧ s2.rounds ≠ [] :=
  ⟨QueryState.frame h.1 hr he, by rw [hr]; exact h.2⟩

/-- A state with a started round is followed by one after an insertion into
`stopsUpdatedByTransfer`. -/
theorem started_insertTransfer (cfg : Config) (data : Data)
    (s : ULTRARAPTOR cfg.SeparateRouteAndTransferEntries) (stop : Nat)
    (h : QueryState cfg data s ∧ s.rounds ≠ []) :
    QueryState cfg data
        { s with stopsUpdatedByTransfer := s.stopsUpdatedByTransfer.insert stop } ∧
      ({ s with stopsUpdatedByTransfer := s.stopsUpdatedByTransfer.insert stop } :
        ULTRARAPTOR cfg.SeparateRouteAndTransferEntries).rounds ≠ [] :=
  started_frame cfg data s _ rfl rfl h

/-- A round is started after `startNewRound()`. -/
theorem started_newRound (cfg : Config) (data : Data)
    (s : ULTRARAPTOR cfg.SeparateRouteAndTransferEntries) (h : QueryState cfg data s) :
    QueryState cfg data (s.startNewRound data) ∧ (s.startNewRound data).rounds ≠ [] := by
  refine ⟨QueryState.newRound h, ?_⟩
  unfold startNewRound
  simp

/-- A state with a started round is followed by one after `setTransferParent`. -/
theorem started_setTransferParent (cfg : Config) (data : Data)
    (s : ULTRARAPTOR cfg.SeparateRouteAndTransferEntries) (stop parent : Nat)
    (parentDepartureTime : Int) (transferId : Nat)
    (h : QueryState cfg data s ∧ s.rounds ≠ []) :
    QueryState cfg data (s.setTransferParent stop parent parentDepartureTime transferId) ∧
      (s.setTransferParent stop parent parentDepartureTime transferId).rounds ≠ [] :=
  started_write cfg data s stop _ (fun _ => rfl) h

/-- The step of a transfer relaxation: `arrivalByTransfer` and, if the arrival is
accepted, the parent fields. -/
theorem started_transferStep (cfg : Config) (data : Data)
    (s : ULTRARAPTOR cfg.SeparateRouteAndTransferEntries) (stop : Nat) (time : Int)
    (parent : ULTRARAPTOR cfg.SeparateRouteAndTransferEntries → Nat)
    (target : ULTRARAPTOR cfg.SeparateRouteAndTransferEntries → Nat)
    (parentDepartureTime : Int) (transferId : Nat)
    (h : QueryState cfg data s ∧ s.rounds ≠ []) :
    QueryState cfg data
      (if (arrivalByTransfer cfg data s stop time).1 = true then
        (arrivalByTransfer cfg data s stop time).2.setTransferParent
          (target (arrivalByTransfer cfg data s stop time).2)
          (parent (arrivalByTransfer cfg data s stop time).2) parentDepartureTime transferId
      else (arrivalByTransfer cfg data s stop time).2) ∧
    (if (arrivalByTransfer cfg data s stop time).1 = true then
        (arrivalByTransfer cfg data s stop time).2.setTransferParent
          (target (arrivalByTransfer cfg data s stop time).2)
          (parent (arrivalByTransfer cfg data s stop time).2) parentDepartureTime transferId
      else (arrivalByTransfer cfg data s stop time).2).rounds ≠ [] := by
  have h1 := started_byTransfer cfg data s stop time h
  split
  · exact started_setTransferParent cfg data _ _ _ _ _ h1
  · exact h1

/-- A round is started after `initialize`. -/
theorem started_initializeQuery (cfg : Config) (data : Data)
    (s : ULTRARAPTOR cfg.SeparateRouteAndTransferEntries) (source : Nat) (departureTime : Int)
    (target : Nat) (h : QueryState cfg data s) :
    QueryState cfg data (s.initializeQuery cfg data source departureTime target) ∧
      (s.initializeQuery cfg data source departureTime target).rounds ≠ [] := by
  unfold initializeQuery
  have h1 : QueryState cfg data
      ({ (if data.isStop target = true then
          { ({ s with sourceVertex := source, targetVertex := target } :
              ULTRARAPTOR cfg.SeparateRouteAndTransferEntries) with targetStop := target }
        else ({ s with sourceVertex := source, targetVertex := target } :
              ULTRARAPTOR cfg.SeparateRouteAndTransferEntries)) with
        sourceDepartureTime := departureTime } :
          ULTRARAPTOR cfg.SeparateRouteAndTransferEntries) := by
    refine QueryState.frame h ?_ ?_
    · simp only []; split <;> rfl
    · simp only []; split <;> rfl
  have h2 := started_newRound cfg data _ h1
  simp only []
  have h3 : ∀ x : ULTRARAPTOR cfg.SeparateRouteAndTransferEntries,
      (QueryState cfg data x ∧ x.rounds ≠ []) →
      (QueryState cfg data (if cfg.SeparateRouteAndTransferEntries = true then
          x.startNewRound data else x) ∧
        (if cfg.SeparateRouteAndTransferEntries = true then
          x.startNewRound data else x).rounds ≠ []) := by
    intro x hx
    split
    · exact started_newRound cfg data _ hx.1
    · exact hx
  apply h3
  split
  · have h4 := started_byRoute cfg data _ source departureTime h2
    split
    · exact started_write cfg data _ source _ (fun _ => rfl) h4
    · exact started_insertTransfer cfg data _ source
        (started_write cfg data _ source _ (fun _ => rfl) h4)
  · exact h2


/-- A state with a started round is followed by one after `relaxInitialTransfers`. -/
theorem started_relaxInitialTransfers (cfg : Config) (data : Data) (it : InitialTransfers)
    (s : ULTRARAPTOR cfg.SeparateRouteAndTransferEntries) (sourceDepartureTime : Int)
    (h : QueryState cfg data s ∧ s.rounds ≠ []) :
    QueryState cfg data (s.relaxInitialTransfers cfg data it sourceDepartureTime) ∧
      (s.relaxInitialTransfers cfg data it sourceDepartureTime).rounds ≠ [] := by
  unfold relaxInitialTransfers
  simp only []
  have h1 := foldl_keeps
    (fun x : ULTRARAPTOR cfg.SeparateRouteAndTransferEntries =>
      QueryState cfg data x ∧ x.rounds ≠ [])
    (fun s stop =>
      if stop = s.targetStop then s
      else
        if (arrivalByTransfer cfg data s stop
            (sourceDepartureTime + it.getForwardDistance stop)).1 = true then
          (arrivalByTransfer cfg data s stop
            (sourceDepartureTime + it.getForwardDistance stop)).2.setTransferParent stop
            (arrivalByTransfer cfg data s stop
              (sourceDepartureTime + it.getForwardDistance stop)).2.sourceVertex
            sourceDepartureTime noEdge
        else (arrivalByTransfer cfg data s stop
            (sourceDepartureTime + it.getForwardDistance stop)).2)
    (by
      intro b a hb
      simp only []
      split
      · exact hb
      · exact started_transferStep cfg data b a _ (fun x => x.sourceVertex) (fun _ => a)
          sourceDepartureTime noEdge hb)
    it.getForwardPOIs s h
  split
  · exact h1
  · split
    · exact started_transferStep cfg data _ _ _ (fun x => x.sourceVertex)
        (fun x => x.targetStop) sourceDepartureTime noEdge h1
    · exact h1

/-- A state with a started round is followed by one after
`collectRoutesServingUpdatedStops`. -/
theorem started_collectRoutes (cfg : Config) (data : Data)
    (s : ULTRARAPTOR cfg.SeparateRouteAndTransferEntries)
    (h : QueryState cfg data s ∧ s.rounds ≠ []) :
    QueryState cfg data (s.collectRoutesServingUpdatedStops data) ∧
      (s.collectRoutesServingUpdatedStops data).rounds ≠ [] :=
  started_frame cfg data s _ rfl rfl h

/-- A state with a started round is followed by one after the scan of a route. -/
theorem started_scanRoute (cfg : Config) (data : Data) (route tripSize stops firstTrip : Nat) :
    ∀ (fuel : Nat) (s : ULTRARAPTOR cfg.SeparateRouteAndTransferEntries)
      (stopIndex trip parentIndex : Nat), (QueryState cfg data s ∧ s.rounds ≠ []) →
      QueryState cfg data
          (scanRoute cfg data route tripSize stops firstTrip fuel s stopIndex trip parentIndex) ∧
        (scanRoute cfg data route tripSize stops firstTrip fuel s stopIndex trip
          parentIndex).rounds ≠ [] := by
  intro fuel
  induction fuel with
  | zero => intro s _ _ _ h; exact h
  | succ fuel ih =>
    intro s stopIndex trip parentIndex h
    unfold scanRoute
    split
    · simp only []
      apply ih
      have h1 := started_byRoute cfg data s (data.stopIdAt (stops + (stopIndex + 1)))
        (data.stopEventAt ((earlierTrip data
          (s.previousLabel (data.stopIdAt (stops + stopIndex))).arrivalTime tripSize stopIndex
          firstTrip (trip + 1) trip parentIndex).1 + (stopIndex + 1))).arrivalTime h
      split
      · exact started_write cfg data _ _ _ (fun _ => rfl) h1
      · exact h1
    · exact h

/-- A state with a started round is followed by one after `scanRoutes`. -/
theorem started_scanRoutes (cfg : Config) (data : Data)
    (s : ULTRARAPTOR cfg.SeparateRouteAndTransferEntries)
    (h : QueryState cfg data s ∧ s.rounds ≠ []) :
    QueryState cfg data (s.scanRoutes cfg data) ∧ (s.scanRoutes cfg data).rounds ≠ [] := by
  unfold scanRoutes
  simp only []
  refine foldl_keeps
    (fun x : ULTRARAPTOR cfg.SeparateRouteAndTransferEntries =>
      QueryState cfg data x ∧ x.rounds ≠ []) _ ?_ _ _ ?_
  · intro b a hb
    exact started_scanRoute cfg data _ _ _ _ _ _ _ _ _ hb
  · exact started_frame cfg data s _ rfl rfl h

/-- A state with a started round is followed by one after the relaxation of the transfers
of one stop. -/
theorem started_relaxStop (cfg : Config) (data : Data) (it : InitialTransfers)
    (s : ULTRARAPTOR cfg.SeparateRouteAndTransferEntries) (stop : Nat)
    (h : QueryState cfg data s ∧ s.rounds ≠ []) :
    QueryState cfg data (relaxStop cfg data it s stop) ∧
      (relaxStop cfg data it s stop).rounds ≠ [] := by
  unfold relaxStop
  simp only []
  generalize (if cfg.SeparateRouteAndTransferEntries = true then
    (s.previousLabel stop).arrivalTime else (s.currentLabel stop).arrivalTime) = eat
  have h1 := foldl_keeps
    (fun x : ULTRARAPTOR cfg.SeparateRouteAndTransferEntries =>
      QueryState cfg data x ∧ x.rounds ≠ [])
    (fun s edge =>
      if data.transferGraph.toVertex.getD edge noVertex = s.targetStop then s
      else
        if (arrivalByTransfer cfg data s (data.transferGraph.toVertex.getD edge noVertex)
            (eat + data.transferGraph.travelTime.getD edge 0)).1 = true then
          (arrivalByTransfer cfg data s (data.transferGraph.toVertex.getD edge noVertex)
            (eat + data.transferGraph.travelTime.getD edge 0)).2.setTransferParent
            (data.transferGraph.toVertex.getD edge noVertex) stop eat edge
        else (arrivalByTransfer cfg data s (data.transferGraph.toVertex.getD edge noVertex)
            (eat + data.transferGraph.travelTime.getD edge 0)).2)
    (by
      intro b a hb
      simp only []
      split
      · exact hb
      · exact started_transferStep cfg data b _ _ (fun _ => stop)
          (fun _ => data.transferGraph.toVertex.getD a noVertex) eat a hb)
    (data.transferGraph.edgesFrom stop) s h
  have h2 : ∀ x : ULTRARAPTOR cfg.SeparateRouteAndTransferEntries,
      (QueryState cfg data x ∧ x.rounds ≠ []) →
      (QueryState cfg data
          (if it.getBackwardDistance stop ≠ INFTY then
            if (arrivalByTransfer cfg data x x.targetStop
                (eat + it.getBackwardDistance stop)).1 = true then
              (arrivalByTransfer cfg data x x.targetStop
                (eat + it.getBackwardDistance stop)).2.setTransferParent
                (arrivalByTransfer cfg data x x.targetStop
                  (eat + it.getBackwardDistance stop)).2.targetStop stop eat noEdge
            else (arrivalByTransfer cfg data x x.targetStop
                (eat + it.getBackwardDistance stop)).2
          else x) ∧
        (if it.getBackwardDistance stop ≠ INFTY then
            if (arrivalByTransfer cfg data x x.targetStop
                (eat + it.getBackwardDistance stop)).1 = true then
              (arrivalByTransfer cfg data x x.targetStop
                (eat + it.getBackwardDistance stop)).2.setTransferParent
                (arrivalByTransfer cfg data x x.targetStop
                  (eat + it.getBackwardDistance stop)).2.targetStop stop eat noEdge
            else (arrivalByTransfer cfg data x x.targetStop
                (eat + it.getBackwardDistance stop)).2
          else x).rounds ≠ []) := by
    intro x hx
    split
    · exact started_transferStep cfg data x _ _ (fun _ => stop) (fun y => y.targetStop) eat
        noEdge hx
    · exact hx
  have h3 := h2 _ h1
  have h5 : ∀ x : ULTRARAPTOR cfg.SeparateRouteAndTransferEntries,
      (QueryState cfg data x ∧ x.rounds ≠ []) →
      (QueryState cfg data
          (if cfg.SeparateRouteAndTransferEntries = true then
            if (arrivalByTransfer cfg data x stop
                (eat + getMinTransferTime cfg data stop)).1 = true then
              (arrivalByTransfer cfg data x stop
                (eat + getMinTransferTime cfg data stop)).2.modifyCurrent stop (fun l =>
                  { l with parent := stop, parentDepartureTime := eat, usesRoute := false })
            else (arrivalByTransfer cfg data x stop
                (eat + getMinTransferTime cfg data stop)).2
          else { x with stopsUpdatedByTransfer := x.stopsUpdatedByTransfer.insert stop }) ∧
        (if cfg.SeparateRouteAndTransferEntries = true then
            if (arrivalByTransfer cfg data x stop
                (eat + getMinTransferTime cfg data stop)).1 = true then
              (arrivalByTransfer cfg data x stop
                (eat + getMinTransferTime cfg data stop)).2.modifyCurrent stop (fun l =>
                  { l with parent := stop, parentDepartureTime := eat, usesRoute := false })
            else (arrivalByTransfer cfg data x stop
                (eat + getMinTransferTime cfg data stop)).2
          else { x with stopsUpdatedByTransfer :=
            x.stopsUpdatedByTransfer.insert stop }).rounds ≠ []) := by
    intro x hx
    have h4 := started_byTransfer cfg data x stop (eat + getMinTransferTime cfg data stop) hx
    by_cases hsep : cfg.SeparateRouteAndTransferEntries = true
    · rw [if_pos hsep]
      by_cases hr : (arrivalByTransfer cfg data x stop
          (eat + getMinTransferTime cfg data stop)).1 = true
      · rw [if_pos hr]
        exact started_write cfg data _ _ _ (fun _ => rfl) h4
      · rw [if_neg hr]
        exact h4
    · rw [if_neg hsep]
      exact started_insertTransfer cfg data x stop hx
  exact h5 _ h3

/-- A state with a started round is followed by one after `relaxIntermediateTransfers`. -/
theorem started_relaxIntermediateTransfers (cfg : Config) (data : Data)
    (it : InitialTransfers) (s : ULTRARAPTOR cfg.SeparateRouteAndTransferEntries)
    (h : QueryState cfg data s ∧ s.rounds ≠ []) :
    QueryState cfg data (s.relaxIntermediateTransfers cfg data it) ∧
      (s.relaxIntermediateTransfers cfg data it).rounds ≠ [] := by
  unfold relaxIntermediateTransfers
  simp only []
  refine foldl_keeps
    (fun x : ULTRARAPTOR cfg.SeparateRouteAndTransferEntries =>
      QueryState cfg data x ∧ x.rounds ≠ []) _ ?_ _ _ ?_
  · intro b a hb
    exact started_relaxStop cfg data it b a hb
  · exact started_frame cfg data s _ rfl rfl h

/-- A state with a started round is followed by one after the rounds of `run`. -/
theorem started_roundLoop (cfg : Config) (data : Data) (it : InitialTransfers) :
    ∀ (rounds : Nat) (s : ULTRARAPTOR cfg.SeparateRouteAndTransferEntries),
      (QueryState cfg data s ∧ s.rounds ≠ []) →
      QueryState cfg data (roundLoop cfg data it rounds s) ∧
        (roundLoop cfg data it rounds s).rounds ≠ [] := by
  intro rounds
  induction rounds with
  | zero => intro s h; exact h
  | succ rounds ih =>
    intro s h
    unfold roundLoop
    simp only []
    have h1 := started_scanRoutes cfg data _
      (started_collectRoutes cfg data _ (started_newRound cfg data s h.1))
    split
    · exact h1
    · apply ih
      apply started_relaxIntermediateTransfers
      split
      · exact started_newRound cfg data _ h1.1
      · exact h1

/-- The state after `run` is a state of the query in which a round is started. -/
theorem started_run (cfg : Config) (data : Data) (it : Nat → Nat → InitialTransfers)
    (s : ULTRARAPTOR cfg.SeparateRouteAndTransferEntries) (source : Nat) (departureTime : Int)
    (target : Nat) (maxRounds : Nat)
    (h : s.earliestArrival.length = data.numberOfStops + 1) :
    QueryState cfg data (run cfg data it s source departureTime target maxRounds) ∧
      (run cfg data it s source departureTime target maxRounds).rounds ≠ [] := by
  unfold run
  simp only []
  exact started_roundLoop cfg data _ _ _
    (started_relaxInitialTransfers cfg data _ _ _
      (started_initializeQuery cfg data _ _ _ _ (QueryState.clear s h)))


/-- Claim C38, counterexample.  In the query (A, 08:00, B) of the walking-versus-trip
network with combined entries two rounds are started; the source A is updated in round 0,
where its label holds 08:00 (28800), and is not updated in round 1, where its label keeps
the initial value `never`: the arrival time stored for A in the later round is not smaller
than the one of the earlier round in which A was updated. -/
theorem later_round_label_not_smaller :
    targetPruningConfig.SeparateRouteAndTransferEntries = false ∧
    targetPruningConfig.RoundFactor = 1 ∧
    walkVsTripFinal.rounds.length = 2 ∧
    (walkVsTripFinal.label 0 0).arrivalTime = 28800 ∧
    (walkVsTripFinal.label 1 0).arrivalTime = never ∧
    ¬ ((walkVsTripFinal.label 1 0).arrivalTime < (walkVsTripFinal.label 0 0).arrivalTime) := by
  decide

/-- Claim C38, amended.  With combined route and transfer entries (`RoundFactor = 1`), in
every state of a query (after `clear()`, after `startNewRound()`, after each call of
`arrivalByRoute` or `arrivalByTransfer` and after each write to the other fields of a
label), for every stop `earliestArrival[stop]` is the minimum of `never` and the arrival
times `rounds[i][stop].arrivalTime` of the rounds started so far, and the arrival time of a
later round in which the stop was updated (its label is not `never`) is strictly smaller
than the arrival time of every earlier round.  The state that `run` returns, for every
number of rounds, is such a state. -/
theorem earliestArrival_is_minimum_of_rounds (cfg : Config) (data : Data)
    (hsep : cfg.SeparateRouteAndTransferEntries = false) :
    cfg.RoundFactor = 1 ∧
    (∀ s : ULTRARAPTOR cfg.SeparateRouteAndTransferEntries, QueryState cfg data s →
      ∀ stop,
        (earliest s stop).getArrivalTime = roundsMin s stop ∧
        ∀ i j, i < j → j < s.rounds.length → (s.label j stop).arrivalTime ≠ never →
          (s.label j stop).arrivalTime < (s.label i stop).arrivalTime) ∧
    (∀ (it : Nat → Nat → InitialTransfers)
        (s : ULTRARAPTOR cfg.SeparateRouteAndTransferEntries) (source : Nat)
        (departureTime : Int) (target maxRounds : Nat),
      s.earliestArrival.length = data.numberOfStops + 1 →
      QueryState cfg data (run cfg data it s source departureTime target maxRounds)) := by
  refine ⟨?_, ?_, ?_⟩
  · unfold Config.RoundFactor
    rw [hsep]
    rfl
  · intro s hs stop
    have hc := queryState_combined cfg data hsep s hs
    refine ⟨roundsMin_unique s stop _ (hc.below stop) (hc.finite stop) (hc.attained stop), ?_⟩
    intro i j hij hj hne
    rcases hc.falling stop i j hij hj with e | e
    · exact absurd e hne
    · exact e
  · intro it s source departureTime target maxRounds h
    exact (started_run cfg data it s source departureTime target maxRounds h).1

/-- Claim C38, witness: the query (A, 08:00, B) in the walking-versus-trip network when
walking takes 900 s.  B is reached by walking at 08:15 (29700) in round 0 and by the trip
at 08:10 (29400) in round 1; `earliestArrival[B]` is the minimum 29400. -/
theorem earliestArrival_is_minimum_of_rounds_witness :
    targetPruningConfig.SeparateRouteAndTransferEntries = false ∧
    (init targetPruningConfig walkVsTripData).earliestArrival.length =
      walkVsTripData.numberOfStops + 1 ∧
    (earliest slowWalkFinal 1).getArrivalTime = roundsMin slowWalkFinal 1 ∧
    roundsMin slowWalkFinal 1 = 29400 ∧
    (slowWalkFinal.label 0 1).arrivalTime = 29700 ∧
    (slowWalkFinal.label 1 1).arrivalTime < (slowWalkFinal.label 0 1).arrivalTime :=
  ⟨rfl, by decide,
    ((earliestArrival_is_minimum_of_rounds targetPruningConfig walkVsTripData rfl).2.1
      slowWalkFinal
      ((earliestArrival_is_minimum_of_rounds targetPruningConfig walkVsTripData rfl).2.2
        slowWalkTransfers (init targetPruningConfig walkVsTripData) 0 28800 1 50
        (by decide)) 1).1,
    by decide, by decide,
    ((earliestArrival_is_minimum_of_rounds targetPruningConfig walkVsTripData rfl).2.1
      slowWalkFinal
      ((earliestArrival_is_minimum_of_rounds targetPruningConfig walkVsTripData rfl).2.2
        slowWalkTransfers (init targetPruningConfig walkVsTripData) 0 28800 1 50
        (by decide)) 1).2 0 1 (by decide) (by decide) (by decide)⟩

end ULTRARAPTOR

end RAPTOR
